import Mathlib

/-!
# Judy arrays for strings (`judy64j.c`): embedding and verification

The 64 bit, little endian build of `judy64j.c` is embedded as pure Lean functions.

Modelling conventions.

* A `JudySlot` word is a `JNode`: either a plain word (`JNode.word v`, the value `0` being the
  empty slot and any other value a caller payload), or a tagged reference, which is represented
  by the node it refers to (`lin`, `radix`, `span`).  A reference is followed by pattern
  matching, so the arena allocator does not appear at this level: `judy_alloc` is the
  construction of a zeroed node and `judy_free` drops a node.
* The allocator is embedded on its own, as `judy_alloc` and `judy_free` over the fields
  `judy->reuse` and `judy->seg` and a memory of bytes (`Arena`).  `judy_promote_blocks` puts the
  two levels side by side for `judy_promote`: the content of the new node is that of the
  tree level, the blocks are those of the allocator.  `judy_open_arena` and `judy_data` are the
  other two functions that move `seg->next`, and `judy_calls` runs a list of calls; an address
  is a natural number, the field `seg->next` is a `uint` and wraps at `2 ^ 32`.  `key_store`
  and `key_load` are the byte loop that writes a key field and the masked read of the scan.
* The key field of a linear node is kept as the integer read by
  `*(judyvalue *)(base + slot * keysize) & JudyMask[keysize]`; byte `i` of the field in memory
  is byte `i` of that integer (little endian).  Child `slot` of a node is `node[-slot-1]`.
* The cursor `judy->stack[1..level]` is the list `Judy.stack`, top frame first, so that
  `judy->level` is its length.  A frame holds the node it refers to; the functions that write
  through a node pointer (`judy_cell`, `judy_del`, the store of a caller into a cell) rebuild
  the frames below, which all see the same memory in C.
* Every loop is a recursive function on a fuel argument; the entry points supply the fuel.  A
  result `none` means that the fuel ran out, that a word which is not a reference was followed,
  that the cursor would need more than `judy->max` frames, that `(int)(max - off)` is negative
  in a span (the code then reads outside the node), or that `judy_key` reads the bytes in front
  of a node when nothing is known of them; nothing is claimed for those runs.
* Integer widths.  `judy->max` is a `uint`: `judy_open` computes `max + 1` modulo `2 ^ 32`, and
  it takes the structure with its cursor from one segment without a check, so that the results
  on arrays are stated for `max <= JUDY_open_max` (4087), where the structure fits.  A key of
  such an array has fewer than `2 ^ 31` bytes, so that `(int)(max - off)` is not negative.
-/

namespace JudyArray


/-! ## Constants and tables -/

@[reducible] def JUDY_key_mask : Nat := 0x07
@[reducible] def JUDY_key_size : Nat := 8
@[reducible] def JUDY_slot_size : Nat := 8
@[reducible] def JUDY_span_bytes : Nat := 3 * JUDY_key_size

@[reducible] def JUDY_radix : Nat := 0
@[reducible] def JUDY_1 : Nat := 1
@[reducible] def JUDY_2 : Nat := 2
@[reducible] def JUDY_4 : Nat := 3
@[reducible] def JUDY_8 : Nat := 4
@[reducible] def JUDY_16 : Nat := 5
@[reducible] def JUDY_32 : Nat := 6
@[reducible] def JUDY_span : Nat := 7
@[reducible] def JUDY_max : Nat := JUDY_32

@[reducible] def JUDY_cache_line : Nat := 8
@[reducible] def JUDY_seg : Nat := 65536

/-- The table `JudySize[]`: node size in bytes for each node type. -/
def JudySize (type : Nat) : Nat :=
  [JUDY_slot_size * 16,
   JUDY_slot_size + JUDY_key_size,
   2 * JUDY_slot_size + 2 * JUDY_key_size,
   4 * JUDY_slot_size + 4 * JUDY_key_size,
   8 * JUDY_slot_size + 8 * JUDY_key_size,
   16 * JUDY_slot_size + 16 * JUDY_key_size,
   32 * JUDY_slot_size + 32 * JUDY_key_size,
   JUDY_span_bytes + JUDY_slot_size].getD type 0

/-- The table `JudyMask[9]`. -/
def JudyMask (n : Nat) : Nat :=
  [0, 0xff, 0xffff, 0xffffff, 0xffffffff,
   0xffffffffff, 0xffffffffffff, 0xffffffffffffff, 0xffffffffffffffff].getD n 0

/-! ## Data model -/

/-- A `JudySlot` word together with what it refers to. -/
inductive JNode where
  | word (v : Nat)
  | lin (type : Nat) (keys : List Nat) (kids : List JNode)
  | radix (table : List JNode)
  | span (base : List Nat) (kid : JNode)

instance : Inhabited JNode := ⟨JNode.word 0⟩

/-- The C truth value of a slot word: `false` exactly for the word `0`. -/
def JNode.nonzero : JNode → Bool
  | .word 0 => false
  | _ => true

/-- The struct `JudyStack`: one cursor frame. -/
structure JudyStack where
  next : JNode
  off : Nat
  slot : Int

/-- The struct `Judy` without the allocator fields; `level` is `stack.length`. -/
structure Judy where
  root : JNode
  max : Nat
  stack : List JudyStack

/-- What a cursor operation hands back: the new state and the returned `JudySlot *`, where
`none` is `NULL` and `some w` is a pointer to a slot that currently holds `w`. -/
structure Res where
  judy : Judy
  cell : Option JNode

/-- The largest `max` that `judy_open` can be given.  `judy_open` takes the structure `Judy`
(104 bytes) with the `max + 1` frames of its cursor (16 bytes each) from its first segment of
`JUDY_seg` bytes, which also holds the segment header (16 bytes) and loses up to 7 bytes to the
alignment, and it makes no check: from `max = 4088` on the structure lies over the segment
header or outside the segment (`judy_open_arena` computes the addresses). -/
@[reducible] def JUDY_open_max : Nat := (JUDY_seg - 16 - 7 - 104) / 16 - 1

/-- The function `judy_open`: `max++`, on a `uint`, leaves room for the terminator; the root is
`0`.  This is what `judy_open` returns for `max <= JUDY_open_max`; for a larger `max` the C
function writes outside its segment, and nothing is claimed. -/
def judy_open (max : Nat) : Judy :=
  { root := .word 0, max := (max + 1) % 2 ^ 32, stack := [] }

/-- The cursor push `if( judy->level < judy->max ) judy->level++; judy->stack[judy->level] = f`.
When the guard fails the C code overwrites the top frame; the embedding stops there. -/
def push (max : Nat) (stack : List JudyStack) (f : JudyStack) : Option (List JudyStack) :=
  if stack.length < max then some (f :: stack) else none

/-- Child word `node[-slot-1]` of a linear node given by its list of children. -/
def kidAt (kids : List JNode) (slot : Nat) : JNode := kids.getD slot (.word 0)

/-- Entry `table[i]` of a radix table. -/
def tblAt (table : List JNode) (i : Nat) : JNode := table.getD i (.word 0)

/-- The number of slots `size / (sizeof(JudySlot) + keysize)` of a linear node. -/
def lin_cnt (type keysize : Nat) : Nat := JudySize type / (JUDY_slot_size + keysize)

/-- The stride `JUDY_key_size - (off & JUDY_key_mask)`. -/
def key_size (off : Nat) : Nat := JUDY_key_size - (off &&& JUDY_key_mask)

/-- The loop `do { value <<= 8; if( off < max ) value |= buff[off]; } while( ++off & JUDY_key_mask )`;
returns the value and the advanced offset. -/
def key_value (buff : List Nat) (max : Nat) : Nat → Nat → Nat → Nat × Nat
  | 0, value, off => (value, off)
  | n + 1, value, off =>
    let value := (value <<< 8) % 2 ^ 64
    let value := if off < max then value ||| buff.getD off 0 else value
    let off := off + 1
    if off &&& JUDY_key_mask ≠ 0 then key_value buff max n value off else (value, off)

/-- The scan `while( slot-- ) { test = key[slot] & JudyMask[keysize]; if( test <= value ) break; }`
started at `slot`; returns the final `slot` and `test`. -/
def lin_scan (keys : List Nat) (keysize value : Nat) : Nat → Nat → Int × Nat
  | 0, test => (-1, test)
  | slot + 1, _ =>
    let test := keys.getD slot 0 &&& JudyMask keysize
    if test ≤ value then ((slot : Int), test) else lin_scan keys keysize value slot test

/-- The call `strncmp(a, b, n) == 0` on byte strings (a missing byte reads as `0`). -/
def strncmp_eq : List Nat → List Nat → Nat → Bool
  | _, _, 0 => true
  | a, b, n + 1 =>
    if a.headD 0 ≠ b.headD 0 then false
    else if a.headD 0 = 0 then true
    else strncmp_eq a.tail b.tail n

/-! ## `judy_slot` -/

/-- The loop of `judy_slot`: `next` is the word being followed, `off` the key offset.  In the
span case the length `tst` is compared with `(int)(max - off)`; when that is negative (`off` is
past the key, or `2 ^ 31` bytes of it or more are left) `tst` is negative too and `strncmp` and
`base[tst]` leave the node: the embedding stops there. -/
def slot_loop (buff : List Nat) (max jmax : Nat) :
    Nat → JNode → Nat → List JudyStack → Option (List JudyStack × Option JNode)
  | 0, _, _, _ => none
  | fuel + 1, next, off, stack =>
    match next with
    | .word 0 => some (stack, none)
    | .word _ => none
    | .lin type keys kids =>
      let keysize := key_size off
      let cnt := lin_cnt type keysize
      let (value, off1) := key_value buff max 8 0 off
      let (slot, test) := lin_scan keys keysize value cnt 0
      match push jmax stack ⟨next, off, slot⟩ with
      | none => none
      | some stack1 =>
        if test = value then
          if value &&& 0xFF = 0 then some (stack1, some (kidAt kids slot.toNat))
          else slot_loop buff max jmax fuel (kidAt kids slot.toNat) off1 stack1
        else some (stack1, none)
    | .radix table =>
      let slot := if off < max then buff.getD off 0 else 0
      match push jmax stack ⟨next, off, (slot : Int)⟩ with
      | none => none
      | some stack1 =>
        match tblAt table (slot >>> 4) with
        | .word 0 => some (stack1, none)
        | .radix inner =>
          if slot = 0 then some (stack1, some (tblAt inner (slot &&& 0x0F)))
          else slot_loop buff max jmax fuel (tblAt inner (slot &&& 0x0F)) (off + 1) stack1
        | _ => none
    | .span base kid =>
      match push jmax stack ⟨next, off, 0⟩ with
      | none => none
      | some stack1 =>
        if max < off ∨ 2 ^ 31 ≤ max - off then none
        else
          let cnt := JUDY_span_bytes
          let tst := if cnt > max - off then max - off else cnt
          let eq := strncmp_eq base (buff.drop off) tst
          if eq ∧ tst < cnt ∧ base.getD tst 0 = 0 then some (stack1, some kid)
          else if eq ∧ tst = cnt then slot_loop buff max jmax fuel kid (off + cnt) stack1
          else some (stack1, none)

/-- The number of passes through the loop `while( next )` of `judy_slot`, that is the number
of nodes that `judy_slot` visits: the loop of `slot_loop` without the cursor. -/
def slot_nodes (buff : List Nat) (max : Nat) : Nat → JNode → Nat → Nat
  | 0, _, _ => 0
  | fuel + 1, next, off =>
    match next with
    | .word _ => 0
    | .lin type keys kids =>
      let keysize := key_size off
      let cnt := lin_cnt type keysize
      let (value, off1) := key_value buff max 8 0 off
      let (slot, test) := lin_scan keys keysize value cnt 0
      if test = value then
        if value &&& 0xFF = 0 then 1
        else 1 + slot_nodes buff max fuel (kidAt kids slot.toNat) off1
      else 1
    | .radix table =>
      let slot := if off < max then buff.getD off 0 else 0
      match tblAt table (slot >>> 4) with
      | .radix inner =>
        if slot = 0 then 1
        else 1 + slot_nodes buff max fuel (tblAt inner (slot &&& 0x0F)) (off + 1)
      | _ => 1
    | .span base kid =>
      if max < off ∨ 2 ^ 31 ≤ max - off then 1
      else
        let cnt := JUDY_span_bytes
        let tst := if cnt > max - off then max - off else cnt
        let eq := strncmp_eq base (buff.drop off) tst
        if eq ∧ tst < cnt ∧ base.getD tst 0 = 0 then 1
        else if eq ∧ tst = cnt then 1 + slot_nodes buff max fuel kid (off + cnt)
        else 1

/-- The function `judy_slot`: find the cell of a key and set up the cursor. -/
def judy_slot (judy : Judy) (buff : List Nat) (max : Nat) : Option Res :=
  match slot_loop buff max judy.max (judy.max + 1) judy.root 0 [] with
  | none => none
  | some (stack, cell) => some ⟨{ judy with stack := stack }, cell⟩

/-! ## `judy_key` -/

/-- The inner loop of the linear case of `judy_key` (little endian build):
`while( off-- && len < max ) if( buff[len] = base[slot * keysize + off] ) len++; else break;` -/
def key_lin (key max : Nat) : Nat → List Nat → Nat → List Nat × Nat
  | 0, buff, len => (buff, len)
  | off + 1, buff, len =>
    if len < max then
      let b := (key >>> (8 * off)) &&& 0xFF
      if b ≠ 0 then key_lin key max off (buff.set len b) (len + 1) else (buff.set len b, len)
    else (buff, len)

/-- The span case of `judy_key`:
`for( slot = 0; slot < JUDY_span_bytes && base[slot]; slot++ ) if( len < max ) buff[len++] = base[slot];` -/
def key_span (base : List Nat) (max : Nat) : Nat → Nat → List Nat → Nat → List Nat × Nat
  | 0, _, buff, len => (buff, len)
  | n + 1, slot, buff, len =>
    if slot < JUDY_span_bytes ∧ base.getD slot 0 ≠ 0 then
      if len < max then key_span base max n (slot + 1) (buff.set len (base.getD slot 0)) (len + 1)
      else key_span base max n (slot + 1) buff len
    else (buff, len)

/-- The loop `while( len < max && ++idx <= judy->level )` of `judy_key` over the frames
`stack[idx..level]`, given bottom frame first.  A linear frame with the slot `-1`, as
`judy_slot` leaves it after a miss below every key of a node, makes the loop read
`base[-keysize .. -1]`, the bytes in front of the node, which the tree does not describe:
`front f` is the key word that those bytes form for the frame `f`, `none` when nothing is known
of them. -/
def key_loop (front : JudyStack → Option Nat) (max : Nat) :
    List JudyStack → List Nat → Nat → Option (List Nat × Nat)
  | [], buff, len => some (buff, len)
  | f :: frames, buff, len =>
    if len < max then
      match f.next with
      | .word _ => none
      | .lin _ keys _ =>
        match (if f.slot < 0 then front f else some (keys.getD f.slot.toNat 0)) with
        | none => none
        | some key =>
          let keysize := key_size f.off
          let (buff1, len1) := key_lin key max keysize buff len
          key_loop front max frames buff1 len1
      | .radix _ =>
        if f.slot = 0 then key_loop front max frames buff len
        else key_loop front max frames (buff.set len (f.slot.toNat % 256)) (len + 1)
      | .span base _ =>
        let (buff1, len1) := key_span base max JUDY_span_bytes 0 buff len
        key_loop front max frames buff1 len1
    else some (buff, len)

/-- The function `judy_key` with the memory in front of the nodes given by `front`: assemble
the key of the cursor into `buff` (`max` bytes long), returning the buffer and the length.
`max--` is computed on a 32 bit `uint`. -/
def judy_key_front (front : JudyStack → Nat) (judy : Judy) (buff : List Nat) (max : Nat) :
    Option (List Nat × Nat) :=
  let max1 := (max + 2 ^ 32 - 1) % 2 ^ 32
  match key_loop (fun f => some (front f)) max1 judy.stack.reverse buff 0 with
  | none => none
  | some (buff1, len) => some (buff1.set len 0, len)

/-- The function `judy_key` when nothing is known of the memory outside the nodes: the same
loop, which stops (`none`) at a linear frame with the slot `-1`; on every other cursor it
returns what `judy_key_front` returns (`judy_key_front_eq`).  `max--` is computed on a 32 bit
`uint`. -/
def judy_key (judy : Judy) (buff : List Nat) (max : Nat) : Option (List Nat × Nat) :=
  let max1 := (max + 2 ^ 32 - 1) % 2 ^ 32
  match key_loop (fun _ => none) max1 judy.stack.reverse buff 0 with
  | none => none
  | some (buff1, len) => some (buff1.set len 0, len)

/-! ## `judy_first`, `judy_last`, `judy_end` -/

/-- The scan `for( slot = 0; slot < cnt; slot++ ) if( node[-slot-1] ) break;` from `slot`,
with `n` slots left to look at. -/
def lin_first (kids : List JNode) : Nat → Nat → Nat
  | 0, slot => slot
  | n + 1, slot => if (kidAt kids slot).nonzero then slot else lin_first kids n (slot + 1)

/-- Outcome of a scan of a radix node. -/
inductive Scan where
  | stuck
  | nothing
  | found (slot : Nat) (kid : JNode)

/-- The radix scan shared by `judy_first` (`for( slot = 0; slot < 256; slot++ )`) and `judy_nxt`
(`while( ++slot < 256 )`): the first `slot` at or after the given one whose inner entry is not
zero, skipping an absent inner table with `slot |= 0x0F`. -/
def radix_first (table : List JNode) : Nat → Nat → Scan
  | 0, _ => .stuck
  | fuel + 1, slot =>
    if slot < 256 then
      match tblAt table (slot >>> 4) with
      | .radix inner =>
        if (tblAt inner (slot &&& 0x0F)).nonzero then .found slot (tblAt inner (slot &&& 0x0F))
        else radix_first table fuel (slot + 1)
      | .word 0 => radix_first table fuel ((slot ||| 0x0F) + 1)
      | _ => .stuck
    else .nothing

/-- The radix scan of `judy_last` (`for( slot = 256; slot--; )`), started with the value of
`slot` before the test: the last `slot` below it whose inner entry is not zero, skipping an
absent inner table with `slot &= 0xF0`. -/
def radix_last (table : List JNode) : Nat → Nat → Scan
  | 0, _ => .stuck
  | fuel + 1, slot =>
    if slot = 0 then .nothing
    else
      match tblAt table ((slot - 1) >>> 4) with
      | .radix inner =>
        if (tblAt inner ((slot - 1) &&& 0x0F)).nonzero then
          .found (slot - 1) (tblAt inner ((slot - 1) &&& 0x0F))
        else radix_last table fuel (slot - 1)
      | .word 0 => radix_last table fuel ((slot - 1) &&& 0xF0)
      | _ => .stuck

/-- The function `judy_first`: descend from `next` to the first leaf, pushing frames.  A linear
node without any populated slot, or a radix node without any entry, is not followed. -/
def judy_first (jmax : Nat) :
    Nat → List JudyStack → JNode → Nat → Option (List JudyStack × Option JNode)
  | 0, _, _, _ => none
  | fuel + 1, stack, next, off =>
    match next with
    | .word 0 => some (stack, none)
    | .word _ => none
    | .lin type keys kids =>
      let keysize := key_size off
      let cnt := lin_cnt type keysize
      let slot := lin_first kids cnt 0
      if slot < cnt then
        match push jmax stack ⟨next, off, (slot : Int)⟩ with
        | none => none
        | some stack1 =>
          if keys.getD slot 0 &&& 0xFF = 0 then some (stack1, some (kidAt kids slot))
          else judy_first jmax fuel stack1 (kidAt kids slot) ((off ||| JUDY_key_mask) + 1)
      else none
    | .radix table =>
      match radix_first table 257 0 with
      | .found slot kid =>
        match push jmax stack ⟨next, off, (slot : Int)⟩ with
        | none => none
        | some stack1 =>
          if slot = 0 then some (stack1, some kid)
          else judy_first jmax fuel stack1 kid (off + 1)
      | _ => none
    | .span base kid =>
      match push jmax stack ⟨next, off, 0⟩ with
      | none => none
      | some stack1 =>
        if base.getD (JUDY_span_bytes - 1) 0 = 0 then some (stack1, some kid)
        else judy_first jmax fuel stack1 kid (off + JUDY_span_bytes)

/-- The function `judy_last`: descend from `next` to the last leaf, pushing frames. -/
def judy_last (jmax : Nat) :
    Nat → List JudyStack → JNode → Nat → Option (List JudyStack × Option JNode)
  | 0, _, _, _ => none
  | fuel + 1, stack, next, off =>
    match next with
    | .word 0 => some (stack, none)
    | .word _ => none
    | .lin type keys kids =>
      let keysize := key_size off
      let slot := lin_cnt type keysize - 1
      match push jmax stack ⟨next, off, (slot : Int)⟩ with
      | none => none
      | some stack1 =>
        if keys.getD slot 0 &&& 0xFF = 0 then some (stack1, some (kidAt kids slot))
        else judy_last jmax fuel stack1 (kidAt kids slot) (off + keysize)
    | .radix table =>
      match radix_last table 257 256 with
      | .found slot kid =>
        match push jmax stack ⟨next, off, (slot : Int)⟩ with
        | none => none
        | some stack1 =>
          if slot = 0 then some (stack1, some kid)
          else judy_last jmax fuel stack1 kid (off + 1)
      | _ => none
    | .span base kid =>
      match push jmax stack ⟨next, off, 0⟩ with
      | none => none
      | some stack1 =>
        if base.getD (JUDY_span_bytes - 1) 0 = 0 then some (stack1, some kid)
        else judy_last jmax fuel stack1 kid (off + JUDY_span_bytes)

/-- Wrap a loop result into a `Res`. -/
def mkRes (judy : Judy) : Option (List JudyStack × Option JNode) → Option Res
  | none => none
  | some (stack, cell) => some ⟨{ judy with stack := stack }, cell⟩

/-- The function `judy_end`: the last entry. -/
def judy_end (judy : Judy) : Option Res :=
  mkRes judy (judy_last judy.max (judy.max + 1) [] judy.root 0)

/-! ## `judy_nxt`, `judy_prv`, `judy_strt` -/

/-- The loop `while( judy->level )` of `judy_nxt`, popping frames until one has a successor. -/
def nxt_loop (jmax : Nat) : List JudyStack → Option (List JudyStack × Option JNode)
  | [] => some ([], none)
  | f :: rest =>
    match f.next with
    | .word _ => none
    | .lin type keys kids =>
      let keysize := key_size f.off
      let cnt := lin_cnt type keysize
      let slot := f.slot + 1
      if slot < (cnt : Int) then
        if slot < 0 then none
        else if keys.getD slot.toNat 0 &&& 0xFF = 0 then
          some ({ f with slot := slot } :: rest, some (kidAt kids slot.toNat))
        else
          judy_first jmax (jmax + 1) ({ f with slot := slot } :: rest) (kidAt kids slot.toNat)
            ((f.off ||| JUDY_key_mask) + 1)
      else nxt_loop jmax rest
    | .radix table =>
      if f.slot + 1 < 0 then none
      else
        match radix_first table 257 (f.slot + 1).toNat with
        | .found slot kid =>
          judy_first jmax (jmax + 1) ({ f with slot := (slot : Int) } :: rest) kid (f.off + 1)
        | .nothing => nxt_loop jmax rest
        | .stuck => none
    | .span _ _ => nxt_loop jmax rest

/-- The function `judy_nxt`: the next entry after the cursor. -/
def judy_nxt (judy : Judy) : Option Res :=
  match judy.stack with
  | [] => mkRes judy (judy_first judy.max (judy.max + 1) [] judy.root 0)
  | _ :: _ => mkRes judy (nxt_loop judy.max judy.stack)

/-- The radix scan of `judy_prv`: `while( slot-- ) { judy->stack[judy->level].slot--; ... }`,
the last `slot` below the given one whose inner entry is not zero. -/
def radix_prv (table : List JNode) : Nat → Scan
  | 0 => .nothing
  | slot + 1 =>
    match tblAt table (slot >>> 4) with
    | .radix inner =>
      if (tblAt inner (slot &&& 0x0F)).nonzero then .found slot (tblAt inner (slot &&& 0x0F))
      else radix_prv table slot
    | .word 0 => radix_prv table slot
    | _ => .stuck

/-- The loop `while( judy->level )` of `judy_prv`. -/
def prv_loop (jmax : Nat) : List JudyStack → Option (List JudyStack × Option JNode)
  | [] => some ([], none)
  | f :: rest =>
    match f.next with
    | .word _ => none
    | .lin _ keys kids =>
      if f.slot < 0 then none
      else if f.slot = 0 ∨ !(kidAt kids (f.slot.toNat - 1)).nonzero then prv_loop jmax rest
      else
        let slot := f.slot.toNat
        if keys.getD (slot - 1) 0 &&& 0xFF ≠ 0 then
          judy_last jmax (jmax + 1) ({ f with slot := f.slot - 1 } :: rest) (kidAt kids (slot - 1))
            ((f.off ||| JUDY_key_mask) + 1)
        else some ({ f with slot := f.slot - 1 } :: rest, some (kidAt kids (slot - 1)))
    | .radix table =>
      if f.slot < 0 then none
      else
        match radix_prv table f.slot.toNat with
        | .found slot kid =>
          if slot ≠ 0 then
            judy_last jmax (jmax + 1) ({ f with slot := (slot : Int) } :: rest) kid (f.off + 1)
          else some ({ f with slot := 0 } :: rest, some kid)
        | .nothing => prv_loop jmax rest
        | .stuck => none
    | .span _ _ => prv_loop jmax rest

/-- The function `judy_prv`: the entry before the cursor. -/
def judy_prv (judy : Judy) : Option Res :=
  match judy.stack with
  | [] => mkRes judy (judy_last judy.max (judy.max + 1) [] judy.root 0)
  | _ :: _ => mkRes judy (prv_loop judy.max judy.stack)

/-- The function `judy_strt`: the cell of the first key greater than or equal to the given key. -/
def judy_strt (judy : Judy) (buff : List Nat) (max : Nat) : Option Res :=
  if max = 0 then mkRes judy (judy_first judy.max (judy.max + 1) [] judy.root 0)
  else
    match judy_slot judy buff max with
    | none => none
    | some r =>
      match r.cell with
      | some c => some ⟨r.judy, some c⟩
      | none => judy_nxt r.judy

/-! ## Writing through the cursor -/

/-- The child word of a node that a frame with the given `slot` designates, replaced by `k`:
`node[-slot-1]` of a linear node, `inner[slot & 0x0F]` below `table[slot >> 4]` of a radix node,
`node[-1]` of a span. -/
def setKid (n : JNode) (slot : Int) (k : JNode) : JNode :=
  match n with
  | .word v => .word v
  | .lin type keys kids => .lin type keys (kids.set slot.toNat k)
  | .radix table =>
    match tblAt table (slot.toNat >>> 4) with
    | .radix inner =>
      .radix (table.set (slot.toNat >>> 4) (.radix (inner.set (slot.toNat &&& 0x0F) k)))
    | _ => .radix table
  | .span base _ => .span base k

/-- The child word that a frame with the given `slot` designates. -/
def getKid (n : JNode) (slot : Int) : JNode :=
  match n with
  | .word _ => .word 0
  | .lin _ _ kids => kidAt kids slot.toNat
  | .radix table =>
    match tblAt table (slot.toNat >>> 4) with
    | .radix inner => tblAt inner (slot.toNat &&& 0x0F)
    | _ => .word 0
  | .span _ kid => kid

/-- The frames below a node that was written in place, as they read afterwards, and the root:
every frame refers to a node whose designated child is the node of the frame above it. -/
def plug : JNode → List JudyStack → List JudyStack × JNode
  | n, [] => ([], n)
  | n, f :: rest =>
    let n1 := setKid f.next f.slot n
    let (rest1, root) := plug n1 rest
    ({ f with next := n1 } :: rest1, root)

/-- The store `*cell = v` of a caller into the cell that the last cursor operation returned. -/
def judy_store (judy : Judy) (v : Nat) : Judy :=
  match judy.stack with
  | [] => { judy with root := .word v }
  | f :: rest =>
    let n1 := setKid f.next f.slot (.word v)
    let (rest1, root) := plug n1 rest
    { judy with root := root, stack := { f with next := n1 } :: rest1 }

/-! ## `judy_promote`, `judy_radix`, `judy_splitnode`, `judy_splitspan` -/

/-- The effect of `memcpy` on an array of equally sized fields: `n` fields of `src` from index `s`
are copied to `dst` from index `d`. -/
def copyInto {α : Type} (dst : List α) (d : Nat) (src : List α) (s n : Nat) : List α :=
  dst.take d ++ ((src.drop s).take n ++ dst.drop (d + n))

/-- The function `judy_promote`: move a full linear node `next` to the next larger size, opening
the slot `idx` for `value`.  Returns the new node and the slot of the new key, whose child word
`result` is zero. -/
def judy_promote (next : JNode) (idx : Nat) (value keysize : Nat) : Option (JNode × Nat) :=
  match next with
  | .lin type0 keys kids =>
    let type := type0 + 1
    let oldcnt := JudySize (type - 1) / (JUDY_slot_size + keysize)
    let newcnt := JudySize type / (JUDY_slot_size + keysize)
    if newcnt < oldcnt + 1 ∨ oldcnt < idx then none
    else
      let newkeys : List Nat := List.replicate newcnt 0
      let newkids : List JNode := List.replicate newcnt (.word 0)
      -- open up slot at idx
      let newkeys := copyInto newkeys (newcnt - oldcnt - 1) keys 0 idx
      let newkids := copyInto newkids (newcnt - oldcnt - 1) kids 0 idx
      -- fill in new node
      let newkeys := newkeys.set (idx + newcnt - oldcnt - 1) (value % 256 ^ keysize)
      -- copy rest of old node
      let newkeys := copyInto newkeys (idx + newcnt - oldcnt) keys idx (oldcnt - idx)
      let newkids := copyInto newkids (idx + newcnt - oldcnt) kids idx (oldcnt - idx)
      some (.lin type newkeys newkids, idx + newcnt - oldcnt - 1)
  | _ => none

/-- The loop `do { type++; size = JudySize[type]; newcnt = size / (sizeof(JudySlot) + keysize); }
while( cnt > newcnt && type < JUDY_max )` of `judy_radix`, entered with the value of `type`
before the increment; returns `type` and `newcnt`. -/
def radix_type (cnt keysize : Nat) : Nat → Nat → Nat × Nat
  | 0, type => (type, lin_cnt type keysize)
  | n + 1, type =>
    let type := type + 1
    let newcnt := lin_cnt type keysize
    if cnt > newcnt ∧ type < JUDY_max then radix_type cnt keysize n type else (type, newcnt)

/-- The copy loop of `judy_radix`: entry `start + cnt - idx - 1` of the old node goes to slot
`newcnt - idx - 1` of the new one, its key shortened to the low `keysize` bytes. -/
def radix_copy (oldkeys : List Nat) (oldkids : List JNode) (start cnt newcnt keysize : Nat) :
    Nat → Nat → List Nat × List JNode → List Nat × List JNode
  | 0, _, acc => acc
  | n + 1, idx, (keys, kids) =>
    radix_copy oldkeys oldkids start cnt newcnt keysize n (idx + 1)
      (keys.set (newcnt - idx - 1) (oldkeys.getD (start + cnt - idx - 1) 0 % 256 ^ keysize),
       kids.set (newcnt - idx - 1) (kidAt oldkids (start + cnt - idx - 1)))

/-- A zeroed radix table, `judy_alloc (judy, JUDY_radix)`. -/
def radix_zero : List JNode := List.replicate 16 (.word 0)

/-- The function `judy_radix`: make the entry for `key` in the outer table `radix` from the
slots `start .. slot-1` of the old node; `keysize` is the key size of the new node. -/
def judy_radix (radix : List JNode) (oldkeys : List Nat) (oldkids : List JNode)
    (start slot keysize key : Nat) : Option (List JNode) :=
  let cnt := slot - start
  -- if necessary, setup inner radix node
  let inner? : Option (List JNode) :=
    match tblAt radix (key >>> 4) with
    | .word 0 => some radix_zero
    | .radix inner => some inner
    | _ => none
  match inner? with
  | none => none
  | some inner =>
    -- is this slot a leaf?
    if key = 0 ∨ keysize = 0 then
      some (radix.set (key >>> 4) (.radix (inner.set (key &&& 0x0F) (kidAt oldkids start))))
    else
      -- calculate new node big enough to contain slots
      let (type, newcnt) := radix_type cnt keysize 6 (JUDY_1 - 1)
      if newcnt < cnt then none
      else
        let (keys, kids) := radix_copy oldkeys oldkids start cnt newcnt keysize cnt 0
          (List.replicate newcnt 0, List.replicate newcnt (.word 0))
        some (radix.set (key >>> 4) (.radix (inner.set (key &&& 0x0F) (.lin type keys kids))))

/-- The loop of `judy_splitnode` over the slots of the old node, with `n` slots left; the state
is `start`, `key` and the outer table built so far. -/
def splitnode_loop (oldkeys : List Nat) (oldkids : List JNode) (keysize : Nat) :
    Nat → Nat → Nat → Nat → List JNode → Option (Nat × Nat × List JNode)
  | 0, _, start, key, radix => some (start, key, radix)
  | n + 1, slot, start, key, radix =>
    let nxt := (oldkeys.getD slot 0 >>> (8 * (keysize - 1))) &&& 0xFF
    let key := if key > 0xFF then nxt else key
    if nxt = key then splitnode_loop oldkeys oldkids keysize n (slot + 1) start key radix
    else
      -- decompose portion of old node into radix nodes
      match judy_radix radix oldkeys oldkids start slot (keysize - 1) (key % 256) with
      | none => none
      | some radix1 => splitnode_loop oldkeys oldkids keysize n (slot + 1) slot nxt radix1

/-- The function `judy_splitnode`: decompose the full linear node `next` of `size` bytes into
radix nodes; returns the new content of `*next`. -/
def judy_splitnode (next : JNode) (size keysize : Nat) : Option JNode :=
  match next with
  | .lin _ keys kids =>
    let cnt := size / (JUDY_slot_size + keysize)
    match splitnode_loop keys kids keysize cnt 0 0 0x0100 radix_zero with
    | none => none
    | some (start, key, radix) =>
      match judy_radix radix keys kids start cnt (keysize - 1) (key % 256) with
      | none => none
      | some radix1 => some (.radix radix1)
  | _ => none

/-- The key field written by `i = JUDY_key_size; while( i-- ) *newbase++ = base[off + i];`,
read back as an integer. -/
def span_key (base : List Nat) (off : Nat) : Nat → Nat → Nat
  | 0, _ => 0
  | i + 1, pos => base.getD (off + i) 0 * 256 ^ pos + span_key base off i (pos + 1)

/-- The loop of `judy_splitspan`: a chain of `JUDY_1` nodes, one for each stride of the span at
`base`, ending in the child word `kid` of the span; `n` bounds the number of strides. -/
def splitspan_loop (base : List Nat) (kid : JNode) : Nat → Nat → Nat → JNode
  | 0, _, _ => kid
  | n + 1, cnt, off =>
    let key := span_key base off JUDY_key_size 0
    let off1 := off + JUDY_key_size
    let cnt1 := cnt - JUDY_key_size
    if cnt1 ≠ 0 ∧ base.getD (off1 - 1) 0 ≠ 0 then
      .lin JUDY_1 [key] [splitspan_loop base kid n cnt1 off1]
    else .lin JUDY_1 [key] [kid]

/-- The function `judy_splitspan`: split open the span node `next`; returns the new content of
`*next`. -/
def judy_splitspan (next : JNode) : Option JNode :=
  match next with
  | .span base kid => some (splitspan_loop base kid 3 JUDY_span_bytes 0)
  | _ => none

/-! ## `judy_cell` -/

/-- The key field of the `JUDY_1` node that `judy_cell` places under a radix node, written by
`while( keysize ) if( off + --keysize < max ) *base++ = buff[off + keysize]; else base++;` and
read back as an integer; `pos` counts the bytes already written. -/
def lin1_key (buff : List Nat) (max off : Nat) : Nat → Nat → Nat
  | 0, _ => 0
  | keysize + 1, pos =>
    (if off + keysize < max then buff.getD (off + keysize) 0 else 0) * 256 ^ pos
      + lin1_key buff max off keysize (pos + 1)

/-- The bytes of a span node filled by `memcpy (base, buff + off, tst)` into zeroed memory. -/
def span_bytes (buff : List Nat) (off tst : Nat) : List Nat :=
  (List.range JUDY_span_bytes).map (fun i => if i < tst then buff.getD (off + i) 0 else 0)

/-- The loop `while( off <= max )` at the end of `judy_cell` that produces span nodes for the
rest of the key.  Returns the new content of `*next`, the frames pushed (top first) and the
content of the returned cell.  The length `tst` is compared with `(int)(max - off)`; when
`2 ^ 31` bytes of the key or more are left that is negative and `memcpy` is given a negative
length: the embedding stops there. -/
def cell_spans (buff : List Nat) (max : Nat) :
    Nat → Nat → Option (JNode × List JudyStack × JNode)
  | 0, _ => none
  | fuel + 1, off =>
    if off ≤ max then
      if 2 ^ 31 ≤ max - off then none
      else
        let cnt := JUDY_span_bytes
        let tst := if cnt > max - off then max - off else cnt
        let base := span_bytes buff off tst
        if base.getD (cnt - 1) 0 = 0 then
          some (.span base (.word 0), [⟨.span base (.word 0), off, 0⟩], .word 0)
        else
          match cell_spans buff max fuel (off + tst) with
          | none => none
          | some (kid, frames, cell) =>
            some (.span base kid, frames ++ [⟨.span base kid, off, 0⟩], cell)
    else some (.word 0, [], .word 0)

/-- The code of `judy_cell` after its main loop, reached with `*next == 0`: a `JUDY_1` node for
the rest of the current key word when `off` is not aligned, then span nodes. -/
def cell_new (buff : List Nat) (max fuel off : Nat) : Option (JNode × List JudyStack × JNode) :=
  if off &&& JUDY_key_mask ≠ 0 ∧ off ≤ max then
    let keysize := key_size off
    let key := lin1_key buff max off keysize 0
    match cell_spans buff max fuel ((off ||| JUDY_key_mask) + 1) with
    | none => none
    | some (kid, frames, cell) =>
      some (.lin JUDY_1 [key] [kid], frames ++ [⟨.lin JUDY_1 [key] [kid], off, 0⟩], cell)
  else cell_spans buff max fuel off

/-- The keys of a linear node after `memmove(base, base + keysize, slot * keysize)` and the copy
of the new key into `slot`; likewise for the child words. -/
def lin_insert {α : Type} (l : List α) (slot : Nat) (x : α) : List α :=
  (l.drop 1).take slot ++ (x :: l.drop (slot + 1))

/-- The main loop of `judy_cell`, one call for each pass through `while( *next )` and one for the
code after it.  `next` is the content of `*next`; the result is the new content of `*next`, the
frames pushed from here on (top first, as they read when `judy_cell` returns) and the content
of the returned cell.  The span case stops where `(int)(max - off)` is negative, as `slot_loop`
does. -/
def cell_loop (buff : List Nat) (max : Nat) :
    Nat → JNode → Nat → Option (JNode × List JudyStack × JNode)
  | 0, _, _ => none
  | fuel + 1, next, off =>
    match next with
    | .word 0 => cell_new buff max (max + 1) off
    | .word _ => none
    | .lin type keys kids =>
      let size := JudySize type
      let keysize := key_size off
      let cnt := lin_cnt type keysize
      let start := off
      let (value, off1) := key_value buff max 8 0 off
      let (slot, test) := lin_scan keys keysize value cnt 0
      if test = value then
        -- new key is equal to slot key
        if value &&& 0xFF = 0 then
          some (next, [⟨next, off, slot⟩], kidAt kids slot.toNat)
        else
          match cell_loop buff max fuel (kidAt kids slot.toNat) off1 with
          | none => none
          | some (kid, frames, cell) =>
            let node := JNode.lin type keys (kids.set slot.toNat kid)
            some (node, frames ++ [⟨node, off, slot⟩], cell)
      else if !(kidAt kids 0).nonzero then
        -- this node is not full: open up cell after slot
        if slot < 0 then none
        else
          let keys1 := lin_insert keys slot.toNat (value % 256 ^ keysize)
          let kids1 := lin_insert kids slot.toNat (.word 0)
          if value &&& 0xFF = 0 then
            some (.lin type keys1 kids1, [⟨.lin type keys1 kids1, off, slot⟩], .word 0)
          else
            match cell_loop buff max fuel (.word 0) off1 with
            | none => none
            | some (kid, frames, cell) =>
              let node := JNode.lin type keys1 (kids1.set slot.toNat kid)
              some (node, frames ++ [⟨node, off, slot⟩], cell)
      else if size < JudySize JUDY_max then
        match judy_promote next (slot + 1).toNat value keysize with
        | none => none
        | some (.lin type1 keys1 kids1, slot1) =>
          if value &&& 0xFF = 0 then
            some (.lin type1 keys1 kids1, [⟨.lin type1 keys1 kids1, off, (slot1 : Int)⟩], .word 0)
          else
            match cell_loop buff max fuel (.word 0) off1 with
            | none => none
            | some (kid, frames, cell) =>
              let node := JNode.lin type1 keys1 (kids1.set slot1 kid)
              some (node, frames ++ [⟨node, off, (slot1 : Int)⟩], cell)
        | some _ => none
      else
        -- split full maximal node into JUDY_radix nodes, loop to reprocess new insert
        match judy_splitnode next size keysize with
        | none => none
        | some next1 => cell_loop buff max fuel next1 start
    | .radix table =>
      let slot := if off < max then buff.getD off 0 else 0
      let off1 := if off < max then off + 1 else off
      -- allocate inner radix if empty
      let inner? : Option (List JNode) :=
        match tblAt table (slot >>> 4) with
        | .word 0 => some radix_zero
        | .radix inner => some inner
        | _ => none
      match inner? with
      | none => none
      | some inner =>
        if slot = 0 then
          let node := JNode.radix (table.set (slot >>> 4) (.radix inner))
          some (node, [⟨node, off, (slot : Int)⟩], tblAt inner (slot &&& 0x0F))
        else
          match cell_loop buff max fuel (tblAt inner (slot &&& 0x0F)) off1 with
          | none => none
          | some (kid, frames, cell) =>
            let node := JNode.radix (table.set (slot >>> 4)
              (.radix (inner.set (slot &&& 0x0F) kid)))
            some (node, frames ++ [⟨node, off, (slot : Int)⟩], cell)
    | .span base kid =>
      if max < off ∨ 2 ^ 31 ≤ max - off then none
      else
        let cnt := JUDY_span_bytes
        let tst := if cnt > max - off then max - off else cnt
        let eq := strncmp_eq base (buff.drop off) tst
        if eq ∧ tst < cnt ∧ base.getD tst 0 = 0 then
          some (next, [⟨next, off, 0⟩], kid)
        else if eq ∧ tst = cnt then
          match cell_loop buff max fuel kid (off + cnt) with
          | none => none
          | some (kid1, frames, cell) =>
            some (.span base kid1, frames ++ [⟨.span base kid1, off, 0⟩], cell)
        else
          -- bust up JUDY_span node and produce JUDY_1 nodes, then loop to reprocess insert
          match judy_splitspan next with
          | none => none
          | some next1 => cell_loop buff max fuel next1 off

/-- The function `judy_cell`: add a key to the array and return its cell.  The frames are pushed
under the guard `judy->level < judy->max`. -/
def judy_cell (judy : Judy) (buff : List Nat) (max : Nat) : Option Res :=
  match cell_loop buff max (2 * judy.max + 2) judy.root 0 with
  | none => none
  | some (root, frames, cell) =>
    if frames.length ≤ judy.max then
      some ⟨{ judy with root := root, stack := frames }, some cell⟩
    else none

/-! ## `judy_del` -/

/-- The keys (or children) of a linear node after the loop `while( slot ) { node[-slot-1] =
node[-slot]; memcpy (base + slot * keysize, base + (slot - 1) * keysize, keysize); slot--; }`
and the zeroing of the first slot. -/
def lin_delete {α : Type} (l : List α) (slot : Nat) (zero : α) : List α :=
  zero :: (l.take slot ++ l.drop (slot + 1))

/-- The test `for( cnt = 16; cnt--; ) if( table[cnt] ) ...`: some entry of the table is not zero. -/
def tbl_any (table : List JNode) : Bool :=
  (List.range 16).any (fun cnt => (tblAt table cnt).nonzero)

/-- The loop `while( judy->level )` of `judy_del` over the frames, top first.  Returns the new
root, the new cursor and the returned cell; `root` is the root before the call. -/
def del_loop (jmax : Nat) : List JudyStack → Option (JNode × List JudyStack × Option JNode)
  | [] => some (.word 0, [], none)
  | f :: rest =>
    match f.next with
    | .word _ => none
    | .lin type keys kids =>
      if f.slot < 0 then none
      else
        let keysize := key_size f.off
        let cnt := lin_cnt type keysize
        -- move deleted slot to first slot, zero out first slot
        let keys1 := lin_delete keys f.slot.toNat 0
        let kids1 := lin_delete kids f.slot.toNat (.word 0)
        if (kidAt kids1 (cnt - 1)).nonzero then
          -- does node have any slots left?
          let (rest1, root) := plug (.lin type keys1 kids1) rest
          match prv_loop jmax (⟨.lin type keys1 kids1, f.off, f.slot + 1⟩ :: rest1) with
          | none => none
          | some (stack, cell) => some (root, stack, cell)
        else del_loop jmax rest
    | .radix table =>
      if f.slot < 0 then none
      else
        let slot := f.slot.toNat
        match tblAt table (slot >>> 4) with
        | .radix inner =>
          let inner1 := inner.set (slot &&& 0x0F) (.word 0)
          if tbl_any inner1 then
            let node := JNode.radix (table.set (slot >>> 4) (.radix inner1))
            let (rest1, root) := plug node rest
            match prv_loop jmax (⟨node, f.off, f.slot⟩ :: rest1) with
            | none => none
            | some (stack, cell) => some (root, stack, cell)
          else
            let table1 := table.set (slot >>> 4) (.word 0)
            if tbl_any table1 then
              let (rest1, root) := plug (.radix table1) rest
              match prv_loop jmax (⟨.radix table1, f.off, f.slot⟩ :: rest1) with
              | none => none
              | some (stack, cell) => some (root, stack, cell)
            else del_loop jmax rest
        | _ => none
    | .span _ _ => del_loop jmax rest

/-- The function `judy_del`: delete the key and cell of the cursor, returning the previous
entry. -/
def judy_del (judy : Judy) : Option Res :=
  match del_loop judy.max judy.stack with
  | none => none
  | some (root, stack, cell) => some ⟨{ judy with root := root, stack := stack }, cell⟩

/-! ## Driver steps -/

/-- The driver step `*judy_cell (judy, key, len) = v`: insert a key and set its cell. -/
def judy_put (judy : Judy) (k : List Nat) (v : Nat) : Option Judy :=
  match judy_cell judy k k.length with
  | some r => some (judy_store r.judy v)
  | none => none

/-- A sequence of driver steps `*judy_cell (judy, key, len) = v`. -/
def judy_puts : List (List Nat × Nat) → Judy → Option Judy
  | [], judy => some judy
  | (k, v) :: rest, judy =>
    match judy_put judy k v with
    | some judy1 => judy_puts rest judy1
    | none => none

/-- The driver step `*(judy_cell (judy, buff, len)) += 1` of `main`, on 64 bit words. -/
def judy_incr (judy : Judy) (k : List Nat) : Option Judy :=
  match judy_cell judy k k.length with
  | some r =>
    match r.cell with
    | some (.word c) => some (judy_store r.judy ((c + 1) % 2 ^ 64))
    | _ => none
  | none => none

/-- The input loop of `main`: one step `*(judy_cell (judy, buff, len)) += 1` for each line. -/
def judy_incrs : List (List Nat) → Judy → Option Judy
  | [], judy => some judy
  | k :: rest, judy =>
    match judy_incr judy k with
    | some judy1 => judy_incrs rest judy1
    | none => none

/-- The output loop of `main`, `if( cell ) do { len = judy_key (judy, buff, sizeof(buff)); ... }
while( cell = judy_nxt (judy) );`, entered with the result of the last cursor call: the key
that `judy_key` leaves in the buffer and the word of the cell, for every cell visited.  `fuel`
bounds the number of visits. -/
def enum_loop (bmax : Nat) : Nat → List Nat → Option Res → Option (List (List Nat × JNode))
  | 0, _, _ => none
  | fuel + 1, buff, res =>
    match res with
    | none => none
    | some r =>
      match r.cell with
      | none => some []
      | some c =>
        match judy_key r.judy buff bmax with
        | none => none
        | some (buff1, len) =>
          match enum_loop bmax fuel buff1 (judy_nxt r.judy) with
          | none => none
          | some l => some ((buff1.take len, c) :: l)

/-- The enumeration of `main`: `cell = judy_strt (judy, NULL, 0)` followed by the output
loop. -/
def judy_enum (judy : Judy) (buff : List Nat) (bmax fuel : Nat) :
    Option (List (List Nat × JNode)) :=
  enum_loop bmax fuel buff (judy_strt judy [] 0)

/-- The driver step `if( judy_slot (judy, key, len) ) judy_del (judy);`: position the cursor on
a key and delete the entry there. -/
def judy_remove (judy : Judy) (k : List Nat) : Option Judy :=
  match judy_slot judy k k.length with
  | some r =>
    match r.cell with
    | some _ =>
      match judy_del r.judy with
      | some r1 => some r1.judy
      | none => none
    | none => some r.judy
  | none => none

/-- A sequence of driver steps `if( judy_slot (judy, key, len) ) judy_del (judy);`. -/
def judy_removes : List (List Nat) → Judy → Option Judy
  | [], judy => some judy
  | k :: rest, judy =>
    match judy_remove judy k with
    | some judy1 => judy_removes rest judy1
    | none => none

/-- The loop `if( cell ) do max -= *cell; while( cell = judy_del (judy) );` of the deletion
test of `main`, entered with the cell of the last cursor call: the words of the cells visited,
and the array that is left.  `fuel` bounds the number of visits. -/
def del_all_loop : Nat → Judy → Option JNode → Option (List JNode × Judy)
  | 0, _, _ => none
  | _ + 1, judy, none => some ([], judy)
  | fuel + 1, judy, some c =>
    match judy_del judy with
    | none => none
    | some r =>
      match del_all_loop fuel r.judy r.cell with
      | none => none
      | some (cs, judy1) => some (c :: cs, judy1)

/-- The deletion test of `main`, from the last entry down to an empty tree: `judy_end`
followed by the deletion loop. -/
def judy_del_all (judy : Judy) (fuel : Nat) : Option (List JNode × Judy) :=
  match judy_end judy with
  | none => none
  | some r => del_all_loop fuel r.judy r.cell

/-- A driver step on an array: the insertion `*judy_cell (judy, key, len) = v`, or the removal
`if( judy_slot (judy, key, len) ) judy_del (judy);`. -/
inductive Step where
  | put (k : List Nat) (v : Nat)
  | del (k : List Nat)

/-- One driver step. -/
def judy_step (judy : Judy) : Step → Option Judy
  | .put k v => judy_put judy k v
  | .del k => judy_remove judy k

/-- A sequence of driver steps, insertions and removals in any order. -/
def judy_steps : List Step → Judy → Option Judy
  | [], judy => some judy
  | s :: rest, judy =>
    match judy_step judy s with
    | some judy1 => judy_steps rest judy1
    | none => none

/-- A cursor move: `judy_nxt (judy)` or `judy_prv (judy)`. -/
inductive Move where
  | nxt
  | prv

/-- One cursor move. -/
def judy_move (judy : Judy) : Move → Option Res
  | .nxt => judy_nxt judy
  | .prv => judy_prv judy

/-- A sequence of cursor moves; returns the state after the last one. -/
def judy_moves : List Move → Judy → Option Judy
  | [], judy => some judy
  | mv :: rest, judy =>
    match judy_move judy mv with
    | some r => judy_moves rest r.judy
    | none => none

/-! ## A clone -/

/-- The function `judy_clone`: the header (root word, `max`, level) and the cursor stack are
copied; the nodes are not, the copy refers to the same nodes.  `clone->seg = NULL` makes every
`judy_alloc` through the clone stop with `judy_abort`. -/
def judy_clone (judy : Judy) : Judy := judy

/-- The main loop of `judy_cell` through a clone (`judy->seg == NULL`): as `cell_loop`, but a
pass that reaches a call of `judy_alloc` stops there (`none`): the code after the loop when the
key is not consumed, `judy_promote`, `judy_splitnode`, `judy_splitspan` and the allocation of
an inner radix table. -/
def cell_loop_clone (buff : List Nat) (max : Nat) :
    Nat → JNode → Nat → Option (JNode × List JudyStack × JNode)
  | 0, _, _ => none
  | fuel + 1, next, off =>
    match next with
    | .word 0 => if max < off then some (.word 0, [], .word 0) else none
    | .word _ => none
    | .lin type keys kids =>
      let keysize := key_size off
      let cnt := lin_cnt type keysize
      let (value, off1) := key_value buff max 8 0 off
      let (slot, test) := lin_scan keys keysize value cnt 0
      if test = value then
        if value &&& 0xFF = 0 then
          some (next, [⟨next, off, slot⟩], kidAt kids slot.toNat)
        else
          match cell_loop_clone buff max fuel (kidAt kids slot.toNat) off1 with
          | none => none
          | some (kid, frames, cell) =>
            let node := JNode.lin type keys (kids.set slot.toNat kid)
            some (node, frames ++ [⟨node, off, slot⟩], cell)
      else if !(kidAt kids 0).nonzero then
        if slot < 0 then none
        else
          let keys1 := lin_insert keys slot.toNat (value % 256 ^ keysize)
          let kids1 := lin_insert kids slot.toNat (.word 0)
          if value &&& 0xFF = 0 then
            some (.lin type keys1 kids1, [⟨.lin type keys1 kids1, off, slot⟩], .word 0)
          else
            match cell_loop_clone buff max fuel (.word 0) off1 with
            | none => none
            | some (kid, frames, cell) =>
              let node := JNode.lin type keys1 (kids1.set slot.toNat kid)
              some (node, frames ++ [⟨node, off, slot⟩], cell)
      else none
    | .radix table =>
      let slot := if off < max then buff.getD off 0 else 0
      let off1 := if off < max then off + 1 else off
      match tblAt table (slot >>> 4) with
      | .radix inner =>
        if slot = 0 then
          let node := JNode.radix (table.set (slot >>> 4) (.radix inner))
          some (node, [⟨node, off, (slot : Int)⟩], tblAt inner (slot &&& 0x0F))
        else
          match cell_loop_clone buff max fuel (tblAt inner (slot &&& 0x0F)) off1 with
          | none => none
          | some (kid, frames, cell) =>
            let node := JNode.radix (table.set (slot >>> 4)
              (.radix (inner.set (slot &&& 0x0F) kid)))
            some (node, frames ++ [⟨node, off, (slot : Int)⟩], cell)
      | _ => none
    | .span base kid =>
      if max < off ∨ 2 ^ 31 ≤ max - off then none
      else
        let cnt := JUDY_span_bytes
        let tst := if cnt > max - off then max - off else cnt
        let eq := strncmp_eq base (buff.drop off) tst
        if eq ∧ tst < cnt ∧ base.getD tst 0 = 0 then
          some (next, [⟨next, off, 0⟩], kid)
        else if eq ∧ tst = cnt then
          match cell_loop_clone buff max fuel kid (off + cnt) with
          | none => none
          | some (kid1, frames, cell) =>
            some (.span base kid1, frames ++ [⟨.span base kid1, off, 0⟩], cell)
        else none

/-- The function `judy_cell` called with a clone. -/
def judy_cell_clone (judy : Judy) (buff : List Nat) (max : Nat) : Option Res :=
  match cell_loop_clone buff max (2 * judy.max + 2) judy.root 0 with
  | none => none
  | some (root, frames, cell) =>
    if frames.length ≤ judy.max then
      some ⟨{ judy with root := root, stack := frames }, some cell⟩
    else none

/-! ## The allocator -/

@[reducible] def JUDY_span_equiv : Nat := JUDY_2
@[reducible] def JUDY_radix_equiv : Nat := JUDY_8

/-- The allocator fields of the struct `Judy` with the memory that they manage: the heads
`judy->reuse[0..7]` of the free lists (`0` is `NULL`), the address `judy->seg` of the current
segment (`0` in a clone), its bump offset `judy->seg->next`, the earlier segments (the chain
`seg->seg`, newest first) and the byte at each address. -/
structure Arena where
  reuse : List Nat
  seg : Nat
  next : Nat
  segs : List Nat
  mem : Nat → Nat

/-- The word `*(void **)a`: 8 bytes, little endian. -/
def rdWord (mem : Nat → Nat) (a : Nat) : Nat :=
  (List.range 8).foldr (fun i w => mem (a + i) % 256 + 256 * w) 0

/-- The store `*(void **)a = v` of a word. -/
def wrWord (mem : Nat → Nat) (a v : Nat) : Nat → Nat :=
  fun x => if a ≤ x ∧ x < a + 8 then v / 256 ^ (x - a) % 256 else mem x

/-- The call `memset (a, c, amt)`. -/
def memset (mem : Nat → Nat) (a c amt : Nat) : Nat → Nat :=
  fun x => if a ≤ x ∧ x < a + amt then c else mem x

/-- The search `for( idx = type; idx++ < JUDY_max; ) if( block = judy->reuse[idx] )` of
`judy_alloc`, entered with the value of `idx`: the first class above it, up to `JUDY_max`,
whose free list is not empty. -/
def alloc_find (reuse : List Nat) : Nat → Nat → Option Nat
  | 0, _ => none
  | n + 1, idx =>
    if idx < JUDY_max then
      if reuse.getD (idx + 1) 0 ≠ 0 then some (idx + 1) else alloc_find reuse n (idx + 1)
    else none

/-- The loop `while( idx-- > type ) { judy->reuse[idx] = block + JudySize[idx] / sizeof(void *);
block[JudySize[idx] / sizeof(void *)] = 0; }` of `judy_alloc` on the free lists and the
memory. -/
def alloc_carve (block type : Nat) :
    Nat → Nat → List Nat × (Nat → Nat) → List Nat × (Nat → Nat)
  | 0, _, s => s
  | n + 1, idx, (reuse, mem) =>
    if idx > type then
      alloc_carve block type n (idx - 1)
        (reuse.set (idx - 1) (block + JudySize (idx - 1) / 8 * 8),
          wrWord mem (block + JudySize (idx - 1) / 8 * 8) 0)
    else (reuse, mem)

/-- The loop `for( idx = type; amt & (JUDY_cache_line - 1); amt <<= 1 ) { block = seg +
seg->next - 2 * amt; judy->reuse[idx++] = block; *block = 0; }` of `judy_alloc`, where `top`
is the address `seg + seg->next`; returns the final `amt` with the free lists and the
memory. -/
def alloc_fill (top : Nat) :
    Nat → Nat → Nat → List Nat × (Nat → Nat) → Nat × List Nat × (Nat → Nat)
  | 0, _, amt, s => (amt, s)
  | n + 1, idx, amt, (reuse, mem) =>
    if amt &&& (JUDY_cache_line - 1) ≠ 0 then
      alloc_fill top n (idx + 1) ((amt <<< 1) % 2 ^ 32)
        (reuse.set idx (top - 2 * amt), wrWord mem (top - 2 * amt) 0)
    else (amt, reuse, mem)

/-- The function `judy_alloc`: allocate a zeroed block for a node of class `type`; returns the
new allocator state and the address of the block.  `fresh` is the address that `malloc
(JUDY_seg)` returns if it is called, `0` when it fails; the header of a segment (16 bytes) is
kept in the fields `seg`, `next` and `segs`.  The result is `none` for a clone (no segment)
and when `malloc` fails. -/
def judy_alloc (a : Arena) (fresh type : Nat) : Option (Arena × Nat) :=
  if a.seg = 0 then none
  else
    let type := if type = JUDY_radix then JUDY_radix_equiv else type
    let type := if type = JUDY_span then JUDY_span_equiv else type
    let amt := JudySize type
    let amt := if amt &&& 0x07 ≠ 0 then (amt ||| 0x07) + 1 else amt
    -- see if free block is already available
    if a.reuse.getD type 0 ≠ 0 then
      let block := a.reuse.getD type 0
      some ({ a with reuse := a.reuse.set type (rdWord a.mem block),
                     mem := memset a.mem block 0 amt }, block)
    else
      -- break down available larger block for reuse into smaller blocks
      match (if type ≥ JUDY_1 then alloc_find a.reuse JUDY_max type else none) with
      | some idx =>
        let block := a.reuse.getD idx 0
        let carved := alloc_carve block type JUDY_max idx
          (a.reuse.set idx (rdWord a.mem block), a.mem)
        some ({ a with reuse := carved.1, mem := memset carved.2 block 0 amt }, block)
      | none =>
        let min := if amt < JUDY_cache_line then JUDY_cache_line else amt
        let seg? : Option Arena :=
          if a.next < min + 16 then
            if fresh ≠ 0 then
              some { a with seg := fresh, segs := a.seg :: a.segs,
                            next := JUDY_seg - (fresh &&& (JUDY_cache_line - 1)) }
            else none
          else some a
        match seg? with
        | none => none
        | some a1 =>
          -- generate additional free blocks to fill up to cache line size
          let rtn := a1.seg + a1.next - amt
          let filled := alloc_fill (a1.seg + a1.next) 32 type amt (a1.reuse, a1.mem)
          some ({ a1 with reuse := filled.2.1, next := a1.next - filled.1,
                          mem := memset filled.2.2 rtn 0 (JudySize type) }, rtn)

/-- The function `judy_free`: push a block on the free list of its class. -/
def judy_free (a : Arena) (block type : Nat) : Arena :=
  let type := if type = JUDY_radix then JUDY_radix_equiv else type
  let type := if type = JUDY_span then JUDY_span_equiv else type
  { a with mem := wrWord a.mem block (a.reuse.getD type 0), reuse := a.reuse.set type block }

/-- What a call of `judy_promote` leaves: the allocator, the top frame of the cursor, the new
content of `*next` (the node of the next class, at the address `newbase`), the slot of the
new key and the returned address `result` of its child word. -/
structure Promoted where
  arena : Arena
  top : JudyStack
  next : JNode
  newbase : Nat
  slot : Nat
  result : Nat

/-- The function `judy_promote` with its allocator calls and its store to the cursor: the
new node comes from `judy_alloc (judy, type)`, its content is the one that `judy_promote`
above builds, the top frame `judy->stack[judy->level]` (`top`) gets the new reference and the
slot of the new key, and the old node at the address `base` goes to `judy_free (judy, base,
type - 1)`. -/
def judy_promote_blocks (a : Arena) (fresh : Nat) (top : JudyStack) (base : Nat) (next : JNode)
    (idx value keysize : Nat) : Option Promoted :=
  match next with
  | .lin type0 _ _ =>
    let type := type0 + 1
    let oldcnt := JudySize (type - 1) / (JUDY_slot_size + keysize)
    let newcnt := JudySize type / (JUDY_slot_size + keysize)
    match judy_alloc a fresh type with
    | none => none
    | some (a1, newbase) =>
      let newnode := newbase + JudySize type
      match judy_promote next idx value keysize with
      | none => none
      | some (node, slot) =>
        some { arena := judy_free a1 base (type - 1),
               top := { top with next := node, slot := (slot : Int) },
               next := node, newbase := newbase, slot := slot,
               result := newnode - 8 * (idx + newcnt - oldcnt) }
  | _ => none

/-! ## The key field of a slot in memory -/

/-- The store `memcpy (base + slot * keysize, &value, keysize)` of a key into the slot `slot`
of a linear node (little endian build): the low `keysize` bytes of `value`, the least
significant byte first. -/
def key_store (mem : Nat → Nat) (base slot keysize value : Nat) : Nat → Nat :=
  fun x =>
    if base + slot * keysize ≤ x ∧ x < base + slot * keysize + keysize then
      value / 256 ^ (x - (base + slot * keysize)) % 256
    else mem x

/-- The read `test = *(judyvalue *)(base + slot * keysize); test &= JudyMask[keysize];` of the
slot scan. -/
def key_load (mem : Nat → Nat) (base slot keysize : Nat) : Nat :=
  rdWord mem (base + slot * keysize) &&& JudyMask keysize

/-! ## Opening an array and allocating data, on the allocator -/

/-- The constant `JUDY_mask`, `~(JudySlot)0x07`. -/
@[reducible] def JUDY_mask : Nat := 2 ^ 64 - 8

/-- The function `judy_open` on the allocator: `fresh` is the address that `malloc (JUDY_seg)`
returns, `0` when it fails.  The struct `Judy` (104 bytes, with one `JudyStack` of 16 bytes)
and the cursor of `max + 1` frames are taken from the end of the segment; `amt` and
`seg->next` are `uint`.  Returns the allocator and the address of the struct. -/
def judy_open_arena (max fresh : Nat) (mem : Nat → Nat) : Option (Arena × Nat) :=
  let max := (max + 1) % 2 ^ 32
  if fresh = 0 then none
  else
    let next := JUDY_seg
    let amt := (104 + max * 16) % 2 ^ 32
    let amt := if amt &&& (JUDY_cache_line - 1) ≠ 0 then
      ((amt ||| (JUDY_cache_line - 1)) + 1) % 2 ^ 32 else amt
    let next := next - (fresh &&& (JUDY_cache_line - 1))
    let next := (next + 2 ^ 32 - amt) % 2 ^ 32
    let judy := fresh + next
    some ({ reuse := List.replicate 8 0, seg := fresh, next := next, segs := [],
            mem := memset mem judy 0 amt }, judy)

/-- The function `judy_data`: allocate `amt` zeroed bytes from the segment; returns the new
allocator state and the address of the block.  `amt` and `seg->next` are `uint`; `fresh` is
the address that `malloc (JUDY_seg)` returns if it is called, `0` when it fails. -/
def judy_data (a : Arena) (fresh amt : Nat) : Option (Arena × Nat) :=
  if a.seg = 0 then none
  else
    let amt := amt % 2 ^ 32
    let amt := if amt &&& (JUDY_cache_line - 1) ≠ 0 then
      ((amt ||| (JUDY_cache_line - 1)) + 1) % 2 ^ 32 else amt
    let seg? : Option Arena :=
      if a.next < amt + 16 then
        if fresh ≠ 0 then
          some { a with seg := fresh, segs := a.seg :: a.segs,
                        next := JUDY_seg - (fresh &&& (JUDY_cache_line - 1)) }
        else none
      else some a
    match seg? with
    | none => none
    | some a1 =>
      let next := (a1.next + 2 ^ 32 - amt) % 2 ^ 32
      let block := a1.seg + next
      some ({ a1 with next := next, mem := memset a1.mem block 0 amt }, block)

/-- A call of the allocator: `judy_alloc (judy, type)` or `judy_data (judy, amt)`, each with
the address that `malloc` returns if the call asks for a segment, or `judy_free (judy, block,
type)` of the block that the call number `i` returned. -/
inductive ArenaCall where
  | alloc (type fresh : Nat)
  | data (amt fresh : Nat)
  | free (i type : Nat)

/-- A sequence of calls of the allocator; the state is the allocator with the addresses that
the calls of `judy_alloc` and `judy_data` returned so far, in the order of the calls. -/
def judy_calls : List ArenaCall → Arena × List Nat → Option (Arena × List Nat)
  | [], s => some s
  | .alloc type fresh :: rest, (a, blocks) =>
    match judy_alloc a fresh type with
    | none => none
    | some (a1, block) => judy_calls rest (a1, blocks ++ [block])
  | .data amt fresh :: rest, (a, blocks) =>
    match judy_data a fresh amt with
    | none => none
    | some (a1, block) => judy_calls rest (a1, blocks ++ [block])
  | .free i type :: rest, (a, blocks) =>
    if i < blocks.length then judy_calls rest (judy_free a (blocks.getD i 0) type, blocks)
    else none

/-! ## What a node stands for

The entries of an array are pairs of a key (its bytes, none of them zero) and the non-zero word
of its cell.  `Rep d off n m` says that the node `n`, reached at key offset `off`, is well formed
and holds exactly the entries `m` (the keys without their first `off` bytes), in the order of
its slots; `d` bounds the height of the node. -/

/-- An entry: the bytes of a key from some offset on, and the word of its cell. -/
abbrev Ent := List Nat × Nat

/-- The bytes of a key as the claims take them: none is zero. -/
def ZF (s : List Nat) : Prop := ∀ b ∈ s, 0 < b ∧ b < 256

/-- The integer whose `n` bytes, most significant first, are the bytes of `s` padded with zeros:
the `judyvalue` that `judy_slot` and `judy_cell` assemble from `n` key bytes. -/
def pack : Nat → List Nat → Nat
  | 0, _ => 0
  | n + 1, s => s.headD 0 * 256 ^ n + pack n s.tail

/-- The entries `m` below a slot whose key bytes are `p`. -/
def pre (p : List Nat) (m : List Ent) : List Ent := m.map (fun e => (p ++ e.1, e.2))

/-- The populated slots of a linear node with stride `ks`: a slot whose key ends inside the
stride is a leaf and its child word is the cell; any other slot refers to a node that `R`
describes. -/
inductive Slots (R : JNode → List Ent → Prop) (ks : Nat) :
    List Nat → List JNode → List Ent → Prop
  | nil : Slots R ks [] [] []
  | leaf {p : List Nat} {v : Nat} {keys : List Nat} {kids : List JNode} {m : List Ent} :
      ZF p → p.length < ks → 0 < v → Slots R ks keys kids m →
      Slots R ks (pack ks p :: keys) (JNode.word v :: kids) ((p, v) :: m)
  | node {p : List Nat} {kid : JNode} {m1 : List Ent} {keys : List Nat} {kids : List JNode}
      {m : List Ent} :
      ZF p → p.length = ks → R kid m1 → Slots R ks keys kids m →
      Slots R ks (pack ks p :: keys) (kid :: kids) (pre p m1 ++ m)

/-- The entry of a radix node for the key byte `b`: `inner[b & 0x0F]` below `table[b >> 4]`. -/
def radixAt (table : List JNode) (b : Nat) : JNode :=
  match tblAt table (b >>> 4) with
  | .radix inner => tblAt inner (b &&& 0x0F)
  | _ => .word 0

/-- What the entry `x` of a radix node for the key byte `b` holds: for `b = 0` the cell of the
key that ends here, otherwise a node that `R` describes; or nothing. -/
def RSlot (R : JNode → List Ent → Prop) (b : Nat) (x : JNode) (m : List Ent) : Prop :=
  (x = .word 0 ∧ m = []) ∨
    (b = 0 ∧ ∃ v, 0 < v ∧ x = .word v ∧ m = [([], v)]) ∨
    (b ≠ 0 ∧ ∃ m1, R x m1 ∧ m = pre [b] m1)

/-- The entries `ms lo ++ ms (lo + 1) ++ ...` of `n` consecutive radix slots. -/
def rcat (ms : Nat → List Ent) : Nat → Nat → List Ent
  | _, 0 => []
  | lo, n + 1 => ms lo ++ rcat ms (lo + 1) n

/-- The outer table of a radix node is well formed: every entry is `0` or refers to an inner
table of 16 entries that are not all zero, except possibly the inner table number `hole`. -/
def OuterOK (table : List JNode) (hole : Nat) : Prop :=
  table.length = 16 ∧
  ∀ i, i < 16 → tblAt table i = .word 0 ∨
    ∃ inner, tblAt table i = .radix inner ∧ inner.length = 16 ∧ (i = hole ∨ tbl_any inner = true)

/-- The node `n` at key offset `off` is well formed, of height at most `d`, and holds the
entries `m`. -/
def Rep : Nat → Nat → JNode → List Ent → Prop
  | 0, _, _, _ => False
  | d + 1, off, n, m =>
    match n with
    | .word _ => False
    | .lin type keys kids =>
      ∃ (e : Nat) (pkeys : List Nat) (pkids : List JNode),
        1 ≤ type ∧ type ≤ 6 ∧
        keys = List.replicate e 0 ++ pkeys ∧
        kids = List.replicate e (JNode.word 0) ++ pkids ∧
        e + pkeys.length = lin_cnt type (key_size off) ∧
        pkeys ≠ [] ∧
        pkeys.Pairwise (· < ·) ∧
        Slots (Rep d (off + key_size off)) (key_size off) pkeys pkids m
    | .radix table =>
      OuterOK table 16 ∧
      ∃ ms : Nat → List Ent,
        (∀ b, b < 256 → RSlot (Rep d (off + 1)) b (radixAt table b) (ms b)) ∧
        m = rcat ms 0 256 ∧ m ≠ []
    | .span base kid =>
      off % 8 = 0 ∧
      ∃ p : List Nat, ZF p ∧ base = p ++ List.replicate (JUDY_span_bytes - p.length) 0 ∧
        ((p.length < JUDY_span_bytes ∧ ∃ v, 0 < v ∧ kid = .word v ∧ m = [(p, v)]) ∨
         (p.length = JUDY_span_bytes ∧ ∃ m1, Rep d (off + JUDY_span_bytes) kid m1 ∧ m = pre p m1))

/-- The frames `fs` (top first) lead from the node `n` at key offset `off` down to the cell of
the entry `e`; the node holds the entries `A` before that cell and the entries `B` after it,
and is well formed around it.  The word `e.2` of the cell itself may be `0`, as it is between
`judy_cell` and the store of the caller. -/
def Path : Nat → Nat → JNode → List JudyStack → List Ent → Ent → List Ent → Prop
  | 0, _, _, _, _, _, _ => False
  | d + 1, off, n, fs, A, e, B =>
    match n with
    | .word _ => False
    | .lin type keys kids =>
      ∃ (e0 : Nat) (K1 K2 : List Nat) (C1 C2 : List JNode) (mA mB : List Ent) (p : List Nat)
        (c : JNode),
        1 ≤ type ∧ type ≤ 6 ∧
        keys = List.replicate e0 0 ++ (K1 ++ pack (key_size off) p :: K2) ∧
        kids = List.replicate e0 (JNode.word 0) ++ (C1 ++ c :: C2) ∧
        e0 + (K1.length + 1 + K2.length) = lin_cnt type (key_size off) ∧
        (K1 ++ pack (key_size off) p :: K2).Pairwise (· < ·) ∧
        ZF p ∧
        Slots (Rep d (off + key_size off)) (key_size off) K1 C1 mA ∧
        Slots (Rep d (off + key_size off)) (key_size off) K2 C2 mB ∧
        ((p.length < key_size off ∧ c = .word e.2 ∧ e.1 = p ∧
            fs = [⟨n, off, ((e0 + K1.length : Nat) : Int)⟩] ∧ A = mA ∧ B = mB) ∨
         (p.length = key_size off ∧ ∃ fs1 A1 s1 B1,
            Path d (off + key_size off) c fs1 A1 (s1, e.2) B1 ∧
            fs = fs1 ++ [⟨n, off, ((e0 + K1.length : Nat) : Int)⟩] ∧ e.1 = p ++ s1 ∧
            A = mA ++ pre p A1 ∧ B = pre p B1 ++ mB))
    | .radix table =>
      ∃ (ms : Nat → List Ent) (b : Nat),
        b < 256 ∧ OuterOK table (b >>> 4) ∧
        (∃ inner, tblAt table (b >>> 4) = .radix inner) ∧
        (∀ b1, b1 < 256 → b1 ≠ b → RSlot (Rep d (off + 1)) b1 (radixAt table b1) (ms b1)) ∧
        ((b = 0 ∧ radixAt table b = .word e.2 ∧ e.1 = [] ∧
            fs = [⟨n, off, (b : Int)⟩] ∧ A = [] ∧ B = rcat ms 1 255) ∨
         (b ≠ 0 ∧ ∃ fs1 A1 s1 B1,
            Path d (off + 1) (radixAt table b) fs1 A1 (s1, e.2) B1 ∧
            fs = fs1 ++ [⟨n, off, (b : Int)⟩] ∧ e.1 = b :: s1 ∧
            A = rcat ms 0 b ++ pre [b] A1 ∧ B = pre [b] B1 ++ rcat ms (b + 1) (255 - b)))
    | .span base kid =>
      off % 8 = 0 ∧
      ∃ p : List Nat, ZF p ∧ base = p ++ List.replicate (JUDY_span_bytes - p.length) 0 ∧
        ((p.length < JUDY_span_bytes ∧ kid = .word e.2 ∧ e.1 = p ∧
            fs = [⟨n, off, 0⟩] ∧ A = [] ∧ B = []) ∨
         (p.length = JUDY_span_bytes ∧ ∃ fs1 A1 s1 B1,
            Path d (off + JUDY_span_bytes) kid fs1 A1 (s1, e.2) B1 ∧
            fs = fs1 ++ [⟨n, off, 0⟩] ∧ e.1 = p ++ s1 ∧ A = pre p A1 ∧ B = pre p B1))

/-- The root word `n` of an array holds the entries `m`: it is `0` for no entry, and a well
formed node otherwise. -/
def RootRep (n : JNode) (m : List Ent) : Prop :=
  (n = .word 0 ∧ m = []) ∨ ∃ d, Rep d 0 n m

/-- The keys of a list of entries. -/
def keysOf (m : List Ent) : List (List Nat) := m.map Prod.fst

/-- What one call of the loop of `judy_cell` on the word `n` at offset `off` achieves for the
key `k`, whose bytes from `off` on are `s`: it returns the new word, the frames and the cell,
the frames lead to the cell of `s`, and the entries `m` that were there are still there; the
cell is new (its word is `0`) or it is the cell that `s` had, in which case nothing changed. -/
def CellOK (k : List Nat) (fuel off : Nat) (n : JNode) (m : List Ent) (s : List Nat) : Prop :=
  ∃ (n1 : JNode) (fs : List JudyStack) (c : Nat) (A B : List Ent) (d1 : Nat),
    cell_loop k k.length fuel n off = some (n1, fs, .word c) ∧
    Path d1 off n1 fs A (s, c) B ∧ fs.length ≤ s.length + 1 ∧
    ((c = 0 ∧ m = A ++ B) ∨ (0 < c ∧ m = A ++ (s, c) :: B ∧ n1 = n))

/-- The keys of the entries increase strictly in the lexicographic order of byte strings. -/
def Sorted (m : List Ent) : Prop := m.Pairwise (fun a b => a.1 < b.1)

/-- Every entry has a key without a zero byte and a cell that is not zero. -/
def Good (m : List Ent) : Prop := ∀ e ∈ m, ZF e.1 ∧ 0 < e.2

/-- The sorted list of entries after the key `k` is given the word `v`. -/
def ins (k : List Nat) (v : Nat) : List Ent → List Ent
  | [] => [(k, v)]
  | e :: m =>
    if k < e.1 then (k, v) :: e :: m
    else if k = e.1 then (k, v) :: m
    else e :: ins k v m

/-- The sorted list of entries after the driver steps `ops`, started from `m`. -/
def insAll (ops : List Ent) (m : List Ent) : List Ent :=
  ops.foldl (fun m e => ins e.1 e.2 m) m

/-- The word that the list of entries gives to the key `k`, `0` when it has none. -/
def find (k : List Nat) : List Ent → Nat
  | [] => 0
  | e :: m => if e.1 = k then e.2 else find k m

/-- The keys and cells that the driver may use with an array opened for keys of at most `M`
bytes: no zero byte in a key, at most `M` bytes, and a cell that is not zero. -/
def OpsOK (M : Nat) (ops : List Ent) : Prop :=
  ∀ e ∈ ops, ZF e.1 ∧ e.1.length ≤ M ∧ 0 < e.2

/-- Every key of the entries has at most `M` bytes. -/
def Short (M : Nat) (m : List Ent) : Prop := ∀ e ∈ m, e.1.length ≤ M

/-- What the enumeration shows of an entry: its key and the word of its cell. -/
def shown (e : Ent) : List Nat × JNode := (e.1, .word e.2)

/-- The sorted list of entries after the counting steps for the keys `ks`, started from `m`:
every step adds one to the word of its key on 64 bits. -/
def countAll (ks : List (List Nat)) (m : List Ent) : List Ent :=
  ks.foldl (fun m k => ins k ((find k m + 1) % 2 ^ 64) m) m

/-- The array opened for keys of at most 8 bytes that holds the single key "a" with the word
`c`, the cursor standing on that key. -/
def oneKey (c : Nat) : Judy :=
  { root := .span (97 :: List.replicate 23 0) (.word c), max := 9,
    stack := [⟨.span (97 :: List.replicate 23 0) (.word c), 0, 0⟩] }

/-- The result of `judy_del` when it ends in `judy_prv`: the root together with what `judy_prv`
returns. -/
def withRoot (root : JNode) :
    Option (List JudyStack × Option JNode) → Option (JNode × List JudyStack × Option JNode)
  | none => none
  | some (stack, cell) => some (root, stack, cell)

/-- The entries other than the one of the key `k`. -/
def without (k : List Nat) (m : List Ent) : List Ent := m.filter (fun e => decide (e.1 ≠ k))

/-- The sorted list of entries after one driver step: an insertion sets the word of the key, a
removal takes the entry of the key away. -/
def stepEnt (m : List Ent) : Step → List Ent
  | .put k v => ins k v m
  | .del k => without k m

/-- The sorted list of entries after the driver steps `steps`, started from `m`. -/
def stepsEnt (steps : List Step) (m : List Ent) : List Ent := steps.foldl stepEnt m

/-- The driver steps respect the contract: an inserted key has no zero byte and at most `M`
bytes and its word is not zero; a removed key is stored when it is removed. -/
def StepsOK (M : Nat) : List Step → List Ent → Prop
  | [], _ => True
  | .put k v :: rest, m => (ZF k ∧ k.length ≤ M ∧ 0 < v) ∧ StepsOK M rest (ins k v m)
  | .del k :: rest, m => k ∈ m.map Prod.fst ∧ StepsOK M rest (without k m)

/-- The cursor of the array is empty, or it stands on the cell of an entry of `m`. -/
def CursorOK (judy : Judy) (m : List Ent) : Prop :=
  judy.stack = [] ∨ ∃ d A e B, Path d 0 judy.root judy.stack A e B ∧ m = A ++ e :: B

/-- A cursor frame as the cursor operations leave it: it names a node and a slot of that node,
or, for a linear node, the slot `-1` that the scan of `judy_slot` ends with when every key of
the node is greater than the key looked up. -/
def KeyFrame (f : JudyStack) : Prop :=
  match f.next with
  | .word _ => False
  | .lin _ keys _ => -1 ≤ f.slot ∧ f.slot < keys.length
  | .radix _ => 0 ≤ f.slot ∧ f.slot < 256
  | .span _ _ => True

/-- The bytes of `buff1` are those of `buff` except below `max`, the first `len` of them are
not zero, and `len` is at most `max`: what the loops of `judy_key` keep true. -/
def KeyInv (buff : List Nat) (max : Nat) (buff1 : List Nat) (len : Nat) : Prop :=
  len ≤ max ∧ buff1.length = buff.length ∧ (∀ i, max ≤ i → buff1.getD i 0 = buff.getD i 0) ∧
    ∀ i, i < len → buff1.getD i 0 ≠ 0

/-- The word `x`, read at key offset `off1`, is in the node graph below the word `n` at key
offset `off`: it is `n` itself, or a child word of a linear node, an entry of a radix node or
the child word of a span node that is. -/
inductive Reach (off : Nat) (n : JNode) : Nat → JNode → Prop
  | root : Reach off n off n
  | lin {off1 type : Nat} {keys : List Nat} {kids : List JNode} (slot : Nat) :
      Reach off n off1 (.lin type keys kids) →
      Reach off n (off1 + key_size off1) (kidAt kids slot)
  | radix {off1 : Nat} {table : List JNode} (b : Nat) :
      Reach off n off1 (.radix table) → b < 256 → Reach off n (off1 + 1) (radixAt table b)
  | span {off1 : Nat} {base : List Nat} {kid : JNode} :
      Reach off n off1 (.span base kid) → Reach off n (off1 + JUDY_span_bytes) kid

/-- The layout of a linear node of class `type` at key offset `off`, with its `cnt` slots: the
populated slots, whose child word is not zero, are the slots `n .. cnt - 1` for some `n < cnt`,
the slots below `n` have a zero key and a zero child word, and the keys of the populated slots
are strictly ascending integers of the width of the stride. -/
def LinOK (off type : Nat) (keys : List Nat) (kids : List JNode) : Prop :=
  keys.length = lin_cnt type (key_size off) ∧ kids.length = lin_cnt type (key_size off) ∧
  ∃ n, n < lin_cnt type (key_size off) ∧
    (∀ i, i < n → keys.getD i 0 = 0 ∧ kidAt kids i = .word 0) ∧
    (∀ i, n ≤ i → i < lin_cnt type (key_size off) → (kidAt kids i).nonzero = true ∧
      keys.getD i 0 < 256 ^ key_size off) ∧
    (∀ i j, n ≤ i → i < j → j < lin_cnt type (key_size off) → keys.getD i 0 < keys.getD j 0)

/-- The 24 key bytes of `k` from the offset `off` on, padded with zeros past the end of the
key: the bytes of a span node for that part of the key. -/
def chunk (k : List Nat) (off : Nat) : List Nat :=
  (List.range JUDY_span_bytes).map (fun j => k.getD (off + j) 0)

/-- A chain of span nodes with the given bytes, each the only child of the one before, the
last one with the child word `cell`. -/
def spans (bases : List (List Nat)) (cell : JNode) : JNode :=
  bases.foldr (fun b kid => JNode.span b kid) cell

/-- The chain of `JUDY_1` nodes with the keys `keys`, each node's only child being the next node
and the child of the last one being `cell`. -/
def lin1s (keys : List Nat) (cell : JNode) : JNode :=
  keys.foldr (fun key kid => JNode.lin JUDY_1 [key] [kid]) cell

/-- The key values of the strides of `JUDY_key_size` bytes of a span that holds the bytes `p`
before its terminating zero: one for each stride up to and including the stride of the
terminating zero, and all three strides when the span is full. -/
def strides (p : List Nat) : List Nat :=
  (List.range (min 3 (p.length / 8 + 1))).map (fun j => pack 8 (p.drop (8 * j)))

/-- What `judy_promote` leaves as `r`, for a full node of class `type` at the address `base`
with the keys `keys` and the children `kids` in its `oldcnt` slots and a new key `value`, of
which `idx` keys of the node are smaller: the new content of `*next` is a node of class
`type + 1` with `newcnt` slots; its slots `0 .. newcnt - oldcnt - 2` are empty; the later
slots hold the old keys, each with its child word, and `value` after the `idx` smaller keys,
in ascending order; the child word of `value` is zero and its address is returned; the top
frame of the cursor names the new node and the slot of `value`; and the head of the free list
of class `type` is `base`, whose link word is the head that the list had in `a`. -/
def PromoteOK (a : Arena) (top : JudyStack) (base type ks value : Nat) (keys : List Nat)
    (kids : List JNode) (r : Promoted) : Prop :=
  let oldcnt := lin_cnt type ks
  let newcnt := lin_cnt (type + 1) ks
  let idx := keys.countP (fun x => decide (x < value))
  ∃ newkeys newkids,
    r.next = .lin (type + 1) newkeys newkids ∧
    oldcnt + 1 ≤ newcnt ∧ newkeys.length = newcnt ∧ newkids.length = newcnt ∧
    (∀ i, i < newcnt - oldcnt - 1 → newkeys.getD i 1 = 0 ∧ kidAt newkids i = .word 0) ∧
    (∀ i, i < idx → newkeys.getD (newcnt - oldcnt - 1 + i) 0 = keys.getD i 0 ∧
      kidAt newkids (newcnt - oldcnt - 1 + i) = kidAt kids i) ∧
    (∀ i, idx ≤ i → i < oldcnt → newkeys.getD (newcnt - oldcnt + i) 0 = keys.getD i 0 ∧
      kidAt newkids (newcnt - oldcnt + i) = kidAt kids i) ∧
    (newkeys.drop (newcnt - oldcnt - 1)).Pairwise (· < ·) ∧
    r.slot = newcnt - oldcnt - 1 + idx ∧
    newkeys.getD r.slot 0 = value ∧ kidAt newkids r.slot = .word 0 ∧
    r.result = r.newbase + JudySize (type + 1) - 8 * (r.slot + 1) ∧
    r.top = { top with next := r.next, slot := (r.slot : Int) } ∧
    r.arena.reuse.getD type 0 = base ∧ rdWord r.arena.mem base = a.reuse.getD type 0

/-- The size class of a node type: a radix node and a span node are allocated and freed as
`JUDY_radix_equiv` and `JUDY_span_equiv`, a linear node as its own class. -/
def classOf (type : Nat) : Nat :=
  if type = JUDY_radix then JUDY_radix_equiv
  else if type = JUDY_span then JUDY_span_equiv else type

/-- The window of the `key_size off` key bytes at the offset `off` of a key of `max` bytes; a
byte past the end of the key reads as 0. -/
def window (buff : List Nat) (max off : Nat) : List Nat :=
  (List.range (key_size off)).map (fun i => if off + i < max then buff.getD (off + i) 0 else 0)

/-- The calls respect the contract: a node type is at most 7, the host allocator returns a
segment when it is asked for one, at an address below `2 ^ 63`, and a block that is freed has
been returned by an earlier call; `n` is the number of blocks returned so far. -/
def CallsOK : Nat → List ArenaCall → Prop
  | _, [] => True
  | n, .alloc type fresh :: rest => (type ≤ 7 ∧ fresh ≠ 0 ∧ fresh < 2 ^ 63) ∧ CallsOK (n + 1) rest
  | n, .data _ fresh :: rest => (fresh ≠ 0 ∧ fresh < 2 ^ 63) ∧ CallsOK (n + 1) rest
  | n, .free i type :: rest => (i < n ∧ type ≤ 7) ∧ CallsOK n rest

/-- The invariant of the allocator for the alignment, with a bound `B` of the addresses: the
bump address `seg + seg->next` is a multiple of 8, and the free lists hold multiples of 8
only: there is a set `V` of multiples of 8 that has every head that is not `NULL` and, with a
block, the link of that block if it is not `NULL`. -/
def AlignOK (B : Nat) (a : Arena) : Prop :=
  a.seg ≠ 0 ∧ a.reuse.length = 8 ∧ (a.seg + a.next) % 8 = 0 ∧
  a.seg < 2 ^ 63 ∧ a.next < 2 ^ 32 ∧ 2 ^ 63 + 2 ^ 32 ≤ B ∧
  ∃ V : Nat → Prop, (∀ x, V x → x % 8 = 0 ∧ x ≤ B) ∧
    (∀ i, a.reuse.getD i 0 = 0 ∨ V (a.reuse.getD i 0)) ∧
    (∀ x, V x → rdWord a.mem x = 0 ∨ V (rdWord a.mem x))

/-- The loop of `judy_key` over the frames `fs` (top first) appends exactly the bytes `ps` to
the key it has assembled so far, whatever stands in the buffer and whatever lies in front of
the nodes, when the buffer has room for them. -/
def KeyReads (fs : List JudyStack) (ps : List Nat) : Prop :=
  ∀ (front : JudyStack → Option Nat) (max1 : Nat) (buff : List Nat) (len : Nat),
    len + ps.length ≤ max1 → max1 < buff.length →
    ∃ buff1, key_loop front max1 fs.reverse buff len = some (buff1, len + ps.length) ∧
      buff1.length = buff.length ∧ buff1.take (len + ps.length) = buff.take len ++ ps

/-- What one call of the loop of `judy_cell` on the word `n` at offset `off` achieves for a
key `k` whose bytes before its first zero byte are `p`: it returns, it pushes at most one
frame more than `p` has bytes left, and `judy_key` reads the rest of `p` and nothing else from
the frames. -/
def ZeroOK (k p : List Nat) (fuel off : Nat) (n : JNode) : Prop :=
  ∃ (n1 : JNode) (fs : List JudyStack) (c : JNode),
    cell_loop k k.length fuel n off = some (n1, fs, c) ∧
    fs.length ≤ p.length - off + 1 ∧ KeyReads fs (p.drop off)

/-- The key `k` has a zero byte, `p` are its bytes before the first one, every byte is below
256, the key ends in the stride of `JUDY_key_size` bytes that holds that zero byte, and it has
fewer than `2 ^ 31` bytes. -/
def ZeroKey (k p : List Nat) : Prop :=
  (∃ t, k = p ++ 0 :: t) ∧ ZF p ∧ (∀ b ∈ k, b < 256) ∧
    k.length < 8 * (p.length / 8 + 1) ∧ k.length < 2 ^ 31

/-! ## Arithmetic of the bit operations -/

theorem and7 (x : Nat) : x &&& 7 = x % 8 := Nat.and_pow_two_sub_one_eq_mod x 3

theorem and15 (x : Nat) : x &&& 15 = x % 16 := Nat.and_pow_two_sub_one_eq_mod x 4

theorem and255 (x : Nat) : x &&& 255 = x % 256 := Nat.and_pow_two_sub_one_eq_mod x 8

theorem shr4 (x : Nat) : x >>> 4 = x / 16 := Nat.shiftRight_eq_div_pow x 4

theorem key_size_eq (off : Nat) : key_size off = 8 - off % 8 := by
  simp [key_size, and7]

theorem key_size_pos (off : Nat) : 0 < key_size off := by
  rw [key_size_eq]; omega

theorem key_size_le (off : Nat) : key_size off ≤ 8 := by
  rw [key_size_eq]; omega

theorem or7 (off : Nat) : (off ||| 7) + 1 = off + key_size off := by
  rw [key_size_eq]
  have h1 : off = 2 ^ 3 * (off / 8) + off % 8 := by omega
  have h2 : off % 8 < 2 ^ 3 := by omega
  have h3 : off ||| 7 = 2 ^ 3 * (off / 8) ||| 7 := by
    conv_lhs => rw [h1, Nat.mul_add_lt_is_or h2, Nat.lor_assoc]
    congr 1
    have : off % 8 < 8 := by omega
    interval_cases (off % 8) <;> rfl
  rw [h3, ← Nat.mul_add_lt_is_or (by norm_num : 7 < 2 ^ 3)]
  omega

theorem or15 (x : Nat) : (x ||| 15) + 1 = (x / 16 + 1) * 16 := by
  have h1 : x = 2 ^ 4 * (x / 16) + x % 16 := by omega
  have h2 : x % 16 < 2 ^ 4 := by omega
  have h3 : x ||| 15 = 2 ^ 4 * (x / 16) ||| 15 := by
    conv_lhs => rw [h1, Nat.mul_add_lt_is_or h2, Nat.lor_assoc]
    congr 1
    have : x % 16 < 16 := by omega
    interval_cases (x % 16) <;> rfl
  rw [h3, ← Nat.mul_add_lt_is_or (by norm_num : 15 < 2 ^ 4)]
  omega

theorem and240 (x : Nat) (h : x < 256) : x &&& 240 = x / 16 * 16 := by
  interval_cases x <;> rfl

theorem JudyMask_eq (ks x : Nat) (h : ks ≤ 8) : x &&& JudyMask ks = x % 256 ^ ks := by
  have h8 : ∀ n, (256 : Nat) ^ n = 2 ^ (8 * n) := fun n => by
    rw [pow_mul]; norm_num
  rw [h8, ← Nat.and_pow_two_sub_one_eq_mod]
  congr 1
  interval_cases ks <;> rfl

theorem byte_at (key i : Nat) : (key >>> (8 * i)) &&& 255 = key / 256 ^ i % 256 := by
  rw [and255, Nat.shiftRight_eq_div_pow, pow_mul]
  norm_num

theorem shl8 (v b : Nat) (hv : v * 256 < 2 ^ 64) (hb : b < 256) :
    (v <<< 8) % 2 ^ 64 ||| b = v * 256 + b := by
  rw [Nat.shiftLeft_eq, Nat.mod_eq_of_lt (by simpa using hv)]
  have := Nat.mul_add_lt_is_or (i := 8) (b := b) (by simpa using hb) v
  simp only [show (2:Nat) ^ 8 = 256 from rfl] at this ⊢
  rw [Nat.mul_comm v 256, ← this]

theorem lin_cnt_pos (type ks : Nat) (h1 : 1 ≤ type) (h6 : type ≤ 6) (hk : ks ≤ 8) :
    0 < lin_cnt type ks := by
  unfold lin_cnt
  apply Nat.div_pos _ (by simp [JUDY_slot_size])
  interval_cases type <;> simp [JudySize, JUDY_slot_size, JUDY_key_size, JUDY_span_bytes] <;> omega

theorem JUDY_open_max_eq : JUDY_open_max = 4087 := rfl

/-- A key of an array that `judy_open` can open has fewer than `2 ^ 31` bytes. -/
theorem len31 {M : Nat} [hM : Fact (M ≤ JUDY_open_max)] {k : List Nat} (hl : k.length ≤ M) :
    k.length < 2 ^ 31 := by
  have h1 := hM.out
  have h2 := JUDY_open_max_eq
  omega

theorem open_max32 (M : Nat) [hM : Fact (M ≤ JUDY_open_max)] : (M + 1) % 2 ^ 32 = M + 1 := by
  have h1 := hM.out
  have h2 := JUDY_open_max_eq
  omega


/-! ## Packed key bytes -/

theorem ZF_nil : ZF [] := fun _ h => absurd h (List.not_mem_nil _)

theorem ZF_cons {b : Nat} {s : List Nat} : ZF (b :: s) ↔ (0 < b ∧ b < 256) ∧ ZF s := by
  simp [ZF]

theorem ZF_append {s t : List Nat} : ZF (s ++ t) ↔ ZF s ∧ ZF t := by
  simp only [ZF, List.mem_append]
  constructor
  · intro h; exact ⟨fun b hb => h b (Or.inl hb), fun b hb => h b (Or.inr hb)⟩
  · rintro ⟨h1, h2⟩ b (hb | hb)
    · exact h1 b hb
    · exact h2 b hb

theorem ZF_take {s : List Nat} (n : Nat) (h : ZF s) : ZF (s.take n) :=
  fun b hb => h b (List.mem_of_mem_take hb)

theorem ZF_drop {s : List Nat} (n : Nat) (h : ZF s) : ZF (s.drop n) :=
  fun b hb => h b (List.mem_of_mem_drop hb)

theorem ZF_tail {s : List Nat} (h : ZF s) : ZF s.tail := by
  cases s with
  | nil => exact h
  | cons b t => exact (ZF_cons.1 h).2

theorem pack_nil (n : Nat) : pack n [] = 0 := by
  induction n with
  | zero => rfl
  | succ n ih => simp [pack, ih]

theorem pack_cons (n b : Nat) (s : List Nat) : pack (n + 1) (b :: s) = b * 256 ^ n + pack n s := rfl

theorem pack_lt (n : Nat) (s : List Nat) (h : ZF s) : pack n s < 256 ^ n := by
  induction n generalizing s with
  | zero => simp [pack]
  | succ n ih =>
    cases s with
    | nil => rw [pack_nil]; positivity
    | cons b t =>
      rw [pack_cons]
      have h1 := (ZF_cons.1 h).1.2
      have h2 := ih t (ZF_cons.1 h).2
      have : b * 256 ^ n ≤ 255 * 256 ^ n := Nat.mul_le_mul_right _ (by omega)
      rw [pow_succ]; omega

theorem pack_take (n : Nat) (s : List Nat) : pack n (s.take n) = pack n s := by
  induction n generalizing s with
  | zero => rfl
  | succ n ih =>
    cases s with
    | nil => rfl
    | cons b t => simp [pack_cons, ih]

theorem pack_mod (n : Nat) (s : List Nat) (h : ZF s) (hn : 0 < n) :
    pack n s % 256 = 0 ↔ s.length < n := by
  induction n generalizing s with
  | zero => omega
  | succ n ih =>
    cases s with
    | nil => simp [pack_nil]
    | cons b t =>
      rw [pack_cons]
      have hb := (ZF_cons.1 h).1
      rcases Nat.eq_zero_or_pos n with h0 | h0
      · subst h0
        simp only [pow_zero, mul_one, pack, add_zero, List.length_cons]
        constructor
        · intro hh; rw [Nat.mod_eq_of_lt hb.2] at hh; omega
        · intro hh; omega
      · have h256 : 256 ∣ b * 256 ^ n := by
          obtain ⟨k, rfl⟩ : ∃ k, n = k + 1 := ⟨n - 1, by omega⟩
          exact ⟨b * 256 ^ k, by rw [pow_succ]; ring⟩
        rw [Nat.add_mod, Nat.mod_eq_zero_of_dvd h256, Nat.zero_add, Nat.mod_mod,
          ih t (ZF_cons.1 h).2 h0]
        simp

theorem pack_div (n : Nat) (s : List Nat) (h : ZF s) :
    pack (n + 1) s / 256 ^ n = s.headD 0 := by
  cases s with
  | nil => simp [pack_nil]
  | cons b t =>
    rw [pack_cons]
    have h2 := pack_lt n t (ZF_cons.1 h).2
    rw [Nat.add_comm, Nat.add_mul_div_right _ _ (by positivity), Nat.div_eq_of_lt h2]
    simp

theorem pack_mod_pow (n : Nat) (s : List Nat) (h : ZF s) :
    pack (n + 1) s % 256 ^ n = pack n s.tail := by
  cases s with
  | nil => simp [pack_nil]
  | cons b t =>
    rw [pack_cons]
    have h2 := pack_lt n t (ZF_cons.1 h).2
    rw [Nat.add_comm, Nat.add_mul_mod_self_right, Nat.mod_eq_of_lt h2]
    rfl

theorem pack_byte (n i : Nat) (s : List Nat) (h : ZF s) (hi : i < n) :
    pack n s / 256 ^ i % 256 = s.getD (n - 1 - i) 0 := by
  induction n generalizing s with
  | zero => omega
  | succ n ih =>
    rcases Nat.lt_or_ge i n with h1 | h1
    · cases s with
      | nil => simp [pack_nil]
      | cons b t =>
        rw [pack_cons]
        have e1 : b * 256 ^ n = 256 ^ i * (256 * (b * 256 ^ (n - 1 - i))) := by
          have : 256 ^ n = 256 ^ i * (256 * 256 ^ (n - 1 - i)) := by
            rw [← pow_succ', ← pow_add]; congr 1; omega
          rw [this]; ring
        rw [e1, Nat.mul_add_div (by positivity), Nat.mul_add_mod, ih t (ZF_cons.1 h).2 h1]
        have e2 : n + 1 - 1 - i = (n - 1 - i) + 1 := by omega
        rw [e2]
        rfl
    · have hin : i = n := by omega
      subst hin
      rw [pack_div i s h]
      have e2 : i + 1 - 1 - i = 0 := by omega
      rw [e2]
      cases s with
      | nil => rfl
      | cons b t => simp [Nat.mod_eq_of_lt (ZF_cons.1 h).1.2]

theorem pack_lex (n : Nat) (p q s t : List Nat) (hp : ZF p) (hq : ZF q)
    (h : pack n p < pack n q) (hs : p.length < n → s = []) : p ++ s < q ++ t := by
  induction n generalizing p q with
  | zero => simp [pack] at h
  | succ n ih =>
    cases p with
    | nil =>
      cases q with
      | nil => simp at h
      | cons b q' =>
        rw [hs (by simp)]
        exact List.nil_lt_cons _ _
    | cons a p' =>
      cases q with
      | nil =>
        rw [pack_nil] at h
        omega
      | cons b q' =>
        rw [pack_cons, pack_cons] at h
        have h1 := pack_lt n p' (ZF_cons.1 hp).2
        have h2 := pack_lt n q' (ZF_cons.1 hq).2
        rcases Nat.lt_trichotomy a b with hab | hab | hab
        · exact List.Lex.rel hab
        · subst hab
          have h3 : pack n p' < pack n q' := by omega
          have := ih p' q' (ZF_cons.1 hp).2 (ZF_cons.1 hq).2 h3
            (fun hl => hs (by simp; omega))
          exact List.Lex.cons this
        · exfalso
          have : (b + 1) * 256 ^ n ≤ a * 256 ^ n := Nat.mul_le_mul_right _ hab
          rw [Nat.add_mul] at this
          omega

theorem pack_inj (n : Nat) (p q : List Nat) (hp : ZF p) (hq : ZF q)
    (hpl : p.length ≤ n) (hql : q.length ≤ n) (h : pack n p = pack n q) : p = q := by
  induction n generalizing p q with
  | zero =>
    simp at hpl hql
    rw [hpl, hql]
  | succ n ih =>
    cases p with
    | nil =>
      cases q with
      | nil => rfl
      | cons b q' =>
        rw [pack_nil, pack_cons] at h
        have := (ZF_cons.1 hq).1.1
        have : 0 < b * 256 ^ n := by positivity
        omega
    | cons a p' =>
      cases q with
      | nil =>
        rw [pack_nil, pack_cons] at h
        have := (ZF_cons.1 hp).1.1
        have : 0 < a * 256 ^ n := by positivity
        omega
      | cons b q' =>
        rw [pack_cons, pack_cons] at h
        have h1 := pack_lt n p' (ZF_cons.1 hp).2
        have h2 := pack_lt n q' (ZF_cons.1 hq).2
        have hab : a = b := by
          rcases Nat.lt_trichotomy a b with hab | hab | hab
          · exfalso
            have : (a + 1) * 256 ^ n ≤ b * 256 ^ n := Nat.mul_le_mul_right _ hab
            rw [Nat.add_mul] at this
            omega
          · exact hab
          · exfalso
            have : (b + 1) * 256 ^ n ≤ a * 256 ^ n := Nat.mul_le_mul_right _ hab
            rw [Nat.add_mul] at this
            omega
        subst hab
        have h3 : pack n p' = pack n q' := by omega
        simp at hpl hql
        rw [ih p' q' (ZF_cons.1 hp).2 (ZF_cons.1 hq).2 hpl hql h3]

/-! ## The small loops -/

theorem headD_drop (k : List Nat) (off : Nat) : (k.drop off).headD 0 = k.getD off 0 := by
  induction k generalizing off with
  | nil => simp
  | cons b t ih =>
    cases off with
    | zero => rfl
    | succ n => simp [ih n]

theorem tail_drop {α : Type} (k : List α) (off : Nat) : (k.drop off).tail = k.drop (off + 1) := by
  rw [List.tail_drop]

theorem getD_lt_256 (k : List Nat) (hk : ZF k) (i : Nat) : k.getD i 0 < 256 := by
  rw [List.getD_eq_getElem?_getD]
  rcases Nat.lt_or_ge i k.length with h | h
  · rw [List.getElem?_eq_getElem h]
    exact (hk _ (List.getElem_mem h)).2
  · rw [List.getElem?_eq_none h]; simp

theorem getD_pos (k : List Nat) (hk : ZF k) (i : Nat) (h : i < k.length) : 0 < k.getD i 0 := by
  rw [List.getD_eq_getElem?_getD, List.getElem?_eq_getElem h]
  exact (hk _ (List.getElem_mem h)).1

theorem getD_zero_of_ge (k : List Nat) (i : Nat) (h : k.length ≤ i) : k.getD i 0 = 0 := by
  rw [List.getD_eq_getElem?_getD, List.getElem?_eq_none h]; rfl

theorem key_value_aux (k : List Nat) (hk : ZF k) (n : Nat) :
    ∀ (v off : Nat), key_size off ≤ n → v < 256 ^ (8 - key_size off) →
      key_value k k.length n v off =
        (v * 256 ^ key_size off + pack (key_size off) (k.drop off), off + key_size off) := by
  induction n with
  | zero => intro v off h; have := key_size_pos off; omega
  | succ n ih =>
    intro v off hn hv
    have hks := key_size_eq off
    have hks1 := key_size_eq (off + 1)
    have hb : k.getD off 0 < 256 := getD_lt_256 k hk off
    have hv1 : v * 256 < 2 ^ 64 := by
      have h7 : (256:Nat) ^ (8 - key_size off) ≤ 256 ^ 7 :=
        Nat.pow_le_pow_right (by norm_num) (by have := key_size_pos off; omega)
      have : v < 256 ^ 7 := by omega
      norm_num at this ⊢
      omega
    have hval : (if off < k.length then (v <<< 8) % 2 ^ 64 ||| k.getD off 0
        else (v <<< 8) % 2 ^ 64) = v * 256 + k.getD off 0 := by
      split
      · exact shl8 v _ hv1 hb
      · rw [getD_zero_of_ge k off (by omega), Nat.shiftLeft_eq, Nat.mod_eq_of_lt (by simpa using hv1)]
        simp
    unfold key_value
    simp only [hval, and7]
    rcases Nat.eq_or_lt_of_le (key_size_pos off) with h1 | h1
    · have h1 : key_size off = 1 := h1.symm
      have : (off + 1) % 8 = 0 := by omega
      simp only [this, ne_eq, not_true_eq_false, ↓reduceIte, h1, pow_one]
      simp [pack, headD_drop]
    · have h2 : (off + 1) % 8 ≠ 0 := by omega
      have h3 : key_size (off + 1) = key_size off - 1 := by omega
      simp only [h2, ne_eq, not_false_eq_true, ↓reduceIte]
      obtain ⟨r, hr⟩ : ∃ r, key_size off = r + 1 := ⟨key_size off - 1, by omega⟩
      rw [ih (v * 256 + k.getD off 0) (off + 1) (by omega)]
      · rw [h3, hr]
        simp only [Nat.add_sub_cancel, pack, headD_drop, tail_drop]
        congr 1
        · rw [pow_succ]; ring
        · omega
      · rw [h3, hr, Nat.add_sub_cancel]
        rw [hr] at hv
        have e : 8 - r = (8 - (r + 1)) + 1 := by have := key_size_le off; omega
        rw [e, pow_succ]
        omega

theorem key_value_spec (k : List Nat) (hk : ZF k) (off : Nat) :
    key_value k k.length 8 0 off = (pack (key_size off) (k.drop off), off + key_size off) := by
  rw [key_value_aux k hk 8 0 off (key_size_le off) (by positivity)]
  simp

theorem lin_scan_succ (keys : List Nat) (ks value slot t : Nat) :
    lin_scan keys ks value (slot + 1) t =
      if keys.getD slot 0 &&& JudyMask ks ≤ value then
        ((slot : Int), keys.getD slot 0 &&& JudyMask ks)
      else lin_scan keys ks value slot (keys.getD slot 0 &&& JudyMask ks) := rfl

theorem lin_scan_lt (keys : List Nat) (ks value : Nat) (hks : ks ≤ 8) (n : Nat) :
    ∀ (B : List Nat) (t : Nat), keys.drop n = B ++ keys.drop (n + B.length) →
      (∀ b ∈ B, value < b % 256 ^ ks) →
      lin_scan keys ks value (n + B.length) t =
        lin_scan keys ks value n (if B = [] then t else B.headD 0 % 256 ^ ks) := by
  intro B
  induction B using List.reverseRecOn with
  | nil => intro t _ _; simp
  | append_singleton B x ih =>
    intro t hd hB
    have hlen : n + (B ++ [x]).length = (n + B.length) + 1 := by simp; omega
    have hx : keys.getD (n + B.length) 0 = x := by
      have h1 : (keys.drop n).getD B.length 0 = x := by
        rw [hd, List.append_assoc, List.getD_append_right _ _ _ _ (le_refl _)]
        simp
      rw [← h1, List.getD_eq_getElem?_getD, List.getD_eq_getElem?_getD, List.getElem?_drop]
    have hxv : value < x % 256 ^ ks := hB x (by simp)
    rw [hlen, lin_scan_succ, hx, JudyMask_eq ks x hks, if_neg (by omega)]
    have hd2 : keys.drop n = B ++ keys.drop (n + B.length) := by
      have h2 := congrArg (List.take B.length) hd
      have h3 : keys.drop n = (keys.drop n).take B.length ++ (keys.drop n).drop B.length :=
        (List.take_append_drop _ _).symm
      rw [h3, h2, List.append_assoc, List.take_left, List.drop_drop]
    rw [ih _ hd2 (fun b hb => hB b (by simp [hb]))]
    congr 1
    cases B with
    | nil => simp
    | cons b B2 => simp

theorem lin_scan_hit (keys : List Nat) (ks value : Nat) (n t x : Nat) (hks : ks ≤ 8)
    (hx : keys.getD n 0 = x) (hxv : x % 256 ^ ks ≤ value) :
    lin_scan keys ks value (n + 1) t = ((n : Int), x % 256 ^ ks) := by
  rw [lin_scan_succ, hx, JudyMask_eq ks x hks, if_pos hxv]

/-- The scan of a node whose keys are `L ++ [x] ++ B` with `x ≤ value < B` stops at `x`. -/
theorem lin_scan_split (ks value : Nat) (hks : ks ≤ 8) (L B : List Nat) (x t : Nat)
    (hx : x % 256 ^ ks ≤ value) (hB : ∀ b ∈ B, value < b % 256 ^ ks) :
    lin_scan (L ++ x :: B) ks value (L.length + 1 + B.length) t =
      ((L.length : Int), x % 256 ^ ks) := by
  rw [lin_scan_lt (L ++ x :: B) ks value hks (L.length + 1) B t _ hB]
  · exact lin_scan_hit _ _ _ _ _ _ hks
      (by rw [List.getD_append_right _ _ _ _ (le_refl _)]; simp) hx
  · have e1 : (L ++ x :: B).drop (L.length + 1) = B := by
      rw [show L ++ x :: B = (L ++ [x]) ++ B by simp]
      exact List.drop_left' (by simp)
    have e2 : (L ++ x :: B).drop (L.length + 1 + B.length) = [] := by
      apply List.drop_of_length_le; simp; omega
    rw [e1, e2]; simp

/-- The scan of a node all of whose keys `B` are above `value` ends with `slot = -1`. -/
theorem lin_scan_none (ks value : Nat) (hks : ks ≤ 8) (B : List Nat) (t : Nat)
    (hB : ∀ b ∈ B, value < b % 256 ^ ks) :
    lin_scan B ks value B.length t = (-1, if B = [] then t else B.headD 0 % 256 ^ ks) := by
  have := lin_scan_lt B ks value hks 0 B t (by simp) hB
  simp only [Nat.zero_add] at this
  rw [this]
  rfl

/-! ## Basic facts on `Slots`, `Rep` and `Path` -/

theorem Slots.mono {R S : JNode → List Ent → Prop} {ks : Nat} {K : List Nat} {C : List JNode}
    {m : List Ent} (h : Slots R ks K C m) (hRS : ∀ c m1, R c m1 → S c m1) : Slots S ks K C m := by
  induction h with
  | nil => exact Slots.nil
  | leaf hp hl hv _ ih => exact Slots.leaf hp hl hv ih
  | node hp hl hr _ ih => exact Slots.node hp hl (hRS _ _ hr) ih

theorem Slots.length_eq {R : JNode → List Ent → Prop} {ks : Nat} {K : List Nat} {C : List JNode}
    {m : List Ent} (h : Slots R ks K C m) : K.length = C.length := by
  induction h with
  | nil => rfl
  | leaf _ _ _ _ ih => simp [ih]
  | node _ _ _ _ ih => simp [ih]

theorem Slots.append {R : JNode → List Ent → Prop} {ks : Nat} {K1 K2 : List Nat}
    {C1 C2 : List JNode} {m1 m2 : List Ent} (h1 : Slots R ks K1 C1 m1) (h2 : Slots R ks K2 C2 m2) :
    Slots R ks (K1 ++ K2) (C1 ++ C2) (m1 ++ m2) := by
  induction h1 with
  | nil => simpa using h2
  | leaf hp hl hv _ ih => exact Slots.leaf hp hl hv ih
  | node hp hl hr _ ih =>
    rw [List.append_assoc]
    exact Slots.node hp hl hr ih

theorem Slots.split {R : JNode → List Ent → Prop} {ks : Nat} (K1 : List Nat) :
    ∀ {K2 : List Nat} {C : List JNode} {m : List Ent}, Slots R ks (K1 ++ K2) C m →
      ∃ C1 C2 m1 m2, C = C1 ++ C2 ∧ m = m1 ++ m2 ∧ Slots R ks K1 C1 m1 ∧ Slots R ks K2 C2 m2 := by
  induction K1 with
  | nil => intro K2 C m h; exact ⟨[], C, [], m, rfl, rfl, Slots.nil, h⟩
  | cons x K1 ih =>
    intro K2 C m h
    cases h with
    | leaf hp hl hv hs =>
      obtain ⟨C1, C2, m1, m2, rfl, rfl, h1, h2⟩ := ih hs
      exact ⟨_ :: C1, C2, _ :: m1, m2, rfl, rfl, Slots.leaf hp hl hv h1, h2⟩
    | node hp hl hr hs =>
      obtain ⟨C1, C2, m1, m2, rfl, rfl, h1, h2⟩ := ih hs
      exact ⟨_ :: C1, C2, _ ++ m1, m2, rfl, by simp, Slots.node hp hl hr h1, h2⟩

theorem Slots.key_lt {R : JNode → List Ent → Prop} {ks : Nat} {K : List Nat} {C : List JNode}
    {m : List Ent} (h : Slots R ks K C m) : ∀ x ∈ K, x < 256 ^ ks := by
  induction h with
  | nil => simp
  | leaf hp _ _ _ ih =>
    intro x hx
    rcases List.mem_cons.1 hx with rfl | hx
    · exact pack_lt _ _ hp
    · exact ih x hx
  | node hp _ _ _ ih =>
    intro x hx
    rcases List.mem_cons.1 hx with rfl | hx
    · exact pack_lt _ _ hp
    · exact ih x hx

theorem Slots.kids_nonzero {R : JNode → List Ent → Prop} {ks : Nat} {K : List Nat}
    {C : List JNode} {m : List Ent} (h : Slots R ks K C m)
    (hR : ∀ c m1, R c m1 → c.nonzero = true) : ∀ c ∈ C, c.nonzero = true := by
  induction h with
  | nil => simp
  | @leaf p v keys kids m hp _ hv _ ih =>
    intro c hc
    rcases List.mem_cons.1 hc with rfl | hc
    · cases v with
      | zero => omega
      | succ v => rfl
    · exact ih c hc
  | node _ _ hr _ ih =>
    intro c hc
    rcases List.mem_cons.1 hc with rfl | hc
    · exact hR _ _ hr
    · exact ih c hc

theorem Slots.ne_nil {R : JNode → List Ent → Prop} {ks : Nat} {K : List Nat}
    {C : List JNode} {m : List Ent} (h : Slots R ks K C m)
    (hR : ∀ c m1, R c m1 → m1 ≠ []) (hK : K ≠ []) : m ≠ [] := by
  cases h with
  | nil => exact absurd rfl hK
  | leaf _ _ _ _ => simp
  | node _ _ hr _ =>
    have := hR _ _ hr
    simp [pre, this]

theorem Slots.mem {R : JNode → List Ent → Prop} {ks : Nat} {K : List Nat} {C : List JNode}
    {m : List Ent} (h : Slots R ks K C m) (e : Ent) (he : e ∈ m) :
    ∃ K1 K2 C1 C2 mA mB p c, K = K1 ++ pack ks p :: K2 ∧ C = C1 ++ c :: C2 ∧ ZF p ∧
      Slots R ks K1 C1 mA ∧ Slots R ks K2 C2 mB ∧
      ((p.length < ks ∧ c = .word e.2 ∧ e.1 = p ∧ 0 < e.2 ∧ m = mA ++ e :: mB) ∨
       (p.length = ks ∧ ∃ m1 s1, R c m1 ∧ (s1, e.2) ∈ m1 ∧ e.1 = p ++ s1 ∧
          m = mA ++ (pre p m1 ++ mB))) := by
  induction h with
  | nil => simp at he
  | @leaf p v keys kids m hp hl hv hs ih =>
    rcases List.mem_cons.1 he with rfl | he
    · exact ⟨[], keys, [], kids, [], m, p, _, rfl, rfl, hp, Slots.nil, hs,
        Or.inl ⟨hl, rfl, rfl, hv, rfl⟩⟩
    · obtain ⟨K1, K2, C1, C2, mA, mB, q, c, rfl, rfl, hq, h1, h2, h3⟩ := ih he
      refine ⟨_ :: K1, K2, _ :: C1, C2, _ :: mA, mB, q, c, rfl, rfl, hq,
        Slots.leaf hp hl hv h1, h2, ?_⟩
      rcases h3 with ⟨a, b, c1, d1, rfl⟩ | ⟨a, m1, s1, b, c1, d1, rfl⟩
      · exact Or.inl ⟨a, b, c1, d1, rfl⟩
      · exact Or.inr ⟨a, m1, s1, b, c1, d1, rfl⟩
  | @node p kid m1 keys kids m hp hl hr hs ih =>
    rcases List.mem_append.1 he with he | he
    · obtain ⟨⟨s1, v1⟩, hm1, rfl⟩ := List.mem_map.1 he
      exact ⟨[], keys, [], kids, [], m, p, kid, rfl, rfl, hp, Slots.nil, hs,
        Or.inr ⟨hl, m1, s1, hr, hm1, rfl, rfl⟩⟩
    · obtain ⟨K1, K2, C1, C2, mA, mB, q, c, rfl, rfl, hq, h1, h2, h3⟩ := ih he
      refine ⟨_ :: K1, K2, _ :: C1, C2, _ ++ mA, mB, q, c, rfl, rfl, hq,
        Slots.node hp hl hr h1, h2, ?_⟩
      rcases h3 with ⟨a, b, c1, d1, rfl⟩ | ⟨a, m2, s1, b, c1, d1, rfl⟩
      · exact Or.inl ⟨a, b, c1, d1, by simp⟩
      · exact Or.inr ⟨a, m2, s1, b, c1, d1, by simp⟩

theorem RSlot_mono {R S : JNode → List Ent → Prop} {b : Nat} {x : JNode} {m : List Ent}
    (h : RSlot R b x m) (hRS : ∀ c m1, R c m1 → S c m1) : RSlot S b x m := by
  rcases h with h | h | ⟨hb, m1, h1, h2⟩
  · exact Or.inl h
  · exact Or.inr (Or.inl h)
  · exact Or.inr (Or.inr ⟨hb, m1, hRS _ _ h1, h2⟩)

theorem Rep_mono : ∀ (d : Nat) {off : Nat} {n : JNode} {m : List Ent},
    Rep d off n m → Rep (d + 1) off n m := by
  intro d
  induction d with
  | zero => intro off n m h; exact absurd h (by simp [Rep])
  | succ d ih =>
    intro off n m h
    cases n with
    | word v => exact absurd h (by simp [Rep])
    | lin type keys kids =>
      obtain ⟨e, pk, pc, h1, h2, h3, h4, h5, h6, h7, h8⟩ := h
      exact ⟨e, pk, pc, h1, h2, h3, h4, h5, h6, h7, h8.mono (fun c m1 hc => ih hc)⟩
    | radix table =>
      obtain ⟨h1, ms, h2, h3⟩ := h
      exact ⟨h1, ms, fun b hb => RSlot_mono (h2 b hb) (fun c m1 hc => ih hc), h3⟩
    | span base kid =>
      obtain ⟨h1, p, h2, h3, h4⟩ := h
      refine ⟨h1, p, h2, h3, ?_⟩
      rcases h4 with h4 | ⟨h4, m1, h5, h6⟩
      · exact Or.inl h4
      · exact Or.inr ⟨h4, m1, ih h5, h6⟩

theorem Rep_mono_le {d d1 : Nat} (hd : d ≤ d1) {off : Nat} {n : JNode} {m : List Ent}
    (h : Rep d off n m) : Rep d1 off n m := by
  induction hd with
  | refl => exact h
  | step _ ih => exact Rep_mono _ ih

theorem Rep_nonzero {d off : Nat} {n : JNode} {m : List Ent} (h : Rep d off n m) :
    n.nonzero = true := by
  cases d with
  | zero => exact absurd h (by simp [Rep])
  | succ d =>
    cases n with
    | word v => exact absurd h (by simp [Rep])
    | lin type keys kids => rfl
    | radix table => rfl
    | span base kid => rfl

theorem Rep_ne_nil : ∀ (d : Nat) {off : Nat} {n : JNode} {m : List Ent},
    Rep d off n m → m ≠ [] := by
  intro d
  induction d with
  | zero => intro off n m h; exact absurd h (by simp [Rep])
  | succ d ih =>
    intro off n m h
    cases n with
    | word v => exact absurd h (by simp [Rep])
    | lin type keys kids =>
      obtain ⟨e, pk, pc, h1, h2, h3, h4, h5, h6, h7, h8⟩ := h
      exact h8.ne_nil (fun c m1 hc => ih hc) h6
    | radix table =>
      obtain ⟨h1, ms, h2, h3, h4⟩ := h
      exact h4
    | span base kid =>
      obtain ⟨h1, p, h2, h3, h4⟩ := h
      rcases h4 with ⟨_, v, _, _, rfl⟩ | ⟨h4, m1, h5, rfl⟩
      · simp
      · have := ih h5
        simp [pre, this]

/-! ## From a path to the node around it -/

theorem pre_append (p : List Nat) (m1 m2 : List Ent) : pre p (m1 ++ m2) = pre p m1 ++ pre p m2 := by
  simp [pre]

theorem pre_cons (p : List Nat) (e : Ent) (m : List Ent) :
    pre p (e :: m) = (p ++ e.1, e.2) :: pre p m := rfl

theorem pre_nil (p : List Nat) : pre p [] = [] := rfl

theorem rcat_add (ms : Nat → List Ent) (lo a b : Nat) :
    rcat ms lo (a + b) = rcat ms lo a ++ rcat ms (lo + a) b := by
  induction a generalizing lo with
  | zero => simp [rcat]
  | succ a ih =>
    rw [show a + 1 + b = (a + b) + 1 by omega]
    simp only [rcat, List.append_assoc]
    rw [ih (lo + 1), show lo + 1 + a = lo + (a + 1) by omega]

theorem rcat_congr (ms ms2 : Nat → List Ent) (lo n : Nat)
    (h : ∀ i, lo ≤ i → i < lo + n → ms i = ms2 i) : rcat ms lo n = rcat ms2 lo n := by
  induction n generalizing lo with
  | zero => rfl
  | succ n ih =>
    simp only [rcat]
    rw [h lo (le_refl _) (by omega), ih (lo + 1) (fun i h1 h2 => h i (by omega) (by omega))]

theorem rcat_hole (ms : Nat → List Ent) (b : Nat) (hb : b < 256) :
    rcat ms 0 256 = rcat ms 0 b ++ (ms b ++ rcat ms (b + 1) (255 - b)) := by
  rw [show 256 = b + ((255 - b) + 1) by omega, rcat_add, Nat.zero_add]
  rfl

theorem rcat_update (ms : Nat → List Ent) (b : Nat) (x : List Ent) (hb : b < 256) :
    rcat (fun i => if i = b then x else ms i) 0 256 =
      rcat ms 0 b ++ (x ++ rcat ms (b + 1) (255 - b)) := by
  rw [rcat_hole _ b hb]
  simp only [if_true]
  rw [rcat_congr _ ms 0 b (fun i _ h2 => by simp; intro h; omega),
    rcat_congr _ ms (b + 1) (255 - b) (fun i h1 _ => by simp; intro h; omega)]

theorem tbl_any_of (inner : List JNode) (i : Nat) (hi : i < 16)
    (h : (tblAt inner i).nonzero = true) : tbl_any inner = true := by
  unfold tbl_any
  rw [List.any_eq_true]
  exact ⟨i, List.mem_range.2 hi, h⟩

theorem OuterOK_fill {table : List JNode} {b : Nat} (_hb : b < 256)
    (h : OuterOK table (b >>> 4)) (hx : (radixAt table b).nonzero = true) : OuterOK table 16 := by
  refine ⟨h.1, fun i hi => ?_⟩
  rcases h.2 i hi with h0 | ⟨inner, h1, h2, h3⟩
  · exact Or.inl h0
  · refine Or.inr ⟨inner, h1, h2, Or.inr ?_⟩
    rcases h3 with rfl | h3
    · unfold radixAt at hx
      rw [h1] at hx
      exact tbl_any_of inner (b &&& 15) (by rw [and15]; omega) hx
    · exact h3

theorem OuterOK_weaken {table : List JNode} {i : Nat} (h : OuterOK table 16) : OuterOK table i := by
  refine ⟨h.1, fun j hj => ?_⟩
  rcases h.2 j hj with h0 | ⟨inner, h1, h2, h3⟩
  · exact Or.inl h0
  · refine Or.inr ⟨inner, h1, h2, Or.inr ?_⟩
    rcases h3 with rfl | h3
    · omega
    · exact h3

theorem word_nonzero (v : Nat) (hv : 0 < v) : (JNode.word v).nonzero = true := by
  cases v with
  | zero => omega
  | succ v => rfl

theorem Path_Rep : ∀ (d : Nat) {off : Nat} {n : JNode} {fs : List JudyStack} {A B : List Ent}
    {s : List Nat} {v : Nat}, Path d off n fs A (s, v) B → 0 < v →
    Rep d off n (A ++ (s, v) :: B) := by
  intro d
  induction d with
  | zero => intro off n fs A B s v h; exact absurd h (by simp [Path])
  | succ d ih =>
    intro off n fs A B s v h hv
    cases n with
    | word w => exact absurd h (by simp [Path])
    | lin type keys kids =>
      obtain ⟨e0, K1, K2, C1, C2, mA, mB, p, c, h1, h2, h3, h4, h5, h6, h7, h8, h9, h10⟩ := h
      refine ⟨e0, _, _, h1, h2, h3, h4, by simp only [List.length_append, List.length_cons]; omega, by simp, h6, ?_⟩
      rcases h10 with ⟨hl, rfl, hs, _, rfl, rfl⟩ | ⟨hl, fs1, A1, s1, B1, hp, _, hs, rfl, rfl⟩
      · simp only at hs
        subst hs
        exact h8.append (Slots.leaf h7 hl hv h9)
      · simp only at hs
        subst hs
        have := h8.append (Slots.node h7 hl (ih hp hv) h9)
        simpa [pre_append, pre_cons] using this
    | radix table =>
      obtain ⟨ms, b, hb, h1, h2, h3, h4⟩ := h
      rcases h4 with ⟨hb0, hc, hs, _, rfl, rfl⟩ | ⟨hb0, fs1, A1, s1, B1, hp, _, hs, rfl, rfl⟩
      · simp only at hs hc
        subst hs
        subst hb0
        have hx : (radixAt table 0).nonzero = true := by rw [hc]; exact word_nonzero v hv
        refine ⟨OuterOK_fill hb h1 hx, fun i => if i = 0 then [(([] : List Nat), v)] else ms i,
          fun b1 hb1 => ?_, ?_, by simp⟩
        · by_cases h0 : b1 = 0
          · subst h0
            simp only [if_true]
            exact Or.inr (Or.inl ⟨rfl, v, hv, hc, rfl⟩)
          · simp only [h0, if_false]
            exact h3 b1 hb1 h0
        · rw [rcat_update ms 0 _ hb]
          rfl
      · simp only at hs hp
        subst hs
        have hr := ih hp hv
        refine ⟨OuterOK_fill hb h1 (Rep_nonzero hr),
          fun i => if i = b then pre [b] (A1 ++ (s1, v) :: B1) else ms i,
          fun b1 hb1 => ?_, ?_, by simp⟩
        · by_cases h0 : b1 = b
          · subst h0
            simp only [if_true]
            exact Or.inr (Or.inr ⟨hb0, _, hr, rfl⟩)
          · simp only [h0, if_false]
            exact h3 b1 hb1 h0
        · rw [rcat_update ms b _ hb]
          simp [pre_append, pre_cons]
    | span base kid =>
      obtain ⟨h1, p, h2, h3, h4⟩ := h
      refine ⟨h1, p, h2, h3, ?_⟩
      rcases h4 with ⟨hl, rfl, hs, _, rfl, rfl⟩ | ⟨hl, fs1, A1, s1, B1, hp, _, hs, rfl, rfl⟩
      · simp only at hs
        subst hs
        exact Or.inl ⟨hl, v, hv, rfl, rfl⟩
      · simp only at hs
        subst hs
        exact Or.inr ⟨hl, _, ih hp hv, by simp [pre_append, pre_cons]⟩

/-! ## `judy_slot` finds every stored key -/

theorem pack_append (ks : Nat) (p t : List Nat) (h : p.length = ks) :
    pack ks (p ++ t) = pack ks p := by
  rw [← pack_take ks (p ++ t), List.take_left' h]

theorem kidAt_mid (e : Nat) (C1 C2 : List JNode) (c : JNode) (i : Nat) (hi : i = e + C1.length) :
    kidAt (List.replicate e (JNode.word 0) ++ (C1 ++ c :: C2)) i = c := by
  subst hi
  unfold kidAt
  rw [List.getD_append_right _ _ _ _ (by simp), List.length_replicate, Nat.add_sub_cancel_left,
    List.getD_append_right _ _ _ _ (le_refl _)]
  simp

theorem push_ok (jmax : Nat) (stack : List JudyStack) (f : JudyStack) (h : stack.length < jmax) :
    push jmax stack f = some (f :: stack) := by
  simp [push, h]

theorem lin_scan_node (ks value e : Nat) (hks : ks ≤ 8) (K1 K2 : List Nat) (x t cnt : Nat)
    (hcnt : e + (K1.length + 1 + K2.length) = cnt)
    (hx : x = value) (hxl : x < 256 ^ ks)
    (hB : ∀ b ∈ K2, x < b ∧ b < 256 ^ ks) :
    lin_scan (List.replicate e 0 ++ (K1 ++ x :: K2)) ks value cnt t =
      (((e + K1.length : Nat) : Int), value) := by
  have := lin_scan_split ks value hks (List.replicate e 0 ++ K1) K2 x t
    (by rw [Nat.mod_eq_of_lt hxl]; omega)
    (fun b hb => by rw [Nat.mod_eq_of_lt (hB b hb).2]; have := (hB b hb).1; omega)
  simp only [List.append_assoc, List.length_append, List.length_replicate] at this
  rw [← hcnt, show e + (K1.length + 1 + K2.length) = e + K1.length + 1 + K2.length by omega, this,
    Nat.mod_eq_of_lt hxl, hx]

theorem rcat_mem (ms : Nat → List Ent) (e : Ent) (n : Nat) :
    ∀ lo, e ∈ rcat ms lo n → ∃ b, lo ≤ b ∧ b < lo + n ∧ e ∈ ms b := by
  induction n with
  | zero => intro lo h; simp [rcat] at h
  | succ n ih =>
    intro lo h
    simp only [rcat, List.mem_append] at h
    rcases h with h | h
    · exact ⟨lo, le_refl _, by omega, h⟩
    · obtain ⟨b, h1, h2, h3⟩ := ih (lo + 1) h
      exact ⟨b, by omega, by omega, h3⟩

theorem radixAt_inner (table : List JNode) (b : Nat) (h : (radixAt table b).nonzero = true) :
    ∃ inner, tblAt table (b >>> 4) = .radix inner ∧ tblAt inner (b &&& 15) = radixAt table b := by
  unfold radixAt at h ⊢
  split at h
  · rename_i inner heq
    exact ⟨inner, heq, by simp [heq]⟩
  · exact absurd h (by simp [JNode.nonzero])

theorem strncmp_eq_self (p x y : List Nat) (hp : ZF p) :
    strncmp_eq (p ++ x) (p ++ y) p.length = true := by
  induction p with
  | nil => rfl
  | cons b p ih =>
    have hb := (ZF_cons.1 hp).1
    simp only [List.cons_append, List.length_cons, strncmp_eq, List.headD_cons, List.tail_cons,
      ne_eq, not_true_eq_false, if_false]
    rw [if_neg (by omega)]
    exact ih (ZF_cons.1 hp).2

theorem drop_length_le {α : Type} (k : List α) (off : Nat) (s : List α) (h : k.drop off = s)
    (_ho : off ≤ k.length) : k.length - off = s.length := by
  rw [← h, List.length_drop]

theorem slot_hit (k : List Nat) (hk : ZF k) (hk31 : k.length < 2 ^ 31) (jmax : Nat) :
    ∀ (d off : Nat) (n : JNode) (m : List Ent) (s : List Nat) (v : Nat)
      (stack : List JudyStack) (fuel : Nat),
      Rep d off n m → (s, v) ∈ m → k.drop off = s → off ≤ k.length →
      s.length + 1 ≤ fuel → stack.length + s.length + 1 ≤ jmax →
      ∃ fs A B, slot_loop k k.length jmax fuel n off stack = some (fs ++ stack, some (.word v)) ∧
        Path d off n fs A (s, v) B ∧ m = A ++ (s, v) :: B ∧ fs.length ≤ s.length + 1 := by
  intro d
  induction d with
  | zero => intro off n m s v stack fuel h; exact absurd h (by simp [Rep])
  | succ d ih =>
    intro off n m s v stack fuel hrep hmem hs hoff hfuel hmax
    obtain ⟨fuel, rfl⟩ : ∃ f, fuel = f + 1 := ⟨fuel - 1, by omega⟩
    cases n with
    | word w => exact absurd hrep (by simp [Rep])
    | lin type keys kids =>
      obtain ⟨e, pk, pc, h1, h2, rfl, rfl, h5, h6, h7, h8⟩ := hrep
      obtain ⟨K1, K2, C1, C2, mA, mB, p, c, rfl, rfl, hp, hs1, hs2, hcase⟩ := h8.mem _ hmem
      have hks := key_size_le off
      have hlen1 := hs1.length_eq
      have hpw := List.pairwise_append.1 h7
      have hB : ∀ b ∈ K2, pack (key_size off) p < b ∧ b < 256 ^ key_size off := fun b hb =>
        ⟨(List.pairwise_cons.1 hpw.2.1).1 b hb, h8.key_lt b (by simp [hb])⟩
      have hcnt : e + (K1.length + 1 + K2.length) = lin_cnt type (key_size off) := by
        rw [← h5]; simp; omega
      have hpush := push_ok jmax stack
        ⟨.lin type (List.replicate e 0 ++ (K1 ++ pack (key_size off) p :: K2))
          (List.replicate e (JNode.word 0) ++ (C1 ++ c :: C2)), off, ((e + K1.length : Nat) : Int)⟩
        (by omega)
      have hkid : kidAt (List.replicate e (JNode.word 0) ++ (C1 ++ c :: C2)) (e + K1.length) = c :=
        kidAt_mid e C1 C2 c _ (by rw [hlen1])
      rcases hcase with ⟨hl, hc, hsp, hv, hm⟩ | ⟨hl, m1, s1, hr, hm1, hsp, hm⟩
      · simp only at hsp hc
        subst hsp
        subst hc
        have hval : pack (key_size off) (k.drop off) = pack (key_size off) s := by rw [hs]
        refine ⟨[⟨.lin type (List.replicate e 0 ++ (K1 ++ pack (key_size off) s :: K2))
          (List.replicate e (JNode.word 0) ++ (C1 ++ JNode.word v :: C2)), off,
          ((e + K1.length : Nat) : Int)⟩], mA, mB, ?_, ?_, hm, by simp⟩
        · rw [slot_loop]
          simp only [key_value_spec k hk off, hs,
            lin_scan_node (key_size off) _ e hks K1 K2 _ 0 _ hcnt rfl (pack_lt _ _ hp) hB,
            hpush, if_true, and255, (pack_mod _ s hp (key_size_pos off)).2 hl,
            Int.toNat_ofNat, hkid]
          rfl
        · exact ⟨e, K1, K2, C1, C2, mA, mB, s, _, h1, h2, rfl, rfl, hcnt, h7, hp, hs1, hs2,
            Or.inl ⟨hl, rfl, rfl, rfl, rfl, rfl⟩⟩
      · simp only at hsp
        subst hsp
        have hs1d : k.drop (off + key_size off) = s1 := by
          rw [← List.drop_drop, hs, List.drop_left' hl]
        have hlen : (p ++ s1).length = key_size off + s1.length := by simp [hl]
        obtain ⟨fs, A1, B1, hloop, hpath, hm2, hfl⟩ := ih (off + key_size off) c m1 s1 v
          (⟨.lin type (List.replicate e 0 ++ (K1 ++ pack (key_size off) p :: K2))
          (List.replicate e (JNode.word 0) ++ (C1 ++ c :: C2)), off, ((e + K1.length : Nat) : Int)⟩
            :: stack) fuel hr hm1 hs1d
          (by have := drop_length_le k off _ hs hoff; simp [hl] at this; omega)
          (by have := key_size_pos off; omega)
          (by have := key_size_pos off; simp only [List.length_cons]; omega)
        have hnz : ¬ pack (key_size off) p % 256 = 0 := by
          rw [pack_mod _ p hp (key_size_pos off)]; omega
        refine ⟨fs ++ [⟨.lin type (List.replicate e 0 ++ (K1 ++ pack (key_size off) p :: K2))
          (List.replicate e (JNode.word 0) ++ (C1 ++ c :: C2)), off,
          ((e + K1.length : Nat) : Int)⟩], mA ++ pre p A1, pre p B1 ++ mB, ?_, ?_, ?_, ?_⟩
        · rw [slot_loop]
          simp only [key_value_spec k hk off, hs, pack_append _ p s1 hl,
            lin_scan_node (key_size off) _ e hks K1 K2 _ 0 _ hcnt rfl (pack_lt _ _ hp) hB,
            hpush, if_true, and255, hnz, if_false,
            Int.toNat_ofNat, hkid, hloop]
          simp
        · exact ⟨e, K1, K2, C1, C2, mA, mB, p, _, h1, h2, rfl, rfl, hcnt, h7, hp, hs1, hs2,
            Or.inr ⟨hl, fs, A1, s1, B1, hpath, rfl, rfl, rfl, rfl⟩⟩
        · rw [hm, hm2]; simp [pre_append, pre_cons]
        · simp; have := key_size_pos off; omega
    | radix table =>
      obtain ⟨hO, ms, hR, rfl, hne⟩ := hrep
      obtain ⟨b, _, hb, hmb⟩ := rcat_mem ms _ 256 0 hmem
      have hb : b < 256 := by omega
      have hlen := drop_length_le k off _ hs hoff
      have hsplit := rcat_hole ms b hb
      rcases hR b hb with ⟨_, h0⟩ | ⟨hb0, v1, hv1, hx, hms⟩ | ⟨hb0, m1, hr, hms⟩
      · rw [h0] at hmb; simp at hmb
      · rw [hms] at hmb
        simp only [List.mem_singleton, Prod.mk.injEq] at hmb
        obtain ⟨rfl, rfl⟩ := hmb
        subst hb0
        obtain ⟨inner, hi1, hi2⟩ := radixAt_inner table 0 (by rw [hx]; exact word_nonzero v hv1)
        have hslot : (if off < k.length then k.getD off 0 else 0) = 0 := by
          simp at hlen
          rw [if_neg (by omega)]
        refine ⟨[⟨.radix table, off, ((0 : Nat) : Int)⟩], [], rcat ms 1 255, ?_, ?_, ?_, by simp⟩
        · rw [slot_loop]
          simp only [hslot, push_ok jmax stack _ (by omega : stack.length < jmax)]
          simp only [Nat.zero_shiftRight, Nat.zero_and] at hi1 hi2 ⊢
          simp only [hi1, hi2, hx, if_true]
          rfl
        · exact ⟨ms, 0, hb, OuterOK_weaken hO, ⟨inner, hi1⟩, fun b1 hb1 _ => hR b1 hb1,
            Or.inl ⟨rfl, hx, rfl, rfl, rfl, rfl⟩⟩
        · rw [hsplit, hms]; rfl
      · rw [hms] at hmb
        obtain ⟨⟨s1, v1⟩, hm1, he⟩ := List.mem_map.1 hmb
        simp only [List.singleton_append, Prod.mk.injEq] at he
        obtain ⟨rfl, rfl⟩ := he
        obtain ⟨inner, hi1, hi2⟩ := radixAt_inner table b (Rep_nonzero hr)
        have hoff1 : off < k.length := by simp at hlen; omega
        have hslot : (if off < k.length then k.getD off 0 else 0) = b := by
          rw [if_pos hoff1, ← headD_drop, hs]; rfl
        have hs1d : k.drop (off + 1) = s1 := by
          rw [← tail_drop, hs]; rfl
        obtain ⟨fs, A1, B1, hloop, hpath, hm2, hfl⟩ := ih (off + 1) (radixAt table b) m1 s1 v1
          (⟨.radix table, off, (b : Int)⟩ :: stack) fuel hr hm1 hs1d (by omega)
          (by simp at hfuel; omega) (by simp at hmax ⊢; omega)
        refine ⟨fs ++ [⟨.radix table, off, (b : Int)⟩], rcat ms 0 b ++ pre [b] A1,
          pre [b] B1 ++ rcat ms (b + 1) (255 - b), ?_, ?_, ?_, by simp at hfl ⊢; omega⟩
        · rw [slot_loop]
          simp only [hslot, push_ok jmax stack _ (by omega : stack.length < jmax)]
          simp only [hi1, hi2, hb0, if_false, hloop]
          simp
        · exact ⟨ms, b, hb, OuterOK_weaken hO, ⟨inner, hi1⟩, fun b1 hb1 _ => hR b1 hb1,
            Or.inr ⟨hb0, fs, A1, s1, B1, hpath, rfl, rfl, rfl, rfl⟩⟩
        · rw [hsplit, hms, hm2]; simp [pre_append, pre_cons]
    | span base kid =>
      obtain ⟨hal, p, hp, rfl, hcase⟩ := hrep
      have hlen := drop_length_le k off _ hs hoff
      have hpush := push_ok jmax stack
        ⟨.span (p ++ List.replicate (JUDY_span_bytes - p.length) 0) kid, off, 0⟩ (by omega)
      rcases hcase with ⟨hl, v1, hv1, rfl, rfl⟩ | ⟨hl, m1, hr, rfl⟩
      · simp only [List.mem_singleton, Prod.mk.injEq] at hmem
        obtain ⟨rfl, rfl⟩ := hmem
        refine ⟨[⟨.span (s ++ List.replicate (JUDY_span_bytes - s.length) 0) (.word v), off, 0⟩],
          [], [], ?_, ?_, rfl, by simp⟩
        · rw [slot_loop]
          simp only [hpush, if_neg (by omega : ¬ (k.length < off ∨ 2 ^ 31 ≤ k.length - off)),
            if_neg (by omega : ¬ (k.length < off ∨ 2 ^ 31 ≤ s.length)), hlen, gt_iff_lt, hl, if_true, hs]
          have h1 := strncmp_eq_self s (List.replicate (JUDY_span_bytes - s.length) 0) [] hp
          rw [List.append_nil] at h1
          have h2 : (s ++ List.replicate (JUDY_span_bytes - s.length) 0).getD s.length 0 = 0 := by
            rw [List.getD_append_right _ _ _ _ (le_refl _)]
            simp [List.getD_eq_getElem?_getD]
          simp only [h1, h2, and_self, if_true]
          rfl
        · exact ⟨hal, s, hp, rfl, Or.inl ⟨hl, rfl, rfl, rfl, rfl, rfl⟩⟩
      · obtain ⟨⟨s1, v1⟩, hm1, he⟩ := List.mem_map.1 hmem
        simp only [Prod.mk.injEq] at he
        obtain ⟨rfl, rfl⟩ := he
        have hs1d : k.drop (off + JUDY_span_bytes) = s1 := by
          rw [← List.drop_drop, hs, ← hl, List.drop_left]
        simp only [List.length_append] at hlen hfuel hmax
        have h24 : JUDY_span_bytes = 24 := rfl
        rw [h24] at hl
        obtain ⟨fs, A1, B1, hloop, hpath, hm2, hfl⟩ := ih (off + JUDY_span_bytes) kid m1 s1 v1
          (⟨.span (p ++ List.replicate (JUDY_span_bytes - p.length) 0) kid, off, 0⟩ :: stack)
          fuel hr hm1 hs1d (by omega) (by omega) (by simp only [List.length_cons]; omega)
        refine ⟨fs ++ [⟨.span (p ++ List.replicate (JUDY_span_bytes - p.length) 0) kid, off, 0⟩],
          pre p A1, pre p B1, ?_, ?_, ?_, by simp at hfl ⊢; omega⟩
        · rw [slot_loop]
          have htst : (if JUDY_span_bytes > k.length - off then k.length - off
              else JUDY_span_bytes) = JUDY_span_bytes := by
            rw [if_neg (by rw [h24]; omega)]
          have h1 : strncmp_eq (p ++ List.replicate (JUDY_span_bytes - p.length) 0) (p ++ s1)
              JUDY_span_bytes = true := by
            rw [h24, ← hl]; exact strncmp_eq_self p _ s1 hp
          simp only [hpush, if_neg (by omega : ¬ (k.length < off ∨ 2 ^ 31 ≤ k.length - off)),
            htst, hs, h1, lt_self_iff_false,
            false_and, and_false, if_false, and_self, if_true, hloop]
          simp
        · exact ⟨hal, p, hp, rfl, Or.inr ⟨by rw [h24]; exact hl, fs, A1, s1, B1, hpath, rfl, rfl, rfl, rfl⟩⟩
        · rw [hm2]; simp [pre_append, pre_cons]

/-! ## `judy_key` reads the key of a path -/

theorem take_set_ge {α : Type} (l : List α) (n m : Nat) (a : α) (h : m ≤ n) :
    (l.set n a).take m = l.take m :=
  List.ext_getElem? fun i => by
    rw [List.getElem?_take, List.getElem?_take]
    split
    · rw [List.getElem?_set_ne (by omega)]
    · rfl

theorem take_set_succ (buff : List Nat) (len b : Nat) (h : len < buff.length) :
    (buff.set len b).take (len + 1) = buff.take len ++ [b] := by
  rw [List.take_succ, take_set_ge _ _ _ _ (le_refl _)]
  simp [List.getElem?_set, h]

theorem key_lin_spec (key max1 : Nat) :
    ∀ (off : Nat) (q buff : List Nat) (len : Nat), ZF q → q.length ≤ off →
      (∀ j, j < off → key / 256 ^ j % 256 = q.getD (off - 1 - j) 0) →
      len + q.length ≤ max1 → max1 < buff.length →
      ∃ buff1, key_lin key max1 off buff len = (buff1, len + q.length) ∧
        buff1.length = buff.length ∧ buff1.take (len + q.length) = buff.take len ++ q := by
  intro off
  induction off with
  | zero =>
    intro q buff len _ hq _ _ _
    have : q = [] := List.length_eq_zero.1 (by omega)
    subst this
    exact ⟨buff, rfl, rfl, by simp⟩
  | succ off ih =>
    intro q buff len hzf hq hbyte hlen hbuf
    rw [key_lin]
    cases q with
    | nil =>
      by_cases h : len < max1
      · have hb : key / 256 ^ off % 256 = 0 := by
          have := hbyte off (by omega); simpa using this
        simp only [h, if_true, byte_at, hb, ne_eq, not_true_eq_false, if_false]
        exact ⟨_, rfl, by simp, by simp [take_set_ge]⟩
      · simp only [h, if_false]
        exact ⟨buff, rfl, rfl, by simp⟩
    | cons b q =>
      have hb0 := (ZF_cons.1 hzf).1
      simp only [List.length_cons] at hq hlen
      have h : len < max1 := by omega
      have hb : key / 256 ^ off % 256 = b := by
        have := hbyte off (by omega); simpa using this
      simp only [h, if_true, byte_at, hb, ne_eq]
      rw [if_pos (by omega)]
      obtain ⟨buff1, h1, h2, h3⟩ := ih q (buff.set len b) (len + 1) (ZF_cons.1 hzf).2 (by omega)
        (fun j hj => by
          have := hbyte j (by omega)
          rw [this, show off + 1 - 1 - j = (off - 1 - j) + 1 by omega]
          rfl)
        (by omega) (by simpa using hbuf)
      refine ⟨buff1, ?_, by simpa using h2, ?_⟩
      · rw [h1]; simp only [List.length_cons, Prod.mk.injEq, true_and]; omega
      · simp only [List.length_cons]
        rw [show len + (q.length + 1) = len + 1 + q.length by omega, h3,
          take_set_succ buff len b (by omega)]
        simp

theorem key_span_spec (base : List Nat) (max1 : Nat) :
    ∀ (q : List Nat) (n slot : Nat) (buff : List Nat) (len : Nat), ZF q →
      (∀ i, base.getD (slot + i) 0 = q.getD i 0) →
      (q.length < n ∨ (q.length = n ∧ slot + n = JUDY_span_bytes)) →
      slot + q.length ≤ JUDY_span_bytes →
      len + q.length ≤ max1 → max1 < buff.length →
      ∃ buff1, key_span base max1 n slot buff len = (buff1, len + q.length) ∧
        buff1.length = buff.length ∧ buff1.take (len + q.length) = buff.take len ++ q := by
  intro q
  induction q with
  | nil =>
    intro n slot buff len _ hb hn _ _ _
    refine ⟨buff, ?_, rfl, by simp⟩
    cases n with
    | zero => rfl
    | succ n =>
      rw [key_span]
      have : base.getD slot 0 = 0 := by simpa using hb 0
      rw [this]
      simp
  | cons b q ih =>
    intro n slot buff len hzf hb hn hs hlen hbuf
    have hb0 := (ZF_cons.1 hzf).1
    simp only [List.length_cons] at hn hs hlen
    obtain ⟨n, rfl⟩ : ∃ n1, n = n1 + 1 := ⟨n - 1, by omega⟩
    have hbs : base.getD slot 0 = b := by simpa using hb 0
    have h24 : JUDY_span_bytes = 24 := rfl
    rw [key_span]
    rw [h24] at hs
    have hc : slot < JUDY_span_bytes ∧ base.getD slot 0 ≠ 0 := ⟨by rw [h24]; omega, by omega⟩
    rw [if_pos hc, if_pos (show len < max1 by omega), hbs]
    obtain ⟨buff1, h1, h2, h3⟩ := ih n (slot + 1) (buff.set len b) (len + 1) (ZF_cons.1 hzf).2
      (fun i => by
        have := hb (i + 1)
        rw [show slot + 1 + i = slot + (i + 1) by omega, this]; rfl)
      (by rcases hn with hn | ⟨hn, hn2⟩
          · exact Or.inl (by omega)
          · exact Or.inr ⟨by omega, by rw [h24]; omega⟩)
      (by rw [h24]; omega) (by omega) (by simpa using hbuf)
    refine ⟨buff1, ?_, by simpa using h2, ?_⟩
    · rw [h1]; simp only [List.length_cons, Prod.mk.injEq, true_and]; omega
    · simp only [List.length_cons]
      rw [show len + (q.length + 1) = len + 1 + q.length by omega, h3,
        take_set_succ buff len b (by omega)]
      simp

theorem keyAt_mid (e : Nat) (K1 K2 : List Nat) (x : Nat) :
    (List.replicate e 0 ++ (K1 ++ x :: K2)).getD (e + K1.length) 0 = x := by
  rw [List.getD_append_right _ _ _ _ (by simp), List.length_replicate, Nat.add_sub_cancel_left,
    List.getD_append_right _ _ _ _ (le_refl _)]
  simp

theorem key_loop_path (front : JudyStack → Option Nat) (max1 : Nat) :
    ∀ (d off : Nat) (n : JNode) (fs : List JudyStack) (A B : List Ent) (s : List Nat) (v : Nat),
      Path d off n fs A (s, v) B →
      ∀ (buff : List Nat) (len : Nat), len + s.length ≤ max1 → max1 < buff.length →
      ∃ buff1, key_loop front max1 fs.reverse buff len = some (buff1, len + s.length) ∧
        buff1.length = buff.length ∧ buff1.take (len + s.length) = buff.take len ++ s := by
  intro d
  induction d with
  | zero => intro off n fs A B s v h; exact absurd h (by simp [Path])
  | succ d ih =>
    intro off n fs A B s v hpath buff len hlen hbuf
    cases n with
    | word w => exact absurd hpath (by simp [Path])
    | lin type keys kids =>
      obtain ⟨e0, K1, K2, C1, C2, mA, mB, p, c, h1, h2, rfl, rfl, h5, h6, hp, h8, h9, hcase⟩ := hpath
      have hks := key_size_pos off
      rcases hcase with ⟨hl, hc, hs, rfl, rfl, rfl⟩ | ⟨hl, fs1, A1, s1, B1, hp1, rfl, hs, rfl, rfl⟩
      · simp only at hs
        subst hs
        simp only [List.reverse_cons, List.reverse_nil, List.nil_append]
        rw [key_loop]
        by_cases hlt : len < max1
        · obtain ⟨buff1, k1, k2, k3⟩ := key_lin_spec (pack (key_size off) s) max1 (key_size off)
            s buff len hp (by omega) (fun j hj => pack_byte _ _ _ hp hj) hlen hbuf
          simp only [hlt, if_true, Int.natCast_nonneg, not_lt.2, if_false, Int.toNat_ofNat,
            keyAt_mid, k1, key_loop]
          exact ⟨buff1, rfl, k2, k3⟩
        · have : s = [] := List.length_eq_zero.1 (by omega)
          subst this
          simp only [hlt, if_false]
          exact ⟨buff, rfl, rfl, by simp⟩
      · simp only at hs
        subst hs
        simp only [List.reverse_append, List.reverse_cons, List.reverse_nil, List.nil_append,
          List.singleton_append, List.length_append] at hlen ⊢
        rw [key_loop]
        have hlt : len < max1 := by omega
        obtain ⟨buff1, k1, k2, k3⟩ := key_lin_spec (pack (key_size off) p) max1 (key_size off)
          p buff len hp (by omega) (fun j hj => pack_byte _ _ _ hp hj) (by omega) hbuf
        obtain ⟨buff2, j1, j2, j3⟩ := ih _ _ _ _ _ _ _ hp1 buff1 (len + p.length) (by omega)
          (by omega)
        simp only [hlt, if_true, Int.natCast_nonneg, not_lt.2, if_false, Int.toNat_ofNat,
          keyAt_mid, k1, j1]
        refine ⟨buff2, by rw [Nat.add_assoc], by omega, ?_⟩
        rw [← Nat.add_assoc, j3, k3, List.append_assoc]
    | radix table =>
      obtain ⟨ms, b, hb, hO, hin, hR, hcase⟩ := hpath
      rcases hcase with ⟨hb0, hc, hs, rfl, rfl, rfl⟩ | ⟨hb0, fs1, A1, s1, B1, hp1, rfl, hs, rfl, rfl⟩
      · simp only at hs
        subst hs
        subst hb0
        simp only [List.reverse_cons, List.reverse_nil, List.nil_append]
        rw [key_loop]
        by_cases hlt : len < max1
        · simp only [hlt, if_true, Nat.cast_zero, key_loop]
          exact ⟨buff, rfl, rfl, by simp⟩
        · simp only [hlt, if_false]
          exact ⟨buff, rfl, rfl, by simp⟩
      · simp only at hs
        subst hs
        simp only [List.reverse_append, List.reverse_cons, List.reverse_nil, List.nil_append,
          List.singleton_append, List.length_cons] at hlen ⊢
        rw [key_loop]
        have hlt : len < max1 := by omega
        obtain ⟨buff2, j1, j2, j3⟩ := ih _ _ _ _ _ _ _ hp1 (buff.set len b) (len + 1) (by omega)
          (by simpa using hbuf)
        have hb1 : ¬ ((b : Int) = 0) := by omega
        simp only [hlt, if_true, hb1, if_false, Int.toNat_ofNat, Nat.mod_eq_of_lt hb, j1]
        refine ⟨buff2, by simp only [Option.some.injEq, Prod.mk.injEq, true_and]; omega,
          by simpa using j2, ?_⟩
        rw [show len + (s1.length + 1) = len + 1 + s1.length by omega, j3,
          take_set_succ buff len b (by omega)]
        simp
    | span base kid =>
      obtain ⟨hal, p, hp, rfl, hcase⟩ := hpath
      have h24 : JUDY_span_bytes = 24 := rfl
      have hbytes : ∀ i, (p ++ List.replicate (JUDY_span_bytes - p.length) 0).getD (0 + i) 0
          = p.getD i 0 := by
        intro i
        rw [Nat.zero_add]
        rcases Nat.lt_or_ge i p.length with h | h
        · rw [List.getD_append _ _ _ _ h]
        · rw [List.getD_append_right _ _ _ _ h, getD_zero_of_ge p i h]
          simp [List.getD_eq_getElem?_getD, List.getElem?_replicate]
          split <;> rfl
      rcases hcase with ⟨hl, hc, hs, rfl, rfl, rfl⟩ | ⟨hl, fs1, A1, s1, B1, hp1, rfl, hs, rfl, rfl⟩
      · simp only at hs
        subst hs
        simp only [List.reverse_cons, List.reverse_nil, List.nil_append]
        rw [key_loop]
        by_cases hlt : len < max1
        · obtain ⟨buff1, k1, k2, k3⟩ := key_span_spec _ max1 s JUDY_span_bytes 0 buff len hp
            hbytes (Or.inl hl) (by omega) hlen hbuf
          simp only [hlt, if_true, k1, key_loop]
          exact ⟨buff1, rfl, k2, k3⟩
        · have : s = [] := List.length_eq_zero.1 (by omega)
          subst this
          simp only [hlt, if_false]
          exact ⟨buff, rfl, rfl, by simp⟩
      · simp only at hs
        subst hs
        simp only [List.reverse_append, List.reverse_cons, List.reverse_nil, List.nil_append,
          List.singleton_append, List.length_append] at hlen ⊢
        rw [key_loop]
        have hlt : len < max1 := by omega
        obtain ⟨buff1, k1, k2, k3⟩ := key_span_spec _ max1 p JUDY_span_bytes 0 buff len hp
          hbytes (Or.inr ⟨hl, by omega⟩) (by omega) (by omega) hbuf
        obtain ⟨buff2, j1, j2, j3⟩ := ih _ _ _ _ _ _ _ hp1 buff1 (len + p.length) (by omega)
          (by omega)
        simp only [hlt, if_true, k1, j1]
        refine ⟨buff2, by rw [Nat.add_assoc], by omega, ?_⟩
        rw [← Nat.add_assoc, j3, k3, List.append_assoc]

/-! ## `judy_cell`: new nodes for the rest of a key -/

theorem Path_mono : ∀ (d : Nat) {off : Nat} {n : JNode} {fs : List JudyStack} {A B : List Ent}
    {e : Ent}, Path d off n fs A e B → Path (d + 1) off n fs A e B := by
  intro d
  induction d with
  | zero => intro off n fs A B e h; exact absurd h (by simp [Path])
  | succ d ih =>
    intro off n fs A B e h
    cases n with
    | word v => exact absurd h (by simp [Path])
    | lin type keys kids =>
      obtain ⟨e0, K1, K2, C1, C2, mA, mB, p, c, h1, h2, h3, h4, h5, h6, h7, h8, h9, h10⟩ := h
      refine ⟨e0, K1, K2, C1, C2, mA, mB, p, c, h1, h2, h3, h4, h5, h6, h7,
        h8.mono (fun c m1 hc => Rep_mono _ hc), h9.mono (fun c m1 hc => Rep_mono _ hc), ?_⟩
      rcases h10 with h10 | ⟨hl, fs1, A1, s1, B1, hp, hr⟩
      · exact Or.inl h10
      · exact Or.inr ⟨hl, fs1, A1, s1, B1, ih hp, hr⟩
    | radix table =>
      obtain ⟨ms, b, hb, h1, h2, h3, h4⟩ := h
      refine ⟨ms, b, hb, h1, h2, fun b1 hb1 hne => RSlot_mono (h3 b1 hb1 hne)
        (fun c m1 hc => Rep_mono _ hc), ?_⟩
      rcases h4 with h4 | ⟨hb0, fs1, A1, s1, B1, hp, hr⟩
      · exact Or.inl h4
      · exact Or.inr ⟨hb0, fs1, A1, s1, B1, ih hp, hr⟩
    | span base kid =>
      obtain ⟨h1, p, h2, h3, h4⟩ := h
      refine ⟨h1, p, h2, h3, ?_⟩
      rcases h4 with h4 | ⟨hl, fs1, A1, s1, B1, hp, hr⟩
      · exact Or.inl h4
      · exact Or.inr ⟨hl, fs1, A1, s1, B1, ih hp, hr⟩

theorem Path_mono_le {d d1 : Nat} (hd : d ≤ d1) {off : Nat} {n : JNode} {fs : List JudyStack}
    {A B : List Ent} {e : Ent} (h : Path d off n fs A e B) : Path d1 off n fs A e B := by
  induction hd with
  | refl => exact h
  | step _ ih => exact Path_mono _ ih

theorem span_bytes_eq (k : List Nat) (off tst : Nat) (s : List Nat) (hs : k.drop off = s)
    (ht : tst ≤ JUDY_span_bytes) :
    span_bytes k off tst = s.take tst ++ List.replicate (JUDY_span_bytes - (s.take tst).length) 0 := by
  subst hs
  apply List.ext_getElem?
  intro i
  have h24 : JUDY_span_bytes = 24 := rfl
  simp only [span_bytes, List.getElem?_map, List.getElem?_range]
  rcases Nat.lt_or_ge i JUDY_span_bytes with hi | hi
  · rw [List.getElem?_range hi]
    simp only [Option.map_some']
    rcases Nat.lt_or_ge i ((k.drop off).take tst).length with h2 | h2
    · rw [List.getElem?_append_left h2]
      have h3 : i < tst := by simp at h2; omega
      simp only [h3, if_true, List.getElem?_take_of_lt h3, List.getElem?_drop,
        List.getD_eq_getElem?_getD]
      simp at h2
      have : off + i < k.length := by omega
      simp [List.getElem?_eq_getElem this]
    · rw [List.getElem?_append_right h2, List.getElem?_replicate]
      have hlt : i - ((k.drop off).take tst).length <
          JUDY_span_bytes - ((k.drop off).take tst).length := by omega
      simp only [hlt, if_true]
      split
      · rename_i h3
        simp only [List.length_take, List.length_drop] at h2
        rw [getD_zero_of_ge k (off + i) (by omega)]
      · rfl
  · rw [List.getElem?_eq_none (by simp; omega), List.getElem?_eq_none (by simp; omega)]
    rfl

theorem pack_snoc (n : Nat) (s : List Nat) : pack (n + 1) s = pack n s * 256 + s.getD n 0 := by
  induction n generalizing s with
  | zero =>
    cases s with
    | nil => rfl
    | cons b t => simp [pack]
  | succ n ih =>
    cases s with
    | nil => simp [pack_nil]
    | cons b t =>
      rw [pack_cons, ih t, pack_cons]
      simp only [List.getD_cons_succ]
      rw [pow_succ]
      ring

theorem lin1_key_eq (k : List Nat) (off : Nat) :
    ∀ (ks pos : Nat), lin1_key k k.length off ks pos = pack ks (k.drop off) * 256 ^ pos := by
  intro ks
  induction ks with
  | zero => intro pos; simp [lin1_key, pack]
  | succ ks ih =>
    intro pos
    rw [lin1_key, ih, pack_snoc]
    have : (if off + ks < k.length then k.getD (off + ks) 0 else 0) = (k.drop off).getD ks 0 := by
      rw [List.getD_eq_getElem?_getD, List.getD_eq_getElem?_getD, List.getElem?_drop]
      split
      · rfl
      · rw [List.getElem?_eq_none (by omega)]; rfl
    rw [this, pow_succ]
    ring

theorem lin_cnt_one (ks : Nat) (h1 : 1 ≤ ks) (h8 : ks ≤ 8) : lin_cnt 1 ks = 1 := by
  interval_cases ks <;> rfl

theorem cell_spans_spec (k : List Nat) (hk : ZF k) (hk31 : k.length < 2 ^ 31) :
    ∀ (fuel off : Nat) (s : List Nat), k.drop off = s → off ≤ k.length → off % 8 = 0 →
      s.length / 24 + 1 ≤ fuel →
      ∃ n1 fs d1, cell_spans k k.length fuel off = some (n1, fs, .word 0) ∧
        Path d1 off n1 fs [] (s, 0) [] ∧ fs.length ≤ s.length / 24 + 1 := by
  intro fuel
  induction fuel with
  | zero => intro off s _ _ _ h; omega
  | succ fuel ih =>
    intro off s hs hoff hal hfuel
    have h24 : JUDY_span_bytes = 24 := rfl
    have hlen := drop_length_le k off s hs hoff
    have hzs : ZF s := by rw [← hs]; exact ZF_drop off hk
    rw [cell_spans]
    simp only [hoff, if_true, hlen, gt_iff_lt]
    rw [if_neg (by omega : ¬ 2 ^ 31 ≤ s.length)]
    rcases Nat.lt_or_ge s.length 24 with hl | hl
    · have htst : (if s.length < JUDY_span_bytes then s.length else JUDY_span_bytes) = s.length := by
        rw [if_pos (by rw [h24]; exact hl)]
      rw [htst, span_bytes_eq k off s.length s hs (by rw [h24]; omega), List.take_length]
      have hz : (s ++ List.replicate (JUDY_span_bytes - s.length) 0).getD (JUDY_span_bytes - 1) 0
          = 0 := by
        rw [List.getD_append_right _ _ _ _ (by rw [h24]; omega)]
        simp [List.getD_eq_getElem?_getD, List.getElem?_replicate]
        split <;> rfl
      simp only [hz, if_true]
      refine ⟨_, _, 1, rfl, ?_, by simp⟩
      exact ⟨hal, s, hzs, rfl, Or.inl ⟨by rw [h24]; exact hl, rfl, rfl, rfl, rfl, rfl⟩⟩
    · have htst : (if s.length < JUDY_span_bytes then s.length else JUDY_span_bytes)
          = JUDY_span_bytes := by
        rw [if_neg (by rw [h24]; omega)]
      have htl : (s.take JUDY_span_bytes).length = JUDY_span_bytes := by
        rw [List.length_take, h24]; omega
      rw [htst, span_bytes_eq k off JUDY_span_bytes s hs (le_refl _), htl, Nat.sub_self]
      simp only [List.replicate_zero, List.append_nil]
      have hnz : ¬ (s.take JUDY_span_bytes).getD (JUDY_span_bytes - 1) 0 = 0 := by
        have := getD_pos (s.take JUDY_span_bytes) (ZF_take _ hzs) (JUDY_span_bytes - 1)
          (by rw [htl, h24]; omega)
        omega
      simp only [hnz, if_false]
      obtain ⟨n1, fs, d1, hc, hp, hf⟩ := ih (off + JUDY_span_bytes) (s.drop JUDY_span_bytes)
        (by rw [← hs, List.drop_drop]) (by rw [h24]; omega) (by rw [h24]; omega)
        (by rw [List.length_drop, h24]; omega)
      rw [hc]
      refine ⟨_, _, d1 + 1, rfl, ?_, ?_⟩
      · refine ⟨hal, s.take JUDY_span_bytes, ZF_take _ hzs, by simp [htl], Or.inr ⟨htl, fs, [],
          s.drop JUDY_span_bytes, [], hp, rfl, ?_, rfl, rfl⟩⟩
        simp
      · rw [List.length_drop, h24] at hf
        simp only [List.length_append, List.length_singleton]
        omega

theorem cell_new_spec (k : List Nat) (hk : ZF k) (hk31 : k.length < 2 ^ 31) (off : Nat) (s : List Nat)
    (hs : k.drop off = s) (hoff : off ≤ k.length) :
    ∃ n1 fs d1, cell_new k k.length (k.length + 1) off = some (n1, fs, .word 0) ∧
      Path d1 off n1 fs [] (s, 0) [] ∧ fs.length ≤ s.length + 1 := by
  have hlen := drop_length_le k off s hs hoff
  have hzs : ZF s := by rw [← hs]; exact ZF_drop off hk
  have hks := key_size_eq off
  have hks1 := key_size_pos off
  have hks8 := key_size_le off
  unfold cell_new
  rw [and7]
  by_cases hal : off % 8 = 0
  · simp only [hal, ne_eq, not_true_eq_false, false_and, if_false]
    obtain ⟨n1, fs, d1, hc, hp, hf⟩ := cell_spans_spec k hk hk31 (k.length + 1) off s hs hoff hal
      (by have := Nat.div_le_self s.length 24; omega)
    exact ⟨n1, fs, d1, hc, hp, by have := Nat.div_le_self s.length 24; omega⟩
  · simp only [hal, ne_eq, not_false_eq_true, hoff, and_self, if_true, or7, lin1_key_eq, pow_zero,
      mul_one, hs]
    rcases Nat.lt_or_ge s.length (key_size off) with hl | hl
    · have hc : cell_spans k k.length (k.length + 1) (off + key_size off)
          = some (.word 0, [], .word 0) := by
        rw [cell_spans, if_neg (by omega)]
      rw [hc]
      refine ⟨_, _, 1, rfl, ?_, by simp⟩
      refine ⟨0, [], [], [], [], [], [], s, .word 0, le_refl _, by norm_num, rfl, rfl, ?_,
        by simp, hzs, Slots.nil, Slots.nil, Or.inl ⟨hl, rfl, rfl, rfl, rfl, rfl⟩⟩
      rw [lin_cnt_one _ hks1 hks8]; rfl
    · obtain ⟨n1, fs, d1, hc, hp, hf⟩ := cell_spans_spec k hk hk31 (k.length + 1) (off + key_size off)
        (s.drop (key_size off)) (by rw [← hs, List.drop_drop]) (by omega) (by omega)
        (by rw [List.length_drop]
            have := Nat.div_le_self (s.length - key_size off) 24; omega)
      rw [hc]
      have htl : (s.take (key_size off)).length = key_size off := by
        rw [List.length_take]; omega
      refine ⟨_, _, d1 + 1, rfl, ?_, ?_⟩
      · refine ⟨0, [], [], [], [], [], [], s.take (key_size off), n1, le_refl _, by norm_num,
          by simp [pack_take], rfl, ?_, by simp, ZF_take _ hzs, Slots.nil, Slots.nil,
          Or.inr ⟨htl, fs, [], s.drop (key_size off), [], hp, ?_, ?_, rfl, rfl⟩⟩
        · rw [lin_cnt_one _ hks1 hks8]; rfl
        · simp [pack_take]
        · simp
      · rw [List.length_drop] at hf
        have := Nat.div_le_self (s.length - key_size off) 24
        simp only [List.length_append, List.length_singleton]
        omega

/-! ## List surgery on linear nodes -/

theorem split_at_value (l : List Nat) (value : Nat) (h : l.Pairwise (· < ·)) :
    ∃ K1 K2, l = K1 ++ K2 ∧ (∀ a ∈ K1, a < value) ∧ (∀ b ∈ K2, value ≤ b) := by
  induction l with
  | nil => exact ⟨[], [], rfl, by simp, by simp⟩
  | cons x l ih =>
    have hp := List.pairwise_cons.1 h
    rcases Nat.lt_or_ge x value with hx | hx
    · obtain ⟨K1, K2, rfl, h1, h2⟩ := ih hp.2
      refine ⟨x :: K1, K2, rfl, ?_, h2⟩
      intro a ha
      rcases List.mem_cons.1 ha with rfl | ha
      · exact hx
      · exact h1 a ha
    · refine ⟨[], x :: l, rfl, by simp, ?_⟩
      intro b hb
      rcases List.mem_cons.1 hb with rfl | hb
      · exact hx
      · have := hp.1 b hb; omega

theorem set_mid {α : Type} (L R : List α) (x y : α) (i : Nat) (hi : i = L.length) :
    (L ++ x :: R).set i y = L ++ y :: R := by
  subst hi
  rw [List.set_append]
  simp

theorem set_mid2 {α : Type} (e : Nat) (z : α) (C1 C2 : List α) (c y : α) (i : Nat)
    (hi : i = e + C1.length) :
    (List.replicate e z ++ (C1 ++ c :: C2)).set i y = List.replicate e z ++ (C1 ++ y :: C2) := by
  rw [← List.append_assoc, ← List.append_assoc]
  exact set_mid _ _ _ _ _ (by simp [hi])

theorem lin_insert_eq {α : Type} (e : Nat) (z x : α) (K1 K2 : List α) :
    lin_insert (List.replicate (e + 1) z ++ (K1 ++ K2)) (e + K1.length) x =
      List.replicate e z ++ (K1 ++ x :: K2) := by
  unfold lin_insert
  have h1 : (List.replicate (e + 1) z ++ (K1 ++ K2)).drop 1 = List.replicate e z ++ (K1 ++ K2) := by
    simp [List.replicate_succ]
  have h2 : (List.replicate e z ++ (K1 ++ K2)).take (e + K1.length) = List.replicate e z ++ K1 := by
    rw [← List.append_assoc]
    exact List.take_left' (by simp)
  have h3 : (List.replicate (e + 1) z ++ (K1 ++ K2)).drop (e + K1.length + 1) = K2 := by
    rw [← List.append_assoc]
    exact List.drop_left' (by simp; omega)
  rw [h1, h2, h3, List.append_assoc]

theorem copyInto_replicate {α : Type} (z : α) (a b : Nat) (src : List α) (s n : Nat)
    (_hn : n ≤ (src.drop s).length) :
    copyInto (List.replicate (a + n + b) z) a src s n =
      List.replicate a z ++ ((src.drop s).take n ++ List.replicate b z) := by
  unfold copyInto
  congr 1
  · rw [List.take_replicate]; congr 1; omega
  · congr 1
    rw [List.drop_replicate]; congr 1; omega

theorem promote_lists {α : Type} (z x : α) (g : Nat) (K1 K2 : List α) :
    copyInto ((copyInto (List.replicate (g + (K1.length + 1 + K2.length)) z) g (K1 ++ K2) 0
      K1.length).set (K1.length + g) x) (K1.length + 1 + g) (K1 ++ K2) K1.length K2.length =
      List.replicate g z ++ (K1 ++ x :: K2) := by
  have e1 : copyInto (List.replicate (g + (K1.length + 1 + K2.length)) z) g (K1 ++ K2) 0
      K1.length = List.replicate g z ++ (K1 ++ List.replicate (1 + K2.length) z) := by
    rw [show g + (K1.length + 1 + K2.length) = g + K1.length + (1 + K2.length) by omega,
      copyInto_replicate z g (1 + K2.length) (K1 ++ K2) 0 K1.length (by simp)]
    simp
  rw [e1]
  have e2 : (List.replicate g z ++ (K1 ++ List.replicate (1 + K2.length) z)).set (K1.length + g) x
      = List.replicate g z ++ (K1 ++ x :: List.replicate K2.length z) := by
    rw [show 1 + K2.length = K2.length + 1 by omega, List.replicate_succ]
    exact set_mid2 g z K1 _ z x _ (by omega)
  rw [e2]
  unfold copyInto
  have e3 : (List.replicate g z ++ (K1 ++ x :: List.replicate K2.length z)).take
      (K1.length + 1 + g) = List.replicate g z ++ (K1 ++ [x]) := by
    rw [show List.replicate g z ++ (K1 ++ x :: List.replicate K2.length z) =
      (List.replicate g z ++ (K1 ++ [x])) ++ List.replicate K2.length z by simp]
    exact List.take_left' (by simp; omega)
  have e4 : ((K1 ++ K2).drop K1.length).take K2.length = K2 := by
    rw [List.drop_left' rfl, List.take_length]
  have e5 : (List.replicate g z ++ (K1 ++ x :: List.replicate K2.length z)).drop
      (K1.length + 1 + g + K2.length) = [] := by
    apply List.drop_of_length_le
    simp; omega
  rw [e3, e4, e5]
  simp

theorem lin_cnt_grow (type ks : Nat) (h1 : 1 ≤ type) (h5 : type ≤ 5) (hk1 : 1 ≤ ks)
    (hk8 : ks ≤ 8) : lin_cnt type ks + 1 ≤ lin_cnt (type + 1) ks := by
  interval_cases type <;> interval_cases ks <;> decide

theorem JudySize_lt (type : Nat) (h1 : 1 ≤ type) (h6 : type ≤ 6) :
    JudySize type < JudySize JUDY_max ↔ type < 6 := by
  interval_cases type <;> decide

theorem kidAt_zero_replicate (e : Nat) (C : List JNode) (he : 0 < e) :
    kidAt (List.replicate e (JNode.word 0) ++ C) 0 = .word 0 := by
  obtain ⟨e, rfl⟩ : ∃ e1, e = e1 + 1 := ⟨e - 1, by omega⟩
  simp [kidAt, List.replicate_succ]

theorem promote_lists0 {α : Type} (z : α) (g : Nat) (K1 K2 : List α) :
    copyInto (copyInto (List.replicate (g + (K1.length + 1 + K2.length)) z) g (K1 ++ K2) 0
      K1.length) (K1.length + 1 + g) (K1 ++ K2) K1.length K2.length =
      List.replicate g z ++ (K1 ++ z :: K2) := by
  have e1 : copyInto (List.replicate (g + (K1.length + 1 + K2.length)) z) g (K1 ++ K2) 0
      K1.length = List.replicate g z ++ (K1 ++ List.replicate (1 + K2.length) z) := by
    rw [show g + (K1.length + 1 + K2.length) = g + K1.length + (1 + K2.length) by omega,
      copyInto_replicate z g (1 + K2.length) (K1 ++ K2) 0 K1.length (by simp)]
    simp
  rw [e1, show 1 + K2.length = K2.length + 1 by omega, List.replicate_succ]
  unfold copyInto
  have e3 : (List.replicate g z ++ (K1 ++ z :: List.replicate K2.length z)).take
      (K1.length + 1 + g) = List.replicate g z ++ (K1 ++ [z]) := by
    rw [show List.replicate g z ++ (K1 ++ z :: List.replicate K2.length z) =
      (List.replicate g z ++ (K1 ++ [z])) ++ List.replicate K2.length z by simp]
    exact List.take_left' (by simp; omega)
  have e4 : ((K1 ++ K2).drop K1.length).take K2.length = K2 := by
    rw [List.drop_left' rfl, List.take_length]
  have e5 : (List.replicate g z ++ (K1 ++ z :: List.replicate K2.length z)).drop
      (K1.length + 1 + g + K2.length) = [] := by
    apply List.drop_of_length_le
    simp; omega
  rw [e3, e4, e5]
  simp

theorem Slots.cons_inv {R : JNode → List Ent → Prop} {ks x : Nat} {K : List Nat}
    {C : List JNode} {m : List Ent} (h : Slots R ks (x :: K) C m) :
    ∃ p c C1 m1, x = pack ks p ∧ C = c :: C1 ∧ ZF p ∧ Slots R ks K C1 m1 ∧
      ((p.length < ks ∧ ∃ v, 0 < v ∧ c = .word v ∧ m = (p, v) :: m1) ∨
       (p.length = ks ∧ ∃ m2, R c m2 ∧ m = pre p m2 ++ m1)) := by
  cases h with
  | leaf hp hl hv hs => exact ⟨_, _, _, _, rfl, rfl, hp, hs, Or.inl ⟨hl, _, hv, rfl, rfl⟩⟩
  | node hp hl hr hs => exact ⟨_, _, _, _, rfl, rfl, hp, hs, Or.inr ⟨hl, _, hr, rfl⟩⟩

theorem Slots.nil_inv {R : JNode → List Ent → Prop} {ks : Nat}
    {C : List JNode} {m : List Ent} (h : Slots R ks [] C m) : C = [] ∧ m = [] := by
  cases h
  exact ⟨rfl, rfl⟩

/-- The scan of a node that does not hold `value`, when a populated key is below it. -/
theorem lin_scan_miss1 (ks value e : Nat) (hks : ks ≤ 8) (K1 K2 : List Nat) (x t cnt : Nat)
    (hcnt : e + (K1.length + 1 + K2.length) = cnt) (hxv : x < value)
    (hB : ∀ b ∈ K2, value < b ∧ b < 256 ^ ks) :
    lin_scan (List.replicate e 0 ++ ((K1 ++ [x]) ++ K2)) ks value cnt t =
      (((e + K1.length : Nat) : Int), x % 256 ^ ks) := by
  have := lin_scan_split ks value hks (List.replicate e 0 ++ K1) K2 x t
    (le_trans (Nat.mod_le _ _) (le_of_lt hxv))
    (fun b hb => by rw [Nat.mod_eq_of_lt (hB b hb).2]; exact (hB b hb).1)
  simp only [List.append_assoc, List.length_append, List.length_replicate] at this
  rw [← hcnt, show e + (K1.length + 1 + K2.length) = e + K1.length + 1 + K2.length by omega]
  simpa using this

/-- The scan of a node that does not hold `value`, when only empty slots are below it. -/
theorem lin_scan_miss2 (ks value e : Nat) (hks : ks ≤ 8) (K2 : List Nat) (t cnt : Nat)
    (hcnt : e + 1 + K2.length = cnt)
    (hB : ∀ b ∈ K2, value < b ∧ b < 256 ^ ks) :
    lin_scan (List.replicate (e + 1) 0 ++ K2) ks value cnt t = ((e : Int), 0) := by
  have := lin_scan_split ks value hks (List.replicate e 0) K2 0 t (by simp)
    (fun b hb => by rw [Nat.mod_eq_of_lt (hB b hb).2]; exact (hB b hb).1)
  simp only [List.length_replicate] at this
  rw [← hcnt, List.replicate_succ']
  simpa using this

/-- The scan of a full node all of whose keys are above `value`. -/
theorem lin_scan_miss3 (ks value : Nat) (hks : ks ≤ 8) (K2 : List Nat) (x cnt : Nat)
    (hcnt : 1 + K2.length = cnt) (hx : value < x ∧ x < 256 ^ ks)
    (hB : ∀ b ∈ K2, value < b ∧ b < 256 ^ ks) :
    lin_scan (x :: K2) ks value cnt 0 = (-1, x) := by
  have := lin_scan_none ks value hks (x :: K2) 0 (fun b hb => by
    rcases List.mem_cons.1 hb with rfl | hb
    · rw [Nat.mod_eq_of_lt hx.2]; exact hx.1
    · rw [Nat.mod_eq_of_lt (hB b hb).2]; exact (hB b hb).1)
  rw [← hcnt, show 1 + K2.length = (x :: K2).length by simp; omega, this]
  simp [Nat.mod_eq_of_lt hx.2]

/-! ## `judy_cell` at a linear node -/

theorem pack_eq_zero (ks : Nat) (s : List Nat) (hs : ZF s) (hks : 0 < ks) (h : pack ks s = 0) :
    s = [] := by
  cases s with
  | nil => rfl
  | cons b t =>
    obtain ⟨n, rfl⟩ : ∃ n, ks = n + 1 := ⟨ks - 1, by omega⟩
    rw [pack_cons] at h
    have := (ZF_cons.1 hs).1.1
    have : 0 < b * 256 ^ n := by positivity
    omega

theorem Slots.mem_key {R : JNode → List Ent → Prop} {ks : Nat} {K : List Nat} {C : List JNode}
    {m : List Ent} (h : Slots R ks K C m) (s : List Nat) (c : Nat) (hm : (s, c) ∈ m) :
    pack ks s ∈ K := by
  obtain ⟨K1, K2, C1, C2, mA, mB, p, c1, rfl, rfl, hp, h1, h2, h3⟩ := h.mem _ hm
  rcases h3 with ⟨_, _, hs, _⟩ | ⟨hl, m1, s1, _, _, hs, _⟩
  · simp only at hs; subst hs; simp
  · simp only at hs; subst hs; rw [pack_append _ _ _ hl]; simp

theorem pairwise_insert (K1 K2 : List Nat) (value : Nat)
    (hp : (K1 ++ K2).Pairwise (· < ·)) (h1 : ∀ a ∈ K1, a < value) (h2 : ∀ b ∈ K2, value < b) :
    (K1 ++ value :: K2).Pairwise (· < ·) := by
  rw [List.pairwise_append] at hp ⊢
  refine ⟨hp.1, List.pairwise_cons.2 ⟨h2, hp.2.1⟩, ?_⟩
  intro a ha b hb
  rcases List.mem_cons.1 hb with rfl | hb
  · exact h1 a ha
  · exact hp.2.2 a ha b hb

theorem take_length_of_le (s : List Nat) (ks : Nat) (h : ks ≤ s.length) :
    (s.take ks).length = ks := by
  rw [List.length_take]; omega

theorem cell_lin_hit (k : List Nat) (hk : ZF k) (off : Nat) (s : List Nat) (hs : k.drop off = s)
    (d type e : Nat) (K1 K2 : List Nat) (C1 C2 : List JNode) (mA m2 : List Ent) (fuel : Nat)
    (h1 : 1 ≤ type) (h2 : type ≤ 6)
    (hcnt : e + (K1.length + 1 + K2.length) = lin_cnt type (key_size off))
    (hpw : (K1 ++ pack (key_size off) s :: K2).Pairwise (· < ·))
    (hs1 : Slots (Rep d (off + key_size off)) (key_size off) K1 C1 mA)
    (hs2 : Slots (Rep d (off + key_size off)) (key_size off) (pack (key_size off) s :: K2) C2 m2)
    (IH : key_size off ≤ s.length → ∀ n1 m1 d1, Rep d1 (off + key_size off) n1 m1 →
      CellOK k fuel (off + key_size off) n1 m1 (s.drop (key_size off))) :
    CellOK k (fuel + 1) off (.lin type (List.replicate e 0 ++ (K1 ++ pack (key_size off) s :: K2))
      (List.replicate e (JNode.word 0) ++ (C1 ++ C2))) (mA ++ m2) s := by
  have hzs : ZF s := by rw [← hs]; exact ZF_drop off hk
  have hks := key_size_le off
  have hks1 := key_size_pos off
  obtain ⟨p, c, C3, m3, hpk, rfl, hp, hs3, hcase⟩ := hs2.cons_inv
  have hps : p = s.take (key_size off) := by
    apply pack_inj (key_size off) _ _ hp (ZF_take _ hzs)
    · rcases hcase with ⟨hl, _⟩ | ⟨hl, _⟩ <;> omega
    · rw [List.length_take]; omega
    · rw [← hpk, pack_take]
  have hlen1 := hs1.length_eq
  have hB : ∀ b ∈ K2, pack (key_size off) s < b ∧ b < 256 ^ key_size off := fun b hb =>
    ⟨(List.pairwise_cons.1 (List.pairwise_append.1 hpw).2.1).1 b hb, hs2.key_lt b (by simp [hb])⟩
  have hscan := lin_scan_node (key_size off) (pack (key_size off) s) e hks K1 K2 _ 0 _ hcnt rfl
    (pack_lt _ _ hzs) hB
  have hkid : kidAt (List.replicate e (JNode.word 0) ++ (C1 ++ c :: C3)) (e + K1.length) = c :=
    kidAt_mid e C1 C3 c _ (by rw [hlen1])
  rcases hcase with ⟨hl, v, hv, rfl, rfl⟩ | ⟨hl, m4, hr, rfl⟩
  · have hsl : s.length < key_size off := by
      rw [hps, List.length_take] at hl; omega
    have hps2 : p = s := by rw [hps, List.take_of_length_le (by omega)]
    subst hps2
    refine ⟨_, [⟨.lin type (List.replicate e 0 ++ (K1 ++ pack (key_size off) p :: K2))
      (List.replicate e (JNode.word 0) ++ (C1 ++ JNode.word v :: C3)), off,
      ((e + K1.length : Nat) : Int)⟩], v, mA, m3, d + 1, ?_, ?_, by simp, Or.inr ⟨hv, rfl, rfl⟩⟩
    · rw [cell_loop]
      simp only [key_value_spec k hk off, hs, hscan, if_true, and255,
        (pack_mod _ p hp hks1).2 hl, Int.toNat_ofNat, hkid]
    · exact ⟨e, K1, K2, C1, C3, mA, m3, p, _, h1, h2, rfl, rfl, hcnt, hpw, hp, hs1, hs3,
        Or.inl ⟨hl, rfl, rfl, rfl, rfl, rfl⟩⟩
  · have hsl : key_size off ≤ s.length := by
      rw [hps, List.length_take] at hl; omega
    obtain ⟨n1, fs, c1, A1, B1, d1, hloop, hpath, hfl, hres⟩ := IH hsl c m4 d hr
    have hnz : ¬ pack (key_size off) s % 256 = 0 := by
      rw [pack_mod _ s hzs hks1]; omega
    have hset : (List.replicate e (JNode.word 0) ++ (C1 ++ c :: C3)).set (e + K1.length) n1 =
        List.replicate e (JNode.word 0) ++ (C1 ++ n1 :: C3) :=
      set_mid2 e _ C1 C3 c n1 _ (by rw [hlen1])
    have hsp : s = p ++ s.drop (key_size off) := by
      rw [hps, List.take_append_drop]
    refine ⟨.lin type (List.replicate e 0 ++ (K1 ++ pack (key_size off) s :: K2))
        (List.replicate e (JNode.word 0) ++ (C1 ++ n1 :: C3)),
      fs ++ [⟨.lin type (List.replicate e 0 ++ (K1 ++ pack (key_size off) s :: K2))
        (List.replicate e (JNode.word 0) ++ (C1 ++ n1 :: C3)), off,
        ((e + K1.length : Nat) : Int)⟩],
      c1, mA ++ pre p A1, pre p B1 ++ m3, max d d1 + 1, ?_, ?_, ?_, ?_⟩
    · rw [cell_loop]
      simp only [key_value_spec k hk off, hs, hscan, if_true, and255, hnz, if_false,
        Int.toNat_ofNat, hkid, hloop, hset]
    · refine ⟨e, K1, K2, C1, C3, mA, m3, p, n1, h1, h2, by rw [← hpk], rfl, hcnt,
        by rw [← hpk]; exact hpw, hp,
        hs1.mono (fun c m1 hc => Rep_mono_le (le_max_left _ _) hc),
        hs3.mono (fun c m1 hc => Rep_mono_le (le_max_left _ _) hc),
        Or.inr ⟨hl, fs, A1, s.drop (key_size off), B1,
          Path_mono_le (le_max_right _ _) hpath, rfl, hsp, rfl, rfl⟩⟩
    · simp only [List.length_append, List.length_singleton]
      rw [List.length_drop] at hfl
      omega
    · rcases hres with ⟨hc0, hm⟩ | ⟨hc0, hm, hn⟩
      · exact Or.inl ⟨hc0, by rw [hm]; simp [pre_append]⟩
      · refine Or.inr ⟨hc0, ?_, ?_⟩
        · rw [hm]
          conv_rhs => rw [hsp]
          simp [pre_append, pre_cons]
        · rw [hn]

theorem judy_promote_eq (type ks value g : Nat) (K1 K2 : List Nat) (C1 C2 : List JNode)
    (hold : K1.length + K2.length = lin_cnt type ks)
    (hnew : g + (K1.length + 1 + K2.length) = lin_cnt (type + 1) ks)
    (hc1 : C1.length = K1.length) (hc2 : C2.length = K2.length) (hv : value < 256 ^ ks) :
    judy_promote (.lin type (K1 ++ K2) (C1 ++ C2)) K1.length value ks =
      some (.lin (type + 1) (List.replicate g 0 ++ (K1 ++ value :: K2))
        (List.replicate g (JNode.word 0) ++ (C1 ++ JNode.word 0 :: C2)), g + K1.length) := by
  unfold judy_promote
  have e1 : JudySize (type + 1 - 1) / (JUDY_slot_size + ks) = K1.length + K2.length := by
    rw [hold]; rfl
  have e2 : JudySize (type + 1) / (JUDY_slot_size + ks) = g + (K1.length + 1 + K2.length) := by
    rw [hnew]; rfl
  simp only [e1, e2]
  rw [if_neg (by omega)]
  have a1 : g + (K1.length + 1 + K2.length) - (K1.length + K2.length) - 1 = g := by omega
  have a2 : K1.length + (g + (K1.length + 1 + K2.length)) - (K1.length + K2.length) - 1
      = K1.length + g := by omega
  have a3 : K1.length + (g + (K1.length + 1 + K2.length)) - (K1.length + K2.length)
      = K1.length + 1 + g := by omega
  have a4 : K1.length + K2.length - K1.length = K2.length := by omega
  have a5 : K1.length + 1 + g - 1 = K1.length + g := by omega
  simp only [a1, a2, a3, a4, a5, Nat.mod_eq_of_lt hv]
  rw [promote_lists 0 value g K1 K2]
  have := promote_lists0 (JNode.word 0) g C1 C2
  rw [hc1, hc2] at this
  rw [this, Nat.add_comm K1.length g]

theorem lin_new_leaf (off d type g : Nat) (K1 K2 : List Nat) (C1 C2 : List JNode)
    (mA mB : List Ent) (s : List Nat) (h1 : 1 ≤ type) (h2 : type ≤ 6) (hzs : ZF s)
    (hcnt : g + (K1.length + 1 + K2.length) = lin_cnt type (key_size off))
    (hpw : (K1 ++ pack (key_size off) s :: K2).Pairwise (· < ·))
    (hs1 : Slots (Rep d (off + key_size off)) (key_size off) K1 C1 mA)
    (hs2 : Slots (Rep d (off + key_size off)) (key_size off) K2 C2 mB)
    (hl : s.length < key_size off) :
    Path (d + 1) off (.lin type (List.replicate g 0 ++ (K1 ++ pack (key_size off) s :: K2))
        (List.replicate g (JNode.word 0) ++ (C1 ++ JNode.word 0 :: C2)))
      [⟨.lin type (List.replicate g 0 ++ (K1 ++ pack (key_size off) s :: K2))
        (List.replicate g (JNode.word 0) ++ (C1 ++ JNode.word 0 :: C2)), off,
        ((g + K1.length : Nat) : Int)⟩] mA (s, 0) mB :=
  ⟨g, K1, K2, C1, C2, mA, mB, s, _, h1, h2, rfl, rfl, hcnt, hpw, hzs, hs1, hs2,
    Or.inl ⟨hl, rfl, rfl, rfl, rfl, rfl⟩⟩

theorem lin_new_node (off d d1 type g : Nat) (K1 K2 : List Nat) (C1 C2 : List JNode)
    (mA mB : List Ent) (s : List Nat) (n1 : JNode) (fs : List JudyStack)
    (h1 : 1 ≤ type) (h2 : type ≤ 6) (hzs : ZF s)
    (hcnt : g + (K1.length + 1 + K2.length) = lin_cnt type (key_size off))
    (hpw : (K1 ++ pack (key_size off) s :: K2).Pairwise (· < ·))
    (hs1 : Slots (Rep d (off + key_size off)) (key_size off) K1 C1 mA)
    (hs2 : Slots (Rep d (off + key_size off)) (key_size off) K2 C2 mB)
    (hl : key_size off ≤ s.length)
    (hp : Path d1 (off + key_size off) n1 fs [] (s.drop (key_size off), 0) []) :
    Path (max d d1 + 1) off (.lin type (List.replicate g 0 ++ (K1 ++ pack (key_size off) s :: K2))
        (List.replicate g (JNode.word 0) ++ (C1 ++ n1 :: C2)))
      (fs ++ [⟨.lin type (List.replicate g 0 ++ (K1 ++ pack (key_size off) s :: K2))
        (List.replicate g (JNode.word 0) ++ (C1 ++ n1 :: C2)), off,
        ((g + K1.length : Nat) : Int)⟩]) mA (s, 0) mB := by
  refine ⟨g, K1, K2, C1, C2, mA, mB, s.take (key_size off), n1, h1, h2, by rw [pack_take], rfl,
    hcnt, by rw [pack_take]; exact hpw, ZF_take _ hzs,
    hs1.mono (fun c m1 hc => Rep_mono_le (le_max_left _ _) hc),
    hs2.mono (fun c m1 hc => Rep_mono_le (le_max_left _ _) hc),
    Or.inr ⟨take_length_of_le s _ hl, fs, [], s.drop (key_size off), [],
      Path_mono_le (le_max_right _ _) hp, rfl, ?_, by simp [pre_nil],
      by simp [pre_nil]⟩⟩
  simp

theorem cell_word0 (k : List Nat) (hk : ZF k) (hk31 : k.length < 2 ^ 31) (off fuel : Nat) (s : List Nat)
    (hs : k.drop off = s) (hoff : off ≤ k.length) :
    ∃ n1 fs d1, cell_loop k k.length (fuel + 1) (.word 0) off = some (n1, fs, .word 0) ∧
      Path d1 off n1 fs [] (s, 0) [] ∧ fs.length ≤ s.length + 1 := by
  obtain ⟨n1, fs, d1, h1, h2, h3⟩ := cell_new_spec k hk hk31 off s hs hoff
  exact ⟨n1, fs, d1, by rw [cell_loop]; exact h1, h2, h3⟩

theorem cell_lin_miss (k : List Nat) (hk : ZF k) (hk31 : k.length < 2 ^ 31) (off : Nat)
    (s : List Nat) (hs : k.drop off = s)
    (hoff : off ≤ k.length)
    (d type e : Nat) (K1 K2 : List Nat) (C1 C2 : List JNode) (mA mB : List Ent) (fuel : Nat)
    (keys : List Nat) (kids : List JNode)
    (hkeys : keys = List.replicate e 0 ++ (K1 ++ K2))
    (hkids : kids = List.replicate e (JNode.word 0) ++ (C1 ++ C2))
    (h1 : 1 ≤ type) (h2 : type ≤ 6) (hfuel : 1 ≤ fuel)
    (hcnt : e + (K1.length + K2.length) = lin_cnt type (key_size off))
    (hne : K1 ++ K2 ≠ [])
    (hpw : (K1 ++ K2).Pairwise (· < ·))
    (hK1 : ∀ a ∈ K1, a < pack (key_size off) s) (hK2 : ∀ b ∈ K2, pack (key_size off) s < b)
    (hs1 : Slots (Rep d (off + key_size off)) (key_size off) K1 C1 mA)
    (hs2 : Slots (Rep d (off + key_size off)) (key_size off) K2 C2 mB)
    (hsp : e = 0 → type = 6 → ∃ n2, judy_splitnode (.lin type keys kids) (JudySize type)
      (key_size off) = some n2 ∧ CellOK k fuel off n2 (mA ++ mB) s) :
    CellOK k (fuel + 1) off (.lin type keys kids) (mA ++ mB) s := by
  have hzs : ZF s := by rw [← hs]; exact ZF_drop off hk
  have hks := key_size_le off
  have hks1 := key_size_pos off
  have hlen := drop_length_le k off s hs hoff
  have hlen1 := hs1.length_eq
  have hlen2 := hs2.length_eq
  have hvlt := pack_lt (key_size off) s hzs
  have hB : ∀ b ∈ K2, pack (key_size off) s < b ∧ b < 256 ^ key_size off := fun b hb =>
    ⟨hK2 b hb, hs2.key_lt b hb⟩
  have hpw2 := pairwise_insert K1 K2 _ hpw hK1 hK2
  have hnomem : ∀ c, (s, c) ∉ mA ++ mB := by
    intro c hc
    have := (hs1.append hs2).mem_key s c hc
    rcases List.mem_append.1 this with h | h
    · exact absurd (hK1 _ h) (lt_irrefl _)
    · exact absurd (hK2 _ h) (lt_irrefl _)
  obtain ⟨fuel, rfl⟩ : ∃ f, fuel = f + 1 := ⟨fuel - 1, by omega⟩
  have hw : key_size off ≤ s.length → ∃ nw fw dw,
      cell_loop k k.length (fuel + 1) (.word 0) (off + key_size off) = some (nw, fw, .word 0) ∧
      Path dw (off + key_size off) nw fw [] (s.drop (key_size off), 0) [] ∧
      fw.length ≤ (s.drop (key_size off)).length + 1 := fun hl =>
    cell_word0 k hk hk31 (off + key_size off) fuel
      (s.drop (key_size off)) (by rw [← hs, List.drop_drop]) (by rw [← hs, List.length_drop] at hl; omega)
  -- the scan
  rcases Nat.eq_zero_or_pos e with he | he
  · -- the node is full
    subst he
    simp only [List.replicate_zero, List.nil_append] at hkeys hkids
    have hkid0 : (kidAt kids 0).nonzero = true := by
      have hnz := (hs1.append hs2).kids_nonzero (fun c m1 hc => Rep_nonzero hc)
      rw [hkids]
      cases hcc : C1 ++ C2 with
      | nil =>
        have := (hs1.append hs2).length_eq
        rw [hcc] at this
        exact absurd (List.length_eq_zero.1 this) hne
      | cons c cs => exact hnz c (by rw [hcc]; simp)
    have hscan : ∃ t, t ≠ pack (key_size off) s ∧
        lin_scan keys (key_size off) (pack (key_size off) s) (lin_cnt type (key_size off)) 0 =
          ((K1.length : Int) - 1, t) := by
      rcases List.eq_nil_or_concat K1 with hk1 | ⟨K1a, x, hk1⟩
      · subst hk1
        cases K2 with
        | nil => exact absurd rfl hne
        | cons x K2 =>
          refine ⟨x, by have := hK2 x (by simp); omega, ?_⟩
          rw [hkeys]
          have := lin_scan_miss3 (key_size off) (pack (key_size off) s) hks K2 x
            (lin_cnt type (key_size off)) (by rw [← hcnt]; simp; try omega) (hB x (by simp))
            (fun b hb => hB b (by simp [hb]))
          simpa using this
      · rw [List.concat_eq_append] at hk1
        subst hk1
        have hxv := hK1 x (by simp)
        refine ⟨x % 256 ^ key_size off, by have := Nat.mod_le x (256 ^ key_size off); omega, ?_⟩
        rw [hkeys]
        have := lin_scan_miss1 (key_size off) (pack (key_size off) s) 0 hks K1a K2 x 0
          (lin_cnt type (key_size off)) (by rw [← hcnt]; simp; try omega) hxv hB
        simp only [List.replicate_zero, List.nil_append, Nat.zero_add] at this
        rw [this]
        simp
    obtain ⟨t, ht, hscan⟩ := hscan
    rcases Nat.lt_or_ge type 6 with ht6 | ht6
    · -- promote
      have hgrow := lin_cnt_grow type (key_size off) h1 (by omega) hks1 hks
      obtain ⟨g, hg⟩ : ∃ g, g + (K1.length + 1 + K2.length) = lin_cnt (type + 1) (key_size off) :=
        ⟨lin_cnt (type + 1) (key_size off) - (K1.length + 1 + K2.length), by omega⟩
      have hprom := judy_promote_eq type (key_size off) (pack (key_size off) s) g K1 K2 C1 C2
        (by omega) hg hlen1.symm hlen2.symm hvlt
      rw [← hkeys, ← hkids] at hprom
      have hidx : ((K1.length : Int) - 1 + 1).toNat = K1.length := by omega
      rcases Nat.lt_or_ge s.length (key_size off) with hl | hl
      · refine ⟨_, _, 0, mA, mB, d + 1, ?_, lin_new_leaf off d (type + 1) g K1 K2 C1 C2 mA mB s
          (by omega) (by omega) hzs hg hpw2 hs1 hs2 hl, by simp, Or.inl ⟨rfl, rfl⟩⟩
        rw [cell_loop]
        simp only [key_value_spec k hk off, hs, hscan, ht, if_false, hkid0, Bool.not_true,
          Bool.false_eq_true, (JudySize_lt type h1 h2).2 ht6, if_true, hidx, hprom, and255,
          (pack_mod _ s hzs hks1).2 hl]
      · obtain ⟨nw, fw, dw, hw1, hw2, hw3⟩ := hw hl
        have hnz : ¬ pack (key_size off) s % 256 = 0 := by
          rw [pack_mod _ s hzs hks1]; omega
        refine ⟨_, _, 0, mA, mB, _, ?_, lin_new_node off d dw (type + 1) g K1 K2 C1 C2 mA mB s
          nw fw (by omega) (by omega) hzs hg hpw2 hs1 hs2 hl hw2, ?_, Or.inl ⟨rfl, rfl⟩⟩
        · rw [cell_loop]
          simp only [key_value_spec k hk off, hs, hscan, ht, if_false, hkid0, Bool.not_true,
            Bool.false_eq_true, (JudySize_lt type h1 h2).2 ht6, if_true, hidx, hprom, and255,
            hnz, hw1, set_mid2 g _ C1 C2 _ nw (g + K1.length) (by rw [hlen1])]
        · rw [List.length_drop] at hw3
          simp only [List.length_append, List.length_singleton]
          omega
    · -- split
      have ht6 : type = 6 := by omega
      obtain ⟨n2, hsn, n1, fs, c, A, B, d1, hloop, hpath, hfl, hres⟩ := hsp rfl ht6
      have hc0 : c = 0 ∧ mA ++ mB = A ++ B := by
        rcases hres with h | ⟨_, hm, _⟩
        · exact h
        · exact absurd (by rw [hm]; simp) (hnomem c)
      refine ⟨n1, fs, c, A, B, d1, ?_, hpath, hfl, Or.inl hc0⟩
      rw [cell_loop]
      simp only [key_value_spec k hk off, hs, hscan, ht, if_false, hkid0, Bool.not_true,
        Bool.false_eq_true, (JudySize_lt type h1 h2).not.2 (by omega), hsn, hloop]
  · -- the node has an empty slot
    obtain ⟨e, rfl⟩ : ∃ e1, e = e1 + 1 := ⟨e - 1, by omega⟩
    have hkid0 : (kidAt kids 0).nonzero = false := by
      rw [hkids, kidAt_zero_replicate _ _ (by omega)]; rfl
    have hscan : ∃ t, (t = pack (key_size off) s → K1 = [] ∧ pack (key_size off) s = 0) ∧
        lin_scan keys (key_size off) (pack (key_size off) s) (lin_cnt type (key_size off)) 0 =
          (((e + K1.length : Nat) : Int), t) := by
      rcases List.eq_nil_or_concat K1 with hk1 | ⟨K1a, x, hk1⟩
      · subst hk1
        refine ⟨0, fun h => ⟨rfl, h.symm⟩, ?_⟩
        rw [hkeys]
        have := lin_scan_miss2 (key_size off) (pack (key_size off) s) e hks K2 0
          (lin_cnt type (key_size off)) (by rw [← hcnt]; simp; try omega) hB
        simpa using this
      · rw [List.concat_eq_append] at hk1
        subst hk1
        have hxv := hK1 x (by simp)
        refine ⟨x % 256 ^ key_size off,
          fun h => by have := Nat.mod_le x (256 ^ key_size off); omega, ?_⟩
        rw [hkeys]
        have := lin_scan_miss1 (key_size off) (pack (key_size off) s) (e + 1) hks K1a K2 x 0
          (lin_cnt type (key_size off)) (by rw [← hcnt]; simp; try omega) hxv hB
        rw [this]
        simp only [List.length_append, List.length_singleton]
        congr 2
        omega
    obtain ⟨t, ht, hscan⟩ := hscan
    have hins1 : lin_insert keys (e + K1.length) (pack (key_size off) s) =
        List.replicate e 0 ++ (K1 ++ pack (key_size off) s :: K2) := by
      rw [hkeys]; exact lin_insert_eq e 0 _ K1 K2
    have hins2 : lin_insert kids (e + K1.length) (JNode.word 0) =
        List.replicate e (JNode.word 0) ++ (C1 ++ JNode.word 0 :: C2) := by
      rw [hkids, hlen1]; exact lin_insert_eq e _ _ C1 C2
    have hcnt2 : e + (K1.length + 1 + K2.length) = lin_cnt type (key_size off) := by omega
    by_cases htv : t = pack (key_size off) s
    · -- the key ends here and the slot below the populated ones is taken
      obtain ⟨hk1, hv0⟩ := ht htv
      subst hk1
      have hs0 : s = [] := pack_eq_zero _ s hzs hks1 hv0
      subst hs0
      obtain ⟨rfl, rfl⟩ := hs1.nil_inv
      have hkidz : kidAt kids e = .word 0 := by
        rw [hkids]
        simp [kidAt, List.getD_eq_getElem?_getD, List.getElem?_append_left, List.getElem?_replicate]
      have hk2 : keys = List.replicate e 0 ++ ([] ++ pack (key_size off) [] :: K2) := by
        rw [hkeys, hv0]; simp [List.replicate_succ']
      have hc2 : kids = List.replicate e (JNode.word 0) ++ ([] ++ JNode.word 0 :: C2) := by
        rw [hkids]; simp [List.replicate_succ']
      refine ⟨.lin type keys kids, [⟨.lin type keys kids, off, ((e + 0 : Nat) : Int)⟩], 0,
        [], mB, d + 1, ?_, ?_, by simp, Or.inl ⟨rfl, rfl⟩⟩
      · rw [hv0] at hscan htv
        rw [cell_loop]
        simp only [key_value_spec k hk off, hs, hscan, htv, if_true, and255, hv0,
          Nat.zero_mod, Int.toNat_ofNat, List.length_nil, Nat.add_zero, hkidz]
      · have := lin_new_leaf off d type e [] K2 [] C2 [] mB [] h1 h2 hzs hcnt2 hpw2 Slots.nil hs2
          (by simpa using hks1)
        rw [← hk2, ← hc2] at this
        exact this
    · -- open up the slot
      rcases Nat.lt_or_ge s.length (key_size off) with hl | hl
      · refine ⟨_, _, 0, mA, mB, d + 1, ?_, lin_new_leaf off d type e K1 K2 C1 C2 mA mB s
          h1 h2 hzs hcnt2 hpw2 hs1 hs2 hl, by simp, Or.inl ⟨rfl, rfl⟩⟩
        rw [cell_loop]
        simp only [key_value_spec k hk off, hs, hscan, htv, if_false, hkid0, Bool.not_false,
          if_true, Int.natCast_nonneg, not_lt.2, Int.toNat_ofNat, Nat.mod_eq_of_lt hvlt,
          hins1, hins2, and255, (pack_mod _ s hzs hks1).2 hl]
      · obtain ⟨nw, fw, dw, hw1, hw2, hw3⟩ := hw hl
        have hnz : ¬ pack (key_size off) s % 256 = 0 := by
          rw [pack_mod _ s hzs hks1]; omega
        refine ⟨_, _, 0, mA, mB, _, ?_, lin_new_node off d dw type e K1 K2 C1 C2 mA mB s
          nw fw h1 h2 hzs hcnt2 hpw2 hs1 hs2 hl hw2, ?_, Or.inl ⟨rfl, rfl⟩⟩
        · rw [cell_loop]
          simp only [key_value_spec k hk off, hs, hscan, htv, if_false, hkid0, Bool.not_false,
            if_true, Int.natCast_nonneg, not_lt.2, Int.toNat_ofNat, Nat.mod_eq_of_lt hvlt,
            hins1, hins2, and255, hnz, hw1,
            set_mid2 e _ C1 C2 _ nw (e + K1.length) (by rw [hlen1])]
        · rw [List.length_drop] at hw3
          simp only [List.length_append, List.length_singleton]
          omega


/-! ## `judy_cell` at a radix node -/

theorem tblAt_set_eq (l : List JNode) (i : Nat) (x : JNode) (h : i < l.length) :
    tblAt (l.set i x) i = x := by
  simp [tblAt, List.getD_eq_getElem?_getD, h]

theorem tblAt_set_ne (l : List JNode) (i j : Nat) (x : JNode) (h : i ≠ j) :
    tblAt (l.set i x) j = tblAt l j := by
  simp [tblAt, List.getD_eq_getElem?_getD, List.getElem?_set_ne h]

theorem set_tblAt_self (l : List JNode) (i : Nat) (h : i < l.length) :
    l.set i (tblAt l i) = l := by
  apply List.ext_getElem?
  intro j
  by_cases hij : i = j
  · subst hij
    simp [tblAt, List.getD_eq_getElem?_getD, h]
  · rw [List.getElem?_set_ne hij]

theorem tblAt_radix_zero (i : Nat) : tblAt radix_zero i = .word 0 := by
  unfold tblAt radix_zero
  rw [List.getD_eq_getElem?_getD, List.getElem?_replicate]
  split <;> rfl

theorem nibbles_ne (b b1 : Nat) (h : b1 ≠ b) (h4 : b1 >>> 4 = b >>> 4) : b1 &&& 15 ≠ b &&& 15 := by
  rw [shr4, shr4] at h4
  rw [and15, and15]
  omega

/-- The table of a radix node after the entry for the byte `b` is replaced by `kid`, the inner
table being allocated when it was not there. -/
theorem radix_update (table inner : List JNode) (b : Nat) (hb : b < 256) (kid : JNode)
    (hok : OuterOK table (b >>> 4))
    (hin : (tblAt table (b >>> 4) = .word 0 ∧ inner = radix_zero) ∨
      tblAt table (b >>> 4) = .radix inner) :
    OuterOK (table.set (b >>> 4) (.radix (inner.set (b &&& 15) kid))) (b >>> 4) ∧
    (∃ inner1, tblAt (table.set (b >>> 4) (.radix (inner.set (b &&& 15) kid))) (b >>> 4) =
      .radix inner1) ∧
    radixAt (table.set (b >>> 4) (.radix (inner.set (b &&& 15) kid))) b = kid ∧
    (∀ b1, b1 ≠ b →
      radixAt (table.set (b >>> 4) (.radix (inner.set (b &&& 15) kid))) b1 = radixAt table b1) ∧
    tblAt inner (b &&& 15) = radixAt table b := by
  have ho : b >>> 4 < 16 := by rw [shr4]; omega
  have hl : b &&& 15 < 16 := by rw [and15]; omega
  have hil : inner.length = 16 := by
    rcases hin with ⟨_, rfl⟩ | h
    · rfl
    · rcases hok.2 _ ho with h0 | ⟨inner1, h1, h2, _⟩
      · rw [h0] at h; cases h
      · rw [h1] at h; cases h; exact h2
  have htl : b >>> 4 < table.length := by rw [hok.1]; exact ho
  refine ⟨⟨by rw [List.length_set]; exact hok.1, fun i hi => ?_⟩, ⟨_, tblAt_set_eq _ _ _ htl⟩,
    ?_, fun b1 hb1 => ?_, ?_⟩
  · by_cases hio : b >>> 4 = i
    · subst hio
      exact Or.inr ⟨_, tblAt_set_eq _ _ _ htl, by rw [List.length_set]; exact hil, Or.inl rfl⟩
    · rw [tblAt_set_ne _ _ _ _ hio]
      rcases hok.2 i hi with h0 | ⟨inner1, h1, h2, h3⟩
      · exact Or.inl h0
      · refine Or.inr ⟨inner1, h1, h2, Or.inr ?_⟩
        rcases h3 with h3 | h3
        · exact absurd h3.symm hio
        · exact h3
  · unfold radixAt
    rw [tblAt_set_eq _ _ _ htl]
    exact tblAt_set_eq _ _ _ (by rw [hil]; exact hl)
  · unfold radixAt
    by_cases h4 : b1 >>> 4 = b >>> 4
    · rw [h4, tblAt_set_eq _ _ _ htl]
      simp only
      rw [tblAt_set_ne _ _ _ _ (nibbles_ne b b1 hb1 h4).symm]
      rcases hin with ⟨h0, rfl⟩ | h
      · rw [h0, tblAt_radix_zero]
      · rw [h]
    · rw [tblAt_set_ne _ _ _ _ (Ne.symm h4)]
  · unfold radixAt
    rcases hin with ⟨h0, rfl⟩ | h
    · rw [h0, tblAt_radix_zero]
    · rw [h]

theorem radix_same (table inner : List JNode) (b : Nat) (hb : b < 256)
    (hok : OuterOK table 16) (h : tblAt table (b >>> 4) = .radix inner) :
    table.set (b >>> 4) (.radix (inner.set (b &&& 15) (radixAt table b))) = table := by
  have ho : b >>> 4 < 16 := by rw [shr4]; omega
  have hl : b &&& 15 < 16 := by rw [and15]; omega
  have hil : inner.length = 16 := by
    rcases hok.2 _ ho with h0 | ⟨inner1, h1, h2, _⟩
    · rw [h0] at h; cases h
    · rw [h1] at h; cases h; exact h2
  have hx : radixAt table b = tblAt inner (b &&& 15) := by
    unfold radixAt; rw [h]
  rw [hx, set_tblAt_self _ _ (by rw [hil]; exact hl), ← h,
    set_tblAt_self _ _ (by rw [hok.1]; exact ho)]

theorem CellOK_word0 (k : List Nat) (hk : ZF k) (hk31 : k.length < 2 ^ 31) (off fuel : Nat) (s : List Nat)
    (hs : k.drop off = s) (hoff : off ≤ k.length) : CellOK k (fuel + 1) off (.word 0) [] s := by
  obtain ⟨n1, fs, d1, h1, h2, h3⟩ := cell_word0 k hk hk31 off fuel s hs hoff
  exact ⟨n1, fs, 0, [], [], d1, h1, h2, h3, Or.inl ⟨rfl, rfl⟩⟩

theorem cell_radix (k : List Nat) (hk : ZF k) (hk31 : k.length < 2 ^ 31) (off : Nat)
    (s : List Nat) (hs : k.drop off = s)
    (hoff : off ≤ k.length) (d : Nat) (table : List JNode) (m : List Ent) (fuel : Nat)
    (hrep : Rep (d + 1) off (.radix table) m) (hfuel : 1 ≤ fuel)
    (IH : ∀ b s1, s = b :: s1 → ∀ x m1, Rep d (off + 1) x m1 →
      CellOK k fuel (off + 1) x m1 s1) :
    CellOK k (fuel + 1) off (.radix table) m s := by
  obtain ⟨hO, ms, hR, rfl, hne⟩ := hrep
  have hlen := drop_length_le k off _ hs hoff
  cases s with
  | nil =>
    have hslot : (if off < k.length then k.getD off 0 else 0) = 0 := by
      simp at hlen
      rw [if_neg (by omega)]
    have hsplit := rcat_hole ms 0 (by omega)
    have hin : ∃ inner, (tblAt table (0 >>> 4) = .word 0 ∧ inner = radix_zero) ∨
        tblAt table (0 >>> 4) = .radix inner := by
      rcases hO.2 (0 >>> 4) (by decide) with h0 | ⟨inner, h1, _, _⟩
      · exact ⟨radix_zero, Or.inl ⟨h0, rfl⟩⟩
      · exact ⟨inner, Or.inr h1⟩
    obtain ⟨inner, hin⟩ := hin
    obtain ⟨u1, u2, u3, u4, u5⟩ := radix_update table inner 0 (by omega) (radixAt table 0) (OuterOK_weaken hO) hin
    have hil : inner.length = 16 := by
      rcases hin with ⟨_, rfl⟩ | h
      · rfl
      · rcases hO.2 (0 >>> 4) (by decide) with h0 | ⟨inner1, h1, h2, _⟩
        · rw [h0] at h; cases h
        · rw [h1] at h; cases h; exact h2
    have hset : inner.set (0 &&& 15) (radixAt table 0) = inner := by
      rw [← u5]; exact set_tblAt_self _ _ (by rw [hil]; decide)
    rw [hset] at u1 u2 u3 u4
    have hloop : ∀ c, radixAt table 0 = .word c →
        cell_loop k k.length (fuel + 1) (.radix table) off =
        some (.radix (table.set (0 >>> 4) (.radix inner)),
          [⟨.radix (table.set (0 >>> 4) (.radix inner)), off, ((0 : Nat) : Int)⟩], .word c) := by
      intro c hc
      rw [cell_loop]
      simp only [hslot, if_true]
      rcases hin with ⟨h0, hi⟩ | h
      · rw [h0]; simp only; rw [← hi, u5, hc]
      · rw [h]; simp only; rw [u5, hc]
    rcases hR 0 (by omega) with ⟨hx, h0⟩ | ⟨_, v1, hv1, hx, hms⟩ | ⟨hb0, _⟩
    · refine ⟨_, _, 0, [], rcat ms 1 255, d + 1, hloop 0 hx, ?_, by simp, Or.inl ⟨rfl, ?_⟩⟩
      · refine ⟨ms, 0, by omega, u1, u2, fun b1 hb1 hne1 => ?_,
          Or.inl ⟨rfl, by rw [u3]; exact hx, rfl, rfl, rfl, rfl⟩⟩
        rw [u4 b1 hne1]; exact hR b1 hb1
      · rw [hsplit, h0]; rfl
    · have hsame : table.set (0 >>> 4) (.radix inner) = table := by
        rcases hin with ⟨h0, _⟩ | h
        · have : radixAt table 0 = .word 0 := by unfold radixAt; rw [h0]
          rw [hx] at this
          cases this
          omega
        · have := radix_same table inner 0 (by omega) hO h
          rw [hset] at this
          exact this
      refine ⟨_, _, v1, [], rcat ms 1 255, d + 1, hloop v1 hx, ?_, by simp,
        Or.inr ⟨hv1, ?_, by rw [hsame]⟩⟩
      · refine ⟨ms, 0, by omega, u1, u2, fun b1 hb1 hne1 => ?_,
          Or.inl ⟨rfl, by rw [u3]; exact hx, rfl, rfl, rfl, rfl⟩⟩
        rw [u4 b1 hne1]; exact hR b1 hb1
      · rw [hsplit, hms]; rfl
    · exact absurd rfl hb0
  | cons b s1 =>
    have hzs : ZF (b :: s1) := by rw [← hs]; exact ZF_drop off hk
    have hb0 : b ≠ 0 := by have := (hzs b (by simp)).1; omega
    have hb : b < 256 := (hzs b (by simp)).2
    have hoff1 : off < k.length := by simp at hlen; omega
    have hslot : (if off < k.length then k.getD off 0 else 0) = b := by
      rw [if_pos hoff1, ← headD_drop, hs]; rfl
    have hs1d : k.drop (off + 1) = s1 := by
      rw [← tail_drop, hs]; rfl
    have hsplit := rcat_hole ms b hb
    have hin : ∃ inner, (tblAt table (b >>> 4) = .word 0 ∧ inner = radix_zero) ∨
        tblAt table (b >>> 4) = .radix inner := by
      rcases hO.2 (b >>> 4) (by rw [shr4]; omega) with h0 | ⟨inner, h1, _, _⟩
      · exact ⟨radix_zero, Or.inl ⟨h0, rfl⟩⟩
      · exact ⟨inner, Or.inr h1⟩
    obtain ⟨inner, hin⟩ := hin
    have hchild : ∃ m1, ms b = pre [b] m1 ∧ CellOK k fuel (off + 1) (radixAt table b) m1 s1 := by
      rcases hR b hb with ⟨hx, h0⟩ | ⟨hb1, _⟩ | ⟨_, m1, hr, hms⟩
      · refine ⟨[], by rw [h0]; rfl, ?_⟩
        obtain ⟨f, rfl⟩ : ∃ f, fuel = f + 1 := ⟨fuel - 1, by omega⟩
        rw [hx]
        exact CellOK_word0 k hk hk31 (off + 1) f s1 hs1d (by omega)
      · exact absurd hb1 hb0
      · exact ⟨m1, hms, IH b s1 rfl _ m1 hr⟩
    obtain ⟨m1, hms, n1, fs, c, A1, B1, d1, hloop, hpath, hfl, hres⟩ := hchild
    obtain ⟨u1, u2, u3, u4, u5⟩ := radix_update table inner b hb n1 (OuterOK_weaken hO) hin
    have hR2 : ∀ b1, b1 < 256 → b1 ≠ b → RSlot (Rep (max d d1) (off + 1)) b1
        (radixAt (table.set (b >>> 4) (.radix (inner.set (b &&& 15) n1))) b1) (ms b1) := by
      intro b1 hb1 hne1
      rw [u4 b1 hne1]
      exact RSlot_mono (hR b1 hb1) (fun _ _ h => Rep_mono_le (le_max_left _ _) h)
    refine ⟨.radix (table.set (b >>> 4) (.radix (inner.set (b &&& 15) n1))),
      fs ++ [⟨.radix (table.set (b >>> 4) (.radix (inner.set (b &&& 15) n1))), off, (b : Int)⟩],
      c, rcat ms 0 b ++ pre [b] A1, pre [b] B1 ++ rcat ms (b + 1) (255 - b), max d d1 + 1,
      ?_, ?_, by simp at hfl ⊢; omega, ?_⟩
    · rw [cell_loop]
      simp only [hslot, hb0, if_false, if_pos hoff1]
      rcases hin with ⟨h0, hi⟩ | h
      · rw [h0]; simp only; rw [← hi, u5, hloop]
      · rw [h]; simp only; rw [u5, hloop]
    · exact ⟨ms, b, hb, u1, u2, hR2, Or.inr ⟨hb0, fs, A1, s1, B1,
        by rw [u3]; exact Path_mono_le (le_max_right _ _) hpath, rfl, rfl, rfl, rfl⟩⟩
    · rcases hres with ⟨hc, hm⟩ | ⟨hc, hm, hn⟩
      · refine Or.inl ⟨hc, ?_⟩
        rw [hsplit, hms, hm]; simp [pre_append]
      · refine Or.inr ⟨hc, ?_, ?_⟩
        · rw [hsplit, hms, hm]; simp [pre_append, pre_cons]
        · rcases hin with ⟨h0, _⟩ | h
          · have h1 : radixAt table b = .word 0 := by unfold radixAt; rw [h0]
            rw [h1] at hn
            subst hn
            have := word_nonzero c hc
            have hp := Path_Rep _ hpath hc
            exact absurd (Rep_nonzero hp) (by simp [JNode.nonzero])
          · rw [hn, radix_same table inner b hb hO h]


/-! ## `judy_splitnode`: a full linear node becomes a radix node -/

theorem getD_mid {α : Type} (A B : List α) (x z : α) (i : Nat) (hi : i = A.length) :
    (A ++ x :: B).getD i z = x := by
  subst hi
  rw [List.getD_append_right _ _ _ _ (le_refl _)]
  simp

theorem set_last_replicate {α : Type} (z x : α) (n : Nat) (G : List α) (i : Nat)
    (hi : i + 1 = n) :
    (List.replicate n z ++ G).set i x = List.replicate i z ++ x :: G := by
  subst hi
  rw [List.replicate_succ', List.append_assoc, List.set_append_right _ _ (by simp)]
  simp

theorem radix_copy_eq (ks1 newcnt : Nat) (Kd Krest : List Nat) (Cd Crest : List JNode)
    (hd : Cd.length = Kd.length) :
    ∀ (n : Nat) (Ka Kb : List Nat) (Ca Cb : List JNode) (oldkeys : List Nat)
      (oldkids : List JNode) (cnt : Nat),
      Ka.length = n → Ca.length = n → Cb.length = Kb.length → cnt = Ka.length + Kb.length →
      cnt ≤ newcnt → oldkeys = Kd ++ ((Ka ++ Kb) ++ Krest) →
      oldkids = Cd ++ ((Ca ++ Cb) ++ Crest) →
      radix_copy oldkeys oldkids Kd.length cnt newcnt ks1 n Kb.length
        (List.replicate (newcnt - Kb.length) 0 ++ Kb.map (· % 256 ^ ks1),
         List.replicate (newcnt - Kb.length) (JNode.word 0) ++ Cb) =
      (List.replicate (newcnt - cnt) 0 ++ (Ka ++ Kb).map (· % 256 ^ ks1),
       List.replicate (newcnt - cnt) (JNode.word 0) ++ (Ca ++ Cb)) := by
  intro n
  induction n with
  | zero =>
    intro Ka Kb Ca Cb oldkeys oldkids cnt ha hca _ hcnt _ _ _
    have h1 := List.length_eq_zero.1 ha
    have h2 := List.length_eq_zero.1 hca
    subst h1 h2
    simp at hcnt
    subst hcnt
    rfl
  | succ n ih =>
    intro Ka Kb Ca Cb oldkeys oldkids cnt ha hca hcb hcnt hle hk hc
    rcases List.eq_nil_or_concat Ka with h | ⟨Ka1, x, h⟩
    · subst h; simp at ha
    rcases List.eq_nil_or_concat Ca with h2 | ⟨Ca1, c, h2⟩
    · subst h2; simp at hca
    rw [List.concat_eq_append] at h h2
    subst h h2
    simp only [List.length_append, List.length_singleton] at ha hca hcnt
    rw [radix_copy]
    have hidx : Kd.length + cnt - Kb.length - 1 = Kd.length + Ka1.length := by omega
    have hx : oldkeys.getD (Kd.length + Ka1.length) 0 = x := by
      rw [hk]
      have : Kd ++ ((Ka1 ++ [x] ++ Kb) ++ Krest) = (Kd ++ Ka1) ++ x :: (Kb ++ Krest) := by simp
      rw [this]
      exact getD_mid _ _ _ _ _ (by simp)
    have hcx : kidAt oldkids (Kd.length + Ka1.length) = c := by
      rw [hc]
      have : Cd ++ ((Ca1 ++ [c] ++ Cb) ++ Crest) = (Cd ++ Ca1) ++ c :: (Cb ++ Crest) := by simp
      rw [this]
      exact getD_mid _ _ _ _ _ (by simp; omega)
    rw [hidx, hx, hcx, set_last_replicate 0 _ _ _ (newcnt - Kb.length - 1) (by omega),
      set_last_replicate (JNode.word 0) _ _ _ (newcnt - Kb.length - 1) (by omega)]
    have := ih Ka1 (x :: Kb) Ca1 (c :: Cb) oldkeys oldkids cnt (by omega) (by omega)
      (by simp [hcb]) (by simp; omega) hle (by rw [hk]; simp) (by rw [hc]; simp)
    simp only [List.length_cons, List.map_cons] at this
    rw [show newcnt - (Kb.length + 1) = newcnt - Kb.length - 1 by omega] at this
    rw [this]
    simp

theorem lin_cnt_mono6 (ks : Nat) (h1 : 2 ≤ ks) (h8 : ks ≤ 8) :
    lin_cnt 6 ks ≤ lin_cnt 6 (ks - 1) := by
  interval_cases ks <;> decide

theorem radix_type_spec (cnt ks1 : Nat) (hc : cnt ≤ lin_cnt 6 ks1) :
    ∀ n type, type + n = 6 → 1 ≤ n →
      (radix_type cnt ks1 n type).2 = lin_cnt (radix_type cnt ks1 n type).1 ks1 ∧
      1 ≤ (radix_type cnt ks1 n type).1 ∧ (radix_type cnt ks1 n type).1 ≤ 6 ∧
      cnt ≤ (radix_type cnt ks1 n type).2 := by
  intro n
  induction n with
  | zero => intro type _ h; omega
  | succ n ih =>
    intro type ht _
    rw [radix_type]
    by_cases hcond : cnt > lin_cnt (type + 1) ks1 ∧ type + 1 < JUDY_max
    · rw [if_pos hcond]
      have : type + 1 < 6 := hcond.2
      exact ih (type + 1) (by omega) (by omega)
    · rw [if_neg hcond]
      refine ⟨rfl, by simp, by simp; omega, ?_⟩
      simp only
      by_cases h6 : type + 1 < 6
      · have : ¬ cnt > lin_cnt (type + 1) ks1 := fun h => hcond ⟨h, h6⟩
        omega
      · have : type + 1 = 6 := by omega
        rw [this]; exact hc

theorem Slots.strip {R : JNode → List Ent → Prop} {ks1 b : Nat} (hb : 0 < b) :
    ∀ {K : List Nat} {C : List JNode} {m : List Ent}, Slots R (ks1 + 1) K C m →
      (∀ x ∈ K, x / 256 ^ ks1 = b) →
      ∃ m1, m = pre [b] m1 ∧ Slots R ks1 (K.map (· % 256 ^ ks1)) C m1 := by
  intro K C m h
  induction h with
  | nil => intro _; exact ⟨[], rfl, Slots.nil⟩
  | @leaf p v keys kids m hp hl hv _ ih =>
    intro hx
    obtain ⟨m1, rfl, hs⟩ := ih (fun x h => hx x (List.mem_cons_of_mem _ h))
    have h0 := hx _ (List.mem_cons_self _ _)
    rw [pack_div _ _ hp] at h0
    cases p with
    | nil => simp at h0; omega
    | cons c p1 =>
      simp at h0
      subst h0
      refine ⟨(p1, v) :: m1, rfl, ?_⟩
      rw [List.map_cons, pack_mod_pow _ _ hp]
      exact Slots.leaf (ZF_cons.1 hp).2 (Nat.lt_of_succ_lt_succ hl) hv hs
  | @node p kid m2 keys kids m hp hl hr _ ih =>
    intro hx
    obtain ⟨m1, rfl, hs⟩ := ih (fun x h => hx x (List.mem_cons_of_mem _ h))
    have h0 := hx _ (List.mem_cons_self _ _)
    rw [pack_div _ _ hp] at h0
    cases p with
    | nil => simp at h0; omega
    | cons c p1 =>
      simp at h0
      subst h0
      refine ⟨pre p1 m2 ++ m1, by simp [pre], ?_⟩
      rw [List.map_cons, pack_mod_pow _ _ hp]
      exact Slots.node (ZF_cons.1 hp).2 (Nat.succ.inj hl) hr hs

theorem pairwise_strip (ks1 b : Nat) (K : List Nat) (hp : K.Pairwise (· < ·))
    (hx : ∀ x ∈ K, x / 256 ^ ks1 = b) : (K.map (· % 256 ^ ks1)).Pairwise (· < ·) := by
  rw [List.pairwise_map]
  refine hp.imp_of_mem ?_
  intro x y hxm hym hlt
  have h1 := hx x hxm
  have h2 := hx y hym
  have e1 := Nat.div_add_mod x (256 ^ ks1)
  have e2 := Nat.div_add_mod y (256 ^ ks1)
  rw [h1] at e1
  rw [h2] at e2
  omega

theorem key_size_succ (off : Nat) (h : 2 ≤ key_size off) :
    key_size (off + 1) = key_size off - 1 := by
  rw [key_size_eq] at h ⊢
  rw [key_size_eq]
  omega

theorem key_size_one (off : Nat) (h : key_size off = 1) : key_size (off + 1) = 8 := by
  rw [key_size_eq] at h ⊢
  omega

theorem radix_put (d off : Nat) (T inner : List JNode) (ms : Nat → List Ent) (b : Nat) (x : JNode)
    (mr : List Ent) (hb : b < 256) (hO : OuterOK T 16)
    (hR : ∀ b1, b1 < 256 → RSlot (Rep (d + 1) (off + 1)) b1 (radixAt T b1) (ms b1))
    (hin : (tblAt T (b >>> 4) = .word 0 ∧ inner = radix_zero) ∨ tblAt T (b >>> 4) = .radix inner)
    (hx : RSlot (Rep (d + 1) (off + 1)) b x mr) (hnz : x.nonzero = true) :
    OuterOK (T.set (b >>> 4) (.radix (inner.set (b &&& 15) x))) 16 ∧
    ∀ b1, b1 < 256 → RSlot (Rep (d + 1) (off + 1)) b1
      (radixAt (T.set (b >>> 4) (.radix (inner.set (b &&& 15) x))) b1)
      (if b1 = b then mr else ms b1) := by
  obtain ⟨u1, _, u3, u4, _⟩ := radix_update T inner b hb x (OuterOK_weaken hO) hin
  refine ⟨OuterOK_fill hb u1 (by rw [u3]; exact hnz), fun b1 hb1 => ?_⟩
  by_cases h : b1 = b
  · subst h
    rw [if_pos rfl, u3]
    exact hx
  · rw [if_neg h, u4 b1 h]
    exact hR b1 hb1

theorem judy_radix_spec (d off : Nat) (Kd Kr Krest : List Nat) (Cd Cr Crest : List JNode)
    (mr : List Ent) (T : List JNode) (ms : Nat → List Ent) (b : Nat)
    (oldkeys : List Nat) (oldkids : List JNode)
    (hk : oldkeys = Kd ++ (Kr ++ Krest)) (hc : oldkids = Cd ++ (Cr ++ Crest))
    (hd : Cd.length = Kd.length)
    (hs : Slots (Rep d (off + key_size off)) (key_size off) Kr Cr mr)
    (hne : Kr ≠ []) (hpw : Kr.Pairwise (· < ·))
    (hb : ∀ x ∈ Kr, x / 256 ^ (key_size off - 1) = b)
    (hcnt : Kr.length ≤ lin_cnt 6 (key_size off))
    (hO : OuterOK T 16)
    (hR : ∀ b1, b1 < 256 → RSlot (Rep (d + 1) (off + 1)) b1 (radixAt T b1) (ms b1)) :
    ∃ T1, judy_radix T oldkeys oldkids Kd.length (Kd.length + Kr.length) (key_size off - 1)
        (b % 256) = some T1 ∧ OuterOK T1 16 ∧
      ∀ b1, b1 < 256 → RSlot (Rep (d + 1) (off + 1)) b1 (radixAt T1 b1)
        (if b1 = b then mr else ms b1) := by
  have hks1 := key_size_pos off
  have hks8 := key_size_le off
  obtain ⟨ks1, hks⟩ : ∃ ks1, key_size off = ks1 + 1 := ⟨key_size off - 1, by omega⟩
  rw [hks] at hs hb hcnt ⊢
  simp only [Nat.add_sub_cancel] at hb ⊢
  have hlen := hs.length_eq
  cases Kr with
  | nil => exact absurd rfl hne
  | cons x Kr1 =>
    obtain ⟨p, c, C1, m1, hxp, rfl, hp, hs1, hcase⟩ := hs.cons_inv
    have hxb := hb x (List.mem_cons_self _ _)
    have hhead : p.headD 0 = b := by rw [← hxb, hxp, pack_div _ _ hp]
    have hb256 : b < 256 := by
      rw [← hhead]
      cases p with
      | nil => simp
      | cons q p1 => exact ((ZF_cons.1 hp).1).2
    rw [Nat.mod_eq_of_lt hb256]
    have hin : ∃ inner, (tblAt T (b >>> 4) = .word 0 ∧ inner = radix_zero) ∨
        tblAt T (b >>> 4) = .radix inner := by
      rcases hO.2 (b >>> 4) (by rw [shr4]; omega) with h0 | ⟨inner, h1, _, _⟩
      · exact ⟨radix_zero, Or.inl ⟨h0, rfl⟩⟩
      · exact ⟨inner, Or.inr h1⟩
    obtain ⟨inner, hin⟩ := hin
    have hkid : kidAt oldkids Kd.length = c := by
      rw [hc]
      exact getD_mid _ _ _ _ _ hd.symm
    have hleaf : ∀ T1, T1 = T.set (b >>> 4) (.radix (inner.set (b &&& 15) c)) →
        b = 0 ∨ ks1 = 0 →
        judy_radix T oldkeys oldkids Kd.length (Kd.length + (x :: Kr1).length) ks1 b =
          some T1 := by
      intro T1 hT1 h0
      unfold judy_radix
      rcases hin with ⟨h0i, hi⟩ | h
      · rw [h0i]; simp only [h0, if_true, hkid, hi, hT1]
      · rw [h]; simp only [h0, if_true, hkid, hT1]
    have hsingle : b = 0 ∨ ks1 = 0 → Kr1 = [] := by
      intro h0
      cases Kr1 with
      | nil => rfl
      | cons y Kr2 =>
        exfalso
        have hlt : x < y := (List.pairwise_cons.1 hpw).1 y (List.mem_cons_self _ _)
        have hyb := hb y (by simp)
        obtain ⟨q, _, _, _, hyq, _, hq, _, _⟩ := hs1.cons_inv
        rcases h0 with h0 | h0
        · subst h0
          have hp0 : p = [] := by
            cases p with
            | nil => rfl
            | cons a p1 => simp at hhead; have := ((ZF_cons.1 hp).1).1; omega
          have hq0 : q = [] := by
            rw [hyq, pack_div _ _ hq] at hyb
            cases q with
            | nil => rfl
            | cons a q1 => simp at hyb; have := ((ZF_cons.1 hq).1).1; omega
          rw [hxp, hyq, hp0, hq0] at hlt
          exact absurd hlt (lt_irrefl _)
        · subst h0
          simp at hxb hyb
          omega
    by_cases h0 : b = 0 ∨ ks1 = 0
    · have hk1 := hsingle h0
      subst hk1
      obtain ⟨rfl, rfl⟩ := hs1.nil_inv
      have hx : RSlot (Rep (d + 1) (off + 1)) b c mr ∧ c.nonzero = true := by
        rcases hcase with ⟨hl, v, hv, rfl, rfl⟩ | ⟨hl, m2, hr, rfl⟩
        · have hp0 : p = [] := by
            rcases h0 with h0 | h0
            · cases p with
              | nil => rfl
              | cons a p1 =>
                simp at hhead; have := ((ZF_cons.1 hp).1).1; omega
            · subst h0; simp at hl; exact hl
          subst hp0
          simp at hhead
          subst hhead
          exact ⟨Or.inr (Or.inl ⟨rfl, v, hv, rfl, rfl⟩), word_nonzero v hv⟩
        · have hb0 : b ≠ 0 := by
            cases p with
            | nil => simp at hl
            | cons a p1 => simp at hhead; have := ((ZF_cons.1 hp).1).1; omega
          have hk0 : ks1 = 0 := by
            rcases h0 with h0 | h0
            · exact absurd h0 hb0
            · exact h0
          subst hk0
          have hp1 : p = [b] := by
            cases p with
            | nil => simp at hl
            | cons a p1 =>
              simp at hhead hl
              subst hhead hl
              rfl
          subst hp1
          exact ⟨Or.inr (Or.inr ⟨hb0, m2, Rep_mono _ hr, by simp⟩), Rep_nonzero hr⟩
      obtain ⟨v1, v2⟩ := radix_put d off T inner ms b c mr hb256 hO hR hin hx.1 hx.2
      exact ⟨_, hleaf _ rfl h0, v1, v2⟩
    · have hb0 : b ≠ 0 := fun h => h0 (Or.inl h)
      have hk0 : ks1 ≠ 0 := fun h => h0 (Or.inr h)
      have hsz : key_size (off + 1) = ks1 := by
        rw [key_size_succ off (by omega), hks]; rfl
      obtain ⟨t1, t2, t3, t4⟩ := radix_type_spec (x :: Kr1).length ks1
        (le_trans hcnt (by
          have := lin_cnt_mono6 (ks1 + 1) (by omega) (by omega)
          simpa using this)) 6 0 rfl (by omega)
      have hs0 : Slots (Rep d (off + (ks1 + 1))) (ks1 + 1) (x :: Kr1) (c :: C1) mr := by
        rw [hxp]
        rcases hcase with ⟨hl, v, hv, rfl, rfl⟩ | ⟨hl, m2, hr, rfl⟩
        · exact Slots.leaf hp hl hv hs1
        · exact Slots.node hp hl hr hs1
      obtain ⟨mr1, hmr, hstrip⟩ := Slots.strip (Nat.pos_of_ne_zero hb0) hs0 hb
      have hcopy := radix_copy_eq ks1 (radix_type (x :: Kr1).length ks1 6 0).2 Kd Krest Cd
        Crest hd (x :: Kr1).length (x :: Kr1) [] (c :: C1) [] oldkeys oldkids (x :: Kr1).length
        rfl hlen.symm rfl (by simp) t4 (by rw [hk]; simp)
        (by rw [hc]; simp)
      simp only [List.length_nil, Nat.sub_zero, List.map_nil, List.append_nil] at hcopy
      have hrep : Rep (d + 1) (off + 1) (.lin (radix_type (x :: Kr1).length ks1 6 0).1
          (List.replicate ((radix_type (x :: Kr1).length ks1 6 0).2 - (x :: Kr1).length) 0 ++
            (x :: Kr1).map (· % 256 ^ ks1))
          (List.replicate ((radix_type (x :: Kr1).length ks1 6 0).2 - (x :: Kr1).length)
            (JNode.word 0) ++ (c :: C1))) mr1 := by
        refine ⟨_, _, _, t2, t3, rfl, rfl, ?_, by simp, ?_, ?_⟩
        · rw [hsz, ← t1]
          simp only [List.length_map]
          omega
        · exact pairwise_strip ks1 b _ hpw hb
        · rw [hsz]
          have : off + 1 + ks1 = off + (ks1 + 1) := by omega
          rw [this]
          exact hstrip
      obtain ⟨v1, v2⟩ := radix_put d off T inner ms b _ mr hb256 hO hR hin
        (Or.inr (Or.inr ⟨hb0, mr1, hrep, hmr⟩)) (Rep_nonzero hrep)
      refine ⟨_, ?_, v1, v2⟩
      unfold judy_radix
      have hsub : Kd.length + (x :: Kr1).length - Kd.length = (x :: Kr1).length := by omega
      rcases hin with ⟨h0i, hi⟩ | h
      · rw [h0i]
        simp only [h0, if_false, hsub, JUDY_1, Nat.sub_self,
          if_neg (by omega : ¬ (radix_type (x :: Kr1).length ks1 6 0).2 < (x :: Kr1).length),
          hcopy, hi]
      · rw [h]
        simp only [h0, if_false, hsub, JUDY_1, Nat.sub_self,
          if_neg (by omega : ¬ (radix_type (x :: Kr1).length ks1 6 0).2 < (x :: Kr1).length),
          hcopy]

theorem rcat_nil (ms : Nat → List Ent) (n : Nat) :
    ∀ lo, (∀ i, lo ≤ i → ms i = []) → rcat ms lo n = [] := by
  induction n with
  | zero => intro lo _; rfl
  | succ n ih =>
    intro lo h
    rw [rcat, h lo (le_refl _), ih (lo + 1) (fun i hi => h i (by omega))]
    rfl

theorem rcat_put (ms : Nat → List Ent) (b : Nat) (x : List Ent) (hb : b < 256)
    (h : ∀ i, b ≤ i → ms i = []) :
    rcat (fun i => if i = b then x else ms i) 0 256 = rcat ms 0 256 ++ x := by
  rw [rcat_update ms b x hb, rcat_hole ms b hb, h b (le_refl _),
    rcat_nil ms (255 - b) (b + 1) (fun i hi => h i (by omega))]
  simp

theorem top_byte (x ks : Nat) (h1 : 1 ≤ ks) (hx : x < 256 ^ ks) :
    (x >>> (8 * (ks - 1))) &&& 255 = x / 256 ^ (ks - 1) := by
  rw [byte_at]
  apply Nat.mod_eq_of_lt
  rw [Nat.div_lt_iff_lt_mul (by positivity)]
  calc x < 256 ^ ks := hx
    _ = 256 ^ (ks - 1 + 1) := by rw [Nat.sub_add_cancel h1]
    _ = 256 * 256 ^ (ks - 1) := by rw [pow_succ]; ring

theorem top_byte_lt (x ks : Nat) (h1 : 1 ≤ ks) (hx : x < 256 ^ ks) :
    x / 256 ^ (ks - 1) < 256 := by
  rw [Nat.div_lt_iff_lt_mul (by positivity)]
  calc x < 256 ^ ks := hx
    _ = 256 ^ (ks - 1 + 1) := by rw [Nat.sub_add_cancel h1]
    _ = 256 * 256 ^ (ks - 1) := by rw [pow_succ]; ring

theorem Slots.single {R : JNode → List Ent → Prop} {ks x : Nat} {K : List Nat}
    {C : List JNode} {m : List Ent} (h : Slots R ks (x :: K) C m) :
    ∃ c C1 my m1, C = c :: C1 ∧ m = my ++ m1 ∧ Slots R ks [x] [c] my ∧ Slots R ks K C1 m1 := by
  obtain ⟨p, c, C1, m1, hxp, rfl, hp, hs1, hcase⟩ := h.cons_inv
  subst hxp
  rcases hcase with ⟨hl, v, hv, rfl, rfl⟩ | ⟨hl, m2, hr, rfl⟩
  · exact ⟨_, C1, [(p, v)], m1, rfl, rfl, Slots.leaf hp hl hv Slots.nil, hs1⟩
  · refine ⟨_, C1, pre p m2, m1, rfl, rfl, ?_, hs1⟩
    have := Slots.node hp hl hr (@Slots.nil R ks)
    simpa using this

theorem splitnode_loop_spec (d off : Nat) (oldkeys : List Nat) (oldkids : List JNode)
    (hpw : oldkeys.Pairwise (· < ·)) (hcnt : oldkeys.length ≤ lin_cnt 6 (key_size off)) :
    ∀ (Krest Kd Kr : List Nat) (Cd Cr Crest : List JNode) (md mr mrest : List Ent)
      (T : List JNode) (ms : Nat → List Ent) (key : Nat),
      oldkeys = Kd ++ (Kr ++ Krest) → oldkids = Cd ++ (Cr ++ Crest) →
      Slots (Rep d (off + key_size off)) (key_size off) Kd Cd md →
      Slots (Rep d (off + key_size off)) (key_size off) Kr Cr mr →
      Slots (Rep d (off + key_size off)) (key_size off) Krest Crest mrest →
      Kr ≠ [] → (∀ x ∈ Kr, x / 256 ^ (key_size off - 1) = key) →
      OuterOK T 16 →
      (∀ b1, b1 < 256 → RSlot (Rep (d + 1) (off + 1)) b1 (radixAt T b1) (ms b1)) →
      (∀ b1, key ≤ b1 → ms b1 = []) → rcat ms 0 256 = md →
      ∃ start1 key1 T1 T2 ms2,
        splitnode_loop oldkeys oldkids (key_size off) Krest.length (Kd.length + Kr.length)
          Kd.length key T = some (start1, key1, T1) ∧
        judy_radix T1 oldkeys oldkids start1 oldkeys.length (key_size off - 1) (key1 % 256) =
          some T2 ∧
        OuterOK T2 16 ∧
        (∀ b1, b1 < 256 → RSlot (Rep (d + 1) (off + 1)) b1 (radixAt T2 b1) (ms2 b1)) ∧
        rcat ms2 0 256 = md ++ (mr ++ mrest) := by
  have hks1 := key_size_pos off
  intro Krest
  induction Krest with
  | nil =>
    intro Kd Kr Cd Cr Crest md mr mrest T ms key hk hc hsd hsr hsrest hne hkey hO hR hfree hcat
    obtain ⟨rfl, rfl⟩ := hsrest.nil_inv
    have hpr : Kr.Pairwise (· < ·) := by
      rw [hk] at hpw
      simp only [List.append_nil] at hpw
      exact (List.pairwise_append.1 hpw).2.1
    have hkb : key < 256 := by
      cases Kr with
      | nil => exact absurd rfl hne
      | cons x Kr1 =>
        rw [← hkey x (List.mem_cons_self _ _)]
        exact top_byte_lt x _ hks1 (hsr.key_lt x (List.mem_cons_self _ _))
    obtain ⟨T2, h1, h2, h3⟩ := judy_radix_spec d off Kd Kr [] Cd Cr [] mr T ms key oldkeys oldkids
      hk hc hsd.length_eq.symm hsr hne hpr hkey
      (le_trans (by rw [hk]; simp) hcnt) hO hR
    refine ⟨Kd.length, key, T, T2, _, rfl, ?_, h2, h3, ?_⟩
    · rw [← h1, hk]; simp
    · rw [rcat_put ms key mr hkb hfree, hcat]; simp
  | cons y Krest1 ih =>
    intro Kd Kr Cd Cr Crest md mr mrest T ms key hk hc hsd hsr hsrest hne hkey hO hR hfree hcat
    obtain ⟨cy, Crest1, my, mrest1, rfl, rfl, hsy, hsrest1⟩ := hsrest.single
    have hylt := hsrest.key_lt y (List.mem_cons_self _ _)
    have hkb : key < 256 := by
      cases Kr with
      | nil => exact absurd rfl hne
      | cons x Kr1 =>
        rw [← hkey x (List.mem_cons_self _ _)]
        exact top_byte_lt x _ hks1 (hsr.key_lt x (List.mem_cons_self _ _))
    have hget : oldkeys.getD (Kd.length + Kr.length) 0 = y := by
      rw [hk]
      have : Kd ++ (Kr ++ y :: Krest1) = (Kd ++ Kr) ++ y :: Krest1 := by simp
      rw [this]
      exact getD_mid _ _ _ _ _ (by simp)
    have hle : key ≤ y / 256 ^ (key_size off - 1) := by
      cases Kr with
      | nil => exact absurd rfl hne
      | cons x Kr1 =>
        rw [← hkey x (List.mem_cons_self _ _)]
        apply Nat.div_le_div_right
        rw [hk] at hpw
        have h1 := (List.pairwise_append.1 hpw).2.1
        have h2 := (List.pairwise_append.1 h1).2.2 x (List.mem_cons_self _ _) y
          (List.mem_cons_self _ _)
        omega
    rw [List.length_cons, splitnode_loop]
    simp only [hget, top_byte y _ hks1 hylt, if_neg (by omega : ¬ key > 255)]
    by_cases heq : y / 256 ^ (key_size off - 1) = key
    · rw [if_pos heq]
      have := ih Kd (Kr ++ [y]) Cd (Cr ++ [cy]) Crest1 md (mr ++ my) mrest1 T ms key
        (by rw [hk]; simp) (by rw [hc]; simp) hsd (hsr.append hsy) hsrest1 (by simp)
        (by
          intro x hx
          rcases List.mem_append.1 hx with h | h
          · exact hkey x h
          · simp at h; subst h; exact heq)
        hO hR hfree hcat
      simp only [List.length_append, List.length_singleton, List.append_assoc] at this
      rw [← Nat.add_assoc] at this
      exact this
    · rw [if_neg heq]
      have hpr : Kr.Pairwise (· < ·) := by
        rw [hk] at hpw
        exact (List.pairwise_append.1 (List.pairwise_append.1 hpw).2.1).1
      obtain ⟨T1, h1, h2, h3⟩ := judy_radix_spec d off Kd Kr (y :: Krest1) Cd Cr (cy :: Crest1)
        mr T ms key oldkeys oldkids hk hc hsd.length_eq.symm hsr hne hpr hkey
        (le_trans (by rw [hk]; simp; omega) hcnt) hO hR
      rw [h1]
      have := ih (Kd ++ Kr) [y] (Cd ++ Cr) [cy] Crest1 (md ++ mr) my mrest1 T1
        (fun i => if i = key then mr else ms i) (y / 256 ^ (key_size off - 1))
        (by rw [hk]; simp) (by rw [hc]; simp) (hsd.append hsr) hsy hsrest1 (by simp)
        (by intro x hx; simp at hx; subst hx; rfl) h2 h3
        (by
          intro b1 hb1
          have : b1 ≠ key := by omega
          simp only [if_neg this]
          exact hfree b1 (by omega))
        (by rw [rcat_put ms key mr hkb hfree, hcat])
      simp only [List.length_append, List.length_singleton, List.append_assoc] at this
      exact this

theorem splitnode_spec (d off : Nat) (keys : List Nat) (kids : List JNode) (m : List Ent)
    (hpw : keys.Pairwise (· < ·)) (hcnt : keys.length = lin_cnt 6 (key_size off))
    (hs : Slots (Rep d (off + key_size off)) (key_size off) keys kids m) :
    ∃ T, judy_splitnode (.lin 6 keys kids) (JudySize 6) (key_size off) = some (.radix T) ∧
      Rep (d + 2) off (.radix T) m := by
  have hks1 := key_size_pos off
  have hks8 := key_size_le off
  have hpos := lin_cnt_pos 6 (key_size off) (by omega) (by omega) hks8
  cases keys with
  | nil => simp at hcnt; omega
  | cons x K =>
    obtain ⟨c, C1, mx, m1, rfl, rfl, hsx, hs1⟩ := hs.single
    have hxlt := hs.key_lt x (List.mem_cons_self _ _)
    obtain ⟨start1, key1, T1, T2, ms2, h1, h2, h3, h4, h5⟩ :=
      splitnode_loop_spec d off (x :: K) (c :: C1) hpw (le_of_eq hcnt) K [] [x] [] [c] C1 []
        mx m1 radix_zero (fun _ => []) (x / 256 ^ (key_size off - 1)) rfl rfl Slots.nil hsx hs1
        (by simp) (by intro y hy; simp at hy; subst hy; rfl)
        ⟨rfl, fun i _ => Or.inl (tblAt_radix_zero i)⟩
        (fun b1 _ => Or.inl ⟨by unfold radixAt; rw [tblAt_radix_zero], rfl⟩)
        (fun _ _ => rfl) (rcat_nil _ 256 0 (fun _ _ => rfl))
    refine ⟨T2, ?_, h3, ms2, h4, by rw [h5]; rfl, ?_⟩
    · unfold judy_splitnode
      have hc : JudySize 6 / (JUDY_slot_size + key_size off) = K.length + 1 := by
        rw [← List.length_cons x K, hcnt]; rfl
      simp only [hc]
      rw [splitnode_loop]
      simp only [List.getD_cons_zero, top_byte x _ hks1 hxlt,
        if_pos (by decide : 256 > 255), if_true]
      simp only [List.length_nil, List.length_singleton, Nat.zero_add] at h1
      rw [h1]
      simp only [List.length_cons] at h2
      simp only [h2]
    · have := @Rep_ne_nil (d + 1) off (.lin 6 (x :: K) (c :: C1))
        (mx ++ m1) ⟨0, x :: K, c :: C1, by omega, by omega, rfl, rfl, by
          simpa using hcnt, by simp, hpw, (hs.mono (fun _ _ h => h))⟩
      simpa using this


/-! ## `judy_cell` at any node -/

theorem cell_lin (k : List Nat) (hk : ZF k) (hk31 : k.length < 2 ^ 31) (off : Nat) (s : List Nat)
    (hs : k.drop off = s)
    (hoff : off ≤ k.length) (d type : Nat) (keys : List Nat) (kids : List JNode) (m : List Ent)
    (fuel : Nat) (hrep : Rep (d + 1) off (.lin type keys kids) m) (hfuel : 1 ≤ fuel)
    (IH : key_size off ≤ s.length → ∀ n1 m1 d1, Rep d1 (off + key_size off) n1 m1 →
      CellOK k fuel (off + key_size off) n1 m1 (s.drop (key_size off)))
    (IHr : type = 6 → ∀ T d1, Rep d1 off (.radix T) m → CellOK k fuel off (.radix T) m s) :
    CellOK k (fuel + 1) off (.lin type keys kids) m s := by
  obtain ⟨e, pkeys, pkids, h1, h2, rfl, rfl, hcnt, hne, hpw, hslots⟩ := hrep
  obtain ⟨K1, K2, rfl, hK1, hK2⟩ := split_at_value pkeys (pack (key_size off) s) hpw
  obtain ⟨C1, C2, mA, m2, rfl, rfl, hs1, hs2⟩ := Slots.split K1 hslots
  have hmiss : (∀ b ∈ K2, pack (key_size off) s < b) →
      CellOK k (fuel + 1) off (.lin type (List.replicate e 0 ++ (K1 ++ K2))
        (List.replicate e (JNode.word 0) ++ (C1 ++ C2))) (mA ++ m2) s := by
    intro hK2s
    refine cell_lin_miss k hk hk31 off s hs hoff d type e K1 K2 C1 C2 mA m2 fuel _ _ rfl rfl h1 h2
      hfuel (by simpa using hcnt) hne hpw hK1 hK2s hs1 hs2 ?_
    intro he ht
    subst he ht
    simp only [List.replicate_zero, List.nil_append] at hcnt ⊢
    obtain ⟨T, hT1, hT2⟩ := splitnode_spec d off (K1 ++ K2) (C1 ++ C2) (mA ++ m2) hpw
      (by simp at hcnt ⊢; omega) (hs1.append hs2)
    exact ⟨_, hT1, IHr rfl T _ hT2⟩
  cases K2 with
  | nil => exact hmiss (by simp)
  | cons y K3 =>
    rcases Nat.lt_or_ge (pack (key_size off) s) y with hy | hy
    · apply hmiss
      intro b hb
      rcases List.mem_cons.1 hb with rfl | hb
      · exact hy
      · have := (List.pairwise_cons.1 (List.pairwise_append.1 hpw).2.1).1 b hb
        omega
    · have hyv : y = pack (key_size off) s := by
        have := hK2 y (List.mem_cons_self _ _)
        omega
      subst hyv
      exact cell_lin_hit k hk off s hs d type e K1 K3 C1 C2 mA m2 fuel h1 h2
        (by simp at hcnt ⊢; omega) hpw hs1 hs2 IH

theorem headD_zeros (z : Nat) : (List.replicate z 0).headD 0 = 0 := by
  cases z <;> rfl

theorem strncmp_eq_iff (z : Nat) : ∀ (n : Nat) (p s : List Nat), ZF p → ZF s →
    (strncmp_eq (p ++ List.replicate z 0) s n = true ↔ p.take n = s.take n) := by
  intro n
  induction n with
  | zero => intro p s _ _; simp [strncmp_eq]
  | succ n ih =>
    intro p s hp hs
    cases p with
    | nil =>
      cases s with
      | nil =>
        simp only [strncmp_eq, List.nil_append, headD_zeros, List.headD_nil]
        simp
      | cons c s1 =>
        have hc := (ZF_cons.1 hs).1
        simp only [strncmp_eq, List.nil_append, headD_zeros, List.headD_cons]
        rw [if_pos (by omega)]
        simp
    | cons a p1 =>
      have ha := (ZF_cons.1 hp).1
      cases s with
      | nil =>
        simp only [strncmp_eq, List.cons_append, List.headD_cons, List.headD_nil]
        rw [if_pos (by omega)]
        simp
      | cons c s1 =>
        simp only [strncmp_eq, List.cons_append, List.headD_cons, List.tail_cons, List.take_succ_cons]
        by_cases hac : a = c
        · subst hac
          rw [if_neg (by simp), if_neg (by omega), ih p1 s1 (ZF_cons.1 hp).2 (ZF_cons.1 hs).2]
          simp
        · rw [if_pos hac]
          simp [hac]

theorem pack_zeros (z : Nat) : ∀ (n : Nat) (q : List Nat),
    pack n (q ++ List.replicate z 0) = pack n q := by
  intro n
  induction n generalizing z with
  | zero => intro q; rfl
  | succ n ih =>
    intro q
    cases q with
    | nil =>
      cases z with
      | zero => rfl
      | succ z =>
        have := ih z []
        simp only [List.nil_append] at this
        simp [pack, List.replicate_succ, this, pack_nil]
    | cons a q1 =>
      simp only [List.cons_append, pack_cons, ih z q1]

theorem span_key_eq (base : List Nat) (off : Nat) :
    ∀ (ks pos : Nat), span_key base off ks pos = pack ks (base.drop off) * 256 ^ pos := by
  intro ks
  induction ks with
  | zero => intro pos; simp [span_key, pack]
  | succ ks ih =>
    intro pos
    rw [span_key, ih, pack_snoc]
    have : base.getD (off + ks) 0 = (base.drop off).getD ks 0 := by
      rw [List.getD_eq_getElem?_getD, List.getD_eq_getElem?_getD, List.getElem?_drop]
    rw [this, pow_succ]
    ring

theorem key_size_aligned (off : Nat) (h : off % 8 = 0) : key_size off = 8 := by
  rw [key_size_eq]; omega

theorem lin1_rep (d off : Nat) (hal : off % 8 = 0) (q : List Nat) (hq : ZF q) (kid : JNode)
    (mq : List Ent)
    (h : (q.length < 8 ∧ ∃ v, 0 < v ∧ kid = .word v ∧ mq = [(q, v)]) ∨
      (q.length = 8 ∧ ∃ m1, Rep d (off + 8) kid m1 ∧ mq = pre q m1)) :
    Rep (d + 1) off (.lin JUDY_1 [pack 8 q] [kid]) mq := by
  have hks := key_size_aligned off hal
  refine ⟨0, [pack 8 q], [kid], by decide, by decide, rfl, rfl, by rw [hks]; rfl, by simp,
    by simp, ?_⟩
  rw [hks]
  rcases h with ⟨hl, v, hv, rfl, rfl⟩ | ⟨hl, m1, hr, rfl⟩
  · exact Slots.leaf hq hl hv Slots.nil
  · have := Slots.node hq hl hr (@Slots.nil (Rep d (off + 8)) 8)
    simpa using this

theorem splitspan_rep (d off : Nat) (hal : off % 8 = 0) (base : List Nat) (kid : JNode) :
    ∀ (n j : Nat) (q : List Nat) (mq : List Ent), ZF q → q.length ≤ 8 * (n + 1) → j % 8 = 0 →
      base.drop j = q ++ List.replicate (8 * (n + 1) - q.length) 0 →
      ((q.length < 8 * (n + 1) ∧ ∃ v, 0 < v ∧ kid = .word v ∧ mq = [(q, v)]) ∨
       (q.length = 8 * (n + 1) ∧ ∃ m1, Rep d (off + j + 8 * (n + 1)) kid m1 ∧ mq = pre q m1)) →
      Rep (d + (n + 1)) (off + j) (splitspan_loop base kid (n + 1) (8 * (n + 1)) j) mq := by
  intro n
  induction n with
  | zero =>
    intro j q mq hq hl hj hb h
    rw [splitspan_loop]
    have hkey : span_key base j JUDY_key_size 0 = pack 8 q := by
      rw [span_key_eq, hb, pack_zeros]; simp [JUDY_key_size]
    simp only [hkey, JUDY_key_size]
    rw [if_neg (by simp)]
    exact lin1_rep d (off + j) (by omega) q hq kid mq h
  | succ n ih =>
    intro j q mq hq hl hj hb h
    rw [splitspan_loop]
    have hkey : span_key base j JUDY_key_size 0 = pack 8 q := by
      rw [span_key_eq, hb, pack_zeros]; simp [JUDY_key_size]
    have hget : base.getD (j + 8 - 1) 0 = (q ++ List.replicate (8 * (n + 1 + 1) - q.length) 0).getD 7 0 := by
      rw [← hb, List.getD_eq_getElem?_getD, List.getD_eq_getElem?_getD, List.getElem?_drop]
      congr 2
    simp only [hkey, JUDY_key_size, hget]
    rcases Nat.lt_or_ge q.length 8 with h8 | h8
    · have hz : (q ++ List.replicate (8 * (n + 1 + 1) - q.length) 0).getD 7 0 = 0 := by
        rw [List.getD_append_right _ _ _ _ (by omega)]
        simp [List.getD_eq_getElem?_getD, List.getElem?_replicate]
        split <;> rfl
      rw [if_neg (fun h => h.2 hz)]
      apply Rep_mono_le (show d + 1 ≤ d + (n + 1 + 1) by omega)
      refine lin1_rep d (off + j) (by omega) q hq kid mq (Or.inl ⟨h8, ?_⟩)
      rcases h with ⟨_, h⟩ | ⟨hl2, _⟩
      · exact h
      · omega
    · have hnz : (q ++ List.replicate (8 * (n + 1 + 1) - q.length) 0).getD 7 0 ≠ 0 := by
        rw [List.getD_append _ _ _ _ (by omega)]
        have := getD_pos q hq 7 (by omega)
        omega
      rw [if_pos ⟨by omega, hnz⟩]
      have hsub : 8 * (n + 1 + 1) - 8 = 8 * (n + 1) := by omega
      rw [hsub]
      have hq2 : ZF (q.drop 8) := ZF_drop 8 hq
      have hrec := ih (j + 8) (q.drop 8) (mq.map (fun e => (e.1.drop 8, e.2))) hq2
        (by rw [List.length_drop]; omega) (by omega)
        (by
          rw [← List.drop_drop, hb, List.drop_append_of_le_length (by omega), List.length_drop]
          congr 2
          omega)
        (by
          rcases h with ⟨hl2, v, hv, rfl, rfl⟩ | ⟨hl2, m1, hr, rfl⟩
          · exact Or.inl ⟨by rw [List.length_drop]; omega, v, hv, rfl, rfl⟩
          · refine Or.inr ⟨by rw [List.length_drop]; omega, m1, ?_, ?_⟩
            · have : off + (j + 8) + 8 * (n + 1) = off + j + 8 * (n + 1 + 1) := by omega
              rw [this]; exact hr
            · simp only [pre, List.map_map]
              apply List.map_congr_left
              intro e _
              simp [List.drop_append_of_le_length (by omega : 8 ≤ q.length)])
      have hmq : mq = pre (q.take 8) (mq.map (fun e => (e.1.drop 8, e.2))) := by
        rcases h with ⟨hl2, v, hv, rfl, rfl⟩ | ⟨hl2, m1, hr, rfl⟩
        · simp [pre]
        · simp only [pre, List.map_map]
          apply List.map_congr_left
          intro e _
          simp [List.drop_append_of_le_length (by omega : 8 ≤ q.length), ← List.append_assoc]
      have hlin := lin1_rep (d + (n + 1)) (off + j) (by omega) (q.take 8) (ZF_take 8 hq)
        (splitspan_loop base kid (n + 1) (8 * (n + 1)) (j + 8))
        (pre (q.take 8) (mq.map (fun e => (e.1.drop 8, e.2))))
        (Or.inr ⟨by rw [List.length_take]; omega, _, by
          have : off + j + 8 = off + (j + 8) := by omega
          rw [this]; exact hrec, rfl⟩)
      rw [pack_take, ← hmq] at hlin
      exact hlin

theorem splitspan_spec (d off : Nat) (base : List Nat) (kid : JNode) (m : List Ent)
    (h : Rep (d + 1) off (.span base kid) m) :
    ∃ n2, judy_splitspan (.span base kid) = some n2 ∧ Rep (d + 3) off n2 m ∧
      ∃ keys kids, n2 = .lin 1 keys kids := by
  obtain ⟨hal, p, hp, rfl, hcase⟩ := h
  have h24 : JUDY_span_bytes = 24 := rfl
  rw [h24] at hcase
  have hl : p.length ≤ 24 := by
    rcases hcase with ⟨hl, _⟩ | ⟨hl, _⟩ <;> omega
  have := splitspan_rep d off hal (p ++ List.replicate (JUDY_span_bytes - p.length) 0) kid 2 0 p m
    hp hl rfl rfl (by
      rcases hcase with ⟨hl, h⟩ | ⟨hl, m1, hr, hm⟩
      · exact Or.inl ⟨hl, h⟩
      · exact Or.inr ⟨hl, m1, hr, hm⟩)
  refine ⟨_, rfl, this, ?_⟩
  rw [splitspan_loop]
  split
  · exact ⟨_, _, rfl⟩
  · exact ⟨_, _, rfl⟩

theorem cell_span (k : List Nat) (hk : ZF k) (hk31 : k.length < 2 ^ 31) (off : Nat) (s : List Nat)
    (hs : k.drop off = s)
    (hoff : off ≤ k.length) (d : Nat) (base : List Nat) (kid : JNode) (m : List Ent)
    (fuel : Nat) (hrep : Rep (d + 1) off (.span base kid) m)
    (IH : JUDY_span_bytes ≤ s.length → ∀ m1, Rep d (off + JUDY_span_bytes) kid m1 →
      CellOK k fuel (off + JUDY_span_bytes) kid m1 (s.drop JUDY_span_bytes))
    (IHl : ∀ keys kids d1, Rep d1 off (.lin 1 keys kids) m →
      CellOK k fuel off (.lin 1 keys kids) m s) :
    CellOK k (fuel + 1) off (.span base kid) m s := by
  have hsplit := splitspan_spec d off base kid m hrep
  obtain ⟨hal, p, hp, rfl, hcase⟩ := hrep
  have h24 : JUDY_span_bytes = 24 := rfl
  have hlen := drop_length_le k off s hs hoff
  have hzs : ZF s := by rw [← hs]; exact ZF_drop off hk
  have hpl : p.length ≤ 24 := by
    rcases hcase with ⟨hl, _⟩ | ⟨hl, _⟩ <;> omega
  -- the case of a span that is split open
  have hC : s ≠ p → p ≠ s.take 24 → ∀ tst,
      ¬ (strncmp_eq (p ++ List.replicate (JUDY_span_bytes - p.length) 0) s tst = true ∧
        tst < JUDY_span_bytes ∧
        (p ++ List.replicate (JUDY_span_bytes - p.length) 0).getD tst 0 = 0) →
      ¬ (strncmp_eq (p ++ List.replicate (JUDY_span_bytes - p.length) 0) s tst = true ∧
        tst = JUDY_span_bytes) →
      tst = (if JUDY_span_bytes > s.length then s.length else JUDY_span_bytes) →
      CellOK k (fuel + 1) off (.span (p ++ List.replicate (JUDY_span_bytes - p.length) 0) kid)
        m s := by
    intro hA hB tst hc1 hc2 htst
    obtain ⟨n2, hn2, hr2, keys, kids, rfl⟩ := hsplit
    obtain ⟨n1, fs, c, A, B, d1, hloop, hpath, hfl, hres⟩ := IHl keys kids _ hr2
    have hc0 : c = 0 ∧ m = A ++ B := by
      rcases hres with h | ⟨_, hm, _⟩
      · exact h
      · exfalso
        have hmem : (s, c) ∈ m := by rw [hm]; simp
        rcases hcase with ⟨hl, v, hv, _, rfl⟩ | ⟨hl, m1, hr, rfl⟩
        · simp at hmem
          exact hA hmem.1
        · obtain ⟨⟨s1, v1⟩, _, he⟩ := List.mem_map.1 hmem
          simp only [Prod.mk.injEq] at he
          apply hB
          rw [← he.1, List.take_left' (by rw [h24] at hl; exact hl)]
    refine ⟨n1, fs, c, A, B, d1, ?_, hpath, hfl, Or.inl hc0⟩
    rw [cell_loop]
    simp only [if_neg (by omega : ¬ (k.length < off ∨ 2 ^ 31 ≤ k.length - off)),
            if_neg (by omega : ¬ (k.length < off ∨ 2 ^ 31 ≤ s.length)), hlen, hs]
    rw [← htst, if_neg hc1, if_neg hc2, hn2]
    exact hloop
  rcases Nat.lt_or_ge s.length 24 with hsl | hsl
  · have htst : (if JUDY_span_bytes > s.length then s.length else JUDY_span_bytes) = s.length := by
      rw [if_pos (by rw [h24]; exact hsl)]
    have heq := strncmp_eq_iff (JUDY_span_bytes - p.length) s.length p s hp hzs
    rw [List.take_length] at heq
    by_cases hA : s = p
    · subst hA
      rcases hcase with ⟨hl, v, hv, rfl, rfl⟩ | ⟨hl, _⟩
      · refine ⟨_, [⟨.span (s ++ List.replicate (JUDY_span_bytes - s.length) 0) (.word v), off,
          0⟩], v, [], [], 1, ?_, ?_, by simp, Or.inr ⟨hv, rfl, rfl⟩⟩
        · rw [cell_loop]
          simp only [if_neg (by omega : ¬ (k.length < off ∨ 2 ^ 31 ≤ k.length - off)),
            if_neg (by omega : ¬ (k.length < off ∨ 2 ^ 31 ≤ s.length)), hlen, hs, htst]
          have hz : (s ++ List.replicate (JUDY_span_bytes - s.length) 0).getD s.length 0 = 0 := by
            rw [List.getD_append_right _ _ _ _ (le_refl _)]
            simp [List.getD_eq_getElem?_getD, List.getElem?_replicate]
            split <;> rfl
          rw [if_pos ⟨heq.2 (List.take_length _), by rw [h24]; exact hsl, hz⟩]
        · exact ⟨hal, s, hp, rfl, Or.inl ⟨hl, rfl, rfl, rfl, rfl, rfl⟩⟩
      · omega
    · refine hC hA (fun h => ?_) s.length ?_ ?_ htst.symm
      · have := congrArg List.length h
        rw [List.length_take] at this
        apply hA
        rw [h, List.take_of_length_le (by omega)]
      · rintro ⟨h1, _, h3⟩
        have hps : p.length ≤ s.length := by
          by_contra hcon
          rw [List.getD_append _ _ _ _ (by omega)] at h3
          have := getD_pos p hp s.length (by omega)
          omega
        apply hA
        rw [← heq.1 h1, List.take_of_length_le hps]
      · rintro ⟨_, h2⟩
        omega
  · have htst : (if JUDY_span_bytes > s.length then s.length else JUDY_span_bytes) =
        JUDY_span_bytes := by
      rw [if_neg (by rw [h24]; omega)]
    have heq := strncmp_eq_iff (JUDY_span_bytes - p.length) JUDY_span_bytes p s hp hzs
    rw [List.take_of_length_le (by rw [h24]; exact hpl)] at heq
    by_cases hB : p = s.take 24
    · have hl : p.length = 24 := by rw [hB, List.length_take]; omega
      rcases hcase with ⟨hl2, _⟩ | ⟨_, m1, hr, rfl⟩
      · omega
      · obtain ⟨n1, fs, c, A1, B1, d1, hloop, hpath, hfl, hres⟩ := IH (by rw [h24]; exact hsl) m1 hr
        have hsp : s = p ++ s.drop JUDY_span_bytes := by
          rw [hB]; exact (List.take_append_drop 24 s).symm
        refine ⟨.span (p ++ List.replicate (JUDY_span_bytes - p.length) 0) n1,
          fs ++ [⟨.span (p ++ List.replicate (JUDY_span_bytes - p.length) 0) n1, off, 0⟩],
          c, pre p A1, pre p B1, d1 + 1, ?_, ?_, ?_, ?_⟩
        · rw [cell_loop]
          simp only [if_neg (by omega : ¬ (k.length < off ∨ 2 ^ 31 ≤ k.length - off)),
            if_neg (by omega : ¬ (k.length < off ∨ 2 ^ 31 ≤ s.length)), hlen, hs, htst]
          rw [if_neg (by rintro ⟨_, h, _⟩; omega), if_pos ⟨heq.2 hB, trivial⟩, hloop]
        · exact ⟨hal, p, hp, rfl, Or.inr ⟨by rw [h24]; exact hl, fs, A1, s.drop JUDY_span_bytes,
            B1, hpath, rfl, hsp, rfl, rfl⟩⟩
        · rw [List.length_drop, h24] at hfl
          simp only [List.length_append, List.length_singleton]
          omega
        · rcases hres with ⟨hc, hm⟩ | ⟨hc, hm, hn⟩
          · exact Or.inl ⟨hc, by rw [hm, pre_append]⟩
          · refine Or.inr ⟨hc, ?_, by rw [hn]⟩
            rw [hm, pre_append, pre_cons]
            simp only
            rw [← hsp]
    · refine hC (fun h => ?_) hB JUDY_span_bytes ?_ ?_ htst.symm
      · apply hB
        rw [h, List.take_of_length_le hpl]
      · rintro ⟨_, h2, _⟩
        omega
      · rintro ⟨h1, _⟩
        exact hB (heq.1 h1)

/-- The loop of `judy_cell` started on a well formed node with enough fuel returns the cell of
the key: an existing one, the array being unchanged, or a new one that holds `0`. -/
theorem cell_ok (k : List Nat) (hk : ZF k) (hk31 : k.length < 2 ^ 31) : ∀ (L : Nat) (off : Nat)
    (s : List Nat) (d : Nat)
    (n : JNode) (m : List Ent) (fuel : Nat), s.length = L → k.drop off = s → off ≤ k.length →
    Rep d off n m → 2 * s.length + 3 ≤ fuel → CellOK k fuel off n m s := by
  intro L
  induction L using Nat.strong_induction_on with
  | _ L ih =>
    intro off s d n m fuel hL hs hoff hrep hfuel
    have hlen := drop_length_le k off s hs hoff
    obtain ⟨fuel, rfl⟩ : ∃ f, fuel = f + 1 := ⟨fuel - 1, by omega⟩
    have hks1 := key_size_pos off
    have hchild : ∀ j, 1 ≤ j → j ≤ s.length → ∀ f d1 n1 m1, 2 * s.length + 1 ≤ f →
        Rep d1 (off + j) n1 m1 → CellOK k f (off + j) n1 m1 (s.drop j) := by
      intro j hj1 hj f d1 n1 m1 hf hr
      exact ih (s.drop j).length (by rw [List.length_drop]; omega) (off + j) (s.drop j) d1 n1 m1
        f rfl (by rw [← hs, List.drop_drop]) (by omega) hr (by rw [List.length_drop]; omega)
    have hradix : ∀ T d1 f, 2 * s.length + 1 ≤ f → Rep d1 off (.radix T) m →
        CellOK k (f + 1) off (.radix T) m s := by
      intro T d1 f hf hr
      cases d1 with
      | zero => exact absurd hr (by simp [Rep])
      | succ d2 =>
        refine cell_radix k hk hk31 off s hs hoff d2 T m f hr (by omega) ?_
        intro b s1 hbs x m1 hx
        have := hchild 1 (by omega) (by rw [hbs]; simp) f d2 x m1 hf hx
        rw [hbs] at this
        simpa using this
    have hlin : ∀ type keys kids d1 f, 2 * s.length + 1 ≤ f →
        (type = 6 → 2 * s.length + 2 ≤ f) → Rep d1 off (.lin type keys kids) m →
        CellOK k (f + 1) off (.lin type keys kids) m s := by
      intro type keys kids d1 f hf hf6 hr
      cases d1 with
      | zero => exact absurd hr (by simp [Rep])
      | succ d2 =>
        refine cell_lin k hk hk31 off s hs hoff d2 type keys kids m f hr (by omega) ?_ ?_
        · intro hl n1 m1 d3 hr1
          exact hchild (key_size off) hks1 hl f d3 n1 m1 hf hr1
        · intro h6 T d3 hr1
          obtain ⟨f2, rfl⟩ : ∃ f2, f = f2 + 1 := ⟨f - 1, by have := hf6 h6; omega⟩
          exact hradix T d3 f2 (by have := hf6 h6; omega) hr1
    cases d with
    | zero => exact absurd hrep (by simp [Rep])
    | succ d =>
      cases n with
      | word v => exact absurd hrep (by simp [Rep])
      | lin type keys kids => exact hlin type keys kids _ fuel (by omega) (fun _ => by omega) hrep
      | radix T => exact hradix T _ fuel (by omega) hrep
      | span base kid =>
        refine cell_span k hk hk31 off s hs hoff d base kid m fuel hrep ?_ ?_
        · intro hl m1 hr1
          exact hchild JUDY_span_bytes (by decide) hl fuel d kid m1 (by omega) hr1
        · intro keys kids d1 hr1
          obtain ⟨f2, rfl⟩ : ∃ f2, fuel = f2 + 1 := ⟨fuel - 1, by omega⟩
          exact hlin 1 keys kids d1 f2 (by omega) (fun h => absurd h (by decide)) hr1


/-! ## The store through the cursor -/

theorem plug_snoc (F : JudyStack) : ∀ (r : List JudyStack) (n : JNode) (r1 : List JudyStack)
    (x : JNode), plug n r = (r1, x) →
    plug n (r ++ [F]) =
      (r1 ++ [{ F with next := setKid F.next F.slot x }], setKid F.next F.slot x) := by
  intro r
  induction r with
  | nil =>
    intro n r1 x h
    simp only [plug, Prod.mk.injEq] at h
    obtain ⟨rfl, rfl⟩ := h
    rfl
  | cons f r ih =>
    intro n r1 x h
    rw [plug] at h
    rw [List.cons_append, plug]
    cases hp : plug (setKid f.next f.slot n) r with
    | mk r2 x2 =>
      rw [hp] at h
      simp only [Prod.mk.injEq] at h
      obtain ⟨rfl, rfl⟩ := h
      rw [ih _ r2 x2 hp]
      rfl

theorem store_path : ∀ (d off : Nat) (n : JNode) (fs : List JudyStack) (A B : List Ent)
    (s : List Nat) (c v : Nat), Path d off n fs A (s, c) B →
    ∃ f rest rest1 root, fs = f :: rest ∧
      plug (setKid f.next f.slot (.word v)) rest = (rest1, root) ∧
      Path d off root ({ f with next := setKid f.next f.slot (.word v) } :: rest1) A (s, v) B := by
  intro d
  induction d with
  | zero => intro off n fs A B s c v h; exact absurd h (by simp [Path])
  | succ d ih =>
    intro off n fs A B s c v h
    cases n with
    | word w => exact absurd h (by simp [Path])
    | lin type keys kids =>
      obtain ⟨e0, K1, K2, C1, C2, mA, mB, p, c1, h1, h2, rfl, rfl, h5, h6, h7, h8, h9, h10⟩ := h
      have hlen := h8.length_eq
      rcases h10 with ⟨hl, rfl, hs, rfl, rfl, rfl⟩ | ⟨hl, fs1, A1, s1, B1, hp, rfl, hs, rfl, rfl⟩
      · simp only at hs
        subst hs
        refine ⟨_, [], [], _, rfl, rfl, ?_⟩
        simp only [setKid, Int.toNat_ofNat]
        rw [set_mid2 e0 _ C1 C2 _ _ (e0 + K1.length) (by rw [hlen])]
        exact ⟨e0, K1, K2, C1, C2, A, B, s, _, h1, h2, rfl, rfl, h5, h6, h7, h8, h9,
          Or.inl ⟨hl, rfl, rfl, rfl, rfl, rfl⟩⟩
      · simp only at hs hp
        subst hs
        obtain ⟨f, rest, rest1, root, rfl, hplug, hpath⟩ := ih _ _ _ _ _ _ _ v hp
        refine ⟨f, _, _, _, List.cons_append _ _ _, plug_snoc _ rest _ rest1 root hplug, ?_⟩
        simp only [setKid, Int.toNat_ofNat]
        rw [set_mid2 e0 _ C1 C2 _ _ (e0 + K1.length) (by rw [hlen])]
        exact ⟨e0, K1, K2, C1, C2, mA, mB, p, _, h1, h2, rfl, rfl, h5, h6, h7, h8, h9,
          Or.inr ⟨hl, _, A1, s1, B1, hpath, rfl, rfl, rfl, rfl⟩⟩
    | radix table =>
      obtain ⟨ms, b, hb, h1, ⟨inner, h2⟩, h3, h4⟩ := h
      have hupd := fun x => radix_update table inner b hb x h1 (Or.inr h2)
      rcases h4 with ⟨hb0, hc, hs, rfl, rfl, rfl⟩ | ⟨hb0, fs1, A1, s1, B1, hp, rfl, hs, rfl, rfl⟩
      · simp only at hs hc
        subst hs
        obtain ⟨u1, u2, u3, u4, _⟩ := hupd (.word v)
        refine ⟨_, [], [], _, rfl, rfl, ?_⟩
        simp only [setKid, Int.toNat_ofNat, h2]
        exact ⟨ms, b, hb, u1, u2, fun b1 hb1 hne => by rw [u4 b1 hne]; exact h3 b1 hb1 hne,
          Or.inl ⟨hb0, u3, rfl, rfl, rfl, rfl⟩⟩
      · simp only at hs hp
        subst hs
        obtain ⟨f, rest, rest1, root, rfl, hplug, hpath⟩ := ih _ _ _ _ _ _ _ v hp
        obtain ⟨u1, u2, u3, u4, _⟩ := hupd root
        refine ⟨f, _, _, _, List.cons_append _ _ _, plug_snoc _ rest _ rest1 root hplug, ?_⟩
        simp only [setKid, Int.toNat_ofNat, h2]
        exact ⟨ms, b, hb, u1, u2, fun b1 hb1 hne => by rw [u4 b1 hne]; exact h3 b1 hb1 hne,
          Or.inr ⟨hb0, _, A1, s1, B1, by rw [u3]; exact hpath, rfl, rfl, rfl, rfl⟩⟩
    | span base kid =>
      obtain ⟨h1, p, h2, h3, h4⟩ := h
      rcases h4 with ⟨hl, rfl, hs, rfl, rfl, rfl⟩ | ⟨hl, fs1, A1, s1, B1, hp, rfl, hs, rfl, rfl⟩
      · simp only at hs
        subst hs
        refine ⟨_, [], [], _, rfl, rfl, ?_⟩
        exact ⟨h1, s, h2, h3, Or.inl ⟨hl, rfl, rfl, rfl, rfl, rfl⟩⟩
      · simp only at hs hp
        subst hs
        obtain ⟨f, rest, rest1, root, rfl, hplug, hpath⟩ := ih _ _ _ _ _ _ _ v hp
        refine ⟨f, _, _, _, List.cons_append _ _ _, plug_snoc _ rest _ rest1 root hplug, ?_⟩
        exact ⟨h1, p, h2, h3, Or.inr ⟨hl, _, A1, s1, B1, hpath, rfl, rfl, rfl, rfl⟩⟩


/-! ## The entries of a node are sorted -/

theorem append_lt_append_left (p : List Nat) {s t : List Nat} (h : s < t) : p ++ s < p ++ t := by
  induction p with
  | nil => exact h
  | cons a p ih => exact List.Lex.cons ih

theorem Sorted_pre (p : List Nat) {m : List Ent} (h : Sorted m) : Sorted (pre p m) := by
  unfold Sorted pre
  rw [List.pairwise_map]
  exact h.imp (fun hab => append_lt_append_left p hab)

theorem Good_pre {p : List Nat} (hp : ZF p) {m : List Ent} (h : Good m) : Good (pre p m) := by
  intro e he
  obtain ⟨e1, h1, rfl⟩ := List.mem_map.1 he
  exact ⟨ZF_append.2 ⟨hp, (h e1 h1).1⟩, (h e1 h1).2⟩

theorem Slots.lt_of_mem {R : JNode → List Ent → Prop} {ks : Nat} {K : List Nat}
    {C : List JNode} {m : List Ent} (h : Slots R ks K C m) (p s : List Nat) (hp : ZF p)
    (hs : p.length < ks → s = []) (hK : ∀ x ∈ K, pack ks p < x) :
    ∀ e ∈ m, p ++ s < e.1 := by
  intro e he
  obtain ⟨K1, K2, C1, C2, mA, mB, q, c, rfl, _, hq, _, _, h3⟩ := h.mem e he
  have hlt := hK (pack ks q) (by simp)
  rcases h3 with ⟨_, _, he1, _⟩ | ⟨_, m1, s1, _, _, he1, _⟩
  · rw [he1]
    have := pack_lex ks p q s [] hp hq hlt hs
    simpa using this
  · rw [he1]
    exact pack_lex ks p q s s1 hp hq hlt hs

theorem Slots.sorted_good {R : JNode → List Ent → Prop} {ks : Nat} {K : List Nat}
    {C : List JNode} {m : List Ent} (h : Slots R ks K C m) (hK : K.Pairwise (· < ·))
    (hR : ∀ c m1, R c m1 → Sorted m1 ∧ Good m1) : Sorted m ∧ Good m := by
  induction h with
  | nil => exact ⟨List.Pairwise.nil, fun _ h => absurd h (List.not_mem_nil _)⟩
  | @leaf p v keys kids m hp hl hv hs ih =>
    have hk := List.pairwise_cons.1 hK
    obtain ⟨i1, i2⟩ := ih hk.2
    refine ⟨List.pairwise_cons.2 ⟨fun e he => ?_, i1⟩, fun e he => ?_⟩
    · have := hs.lt_of_mem p [] hp (fun _ => rfl) hk.1 e he
      simpa using this
    · rcases List.mem_cons.1 he with rfl | he
      · exact ⟨hp, hv⟩
      · exact i2 e he
  | @node p kid m1 keys kids m hp hl hr hs ih =>
    have hk := List.pairwise_cons.1 hK
    obtain ⟨i1, i2⟩ := ih hk.2
    obtain ⟨r1, r2⟩ := hR kid m1 hr
    refine ⟨List.pairwise_append.2 ⟨Sorted_pre p r1, i1, fun a ha b hb => ?_⟩, fun e he => ?_⟩
    · obtain ⟨a1, _, rfl⟩ := List.mem_map.1 ha
      exact hs.lt_of_mem p a1.1 hp (fun h => absurd h (by omega)) hk.1 b hb
    · rcases List.mem_append.1 he with he | he
      · exact (Good_pre hp r2) e he
      · exact i2 e he

theorem rcat_sorted (ms : Nat → List Ent) (hs : ∀ b, Sorted (ms b))
    (hf : ∀ b, ∀ e ∈ ms b, (b = 0 ∧ e.1 = []) ∨ (b ≠ 0 ∧ ∃ t, e.1 = b :: t)) :
    ∀ n lo, Sorted (rcat ms lo n) := by
  intro n
  induction n with
  | zero => intro lo; exact List.Pairwise.nil
  | succ n ih =>
    intro lo
    rw [rcat]
    refine List.pairwise_append.2 ⟨hs lo, ih (lo + 1), fun a ha b hb => ?_⟩
    obtain ⟨b2, h1, _, h3⟩ := rcat_mem ms b n (lo + 1) hb
    rcases hf b2 b h3 with ⟨h0, _⟩ | ⟨_, t2, ht2⟩
    · omega
    · rw [ht2]
      rcases hf lo a ha with ⟨_, ha0⟩ | ⟨_, t1, ht1⟩
      · rw [ha0]; exact List.nil_lt_cons _ _
      · rw [ht1]; exact List.Lex.rel (by omega)

theorem Rep_sorted_good : ∀ (d : Nat) {off : Nat} {n : JNode} {m : List Ent},
    Rep d off n m → Sorted m ∧ Good m := by
  intro d
  induction d with
  | zero => intro off n m h; exact absurd h (by simp [Rep])
  | succ d ih =>
    intro off n m h
    cases n with
    | word w => exact absurd h (by simp [Rep])
    | lin type keys kids =>
      obtain ⟨e, pkeys, pkids, _, _, _, _, _, _, hpw, hslots⟩ := h
      exact hslots.sorted_good hpw (fun c m1 hr => ih hr)
    | radix table =>
      obtain ⟨_, ms, hR, rfl, _⟩ := h
      let ms2 : Nat → List Ent := fun b => if b < 256 then ms b else []
      have hcongr : rcat ms 0 256 = rcat ms2 0 256 :=
        rcat_congr ms ms2 0 256 (fun i _ hi => by simp only [ms2]; rw [if_pos (by omega)])
      have hall : ∀ b, Sorted (ms2 b) ∧ Good (ms2 b) ∧
          ∀ e ∈ ms2 b, (b = 0 ∧ e.1 = []) ∨ (b ≠ 0 ∧ ∃ t, e.1 = b :: t) := by
        intro b
        simp only [ms2]
        by_cases hb : b < 256
        · rw [if_pos hb]
          rcases hR b hb with ⟨_, h0⟩ | ⟨hb0, v, hv, _, hm⟩ | ⟨hb0, m1, hr, hm⟩
          · rw [h0]
            exact ⟨List.Pairwise.nil, fun _ h => absurd h (List.not_mem_nil _),
              fun _ h => absurd h (List.not_mem_nil _)⟩
          · rw [hm]
            refine ⟨List.pairwise_singleton _ _, fun e he => ?_, fun e he => ?_⟩
            · simp at he; subst he; exact ⟨ZF_nil, hv⟩
            · simp at he; subst he; exact Or.inl ⟨hb0, rfl⟩
          · rw [hm]
            obtain ⟨r1, r2⟩ := ih hr
            refine ⟨Sorted_pre [b] r1, Good_pre (ZF_cons.2 ⟨⟨by omega, hb⟩, ZF_nil⟩) r2, fun e he => ?_⟩
            obtain ⟨e1, _, rfl⟩ := List.mem_map.1 he
            exact Or.inr ⟨hb0, e1.1, rfl⟩
        · rw [if_neg hb]
          exact ⟨List.Pairwise.nil, fun _ h => absurd h (List.not_mem_nil _),
            fun _ h => absurd h (List.not_mem_nil _)⟩
      rw [hcongr]
      refine ⟨rcat_sorted ms2 (fun b => (hall b).1) (fun b => (hall b).2.2) 256 0, ?_⟩
      intro e he
      obtain ⟨b, _, _, hb⟩ := rcat_mem ms2 e 256 0 he
      exact (hall b).2.1 e hb
    | span base kid =>
      obtain ⟨_, p, hp, _, hcase⟩ := h
      rcases hcase with ⟨_, v, hv, _, rfl⟩ | ⟨_, m1, hr, rfl⟩
      · refine ⟨List.pairwise_singleton _ _, fun e he => ?_⟩
        simp at he; subst he; exact ⟨hp, hv⟩
      · obtain ⟨r1, r2⟩ := ih hr
        exact ⟨Sorted_pre p r1, Good_pre hp r2⟩


/-! ## The calls of the interface on a well formed array -/

theorem ins_mid (k : List Nat) (v : Nat) : ∀ (A B : List Ent), Sorted (A ++ (k, v) :: B) →
    ins k v (A ++ B) = A ++ (k, v) :: B := by
  intro A
  induction A with
  | nil =>
    intro B h
    cases B with
    | nil => rfl
    | cons e B =>
      have := (List.pairwise_cons.1 h).1 e (List.mem_cons_self _ _)
      simp only [List.nil_append, ins]
      rw [if_pos this]
  | cons a A ih =>
    intro B h
    have h1 := List.pairwise_cons.1 h
    have hlt : a.1 < k := h1.1 (k, v) (by simp)
    show ins k v (a :: (A ++ B)) = a :: (A ++ (k, v) :: B)
    rw [ins, if_neg (lt_asymm hlt), if_neg (ne_of_gt hlt), ih B h1.2]

theorem ins_replace (k : List Nat) (v c : Nat) : ∀ (A B : List Ent),
    Sorted (A ++ (k, v) :: B) → ins k v (A ++ (k, c) :: B) = A ++ (k, v) :: B := by
  intro A
  induction A with
  | nil =>
    intro B _
    show ins k v ((k, c) :: B) = (k, v) :: B
    rw [ins, if_neg (lt_irrefl k), if_pos rfl]
  | cons a A ih =>
    intro B h
    have h1 := List.pairwise_cons.1 h
    have hlt : a.1 < k := h1.1 (k, v) (by simp)
    show ins k v (a :: (A ++ (k, c) :: B)) = a :: (A ++ (k, v) :: B)
    rw [ins, if_neg (lt_asymm hlt), if_neg (ne_of_gt hlt), ih B h1.2]

theorem Sorted_value {A B : List Ent} {k : List Nat} {c : Nat} (v : Nat)
    (h : Sorted (A ++ (k, c) :: B)) : Sorted (A ++ (k, v) :: B) := by
  unfold Sorted at h ⊢
  rw [List.pairwise_append] at h ⊢
  refine ⟨h.1, ?_, fun a ha b hb => ?_⟩
  · rw [List.pairwise_cons] at h ⊢
    exact ⟨fun e he => h.2.1.1 e he, h.2.1.2⟩
  · rcases List.mem_cons.1 hb with rfl | hb
    · exact h.2.2 a ha (k, c) (List.mem_cons_self _ _)
    · exact h.2.2 a ha b (List.mem_cons_of_mem _ hb)

theorem judy_cell_spec (M : Nat) [Fact (M ≤ JUDY_open_max)] (judy : Judy) (m : List Ent) (k : List Nat)
    (hmax : judy.max = M + 1) (hroot : RootRep judy.root m) (hk : ZF k) (hl : k.length ≤ M) :
    ∃ n1 fs c A B d, judy_cell judy k k.length =
        some ⟨{ judy with root := n1, stack := fs }, some (.word c)⟩ ∧
      Path d 0 n1 fs A (k, c) B ∧
      ((c = 0 ∧ m = A ++ B) ∨ (0 < c ∧ m = A ++ (k, c) :: B ∧ n1 = judy.root)) := by
  have hok : CellOK k (2 * judy.max + 2) 0 judy.root m k := by
    rcases hroot with ⟨h0, rfl⟩ | ⟨d, hr⟩
    · rw [h0]
      exact CellOK_word0 k hk (len31 hl) 0 (2 * judy.max + 1) k rfl (Nat.zero_le _)
    · exact cell_ok k hk (len31 hl) k.length 0 k d judy.root m _ rfl rfl (Nat.zero_le _) hr
        (by rw [hmax]; omega)
  obtain ⟨n1, fs, c, A, B, d1, hloop, hpath, hfl, hres⟩ := hok
  refine ⟨n1, fs, c, A, B, d1, ?_, hpath, hres⟩
  unfold judy_cell
  rw [hloop]
  simp only
  rw [if_pos (by rw [hmax]; omega)]

theorem judy_slot_spec (M : Nat) [Fact (M ≤ JUDY_open_max)] (judy : Judy) (m : List Ent)
    (k : List Nat) (v d : Nat)
    (hmax : judy.max = M + 1) (hrep : Rep d 0 judy.root m) (hmem : (k, v) ∈ m) (hk : ZF k)
    (hl : k.length ≤ M) :
    ∃ fs A B, judy_slot judy k k.length = some ⟨{ judy with stack := fs }, some (.word v)⟩ ∧
      Path d 0 judy.root fs A (k, v) B ∧ m = A ++ (k, v) :: B := by
  obtain ⟨fs, A, B, hloop, hpath, hm, _⟩ := slot_hit k hk (len31 hl) judy.max d 0 judy.root m k v []
    (judy.max + 1) hrep hmem rfl (Nat.zero_le _) (by rw [hmax]; omega)
    (by rw [hmax]; simp; omega)
  refine ⟨fs, A, B, ?_, hpath, hm⟩
  unfold judy_slot
  rw [hloop]
  simp

theorem judy_store_spec (judy : Judy) (d : Nat) (A B : List Ent) (k : List Nat) (c v : Nat)
    (hpath : Path d 0 judy.root judy.stack A (k, c) B) :
    (judy_store judy v).max = judy.max ∧
      Path d 0 (judy_store judy v).root (judy_store judy v).stack A (k, v) B := by
  obtain ⟨f, rest, rest1, root, hfs, hplug, hp⟩ := store_path d 0 _ _ A B k c v hpath
  unfold judy_store
  rw [hfs]
  simp only [hplug]
  exact ⟨trivial, hp⟩

theorem judy_put_spec (M : Nat) [Fact (M ≤ JUDY_open_max)] (judy : Judy) (m : List Ent)
    (k : List Nat) (v : Nat)
    (hmax : judy.max = M + 1) (hroot : RootRep judy.root m) (hk : ZF k) (hl : k.length ≤ M)
    (hv : 0 < v) :
    ∃ judy1 d A B, judy_put judy k v = some judy1 ∧ judy1.max = M + 1 ∧
      Path d 0 judy1.root judy1.stack A (k, v) B ∧ ins k v m = A ++ (k, v) :: B ∧
      Rep d 0 judy1.root (ins k v m) := by
  obtain ⟨n1, fs, c, A, B, d, hcell, hpath, hres⟩ := judy_cell_spec M judy m k hmax hroot hk hl
  obtain ⟨s1, s2⟩ := judy_store_spec { judy with root := n1, stack := fs } d A B k c v hpath
  have hrep := Path_Rep d s2 hv
  have hsorted := (Rep_sorted_good d hrep).1
  have hins : ins k v m = A ++ (k, v) :: B := by
    rcases hres with ⟨_, rfl⟩ | ⟨_, rfl, _⟩
    · exact ins_mid k v A B hsorted
    · exact ins_replace k v c A B hsorted
  refine ⟨_, d, A, B, ?_, ?_, s2, hins, by rw [hins]; exact hrep⟩
  · unfold judy_put
    rw [hcell]
  · rw [s1]; exact hmax

theorem judy_puts_spec (M : Nat) [Fact (M ≤ JUDY_open_max)] : ∀ (ops : List Ent) (judy : Judy)
    (m : List Ent),
    OpsOK M ops → judy.max = M + 1 → RootRep judy.root m →
    ∃ judy1, judy_puts ops judy = some judy1 ∧ judy1.max = M + 1 ∧
      RootRep judy1.root (insAll ops m) := by
  intro ops
  induction ops with
  | nil => intro judy m _ hmax hroot; exact ⟨judy, rfl, hmax, hroot⟩
  | cons e ops ih =>
    intro judy m hops hmax hroot
    obtain ⟨k, v⟩ := e
    obtain ⟨h1, h2, h3⟩ := hops (k, v) (List.mem_cons_self _ _)
    obtain ⟨judy1, d, A, B, hput, hmax1, _, _, hrep⟩ :=
      judy_put_spec M judy m k v hmax hroot h1 h2 h3
    obtain ⟨judy2, hputs, hmax2, hroot2⟩ := ih judy1 (ins k v m)
      (fun e he => hops e (List.mem_cons_of_mem _ he)) hmax1 (Or.inr ⟨d, hrep⟩)
    refine ⟨judy2, ?_, hmax2, hroot2⟩
    rw [judy_puts, hput]
    exact hputs

theorem judy_open_spec (M : Nat) [Fact (M ≤ JUDY_open_max)] : (judy_open M).max = M + 1 ∧ RootRep
    (judy_open M).root [] :=
  ⟨open_max32 M, Or.inl ⟨rfl, rfl⟩⟩


/-! ## The list of entries that the driver steps build -/

theorem ins_mem_self (k : List Nat) (v : Nat) : ∀ m : List Ent, (k, v) ∈ ins k v m := by
  intro m
  induction m with
  | nil => simp [ins]
  | cons e m ih =>
    rw [ins]
    split
    · simp
    · split
      · simp
      · exact List.mem_cons_of_mem _ ih

theorem ins_mem_keep (k : List Nat) (v : Nat) (k1 : List Nat) : ∀ m : List Ent,
    (∃ v1, (k1, v1) ∈ m) → ∃ v1, (k1, v1) ∈ ins k v m := by
  intro m
  induction m with
  | nil => rintro ⟨v1, h⟩; simp at h
  | cons e m ih =>
    rintro ⟨v1, h⟩
    rw [ins]
    split
    · exact ⟨v1, List.mem_cons_of_mem _ h⟩
    · split
      · rename_i _ heq
        rcases List.mem_cons.1 h with h | h
        · refine ⟨v, ?_⟩
          rw [heq, ← h]
          simp
        · exact ⟨v1, List.mem_cons_of_mem _ h⟩
      · rcases List.mem_cons.1 h with h | h
        · exact ⟨v1, by rw [h]; simp⟩
        · obtain ⟨v2, h2⟩ := ih ⟨v1, h⟩
          exact ⟨v2, List.mem_cons_of_mem _ h2⟩

theorem insAll_mem_keep (k1 : List Nat) : ∀ (ops : List Ent) (m : List Ent),
    (∃ v1, (k1, v1) ∈ m) → ∃ v1, (k1, v1) ∈ insAll ops m := by
  intro ops
  induction ops with
  | nil => intro m h; exact h
  | cons e ops ih =>
    intro m h
    exact ih (ins e.1 e.2 m) (ins_mem_keep e.1 e.2 k1 m h)

theorem insAll_mem (k : List Nat) (v0 : Nat) : ∀ (ops : List Ent) (m : List Ent),
    (k, v0) ∈ ops → ∃ v1, (k, v1) ∈ insAll ops m := by
  intro ops
  induction ops with
  | nil => intro m h; simp at h
  | cons e ops ih =>
    intro m h
    rcases List.mem_cons.1 h with h | h
    · subst h
      exact insAll_mem_keep k ops _ ⟨v0, ins_mem_self k v0 m⟩
    · exact ih (ins e.1 e.2 m) h

theorem find_mid (k : List Nat) (c : Nat) : ∀ (A B : List Ent), Sorted (A ++ (k, c) :: B) →
    find k (A ++ (k, c) :: B) = c := by
  intro A
  induction A with
  | nil => intro B _; simp [find]
  | cons a A ih =>
    intro B h
    have h1 := List.pairwise_cons.1 h
    have hlt : a.1 < k := h1.1 (k, c) (by simp)
    show find k (a :: (A ++ (k, c) :: B)) = c
    rw [find, if_neg (ne_of_lt hlt), ih B h1.2]

theorem judy_cell_stack (judy : Judy) (fs : List JudyStack) (k : List Nat) (n : Nat) :
    judy_cell { judy with stack := fs } k n = judy_cell judy k n := by
  unfold judy_cell
  rfl

theorem set_take_getD (l : List Nat) (n : Nat) (h : n < l.length) :
    (l.set n 0).take n = l.take n ∧ (l.set n 0).getD n 1 = 0 := by
  constructor
  · apply List.ext_getElem?
    intro i
    simp only [List.getElem?_take]
    split
    · rw [List.getElem?_set_ne (by omega)]
    · rfl
  · simp [List.getD_eq_getElem?_getD, h]


/-! ## `judy_first` and `judy_last` -/

theorem kidAt_replicate (e : Nat) (C : List JNode) (i : Nat) (hi : i < e) :
    kidAt (List.replicate e (JNode.word 0) ++ C) i = .word 0 := by
  unfold kidAt
  rw [List.getD_append _ _ _ _ (by simpa using hi)]
  simp [List.getD_eq_getElem?_getD, List.getElem?_replicate, hi]

theorem lin_first_skip (kids : List JNode) : ∀ (e n slot : Nat),
    (∀ i, i < e → (kidAt kids (slot + i)).nonzero = false) →
    (kidAt kids (slot + e)).nonzero = true → e < n → lin_first kids n slot = slot + e := by
  intro e
  induction e with
  | zero =>
    intro n slot _ h1 hn
    obtain ⟨n, rfl⟩ : ∃ n1, n = n1 + 1 := ⟨n - 1, by omega⟩
    rw [Nat.add_zero] at h1
    rw [lin_first, if_pos h1, Nat.add_zero]
  | succ e ih =>
    intro n slot h0 h1 hn
    obtain ⟨n, rfl⟩ : ∃ n1, n = n1 + 1 := ⟨n - 1, by omega⟩
    have hz := h0 0 (by omega)
    rw [lin_first, if_neg (by rw [Nat.add_zero] at hz; simp [hz])]
    rw [ih n (slot + 1) (fun i hi => by have := h0 (i + 1) (by omega); rwa [Nat.add_assoc, Nat.add_comm 1 i])
      (by rwa [Nat.add_assoc, Nat.add_comm 1 e]) (by omega)]
    omega

theorem radix_first_spec (table : List JNode) (hole : Nat) (hO : OuterOK table hole) :
    ∀ (fuel slot : Nat), 256 - slot < fuel →
      (∀ b, slot ≤ b → b < 256 →
        (∀ b1, slot ≤ b1 → b1 < b → (radixAt table b1).nonzero = false) →
        (radixAt table b).nonzero = true →
        radix_first table fuel slot = .found b (radixAt table b)) ∧
      ((∀ b1, slot ≤ b1 → b1 < 256 → (radixAt table b1).nonzero = false) →
        radix_first table fuel slot = .nothing) := by
  intro fuel
  induction fuel with
  | zero => intro slot h; omega
  | succ fuel ih =>
    intro slot hf
    rcases Nat.lt_or_ge slot 256 with hs | hs
    · have ho : slot >>> 4 < 16 := by rw [shr4]; omega
      rcases hO.2 _ ho with h0 | ⟨inner, h1, _, _⟩
      · -- the inner table is absent
        have hskip : ∀ b1, slot ≤ b1 → b1 < (slot / 16 + 1) * 16 →
            (radixAt table b1).nonzero = false := by
          intro b1 hb1 hb2
          have : b1 >>> 4 = slot >>> 4 := by
            rw [shr4, shr4]
            have h3 : b1 / 16 < slot / 16 + 1 := Nat.div_lt_of_lt_mul (by omega)
            have h4 : slot / 16 ≤ b1 / 16 := Nat.div_le_div_right hb1
            omega
          unfold radixAt
          rw [this, h0]
          rfl
        have hnext := ih ((slot ||| 15) + 1) (by rw [or15]; omega)
        rw [or15] at hnext
        constructor
        · intro b hb1 hb2 hz hnz
          rw [radix_first, if_pos hs, h0]
          simp only
          rw [or15]
          have hbge : (slot / 16 + 1) * 16 ≤ b := by
            by_contra hcon
            have := hskip b hb1 (by omega)
            rw [this] at hnz
            cases hnz
          exact hnext.1 b hbge hb2 (fun b1 h1 h2 => hz b1 (by omega) h2) hnz
        · intro hz
          rw [radix_first, if_pos hs, h0]
          simp only
          rw [or15]
          exact hnext.2 (fun b1 h1 h2 => hz b1 (by omega) h2)
      · have hx : radixAt table slot = tblAt inner (slot &&& 15) := by
          unfold radixAt; rw [h1]
        have hnext := ih (slot + 1) (by omega)
        constructor
        · intro b hb1 hb2 hz hnz
          rw [radix_first, if_pos hs, h1]
          simp only
          rcases Nat.eq_or_lt_of_le hb1 with heq | hlt
          · subst heq
            rw [← hx, if_pos hnz]
          · have := hz slot (le_refl _) hlt
            rw [← hx, if_neg (by simp [this])]
            exact hnext.1 b hlt hb2 (fun b1 h1 h2 => hz b1 (by omega) h2) hnz
        · intro hz
          have := hz slot (le_refl _) hs
          rw [radix_first, if_pos hs, h1]
          simp only
          rw [← hx, if_neg (by simp [this])]
          exact hnext.2 (fun b1 h1 h2 => hz b1 (by omega) h2)
    · constructor
      · intro b hb1 hb2; omega
      · intro _
        rw [radix_first, if_neg (by omega)]

theorem RSlot_nonzero {d off b : Nat} {x : JNode} {m : List Ent}
    (h : RSlot (Rep d off) b x m) : x.nonzero = !m.isEmpty := by
  rcases h with ⟨rfl, rfl⟩ | ⟨_, v, hv, rfl, rfl⟩ | ⟨_, m1, hr, rfl⟩
  · rfl
  · rw [word_nonzero v hv]; rfl
  · rw [Rep_nonzero hr]
    have := Rep_ne_nil _ hr
    cases m1 with
    | nil => exact absurd rfl this
    | cons a m1 => rfl

theorem rcat_first (ms : Nat → List Ent) : ∀ (n lo : Nat), rcat ms lo n ≠ [] →
    ∃ b, lo ≤ b ∧ b < lo + n ∧ ms b ≠ [] ∧ (∀ b1, lo ≤ b1 → b1 < b → ms b1 = []) ∧
      rcat ms lo n = ms b ++ rcat ms (b + 1) (lo + n - (b + 1)) := by
  intro n
  induction n with
  | zero => intro lo h; exact absurd rfl h
  | succ n ih =>
    intro lo h
    rw [rcat] at h ⊢
    by_cases h0 : ms lo = []
    · rw [h0, List.nil_append] at h ⊢
      obtain ⟨b, h1, h2, h3, h4, h5⟩ := ih (lo + 1) h
      refine ⟨b, by omega, by omega, h3, fun b1 hb1 hb2 => ?_, ?_⟩
      · rcases Nat.eq_or_lt_of_le hb1 with heq | hlt
        · rw [← heq]; exact h0
        · exact h4 b1 hlt hb2
      · rw [h5]
        congr 2
        omega
    · refine ⟨lo, le_refl _, by omega, h0, fun b1 hb1 hb2 => by omega, ?_⟩
      congr 2
      omega

theorem rcat_nil_lt (ms : Nat → List Ent) (lo n : Nat)
    (h : ∀ i, lo ≤ i → i < lo + n → ms i = []) : rcat ms lo n = [] := by
  rw [rcat_congr ms (fun _ => []) lo n h]
  exact rcat_nil _ n lo (fun _ _ => rfl)

theorem span_last_byte (p : List Nat) (hp : ZF p) (hl : p.length ≤ 24) :
    ((p ++ List.replicate (JUDY_span_bytes - p.length) 0).getD (JUDY_span_bytes - 1) 0 = 0) ↔
      p.length < 24 := by
  have h24 : JUDY_span_bytes = 24 := rfl
  rw [h24, show 24 - 1 = 23 from rfl]
  constructor
  · intro h
    by_contra hcon
    rw [List.getD_append _ _ _ _ (by omega)] at h
    have := getD_pos p hp 23 (by omega)
    omega
  · intro h
    rw [List.getD_append_right _ _ _ _ (by omega)]
    rw [List.getD_eq_getElem?_getD, List.getElem?_replicate]
    split <;> rfl

theorem first_spec (jmax : Nat) : ∀ (d off : Nat) (n : JNode) (m : List Ent)
    (stack : List JudyStack) (fuel : Nat), Rep d off n m →
    (∀ e ∈ m, e.1.length + 1 ≤ fuel) → (∀ e ∈ m, stack.length + e.1.length + 1 ≤ jmax) →
    ∃ fs e B, judy_first jmax fuel stack n off = some (fs ++ stack, some (.word e.2)) ∧
      Path d off n fs [] e B ∧ m = e :: B := by
  intro d
  induction d with
  | zero => intro off n m stack fuel h; exact absurd h (by simp [Rep])
  | succ d ih =>
    intro off n m stack fuel hrep hf hj
    have hm := Rep_ne_nil _ hrep
    obtain ⟨e0, hm0⟩ := List.exists_mem_of_ne_nil m hm
    have hf0 := hf e0 hm0
    have hj0 := hj e0 hm0
    obtain ⟨fuel, rfl⟩ : ∃ f, fuel = f + 1 := ⟨fuel - 1, by omega⟩
    have hks1 := key_size_pos off
    cases n with
    | word w => exact absurd hrep (by simp [Rep])
    | lin type keys kids =>
      obtain ⟨e, pk, pc, h1, h2, rfl, rfl, h5, h6, h7, h8⟩ := hrep
      cases pk with
      | nil => exact absurd rfl h6
      | cons x K2 =>
        obtain ⟨p, c, C2, m1, rfl, rfl, hp, hs2, hcase⟩ := h8.cons_inv
        have hcnt : e + (([] : List Nat).length + 1 + K2.length) =
            lin_cnt type (key_size off) := by
          rw [← h5]; simp; omega
        have hnz : c.nonzero = true := by
          rcases hcase with ⟨_, v, hv, rfl, _⟩ | ⟨_, m2, hr, _⟩
          · exact word_nonzero v hv
          · exact Rep_nonzero hr
        have hkid : kidAt (List.replicate e (JNode.word 0) ++ c :: C2) e = c :=
          kidAt_mid e [] C2 c e (by simp)
        have hfirst : lin_first (List.replicate e (JNode.word 0) ++ c :: C2)
            (lin_cnt type (key_size off)) 0 = e := by
          have := lin_first_skip (List.replicate e (JNode.word 0) ++ c :: C2) e
            (lin_cnt type (key_size off)) 0
            (fun i hi => by rw [Nat.zero_add, kidAt_replicate e _ i hi]; rfl)
            (by rw [Nat.zero_add, hkid]; exact hnz) (by simp at hcnt; omega)
          simpa using this
        have hkey : (List.replicate e 0 ++ pack (key_size off) p :: K2).getD e 0 =
            pack (key_size off) p := by
          have := keyAt_mid e [] K2 (pack (key_size off) p)
          simpa using this
        have hpush := push_ok jmax stack
          ⟨.lin type (List.replicate e 0 ++ pack (key_size off) p :: K2)
            (List.replicate e (JNode.word 0) ++ c :: C2), off, ((e : Nat) : Int)⟩ (by omega)
        have hlt : e < lin_cnt type (key_size off) := by simp at hcnt; omega
        rcases hcase with ⟨hl, v, hv, rfl, rfl⟩ | ⟨hl, m2, hr, rfl⟩
        · refine ⟨[⟨.lin type (List.replicate e 0 ++ pack (key_size off) p :: K2)
            (List.replicate e (JNode.word 0) ++ JNode.word v :: C2), off, ((e : Nat) : Int)⟩],
            (p, v), m1, ?_, ?_, rfl⟩
          · rw [judy_first]
            simp only [hfirst, if_pos hlt, hpush, hkey, and255,
              (pack_mod _ p hp hks1).2 hl, if_true, hkid]
            rfl
          · exact ⟨e, [], K2, [], C2, [], m1, p, _, h1, h2, rfl, rfl, hcnt, h7, hp, Slots.nil,
              hs2, Or.inl ⟨hl, rfl, rfl, rfl, rfl, rfl⟩⟩
        · have hne2 := Rep_ne_nil _ hr
          obtain ⟨fs, e1, B1, hloop, hpath, hm2⟩ := ih (off + key_size off) c m2
            (⟨.lin type (List.replicate e 0 ++ pack (key_size off) p :: K2)
              (List.replicate e (JNode.word 0) ++ c :: C2), off, ((e : Nat) : Int)⟩ :: stack)
            fuel hr
            (fun e1 he1 => by
              have := hf (p ++ e1.1, e1.2) (List.mem_append_left _ (List.mem_map.2 ⟨e1, he1, rfl⟩))
              simp only [List.length_append] at this
              omega)
            (fun e1 he1 => by
              have := hj (p ++ e1.1, e1.2) (List.mem_append_left _ (List.mem_map.2 ⟨e1, he1, rfl⟩))
              simp only [List.length_append, List.length_cons] at this ⊢
              omega)
          have hnzk : ¬ pack (key_size off) p % 256 = 0 := by
            rw [pack_mod _ p hp hks1]; omega
          subst hm2
          refine ⟨fs ++ [⟨.lin type (List.replicate e 0 ++ pack (key_size off) p :: K2)
            (List.replicate e (JNode.word 0) ++ c :: C2), off, ((e : Nat) : Int)⟩],
            (p ++ e1.1, e1.2), pre p B1 ++ m1, ?_, ?_, rfl⟩
          · rw [judy_first]
            simp only [hfirst, if_pos hlt, hpush, hkey, and255, hnzk, if_false, hkid,
              JUDY_key_mask, or7, hloop]
            simp
          · exact ⟨e, [], K2, [], C2, [], m1, p, _, h1, h2, rfl, rfl, hcnt, h7, hp, Slots.nil,
              hs2, Or.inr ⟨hl, fs, [], e1.1, B1, hpath, rfl, rfl, rfl, rfl⟩⟩
    | radix table =>
      obtain ⟨hO, ms, hR, rfl, hne⟩ := hrep
      obtain ⟨b, _, hb, hmb, hbefore, hcat⟩ := rcat_first ms 256 0 hne
      have hb : b < 256 := by omega
      have hnzb : ∀ b1, b1 < 256 → (radixAt table b1).nonzero = !(ms b1).isEmpty :=
        fun b1 hb1 => RSlot_nonzero (hR b1 hb1)
      have hscan : radix_first table 257 0 = .found b (radixAt table b) := by
        refine (radix_first_spec table 16 hO 257 0 (by omega)).1 b (Nat.zero_le _) hb
          (fun b1 h1 h2 => ?_) ?_
        · rw [hnzb b1 (by omega), hbefore b1 h1 h2]; rfl
        · rw [hnzb b hb]
          cases hms : ms b with
          | nil => exact absurd hms hmb
          | cons a l => rfl
      have hpush := push_ok jmax stack ⟨.radix table, off, ((b : Nat) : Int)⟩ (by omega)
      have hA : rcat ms 0 b = [] := rcat_nil_lt ms 0 b (fun i h1 h2 => hbefore i h1 (by omega))
      have hcat2 : rcat ms 0 256 = ms b ++ rcat ms (b + 1) (255 - b) := by
        rw [hcat]; congr 2; omega
      rcases hR b hb with ⟨_, h0⟩ | ⟨hb0, v, hv, hx, hms⟩ | ⟨hb0, m1, hr, hms⟩
      · exact absurd h0 hmb
      · subst hb0
        obtain ⟨inner, hi1, _⟩ := radixAt_inner table 0 (by rw [hx]; exact word_nonzero v hv)
        refine ⟨[⟨.radix table, off, ((0 : Nat) : Int)⟩], ([], v), rcat ms 1 255, ?_, ?_, ?_⟩
        · rw [judy_first]
          simp only [hscan, hpush, if_true, hx]
          rfl
        · exact ⟨ms, 0, hb, OuterOK_weaken hO, ⟨inner, hi1⟩, fun b1 hb1 _ => hR b1 hb1,
            Or.inl ⟨rfl, hx, rfl, rfl, rfl, rfl⟩⟩
        · rw [hcat2, hms]; rfl
      · obtain ⟨inner, hi1, _⟩ := radixAt_inner table b (Rep_nonzero hr)
        have hin : ∀ e1 ∈ m1, (b :: e1.1, e1.2) ∈ rcat ms 0 256 := by
          intro e1 he1
          rw [hcat2, hms]
          exact List.mem_append_left _ (List.mem_map.2 ⟨e1, he1, rfl⟩)
        obtain ⟨fs, e1, B1, hloop, hpath, hm2⟩ := ih (off + 1) (radixAt table b) m1
          (⟨.radix table, off, ((b : Nat) : Int)⟩ :: stack) fuel hr
          (fun e1 he1 => by
            have := hf _ (hin e1 he1)
            simp only [List.length_cons] at this
            omega)
          (fun e1 he1 => by
            have := hj _ (hin e1 he1)
            simp only [List.length_cons] at this ⊢
            omega)
        subst hm2
        refine ⟨fs ++ [⟨.radix table, off, ((b : Nat) : Int)⟩], (b :: e1.1, e1.2),
          pre [b] B1 ++ rcat ms (b + 1) (255 - b), ?_, ?_, ?_⟩
        · rw [judy_first]
          simp only [hscan, hpush, hb0, if_false, hloop]
          simp
        · exact ⟨ms, b, hb, OuterOK_weaken hO, ⟨inner, hi1⟩, fun b1 hb1 _ => hR b1 hb1,
            Or.inr ⟨hb0, fs, [], e1.1, B1, hpath, rfl, rfl, by rw [hA]; rfl, rfl⟩⟩
        · rw [hcat2, hms]; rfl
    | span base kid =>
      obtain ⟨hal, p, hp, rfl, hcase⟩ := hrep
      have h24 : JUDY_span_bytes = 24 := rfl
      have hpl : p.length ≤ 24 := by
        rcases hcase with ⟨hl, _⟩ | ⟨hl, _⟩ <;> omega
      have hpush := push_ok jmax stack
        ⟨.span (p ++ List.replicate (JUDY_span_bytes - p.length) 0) kid, off, 0⟩ (by omega)
      have hlast := span_last_byte p hp hpl
      rcases hcase with ⟨hl, v, hv, rfl, rfl⟩ | ⟨hl, m1, hr, rfl⟩
      · refine ⟨[⟨.span (p ++ List.replicate (JUDY_span_bytes - p.length) 0) (.word v), off,
          0⟩], (p, v), [], ?_, ?_, rfl⟩
        · rw [judy_first]
          simp only [hpush, if_pos (hlast.2 (by rw [h24] at hl; exact hl))]
          rfl
        · exact ⟨hal, p, hp, rfl, Or.inl ⟨hl, rfl, rfl, rfl, rfl, rfl⟩⟩
      · obtain ⟨fs, e1, B1, hloop, hpath, hm2⟩ := ih (off + JUDY_span_bytes) kid m1
          (⟨.span (p ++ List.replicate (JUDY_span_bytes - p.length) 0) kid, off, 0⟩ :: stack)
          fuel hr
          (fun e1 he1 => by
            have := hf (p ++ e1.1, e1.2) (List.mem_map.2 ⟨e1, he1, rfl⟩)
            simp only [List.length_append] at this
            omega)
          (fun e1 he1 => by
            have := hj (p ++ e1.1, e1.2) (List.mem_map.2 ⟨e1, he1, rfl⟩)
            simp only [List.length_append, List.length_cons] at this ⊢
            omega)
        subst hm2
        refine ⟨fs ++ [⟨.span (p ++ List.replicate (JUDY_span_bytes - p.length) 0) kid, off,
          0⟩], (p ++ e1.1, e1.2), pre p B1, ?_, ?_, rfl⟩
        · rw [judy_first]
          simp only [hpush, if_neg (fun h => by have := hlast.1 h; omega), hloop]
          simp
        · exact ⟨hal, p, hp, rfl, Or.inr ⟨hl, fs, [], e1.1, B1, hpath, rfl, rfl, rfl, rfl⟩⟩


/-! ## `judy_nxt` -/

theorem Slots.nil_of_nil {d off ks : Nat} {K : List Nat} {C : List JNode}
    (h : Slots (Rep d off) ks K C []) : K = [] := by
  cases K with
  | nil => rfl
  | cons x K =>
    exact absurd rfl (h.ne_nil (fun c m1 hr => Rep_ne_nil _ hr) (by simp))

/-- One step of `judy_nxt` at the frame of a linear node: the cursor stands on slot `j`, the
slots up to `j` hold `mA`, the slots after it hold `mB`. -/
theorem lin_nxt_frame (jmax d off type e0 j : Nat) (K1 K2 : List Nat) (C1 C2 : List JNode)
    (mA mB : List Ent) (rest : List JudyStack)
    (h1 : 1 ≤ type) (h2 : type ≤ 6) (hj : j + 1 = e0 + K1.length)
    (hcnt : e0 + (K1.length + K2.length) = lin_cnt type (key_size off))
    (hpw : (K1 ++ K2).Pairwise (· < ·))
    (hs1 : Slots (Rep d (off + key_size off)) (key_size off) K1 C1 mA)
    (hs2 : Slots (Rep d (off + key_size off)) (key_size off) K2 C2 mB)
    (hb : ∀ x ∈ mB, rest.length + x.1.length + 1 ≤ jmax) :
    (mB = [] → nxt_loop jmax (⟨.lin type (List.replicate e0 0 ++ (K1 ++ K2))
        (List.replicate e0 (JNode.word 0) ++ (C1 ++ C2)), off, ((j : Nat) : Int)⟩ :: rest) =
      nxt_loop jmax rest) ∧
    (∀ e1 B1, mB = e1 :: B1 → ∃ fs1,
      nxt_loop jmax (⟨.lin type (List.replicate e0 0 ++ (K1 ++ K2))
        (List.replicate e0 (JNode.word 0) ++ (C1 ++ C2)), off, ((j : Nat) : Int)⟩ :: rest) =
        some (fs1 ++ rest, some (.word e1.2)) ∧
      Path (d + 1) off (.lin type (List.replicate e0 0 ++ (K1 ++ K2))
        (List.replicate e0 (JNode.word 0) ++ (C1 ++ C2))) fs1 mA e1 B1) := by
  have hks1 := key_size_pos off
  have hlen1 := hs1.length_eq
  have hslot : ((j : Nat) : Int) + 1 = ((e0 + K1.length : Nat) : Int) := by omega
  constructor
  · intro hm
    subst hm
    have hk2 := hs2.nil_of_nil
    subst hk2
    rw [nxt_loop]
    simp only [hslot]
    rw [if_neg (by simp at hcnt; omega)]
  · intro e1 B1 hm
    subst hm
    cases K2 with
    | nil => cases hs2
    | cons x K3 =>
      obtain ⟨q, c, C3, m1, rfl, rfl, hq, hs3, hcase⟩ := hs2.cons_inv
      have hcnt2 : e0 + (K1.length + 1 + K3.length) = lin_cnt type (key_size off) := by
        simp at hcnt; omega
      have hkey := keyAt_mid e0 K1 K3 (pack (key_size off) q)
      have hkid : kidAt (List.replicate e0 (JNode.word 0) ++ (C1 ++ c :: C3))
          (e0 + K1.length) = c := kidAt_mid e0 C1 C3 c _ (by rw [hlen1])
      have hlt : ((e0 + K1.length : Nat) : Int) < ((lin_cnt type (key_size off) : Nat) : Int) := by
        omega
      rcases hcase with ⟨hl, v, hv, rfl, hm⟩ | ⟨hl, m2, hr, hm⟩
      · simp only [List.cons.injEq] at hm
        obtain ⟨rfl, rfl⟩ := hm
        refine ⟨[⟨JNode.lin type (List.replicate e0 0 ++ (K1 ++ pack (key_size off) q :: K3))
          (List.replicate e0 (JNode.word 0) ++ (C1 ++ JNode.word v :: C3)), off,
          ((e0 + K1.length : Nat) : Int)⟩], ?_, ?_⟩
        · rw [nxt_loop]
          simp only [hslot, if_pos hlt, Int.toNat_ofNat, hkey, and255,
            (pack_mod _ q hq hks1).2 hl, if_true, hkid]
          rw [if_neg (by omega)]
          rfl
        · exact ⟨e0, K1, K3, C1, C3, mA, B1, q, _, h1, h2, rfl, rfl, hcnt2, hpw, hq, hs1, hs3,
            Or.inl ⟨hl, rfl, rfl, rfl, rfl, rfl⟩⟩
      · have hin : ∀ x ∈ m2, (q ++ x.1, x.2) ∈ e1 :: B1 := by
          intro x hx
          rw [hm]
          exact List.mem_append_left _ (List.mem_map.2 ⟨x, hx, rfl⟩)
        obtain ⟨fs, x1, B2, hloop, hpath, hm2⟩ := first_spec jmax d (off + key_size off) c m2
          (⟨.lin type (List.replicate e0 0 ++ (K1 ++ pack (key_size off) q :: K3))
            (List.replicate e0 (JNode.word 0) ++ (C1 ++ c :: C3)), off,
            ((e0 + K1.length : Nat) : Int)⟩ :: rest) (jmax + 1) hr
          (fun x hx => by
            have := hb _ (hin x hx)
            simp only [List.length_append] at this
            omega)
          (fun x hx => by
            have := hb _ (hin x hx)
            simp only [List.length_append, List.length_cons] at this ⊢
            omega)
        subst hm2
        simp only [pre_cons, List.cons_append, List.cons.injEq] at hm
        obtain ⟨rfl, rfl⟩ := hm
        have hnzk : ¬ pack (key_size off) q % 256 = 0 := by
          rw [pack_mod _ q hq hks1]; omega
        refine ⟨fs ++ [⟨JNode.lin type (List.replicate e0 0 ++ (K1 ++ pack (key_size off) q :: K3))
          (List.replicate e0 (JNode.word 0) ++ (C1 ++ c :: C3)), off,
          ((e0 + K1.length : Nat) : Int)⟩], ?_, ?_⟩
        · rw [nxt_loop]
          simp only [hslot, if_pos hlt, Int.toNat_ofNat, hkey, and255, hnzk, if_false, hkid,
            JUDY_key_mask, or7]
          rw [if_neg (by omega), hloop]
          simp
        · exact ⟨e0, K1, K3, C1, C3, mA, m1, q, _, h1, h2, rfl, rfl, hcnt2, hpw, hq, hs1, hs3,
            Or.inr ⟨hl, fs, [], x1.1, B2, hpath, rfl, rfl, by simp [pre_nil], rfl⟩⟩

theorem rcat_eq_nil (ms : Nat → List Ent) : ∀ (n lo : Nat), rcat ms lo n = [] →
    ∀ i, lo ≤ i → i < lo + n → ms i = [] := by
  intro n
  induction n with
  | zero => intro lo _ i h1 h2; omega
  | succ n ih =>
    intro lo h i h1 h2
    rw [rcat, List.append_eq_nil] at h
    rcases Nat.eq_or_lt_of_le h1 with heq | hlt
    · rw [← heq]; exact h.1
    · exact ih (lo + 1) h.2 i hlt (by omega)

/-- One step of `judy_nxt` at the frame of a radix node whose cursor stands on the byte `b`. -/
theorem radix_nxt_frame (jmax d off b : Nat) (table : List JNode) (ms : Nat → List Ent)
    (rest : List JudyStack) (hb : b < 256) (hO : OuterOK table 16)
    (hR : ∀ b1, b1 < 256 → RSlot (Rep d (off + 1)) b1 (radixAt table b1) (ms b1))
    (hbd : ∀ x ∈ rcat ms (b + 1) (255 - b), rest.length + x.1.length + 1 ≤ jmax) :
    (rcat ms (b + 1) (255 - b) = [] →
      nxt_loop jmax (⟨.radix table, off, ((b : Nat) : Int)⟩ :: rest) = nxt_loop jmax rest) ∧
    (∀ e1 B1, rcat ms (b + 1) (255 - b) = e1 :: B1 → ∃ fs1,
      nxt_loop jmax (⟨.radix table, off, ((b : Nat) : Int)⟩ :: rest) =
        some (fs1 ++ rest, some (.word e1.2)) ∧
      Path (d + 1) off (.radix table) fs1 (rcat ms 0 (b + 1)) e1 B1) := by
  have hnzb : ∀ b1, b1 < 256 → (radixAt table b1).nonzero = !(ms b1).isEmpty :=
    fun b1 hb1 => RSlot_nonzero (hR b1 hb1)
  have hslot : (((b : Nat) : Int) + 1).toNat = b + 1 := by omega
  have hneg : ¬ ((b : Nat) : Int) + 1 < 0 := by omega
  constructor
  · intro hnil
    have hall := rcat_eq_nil ms (255 - b) (b + 1) hnil
    rw [nxt_loop]
    simp only [if_neg hneg, hslot]
    rw [(radix_first_spec table 16 hO 257 (b + 1) (by omega)).2
      (fun b1 h1 h2 => by rw [hnzb b1 h2, hall b1 h1 (by omega)]; rfl)]
  · intro e1 B1 hcons
    obtain ⟨b2, hb21, hb22, hmb, hbefore, hcat⟩ := rcat_first ms (255 - b) (b + 1)
      (by rw [hcons]; simp)
    have hb2 : b2 < 256 := by omega
    have hscan : radix_first table 257 (b + 1) = .found b2 (radixAt table b2) := by
      refine (radix_first_spec table 16 hO 257 (b + 1) (by omega)).1 b2 hb21 hb2
        (fun b1 h1 h2 => ?_) ?_
      · rw [hnzb b1 (by omega), hbefore b1 h1 h2]; rfl
      · rw [hnzb b2 hb2]
        cases hms : ms b2 with
        | nil => exact absurd hms hmb
        | cons a l => rfl
    have hcat2 : rcat ms (b + 1) (255 - b) = ms b2 ++ rcat ms (b2 + 1) (255 - b2) := by
      rw [hcat]; congr 2; omega
    have hA : rcat ms 0 b2 = rcat ms 0 (b + 1) := by
      have := rcat_add ms 0 (b + 1) (b2 - (b + 1))
      rw [show b + 1 + (b2 - (b + 1)) = b2 by omega, Nat.zero_add] at this
      rw [this, rcat_nil_lt ms (b + 1) (b2 - (b + 1)) (fun i h1 h2 => hbefore i h1 (by omega))]
      simp
    rcases hR b2 hb2 with ⟨_, h0⟩ | ⟨hb0, _⟩ | ⟨hb0, m1, hr, hms⟩
    · exact absurd h0 hmb
    · omega
    · obtain ⟨inner, hi1, _⟩ := radixAt_inner table b2 (Rep_nonzero hr)
      have hin : ∀ x ∈ m1, (b2 :: x.1, x.2) ∈ rcat ms (b + 1) (255 - b) := by
        intro x hx
        rw [hcat2, hms]
        exact List.mem_append_left _ (List.mem_map.2 ⟨x, hx, rfl⟩)
      obtain ⟨fs, x1, B2, hloop, hpath, hm2⟩ := first_spec jmax d (off + 1) (radixAt table b2) m1
        (⟨.radix table, off, ((b2 : Nat) : Int)⟩ :: rest) (jmax + 1) hr
        (fun x hx => by
          have := hbd _ (hin x hx)
          simp only [List.length_cons] at this
          omega)
        (fun x hx => by
          have := hbd _ (hin x hx)
          simp only [List.length_cons] at this ⊢
          omega)
      subst hm2
      rw [hcons, hms] at hcat2
      simp only [pre_cons, List.cons_append, List.cons.injEq, List.singleton_append] at hcat2
      obtain ⟨rfl, rfl⟩ := hcat2
      refine ⟨fs ++ [⟨.radix table, off, ((b2 : Nat) : Int)⟩], ?_, ?_⟩
      · rw [nxt_loop]
        simp only [if_neg hneg, hslot, hscan, hloop]
        simp
      · exact ⟨ms, b2, hb2, OuterOK_weaken hO, ⟨inner, hi1⟩, fun b1 hb1 _ => hR b1 hb1,
          Or.inr ⟨hb0, fs, [], x1.1, B2, hpath, rfl, rfl, by rw [hA]; simp [pre_nil], rfl⟩⟩

theorem nxt_spec (jmax : Nat) : ∀ (d off : Nat) (n : JNode) (fs : List JudyStack)
    (A B : List Ent) (s : List Nat) (v : Nat) (rest : List JudyStack),
    Path d off n fs A (s, v) B → 0 < v → (∀ x ∈ B, rest.length + x.1.length + 1 ≤ jmax) →
    (B = [] → nxt_loop jmax (fs ++ rest) = nxt_loop jmax rest) ∧
    (∀ e1 B1, B = e1 :: B1 → ∃ fs1,
      nxt_loop jmax (fs ++ rest) = some (fs1 ++ rest, some (.word e1.2)) ∧
      Path d off n fs1 (A ++ [(s, v)]) e1 B1) := by
  intro d
  induction d with
  | zero => intro off n fs A B s v rest h; exact absurd h (by simp [Path])
  | succ d ih =>
    intro off n fs A B s v rest h hv hb
    have hks1 := key_size_pos off
    cases n with
    | word w => exact absurd h (by simp [Path])
    | lin type keys kids =>
      obtain ⟨e0, K1, K2, C1, C2, mA, mB, p, c, h1, h2, rfl, rfl, h5, h6, h7, h8, h9, h10⟩ := h
      have hpw : ((K1 ++ [pack (key_size off) p]) ++ K2).Pairwise (· < ·) := by
        simpa using h6
      have hcnt : e0 + ((K1 ++ [pack (key_size off) p]).length + K2.length) =
          lin_cnt type (key_size off) := by
        simp only [List.length_append, List.length_singleton]; omega
      have hj : e0 + K1.length + 1 = e0 + (K1 ++ [pack (key_size off) p]).length := by
        simp only [List.length_append, List.length_singleton]; omega
      rcases h10 with ⟨hl, rfl, hs, rfl, rfl, rfl⟩ | ⟨hl, fs1, A1, s1, B1, hp, rfl, hs, rfl, rfl⟩
      · simp only at hs
        subst hs
        have hsA := h8.append (Slots.leaf h7 hl hv Slots.nil)
        have := lin_nxt_frame jmax d off type e0 (e0 + K1.length) _ K2 _ C2 _ B rest h1 h2 hj
          hcnt hpw hsA h9 hb
        simp only [List.append_assoc, List.singleton_append, List.cons_append,
          List.nil_append] at this
        exact this
      · simp only at hs hp
        subst hs
        have hsA := h8.append (Slots.node h7 hl (Path_Rep d hp hv) Slots.nil)
        have hframe := lin_nxt_frame jmax d off type e0 (e0 + K1.length) _ K2 _ C2 _ mB rest
          h1 h2 hj hcnt hpw hsA h9
        simp only [List.append_assoc, List.singleton_append, List.cons_append,
          List.nil_append, List.append_nil] at hframe
        have hchild := ih (off + key_size off) c fs1 A1 B1 s1 v
          (⟨.lin type (List.replicate e0 0 ++ (K1 ++ pack (key_size off) p :: K2))
            (List.replicate e0 (JNode.word 0) ++ (C1 ++ c :: C2)), off,
            ((e0 + K1.length : Nat) : Int)⟩ :: rest) hp hv
          (fun x hx => by
            have := hb (p ++ x.1, x.2) (List.mem_append_left _ (List.mem_map.2 ⟨x, hx, rfl⟩))
            simp only [List.length_append, List.length_cons] at this ⊢
            omega)
        simp only [List.append_assoc, List.singleton_append]
        cases B1 with
        | nil =>
          rw [hchild.1 rfl]
          simp only [pre_nil, List.nil_append] at hb ⊢
          have := hframe hb
          simp only [pre_append, pre_cons, pre_nil, List.append_assoc, List.singleton_append]
            at this ⊢
          exact this
        | cons x1 B2 =>
          obtain ⟨fs2, hloop, hpath⟩ := hchild.2 x1 B2 rfl
          refine ⟨fun h => by simp [pre_cons] at h, fun e1 Bt hB => ?_⟩
          simp only [pre_cons, List.cons_append, List.cons.injEq] at hB
          obtain ⟨rfl, rfl⟩ := hB
          refine ⟨fs2 ++ [⟨.lin type (List.replicate e0 0 ++ (K1 ++ pack (key_size off) p :: K2))
            (List.replicate e0 (JNode.word 0) ++ (C1 ++ c :: C2)), off,
            ((e0 + K1.length : Nat) : Int)⟩], by rw [hloop]; simp, ?_⟩
          exact ⟨e0, K1, K2, C1, C2, mA, mB, p, c, h1, h2, rfl, rfl, h5, h6, h7, h8, h9,
            Or.inr ⟨hl, fs2, A1 ++ [(s1, v)], x1.1, B2, hpath, rfl, rfl,
              by simp [pre_append, pre_cons, pre_nil], rfl⟩⟩
    | radix table =>
      obtain ⟨ms, b, hb256, hO, hinner, hR, h4⟩ := h
      rcases h4 with ⟨hb0, hc, hs, rfl, rfl, rfl⟩ | ⟨hb0, fs1, A1, s1, B1, hp, rfl, hs, rfl, rfl⟩
      · simp only at hs hc
        subst hs
        subst hb0
        have hO2 : OuterOK table 16 :=
          OuterOK_fill hb256 hO (by rw [hc]; exact word_nonzero v hv)
        have hR2 : ∀ b1, b1 < 256 → RSlot (Rep d (off + 1)) b1 (radixAt table b1)
            ((fun i => if i = 0 then [(([] : List Nat), v)] else ms i) b1) := by
          intro b1 hb1
          by_cases h0 : b1 = 0
          · subst h0
            simp only [if_true]
            exact Or.inr (Or.inl ⟨rfl, v, hv, hc, rfl⟩)
          · simp only [if_neg h0]
            exact hR b1 hb1 h0
        have hBeq : rcat (fun i => if i = 0 then [(([] : List Nat), v)] else ms i) (0 + 1)
            (255 - 0) = rcat ms 1 255 :=
          rcat_congr _ _ _ _ (fun i h1 _ => by simp only [if_neg (by omega : ¬ i = 0)])
        have hframe := radix_nxt_frame jmax d off 0 table _ rest hb256 hO2 hR2
          (by rw [hBeq]; exact hb)
        rw [hBeq] at hframe
        have hAeq : rcat (fun i => if i = 0 then [(([] : List Nat), v)] else ms i) 0 (0 + 1) =
            [] ++ [(([] : List Nat), v)] := by
          simp [rcat]
        rw [hAeq] at hframe
        exact hframe
      · simp only at hs hp
        subst hs
        have hrc := Path_Rep d hp hv
        have hO2 : OuterOK table 16 := OuterOK_fill hb256 hO (Rep_nonzero hrc)
        have hchild := ih (off + 1) (radixAt table b) fs1 A1 B1 s1 v
          (⟨.radix table, off, ((b : Nat) : Int)⟩ :: rest) hp hv
          (fun x hx => by
            have := hb (b :: x.1, x.2) (List.mem_append_left _ (List.mem_map.2 ⟨x, hx, rfl⟩))
            simp only [List.length_cons] at this ⊢
            omega)
        simp only [List.append_assoc, List.singleton_append]
        cases B1 with
        | nil =>
          rw [hchild.1 rfl]
          have hR2 : ∀ b1, b1 < 256 → RSlot (Rep d (off + 1)) b1 (radixAt table b1)
              ((fun i => if i = b then pre [b] (A1 ++ [(s1, v)]) else ms i) b1) := by
            intro b1 hb1
            by_cases h0 : b1 = b
            · subst h0
              simp only [if_true]
              exact Or.inr (Or.inr ⟨hb0, _, hrc, rfl⟩)
            · simp only [if_neg h0]
              exact hR b1 hb1 h0
          have hBeq : rcat (fun i => if i = b then pre [b] (A1 ++ [(s1, v)]) else ms i) (b + 1)
              (255 - b) = rcat ms (b + 1) (255 - b) :=
            rcat_congr _ _ _ _ (fun i h1 _ => by simp only [if_neg (by omega : ¬ i = b)])
          simp only [pre_nil, List.nil_append] at hb ⊢
          have hframe := radix_nxt_frame jmax d off b table _ rest hb256 hO2 hR2
            (by rw [hBeq]; exact hb)
          rw [hBeq] at hframe
          have hAeq : rcat (fun i => if i = b then pre [b] (A1 ++ [(s1, v)]) else ms i) 0
              (b + 1) = rcat ms 0 b ++ (pre [b] A1 ++ [(b :: s1, v)]) := by
            rw [rcat_add, Nat.zero_add]
            rw [rcat_congr _ ms 0 b (fun i _ h2 => by
              simp only [if_neg (by omega : ¬ i = b)])]
            simp [rcat, pre_append, pre_cons, pre_nil]
          rw [hAeq] at hframe
          exact hframe
        | cons x1 B2 =>
          obtain ⟨fs2, hloop, hpath⟩ := hchild.2 x1 B2 rfl
          refine ⟨fun h => by simp [pre_cons] at h, fun e1 Bt hB => ?_⟩
          simp only [pre_cons, List.cons_append, List.cons.injEq, List.singleton_append] at hB
          obtain ⟨rfl, rfl⟩ := hB
          refine ⟨fs2 ++ [⟨.radix table, off, ((b : Nat) : Int)⟩], by rw [hloop]; simp, ?_⟩
          exact ⟨ms, b, hb256, hO, hinner, hR, Or.inr ⟨hb0, fs2, A1 ++ [(s1, v)], x1.1, B2,
            hpath, rfl, rfl, by simp [pre_append, pre_cons, pre_nil], rfl⟩⟩
    | span base kid =>
      obtain ⟨hal, p, hpz, hbase, h4⟩ := h
      rcases h4 with ⟨hl, rfl, hs, rfl, rfl, rfl⟩ | ⟨hl, fs1, A1, s1, B1, hp, rfl, hs, rfl, rfl⟩
      · refine ⟨fun _ => ?_, fun e1 B1 h => by cases h⟩
        rw [List.singleton_append, nxt_loop]
      · simp only at hs hp
        subst hs
        have hchild := ih (off + JUDY_span_bytes) kid fs1 A1 B1 s1 v
          (⟨.span base kid, off, 0⟩ :: rest) hp hv
          (fun x hx => by
            have := hb (p ++ x.1, x.2) (List.mem_map.2 ⟨x, hx, rfl⟩)
            have h24 : JUDY_span_bytes = 24 := rfl
            simp only [List.length_append, List.length_cons] at this ⊢
            omega)
        simp only [List.append_assoc, List.singleton_append]
        cases B1 with
        | nil =>
          refine ⟨fun _ => ?_, fun e1 B1 h => by simp [pre_nil] at h⟩
          rw [hchild.1 rfl, nxt_loop]
        | cons x1 B2 =>
          obtain ⟨fs2, hloop, hpath⟩ := hchild.2 x1 B2 rfl
          refine ⟨fun h => by simp [pre_cons] at h, fun e1 Bt hB => ?_⟩
          simp only [pre_cons, List.cons.injEq] at hB
          obtain ⟨rfl, rfl⟩ := hB
          refine ⟨fs2 ++ [⟨.span base kid, off, 0⟩], by rw [hloop]; simp, ?_⟩
          exact ⟨hal, p, hpz, hbase, Or.inr ⟨hl, fs2, A1 ++ [(s1, v)], x1.1, B2, hpath, rfl, rfl,
            by simp [pre_append, pre_cons, pre_nil], rfl⟩⟩


/-! ## The enumeration -/

theorem ins_mem_iff (k : List Nat) (v : Nat) (e : Ent) : ∀ m : List Ent,
    e ∈ ins k v m → e = (k, v) ∨ e ∈ m := by
  intro m
  induction m with
  | nil => intro h; simp [ins] at h; exact Or.inl h
  | cons a m ih =>
    intro h
    rw [ins] at h
    split at h
    · rcases List.mem_cons.1 h with h | h
      · exact Or.inl h
      · exact Or.inr h
    · split at h
      · rcases List.mem_cons.1 h with h | h
        · exact Or.inl h
        · exact Or.inr (List.mem_cons_of_mem _ h)
      · rcases List.mem_cons.1 h with h | h
        · exact Or.inr (by rw [h]; exact List.mem_cons_self _ _)
        · rcases ih h with h | h
          · exact Or.inl h
          · exact Or.inr (List.mem_cons_of_mem _ h)

theorem insAll_from (M : Nat) [Fact (M ≤ JUDY_open_max)] : ∀ (ops : List Ent) (m : List Ent), OpsOK M ops →
    ∀ e ∈ insAll ops m, e ∈ m ∨ e ∈ ops := by
  intro ops
  induction ops with
  | nil => intro m _ e he; exact Or.inl he
  | cons a ops ih =>
    intro m hops e he
    rcases ih (ins a.1 a.2 m) (fun x hx => hops x (List.mem_cons_of_mem _ hx)) e he with h | h
    · rcases ins_mem_iff a.1 a.2 e m h with h | h
      · exact Or.inr (by rw [h]; exact List.mem_cons_self _ _)
      · exact Or.inl h
    · exact Or.inr (List.mem_cons_of_mem _ h)

theorem insAll_short (M : Nat) [Fact (M ≤ JUDY_open_max)] (ops : List Ent) (hops : OpsOK M ops) :
    Short M (insAll ops []) := by
  intro e he
  rcases insAll_from M ops [] hops e he with h | h
  · simp at h
  · exact (hops e h).2.1

theorem enum_spec (M bmax : Nat) (judy : Judy) (m : List Ent) (d : Nat)
    (hmax : judy.max = M + 1) (hshort : Short M m) (hgood : Good m)
    (hb : M < bmax) (hb32 : bmax < 2 ^ 32) :
    ∀ (B A : List Ent) (e : Ent) (fs : List JudyStack) (buff : List Nat) (fuel : Nat),
      m = A ++ e :: B → Path d 0 judy.root fs A e B → bmax ≤ buff.length → B.length + 1 < fuel →
      enum_loop bmax fuel buff (some ⟨{ judy with stack := fs }, some (.word e.2)⟩) =
        some ((e :: B).map shown) := by
  have hmax1 : (bmax + 2 ^ 32 - 1) % 2 ^ 32 = bmax - 1 := by omega
  intro B
  induction B with
  | nil =>
    intro A e fs buff fuel hm hpath hbl hf
    obtain ⟨s, v⟩ := e
    have hin : (s, v) ∈ m := by rw [hm]; simp
    have hv := (hgood _ hin).2
    have hsl := hshort _ hin
    obtain ⟨f1, rfl⟩ : ∃ f, fuel = f + 2 := ⟨fuel - 2, by simp at hf; omega⟩
    obtain ⟨buff1, hloop, hlen1, htake⟩ := key_loop_path (fun _ => none) (bmax - 1) d 0 judy.root fs A [] s v
      hpath buff 0 (by simp at hsl ⊢; omega) (by omega)
    simp only [Nat.zero_add, List.take_zero, List.nil_append] at hloop htake
    have hkey : judy_key { judy with stack := fs } buff bmax =
        some (buff1.set s.length 0, s.length) := by
      unfold judy_key
      simp only [hmax1, hloop]
    have hnxt := (nxt_spec judy.max d 0 judy.root fs A [] s v [] hpath hv (by simp)).1 rfl
    rw [List.append_nil] at hnxt
    have hfs : ∃ f rest, fs = f :: rest := by
      obtain ⟨f, rest, _, _, h, _⟩ := store_path d 0 _ _ _ _ s v v hpath
      exact ⟨f, rest, h⟩
    obtain ⟨f, rest, hfs⟩ := hfs
    have hn : judy_nxt { judy with stack := fs } = some ⟨{ judy with stack := [] }, none⟩ := by
      unfold judy_nxt
      simp only [hfs]
      rw [← hfs, hnxt]
      rfl
    rw [enum_loop]
    simp only [hkey, hn]
    rw [enum_loop]
    simp only [List.map_cons, List.map_nil, shown]
    rw [(set_take_getD buff1 s.length (by simp at hsl; omega)).1, htake]
  | cons e1 B1 ih =>
    intro A e fs buff fuel hm hpath hbl hf
    obtain ⟨s, v⟩ := e
    have hin : (s, v) ∈ m := by rw [hm]; simp
    have hv := (hgood _ hin).2
    have hsl := hshort _ hin
    obtain ⟨f1, rfl⟩ : ∃ f, fuel = f + 1 := ⟨fuel - 1, by omega⟩
    obtain ⟨buff1, hloop, hlen1, htake⟩ := key_loop_path (fun _ => none) (bmax - 1) d 0 judy.root fs A
      (e1 :: B1) s v hpath buff 0 (by simp at hsl ⊢; omega) (by omega)
    simp only [Nat.zero_add, List.take_zero, List.nil_append] at hloop htake
    have hkey : judy_key { judy with stack := fs } buff bmax =
        some (buff1.set s.length 0, s.length) := by
      unfold judy_key
      simp only [hmax1, hloop]
    obtain ⟨fs1, hnxt, hpath1⟩ := (nxt_spec judy.max d 0 judy.root fs A (e1 :: B1) s v [] hpath hv
      (fun x hx => by
        have := hshort x (by rw [hm]; simp [hx])
        simp only [List.length_nil]
        omega)).2 e1 B1 rfl
    rw [List.append_nil, List.append_nil] at hnxt
    have hfs : ∃ f rest, fs = f :: rest := by
      obtain ⟨f, rest, _, _, h, _⟩ := store_path d 0 _ _ _ _ s v v hpath
      exact ⟨f, rest, h⟩
    obtain ⟨f, rest, hfs⟩ := hfs
    have hn : judy_nxt { judy with stack := fs } =
        some ⟨{ judy with stack := fs1 }, some (.word e1.2)⟩ := by
      unfold judy_nxt
      simp only [hfs]
      rw [← hfs, hnxt]
      rfl
    have hrec := ih (A ++ [(s, v)]) e1 fs1 (buff1.set s.length 0) f1 (by rw [hm]; simp) hpath1
      (by rw [List.length_set]; omega) (by simp at hf; omega)
    rw [enum_loop]
    simp only [hkey, hn, hrec]
    simp only [List.map_cons, shown]
    rw [(set_take_getD buff1 s.length (by simp at hsl; omega)).1, htake]

theorem judy_enum_spec (M bmax : Nat) (judy : Judy) (m : List Ent)
    (hmax : judy.max = M + 1) (hroot : RootRep judy.root m) (hshort : Short M m)
    (hb : M < bmax) (hb32 : bmax < 2 ^ 32) (buff : List Nat) (hbl : bmax ≤ buff.length)
    (fuel : Nat) (hf : m.length + 1 < fuel) :
    judy_enum judy buff bmax fuel = some (m.map shown) := by
  obtain ⟨f1, rfl⟩ : ∃ f, fuel = f + 1 := ⟨fuel - 1, by omega⟩
  unfold judy_enum judy_strt
  rw [if_pos rfl]
  rcases hroot with ⟨h0, rfl⟩ | ⟨d, hr⟩
  · rw [h0, judy_first]
    simp only [mkRes]
    rw [enum_loop]
    rfl
  · obtain ⟨fs, e, B, hfirst, hpath, rfl⟩ := first_spec judy.max d 0 judy.root m [] (judy.max + 1)
      hr (fun e he => by have := hshort e he; omega)
      (fun e he => by have := hshort e he; simp only [List.length_nil]; omega)
    rw [hfirst]
    simp only [List.append_nil, mkRes]
    exact enum_spec M bmax judy (e :: B) d hmax hshort (Rep_sorted_good d hr).2 hb hb32 B [] e fs
      buff (f1 + 1) rfl hpath hbl (by simp at hf; omega)


/-! ## Counting the occurrences of keys -/

theorem find_ins_self (k : List Nat) (v : Nat) : ∀ m : List Ent, find k (ins k v m) = v := by
  intro m
  induction m with
  | nil => simp [ins, find]
  | cons a m ih =>
    rw [ins]
    split
    · simp [find]
    · split
      · simp [find]
      · rename_i _ hne
        rw [find, if_neg (fun h => hne h.symm), ih]

theorem find_ins_ne (k k1 : List Nat) (v : Nat) (h : k1 ≠ k) : ∀ m : List Ent,
    find k1 (ins k v m) = find k1 m := by
  intro m
  induction m with
  | nil => simp [ins, find, Ne.symm h]
  | cons a m ih =>
    rw [ins]
    split
    · rw [find, if_neg (Ne.symm h)]
    · split
      · rename_i _ heq
        rw [find, if_neg (Ne.symm h), find, if_neg (by rw [← heq]; exact Ne.symm h)]
      · rw [find, find, ih]

theorem find_absent (k : List Nat) : ∀ m : List Ent, (∀ e ∈ m, e.1 ≠ k) → find k m = 0 := by
  intro m
  induction m with
  | nil => intro _; rfl
  | cons a m ih =>
    intro h
    rw [find, if_neg (h a (List.mem_cons_self _ _)), ih (fun e he => h e (List.mem_cons_of_mem _ he))]

theorem find_mem (m : List Ent) (hs : Sorted m) (e : Ent) (he : e ∈ m) : find e.1 m = e.2 := by
  obtain ⟨A, B, rfl⟩ := List.append_of_mem he
  exact find_mid e.1 e.2 A B hs

theorem countAll_find (k : List Nat) : ∀ (ks : List (List Nat)) (m : List Ent),
    (∀ k1, find k1 m + ks.length < 2 ^ 64) →
    find k (countAll ks m) = find k m + ks.count k := by
  intro ks
  induction ks with
  | nil => intro m _; simp [countAll]
  | cons k0 ks ih =>
    intro m hm
    have h0 := hm k0
    simp only [List.length_cons] at h0
    have hmod : (find k0 m + 1) % 2 ^ 64 = find k0 m + 1 := Nat.mod_eq_of_lt (by omega)
    have hstep : ∀ k1, find k1 (ins k0 ((find k0 m + 1) % 2 ^ 64) m) =
        if k1 = k0 then find k0 m + 1 else find k1 m := by
      intro k1
      by_cases h : k1 = k0
      · subst h
        rw [if_pos rfl, find_ins_self, hmod]
      · rw [if_neg h, find_ins_ne k0 k1 _ h]
    have := ih (ins k0 ((find k0 m + 1) % 2 ^ 64) m) (fun k1 => by
      rw [hstep k1]
      have := hm k1
      simp only [List.length_cons] at this
      split <;> omega)
    show find k (countAll ks (ins k0 ((find k0 m + 1) % 2 ^ 64) m)) = _
    rw [this, hstep k, List.count_cons]
    by_cases h : k = k0
    · subst h
      simp
      omega
    · rw [if_neg h]
      have : (k0 == k) = false := by
        rw [beq_eq_false_iff_ne]
        exact Ne.symm h
      simp [this]

theorem countAll_keys (k : List Nat) : ∀ (ks : List (List Nat)) (m : List Ent),
    k ∈ (countAll ks m).map Prod.fst ↔ k ∈ m.map Prod.fst ∨ k ∈ ks := by
  intro ks
  induction ks with
  | nil => intro m; simp [countAll]
  | cons k0 ks ih =>
    intro m
    show k ∈ (countAll ks (ins k0 _ m)).map Prod.fst ↔ _
    rw [ih]
    constructor
    · rintro (h | h)
      · obtain ⟨e, he, rfl⟩ := List.mem_map.1 h
        rcases ins_mem_iff _ _ e m he with h | h
        · right; rw [h]; simp
        · left; exact List.mem_map.2 ⟨e, h, rfl⟩
      · right; exact List.mem_cons_of_mem _ h
    · rintro (h | h)
      · obtain ⟨e, he, rfl⟩ := List.mem_map.1 h
        obtain ⟨v1, hv1⟩ := ins_mem_keep k0 ((find k0 m + 1) % 2 ^ 64) e.1 m ⟨e.2, he⟩
        left; exact List.mem_map.2 ⟨_, hv1, rfl⟩
      · rcases List.mem_cons.1 h with h | h
        · left
          rw [h]
          exact List.mem_map.2 ⟨_, ins_mem_self k0 _ m, rfl⟩
        · right; exact h

theorem judy_incr_spec (M : Nat) [Fact (M ≤ JUDY_open_max)] (judy : Judy) (m : List Ent) (k : List Nat)
    (hmax : judy.max = M + 1) (hroot : RootRep judy.root m) (hk : ZF k) (hl : k.length ≤ M)
    (hv : find k m + 1 < 2 ^ 64) :
    ∃ judy1 d, judy_incr judy k = some judy1 ∧ judy1.max = M + 1 ∧
      Rep d 0 judy1.root (ins k ((find k m + 1) % 2 ^ 64) m) := by
  obtain ⟨n1, fs, c, A, B, d, hcell, hpath, hres⟩ := judy_cell_spec M judy m k hmax hroot hk hl
  have hsorted1 : Sorted (A ++ (k, 1) :: B) := by
    obtain ⟨_, s2⟩ := judy_store_spec { judy with root := n1, stack := fs } d A B k c 1 hpath
    exact (Rep_sorted_good d (Path_Rep d s2 (by decide))).1
  have hc : c = find k m := by
    rcases hres with ⟨hc, rfl⟩ | ⟨_, rfl, _⟩
    · rw [hc]
      symm
      apply find_absent
      intro e he habs
      unfold Sorted at hsorted1
      rw [List.pairwise_append] at hsorted1
      rcases List.mem_append.1 he with h | h
      · have := hsorted1.2.2 _ h (k, 1) (List.mem_cons_self _ _)
        rw [habs] at this
        exact lt_irrefl k this
      · have := (List.pairwise_cons.1 hsorted1.2.1).1 _ h
        rw [habs] at this
        exact lt_irrefl k this
    · exact (find_mid k c A B (Sorted_value c hsorted1)).symm
  subst hc
  have hpos : 0 < (find k m + 1) % 2 ^ 64 := by
    rw [Nat.mod_eq_of_lt hv]; omega
  obtain ⟨s1, s2⟩ := judy_store_spec { judy with root := n1, stack := fs } d A B k (find k m)
    ((find k m + 1) % 2 ^ 64) hpath
  have hrep := Path_Rep d s2 hpos
  have hsorted := (Rep_sorted_good d hrep).1
  have hinsw : ∀ w, Sorted (A ++ (k, w) :: B) → ins k w m = A ++ (k, w) :: B := by
    intro w hs
    rcases hres with ⟨_, hm⟩ | ⟨_, hm, _⟩
    · rw [hm]; exact ins_mid k w A B hs
    · rw [hm]; exact ins_replace k w _ A B hs
  have hins := hinsw _ hsorted
  refine ⟨_, d, ?_, ?_, by rw [hins]; exact hrep⟩
  · unfold judy_incr
    rw [hcell]
  · rw [s1]; exact hmax

theorem judy_incrs_spec (M : Nat) [Fact (M ≤ JUDY_open_max)] : ∀ (ks : List (List Nat))
    (judy : Judy) (m : List Ent),
    (∀ k ∈ ks, ZF k ∧ k.length ≤ M) → (∀ k1, find k1 m + ks.length < 2 ^ 64) →
    judy.max = M + 1 → RootRep judy.root m →
    ∃ judy1, judy_incrs ks judy = some judy1 ∧ judy1.max = M + 1 ∧
      RootRep judy1.root (countAll ks m) := by
  intro ks
  induction ks with
  | nil => intro judy m _ _ hmax hroot; exact ⟨judy, rfl, hmax, hroot⟩
  | cons k0 ks ih =>
    intro judy m hks hm hmax hroot
    obtain ⟨h1, h2⟩ := hks k0 (List.mem_cons_self _ _)
    have h0 := hm k0
    simp only [List.length_cons] at h0
    obtain ⟨judy1, d, hincr, hmax1, hrep⟩ := judy_incr_spec M judy m k0 hmax hroot h1 h2
      (by omega)
    have hmod : (find k0 m + 1) % 2 ^ 64 = find k0 m + 1 := Nat.mod_eq_of_lt (by omega)
    obtain ⟨judy2, hincrs, hmax2, hroot2⟩ := ih judy1 (ins k0 ((find k0 m + 1) % 2 ^ 64) m)
      (fun k hk => hks k (List.mem_cons_of_mem _ hk))
      (fun k1 => by
        have := hm k1
        simp only [List.length_cons] at this
        by_cases h : k1 = k0
        · subst h
          rw [find_ins_self, hmod]; omega
        · rw [find_ins_ne k0 k1 _ h]; omega)
      hmax1 (Or.inr ⟨d, hrep⟩)
    refine ⟨judy2, ?_, hmax2, hroot2⟩
    rw [judy_incrs, hincr]
    exact hincrs

theorem judy_incrs_oneKey : ∀ (n c : Nat), c < 2 ^ 64 →
    judy_incrs (List.replicate n [97]) (oneKey c) = some (oneKey ((c + n) % 2 ^ 64)) := by
  intro n
  induction n with
  | zero =>
    intro c hc
    rw [Nat.add_zero, Nat.mod_eq_of_lt hc]
    rfl
  | succ n ih =>
    intro c hc
    have h1 : judy_incr (oneKey c) [97] = some (oneKey ((c + 1) % 2 ^ 64)) := rfl
    rw [List.replicate_succ, judy_incrs, h1]
    simp only
    rw [ih _ (Nat.mod_lt _ (by positivity))]
    congr 2
    omega


/-! ## `judy_last` -/

theorem radix_last_spec (table : List JNode) (hole : Nat) (hO : OuterOK table hole) :
    ∀ (fuel slot : Nat), slot ≤ 256 → slot < fuel →
      (∀ b, b < slot →
        (∀ b1, b < b1 → b1 < slot → (radixAt table b1).nonzero = false) →
        (radixAt table b).nonzero = true →
        radix_last table fuel slot = .found b (radixAt table b)) ∧
      ((∀ b1, b1 < slot → (radixAt table b1).nonzero = false) →
        radix_last table fuel slot = .nothing) := by
  intro fuel
  induction fuel with
  | zero => intro slot _ h; omega
  | succ fuel ih =>
    intro slot hs hf
    rcases Nat.eq_zero_or_pos slot with h0 | hpos
    · subst h0
      exact ⟨fun b hb => by omega, fun _ => by rw [radix_last, if_pos rfl]⟩
    · have ho : (slot - 1) >>> 4 < 16 := by rw [shr4]; omega
      rcases hO.2 _ ho with h0 | ⟨inner, h1, _, _⟩
      · have hskip : ∀ b1, (slot - 1) / 16 * 16 ≤ b1 → b1 < slot →
            (radixAt table b1).nonzero = false := by
          intro b1 hb1 hb2
          have : b1 >>> 4 = (slot - 1) >>> 4 := by
            rw [shr4, shr4]
            have h3 : (slot - 1) / 16 ≤ b1 / 16 := by
              have := Nat.div_le_div_right (c := 16) hb1
              rwa [Nat.mul_div_cancel _ (by decide : 0 < 16)] at this
            have h4 : b1 / 16 ≤ (slot - 1) / 16 := Nat.div_le_div_right (by omega)
            omega
          unfold radixAt
          rw [this, h0]
          rfl
        have h240 := and240 (slot - 1) (by omega)
        have hnext := ih ((slot - 1) / 16 * 16) (by omega) (by omega)
        constructor
        · intro b hb hz hnz
          rw [radix_last, if_neg (by omega), h0]
          simp only
          rw [h240]
          have hblt : b < (slot - 1) / 16 * 16 := by
            by_contra hcon
            have := hskip b (by omega) hb
            rw [this] at hnz
            cases hnz
          exact hnext.1 b hblt (fun b1 h1 h2 => hz b1 h1 (by omega)) hnz
        · intro hz
          rw [radix_last, if_neg (by omega), h0]
          simp only
          rw [h240]
          exact hnext.2 (fun b1 h1 => hz b1 (by omega))
      · have hx : radixAt table (slot - 1) = tblAt inner ((slot - 1) &&& 15) := by
          unfold radixAt; rw [h1]
        have hnext := ih (slot - 1) (by omega) (by omega)
        constructor
        · intro b hb hz hnz
          rw [radix_last, if_neg (by omega), h1]
          simp only
          rcases Nat.eq_or_lt_of_le (Nat.le_sub_one_of_lt hb) with heq | hlt
          · subst heq
            rw [← hx, if_pos hnz]
          · have := hz (slot - 1) hlt (by omega)
            rw [← hx, if_neg (by simp [this])]
            exact hnext.1 b hlt (fun b1 h1 h2 => hz b1 h1 (by omega)) hnz
        · intro hz
          have := hz (slot - 1) (by omega)
          rw [radix_last, if_neg (by omega), h1]
          simp only
          rw [← hx, if_neg (by simp [this])]
          exact hnext.2 (fun b1 h1 => hz b1 (by omega))

theorem rcat_last (ms : Nat → List Ent) : ∀ (n lo : Nat), rcat ms lo n ≠ [] →
    ∃ b, lo ≤ b ∧ b < lo + n ∧ ms b ≠ [] ∧ (∀ b1, b < b1 → b1 < lo + n → ms b1 = []) ∧
      rcat ms lo n = rcat ms lo (b - lo) ++ ms b := by
  intro n
  induction n with
  | zero => intro lo h; exact absurd rfl h
  | succ n ih =>
    intro lo h
    have hadd := rcat_add ms lo n 1
    have h1 : rcat ms (lo + n) 1 = ms (lo + n) := by simp [rcat]
    rw [h1] at hadd
    by_cases h0 : ms (lo + n) = []
    · rw [hadd, h0, List.append_nil] at h
      obtain ⟨b, h2, h3, h4, h5, h6⟩ := ih lo h
      refine ⟨b, h2, by omega, h4, fun b1 hb1 hb2 => ?_, ?_⟩
      · rcases Nat.eq_or_lt_of_le (Nat.le_of_lt_succ (by omega : b1 < lo + n + 1)) with heq | hlt
        · rw [heq]; exact h0
        · exact h5 b1 hb1 hlt
      · rw [hadd, h0, List.append_nil, h6]
    · refine ⟨lo + n, by omega, by omega, h0, fun b1 hb1 hb2 => by omega, ?_⟩
      rw [hadd, Nat.add_sub_cancel_left]

theorem Slots.snoc_inv {R : JNode → List Ent → Prop} {ks x : Nat} {K : List Nat}
    {C : List JNode} {m : List Ent} (h : Slots R ks (K ++ [x]) C m) :
    ∃ p c C1 m1, x = pack ks p ∧ C = C1 ++ [c] ∧ ZF p ∧ Slots R ks K C1 m1 ∧
      ((p.length < ks ∧ ∃ v, 0 < v ∧ c = .word v ∧ m = m1 ++ [(p, v)]) ∨
       (p.length = ks ∧ ∃ m2, R c m2 ∧ m = m1 ++ pre p m2)) := by
  obtain ⟨C1, C2, m1, m2, rfl, rfl, hs1, hs2⟩ := Slots.split K h
  obtain ⟨p, c, C3, m3, hxp, rfl, hp, hs3, hcase⟩ := hs2.cons_inv
  obtain ⟨rfl, rfl⟩ := hs3.nil_inv
  refine ⟨p, c, C1, m1, hxp, rfl, hp, hs1, ?_⟩
  rcases hcase with ⟨hl, v, hv, rfl, rfl⟩ | ⟨hl, m4, hr, rfl⟩
  · exact Or.inl ⟨hl, v, hv, rfl, rfl⟩
  · exact Or.inr ⟨hl, m4, hr, by simp⟩

theorem last_spec (jmax : Nat) : ∀ (d off : Nat) (n : JNode) (m : List Ent)
    (stack : List JudyStack) (fuel : Nat), Rep d off n m →
    (∀ e ∈ m, e.1.length + 1 ≤ fuel) → (∀ e ∈ m, stack.length + e.1.length + 1 ≤ jmax) →
    ∃ fs e A, judy_last jmax fuel stack n off = some (fs ++ stack, some (.word e.2)) ∧
      Path d off n fs A e [] ∧ m = A ++ [e] := by
  intro d
  induction d with
  | zero => intro off n m stack fuel h; exact absurd h (by simp [Rep])
  | succ d ih =>
    intro off n m stack fuel hrep hf hj
    have hm := Rep_ne_nil _ hrep
    obtain ⟨e0, hm0⟩ := List.exists_mem_of_ne_nil m hm
    have hf0 := hf e0 hm0
    have hj0 := hj e0 hm0
    obtain ⟨fuel, rfl⟩ : ∃ f, fuel = f + 1 := ⟨fuel - 1, by omega⟩
    have hks1 := key_size_pos off
    cases n with
    | word w => exact absurd hrep (by simp [Rep])
    | lin type keys kids =>
      obtain ⟨e, pk, pc, h1, h2, rfl, rfl, h5, h6, h7, h8⟩ := hrep
      rcases List.eq_nil_or_concat pk with hnil | ⟨K1, x, hk⟩
      · exact absurd hnil h6
      · rw [List.concat_eq_append] at hk
        subst hk
        obtain ⟨p, c, C1, m1, rfl, rfl, hp, hs1, hcase⟩ := h8.snoc_inv
        have hlen1 := hs1.length_eq
        have hcnt : e + (K1.length + 1 + ([] : List Nat).length) =
            lin_cnt type (key_size off) := by
          rw [← h5]; simp
        have hslot : lin_cnt type (key_size off) - 1 = e + K1.length := by
          rw [← hcnt]; simp
        have hkid : kidAt (List.replicate e (JNode.word 0) ++ (C1 ++ [c])) (e + K1.length) = c :=
          kidAt_mid e C1 [] c _ (by rw [hlen1])
        have hkey := keyAt_mid e K1 [] (pack (key_size off) p)
        have hpush := push_ok jmax stack
          ⟨.lin type (List.replicate e 0 ++ (K1 ++ [pack (key_size off) p]))
            (List.replicate e (JNode.word 0) ++ (C1 ++ [c])), off,
            ((e + K1.length : Nat) : Int)⟩ (by omega)
        rcases hcase with ⟨hl, v, hv, rfl, rfl⟩ | ⟨hl, m2, hr, rfl⟩
        · refine ⟨[⟨.lin type (List.replicate e 0 ++ (K1 ++ [pack (key_size off) p]))
            (List.replicate e (JNode.word 0) ++ (C1 ++ [JNode.word v])), off,
            ((e + K1.length : Nat) : Int)⟩], (p, v), m1, ?_, ?_, rfl⟩
          · rw [judy_last]
            simp only [hslot, hpush, hkey, and255, (pack_mod _ p hp hks1).2 hl, if_true, hkid]
            rfl
          · exact ⟨e, K1, [], C1, [], m1, [], p, _, h1, h2, rfl, rfl, hcnt, h7, hp, hs1,
              Slots.nil, Or.inl ⟨hl, rfl, rfl, rfl, rfl, rfl⟩⟩
        · obtain ⟨fs, e1, A1, hloop, hpath, hm2⟩ := ih (off + key_size off) c m2
            (⟨.lin type (List.replicate e 0 ++ (K1 ++ [pack (key_size off) p]))
              (List.replicate e (JNode.word 0) ++ (C1 ++ [c])), off,
              ((e + K1.length : Nat) : Int)⟩ :: stack) fuel hr
            (fun e1 he1 => by
              have := hf (p ++ e1.1, e1.2)
                (List.mem_append_right _ (List.mem_map.2 ⟨e1, he1, rfl⟩))
              simp only [List.length_append] at this
              omega)
            (fun e1 he1 => by
              have := hj (p ++ e1.1, e1.2)
                (List.mem_append_right _ (List.mem_map.2 ⟨e1, he1, rfl⟩))
              simp only [List.length_append, List.length_cons] at this ⊢
              omega)
          have hnzk : ¬ pack (key_size off) p % 256 = 0 := by
            rw [pack_mod _ p hp hks1]; omega
          subst hm2
          refine ⟨fs ++ [⟨.lin type (List.replicate e 0 ++ (K1 ++ [pack (key_size off) p]))
            (List.replicate e (JNode.word 0) ++ (C1 ++ [c])), off,
            ((e + K1.length : Nat) : Int)⟩], (p ++ e1.1, e1.2), m1 ++ pre p A1, ?_, ?_, ?_⟩
          · rw [judy_last]
            simp only [hslot, hpush, hkey, and255, hnzk, if_false, hkid, hloop]
            simp
          · exact ⟨e, K1, [], C1, [], m1, [], p, _, h1, h2, rfl, rfl, hcnt, h7, hp, hs1,
              Slots.nil, Or.inr ⟨hl, fs, A1, e1.1, [], hpath, rfl, rfl, rfl, by simp [pre_nil]⟩⟩
          · simp [pre_append, pre_cons, pre_nil]
    | radix table =>
      obtain ⟨hO, ms, hR, rfl, hne⟩ := hrep
      obtain ⟨b, _, hb, hmb, hafter, hcat⟩ := rcat_last ms 256 0 hne
      have hb : b < 256 := by omega
      have hnzb : ∀ b1, b1 < 256 → (radixAt table b1).nonzero = !(ms b1).isEmpty :=
        fun b1 hb1 => RSlot_nonzero (hR b1 hb1)
      have hscan : radix_last table 257 256 = .found b (radixAt table b) := by
        refine (radix_last_spec table 16 hO 257 256 (le_refl _) (by omega)).1 b hb
          (fun b1 h1 h2 => ?_) ?_
        · rw [hnzb b1 h2, hafter b1 h1 (by omega)]; rfl
        · rw [hnzb b hb]
          cases hms : ms b with
          | nil => exact absurd hms hmb
          | cons a l => rfl
      have hpush := push_ok jmax stack ⟨.radix table, off, ((b : Nat) : Int)⟩ (by omega)
      have hB : rcat ms (b + 1) (255 - b) = [] :=
        rcat_nil_lt ms (b + 1) (255 - b) (fun i h1 h2 => hafter i (by omega) (by omega))
      rw [Nat.sub_zero] at hcat
      rcases hR b hb with ⟨_, h0⟩ | ⟨hb0, v, hv, hx, hms⟩ | ⟨hb0, m1, hr, hms⟩
      · exact absurd h0 hmb
      · subst hb0
        obtain ⟨inner, hi1, _⟩ := radixAt_inner table 0 (by rw [hx]; exact word_nonzero v hv)
        refine ⟨[⟨.radix table, off, ((0 : Nat) : Int)⟩], ([], v), [], ?_, ?_, ?_⟩
        · rw [judy_last]
          simp only [hscan, hpush, if_true, hx]
          rfl
        · exact ⟨ms, 0, hb, OuterOK_weaken hO, ⟨inner, hi1⟩, fun b1 hb1 _ => hR b1 hb1,
            Or.inl ⟨rfl, hx, rfl, rfl, rfl, hB.symm⟩⟩
        · rw [hcat, hms]; rfl
      · obtain ⟨inner, hi1, _⟩ := radixAt_inner table b (Rep_nonzero hr)
        have hin : ∀ e1 ∈ m1, (b :: e1.1, e1.2) ∈ rcat ms 0 256 := by
          intro e1 he1
          rw [hcat, hms]
          exact List.mem_append_right _ (List.mem_map.2 ⟨e1, he1, rfl⟩)
        obtain ⟨fs, e1, A1, hloop, hpath, hm2⟩ := ih (off + 1) (radixAt table b) m1
          (⟨.radix table, off, ((b : Nat) : Int)⟩ :: stack) fuel hr
          (fun e1 he1 => by
            have := hf _ (hin e1 he1)
            simp only [List.length_cons] at this
            omega)
          (fun e1 he1 => by
            have := hj _ (hin e1 he1)
            simp only [List.length_cons] at this ⊢
            omega)
        subst hm2
        refine ⟨fs ++ [⟨.radix table, off, ((b : Nat) : Int)⟩], (b :: e1.1, e1.2),
          rcat ms 0 b ++ pre [b] A1, ?_, ?_, ?_⟩
        · rw [judy_last]
          simp only [hscan, hpush, hb0, if_false, hloop]
          simp
        · exact ⟨ms, b, hb, OuterOK_weaken hO, ⟨inner, hi1⟩, fun b1 hb1 _ => hR b1 hb1,
            Or.inr ⟨hb0, fs, A1, e1.1, [], hpath, rfl, rfl, rfl, by rw [hB]; rfl⟩⟩
        · rw [hcat, hms]; simp [pre_append, pre_cons, pre_nil]
    | span base kid =>
      obtain ⟨hal, p, hp, rfl, hcase⟩ := hrep
      have h24 : JUDY_span_bytes = 24 := rfl
      have hpl : p.length ≤ 24 := by
        rcases hcase with ⟨hl, _⟩ | ⟨hl, _⟩ <;> omega
      have hpush := push_ok jmax stack
        ⟨.span (p ++ List.replicate (JUDY_span_bytes - p.length) 0) kid, off, 0⟩ (by omega)
      have hlast := span_last_byte p hp hpl
      rcases hcase with ⟨hl, v, hv, rfl, rfl⟩ | ⟨hl, m1, hr, rfl⟩
      · refine ⟨[⟨.span (p ++ List.replicate (JUDY_span_bytes - p.length) 0) (.word v), off,
          0⟩], (p, v), [], ?_, ?_, rfl⟩
        · rw [judy_last]
          simp only [hpush, if_pos (hlast.2 (by rw [h24] at hl; exact hl))]
          rfl
        · exact ⟨hal, p, hp, rfl, Or.inl ⟨hl, rfl, rfl, rfl, rfl, rfl⟩⟩
      · obtain ⟨fs, e1, A1, hloop, hpath, hm2⟩ := ih (off + JUDY_span_bytes) kid m1
          (⟨.span (p ++ List.replicate (JUDY_span_bytes - p.length) 0) kid, off, 0⟩ :: stack)
          fuel hr
          (fun e1 he1 => by
            have := hf (p ++ e1.1, e1.2) (List.mem_map.2 ⟨e1, he1, rfl⟩)
            simp only [List.length_append] at this
            omega)
          (fun e1 he1 => by
            have := hj (p ++ e1.1, e1.2) (List.mem_map.2 ⟨e1, he1, rfl⟩)
            simp only [List.length_append, List.length_cons] at this ⊢
            omega)
        subst hm2
        refine ⟨fs ++ [⟨.span (p ++ List.replicate (JUDY_span_bytes - p.length) 0) kid, off,
          0⟩], (p ++ e1.1, e1.2), pre p A1, ?_, ?_, ?_⟩
        · rw [judy_last]
          simp only [hpush, if_neg (fun h => by have := hlast.1 h; omega), hloop]
          simp
        · exact ⟨hal, p, hp, rfl, Or.inr ⟨hl, fs, A1, e1.1, [], hpath, rfl, rfl, rfl, rfl⟩⟩
        · simp [pre_append, pre_cons, pre_nil]


/-! ## `judy_prv` from a frame -/

theorem append_singleton_inj {α : Type} {A B : List α} {a b : α} (h : A ++ [a] = B ++ [b]) :
    A = B ∧ a = b := by
  have := List.append_inj' h rfl
  exact ⟨this.1, by simpa using this.2⟩

/-- One step of `judy_prv` at the frame of a linear node: the cursor stands right after the
slots that hold `mA`, before the slots that hold `mB`. -/
theorem lin_prv_frame (jmax d off type e0 : Nat) (K1 K2 : List Nat) (C1 C2 : List JNode)
    (mA mB : List Ent) (rest : List JudyStack)
    (h1 : 1 ≤ type) (h2 : type ≤ 6)
    (hcnt : e0 + (K1.length + K2.length) = lin_cnt type (key_size off))
    (hpw : (K1 ++ K2).Pairwise (· < ·))
    (hs1 : Slots (Rep d (off + key_size off)) (key_size off) K1 C1 mA)
    (hs2 : Slots (Rep d (off + key_size off)) (key_size off) K2 C2 mB)
    (hb : ∀ x ∈ mA, rest.length + x.1.length + 1 ≤ jmax) :
    (mA = [] → prv_loop jmax (⟨.lin type (List.replicate e0 0 ++ (K1 ++ K2))
        (List.replicate e0 (JNode.word 0) ++ (C1 ++ C2)), off,
        ((e0 + K1.length : Nat) : Int)⟩ :: rest) = prv_loop jmax rest) ∧
    (∀ A1 e1, mA = A1 ++ [e1] → ∃ fs1,
      prv_loop jmax (⟨.lin type (List.replicate e0 0 ++ (K1 ++ K2))
        (List.replicate e0 (JNode.word 0) ++ (C1 ++ C2)), off,
        ((e0 + K1.length : Nat) : Int)⟩ :: rest) = some (fs1 ++ rest, some (.word e1.2)) ∧
      Path (d + 1) off (.lin type (List.replicate e0 0 ++ (K1 ++ K2))
        (List.replicate e0 (JNode.word 0) ++ (C1 ++ C2))) fs1 A1 e1 mB) := by
  have hks1 := key_size_pos off
  constructor
  · intro hm
    subst hm
    have hk1 := hs1.nil_of_nil
    subst hk1
    obtain ⟨rfl, _⟩ := hs1.nil_inv
    rw [prv_loop]
    simp only [List.length_nil, Nat.add_zero, Int.toNat_ofNat]
    rw [if_neg (by omega), if_pos]
    rcases Nat.eq_zero_or_pos e0 with h0 | h0
    · left; rw [h0]; rfl
    · right
      rw [kidAt_replicate e0 _ (e0 - 1) (by omega)]
      rfl
  · intro A1 e1 hm
    subst hm
    rcases List.eq_nil_or_concat K1 with hnil | ⟨K3, x, hk⟩
    · subst hnil
      obtain ⟨_, h⟩ := hs1.nil_inv
      simp at h
    · rw [List.concat_eq_append] at hk
      subst hk
      obtain ⟨q, c, C3, m1, rfl, rfl, hq, hs3, hcase⟩ := hs1.snoc_inv
      have hlen3 := hs3.length_eq
      have hcnt2 : e0 + (K3.length + 1 + K2.length) = lin_cnt type (key_size off) := by
        simp at hcnt; omega
      have hpw2 : (K3 ++ pack (key_size off) q :: K2).Pairwise (· < ·) := by simpa using hpw
      simp only [List.append_assoc, List.singleton_append, List.length_append,
        List.length_singleton]
      have hkey := keyAt_mid e0 K3 K2 (pack (key_size off) q)
      have hkid : kidAt (List.replicate e0 (JNode.word 0) ++ (C3 ++ c :: C2))
          (e0 + K3.length) = c := kidAt_mid e0 C3 C2 c _ (by rw [hlen3])
      have hnz : c.nonzero = true := by
        rcases hcase with ⟨_, v, hv, rfl, _⟩ | ⟨_, m2, hr, _⟩
        · exact word_nonzero v hv
        · exact Rep_nonzero hr
      have hsl : (((e0 + (K3.length + 1) : Nat) : Int)).toNat - 1 = e0 + K3.length := by
        rw [Int.toNat_ofNat]; omega
      have hsl2 : ((e0 + (K3.length + 1) : Nat) : Int) - 1 = ((e0 + K3.length : Nat) : Int) := by
        omega
      have hcond : ¬ (((e0 + (K3.length + 1) : Nat) : Int) = 0 ∨
          (!(kidAt (List.replicate e0 (JNode.word 0) ++ (C3 ++ c :: C2))
            ((((e0 + (K3.length + 1) : Nat) : Int)).toNat - 1)).nonzero) = true) := by
        rw [hsl, hkid, hnz]
        simp
        omega
      rcases hcase with ⟨hl, v, hv, rfl, hm⟩ | ⟨hl, m2, hr, hm⟩
      · obtain ⟨rfl, rfl⟩ := append_singleton_inj hm
        refine ⟨[⟨.lin type (List.replicate e0 0 ++ (K3 ++ pack (key_size off) q :: K2))
          (List.replicate e0 (JNode.word 0) ++ (C3 ++ JNode.word v :: C2)), off,
          ((e0 + K3.length : Nat) : Int)⟩], ?_, ?_⟩
        · rw [prv_loop]
          simp only
          rw [if_neg (by omega), if_neg hcond]
          simp only [hsl, hsl2, hkey, and255, (pack_mod _ q hq hks1).2 hl, hkid]
          simp
        · exact ⟨e0, K3, K2, C3, C2, A1, mB, q, _, h1, h2, rfl, rfl, hcnt2, hpw2, hq, hs3, hs2,
            Or.inl ⟨hl, rfl, rfl, rfl, rfl, rfl⟩⟩
      · have hin : ∀ x ∈ m2, (q ++ x.1, x.2) ∈ A1 ++ [e1] := by
          intro x hx
          rw [hm]
          exact List.mem_append_right _ (List.mem_map.2 ⟨x, hx, rfl⟩)
        obtain ⟨fs, x1, A2, hloop, hpath, hm2⟩ := last_spec jmax d (off + key_size off) c m2
          (⟨.lin type (List.replicate e0 0 ++ (K3 ++ pack (key_size off) q :: K2))
            (List.replicate e0 (JNode.word 0) ++ (C3 ++ c :: C2)), off,
            ((e0 + K3.length : Nat) : Int)⟩ :: rest) (jmax + 1) hr
          (fun x hx => by
            have := hb _ (hin x hx)
            simp only [List.length_append] at this
            omega)
          (fun x hx => by
            have := hb _ (hin x hx)
            simp only [List.length_append, List.length_cons] at this ⊢
            omega)
        subst hm2
        rw [pre_append, ← List.append_assoc] at hm
        obtain ⟨rfl, rfl⟩ := append_singleton_inj hm
        have hnzk : ¬ pack (key_size off) q % 256 = 0 := by
          rw [pack_mod _ q hq hks1]; omega
        refine ⟨fs ++ [⟨.lin type (List.replicate e0 0 ++ (K3 ++ pack (key_size off) q :: K2))
          (List.replicate e0 (JNode.word 0) ++ (C3 ++ c :: C2)), off,
          ((e0 + K3.length : Nat) : Int)⟩], ?_, ?_⟩
        · rw [prv_loop]
          simp only
          rw [if_neg (by omega), if_neg hcond]
          simp only [hsl, hsl2, hkey, and255, hkid, JUDY_key_mask, or7]
          rw [if_pos hnzk, hloop]
          simp
        · exact ⟨e0, K3, K2, C3, C2, m1, mB, q, _, h1, h2, rfl, rfl, hcnt2, hpw2, hq, hs3, hs2,
            Or.inr ⟨hl, fs, A2, x1.1, [], hpath, rfl, rfl, rfl, by simp [pre_nil]⟩⟩

theorem radix_prv_spec (table : List JNode) (hole : Nat) (hO : OuterOK table hole) :
    ∀ (slot : Nat), slot ≤ 256 →
      (∀ b, b < slot →
        (∀ b1, b < b1 → b1 < slot → (radixAt table b1).nonzero = false) →
        (radixAt table b).nonzero = true →
        radix_prv table slot = .found b (radixAt table b)) ∧
      ((∀ b1, b1 < slot → (radixAt table b1).nonzero = false) →
        radix_prv table slot = .nothing) := by
  intro slot
  induction slot with
  | zero => intro _; exact ⟨fun b hb => by omega, fun _ => rfl⟩
  | succ slot ih =>
    intro hs
    have hnext := ih (by omega)
    have ho : slot >>> 4 < 16 := by rw [shr4]; omega
    rcases hO.2 _ ho with h0 | ⟨inner, h1, _, _⟩
    · have hz0 : (radixAt table slot).nonzero = false := by
        unfold radixAt; rw [h0]; rfl
      constructor
      · intro b hb hz hnz
        rw [radix_prv, h0]
        simp only
        rcases Nat.eq_or_lt_of_le (Nat.le_of_lt_succ hb) with heq | hlt
        · subst heq; rw [hz0] at hnz; cases hnz
        · exact hnext.1 b hlt (fun b1 h1 h2 => hz b1 h1 (by omega)) hnz
      · intro hz
        rw [radix_prv, h0]
        simp only
        exact hnext.2 (fun b1 h1 => hz b1 (by omega))
    · have hx : radixAt table slot = tblAt inner (slot &&& 15) := by
        unfold radixAt; rw [h1]
      constructor
      · intro b hb hz hnz
        rw [radix_prv, h1]
        simp only
        rcases Nat.eq_or_lt_of_le (Nat.le_of_lt_succ hb) with heq | hlt
        · subst heq
          rw [← hx, if_pos hnz]
        · have := hz slot hlt (by omega)
          rw [← hx, if_neg (by simp [this])]
          exact hnext.1 b hlt (fun b1 h1 h2 => hz b1 h1 (by omega)) hnz
      · intro hz
        have := hz slot (by omega)
        rw [radix_prv, h1]
        simp only
        rw [← hx, if_neg (by simp [this])]
        exact hnext.2 (fun b1 h1 => hz b1 (by omega))

/-- One step of `judy_prv` at the frame of a radix node: the cursor stands right before the
byte `b`. -/
theorem radix_prv_frame (jmax d off b : Nat) (table : List JNode) (ms : Nat → List Ent)
    (rest : List JudyStack) (hb : b < 256) (hO : OuterOK table 16)
    (hR : ∀ b1, b1 < 256 → RSlot (Rep d (off + 1)) b1 (radixAt table b1) (ms b1))
    (hbd : ∀ x ∈ rcat ms 0 b, rest.length + x.1.length + 1 ≤ jmax) :
    (rcat ms 0 b = [] →
      prv_loop jmax (⟨.radix table, off, ((b : Nat) : Int)⟩ :: rest) = prv_loop jmax rest) ∧
    (∀ A1 e1, rcat ms 0 b = A1 ++ [e1] → ∃ fs1,
      prv_loop jmax (⟨.radix table, off, ((b : Nat) : Int)⟩ :: rest) =
        some (fs1 ++ rest, some (.word e1.2)) ∧
      Path (d + 1) off (.radix table) fs1 A1 e1 (rcat ms b (256 - b))) := by
  have hnzb : ∀ b1, b1 < 256 → (radixAt table b1).nonzero = !(ms b1).isEmpty :=
    fun b1 hb1 => RSlot_nonzero (hR b1 hb1)
  have hneg : ¬ ((b : Nat) : Int) < 0 := by omega
  constructor
  · intro hnil
    have hall := rcat_eq_nil ms b 0 hnil
    rw [prv_loop]
    simp only [if_neg hneg, Int.toNat_ofNat]
    rw [(radix_prv_spec table 16 hO b (by omega)).2
      (fun b1 h1 => by rw [hnzb b1 (by omega), hall b1 (Nat.zero_le _) (by omega)]; rfl)]
  · intro A1 e1 hsnoc
    obtain ⟨b2, _, hb22, hmb, hafter, hcat⟩ := rcat_last ms b 0 (by rw [hsnoc]; simp)
    rw [Nat.sub_zero] at hcat
    have hb2 : b2 < 256 := by omega
    have hb2b : b2 < b := by omega
    have hscan : radix_prv table b = .found b2 (radixAt table b2) := by
      refine (radix_prv_spec table 16 hO b (by omega)).1 b2 hb2b (fun b1 h1 h2 => ?_) ?_
      · rw [hnzb b1 (by omega), hafter b1 h1 (by omega)]; rfl
      · rw [hnzb b2 hb2]
        cases hms : ms b2 with
        | nil => exact absurd hms hmb
        | cons a l => rfl
    have hB : rcat ms (b2 + 1) (255 - b2) = rcat ms b (256 - b) := by
      have := rcat_add ms (b2 + 1) (b - (b2 + 1)) (256 - b)
      rw [show b - (b2 + 1) + (256 - b) = 255 - b2 by omega,
        show b2 + 1 + (b - (b2 + 1)) = b by omega] at this
      rw [this, rcat_nil_lt ms (b2 + 1) (b - (b2 + 1)) (fun i h1 h2 => hafter i (by omega)
        (by omega))]
      rfl
    rcases hR b2 hb2 with ⟨_, h0⟩ | ⟨hb0, v, hv, hx, hms⟩ | ⟨hb0, m1, hr, hms⟩
    · exact absurd h0 hmb
    · subst hb0
      obtain ⟨inner, hi1, _⟩ := radixAt_inner table 0 (by rw [hx]; exact word_nonzero v hv)
      rw [hsnoc, hms] at hcat
      have hc2 : A1 ++ [e1] = [] ++ [(([] : List Nat), v)] := by rw [hcat]; simp [rcat]
      obtain ⟨rfl, rfl⟩ := append_singleton_inj hc2
      refine ⟨[⟨.radix table, off, ((0 : Nat) : Int)⟩], ?_, ?_⟩
      · rw [prv_loop]
        simp only [if_neg hneg, Int.toNat_ofNat, hscan, hx]
        simp
      · exact ⟨ms, 0, hb2, OuterOK_weaken hO, ⟨inner, hi1⟩, fun b1 hb1 _ => hR b1 hb1,
          Or.inl ⟨rfl, hx, rfl, rfl, rfl, hB.symm⟩⟩
    · obtain ⟨inner, hi1, _⟩ := radixAt_inner table b2 (Rep_nonzero hr)
      have hin : ∀ x ∈ m1, (b2 :: x.1, x.2) ∈ rcat ms 0 b := by
        intro x hx
        rw [hcat, hms]
        exact List.mem_append_right _ (List.mem_map.2 ⟨x, hx, rfl⟩)
      obtain ⟨fs, x1, A2, hloop, hpath, hm2⟩ := last_spec jmax d (off + 1) (radixAt table b2) m1
        (⟨.radix table, off, ((b2 : Nat) : Int)⟩ :: rest) (jmax + 1) hr
        (fun x hx => by
          have := hbd _ (hin x hx)
          simp only [List.length_cons] at this
          omega)
        (fun x hx => by
          have := hbd _ (hin x hx)
          simp only [List.length_cons] at this ⊢
          omega)
      subst hm2
      rw [hsnoc, hms, pre_append, ← List.append_assoc] at hcat
      obtain ⟨rfl, rfl⟩ := append_singleton_inj hcat
      refine ⟨fs ++ [⟨.radix table, off, ((b2 : Nat) : Int)⟩], ?_, ?_⟩
      · rw [prv_loop]
        simp only [if_neg hneg, Int.toNat_ofNat, hscan]
        rw [if_pos hb0, hloop]
        simp
      · exact ⟨ms, b2, hb2, OuterOK_weaken hO, ⟨inner, hi1⟩, fun b1 hb1 _ => hR b1 hb1,
          Or.inr ⟨hb0, fs, A2, x1.1, [], hpath, rfl, rfl, rfl, by rw [hB]; rfl⟩⟩


/-! ## `judy_del` -/

theorem plug_length : ∀ (rest : List JudyStack) (n : JNode), (plug n rest).1.length = rest.length := by
  intro rest
  induction rest with
  | nil => intro n; rfl
  | cons f rest ih =>
    intro n
    rw [plug]
    simp only [List.length_cons]
    rw [ih]

theorem plug_cons (n : JNode) (f : JudyStack) (rest : List JudyStack) :
    plug n (f :: rest) = ({ f with next := setKid f.next f.slot n } ::
      (plug (setKid f.next f.slot n) rest).1, (plug (setKid f.next f.slot n) rest).2) := by
  rw [plug]

theorem lin_delete_eq {α : Type} (e0 : Nat) (z x : α) (K1 K2 : List α) :
    lin_delete (List.replicate e0 z ++ (K1 ++ x :: K2)) (e0 + K1.length) z =
      List.replicate (e0 + 1) z ++ (K1 ++ K2) := by
  unfold lin_delete
  have h1 : (List.replicate e0 z ++ (K1 ++ x :: K2)).take (e0 + K1.length) =
      List.replicate e0 z ++ K1 := by
    rw [← List.append_assoc]
    exact List.take_left' (by simp)
  have h2 : (List.replicate e0 z ++ (K1 ++ x :: K2)).drop (e0 + K1.length + 1) = K2 := by
    have : List.replicate e0 z ++ (K1 ++ x :: K2) = (List.replicate e0 z ++ K1 ++ [x]) ++ K2 := by
      simp
    rw [this]
    exact List.drop_left' (by simp; omega)
  rw [h1, h2, List.replicate_succ]
  simp

theorem tbl_any_iff (l : List JNode) :
    tbl_any l = true ↔ ∃ i, i < 16 ∧ (tblAt l i).nonzero = true := by
  unfold tbl_any
  rw [List.any_eq_true]
  constructor
  · rintro ⟨i, hi, h⟩
    exact ⟨i, List.mem_range.1 hi, h⟩
  · rintro ⟨i, hi, h⟩
    exact ⟨i, List.mem_range.2 hi, h⟩

theorem withRoot_eq (root : JNode) (r : Option (List JudyStack × Option JNode)) :
    (match r with
      | none => none
      | some (stack, cell) => some (root, stack, cell)) = withRoot root r := by
  cases r with
  | none => rfl
  | some x => rfl

theorem Slots.last_nonzero {d off ks : Nat} : ∀ {K : List Nat} {C : List JNode} {m : List Ent},
    Slots (Rep d off) ks K C m → K ≠ [] →
    (C.getD (C.length - 1) (JNode.word 0)).nonzero = true := by
  intro K C m h hne
  rcases List.eq_nil_or_concat K with hnil | ⟨K1, x, hk⟩
  · exact absurd hnil hne
  · rw [List.concat_eq_append] at hk
    subst hk
    obtain ⟨p, c, C1, m1, _, rfl, _, _, hcase⟩ := h.snoc_inv
    have : (C1 ++ [c]).getD ((C1 ++ [c]).length - 1) (JNode.word 0) = c := by
      rw [List.length_append, List.length_singleton, Nat.add_sub_cancel]
      exact getD_mid C1 [] c _ _ rfl
    rw [this]
    rcases hcase with ⟨_, v, hv, rfl, _⟩ | ⟨_, m2, hr, _⟩
    · exact word_nonzero v hv
    · exact Rep_nonzero hr

/-- The step of `judy_del` at the frame of a linear node whose slot `e0 + K1.length` goes. -/
theorem lin_del_frame (jmax d off type e0 : Nat) (K1 K2 : List Nat) (x : Nat)
    (C1 C2 : List JNode) (c : JNode) (mA mB : List Ent) (rest : List JudyStack)
    (h1 : 1 ≤ type) (h2 : type ≤ 6)
    (hcnt : e0 + (K1.length + 1 + K2.length) = lin_cnt type (key_size off))
    (hpw : (K1 ++ x :: K2).Pairwise (· < ·))
    (hs1 : Slots (Rep d (off + key_size off)) (key_size off) K1 C1 mA)
    (hs2 : Slots (Rep d (off + key_size off)) (key_size off) K2 C2 mB)
    (hb : ∀ y ∈ mA, rest.length + y.1.length + 1 ≤ jmax) :
    (mA ++ mB = [] →
      del_loop jmax (⟨.lin type (List.replicate e0 0 ++ (K1 ++ x :: K2))
        (List.replicate e0 (JNode.word 0) ++ (C1 ++ c :: C2)), off,
        ((e0 + K1.length : Nat) : Int)⟩ :: rest) = del_loop jmax rest) ∧
    (mA ++ mB ≠ [] →
      Rep (d + 1) off (.lin type (List.replicate (e0 + 1) 0 ++ (K1 ++ K2))
        (List.replicate (e0 + 1) (JNode.word 0) ++ (C1 ++ C2))) (mA ++ mB) ∧
      (mA = [] →
        del_loop jmax (⟨.lin type (List.replicate e0 0 ++ (K1 ++ x :: K2))
          (List.replicate e0 (JNode.word 0) ++ (C1 ++ c :: C2)), off,
          ((e0 + K1.length : Nat) : Int)⟩ :: rest) =
        withRoot (plug (.lin type (List.replicate (e0 + 1) 0 ++ (K1 ++ K2))
          (List.replicate (e0 + 1) (JNode.word 0) ++ (C1 ++ C2))) rest).2
          (prv_loop jmax (plug (.lin type (List.replicate (e0 + 1) 0 ++ (K1 ++ K2))
            (List.replicate (e0 + 1) (JNode.word 0) ++ (C1 ++ C2))) rest).1)) ∧
      (∀ A1 e1, mA = A1 ++ [e1] → ∃ fs1,
        del_loop jmax (⟨.lin type (List.replicate e0 0 ++ (K1 ++ x :: K2))
          (List.replicate e0 (JNode.word 0) ++ (C1 ++ c :: C2)), off,
          ((e0 + K1.length : Nat) : Int)⟩ :: rest) =
        some ((plug (.lin type (List.replicate (e0 + 1) 0 ++ (K1 ++ K2))
            (List.replicate (e0 + 1) (JNode.word 0) ++ (C1 ++ C2))) rest).2,
          fs1 ++ (plug (.lin type (List.replicate (e0 + 1) 0 ++ (K1 ++ K2))
            (List.replicate (e0 + 1) (JNode.word 0) ++ (C1 ++ C2))) rest).1,
          some (.word e1.2)) ∧
        Path (d + 1) off (.lin type (List.replicate (e0 + 1) 0 ++ (K1 ++ K2))
          (List.replicate (e0 + 1) (JNode.word 0) ++ (C1 ++ C2))) fs1 A1 e1 mB)) := by
  have hlen1 := hs1.length_eq
  have hlen2 := hs2.length_eq
  have hs12 := hs1.append hs2
  have hkeys1 : lin_delete (List.replicate e0 0 ++ (K1 ++ x :: K2)) (e0 + K1.length) 0 =
      List.replicate (e0 + 1) 0 ++ (K1 ++ K2) := lin_delete_eq e0 0 x K1 K2
  have hkids1 : lin_delete (List.replicate e0 (JNode.word 0) ++ (C1 ++ c :: C2))
      (e0 + K1.length) (JNode.word 0) =
      List.replicate (e0 + 1) (JNode.word 0) ++ (C1 ++ C2) := by
    rw [hlen1]; exact lin_delete_eq e0 _ c C1 C2
  have hneg : ¬ ((e0 + K1.length : Nat) : Int) < 0 := by omega
  have hlast : kidAt (List.replicate (e0 + 1) (JNode.word 0) ++ (C1 ++ C2))
      (lin_cnt type (key_size off) - 1) =
      (C1 ++ C2).getD ((C1 ++ C2).length - 1) (JNode.word 0) := by
    unfold kidAt
    rcases Nat.eq_zero_or_pos (C1 ++ C2).length with h0 | h0
    · have hnil := List.length_eq_zero.1 h0
      rw [hnil]
      simp only [List.append_nil, List.length_nil]
      simp [List.getD_eq_getElem?_getD, List.getElem?_replicate]
      split <;> rfl
    · rw [List.getD_append_right _ _ _ _ (by
        simp only [List.length_replicate, List.length_append] at h0 ⊢; omega)]
      congr 1
      simp only [List.length_replicate, List.length_append] at h0 ⊢
      omega
  constructor
  · intro hm
    have hk : K1 ++ K2 = [] := by
      rw [hm] at hs12
      exact hs12.nil_of_nil
    have hc : C1 ++ C2 = [] := by
      apply List.length_eq_zero.1
      rw [← hs12.length_eq, hk]; rfl
    rw [hc] at hlast hkids1
    rw [del_loop]
    simp only [if_neg hneg, Int.toNat_ofNat, hkeys1, hkids1, hlast]
    rfl
  · intro hm
    have hk : K1 ++ K2 ≠ [] := by
      intro hk
      rw [hk] at hs12
      exact hm hs12.nil_inv.2
    have hnz := hs12.last_nonzero hk
    have hrep : Rep (d + 1) off (.lin type (List.replicate (e0 + 1) 0 ++ (K1 ++ K2))
        (List.replicate (e0 + 1) (JNode.word 0) ++ (C1 ++ C2))) (mA ++ mB) :=
      ⟨e0 + 1, K1 ++ K2, C1 ++ C2, h1, h2, rfl, rfl, by
        simp only [List.length_append]; omega, hk,
        hpw.sublist (List.Sublist.append (List.Sublist.refl K1) (List.sublist_cons_self x K2)),
        hs12⟩
    have hplen := plug_length rest (.lin type (List.replicate (e0 + 1) 0 ++ (K1 ++ K2))
      (List.replicate (e0 + 1) (JNode.word 0) ++ (C1 ++ C2)))
    have hdel : del_loop jmax (⟨.lin type (List.replicate e0 0 ++ (K1 ++ x :: K2))
          (List.replicate e0 (JNode.word 0) ++ (C1 ++ c :: C2)), off,
          ((e0 + K1.length : Nat) : Int)⟩ :: rest) =
        withRoot (plug (.lin type (List.replicate (e0 + 1) 0 ++ (K1 ++ K2))
          (List.replicate (e0 + 1) (JNode.word 0) ++ (C1 ++ C2))) rest).2
          (prv_loop jmax (⟨.lin type (List.replicate (e0 + 1) 0 ++ (K1 ++ K2))
            (List.replicate (e0 + 1) (JNode.word 0) ++ (C1 ++ C2)), off,
            ((e0 + 1 + K1.length : Nat) : Int)⟩ ::
            (plug (.lin type (List.replicate (e0 + 1) 0 ++ (K1 ++ K2))
              (List.replicate (e0 + 1) (JNode.word 0) ++ (C1 ++ C2))) rest).1)) := by
      have hsl : ((e0 + K1.length : Nat) : Int) + 1 = ((e0 + 1 + K1.length : Nat) : Int) := by
        omega
      rw [del_loop]
      simp only [if_neg hneg, Int.toNat_ofNat, hkeys1, hkids1, hlast, hnz, if_true, hsl]
      split
      · next h => rw [h]; rfl
      · next st cl h => rw [h]; rfl
    have hframe := lin_prv_frame jmax d off type (e0 + 1) K1 K2 C1 C2 mA mB
      (plug (.lin type (List.replicate (e0 + 1) 0 ++ (K1 ++ K2))
        (List.replicate (e0 + 1) (JNode.word 0) ++ (C1 ++ C2))) rest).1 h1 h2
      (by omega) (hpw.sublist (List.Sublist.append (List.Sublist.refl K1)
        (List.sublist_cons_self x K2))) hs1 hs2 (by rw [hplen]; exact hb)
    refine ⟨hrep, fun hA => ?_, fun A1 e1 hA => ?_⟩
    · rw [hdel, hframe.1 hA]
    · obtain ⟨fs1, hp1, hp2⟩ := hframe.2 A1 e1 hA
      exact ⟨fs1, by rw [hdel, hp1]; rfl, hp2⟩

theorem radix_clear_inner (d off b : Nat) (table inner : List JNode) (ms : Nat → List Ent)
    (hb : b < 256) (hO : OuterOK table (b >>> 4)) (hin : tblAt table (b >>> 4) = .radix inner)
    (hR : ∀ b1, b1 < 256 → b1 ≠ b → RSlot (Rep d (off + 1)) b1 (radixAt table b1) (ms b1))
    (hany : tbl_any (inner.set (b &&& 15) (.word 0)) = true) :
    OuterOK (table.set (b >>> 4) (.radix (inner.set (b &&& 15) (.word 0)))) 16 ∧
    ∀ b1, b1 < 256 → RSlot (Rep d (off + 1)) b1
      (radixAt (table.set (b >>> 4) (.radix (inner.set (b &&& 15) (.word 0)))) b1)
      ((fun i => if i = b then [] else ms i) b1) := by
  obtain ⟨h1, _, h3, h4, _⟩ := radix_update table inner b hb (.word 0) hO (Or.inr hin)
  have ho : b >>> 4 < 16 := by rw [shr4]; omega
  have htl : b >>> 4 < table.length := by rw [hO.1]; exact ho
  refine ⟨⟨h1.1, fun i hi => ?_⟩, fun b1 hb1 => ?_⟩
  · rcases h1.2 i hi with h0 | ⟨inner2, h5, h6, h7⟩
    · exact Or.inl h0
    · refine Or.inr ⟨inner2, h5, h6, Or.inr ?_⟩
      rcases h7 with h7 | h7
      · subst h7
        rw [tblAt_set_eq _ _ _ htl] at h5
        cases h5
        exact hany
      · exact h7
  · by_cases hbb : b1 = b
    · subst hbb
      rw [h3]
      exact Or.inl ⟨rfl, if_pos rfl⟩
    · rw [h4 b1 hbb]
      simp only [if_neg hbb]
      exact hR b1 hb1 hbb

theorem radix_clear_outer (d off b : Nat) (table inner : List JNode) (ms : Nat → List Ent)
    (hb : b < 256) (hO : OuterOK table (b >>> 4)) (hin : tblAt table (b >>> 4) = .radix inner)
    (hR : ∀ b1, b1 < 256 → b1 ≠ b → RSlot (Rep d (off + 1)) b1 (radixAt table b1) (ms b1))
    (hany : tbl_any (inner.set (b &&& 15) (.word 0)) = false) :
    OuterOK (table.set (b >>> 4) (.word 0)) 16 ∧
    ∀ b1, b1 < 256 → RSlot (Rep d (off + 1)) b1
      (radixAt (table.set (b >>> 4) (.word 0)) b1)
      ((fun i => if i = b then [] else ms i) b1) := by
  have ho : b >>> 4 < 16 := by rw [shr4]; omega
  have htl : b >>> 4 < table.length := by rw [hO.1]; exact ho
  refine ⟨⟨by rw [List.length_set]; exact hO.1, fun i hi => ?_⟩, fun b1 hb1 => ?_⟩
  · by_cases hio : b >>> 4 = i
    · subst hio
      exact Or.inl (tblAt_set_eq _ _ _ htl)
    · rw [tblAt_set_ne _ _ _ _ hio]
      rcases hO.2 i hi with h0 | ⟨inner2, h5, h6, h7⟩
      · exact Or.inl h0
      · refine Or.inr ⟨inner2, h5, h6, Or.inr ?_⟩
        rcases h7 with h7 | h7
        · exact absurd h7.symm hio
        · exact h7
  · by_cases h4 : b1 >>> 4 = b >>> 4
    · have hx : radixAt (table.set (b >>> 4) (.word 0)) b1 = .word 0 := by
        unfold radixAt
        rw [h4, tblAt_set_eq _ _ _ htl]
      rw [hx]
      refine Or.inl ⟨rfl, ?_⟩
      by_cases hbb : b1 = b
      · exact if_pos hbb
      · simp only [if_neg hbb]
        have hl : b1 &&& 15 < 16 := by rw [and15]; omega
        have hz : (radixAt table b1).nonzero = false := by
          have hr : radixAt table b1 = tblAt inner (b1 &&& 15) := by
            unfold radixAt
            rw [h4, hin]
          rw [hr, ← tblAt_set_ne inner (b &&& 15) (b1 &&& 15) (.word 0)
            (fun h => nibbles_ne b b1 hbb h4 h.symm)]
          cases hnz : (tblAt (inner.set (b &&& 15) (.word 0)) (b1 &&& 15)).nonzero with
          | false => rfl
          | true =>
            rw [tbl_any_of _ _ hl hnz] at hany
            cases hany
        have := RSlot_nonzero (hR b1 hb1 hbb)
        rw [hz] at this
        cases hm : ms b1 with
        | nil => rfl
        | cons a l => rw [hm] at this; cases this
    · have hbb : b1 ≠ b := fun h => h4 (by rw [h])
      have hx : radixAt (table.set (b >>> 4) (.word 0)) b1 = radixAt table b1 := by
        unfold radixAt
        rw [tblAt_set_ne _ _ _ _ (fun h => h4 h.symm)]
      rw [hx]
      simp only [if_neg hbb]
      exact hR b1 hb1 hbb

theorem radix_any_iff (d off : Nat) (table : List JNode) (ms : Nat → List Ent)
    (hO : OuterOK table 16)
    (hR : ∀ b1, b1 < 256 → RSlot (Rep d (off + 1)) b1 (radixAt table b1) (ms b1)) :
    tbl_any table = true ↔ rcat ms 0 256 ≠ [] := by
  constructor
  · intro h hnil
    obtain ⟨i, hi, hnz⟩ := (tbl_any_iff table).1 h
    rcases hO.2 i hi with h0 | ⟨inner, h5, _, h7⟩
    · rw [h0] at hnz; cases hnz
    · have hany : tbl_any inner = true := by
        rcases h7 with h7 | h7
        · omega
        · exact h7
      obtain ⟨j, hj, hnz2⟩ := (tbl_any_iff inner).1 hany
      have hs : (16 * i + j) >>> 4 = i := by rw [shr4]; omega
      have ha : (16 * i + j) &&& 15 = j := by rw [and15]; omega
      have hr : radixAt table (16 * i + j) = tblAt inner j := by
        unfold radixAt
        rw [hs, h5, ha]
      have := RSlot_nonzero (hR (16 * i + j) (by omega))
      rw [hr, hnz2, rcat_eq_nil ms 256 0 hnil (16 * i + j) (Nat.zero_le _) (by omega)] at this
      cases this
  · intro h
    obtain ⟨b1, _, hb1, hne, _, _⟩ := rcat_first ms 256 0 h
    have hb2 : b1 < 256 := by omega
    have hnz : (radixAt table b1).nonzero = true := by
      rw [RSlot_nonzero (hR b1 hb2)]
      cases hm : ms b1 with
      | nil => exact absurd hm hne
      | cons a l => rfl
    obtain ⟨inner, h5, _⟩ := radixAt_inner table b1 hnz
    exact tbl_any_of table (b1 >>> 4) (by rw [shr4]; omega) (by rw [h5]; rfl)

/-- The step of `judy_del` at the frame of a radix node whose entry for the byte `b` goes. -/
theorem radix_del_frame (jmax d off b : Nat) (table : List JNode) (ms : Nat → List Ent)
    (rest : List JudyStack) (hb : b < 256) (hO : OuterOK table (b >>> 4))
    (hin : ∃ inner, tblAt table (b >>> 4) = .radix inner)
    (hR : ∀ b1, b1 < 256 → b1 ≠ b → RSlot (Rep d (off + 1)) b1 (radixAt table b1) (ms b1))
    (hbd : ∀ x ∈ rcat ms 0 b, rest.length + x.1.length + 1 ≤ jmax) :
    (rcat ms 0 b ++ rcat ms (b + 1) (255 - b) = [] →
      del_loop jmax (⟨.radix table, off, ((b : Nat) : Int)⟩ :: rest) = del_loop jmax rest) ∧
    (rcat ms 0 b ++ rcat ms (b + 1) (255 - b) ≠ [] → ∃ n1,
      Rep (d + 1) off n1 (rcat ms 0 b ++ rcat ms (b + 1) (255 - b)) ∧
      (rcat ms 0 b = [] →
        del_loop jmax (⟨.radix table, off, ((b : Nat) : Int)⟩ :: rest) =
          withRoot (plug n1 rest).2 (prv_loop jmax (plug n1 rest).1)) ∧
      (∀ A1 e1, rcat ms 0 b = A1 ++ [e1] → ∃ fs1,
        del_loop jmax (⟨.radix table, off, ((b : Nat) : Int)⟩ :: rest) =
          some ((plug n1 rest).2, fs1 ++ (plug n1 rest).1, some (.word e1.2)) ∧
        Path (d + 1) off n1 fs1 A1 e1 (rcat ms (b + 1) (255 - b)))) := by
  obtain ⟨inner, hin⟩ := hin
  have hneg : ¬ ((b : Nat) : Int) < 0 := by omega
  have hm0 : rcat (fun i => if i = b then [] else ms i) 0 256 =
      rcat ms 0 b ++ rcat ms (b + 1) (255 - b) := by
    rw [rcat_update ms b [] hb]; rfl
  have hA0 : rcat (fun i => if i = b then [] else ms i) 0 b = rcat ms 0 b :=
    rcat_congr _ ms 0 b (fun i _ h2 => by simp; intro h; omega)
  have hB0 : rcat (fun i => if i = b then [] else ms i) b (256 - b) =
      rcat ms (b + 1) (255 - b) := by
    rw [show 256 - b = (255 - b) + 1 by omega, rcat]
    simp only [if_true, List.nil_append]
    exact rcat_congr _ ms (b + 1) (255 - b) (fun i h1 _ => by simp; intro h; omega)
  have tail : ∀ T1 : List JNode, OuterOK T1 16 →
      (∀ b1, b1 < 256 → RSlot (Rep d (off + 1)) b1 (radixAt T1 b1)
        ((fun i => if i = b then [] else ms i) b1)) →
      del_loop jmax (⟨.radix table, off, ((b : Nat) : Int)⟩ :: rest) =
        withRoot (plug (.radix T1) rest).2
          (prv_loop jmax (⟨.radix T1, off, ((b : Nat) : Int)⟩ :: (plug (.radix T1) rest).1)) →
      rcat ms 0 b ++ rcat ms (b + 1) (255 - b) ≠ [] → ∃ n1,
      Rep (d + 1) off n1 (rcat ms 0 b ++ rcat ms (b + 1) (255 - b)) ∧
      (rcat ms 0 b = [] →
        del_loop jmax (⟨.radix table, off, ((b : Nat) : Int)⟩ :: rest) =
          withRoot (plug n1 rest).2 (prv_loop jmax (plug n1 rest).1)) ∧
      (∀ A1 e1, rcat ms 0 b = A1 ++ [e1] → ∃ fs1,
        del_loop jmax (⟨.radix table, off, ((b : Nat) : Int)⟩ :: rest) =
          some ((plug n1 rest).2, fs1 ++ (plug n1 rest).1, some (.word e1.2)) ∧
        Path (d + 1) off n1 fs1 A1 e1 (rcat ms (b + 1) (255 - b))) := by
    intro T1 hO1 hR1 hdel hm
    have hframe := radix_prv_frame jmax d off b T1 _ (plug (.radix T1) rest).1 hb hO1 hR1
      (by rw [hA0, plug_length]; exact hbd)
    rw [hA0, hB0] at hframe
    refine ⟨.radix T1, ⟨hO1, _, hR1, hm0.symm, hm⟩, fun hA => ?_, fun A1 e1 hA => ?_⟩
    · rw [hdel, hframe.1 hA]
    · obtain ⟨fs1, hp1, hp2⟩ := hframe.2 A1 e1 hA
      exact ⟨fs1, by rw [hdel, hp1]; rfl, hp2⟩
  cases hany : tbl_any (inner.set (b &&& 15) (.word 0)) with
  | true =>
    obtain ⟨hO1, hR1⟩ := radix_clear_inner d off b table inner ms hb hO hin hR hany
    have hne : rcat ms 0 b ++ rcat ms (b + 1) (255 - b) ≠ [] := by
      rw [← hm0]
      refine (radix_any_iff d off _ _ hO1 hR1).1 (tbl_any_of _ (b >>> 4) (by rw [shr4]; omega) ?_)
      rw [tblAt_set_eq _ _ _ (by rw [hO.1, shr4]; omega)]
      rfl
    refine ⟨fun h => absurd h hne, tail _ hO1 hR1 ?_⟩
    rw [del_loop]
    simp only [if_neg hneg, Int.toNat_ofNat, hin, hany, if_true]
    split
    · next h => rw [h]; rfl
    · next st cl h => rw [h]; rfl
  | false =>
    obtain ⟨hO1, hR1⟩ := radix_clear_outer d off b table inner ms hb hO hin hR hany
    have hiff := radix_any_iff d off _ _ hO1 hR1
    rw [hm0] at hiff
    cases hany2 : tbl_any (table.set (b >>> 4) (.word 0)) with
    | true =>
      refine ⟨fun h => absurd h (hiff.1 hany2), tail _ hO1 hR1 ?_⟩
      rw [del_loop]
      simp only [if_neg hneg, Int.toNat_ofNat, hin, hany, hany2, if_true, Bool.false_eq_true,
        if_false]
      split
      · next h => rw [h]; rfl
      · next st cl h => rw [h]; rfl
    | false =>
      refine ⟨fun _ => ?_, fun h => ?_⟩
      · rw [del_loop]
        simp only [if_neg hneg, Int.toNat_ofNat, hin, hany, hany2, Bool.false_eq_true, if_false]
      · have := hiff.2 h
        rw [hany2] at this
        cases this


/-- When the node below a frame survives the deletion, the cursor is the frame again with the
new node below it, and `judy_prv` continues from there. -/
theorem del_lift (jmax : Nat) (N N1 : JNode) (off : Nat) (slot : Int)
    (rest fsc : List JudyStack) (n1c : JNode) (hset : setKid N slot n1c = N1)
    (P A1 : List Ent) (p : List Nat) (PathC PathP : List JudyStack → List Ent → Ent → Prop)
    (hchild : (A1 = [] → del_loop jmax (fsc ++ ⟨N, off, slot⟩ :: rest) =
        withRoot (plug n1c (⟨N, off, slot⟩ :: rest)).2
          (prv_loop jmax (plug n1c (⟨N, off, slot⟩ :: rest)).1)) ∧
      (∀ A2 e1, A1 = A2 ++ [e1] → ∃ fs1, del_loop jmax (fsc ++ ⟨N, off, slot⟩ :: rest) =
        some ((plug n1c (⟨N, off, slot⟩ :: rest)).2,
          fs1 ++ (plug n1c (⟨N, off, slot⟩ :: rest)).1, some (.word e1.2)) ∧
        PathC fs1 A2 e1))
    (hprv : A1 = [] →
      (P = [] → prv_loop jmax (⟨N1, off, slot⟩ :: (plug N1 rest).1) =
        prv_loop jmax (plug N1 rest).1) ∧
      (∀ A2 e1, P = A2 ++ [e1] → ∃ fs1,
        prv_loop jmax (⟨N1, off, slot⟩ :: (plug N1 rest).1) =
          some (fs1 ++ (plug N1 rest).1, some (.word e1.2)) ∧
        PathP fs1 A2 e1))
    (hlift : ∀ fs1 A2 e1, PathC fs1 A2 e1 →
      PathP (fs1 ++ [⟨N1, off, slot⟩]) (P ++ pre p A2) (p ++ e1.1, e1.2)) :
    (P ++ pre p A1 = [] → del_loop jmax (fsc ++ ⟨N, off, slot⟩ :: rest) =
        withRoot (plug N1 rest).2 (prv_loop jmax (plug N1 rest).1)) ∧
    (∀ A2 e1, P ++ pre p A1 = A2 ++ [e1] → ∃ fs1,
      del_loop jmax (fsc ++ ⟨N, off, slot⟩ :: rest) =
        some ((plug N1 rest).2, fs1 ++ (plug N1 rest).1, some (.word e1.2)) ∧
        PathP fs1 A2 e1) := by
  have hpc : plug n1c (⟨N, off, slot⟩ :: rest) =
      (⟨N1, off, slot⟩ :: (plug N1 rest).1, (plug N1 rest).2) := by
    rw [plug_cons]
    simp only [hset]
  rw [hpc] at hchild
  simp only at hchild
  constructor
  · intro h
    obtain ⟨hP, hA⟩ := List.append_eq_nil.1 h
    have hA1 : A1 = [] := by
      cases A1 with
      | nil => rfl
      | cons a l => cases hA
    rw [hchild.1 hA1, (hprv hA1).1 hP]
  · intro A2 e1 h
    rcases List.eq_nil_or_concat A1 with hA1 | ⟨A3, e3, hA1⟩
    · subst hA1
      rw [pre_nil, List.append_nil] at h
      obtain ⟨fs1, hp1, hp2⟩ := (hprv rfl).2 A2 e1 h
      exact ⟨fs1, by rw [hchild.1 rfl, hp1]; rfl, hp2⟩
    · rw [List.concat_eq_append] at hA1
      subst hA1
      rw [pre_append, pre_cons, pre_nil, ← List.append_assoc] at h
      obtain ⟨h1, h2⟩ := append_singleton_inj h
      subst h1
      subst h2
      obtain ⟨fs1, hp1, hp2⟩ := hchild.2 A3 e3 rfl
      refine ⟨fs1 ++ [⟨N1, off, slot⟩], ?_, hlift fs1 A3 e3 hp2⟩
      rw [hp1]
      simp

theorem pre_eq_nil {p : List Nat} {m : List Ent} (h : pre p m = []) : m = [] := by
  cases m with
  | nil => rfl
  | cons a l => cases h

theorem mid_ne_nil (p : List Nat) (L A1 B1 R : List Ent) (h : A1 ++ B1 ≠ []) :
    L ++ (pre p A1 ++ (pre p B1 ++ R)) ≠ [] := by
  intro h0
  have h1 := (List.append_eq_nil.1 h0).2
  have h2 := List.append_eq_nil.1 h1
  have h3 := (List.append_eq_nil.1 h2.2).1
  apply h
  rw [pre_eq_nil h2.1, pre_eq_nil h3]
  rfl

/-- The loop of `judy_del` from the cursor of an entry: the entry goes, the nodes left without
an entry go with it, and the cursor moves to the entry before, as `judy_prv` finds it. -/
theorem del_spec (jmax : Nat) : ∀ (d off : Nat) (n : JNode) (fs : List JudyStack)
    (A B : List Ent) (s : List Nat) (v : Nat) (rest : List JudyStack),
    Path d off n fs A (s, v) B → (∀ x ∈ A, rest.length + x.1.length + 1 ≤ jmax) →
    (A ++ B = [] → del_loop jmax (fs ++ rest) = del_loop jmax rest) ∧
    (A ++ B ≠ [] → ∃ n1, Rep d off n1 (A ++ B) ∧
      (A = [] → del_loop jmax (fs ++ rest) =
        withRoot (plug n1 rest).2 (prv_loop jmax (plug n1 rest).1)) ∧
      (∀ A1 e1, A = A1 ++ [e1] → ∃ fs1,
        del_loop jmax (fs ++ rest) =
          some ((plug n1 rest).2, fs1 ++ (plug n1 rest).1, some (.word e1.2)) ∧
        Path d off n1 fs1 A1 e1 B)) := by
  intro d
  induction d with
  | zero => intro off n fs A B s v rest h; exact absurd h (by simp [Path])
  | succ d ih =>
    intro off n fs A B s v rest h hb
    have hks1 := key_size_pos off
    cases n with
    | word w => exact absurd h (by simp [Path])
    | lin type keys kids =>
      obtain ⟨e0, K1, K2, C1, C2, mA, mB, p, c, h1, h2, rfl, rfl, h5, h6, h7, h8, h9, h10⟩ := h
      have hlen := h8.length_eq
      rcases h10 with ⟨hl, rfl, hs, rfl, rfl, rfl⟩ | ⟨hl, fs1, A1, s1, B1, hp, rfl, hs, rfl, rfl⟩
      · have hf := lin_del_frame jmax d off type e0 K1 K2 (pack (key_size off) p) C1 C2
          (.word v) A B rest h1 h2 h5 h6 h8 h9 hb
        exact ⟨hf.1, fun hne => ⟨_, hf.2 hne⟩⟩
      · simp only at hs hp
        subst hs
        have hchild := ih (off + key_size off) c fs1 A1 B1 s1 v
          (⟨.lin type (List.replicate e0 0 ++ (K1 ++ pack (key_size off) p :: K2))
            (List.replicate e0 (JNode.word 0) ++ (C1 ++ c :: C2)), off,
            ((e0 + K1.length : Nat) : Int)⟩ :: rest) hp
          (fun x hx => by
            have := hb (p ++ x.1, x.2) (List.mem_append_right _ (List.mem_map.2 ⟨x, hx, rfl⟩))
            simp only [List.length_append, List.length_cons] at this ⊢
            omega)
        simp only [List.append_assoc, List.singleton_append]
        by_cases hc0 : A1 ++ B1 = []
        · obtain ⟨hA1, hB1⟩ := List.append_eq_nil.1 hc0
          subst hA1
          subst hB1
          rw [hchild.1 rfl]
          simp only [pre_nil, List.nil_append, List.append_nil] at hb ⊢
          have hf := lin_del_frame jmax d off type e0 K1 K2 (pack (key_size off) p) C1 C2
            c mA mB rest h1 h2 h5 h6 h8 h9 hb
          exact ⟨hf.1, fun hne => ⟨_, hf.2 hne⟩⟩
        · obtain ⟨n1c, hrepc, hdelc⟩ := hchild.2 hc0
          have hsl := h8.append (Slots.node h7 hl hrepc h9)
          have hset : setKid (.lin type (List.replicate e0 0 ++ (K1 ++ pack (key_size off) p :: K2))
              (List.replicate e0 (JNode.word 0) ++ (C1 ++ c :: C2)))
              ((e0 + K1.length : Nat) : Int) n1c =
              .lin type (List.replicate e0 0 ++ (K1 ++ pack (key_size off) p :: K2))
              (List.replicate e0 (JNode.word 0) ++ (C1 ++ n1c :: C2)) := by
            simp only [setKid, Int.toNat_ofNat]
            rw [set_mid2 e0 _ C1 C2 _ _ (e0 + K1.length) (by rw [hlen])]
          have hlist : mA ++ (pre p A1 ++ (pre p B1 ++ mB)) = mA ++ (pre p (A1 ++ B1) ++ mB) := by
            simp [pre_append]
          refine ⟨fun h0 => ?_, fun _ => ⟨_, ?_, del_lift jmax _ _ off _ rest fs1 n1c hset mA A1 p
            (fun fs A e => Path d (off + key_size off) n1c fs A e B1)
            (fun fs A e => Path (d + 1) off
              (.lin type (List.replicate e0 0 ++ (K1 ++ pack (key_size off) p :: K2))
                (List.replicate e0 (JNode.word 0) ++ (C1 ++ n1c :: C2))) fs A e
              (pre p B1 ++ mB)) hdelc ?_ ?_⟩⟩
          · exact absurd h0 (mid_ne_nil p mA A1 B1 mB hc0)
          · rw [hlist]
            exact ⟨e0, _, _, h1, h2, rfl, rfl, by
              simp only [List.length_append, List.length_cons]; omega, by simp, h6, hsl⟩
          · intro hA1
            subst hA1
            have hf := lin_prv_frame jmax d off type e0 K1 (pack (key_size off) p :: K2) C1
              (n1c :: C2) mA (pre p ([] ++ B1) ++ mB) (plug (.lin type
                (List.replicate e0 0 ++ (K1 ++ pack (key_size off) p :: K2))
                (List.replicate e0 (JNode.word 0) ++ (C1 ++ n1c :: C2))) rest).1 h1 h2
              (by simp only [List.length_cons]; omega) h6 h8 (Slots.node h7 hl hrepc h9)
              (fun x hx => by rw [plug_length]; exact hb x (List.mem_append_left _ hx))
            simp only [List.nil_append] at hf
            exact hf
          · intro fs2 A2 e1 hp2
            exact ⟨e0, K1, K2, C1, C2, mA, mB, p, n1c, h1, h2, rfl, rfl, h5, h6, h7, h8, h9,
              Or.inr ⟨hl, fs2, A2, e1.1, B1, hp2, rfl, rfl, rfl, rfl⟩⟩
    | radix table =>
      obtain ⟨ms, b, hb256, hO, hinner, hR, h4⟩ := h
      rcases h4 with ⟨hb0, hc, hs, rfl, rfl, rfl⟩ | ⟨hb0, fs1, A1, s1, B1, hp, rfl, hs, rfl, rfl⟩
      · subst hb0
        have hf := radix_del_frame jmax d off 0 table ms rest hb256 hO hinner hR
          (fun x hx => by cases hx)
        exact hf
      · simp only at hs hp
        subst hs
        have hchild := ih (off + 1) (radixAt table b) fs1 A1 B1 s1 v
          (⟨.radix table, off, ((b : Nat) : Int)⟩ :: rest) hp
          (fun x hx => by
            have := hb (b :: x.1, x.2) (List.mem_append_right _ (List.mem_map.2 ⟨x, hx, rfl⟩))
            simp only [List.length_cons] at this ⊢
            omega)
        simp only [List.append_assoc, List.singleton_append]
        by_cases hc0 : A1 ++ B1 = []
        · obtain ⟨hA1, hB1⟩ := List.append_eq_nil.1 hc0
          subst hA1
          subst hB1
          rw [hchild.1 rfl]
          simp only [pre_nil, List.nil_append, List.append_nil] at hb ⊢
          exact radix_del_frame jmax d off b table ms rest hb256 hO hinner hR hb
        · obtain ⟨n1c, hrepc, hdelc⟩ := hchild.2 hc0
          obtain ⟨inner, hin⟩ := hinner
          obtain ⟨u1, u2, u3, u4, _⟩ := radix_update table inner b hb256 n1c hO (Or.inr hin)
          have hO2 : OuterOK (table.set (b >>> 4) (.radix (inner.set (b &&& 15) n1c))) 16 :=
            OuterOK_fill hb256 u1 (by rw [u3]; exact Rep_nonzero hrepc)
          have hset : setKid (.radix table) ((b : Nat) : Int) n1c =
              .radix (table.set (b >>> 4) (.radix (inner.set (b &&& 15) n1c))) := by
            simp only [setKid, Int.toNat_ofNat, hin]
          have hR2 : ∀ b1, b1 < 256 → RSlot (Rep d (off + 1)) b1
              (radixAt (table.set (b >>> 4) (.radix (inner.set (b &&& 15) n1c))) b1)
              ((fun i => if i = b then pre [b] (A1 ++ B1) else ms i) b1) := by
            intro b1 hb1
            by_cases h0 : b1 = b
            · subst h0
              simp only [if_true]
              rw [u3]
              exact Or.inr (Or.inr ⟨hb0, _, hrepc, rfl⟩)
            · simp only [if_neg h0]
              rw [u4 b1 h0]
              exact hR b1 hb1 h0
          have hlist : rcat ms 0 b ++ (pre [b] A1 ++ (pre [b] B1 ++ rcat ms (b + 1) (255 - b))) =
              rcat (fun i => if i = b then pre [b] (A1 ++ B1) else ms i) 0 256 := by
            rw [rcat_update ms b _ hb256]
            simp [pre_append]
          have hA0 : rcat (fun i => if i = b then pre [b] (A1 ++ B1) else ms i) 0 b =
              rcat ms 0 b :=
            rcat_congr _ ms 0 b (fun i _ h2 => by simp; intro h; omega)
          have hB0 : rcat (fun i => if i = b then pre [b] (A1 ++ B1) else ms i) b (256 - b) =
              pre [b] (A1 ++ B1) ++ rcat ms (b + 1) (255 - b) := by
            rw [show 256 - b = (255 - b) + 1 by omega, rcat]
            simp only [if_true]
            rw [rcat_congr _ ms (b + 1) (255 - b) (fun i h1 _ => by simp; intro h; omega)]
          refine ⟨fun h0 => ?_, fun _ => ⟨_, ?_, del_lift jmax _ _ off _ rest fs1 n1c hset
            (rcat ms 0 b) A1 [b]
            (fun fs A e => Path d (off + 1) n1c fs A e B1)
            (fun fs A e => Path (d + 1) off
              (.radix (table.set (b >>> 4) (.radix (inner.set (b &&& 15) n1c)))) fs A e
              (pre [b] B1 ++ rcat ms (b + 1) (255 - b))) hdelc ?_ ?_⟩⟩
          · exact absurd h0 (mid_ne_nil [b] _ A1 B1 _ hc0)
          · rw [hlist]
            refine ⟨hO2, _, hR2, rfl, ?_⟩
            rw [← hlist]
            exact mid_ne_nil [b] _ A1 B1 _ hc0
          · intro hA1
            subst hA1
            have hf := radix_prv_frame jmax d off b _ _ (plug (.radix
              (table.set (b >>> 4) (.radix (inner.set (b &&& 15) n1c)))) rest).1 hb256 hO2 hR2
              (by
                rw [hA0, plug_length]
                exact fun x hx => hb x (List.mem_append_left _ hx))
            rw [hA0, hB0] at hf
            simp only [List.nil_append] at hf
            exact hf
          · intro fs2 A2 e1 hp2
            exact ⟨ms, b, hb256, u1, u2, fun b1 hb1 hne => by rw [u4 b1 hne]; exact hR b1 hb1 hne,
              Or.inr ⟨hb0, fs2, A2, e1.1, B1, by rw [u3]; exact hp2, rfl, rfl, rfl, rfl⟩⟩
    | span base kid =>
      obtain ⟨hal, p, hpz, hbase, h4⟩ := h
      rcases h4 with ⟨hl, rfl, hs, rfl, rfl, rfl⟩ | ⟨hl, fs1, A1, s1, B1, hp, rfl, hs, rfl, rfl⟩
      · refine ⟨fun _ => ?_, fun h => absurd rfl h⟩
        rw [List.singleton_append, del_loop]
      · simp only at hs hp
        subst hs
        have hchild := ih (off + JUDY_span_bytes) kid fs1 A1 B1 s1 v
          (⟨.span base kid, off, 0⟩ :: rest) hp
          (fun x hx => by
            have := hb (p ++ x.1, x.2) (List.mem_map.2 ⟨x, hx, rfl⟩)
            have h24 : JUDY_span_bytes = 24 := rfl
            simp only [List.length_append, List.length_cons] at this ⊢
            omega)
        simp only [List.append_assoc, List.singleton_append]
        by_cases hc0 : A1 ++ B1 = []
        · obtain ⟨hA1, hB1⟩ := List.append_eq_nil.1 hc0
          subst hA1
          subst hB1
          refine ⟨fun _ => ?_, fun h => absurd rfl h⟩
          rw [hchild.1 rfl, del_loop]
        · obtain ⟨n1c, hrepc, hdelc⟩ := hchild.2 hc0
          have hset : setKid (.span base kid) 0 n1c = .span base n1c := rfl
          have hl0 := del_lift jmax _ _ off _ rest fs1 n1c hset [] A1 p
            (fun fs A e => Path d (off + JUDY_span_bytes) n1c fs A e B1)
            (fun fs A e => Path (d + 1) off (.span base n1c) fs A e (pre p B1)) hdelc
            (fun _ => ⟨fun _ => by rw [prv_loop], fun A2 e1 h => by simp at h⟩)
            (fun fs2 A2 e1 hp2 => ⟨hal, p, hpz, hbase,
              Or.inr ⟨hl, fs2, A2, e1.1, B1, hp2, rfl, rfl, rfl, rfl⟩⟩)
          simp only [List.nil_append] at hl0
          refine ⟨fun h0 => ?_, fun _ => ⟨_, ?_, hl0⟩⟩
          · have := Rep_ne_nil _ hrepc
            simp [pre] at h0
            exact absurd (List.append_eq_nil.2 h0) this
          · rw [← pre_append]
            exact ⟨hal, p, hpz, hbase, Or.inr ⟨hl, _, hrepc, rfl⟩⟩


/-! ## `judy_del`, `judy_nxt` and `judy_end` on a well formed array -/

theorem Path_cons {d off : Nat} {n : JNode} {fs : List JudyStack} {A B : List Ent} {e : Ent}
    (h : Path d off n fs A e B) : ∃ f rest, fs = f :: rest := by
  obtain ⟨f, rest, _, _, h1, _⟩ := store_path d off n fs A B e.1 e.2 e.2 h
  exact ⟨f, rest, h1⟩

theorem judy_del_spec (M : Nat) [Fact (M ≤ JUDY_open_max)] (judy : Judy) (d : Nat)
    (A B : List Ent) (s : List Nat)
    (v : Nat) (hmax : judy.max = M + 1) (hpath : Path d 0 judy.root judy.stack A (s, v) B)
    (hshort : Short M A) :
    (A ++ B = [] → judy_del judy = some ⟨{ judy with root := .word 0, stack := [] }, none⟩) ∧
    (A ++ B ≠ [] → ∃ n1, Rep d 0 n1 (A ++ B) ∧
      (A = [] → judy_del judy = some ⟨{ judy with root := n1, stack := [] }, none⟩) ∧
      (∀ A1 e1, A = A1 ++ [e1] → ∃ fs1,
        judy_del judy = some ⟨{ judy with root := n1, stack := fs1 }, some (.word e1.2)⟩ ∧
        Path d 0 n1 fs1 A1 e1 B)) := by
  have hd := del_spec judy.max d 0 judy.root judy.stack A B s v [] hpath
    (fun x hx => by
      have := hshort x hx
      simp only [List.length_nil]
      omega)
  rw [List.append_nil] at hd
  refine ⟨fun h => ?_, fun h => ?_⟩
  · unfold judy_del
    rw [hd.1 h]
    rfl
  · obtain ⟨n1, hrep, h1, h2⟩ := hd.2 h
    refine ⟨n1, hrep, fun hA => ?_, fun A1 e1 hA => ?_⟩
    · unfold judy_del
      rw [h1 hA]
      rfl
    · obtain ⟨fs1, hp1, hp2⟩ := h2 A1 e1 hA
      refine ⟨fs1, ?_, hp2⟩
      unfold judy_del
      rw [hp1]
      simp [plug]

theorem judy_nxt_spec (M : Nat) [Fact (M ≤ JUDY_open_max)] (judy : Judy) (d : Nat)
    (A B : List Ent) (s : List Nat)
    (v : Nat) (hmax : judy.max = M + 1) (hpath : Path d 0 judy.root judy.stack A (s, v) B)
    (hv : 0 < v) (hshort : Short M B) :
    (B = [] → judy_nxt judy = some ⟨{ judy with stack := [] }, none⟩) ∧
    (∀ e1 B1, B = e1 :: B1 → ∃ fs1,
      judy_nxt judy = some ⟨{ judy with stack := fs1 }, some (.word e1.2)⟩ ∧
      Path d 0 judy.root fs1 (A ++ [(s, v)]) e1 B1) := by
  have hn := nxt_spec judy.max d 0 judy.root judy.stack A B s v [] hpath hv
    (fun x hx => by
      have := hshort x hx
      simp only [List.length_nil]
      omega)
  rw [List.append_nil] at hn
  obtain ⟨f, rest, hfs⟩ := Path_cons hpath
  have hj : judy_nxt judy = mkRes judy (nxt_loop judy.max judy.stack) := by
    unfold judy_nxt
    rw [hfs]
  refine ⟨fun h => ?_, fun e1 B1 h => ?_⟩
  · rw [hj, hn.1 h]
    rfl
  · obtain ⟨fs1, hp1, hp2⟩ := hn.2 e1 B1 h
    refine ⟨fs1, ?_, hp2⟩
    rw [hj, hp1, List.append_nil]
    rfl

theorem judy_nxt_empty (M : Nat) [Fact (M ≤ JUDY_open_max)] (judy : Judy) (m : List Ent)
    (hmax : judy.max = M + 1)
    (hst : judy.stack = []) (hroot : RootRep judy.root m) (hshort : Short M m) :
    (m = [] → judy_nxt judy = some ⟨{ judy with stack := [] }, none⟩) ∧
    (∀ e1 B1, m = e1 :: B1 → ∃ fs1,
      judy_nxt judy = some ⟨{ judy with stack := fs1 }, some (.word e1.2)⟩) := by
  have hj : judy_nxt judy = mkRes judy (judy_first judy.max (judy.max + 1) [] judy.root 0) := by
    unfold judy_nxt
    rw [hst]
  refine ⟨fun h => ?_, fun e1 B1 h => ?_⟩
  · rcases hroot with ⟨h0, _⟩ | ⟨d, hrep⟩
    · rw [hj, h0, judy_first, ← h0]
      rfl
    · exact absurd h (Rep_ne_nil d hrep)
  · rcases hroot with ⟨_, h0⟩ | ⟨d, hrep⟩
    · rw [h0] at h; cases h
    · obtain ⟨fs, e, B, hf, _, hm⟩ := first_spec judy.max d 0 judy.root m [] (judy.max + 1) hrep
        (fun x hx => by have := hshort x hx; omega)
        (fun x hx => by
          have := hshort x hx
          simp only [List.length_nil]
          omega)
      rw [h] at hm
      cases hm
      refine ⟨fs, ?_⟩
      rw [hj, hf, List.append_nil]
      rfl

theorem judy_end_spec (M : Nat) [Fact (M ≤ JUDY_open_max)] (judy : Judy) (m : List Ent) (d : Nat)
    (hmax : judy.max = M + 1) (hrep : Rep d 0 judy.root m) (hshort : Short M m) :
    ∃ fs e A, judy_end judy = some ⟨{ judy with stack := fs }, some (.word e.2)⟩ ∧
      Path d 0 judy.root fs A e [] ∧ m = A ++ [e] := by
  obtain ⟨fs, e, A, hl, hp, hm⟩ := last_spec judy.max d 0 judy.root m [] (judy.max + 1) hrep
    (fun x hx => by have := hshort x hx; omega)
    (fun x hx => by
      have := hshort x hx
      simp only [List.length_nil]
      omega)
  refine ⟨fs, e, A, ?_, hp, hm⟩
  unfold judy_end
  rw [hl, List.append_nil]
  rfl

theorem judy_strt_empty (judy : Judy) (h : judy.root = .word 0) :
    judy_strt judy [] 0 = some ⟨{ judy with stack := [] }, none⟩ := by
  unfold judy_strt
  rw [if_pos rfl, h, judy_first, ← h]
  rfl

theorem without_mid (k : List Nat) (v : Nat) (A B : List Ent) (h : Sorted (A ++ (k, v) :: B)) :
    without k (A ++ (k, v) :: B) = A ++ B := by
  unfold Sorted at h
  rw [List.pairwise_append] at h
  obtain ⟨_, h2, h3⟩ := h
  have h4 := (List.pairwise_cons.1 h2).1
  unfold without
  rw [List.filter_append, List.filter_cons]
  simp only [ne_eq, not_true_eq_false, decide_False, Bool.false_eq_true, if_false]
  rw [List.filter_eq_self.2, List.filter_eq_self.2]
  · intro e he
    have := h4 e he
    simp only [decide_eq_true_eq]
    intro h0
    rw [h0] at this
    exact lt_irrefl k this
  · intro e he
    have := h3 e he (k, v) (List.mem_cons_self _ _)
    simp only [decide_eq_true_eq]
    intro h0
    rw [h0] at this
    exact lt_irrefl k this


/-! ## Arrays built by driver steps -/

theorem RootRep_sorted_good {n : JNode} {m : List Ent} (h : RootRep n m) :
    Sorted m ∧ Good m := by
  rcases h with ⟨_, rfl⟩ | ⟨d, hr⟩
  · exact ⟨List.Pairwise.nil, fun _ h => absurd h (List.not_mem_nil _)⟩
  · exact Rep_sorted_good d hr

theorem sorted_length (m : List Ent) (ks : List (List Nat)) (hs : Sorted m)
    (hk : ∀ k, k ∈ m.map Prod.fst ↔ k ∈ ks) : m.length = ks.dedup.length := by
  have hn : (m.map Prod.fst).Nodup := by
    unfold Sorted at hs
    unfold List.Nodup
    rw [List.pairwise_map]
    exact hs.imp (fun h => ne_of_lt h)
  have hp : (m.map Prod.fst).Perm ks.dedup :=
    (List.perm_ext_iff_of_nodup hn (List.nodup_dedup ks)).2
      (fun k => by rw [hk k, List.mem_dedup])
  rw [← hp.length_eq, List.length_map]

theorem insAll_keys (M : Nat) [Fact (M ≤ JUDY_open_max)] (ops : List Ent) (hops : OpsOK M ops) :
    ∀ k, k ∈ (insAll ops []).map Prod.fst ↔ k ∈ ops.map Prod.fst := by
  intro k
  constructor
  · intro h
    obtain ⟨e, he, rfl⟩ := List.mem_map.1 h
    rcases insAll_from M ops [] hops e he with h | h
    · simp at h
    · exact List.mem_map.2 ⟨e, h, rfl⟩
  · intro h
    obtain ⟨e, he, rfl⟩ := List.mem_map.1 h
    obtain ⟨v1, hv1⟩ := insAll_mem e.1 e.2 ops [] he
    exact List.mem_map.2 ⟨_, hv1, rfl⟩

theorem sorted_mid {k : List Nat} {v : Nat} {A B : List Ent} (h : Sorted (A ++ (k, v) :: B)) :
    (∀ e ∈ A, e.1 < k) ∧ (∀ e ∈ B, k < e.1) ∧ Sorted A ∧ Sorted B := by
  unfold Sorted at h
  rw [List.pairwise_append] at h
  obtain ⟨h1, h2, h3⟩ := h
  obtain ⟨h4, h5⟩ := List.pairwise_cons.1 h2
  exact ⟨fun e he => h3 e he (k, v) (List.mem_cons_self _ _), h4, h1, h5⟩

theorem judy_del_res (M : Nat) [Fact (M ≤ JUDY_open_max)] (judy : Judy) (d : Nat) (A B : List Ent)
    (s : List Nat)
    (v : Nat) (hmax : judy.max = M + 1) (hpath : Path d 0 judy.root judy.stack A (s, v) B)
    (hshort : Short M A) :
    ∃ rd, judy_del judy = some rd ∧ rd.judy.max = M + 1 ∧ RootRep rd.judy.root (A ++ B) ∧
      (A = [] → rd.cell = none ∧ rd.judy.stack = []) ∧
      (∀ A1 e1, A = A1 ++ [e1] → rd.cell = some (.word e1.2) ∧
        Path d 0 rd.judy.root rd.judy.stack A1 e1 B) := by
  have hd := judy_del_spec M judy d A B s v hmax hpath hshort
  by_cases h : A ++ B = []
  · refine ⟨_, hd.1 h, hmax, Or.inl ⟨rfl, h⟩, fun _ => ⟨rfl, rfl⟩, fun A1 e1 hA => ?_⟩
    rw [hA] at h
    simp at h
  · obtain ⟨n1, hrep, h1, h2⟩ := hd.2 h
    rcases List.eq_nil_or_concat A with hA | ⟨A3, e3, hA⟩
    · refine ⟨_, h1 hA, hmax, Or.inr ⟨d, hrep⟩, fun _ => ⟨rfl, rfl⟩, fun A1 e1 hA1 => ?_⟩
      rw [hA] at hA1
      simp at hA1
    · rw [List.concat_eq_append] at hA
      obtain ⟨fs1, hp1, hp2⟩ := h2 A3 e3 hA
      refine ⟨_, hp1, hmax, Or.inr ⟨d, hrep⟩, fun h0 => ?_, fun A1 e1 hA1 => ?_⟩
      · rw [hA] at h0
        simp at h0
      · rw [hA] at hA1
        obtain ⟨r1, r2⟩ := append_singleton_inj hA1
        subst r1
        subst r2
        exact ⟨rfl, hp2⟩

theorem judy_nxt_res (M : Nat) [Fact (M ≤ JUDY_open_max)] (judy : Judy) (d : Nat) (A B : List Ent)
    (hmax : judy.max = M + 1) (hroot : RootRep judy.root (A ++ B)) (hgood : Good A)
    (hshort : Short M B)
    (h1 : A = [] → judy.stack = [])
    (h2 : ∀ A1 e1, A = A1 ++ [e1] → Path d 0 judy.root judy.stack A1 e1 B) :
    ∃ rn, judy_nxt judy = some rn ∧ (B = [] → rn.cell = none) ∧
      (∀ e2 B2, B = e2 :: B2 → rn.cell = some (.word e2.2)) := by
  rcases List.eq_nil_or_concat A with hA | ⟨A3, e3, hA⟩
  · subst hA
    rw [List.nil_append] at hroot
    obtain ⟨n1, n2⟩ := judy_nxt_empty M judy B hmax (h1 rfl) hroot hshort
    cases B with
    | nil => exact ⟨_, n1 rfl, fun _ => rfl, fun e2 B2 h => by cases h⟩
    | cons e B1 =>
      obtain ⟨fs1, hn⟩ := n2 e B1 rfl
      refine ⟨_, hn, fun h => (by cases h), fun e2 B2 h => ?_⟩
      cases h
      rfl
  · rw [List.concat_eq_append] at hA
    have hv : 0 < e3.2 := (hgood e3 (by rw [hA]; simp)).2
    obtain ⟨n1, n2⟩ := judy_nxt_spec M judy d A3 B e3.1 e3.2 hmax (h2 A3 e3 hA) hv hshort
    cases B with
    | nil => exact ⟨_, n1 rfl, fun _ => rfl, fun e2 B2 h => by cases h⟩
    | cons e B1 =>
      obtain ⟨fs1, hn, _⟩ := n2 e B1 rfl
      refine ⟨_, hn, fun h => (by cases h), fun e2 B2 h => ?_⟩
      cases h
      rfl

theorem insAll_length (M : Nat) [Fact (M ≤ JUDY_open_max)] (ops : List Ent) (hops : OpsOK M ops) :
    (insAll ops []).length ≤ ops.length := by
  obtain ⟨judy, _, _, hroot⟩ := judy_puts_spec M ops (judy_open M) [] hops
    (judy_open_spec M).1 (judy_open_spec M).2
  rw [sorted_length _ (ops.map Prod.fst) (RootRep_sorted_good hroot).1 (insAll_keys M ops hops)]
  have := (List.dedup_sublist (ops.map Prod.fst)).length_le
  rw [List.length_map] at this
  exact this

theorem RootRep_nil {n : JNode} (h : RootRep n []) : n = .word 0 := by
  rcases h with ⟨h0, _⟩ | ⟨d, hr⟩
  · exact h0
  · exact absurd rfl (Rep_ne_nil d hr)

theorem judy_remove_spec (M : Nat) [Fact (M ≤ JUDY_open_max)] (judy : Judy) (m : List Ent)
    (k : List Nat) (v : Nat)
    (hmax : judy.max = M + 1) (hroot : RootRep judy.root m) (hshort : Short M m)
    (hmem : (k, v) ∈ m) :
    ∃ judy1, judy_remove judy k = some judy1 ∧ judy1.max = M + 1 ∧
      RootRep judy1.root (without k m) := by
  obtain ⟨hsorted, hgood⟩ := RootRep_sorted_good hroot
  have hrep : ∃ d, Rep d 0 judy.root m := by
    rcases hroot with ⟨_, h0⟩ | h
    · rw [h0] at hmem; cases hmem
    · exact h
  obtain ⟨d, hrep⟩ := hrep
  obtain ⟨fs, A, B, hslot, hpath, hm⟩ := judy_slot_spec M judy _ k v d hmax hrep hmem
    (hgood _ hmem).1 (hshort _ hmem)
  subst hm
  obtain ⟨rd, hdel, hmax1, hroot1, _, _⟩ :=
    judy_del_res M { judy with stack := fs } d A B k v hmax hpath
      (fun e he => hshort e (by simp [he]))
  refine ⟨rd.judy, ?_, hmax1, by rw [without_mid k v A B hsorted]; exact hroot1⟩
  unfold judy_remove
  rw [hslot]
  simp only
  rw [hdel]

theorem ins_length (k : List Nat) (v : Nat) : ∀ m : List Ent,
    (ins k v m).length ≤ m.length + 1 := by
  intro m
  induction m with
  | nil => simp [ins]
  | cons e m ih =>
    rw [ins]
    split
    · simp
    · split
      · simp
      · simp only [List.length_cons]
        omega

theorem judy_steps_spec (M : Nat) [Fact (M ≤ JUDY_open_max)] : ∀ (steps : List Step) (judy : Judy)
    (m : List Ent),
    StepsOK M steps m → judy.max = M + 1 → RootRep judy.root m → Short M m →
    ∃ judy1, judy_steps steps judy = some judy1 ∧ judy1.max = M + 1 ∧
      RootRep judy1.root (stepsEnt steps m) ∧ Short M (stepsEnt steps m) ∧
      (stepsEnt steps m).length ≤ m.length + steps.length := by
  intro steps
  induction steps with
  | nil => intro judy m _ hmax hroot hshort; exact ⟨judy, rfl, hmax, hroot, hshort, le_refl _⟩
  | cons s steps ih =>
    intro judy m hok hmax hroot hshort
    cases s with
    | put k v =>
      obtain ⟨⟨h1, h2, h3⟩, hrest⟩ := hok
      obtain ⟨judy1, d, A, B, hput, hmax1, _, _, hrep⟩ :=
        judy_put_spec M judy m k v hmax hroot h1 h2 h3
      obtain ⟨judy2, hsteps, hmax2, hroot2, hshort2, hlen2⟩ := ih judy1 (ins k v m) hrest hmax1
        (Or.inr ⟨d, hrep⟩) (fun e he => by
          rcases ins_mem_iff k v e m he with h | h
          · rw [h]; exact h2
          · exact hshort e h)
      refine ⟨judy2, ?_, hmax2, hroot2, hshort2, ?_⟩
      · rw [judy_steps]
        simp only [judy_step, hput]
        exact hsteps
      · have := ins_length k v m
        simp only [List.length_cons]
        exact le_trans hlen2 (by omega)
    | del k =>
      obtain ⟨hmem, hrest⟩ := hok
      obtain ⟨e, he, hek⟩ := List.mem_map.1 hmem
      obtain ⟨k0, v⟩ := e
      simp only at hek
      subst hek
      obtain ⟨judy1, hrem, hmax1, hroot1⟩ := judy_remove_spec M judy m k0 v hmax hroot hshort he
      obtain ⟨judy2, hsteps, hmax2, hroot2, hshort2, hlen2⟩ := ih judy1 (without k0 m) hrest
        hmax1 hroot1 (fun e he => hshort e (List.mem_filter.1 he).1)
      refine ⟨judy2, ?_, hmax2, hroot2, hshort2, ?_⟩
      · rw [judy_steps]
        simp only [judy_step, hrem]
        exact hsteps
      · have : (without k0 m).length ≤ m.length := List.length_filter_le _ _
        simp only [List.length_cons]
        exact le_trans hlen2 (by omega)

theorem judy_open_steps (M : Nat) [Fact (M ≤ JUDY_open_max)] (steps : List Step)
    (hok : StepsOK M steps []) :
    ∃ judy, judy_steps steps (judy_open M) = some judy ∧ judy.max = M + 1 ∧
      RootRep judy.root (stepsEnt steps []) ∧ Short M (stepsEnt steps []) ∧
      (stepsEnt steps []).length ≤ steps.length := by
  obtain ⟨judy, h1, h2, h3, h4, h5⟩ := judy_steps_spec M steps (judy_open M) [] hok
    (judy_open_spec M).1 (judy_open_spec M).2 (fun e he => absurd he (List.not_mem_nil _))
  exact ⟨judy, h1, h2, h3, h4, by simpa using h5⟩


/-! ## `judy_prv` and the cursor of an array built by driver steps -/

/-- The loop of `judy_prv` from the cursor of an entry: the cursor moves to the entry before,
or the frames are popped when there is none. -/
theorem prv_spec (jmax : Nat) : ∀ (d off : Nat) (n : JNode) (fs : List JudyStack)
    (A B : List Ent) (s : List Nat) (v : Nat) (rest : List JudyStack),
    Path d off n fs A (s, v) B → 0 < v → (∀ x ∈ A, rest.length + x.1.length + 1 ≤ jmax) →
    (A = [] → prv_loop jmax (fs ++ rest) = prv_loop jmax rest) ∧
    (∀ A1 e1, A = A1 ++ [e1] → ∃ fs1,
      prv_loop jmax (fs ++ rest) = some (fs1 ++ rest, some (.word e1.2)) ∧
      Path d off n fs1 A1 e1 ((s, v) :: B)) := by
  intro d
  induction d with
  | zero => intro off n fs A B s v rest h; exact absurd h (by simp [Path])
  | succ d ih =>
    intro off n fs A B s v rest h hv hb
    have hks1 := key_size_pos off
    cases n with
    | word w => exact absurd h (by simp [Path])
    | lin type keys kids =>
      obtain ⟨e0, K1, K2, C1, C2, mA, mB, p, c, h1, h2, rfl, rfl, h5, h6, h7, h8, h9, h10⟩ := h
      rcases h10 with ⟨hl, rfl, hs, rfl, rfl, rfl⟩ | ⟨hl, fs1, A1, s1, B1, hp, rfl, hs, rfl, rfl⟩
      · simp only at hs
        subst hs
        exact lin_prv_frame jmax d off type e0 K1 (pack (key_size off) s :: K2) C1
          (.word v :: C2) A ((s, v) :: B) rest h1 h2 (by simp only [List.length_cons]; omega) h6
          h8 (Slots.leaf h7 hl hv h9) hb
      · simp only at hs hp
        subst hs
        have hframe := lin_prv_frame jmax d off type e0 K1 (pack (key_size off) p :: K2) C1
          (c :: C2) mA (pre p (A1 ++ (s1, v) :: B1) ++ mB) rest h1 h2
          (by simp only [List.length_cons]; omega) h6 h8
          (Slots.node h7 hl (Path_Rep d hp hv) h9)
          (fun x hx => hb x (List.mem_append_left _ hx))
        have hchild := ih (off + key_size off) c fs1 A1 B1 s1 v
          (⟨.lin type (List.replicate e0 0 ++ (K1 ++ pack (key_size off) p :: K2))
            (List.replicate e0 (JNode.word 0) ++ (C1 ++ c :: C2)), off,
            ((e0 + K1.length : Nat) : Int)⟩ :: rest) hp hv
          (fun x hx => by
            have := hb (p ++ x.1, x.2) (List.mem_append_right _ (List.mem_map.2 ⟨x, hx, rfl⟩))
            simp only [List.length_append, List.length_cons] at this ⊢
            omega)
        simp only [List.append_assoc, List.singleton_append]
        rcases List.eq_nil_or_concat A1 with hA1 | ⟨A3, e3, hA1⟩
        · subst hA1
          rw [hchild.1 rfl]
          simp only [pre_nil, List.nil_append, List.append_nil, pre_cons, List.cons_append]
            at hframe ⊢
          exact hframe
        · rw [List.concat_eq_append] at hA1
          subst hA1
          obtain ⟨fs2, hloop, hpath⟩ := hchild.2 A3 e3 rfl
          refine ⟨fun h => by simp [pre_append, pre_cons] at h, fun A2 e1 hA => ?_⟩
          rw [pre_append, pre_cons, pre_nil, ← List.append_assoc] at hA
          obtain ⟨r1, r2⟩ := append_singleton_inj hA
          subst r1
          subst r2
          refine ⟨fs2 ++ [⟨.lin type (List.replicate e0 0 ++ (K1 ++ pack (key_size off) p :: K2))
            (List.replicate e0 (JNode.word 0) ++ (C1 ++ c :: C2)), off,
            ((e0 + K1.length : Nat) : Int)⟩], by rw [hloop]; simp, ?_⟩
          exact ⟨e0, K1, K2, C1, C2, mA, mB, p, c, h1, h2, rfl, rfl, h5, h6, h7, h8, h9,
            Or.inr ⟨hl, fs2, A3, e3.1, (s1, v) :: B1, hpath, rfl, rfl, rfl,
              by simp [pre_cons]⟩⟩
    | radix table =>
      obtain ⟨ms, b, hb256, hO, hinner, hR, h4⟩ := h
      rcases h4 with ⟨hb0, hc, hs, rfl, rfl, rfl⟩ | ⟨hb0, fs1, A1, s1, B1, hp, rfl, hs, rfl, rfl⟩
      · simp only at hs hc
        subst hs
        subst hb0
        have hO2 : OuterOK table 16 :=
          OuterOK_fill hb256 hO (by rw [hc]; exact word_nonzero v hv)
        have hR2 : ∀ b1, b1 < 256 → RSlot (Rep d (off + 1)) b1 (radixAt table b1)
            ((fun i => if i = 0 then [(([] : List Nat), v)] else ms i) b1) := by
          intro b1 hb1
          by_cases h0 : b1 = 0
          · subst h0
            simp only [if_true]
            exact Or.inr (Or.inl ⟨rfl, v, hv, hc, rfl⟩)
          · simp only [if_neg h0]
            exact hR b1 hb1 h0
        have hframe := radix_prv_frame jmax d off 0 table _ rest hb256 hO2 hR2
          (fun x hx => by cases hx)
        refine ⟨fun _ => hframe.1 rfl, fun A1 e1 h => ?_⟩
        simp at h
      · simp only at hs hp
        subst hs
        have hrc := Path_Rep d hp hv
        have hO2 : OuterOK table 16 := OuterOK_fill hb256 hO (Rep_nonzero hrc)
        have hchild := ih (off + 1) (radixAt table b) fs1 A1 B1 s1 v
          (⟨.radix table, off, ((b : Nat) : Int)⟩ :: rest) hp hv
          (fun x hx => by
            have := hb (b :: x.1, x.2) (List.mem_append_right _ (List.mem_map.2 ⟨x, hx, rfl⟩))
            simp only [List.length_cons] at this ⊢
            omega)
        have hR2 : ∀ b1, b1 < 256 → RSlot (Rep d (off + 1)) b1 (radixAt table b1)
            ((fun i => if i = b then pre [b] (A1 ++ (s1, v) :: B1) else ms i) b1) := by
          intro b1 hb1
          by_cases h0 : b1 = b
          · subst h0
            simp only [if_true]
            exact Or.inr (Or.inr ⟨hb0, _, hrc, rfl⟩)
          · simp only [if_neg h0]
            exact hR b1 hb1 h0
        have hA0 : rcat (fun i => if i = b then pre [b] (A1 ++ (s1, v) :: B1) else ms i) 0 b =
            rcat ms 0 b :=
          rcat_congr _ ms 0 b (fun i _ h2 => by simp; intro h; omega)
        have hB0 : rcat (fun i => if i = b then pre [b] (A1 ++ (s1, v) :: B1) else ms i) b
            (256 - b) = pre [b] (A1 ++ (s1, v) :: B1) ++ rcat ms (b + 1) (255 - b) := by
          rw [show 256 - b = (255 - b) + 1 by omega, rcat]
          simp only [if_true]
          rw [rcat_congr _ ms (b + 1) (255 - b) (fun i h1 _ => by simp; intro h; omega)]
        have hframe := radix_prv_frame jmax d off b table _ rest hb256 hO2 hR2
          (by rw [hA0]; exact fun x hx => hb x (List.mem_append_left _ hx))
        rw [hA0, hB0] at hframe
        simp only [List.append_assoc, List.singleton_append]
        rcases List.eq_nil_or_concat A1 with hA1 | ⟨A3, e3, hA1⟩
        · subst hA1
          rw [hchild.1 rfl]
          simp only [pre_nil, List.nil_append, List.append_nil, pre_cons, List.cons_append]
            at hframe ⊢
          exact hframe
        · rw [List.concat_eq_append] at hA1
          subst hA1
          obtain ⟨fs2, hloop, hpath⟩ := hchild.2 A3 e3 rfl
          refine ⟨fun h => by simp [pre_append, pre_cons] at h, fun A2 e1 hA => ?_⟩
          rw [pre_append, pre_cons, pre_nil, ← List.append_assoc] at hA
          obtain ⟨r1, r2⟩ := append_singleton_inj hA
          subst r1
          subst r2
          refine ⟨fs2 ++ [⟨.radix table, off, ((b : Nat) : Int)⟩], by rw [hloop]; simp, ?_⟩
          exact ⟨ms, b, hb256, hO, hinner, hR, Or.inr ⟨hb0, fs2, A3, e3.1, (s1, v) :: B1,
            hpath, rfl, rfl, rfl, by simp [pre_cons]⟩⟩
    | span base kid =>
      obtain ⟨hal, p, hpz, hbase, h4⟩ := h
      rcases h4 with ⟨hl, rfl, hs, rfl, rfl, rfl⟩ | ⟨hl, fs1, A1, s1, B1, hp, rfl, hs, rfl, rfl⟩
      · refine ⟨fun _ => ?_, fun A1 e1 h => by simp at h⟩
        rw [List.singleton_append, prv_loop]
      · simp only at hs hp
        subst hs
        have hchild := ih (off + JUDY_span_bytes) kid fs1 A1 B1 s1 v
          (⟨.span base kid, off, 0⟩ :: rest) hp hv
          (fun x hx => by
            have := hb (p ++ x.1, x.2) (List.mem_map.2 ⟨x, hx, rfl⟩)
            have h24 : JUDY_span_bytes = 24 := rfl
            simp only [List.length_append, List.length_cons] at this ⊢
            omega)
        simp only [List.append_assoc, List.singleton_append]
        rcases List.eq_nil_or_concat A1 with hA1 | ⟨A3, e3, hA1⟩
        · subst hA1
          refine ⟨fun _ => ?_, fun A2 e1 h => by simp [pre_nil] at h⟩
          rw [hchild.1 rfl, prv_loop]
        · rw [List.concat_eq_append] at hA1
          subst hA1
          obtain ⟨fs2, hloop, hpath⟩ := hchild.2 A3 e3 rfl
          refine ⟨fun h => by simp [pre_append, pre_cons] at h, fun A2 e1 hA => ?_⟩
          rw [pre_append, pre_cons, pre_nil] at hA
          obtain ⟨r1, r2⟩ := append_singleton_inj hA
          subst r1
          subst r2
          refine ⟨fs2 ++ [⟨.span base kid, off, 0⟩], by rw [hloop]; simp, ?_⟩
          exact ⟨hal, p, hpz, hbase, Or.inr ⟨hl, fs2, A3, e3.1, (s1, v) :: B1, hpath, rfl, rfl,
            rfl, by simp [pre_cons]⟩⟩

theorem judy_key_path (judy : Judy) (d : Nat) (A B : List Ent) (k : List Nat) (v : Nat)
    (buff : List Nat) (bmax : Nat) (hpath : Path d 0 judy.root judy.stack A (k, v) B)
    (hb : k.length < bmax) (hb32 : bmax < 2 ^ 32) (hbl : bmax ≤ buff.length) :
    ∃ buff1, judy_key judy buff bmax = some (buff1, k.length) ∧
      buff1.take k.length = k ∧ buff1.getD k.length 1 = 0 := by
  have hmax1 : (bmax + 2 ^ 32 - 1) % 2 ^ 32 = bmax - 1 := by omega
  obtain ⟨buff1, hloop, hlen1, htake⟩ := key_loop_path (fun _ => none) (bmax - 1) d 0 judy.root judy.stack A B k v
    hpath buff 0 (by omega) (by omega)
  simp only [Nat.zero_add, List.take_zero, List.nil_append] at hloop htake
  obtain ⟨t1, t2⟩ := set_take_getD buff1 k.length (by omega)
  refine ⟨buff1.set k.length 0, ?_, by rw [t1, htake], t2⟩
  unfold judy_key
  simp only [hmax1, hloop]

theorem judy_prv_spec (M : Nat) [Fact (M ≤ JUDY_open_max)] (judy : Judy) (d : Nat)
    (A B : List Ent) (s : List Nat)
    (v : Nat) (hmax : judy.max = M + 1) (hpath : Path d 0 judy.root judy.stack A (s, v) B)
    (hv : 0 < v) (hshort : Short M A) :
    (A = [] → judy_prv judy = some ⟨{ judy with stack := [] }, none⟩) ∧
    (∀ A1 e1, A = A1 ++ [e1] → ∃ fs1,
      judy_prv judy = some ⟨{ judy with stack := fs1 }, some (.word e1.2)⟩ ∧
      Path d 0 judy.root fs1 A1 e1 ((s, v) :: B)) := by
  have hn := prv_spec judy.max d 0 judy.root judy.stack A B s v [] hpath hv
    (fun x hx => by
      have := hshort x hx
      simp only [List.length_nil]
      omega)
  rw [List.append_nil] at hn
  obtain ⟨f, rest, hfs⟩ := Path_cons hpath
  have hj : judy_prv judy = mkRes judy (prv_loop judy.max judy.stack) := by
    unfold judy_prv
    rw [hfs]
  refine ⟨fun h => ?_, fun A1 e1 h => ?_⟩
  · rw [hj, hn.1 h]
    rfl
  · obtain ⟨fs1, hp1, hp2⟩ := hn.2 A1 e1 h
    refine ⟨fs1, ?_, hp2⟩
    rw [hj, hp1, List.append_nil]
    rfl

theorem judy_nxt_first (M : Nat) [Fact (M ≤ JUDY_open_max)] (judy : Judy) (m : List Ent) (d : Nat)
    (hmax : judy.max = M + 1) (hst : judy.stack = []) (hrep : Rep d 0 judy.root m)
    (hshort : Short M m) :
    ∃ fs e B, judy_nxt judy = some ⟨{ judy with stack := fs }, some (.word e.2)⟩ ∧
      Path d 0 judy.root fs [] e B ∧ m = e :: B := by
  obtain ⟨fs, e, B, hf, hp, hm⟩ := first_spec judy.max d 0 judy.root m [] (judy.max + 1) hrep
    (fun x hx => by have := hshort x hx; omega)
    (fun x hx => by
      have := hshort x hx
      simp only [List.length_nil]
      omega)
  refine ⟨fs, e, B, ?_, hp, hm⟩
  unfold judy_nxt
  rw [hst]
  simp only
  rw [hf, List.append_nil]
  rfl

theorem judy_prv_last (M : Nat) [Fact (M ≤ JUDY_open_max)] (judy : Judy) (m : List Ent) (d : Nat)
    (hmax : judy.max = M + 1) (hst : judy.stack = []) (hrep : Rep d 0 judy.root m)
    (hshort : Short M m) :
    ∃ fs e A, judy_prv judy = some ⟨{ judy with stack := fs }, some (.word e.2)⟩ ∧
      Path d 0 judy.root fs A e [] ∧ m = A ++ [e] := by
  obtain ⟨fs, e, A, hf, hp, hm⟩ := last_spec judy.max d 0 judy.root m [] (judy.max + 1) hrep
    (fun x hx => by have := hshort x hx; omega)
    (fun x hx => by
      have := hshort x hx
      simp only [List.length_nil]
      omega)
  refine ⟨fs, e, A, ?_, hp, hm⟩
  unfold judy_prv
  rw [hst]
  simp only
  rw [hf, List.append_nil]
  rfl

theorem judy_move_empty_root (judy : Judy) (hst : judy.stack = []) (h0 : judy.root = .word 0) :
    judy_nxt judy = some ⟨{ judy with stack := [] }, none⟩ ∧
    judy_prv judy = some ⟨{ judy with stack := [] }, none⟩ := by
  constructor
  · unfold judy_nxt
    rw [hst]
    simp only
    rw [h0, judy_first, ← h0]
    rfl
  · unfold judy_prv
    rw [hst]
    simp only
    rw [h0, judy_last, ← h0]
    rfl

/-- A move `judy_nxt` from a cursor that is empty or stands on an entry. -/
theorem judy_nxt_state (M : Nat) [Fact (M ≤ JUDY_open_max)] (judy : Judy) (m : List Ent)
    (hmax : judy.max = M + 1)
    (hroot : RootRep judy.root m) (hshort : Short M m) (hcur : CursorOK judy m) :
    ∃ r, judy_nxt judy = some r ∧ r.judy.max = M + 1 ∧ r.judy.root = judy.root ∧
      CursorOK r.judy m ∧ (r.cell = none → r.judy.stack = []) ∧
      (judy.stack = [] → (m = [] → r.cell = none) ∧
        ∀ e B, m = e :: B → r.cell = some (.word e.2)) := by
  obtain ⟨_, hgood⟩ := RootRep_sorted_good hroot
  rcases hcur with hst | ⟨d, A, e, B, hpath, hm⟩
  · rcases hroot with ⟨h0, hm⟩ | ⟨d, hrep⟩
    · refine ⟨_, (judy_move_empty_root judy hst h0).1, hmax, rfl, Or.inl rfl, fun _ => rfl,
        fun _ => ⟨fun _ => rfl, fun e B h => ?_⟩⟩
      rw [hm] at h
      cases h
    · obtain ⟨fs, e, B, hn, hp, hm⟩ := judy_nxt_first M judy m d hmax hst hrep hshort
      refine ⟨_, hn, hmax, rfl, Or.inr ⟨d, [], e, B, hp, hm⟩, fun h => (by cases h),
        fun _ => ⟨fun h => ?_, fun e1 B1 h => ?_⟩⟩
      · rw [hm] at h
        cases h
      · rw [hm] at h
        cases h
        rfl
  · obtain ⟨f, rest, hfs⟩ := Path_cons hpath
    have hv : 0 < e.2 := (hgood e (by rw [hm]; simp)).2
    obtain ⟨n1, n2⟩ := judy_nxt_spec M judy d A B e.1 e.2 hmax hpath hv
      (fun x hx => hshort x (by rw [hm]; simp [hx]))
    cases B with
    | nil =>
      refine ⟨_, n1 rfl, hmax, rfl, Or.inl rfl, fun _ => rfl, fun h => ?_⟩
      rw [hfs] at h
      cases h
    | cons e1 B1 =>
      obtain ⟨fs1, hn, hp⟩ := n2 e1 B1 rfl
      refine ⟨_, hn, hmax, rfl, Or.inr ⟨d, A ++ [e], e1, B1, hp, (by rw [hm]; simp)⟩,
        fun h => (by cases h), fun h => ?_⟩
      rw [hfs] at h
      cases h

/-- A move `judy_prv` from a cursor that is empty or stands on an entry. -/
theorem judy_prv_state (M : Nat) [Fact (M ≤ JUDY_open_max)] (judy : Judy) (m : List Ent)
    (hmax : judy.max = M + 1)
    (hroot : RootRep judy.root m) (hshort : Short M m) (hcur : CursorOK judy m) :
    ∃ r, judy_prv judy = some r ∧ r.judy.max = M + 1 ∧ r.judy.root = judy.root ∧
      CursorOK r.judy m ∧ (r.cell = none → r.judy.stack = []) ∧
      (judy.stack = [] → (m = [] → r.cell = none) ∧
        ∀ A e, m = A ++ [e] → r.cell = some (.word e.2)) := by
  obtain ⟨_, hgood⟩ := RootRep_sorted_good hroot
  rcases hcur with hst | ⟨d, A, e, B, hpath, hm⟩
  · rcases hroot with ⟨h0, hm⟩ | ⟨d, hrep⟩
    · refine ⟨_, (judy_move_empty_root judy hst h0).2, hmax, rfl, Or.inl rfl, fun _ => rfl,
        fun _ => ⟨fun _ => rfl, fun A e h => ?_⟩⟩
      rw [hm] at h
      simp at h
    · obtain ⟨fs, e, A, hn, hp, hm⟩ := judy_prv_last M judy m d hmax hst hrep hshort
      refine ⟨_, hn, hmax, rfl, Or.inr ⟨d, A, e, [], hp, hm⟩, fun h => (by cases h),
        fun _ => ⟨fun h => ?_, fun A1 e1 h => ?_⟩⟩
      · rw [hm] at h
        simp at h
      · rw [hm] at h
        obtain ⟨_, r2⟩ := append_singleton_inj h
        rw [r2]
  · obtain ⟨f, rest, hfs⟩ := Path_cons hpath
    have hv : 0 < e.2 := (hgood e (by rw [hm]; simp)).2
    obtain ⟨n1, n2⟩ := judy_prv_spec M judy d A B e.1 e.2 hmax hpath hv
      (fun x hx => hshort x (by rw [hm]; simp [hx]))
    rcases List.eq_nil_or_concat A with hA | ⟨A1, e1, hA⟩
    · refine ⟨_, n1 hA, hmax, rfl, Or.inl rfl, fun _ => rfl, fun h => ?_⟩
      rw [hfs] at h
      cases h
    · rw [List.concat_eq_append] at hA
      obtain ⟨fs1, hn, hp⟩ := n2 A1 e1 hA
      refine ⟨_, hn, hmax, rfl, Or.inr ⟨d, A1, e1, e :: B, hp, (by rw [hm, hA]; simp)⟩,
        fun h => (by cases h), fun h => ?_⟩
      rw [hfs] at h
      cases h

theorem judy_moves_state (M : Nat) [Fact (M ≤ JUDY_open_max)] (m : List Ent) (hshort : Short M m) :
    ∀ (moves : List Move) (judy : Judy), judy.max = M + 1 → RootRep judy.root m →
      CursorOK judy m →
      ∃ judy1, judy_moves moves judy = some judy1 ∧ judy1.max = M + 1 ∧
        judy1.root = judy.root ∧ CursorOK judy1 m := by
  intro moves
  induction moves with
  | nil => intro judy hmax _ hcur; exact ⟨judy, rfl, hmax, rfl, hcur⟩
  | cons mv moves ih =>
    intro judy hmax hroot hcur
    have hstep : ∃ r, judy_move judy mv = some r ∧ r.judy.max = M + 1 ∧
        r.judy.root = judy.root ∧ CursorOK r.judy m := by
      cases mv with
      | nxt =>
        obtain ⟨r, h1, h2, h3, h4, _⟩ := judy_nxt_state M judy m hmax hroot hshort hcur
        exact ⟨r, h1, h2, h3, h4⟩
      | prv =>
        obtain ⟨r, h1, h2, h3, h4, _⟩ := judy_prv_state M judy m hmax hroot hshort hcur
        exact ⟨r, h1, h2, h3, h4⟩
    obtain ⟨r, h1, h2, h3, h4⟩ := hstep
    obtain ⟨judy1, h5, h6, h7, h8⟩ := ih r.judy h2 (by rw [h3]; exact hroot) h4
    refine ⟨judy1, ?_, h6, h7.trans h3, h8⟩
    rw [judy_moves, h1]
    exact h5

theorem judy_remove_cursor (M : Nat) [Fact (M ≤ JUDY_open_max)] (judy : Judy) (m : List Ent)
    (k : List Nat) (v : Nat)
    (hmax : judy.max = M + 1) (hroot : RootRep judy.root m) (hshort : Short M m)
    (hmem : (k, v) ∈ m) :
    ∃ judy1, judy_remove judy k = some judy1 ∧ judy1.max = M + 1 ∧
      RootRep judy1.root (without k m) ∧ CursorOK judy1 (without k m) := by
  obtain ⟨hsorted, hgood⟩ := RootRep_sorted_good hroot
  have hrep : ∃ d, Rep d 0 judy.root m := by
    rcases hroot with ⟨_, h0⟩ | h
    · rw [h0] at hmem; cases hmem
    · exact h
  obtain ⟨d, hrep⟩ := hrep
  obtain ⟨fs, A, B, hslot, hpath, hm⟩ := judy_slot_spec M judy _ k v d hmax hrep hmem
    (hgood _ hmem).1 (hshort _ hmem)
  subst hm
  obtain ⟨rd, hdel, hmax1, hroot1, hd1, hd2⟩ :=
    judy_del_res M { judy with stack := fs } d A B k v hmax hpath
      (fun e he => hshort e (by simp [he]))
  rw [without_mid k v A B hsorted]
  refine ⟨rd.judy, ?_, hmax1, hroot1, ?_⟩
  · unfold judy_remove
    rw [hslot]
    simp only
    rw [hdel]
  · rcases List.eq_nil_or_concat A with hA | ⟨A1, e1, hA⟩
    · exact Or.inl (hd1 hA).2
    · rw [List.concat_eq_append] at hA
      exact Or.inr ⟨d, A1, e1, B, (hd2 A1 e1 hA).2, by rw [hA]; simp⟩

theorem judy_steps_cursor (M : Nat) [Fact (M ≤ JUDY_open_max)] : ∀ (steps : List Step)
    (judy : Judy) (m : List Ent),
    StepsOK M steps m → judy.max = M + 1 → RootRep judy.root m → Short M m → CursorOK judy m →
    ∃ judy1, judy_steps steps judy = some judy1 ∧ CursorOK judy1 (stepsEnt steps m) := by
  intro steps
  induction steps with
  | nil => intro judy m _ _ _ _ hcur; exact ⟨judy, rfl, hcur⟩
  | cons s steps ih =>
    intro judy m hok hmax hroot hshort _
    cases s with
    | put k v =>
      obtain ⟨⟨h1, h2, h3⟩, hrest⟩ := hok
      obtain ⟨judy1, d, A, B, hput, hmax1, hpath, hins, hrep⟩ :=
        judy_put_spec M judy m k v hmax hroot h1 h2 h3
      obtain ⟨judy2, hsteps, hcur2⟩ := ih judy1 (ins k v m) hrest hmax1
        (Or.inr ⟨d, hrep⟩) (fun e he => by
          rcases ins_mem_iff k v e m he with h | h
          · rw [h]; exact h2
          · exact hshort e h) (Or.inr ⟨d, A, (k, v), B, hpath, hins⟩)
      refine ⟨judy2, ?_, hcur2⟩
      rw [judy_steps]
      simp only [judy_step, hput]
      exact hsteps
    | del k =>
      obtain ⟨hmem, hrest⟩ := hok
      obtain ⟨e, he, hek⟩ := List.mem_map.1 hmem
      obtain ⟨k0, v⟩ := e
      simp only at hek
      subst hek
      obtain ⟨judy1, hrem, hmax1, hroot1, hcur1⟩ :=
        judy_remove_cursor M judy m k0 v hmax hroot hshort he
      obtain ⟨judy2, hsteps, hcur2⟩ := ih judy1 (without k0 m) hrest
        hmax1 hroot1 (fun e he => hshort e (List.mem_filter.1 he).1) hcur1
      refine ⟨judy2, ?_, hcur2⟩
      rw [judy_steps]
      simp only [judy_step, hrem]
      exact hsteps


/-! ## The bounds of `judy_key` -/

theorem getD_set_eq (l : List Nat) (i x d : Nat) (h : i < l.length) :
    (l.set i x).getD i d = x := by
  simp [List.getD_eq_getElem?_getD, h]

theorem getD_set_ne (l : List Nat) (i j x d : Nat) (h : i ≠ j) :
    (l.set i x).getD j d = l.getD j d := by
  simp [List.getD_eq_getElem?_getD, List.getElem?_set_ne h]

theorem KeyInv_push {buff : List Nat} {max : Nat} {buff1 : List Nat} {len : Nat}
    (h : KeyInv buff max buff1 len) (hmax : max < buff.length) (hl : len < max) (b : Nat)
    (hb : b ≠ 0) : KeyInv buff max (buff1.set len b) (len + 1) := by
  obtain ⟨_, h2, h3, h4⟩ := h
  refine ⟨hl, by rw [List.length_set]; exact h2, fun i hi => ?_, fun i hi => ?_⟩
  · rw [getD_set_ne _ _ _ _ _ (by omega)]
    exact h3 i hi
  · by_cases h0 : i = len
    · subst h0
      rw [getD_set_eq _ _ _ _ (by omega)]
      exact hb
    · rw [getD_set_ne _ _ _ _ _ (fun h => h0 h.symm)]
      exact h4 i (by omega)

theorem KeyInv_zero {buff : List Nat} {max : Nat} {buff1 : List Nat} {len : Nat}
    (h : KeyInv buff max buff1 len) (hl : len < max) (b : Nat) :
    KeyInv buff max (buff1.set len b) len := by
  obtain ⟨h1, h2, h3, h4⟩ := h
  refine ⟨h1, by rw [List.length_set]; exact h2, fun i hi => ?_, fun i hi => ?_⟩
  · rw [getD_set_ne _ _ _ _ _ (by omega)]
    exact h3 i hi
  · rw [getD_set_ne _ _ _ _ _ (by omega)]
    exact h4 i hi

theorem key_lin_inv (key max : Nat) (buff : List Nat) (hmax : max < buff.length) :
    ∀ (off : Nat) (buff1 : List Nat) (len : Nat), KeyInv buff max buff1 len →
      KeyInv buff max (key_lin key max off buff1 len).1 (key_lin key max off buff1 len).2 := by
  intro off
  induction off with
  | zero => intro buff1 len h; exact h
  | succ off ih =>
    intro buff1 len h
    rw [key_lin]
    by_cases hl : len < max
    · rw [if_pos hl]
      by_cases hb : (key >>> (8 * off)) &&& 0xFF ≠ 0
      · simp only [hb, ne_eq, not_false_eq_true, if_true]
        exact ih _ _ (KeyInv_push h hmax hl _ hb)
      · simp only [hb, if_false]
        exact KeyInv_zero h hl _
    · rw [if_neg hl]
      exact h

theorem key_span_inv (base : List Nat) (max : Nat) (buff : List Nat) (hmax : max < buff.length) :
    ∀ (n slot : Nat) (buff1 : List Nat) (len : Nat), KeyInv buff max buff1 len →
      KeyInv buff max (key_span base max n slot buff1 len).1
        (key_span base max n slot buff1 len).2 := by
  intro n
  induction n with
  | zero => intro slot buff1 len h; exact h
  | succ n ih =>
    intro slot buff1 len h
    rw [key_span]
    by_cases hc : slot < JUDY_span_bytes ∧ base.getD slot 0 ≠ 0
    · rw [if_pos hc]
      by_cases hl : len < max
      · rw [if_pos hl]
        exact ih _ _ _ (KeyInv_push h hmax hl _ hc.2)
      · rw [if_neg hl]
        exact ih _ _ _ h
    · rw [if_neg hc]
      exact h

theorem key_loop_inv (front : JudyStack → Nat) (max : Nat) (buff : List Nat)
    (hmax : max < buff.length) :
    ∀ (frames : List JudyStack) (buff1 : List Nat) (len : Nat),
      (∀ f ∈ frames, KeyFrame f) → KeyInv buff max buff1 len →
      ∃ buff2 len2, key_loop (fun f => some (front f)) max frames buff1 len =
          some (buff2, len2) ∧ KeyInv buff max buff2 len2 := by
  intro frames
  induction frames with
  | nil => intro buff1 len _ h; exact ⟨buff1, len, rfl, h⟩
  | cons f frames ih =>
    intro buff1 len hf h
    have hf0 := hf f (List.mem_cons_self _ _)
    have hfr : ∀ g ∈ frames, KeyFrame g := fun g hg => hf g (List.mem_cons_of_mem _ hg)
    rw [key_loop]
    by_cases hl : len < max
    · rw [if_pos hl]
      unfold KeyFrame at hf0
      cases hn : f.next with
      | word w => rw [hn] at hf0; exact absurd hf0 id
      | lin type keys kids =>
        by_cases hs : f.slot < 0
        · simp only [if_pos hs]
          exact ih _ _ hfr (key_lin_inv _ max buff hmax _ _ _ h)
        · simp only [if_neg hs]
          exact ih _ _ hfr (key_lin_inv _ max buff hmax _ _ _ h)
      | radix table =>
        rw [hn] at hf0
        simp only
        by_cases h0 : f.slot = 0
        · rw [if_pos h0]
          exact ih _ _ hfr h
        · rw [if_neg h0]
          refine ih _ _ hfr (KeyInv_push h hmax hl _ ?_)
          omega
      | span base kid =>
        simp only
        exact ih _ _ hfr (key_span_inv base max buff hmax _ _ _ _ h)
    · rw [if_neg hl]
      exact ⟨buff1, len, rfl, h⟩

/-- The bytes in front of a node are read for a linear frame with a negative slot only: on a
cursor without such a frame the loop of `judy_key` does not depend on them. -/
theorem key_loop_front (front1 front2 : JudyStack → Option Nat) (max : Nat) :
    ∀ (frames : List JudyStack) (buff : List Nat) (len : Nat),
      (∀ f ∈ frames, 0 ≤ f.slot) →
      key_loop front1 max frames buff len = key_loop front2 max frames buff len := by
  intro frames
  induction frames with
  | nil => intro buff len _; rfl
  | cons f frames ih =>
    intro buff len hf
    have hf0 := hf f (List.mem_cons_self _ _)
    have hfr : ∀ g ∈ frames, 0 ≤ g.slot := fun g hg => hf g (List.mem_cons_of_mem _ hg)
    rw [key_loop, key_loop]
    by_cases hl : len < max
    · rw [if_pos hl, if_pos hl]
      cases hn : f.next with
      | word w => rfl
      | lin type keys kids =>
        simp only [if_neg (not_lt.2 hf0)]
        exact ih _ _ hfr
      | radix table =>
        simp only
        by_cases h0 : f.slot = 0
        · rw [if_pos h0, if_pos h0]
          exact ih _ _ hfr
        · rw [if_neg h0, if_neg h0]
          exact ih _ _ hfr
      | span base kid =>
        simp only
        exact ih _ _ hfr
    · rw [if_neg hl, if_neg hl]

/-- On a cursor of which no frame has a negative slot, `judy_key` returns what
`judy_key_front` returns, whatever the memory in front of the nodes holds. -/
theorem judy_key_front_eq (front : JudyStack → Nat) (judy : Judy) (buff : List Nat) (max : Nat)
    (h : ∀ f ∈ judy.stack, 0 ≤ f.slot) :
    judy_key judy buff max = judy_key_front front judy buff max := by
  unfold judy_key judy_key_front
  simp only [key_loop_front (fun _ => none) (fun f => some (front f)) _ judy.stack.reverse buff 0
    (fun f hf => h f (List.mem_reverse.1 hf))]

theorem Path_KeyFrame : ∀ (d off : Nat) (n : JNode) (fs : List JudyStack) (A B : List Ent)
    (e : Ent), Path d off n fs A e B → ∀ f ∈ fs, KeyFrame f := by
  intro d
  induction d with
  | zero => intro off n fs A B e h; exact absurd h (by simp [Path])
  | succ d ih =>
    intro off n fs A B e h
    cases n with
    | word w => exact absurd h (by simp [Path])
    | lin type keys kids =>
      obtain ⟨e0, K1, K2, C1, C2, mA, mB, p, c, h1, h2, rfl, rfl, h5, h6, h7, h8, h9, h10⟩ := h
      have hF : KeyFrame ⟨.lin type (List.replicate e0 0 ++ (K1 ++ pack (key_size off) p :: K2))
          (List.replicate e0 (JNode.word 0) ++ (C1 ++ c :: C2)), off,
          ((e0 + K1.length : Nat) : Int)⟩ := by
        unfold KeyFrame
        simp only [List.length_append, List.length_replicate, List.length_cons]
        omega
      rcases h10 with ⟨_, _, _, rfl, _, _⟩ | ⟨_, fs1, A1, s1, B1, hp, rfl, _, _, _⟩
      · intro f hf
        rw [List.mem_singleton] at hf
        rw [hf]
        exact hF
      · intro f hf
        rcases List.mem_append.1 hf with h0 | h0
        · exact ih _ _ _ _ _ _ hp f h0
        · rw [List.mem_singleton] at h0
          rw [h0]
          exact hF
    | radix table =>
      obtain ⟨ms, b, hb256, hO, hinner, hR, h4⟩ := h
      have hF : KeyFrame ⟨.radix table, off, ((b : Nat) : Int)⟩ := by
        unfold KeyFrame
        simp only
        omega
      rcases h4 with ⟨_, _, _, rfl, _, _⟩ | ⟨_, fs1, A1, s1, B1, hp, rfl, _, _, _⟩
      · intro f hf
        rw [List.mem_singleton] at hf
        rw [hf]
        exact hF
      · intro f hf
        rcases List.mem_append.1 hf with h0 | h0
        · exact ih _ _ _ _ _ _ hp f h0
        · rw [List.mem_singleton] at h0
          rw [h0]
          exact hF
    | span base kid =>
      obtain ⟨hal, p, hpz, hbase, h4⟩ := h
      have hF : KeyFrame ⟨.span base kid, off, 0⟩ := by
        unfold KeyFrame
        trivial
      rcases h4 with ⟨_, _, _, rfl, _, _⟩ | ⟨_, fs1, A1, s1, B1, hp, rfl, _, _, _⟩
      · intro f hf
        rw [List.mem_singleton] at hf
        rw [hf]
        exact hF
      · intro f hf
        rcases List.mem_append.1 hf with h0 | h0
        · exact ih _ _ _ _ _ _ hp f h0
        · rw [List.mem_singleton] at h0
          rw [h0]
          exact hF


/-! ## A key with a zero byte in an empty array -/

theorem span_bytes_getD (buff : List Nat) (off tst i : Nat) :
    (span_bytes buff off tst).getD i 0 =
      if i < JUDY_span_bytes ∧ i < tst then buff.getD (off + i) 0 else 0 := by
  unfold span_bytes
  rw [List.getD_eq_getElem?_getD, List.getElem?_map]
  by_cases hi : i < JUDY_span_bytes
  · rw [List.getElem?_range hi]
    simp only [Option.map_some', Option.getD_some, hi, true_and]
  · rw [List.getElem?_eq_none (by simp; omega)]
    simp [hi]

theorem key_span_zero (base : List Nat) (max1 : Nat) :
    ∀ (q : List Nat) (n slot : Nat) (buff : List Nat) (len : Nat), ZF q →
      (∀ i, i ≤ q.length → base.getD (slot + i) 0 = q.getD i 0) →
      q.length < n → slot + q.length ≤ JUDY_span_bytes →
      len + q.length ≤ max1 → max1 < buff.length →
      ∃ buff1, key_span base max1 n slot buff len = (buff1, len + q.length) ∧
        buff1.length = buff.length ∧ buff1.take (len + q.length) = buff.take len ++ q := by
  intro q
  induction q with
  | nil =>
    intro n slot buff len _ hb hn _ _ _
    refine ⟨buff, ?_, rfl, by simp⟩
    obtain ⟨n, rfl⟩ : ∃ n1, n = n1 + 1 := ⟨n - 1, by simp at hn; omega⟩
    rw [key_span]
    have : base.getD slot 0 = 0 := by simpa using hb 0 (Nat.zero_le _)
    rw [this]
    simp
  | cons b q ih =>
    intro n slot buff len hzf hb hn hs hlen hbuf
    have hb0 := (ZF_cons.1 hzf).1
    simp only [List.length_cons] at hn hs hlen hb
    obtain ⟨n, rfl⟩ : ∃ n1, n = n1 + 1 := ⟨n - 1, by omega⟩
    have hbs : base.getD slot 0 = b := by simpa using hb 0 (Nat.zero_le _)
    have h24 : JUDY_span_bytes = 24 := rfl
    rw [key_span]
    rw [h24] at hs
    have hc : slot < JUDY_span_bytes ∧ base.getD slot 0 ≠ 0 := ⟨by rw [h24]; omega, by omega⟩
    rw [if_pos hc, if_pos (show len < max1 by omega), hbs]
    obtain ⟨buff1, h1, h2, h3⟩ := ih n (slot + 1) (buff.set len b) (len + 1) (ZF_cons.1 hzf).2
      (fun i hi => by
        have := hb (i + 1) (by omega)
        rw [show slot + 1 + i = slot + (i + 1) by omega, this]; rfl)
      (by omega) (by rw [h24]; omega) (by omega) (by simpa using hbuf)
    refine ⟨buff1, ?_, by simpa using h2, ?_⟩
    · rw [h1]; simp only [List.length_cons, Prod.mk.injEq, true_and]; omega
    · rw [show len + (b :: q).length = len + 1 + q.length by simp; omega, h3,
        take_set_succ buff len b (by omega)]
      simp

theorem judy_cell_zero_key (M : Nat) [Fact (M ≤ JUDY_open_max)] (p t : List Nat) (hp : ZF p)
    (hM : (p ++ 0 :: t).length ≤ M) (h24 : (p ++ 0 :: t).length ≤ 24) :
    ∃ fs n, judy_cell (judy_open M) (p ++ 0 :: t) (p ++ 0 :: t).length =
        some ⟨{ root := n, max := M + 1, stack := fs }, some (.word 0)⟩ ∧
      ∀ (buff : List Nat) (max1 : Nat), p.length ≤ max1 → max1 < buff.length →
        ∃ buff1, key_loop (fun _ => none) max1 fs.reverse buff 0 = some (buff1, p.length) ∧
          buff1.length = buff.length ∧ buff1.take p.length = p := by
  have hJ : JUDY_span_bytes = 24 := rfl
  have hL : (p ++ 0 :: t).length = p.length + 1 + t.length := by simp; omega
  generalize hLL : (p ++ 0 :: t).length = L at hM h24 hL ⊢
  have hbase : ∀ i, i ≤ p.length →
      (span_bytes (p ++ 0 :: t) 0 L).getD (0 + i) 0 = p.getD i 0 := by
    intro i hi
    rw [span_bytes_getD, if_pos ⟨by omega, by omega⟩, Nat.zero_add, Nat.zero_add]
    rcases Nat.lt_or_ge i p.length with h | h
    · rw [List.getD_append _ _ _ _ h]
    · have : i = p.length := by omega
      subst this
      rw [List.getD_append_right _ _ _ _ (le_refl _)]
      simp
  have htst : (if JUDY_span_bytes > L - 0 then L - 0 else JUDY_span_bytes) = L := by
    split
    · rfl
    · omega
  have hkey1 : ∀ (kid : JNode) (off : Nat) (rest : List JudyStack) (buff : List Nat)
      (max1 : Nat), p.length ≤ max1 → max1 < buff.length → 0 < max1 →
      ∃ buff1, key_loop (fun _ => none) max1 (⟨.span (span_bytes (p ++ 0 :: t) 0 L) kid,
          off, 0⟩ :: rest) buff 0 = key_loop (fun _ => none) max1 rest buff1 p.length ∧
        buff1.length = buff.length ∧ buff1.take p.length = p := by
    intro kid off rest buff max1 h1 h2 h3
    obtain ⟨buff1, k1, k2, k3⟩ := key_span_zero _ max1 p 24 0 buff 0 hp hbase (by omega)
      (by omega) (by omega) h2
    refine ⟨buff1, ?_, k2, by simpa using k3⟩
    rw [key_loop, if_pos h3]
    simp only
    rw [show JUDY_span_bytes = 24 from rfl, k1]
    simp
  have hkey2 : ∀ (kid : JNode) (off : Nat) (buff : List Nat) (max1 len : Nat),
      len ≤ max1 → max1 < buff.length →
      key_loop (fun _ => none) max1 [⟨.span (span_bytes (p ++ 0 :: t) 24 0) kid, off, 0⟩] buff len =
        some (buff, len) := by
    intro kid off buff max1 len h1 h2
    rw [key_loop]
    by_cases h4 : len < max1
    · rw [if_pos h4]
      simp only
      rw [show JUDY_span_bytes = 24 from rfl, key_span, if_neg (by rw [span_bytes_getD]; simp)]
      rfl
    · rw [if_neg h4]
  unfold judy_cell judy_open
  simp only [open_max32 M]
  rw [show 2 * (M + 1) + 2 = (2 * M + 3) + 1 by omega, cell_loop]
  unfold cell_new
  rw [if_neg (by simp), cell_spans, if_pos (Nat.zero_le _),
    if_neg (show ¬ 2 ^ 31 ≤ L - 0 by omega)]
  simp only [htst]
  by_cases h23 : (span_bytes (p ++ 0 :: t) 0 L).getD (JUDY_span_bytes - 1) 0 = 0
  · rw [if_pos h23]
    simp only [List.length_singleton]
    rw [if_pos (by omega)]
    refine ⟨_, _, rfl, fun buff max1 h1 h2 => ?_⟩
    rw [List.reverse_singleton]
    by_cases h3 : 0 < max1
    · obtain ⟨buff1, k1, k2, k3⟩ := hkey1 (.word 0) 0 [] buff max1 h1 h2 h3
      exact ⟨buff1, by rw [k1]; rfl, k2, k3⟩
    · have hp0 : p.length = 0 := by omega
      refine ⟨buff, ?_, rfl, ?_⟩
      · rw [key_loop, if_neg h3, hp0]
      · rw [hp0, List.length_eq_zero.1 hp0]
        rfl
  · rw [if_neg h23]
    have hL24 : L = 24 := by
      by_contra hne
      apply h23
      rw [span_bytes_getD, if_neg (by rw [hJ]; omega)]
    subst hL24
    rw [Nat.zero_add, cell_spans, if_pos (le_refl _),
      if_neg (show ¬ 2 ^ 31 ≤ 24 - 24 by omega)]
    have ht0 : (if JUDY_span_bytes > 24 - 24 then 24 - 24 else JUDY_span_bytes) = 0 := rfl
    simp only [ht0]
    have hz : (span_bytes (p ++ 0 :: t) 24 0).getD (JUDY_span_bytes - 1) 0 = 0 := by
      rw [span_bytes_getD]
      simp
    rw [if_pos hz]
    simp only [List.length_append, List.length_singleton]
    rw [if_pos (by omega)]
    refine ⟨_, _, rfl, fun buff max1 h1 h2 => ?_⟩
    rw [List.reverse_append, List.reverse_singleton, List.reverse_singleton,
      List.singleton_append]
    by_cases h3 : 0 < max1
    · obtain ⟨buff1, k1, k2, k3⟩ := hkey1 _ 0 [⟨_, 24, 0⟩] buff max1 h1 h2 h3
      refine ⟨buff1, ?_, k2, k3⟩
      rw [k1, hkey2 _ _ _ _ _ h1 (by omega)]
    · have hp0 : p.length = 0 := by omega
      refine ⟨buff, ?_, rfl, ?_⟩
      · rw [key_loop, if_neg h3, hp0]
      · rw [hp0, List.length_eq_zero.1 hp0]
        rfl


/-! ## The nodes of a well formed array -/

theorem Slots.kid_at {R : JNode → List Ent → Prop} {ks : Nat} {K : List Nat} {C : List JNode}
    {m : List Ent} (h : Slots R ks K C m) :
    ∀ i, (∃ v, C.getD i (JNode.word 0) = .word v) ∨ ∃ m1, R (C.getD i (JNode.word 0)) m1 := by
  induction h with
  | nil => intro i; exact Or.inl ⟨0, by simp⟩
  | @leaf p v keys kids m _ _ _ _ ih =>
    intro i
    cases i with
    | zero => exact Or.inl ⟨v, rfl⟩
    | succ i => simpa using ih i
  | @node p kid m1 keys kids m _ _ hr _ ih =>
    intro i
    cases i with
    | zero => exact Or.inr ⟨m1, hr⟩
    | succ i => simpa using ih i

theorem Slots.key_bound {R : JNode → List Ent → Prop} {ks : Nat} {K : List Nat}
    {C : List JNode} {m : List Ent} (h : Slots R ks K C m) :
    ∀ x ∈ K, x < 256 ^ ks := by
  induction h with
  | nil => simp
  | @leaf p v keys kids m hp _ _ _ ih =>
    intro x hx
    rcases List.mem_cons.1 hx with rfl | hx
    · exact pack_lt ks p hp
    · exact ih x hx
  | @node p kid m1 keys kids m hp _ _ _ ih =>
    intro x hx
    rcases List.mem_cons.1 hx with rfl | hx
    · exact pack_lt ks p hp
    · exact ih x hx

/-- Every word in the node graph of a well formed node is a cell or a well formed node. -/
theorem Reach_Rep {d off : Nat} {n : JNode} {m : List Ent} (hrep : Rep d off n m)
    {off1 : Nat} {x : JNode} (h : Reach off n off1 x) :
    (∃ v, x = .word v) ∨ ∃ d1 m1, Rep (d1 + 1) off1 x m1 := by
  induction h with
  | root =>
    cases d with
    | zero => exact absurd hrep (by simp [Rep])
    | succ d => exact Or.inr ⟨d, m, hrep⟩
  | @lin off1 type keys kids slot _ ih =>
    rcases ih with ⟨v, hv⟩ | ⟨d1, m1, h1⟩
    · cases hv
    · obtain ⟨e, pkeys, pkids, _, _, rfl, rfl, _, _, _, hs⟩ := h1
      rcases Nat.lt_or_ge slot e with h | h
      · exact Or.inl ⟨0, kidAt_replicate e pkids slot h⟩
      · have hk : kidAt (List.replicate e (JNode.word 0) ++ pkids) slot =
            pkids.getD (slot - e) (JNode.word 0) := by
          unfold kidAt
          rw [List.getD_append_right _ _ _ _ (by simpa using h), List.length_replicate]
        rw [hk]
        rcases hs.kid_at (slot - e) with hw | ⟨m2, h2⟩
        · exact Or.inl hw
        · cases d1 with
          | zero => exact absurd h2 (by simp [Rep])
          | succ d1 => exact Or.inr ⟨d1, m2, h2⟩
  | @radix off1 table b _ hb ih =>
    rcases ih with ⟨v, hv⟩ | ⟨d1, m1, h1⟩
    · cases hv
    · obtain ⟨_, ms, hR, _, _⟩ := h1
      rcases hR b hb with ⟨h0, _⟩ | ⟨_, v, _, hx, _⟩ | ⟨_, m2, h2, _⟩
      · exact Or.inl ⟨0, h0⟩
      · exact Or.inl ⟨v, hx⟩
      · cases d1 with
        | zero => exact absurd h2 (by simp [Rep])
        | succ d1 => exact Or.inr ⟨d1, m2, h2⟩
  | @span off1 base kid _ ih =>
    rcases ih with ⟨v, hv⟩ | ⟨d1, m1, h1⟩
    · cases hv
    · obtain ⟨_, p, _, _, h4⟩ := h1
      rcases h4 with ⟨_, v, _, hx, _⟩ | ⟨_, m2, h2, _⟩
      · exact Or.inl ⟨v, hx⟩
      · cases d1 with
        | zero => exact absurd h2 (by simp [Rep])
        | succ d1 => exact Or.inr ⟨d1, m2, h2⟩

theorem Rep_LinOK {d off type : Nat} {keys : List Nat} {kids : List JNode} {m : List Ent}
    (h : Rep (d + 1) off (.lin type keys kids) m) : LinOK off type keys kids := by
  obtain ⟨e, pkeys, pkids, _, _, rfl, rfl, hcnt, hne, hpw, hs⟩ := h
  have hlen := hs.length_eq
  have hpos : 0 < pkeys.length := List.length_pos.2 hne
  have hget : ∀ i, e ≤ i → (List.replicate e 0 ++ pkeys).getD i 0 = pkeys.getD (i - e) 0 := by
    intro i hi
    rw [List.getD_append_right _ _ _ _ (by simpa using hi), List.length_replicate]
  refine ⟨by simp only [List.length_append, List.length_replicate]; omega,
    by simp only [List.length_append, List.length_replicate]; omega, e, by omega,
    fun i hi => ⟨?_, kidAt_replicate e pkids i hi⟩, fun i h1 h2 => ⟨?_, ?_⟩,
    fun i j h1 h2 h3 => ?_⟩
  · rw [List.getD_append _ _ _ _ (by simpa using hi)]
    simp [List.getD_eq_getElem?_getD, List.getElem?_replicate, hi]
  · have hk : kidAt (List.replicate e (JNode.word 0) ++ pkids) i =
        pkids.getD (i - e) (JNode.word 0) := by
      unfold kidAt
      rw [List.getD_append_right _ _ _ _ (by simpa using h1), List.length_replicate]
    rw [hk]
    have hi : i - e < pkids.length := by omega
    rw [List.getD_eq_getElem _ _ hi]
    exact hs.kids_nonzero (fun c m1 hc => Rep_nonzero hc) _ (List.getElem_mem _)
  · rw [hget i h1]
    have hi : i - e < pkeys.length := by omega
    rw [List.getD_eq_getElem _ _ hi]
    exact hs.key_bound _ (List.getElem_mem _)
  · rw [hget i h1, hget j (by omega)]
    have hi : i - e < pkeys.length := by omega
    have hj : j - e < pkeys.length := by omega
    rw [List.getD_eq_getElem _ _ hi, List.getD_eq_getElem _ _ hj]
    exact List.pairwise_iff_getElem.1 hpw (i - e) (j - e) hi hj (by omega)


/-! ## The span nodes of a first key -/

theorem span_bytes_chunk (k : List Nat) (off tst : Nat)
    (h : tst = JUDY_span_bytes ∨ k.length ≤ off + tst) : span_bytes k off tst = chunk k off := by
  unfold span_bytes chunk
  apply List.map_congr_left
  intro j hj
  rw [List.mem_range] at hj
  split
  · rfl
  · rcases h with h | h
    · omega
    · rw [List.getD_eq_default _ _ (by omega)]

theorem chunk_last (k : List Nat) (hk : ZF k) (off : Nat) (hoff : off ≤ k.length) :
    (chunk k off).getD (JUDY_span_bytes - 1) 0 = 0 ↔ (k.length - off) / 24 = 0 := by
  have h24 : JUDY_span_bytes = 24 := rfl
  unfold chunk
  rw [List.getD_eq_getElem?_getD, List.getElem?_map, List.getElem?_range (by rw [h24]; omega)]
  simp only [Option.map_some', Option.getD_some, h24]
  rw [Nat.div_eq_zero_iff (by omega)]
  constructor
  · intro h
    by_contra hne
    have := getD_pos k hk (off + (24 - 1)) (by omega)
    omega
  · intro h
    exact List.getD_eq_default _ _ (by omega)

theorem spans_range (k : List Nat) (off n : Nat) (c : JNode) :
    spans ((List.range (n + 2)).map (fun i => chunk k (off + 24 * i))) c =
      .span (chunk k off)
        (spans ((List.range (n + 1)).map (fun i => chunk k (off + 24 + 24 * i))) c) := by
  have hfun : ((fun i => chunk k (off + 24 * i)) ∘ Nat.succ) =
      fun i => chunk k (off + 24 + 24 * i) := by
    funext i
    simp only [Function.comp]
    congr 1
    omega
  rw [List.range_succ_eq_map (n + 1), List.map_cons, List.map_map, hfun]
  rfl

theorem cell_spans_root (k : List Nat) (hk : ZF k) (hk31 : k.length < 2 ^ 31) :
    ∀ (n off fuel : Nat), off ≤ k.length → (k.length - off) / 24 = n → n + 1 ≤ fuel →
      ∃ fs f0, cell_spans k k.length fuel off =
          some (spans ((List.range (n + 1)).map (fun i => chunk k (off + 24 * i))) (.word 0),
            f0 :: fs, .word 0) ∧
        fs.length = n ∧
        f0 = ⟨.span (chunk k (off + 24 * n)) (.word 0), off + 24 * n, 0⟩ := by
  have h24 : JUDY_span_bytes = 24 := rfl
  intro n
  induction n with
  | zero =>
    intro off fuel hoff hn hf
    obtain ⟨fuel, rfl⟩ : ∃ f, fuel = f + 1 := ⟨fuel - 1, by omega⟩
    rw [cell_spans, if_pos hoff, if_neg (by omega : ¬ 2 ^ 31 ≤ k.length - off)]
    simp only
    rw [span_bytes_chunk k off _ (by split <;> omega), if_pos ((chunk_last k hk off hoff).2 hn)]
    exact ⟨[], _, rfl, rfl, rfl⟩
  | succ n ih =>
    intro off fuel hoff hn hf
    obtain ⟨fuel, rfl⟩ : ∃ f, fuel = f + 1 := ⟨fuel - 1, by omega⟩
    have hge : 24 ≤ k.length - off := by
      by_contra hlt
      rw [Nat.div_eq_of_lt (by omega)] at hn
      omega
    rw [cell_spans, if_pos hoff, if_neg (by omega : ¬ 2 ^ 31 ≤ k.length - off)]
    simp only
    have htst : (if JUDY_span_bytes > k.length - off then k.length - off else JUDY_span_bytes)
        = 24 := by
      rw [if_neg (by omega)]
      rfl
    rw [htst, span_bytes_chunk k off 24 (Or.inl rfl),
      if_neg (fun h => by rw [(chunk_last k hk off hoff).1 h] at hn; omega)]
    obtain ⟨fs, f0, hc, hlen, hf0⟩ := ih (off + 24) fuel (by omega)
      (by
        have : k.length - off = (k.length - (off + 24)) + 24 := by omega
        rw [this, Nat.add_div_right _ (by omega)] at hn
        omega) (by omega)
    rw [hc]
    simp only
    refine ⟨fs ++ [⟨.span (chunk k off) (spans ((List.range (n + 1)).map
      (fun i => chunk k (off + 24 + 24 * i))) (.word 0)), off, 0⟩], f0, ?_, by simp [hlen], ?_⟩
    · rw [spans_range, List.cons_append]
    · rw [hf0, show off + 24 * (n + 1) = off + 24 + 24 * n by omega]


/-! ## The chain of `JUDY_1` nodes of a split span -/

theorem lin1s_cons (key : Nat) (keys : List Nat) (cell : JNode) :
    lin1s (key :: keys) cell = .lin JUDY_1 [key] [lin1s keys cell] := rfl

theorem splitspan_loop_chain (base : List Nat) (kid : JNode) :
    ∀ (n j : Nat) (q : List Nat), ZF q → q.length ≤ 8 * (n + 1) →
      base.drop j = q ++ List.replicate (8 * (n + 1) - q.length) 0 →
      splitspan_loop base kid (n + 1) (8 * (n + 1)) j =
        lin1s ((List.range (min (n + 1) (q.length / 8 + 1))).map
          (fun i => pack 8 (q.drop (8 * i)))) kid := by
  intro n
  induction n with
  | zero =>
    intro j q hq hl hb
    rw [splitspan_loop]
    have hkey : span_key base j JUDY_key_size 0 = pack 8 q := by
      rw [span_key_eq, hb, pack_zeros]; simp [JUDY_key_size]
    have hmin : min (0 + 1) (q.length / 8 + 1) = 1 := by omega
    simp [hkey, JUDY_key_size, hmin, lin1s, show List.range 1 = [0] from rfl]
  | succ n ih =>
    intro j q hq hl hb
    rw [splitspan_loop]
    have hkey : span_key base j JUDY_key_size 0 = pack 8 q := by
      rw [span_key_eq, hb, pack_zeros]; simp [JUDY_key_size]
    have hget : base.getD (j + 8 - 1) 0 =
        (q ++ List.replicate (8 * (n + 1 + 1) - q.length) 0).getD 7 0 := by
      rw [← hb, List.getD_eq_getElem?_getD, List.getD_eq_getElem?_getD, List.getElem?_drop]
      congr 2
    simp only [hkey, JUDY_key_size, hget]
    rcases Nat.lt_or_ge q.length 8 with h8 | h8
    · have hz : (q ++ List.replicate (8 * (n + 1 + 1) - q.length) 0).getD 7 0 = 0 := by
        rw [List.getD_append_right _ _ _ _ (by omega)]
        simp [List.getD_eq_getElem?_getD, List.getElem?_replicate]
        split <;> rfl
      rw [if_neg (fun h => h.2 hz)]
      have hmin : min (n + 1 + 1) (q.length / 8 + 1) = 1 := by
        have : q.length / 8 = 0 := Nat.div_eq_of_lt h8
        omega
      simp [hmin, lin1s, show List.range 1 = [0] from rfl]
    · have hnz : (q ++ List.replicate (8 * (n + 1 + 1) - q.length) 0).getD 7 0 ≠ 0 := by
        rw [List.getD_append _ _ _ _ (by omega)]
        have := getD_pos q hq 7 (by omega)
        omega
      rw [if_pos ⟨by omega, hnz⟩]
      have hsub : 8 * (n + 1 + 1) - 8 = 8 * (n + 1) := by omega
      rw [hsub]
      have hrec := ih (j + 8) (q.drop 8) (ZF_drop 8 hq) (by rw [List.length_drop]; omega)
        (by
          rw [← List.drop_drop, hb, List.drop_append_of_le_length (by omega), List.length_drop]
          congr 2
          omega)
      rw [hrec]
      have hmin : min (n + 1 + 1) (q.length / 8 + 1) =
          min (n + 1) ((q.drop 8).length / 8 + 1) + 1 := by
        rw [List.length_drop]
        omega
      have hfun : (fun i => pack 8 ((q.drop 8).drop (8 * i))) =
          (fun i => pack 8 (q.drop (8 * i))) ∘ Nat.succ := by
        funext i
        simp only [Function.comp, List.drop_drop]
        congr 2
        omega
      rw [hmin, List.range_succ_eq_map, List.map_cons, List.map_map, lin1s_cons, hfun]
      rfl

theorem judy_splitspan_chain (p : List Nat) (kid : JNode) (hp : ZF p)
    (hl : p.length ≤ JUDY_span_bytes) :
    judy_splitspan (.span (p ++ List.replicate (JUDY_span_bytes - p.length) 0) kid) =
      some (lin1s (strides p) kid) := by
  have h := splitspan_loop_chain (p ++ List.replicate (JUDY_span_bytes - p.length) 0) kid 2 0 p hp
    hl (by simp [JUDY_span_bytes, JUDY_key_size])
  rw [judy_splitspan]
  exact congrArg some h

/-- The retry of `judy_cell` at a span whose bytes differ from the key. -/
theorem cell_span_split (k : List Nat) (hk : ZF k) (hk31 : k.length < 2 ^ 31) (p : List Nat)
    (kid : JNode) (hp : ZF p)
    (hl : p.length ≤ JUDY_span_bytes) (off fuel : Nat) (hoff : off ≤ k.length)
    (hne : (k.drop off).take JUDY_span_bytes ≠ p) :
    cell_loop k k.length (fuel + 1)
        (.span (p ++ List.replicate (JUDY_span_bytes - p.length) 0) kid) off =
      cell_loop k k.length fuel (lin1s (strides p) kid) off := by
  have h24 : JUDY_span_bytes = 24 := rfl
  have hzs : ZF (k.drop off) := ZF_drop off hk
  have hlen : k.length - off = (k.drop off).length := by rw [List.length_drop]
  rw [cell_loop]
  rw [if_neg (by omega : ¬ (k.length < off ∨ 2 ^ 31 ≤ k.length - off))]
  simp only [hlen]
  rcases Nat.lt_or_ge (k.drop off).length 24 with hsl | hsl
  · have htst : (if JUDY_span_bytes > (k.drop off).length then (k.drop off).length
        else JUDY_span_bytes) = (k.drop off).length := by
      rw [if_pos (by rw [h24]; exact hsl)]
    have heq := strncmp_eq_iff (JUDY_span_bytes - p.length) (k.drop off).length p (k.drop off)
      hp hzs
    rw [List.take_length] at heq
    have hA : k.drop off ≠ p := by
      intro h
      apply hne
      rw [List.take_of_length_le (by rw [h24]; omega)]
      exact h
    rw [htst, if_neg, if_neg, judy_splitspan_chain p kid hp hl]
    · rintro ⟨_, h2⟩
      omega
    · rintro ⟨h1, _, h3⟩
      have hps : p.length ≤ (k.drop off).length := by
        by_contra hcon
        rw [List.getD_append _ _ _ _ (by omega)] at h3
        have := getD_pos p hp (k.drop off).length (by omega)
        omega
      apply hA
      rw [← heq.1 h1, List.take_of_length_le hps]
  · have htst : (if JUDY_span_bytes > (k.drop off).length then (k.drop off).length
        else JUDY_span_bytes) = JUDY_span_bytes := by
      rw [if_neg (by rw [h24]; omega)]
    have heq := strncmp_eq_iff (JUDY_span_bytes - p.length) JUDY_span_bytes p (k.drop off) hp hzs
    rw [List.take_of_length_le hl] at heq
    rw [htst, if_neg, if_neg, judy_splitspan_chain p kid hp hl]
    · rintro ⟨h1, _⟩
      exact hne (heq.1 h1).symm
    · rintro ⟨_, h, _⟩
      omega

theorem Reach_word0 : ∀ (off1 : Nat) (x : JNode), Reach 0 (JNode.word 0) off1 x →
    ∃ v, x = .word v := by
  intro off1 x h
  induction h with
  | root => exact ⟨0, rfl⟩
  | lin _ _ ih => obtain ⟨v, hv⟩ := ih; cases hv
  | radix _ _ _ ih => obtain ⟨v, hv⟩ := ih; cases hv
  | span _ ih => obtain ⟨v, hv⟩ := ih; cases hv


/-! ## The allocator calls of `judy_promote` -/

theorem rdWord_wrWord (mem : Nat → Nat) (a v : Nat) (hv : v < 2 ^ 64) :
    rdWord (wrWord mem a v) a = v := by
  simp only [rdWord, wrWord, List.range, List.range.loop, List.foldr]
  simp
  omega

theorem alloc_carve_low (block type t : Nat) (ht : t < type) :
    ∀ (n idx : Nat) (reuse : List Nat) (mem : Nat → Nat),
      (alloc_carve block type n idx (reuse, mem)).1.getD t 0 = reuse.getD t 0 ∧
      (alloc_carve block type n idx (reuse, mem)).1.length = reuse.length := by
  intro n
  induction n with
  | zero => intro idx reuse mem; exact ⟨rfl, rfl⟩
  | succ n ih =>
    intro idx reuse mem
    rw [alloc_carve]
    split
    · next h =>
      obtain ⟨h1, h2⟩ := ih (idx - 1) (reuse.set (idx - 1) (block + JudySize (idx - 1) / 8 * 8))
        (wrWord mem (block + JudySize (idx - 1) / 8 * 8) 0)
      rw [h1, h2, List.length_set]
      exact ⟨getD_set_ne _ _ _ _ _ (by omega), rfl⟩
    · exact ⟨rfl, rfl⟩

theorem alloc_find_above (reuse : List Nat) :
    ∀ (n idx j : Nat), alloc_find reuse n idx = some j → idx < j := by
  intro n
  induction n with
  | zero => intro idx j h; simp [alloc_find] at h
  | succ n ih =>
    intro idx j h
    rw [alloc_find] at h
    split at h
    · split at h
      · injection h with h; omega
      · have := ih _ _ h; omega
    · cases h

/-- A call of `judy_alloc` for a linear class above `JUDY_1` returns a block and leaves the
free lists of the smaller classes as they are. -/
theorem judy_alloc_keeps (a : Arena) (fresh type t : Nat) (hseg : a.seg ≠ 0)
    (hfresh : fresh ≠ 0) (h2 : 2 ≤ type) (h6 : type ≤ 6) (ht : t < type) :
    ∃ a1 nb, judy_alloc a fresh type = some (a1, nb) ∧
      a1.reuse.getD t 0 = a.reuse.getD t 0 ∧ a1.reuse.length = a.reuse.length := by
  unfold judy_alloc
  rw [if_neg hseg]
  have ht0 : ¬ type = JUDY_radix := by simp only [JUDY_radix]; omega
  have ht7 : ¬ type = JUDY_span := by simp only [JUDY_span]; omega
  have hamt : JudySize type &&& 7 = 0 := by interval_cases type <;> rfl
  have hfill : ∀ top s, alloc_fill top 32 type (JudySize type) s = (JudySize type, s) := by
    intro top s
    obtain ⟨reuse, mem⟩ := s
    rw [alloc_fill, if_neg (by simp [JUDY_cache_line, hamt])]
  simp only [if_neg ht0, if_neg ht7, hamt, ne_eq, not_true_eq_false, if_false, hfill]
  split
  · exact ⟨_, _, rfl, getD_set_ne _ _ _ _ _ (by omega), by simp⟩
  · rw [if_pos (by simp only [JUDY_1]; omega)]
    split
    · next idx hidx =>
      have := alloc_find_above _ _ _ _ hidx
      obtain ⟨c1, c2⟩ := alloc_carve_low (a.reuse.getD idx 0) type t ht JUDY_max idx
        (a.reuse.set idx (rdWord a.mem (a.reuse.getD idx 0))) a.mem
      refine ⟨_, _, rfl, ?_, ?_⟩
      · simp only [c1]
        exact getD_set_ne _ _ _ _ _ (by omega)
      · simp only [c2, List.length_set]
    · split_ifs <;> exact ⟨_, _, rfl, rfl, rfl⟩

/-- The slots of a promoted node: `g` empty slots, then the old entries with the new one
between them. -/
theorem promoted_getD {α : Type} (z d x : α) (g : Nat) (K1 K2 : List α) :
    (∀ i, i < g → (List.replicate g z ++ (K1 ++ x :: K2)).getD i d = z) ∧
    (∀ i, i < K1.length →
      (List.replicate g z ++ (K1 ++ x :: K2)).getD (g + i) d = (K1 ++ K2).getD i d) ∧
    (List.replicate g z ++ (K1 ++ x :: K2)).getD (g + K1.length) d = x ∧
    (∀ i, K1.length ≤ i →
      (List.replicate g z ++ (K1 ++ x :: K2)).getD (g + i + 1) d = (K1 ++ K2).getD i d) := by
  refine ⟨fun i hi => ?_, fun i hi => ?_, ?_, fun i hi => ?_⟩
  · rw [List.getD_append _ _ _ _ (by simpa using hi)]
    simp [List.getD_eq_getElem?_getD, List.getElem?_replicate, hi]
  · rw [List.getD_append_right _ _ _ _ (by simp), List.length_replicate, Nat.add_sub_cancel_left,
      List.getD_append _ _ _ _ hi, List.getD_append _ _ _ _ hi]
  · rw [List.getD_append_right _ _ _ _ (by simp), List.length_replicate, Nat.add_sub_cancel_left,
      List.getD_append_right _ _ _ _ (le_refl _), Nat.sub_self]
    rfl
  · rw [List.getD_append_right _ _ _ _ (by simp; omega), List.length_replicate,
      List.getD_append_right _ _ _ _ (by omega), List.getD_append_right _ _ _ _ hi,
      show g + i + 1 - g - K1.length = (i - K1.length) + 1 by omega]
    rfl

theorem countP_split (K1 K2 : List Nat) (value : Nat) (h1 : ∀ a ∈ K1, a < value)
    (h2 : ∀ b ∈ K2, value ≤ b) :
    (K1 ++ K2).countP (fun x => decide (x < value)) = K1.length := by
  rw [List.countP_append, List.countP_eq_length.2 (fun a ha => by simpa using h1 a ha),
    List.countP_eq_zero.2 (fun b hb => by have := h2 b hb; simp; omega)]
  rfl

theorem judy_free_lin (a : Arena) (block type : Nat) (h1 : 1 ≤ type) (h6 : type ≤ 6) :
    judy_free a block type =
      { a with mem := wrWord a.mem block (a.reuse.getD type 0),
               reuse := a.reuse.set type block } := by
  have h0 : ¬ type = JUDY_radix := by simp only [JUDY_radix]; omega
  have h7 : ¬ type = JUDY_span := by simp only [JUDY_span]; omega
  simp only [judy_free, if_neg h0, if_neg h7]

theorem judy_promote_blocks_spec (a : Arena) (fresh : Nat) (top : JudyStack)
    (base type ks value : Nat) (keys : List Nat) (kids : List JNode)
    (h1 : 1 ≤ type) (h6 : type < 6) (hks1 : 1 ≤ ks) (hks : ks ≤ 8)
    (hkeys : keys.length = lin_cnt type ks) (hkids : kids.length = lin_cnt type ks)
    (hpw : keys.Pairwise (· < ·)) (hnew : value ∉ keys) (hv : value < 256 ^ ks)
    (hseg : a.seg ≠ 0) (hfresh : fresh ≠ 0) (hreuse : a.reuse.length = 8)
    (hhead : a.reuse.getD type 0 < 2 ^ 64) :
    ∃ r, judy_promote_blocks a fresh top base (.lin type keys kids)
        (keys.countP (fun x => decide (x < value))) value ks = some r ∧
      PromoteOK a top base type ks value keys kids r := by
  obtain ⟨K1, K2, rfl, hK1, hK2⟩ := split_at_value keys value hpw
  have hK2s : ∀ b ∈ K2, value < b := by
    intro b hb
    have := hK2 b hb
    have hne : value ≠ b := fun h => hnew (by rw [h]; simp [hb])
    omega
  have hidx := countP_split K1 K2 value hK1 hK2
  have hgrow := lin_cnt_grow type ks h1 (by omega) hks1 hks
  rw [List.length_append] at hkeys
  obtain ⟨g, hg⟩ : ∃ g, g + (K1.length + 1 + K2.length) = lin_cnt (type + 1) ks :=
    ⟨lin_cnt (type + 1) ks - (K1.length + 1 + K2.length), by omega⟩
  have hkk : kids = kids.take K1.length ++ kids.drop K1.length :=
    (List.take_append_drop _ _).symm
  have hc1 : (kids.take K1.length).length = K1.length := by
    rw [List.length_take]; omega
  have hc2 : (kids.drop K1.length).length = K2.length := by
    rw [List.length_drop]; omega
  have hprom := judy_promote_eq type ks value g K1 K2 (kids.take K1.length)
    (kids.drop K1.length) hkeys hg hc1 hc2 hv
  rw [← hkk] at hprom
  obtain ⟨a1, nb, halloc, hkeep, hlen⟩ := judy_alloc_keeps a fresh (type + 1) type hseg hfresh
    (by omega) (by omega) (by omega)
  have hgk := promoted_getD 0 0 value g K1 K2
  have hgk1 := promoted_getD 0 1 value g K1 K2
  have hgc := promoted_getD (JNode.word 0) (JNode.word 0) (JNode.word 0) g
    (kids.take K1.length) (kids.drop K1.length)
  rw [← hkk, hc1] at hgc
  have hsub1 : lin_cnt (type + 1) ks - lin_cnt type ks - 1 = g := by omega
  have hsub2 : lin_cnt (type + 1) ks - lin_cnt type ks = g + 1 := by omega
  have heq : judy_promote_blocks a fresh top base (.lin type (K1 ++ K2) kids)
      ((K1 ++ K2).countP (fun x => decide (x < value))) value ks =
      some ⟨judy_free a1 base type,
        { top with
          next := .lin (type + 1) (List.replicate g 0 ++ (K1 ++ value :: K2))
            (List.replicate g (JNode.word 0) ++
              (kids.take K1.length ++ JNode.word 0 :: kids.drop K1.length)),
          slot := ((g + K1.length : Nat) : Int) },
        .lin (type + 1) (List.replicate g 0 ++ (K1 ++ value :: K2))
          (List.replicate g (JNode.word 0) ++
            (kids.take K1.length ++ JNode.word 0 :: kids.drop K1.length)),
        nb, g + K1.length,
        nb + JudySize (type + 1) - 8 * (K1.length + lin_cnt (type + 1) ks - lin_cnt type ks)⟩ := by
    unfold judy_promote_blocks
    simp only [halloc, hidx, hprom, Nat.add_sub_cancel]
    rfl
  refine ⟨_, heq, _, _, rfl, hgrow, ?_, ?_, ?_, ?_, ?_, ?_, ?_, ?_, ?_, ?_, ?_, ?_, ?_⟩
  · simp; omega
  · simp [hc1, hc2]; omega
  · intro i hi
    rw [hsub1] at hi
    exact ⟨hgk1.1 i hi, hgc.1 i hi⟩
  · intro i hi
    rw [hidx] at hi
    rw [hsub1]
    exact ⟨hgk.2.1 i hi, hgc.2.1 i hi⟩
  · intro i hi _
    rw [hidx] at hi
    rw [hsub2, show g + 1 + i = g + i + 1 by omega]
    exact ⟨hgk.2.2.2 i hi, hgc.2.2.2 i hi⟩
  · rw [hsub1, List.drop_left' (by simp)]
    exact pairwise_insert K1 K2 value hpw hK1 hK2s
  · rw [hsub1, hidx]
  · exact hgk.2.2.1
  · exact hgc.2.2.1
  · show nb + JudySize (type + 1) - 8 * (K1.length + lin_cnt (type + 1) ks - lin_cnt type ks) =
      nb + JudySize (type + 1) - 8 * (g + K1.length + 1)
    congr 2
    omega
  · rfl
  · show (judy_free a1 base type).reuse.getD type 0 = base
    rw [judy_free_lin a1 base type h1 (by omega)]
    exact getD_set_eq _ _ _ _ (by omega)
  · show rdWord (judy_free a1 base type).mem base = _
    rw [judy_free_lin a1 base type h1 (by omega)]
    show rdWord (wrWord a1.mem base (a1.reuse.getD type 0)) base = _
    rw [hkeep, rdWord_wrWord _ _ _ hhead]


/-! ## `judy_cell` at a full node of the largest class -/

/-- The retry of `judy_cell` at a full `JUDY_32` node that does not hold the key: the node is
split into a radix node with the same entries and the insertion is processed again there. -/
theorem cell_lin_split_eq (k : List Nat) (hk : ZF k) (off d : Nat) (keys : List Nat)
    (kids : List JNode) (m : List Ent)
    (hrep : Rep (d + 1) off (.lin 6 keys kids) m)
    (hfull : (kidAt kids 0).nonzero = true)
    (hnew : (key_value k k.length 8 0 off).1 ∉ keys) :
    ∃ T, judy_splitnode (.lin 6 keys kids) (JudySize 6) (key_size off) = some (.radix T) ∧
      Rep (d + 2) off (.radix T) m ∧
      ∀ fuel, cell_loop k k.length (fuel + 1) (.lin 6 keys kids) off =
        cell_loop k k.length fuel (.radix T) off := by
  obtain ⟨e, pkeys, pkids, h1, h2, rfl, rfl, hcnt, hne, hpw, hslots⟩ := hrep
  have he : e = 0 := by
    rcases Nat.eq_zero_or_pos e with he | he
    · exact he
    · rw [kidAt_zero_replicate e pkids he] at hfull
      cases hfull
  subst he
  simp only [List.replicate_zero, List.nil_append, Nat.zero_add] at hcnt hnew hfull ⊢
  rw [key_value_spec k hk off] at hnew
  have hks := key_size_le off
  obtain ⟨T, hsn, hrepT⟩ := splitnode_spec d off pkeys pkids m hpw hcnt hslots
  refine ⟨T, hsn, hrepT, fun fuel => ?_⟩
  obtain ⟨K1, K2, rfl, hK1, hK2⟩ := split_at_value pkeys (pack (key_size off) (k.drop off)) hpw
  have hB : ∀ b ∈ K2, pack (key_size off) (k.drop off) < b ∧ b < 256 ^ key_size off := by
    intro b hb
    have := hK2 b hb
    have hneq : pack (key_size off) (k.drop off) ≠ b := fun h => hnew (by rw [h]; simp [hb])
    exact ⟨by omega, hslots.key_lt b (by simp [hb])⟩
  have hscan : ∃ t, t ≠ pack (key_size off) (k.drop off) ∧
      lin_scan (K1 ++ K2) (key_size off) (pack (key_size off) (k.drop off))
        (lin_cnt 6 (key_size off)) 0 = ((K1.length : Int) - 1, t) := by
    rcases List.eq_nil_or_concat K1 with hk1 | ⟨K1a, x, hk1⟩
    · subst hk1
      cases K2 with
      | nil => exact absurd rfl hne
      | cons x K2 =>
        refine ⟨x, by have := (hB x (by simp)).1; omega, ?_⟩
        have := lin_scan_miss3 (key_size off) (pack (key_size off) (k.drop off)) hks K2 x
          (lin_cnt 6 (key_size off)) (by rw [← hcnt]; simp; try omega) (hB x (by simp))
          (fun b hb => hB b (by simp [hb]))
        simpa using this
    · rw [List.concat_eq_append] at hk1
      subst hk1
      have hxv := hK1 x (by simp)
      refine ⟨x % 256 ^ key_size off, by have := Nat.mod_le x (256 ^ key_size off); omega, ?_⟩
      have := lin_scan_miss1 (key_size off) (pack (key_size off) (k.drop off)) 0 hks K1a K2 x 0
        (lin_cnt 6 (key_size off)) (by rw [← hcnt]; simp; try omega) hxv hB
      simp only [List.replicate_zero, List.nil_append, Nat.zero_add] at this
      rw [this]
      simp
  obtain ⟨t, ht, hscan⟩ := hscan
  rw [cell_loop]
  simp only [key_value_spec k hk off, hscan, ht, if_false, hfull, Bool.not_true,
    Bool.false_eq_true, (JudySize_lt 6 (by omega) (by omega)).not.2 (by omega), hsn]

theorem ins_mem_other (k : List Nat) (v : Nat) (k1 : List Nat) (v1 : Nat) (hne : k1 ≠ k) :
    ∀ m : List Ent, (k1, v1) ∈ m → (k1, v1) ∈ ins k v m := by
  intro m
  induction m with
  | nil => intro h; simp at h
  | cons e m ih =>
    intro h
    rw [ins]
    split
    · exact List.mem_cons_of_mem _ h
    · split
      · rename_i _ heq
        rcases List.mem_cons.1 h with h | h
        · exact absurd (by rw [heq, ← h]) hne
        · exact List.mem_cons_of_mem _ h
      · rcases List.mem_cons.1 h with h | h
        · rw [h]; simp
        · exact List.mem_cons_of_mem _ (ih h)

theorem StepsOK_puts (M : Nat) : ∀ (ops : List Ent) (m : List Ent),
    (∀ e ∈ ops, ZF e.1 ∧ e.1.length ≤ M ∧ 0 < e.2) →
    StepsOK M (ops.map (fun e => Step.put e.1 e.2)) m := by
  intro ops
  induction ops with
  | nil => intro m _; trivial
  | cons e ops ih =>
    intro m h
    exact ⟨h e (List.mem_cons_self _ _), ih _ (fun x hx => h x (List.mem_cons_of_mem _ hx))⟩


/-! ## The number of slots of a linear node -/

/-- C27, as it reads: a node of class `JUDY_32` with the stride 7 has 34 slots and a node of
class `JUDY_16` with that stride has 17, not 32 and 16; and the code uses them: after the
34 keys "k00" .. "k33" are inserted, the node below the radix entry of the byte "k", a node
of class `JUDY_32` with the stride 7, holds 34 keys, each with a child word that is not
zero. -/
theorem lin_cnt_exceeds_class :
    lin_cnt JUDY_32 7 = 34 ∧ lin_cnt JUDY_16 7 = 17 ∧ lin_cnt JUDY_32 1 = 56 ∧
    ∃ judy table keys kids,
      judy_steps ((List.range 34).map
        (fun i => Step.put [107, 48 + i / 10, 48 + i % 10] (i + 1))) (judy_open 8) =
        some judy ∧
      judy.root = .radix table ∧ radixAt table 107 = .lin JUDY_32 keys kids ∧
      key_size 1 = 7 ∧ keys.length = 34 ∧ kids.length = 34 ∧
      keys.all (fun key => decide (key ≠ 0)) = true ∧
      kids.all (fun kid => kid.nonzero) = true :=
  ⟨rfl, rfl, rfl, _, _, _, _, rfl, rfl, rfl, rfl, rfl, rfl, rfl, rfl⟩

/-- C27: capacity of the linear nodes.  For every linear class `JUDY_1 .. JUDY_32`, of the
designated count `k = 2 ^ (type - 1)`, and every stride `ks` in `1 .. 8`, the number of slots
that the code uses for a node, its size divided by the slot size plus the stride, is
`16 k / (8 + ks)`, rounded down: it is exactly `k` for the full stride 8, and it is at least
`k` and at most `7 k / 4` for a shorter stride. -/
theorem lin_cnt_capacity (type ks : Nat) (h1 : 1 ≤ type) (h6 : type ≤ 6) (hk1 : 1 ≤ ks)
    (hk8 : ks ≤ 8) :
    JudySize type = 16 * 2 ^ (type - 1) ∧
    lin_cnt type ks = 16 * 2 ^ (type - 1) / (8 + ks) ∧
    lin_cnt type 8 = 2 ^ (type - 1) ∧
    2 ^ (type - 1) ≤ lin_cnt type ks ∧ 4 * lin_cnt type ks ≤ 7 * 2 ^ (type - 1) := by
  interval_cases type <;> interval_cases ks <;> decide

theorem lin_cnt_capacity_witness :
    (1 ≤ 5 ∧ 5 ≤ 6 ∧ 1 ≤ 7 ∧ 7 ≤ 8) ∧
    (JudySize 5 = 16 * 2 ^ (5 - 1) ∧
      lin_cnt 5 7 = 16 * 2 ^ (5 - 1) / (8 + 7) ∧
      lin_cnt 5 8 = 2 ^ (5 - 1) ∧
      2 ^ (5 - 1) ≤ lin_cnt 5 7 ∧ 4 * lin_cnt 5 7 ≤ 7 * 2 ^ (5 - 1)) :=
  ⟨by decide, lin_cnt_capacity 5 7 (by decide) (by decide) (by decide) (by decide)⟩


/-! ## The terminator leaf of a radix node -/

set_option maxRecDepth 4096 in
/-- C25: radix terminator leaf.  After the 256 keys of one byte `0x00, 0x01, .., 0xff` are
inserted into an empty array, each with `len = 1` and a cell that is not zero (the key of the
byte `i` gets the word `i + 1`), the root is a radix node; `judy_strt` on the key `0x00`
returns the inner slot 0 of the outer slot 0, with the cursor on slot 0 of the root, and that
cell holds the word of the key `0x00`; and the calls of `judy_nxt` that follow return 255
further cells and then `NULL`: the cells of the keys `0x01 .. 0xff`, as `judy_key` reads them,
in ascending order, each with its word. -/
theorem judy_strt_radix_terminator :
    ∃ judy r table inner,
      judy_puts ((List.range 256).map (fun i => ([i], i + 1))) (judy_open 8) = some judy ∧
      judy.root = .radix table ∧ tblAt table 0 = .radix inner ∧
      judy_strt judy [0] 1 = some r ∧ r.cell = some (tblAt inner 0) ∧
      r.cell = some (.word 1) ∧ r.judy.stack = [⟨judy.root, 0, 0⟩] ∧
      enum_loop 16 258 (List.replicate 16 0) (judy_nxt r.judy) =
        some ((List.range 255).map (fun i => ([i + 1], JNode.word (i + 2)))) :=
  ⟨_, _, _, _, rfl, rfl, rfl, rfl, rfl, rfl, rfl, rfl⟩


/-! ## A new cell reads zero -/

theorem classOf_spec (type : Nat) (h7 : type ≤ 7) :
    1 ≤ classOf type ∧ classOf type ≤ 6 ∧ JudySize (classOf type) = JudySize type ∧
    JudySize (classOf type) &&& 7 = 0 ∧ 8 ≤ JudySize (classOf type) := by
  interval_cases type <;> decide

theorem alloc_fill_done (top type amt : Nat) (s : List Nat × (Nat → Nat))
    (h : amt &&& 7 = 0) : alloc_fill top 32 type amt s = (amt, s) := by
  obtain ⟨reuse, mem⟩ := s
  rw [alloc_fill, if_neg (by simp [JUDY_cache_line, h])]

/-- The three ways of `judy_alloc`, with the size class and the rounded size worked out. -/
theorem judy_alloc_eq (a : Arena) (fresh type : Nat) (hseg : a.seg ≠ 0) (h7 : type ≤ 7) :
    judy_alloc a fresh type =
      if a.reuse.getD (classOf type) 0 ≠ 0 then
        some (Arena.mk
            (a.reuse.set (classOf type) (rdWord a.mem (a.reuse.getD (classOf type) 0)))
            a.seg a.next a.segs
            (memset a.mem (a.reuse.getD (classOf type) 0) 0 (JudySize type)),
          a.reuse.getD (classOf type) 0)
      else
        match alloc_find a.reuse JUDY_max (classOf type) with
        | some idx =>
          some (Arena.mk
              (alloc_carve (a.reuse.getD idx 0) (classOf type) JUDY_max idx
                (a.reuse.set idx (rdWord a.mem (a.reuse.getD idx 0)), a.mem)).1
              a.seg a.next a.segs
              (memset (alloc_carve (a.reuse.getD idx 0) (classOf type) JUDY_max idx
                (a.reuse.set idx (rdWord a.mem (a.reuse.getD idx 0)), a.mem)).2
                (a.reuse.getD idx 0) 0 (JudySize type)),
            a.reuse.getD idx 0)
        | none =>
          if a.next < JudySize type + 16 then
            if fresh ≠ 0 then
              some (Arena.mk a.reuse fresh
                  (JUDY_seg - (fresh &&& (JUDY_cache_line - 1)) - JudySize type)
                  (a.seg :: a.segs)
                  (memset a.mem
                    (fresh + (JUDY_seg - (fresh &&& (JUDY_cache_line - 1))) - JudySize type) 0
                    (JudySize type)),
                fresh + (JUDY_seg - (fresh &&& (JUDY_cache_line - 1))) - JudySize type)
            else none
          else
            some (Arena.mk a.reuse a.seg (a.next - JudySize type) a.segs
                (memset a.mem (a.seg + a.next - JudySize type) 0 (JudySize type)),
              a.seg + a.next - JudySize type) := by
  obtain ⟨c1, c6, csize, camt, c8⟩ := classOf_spec type h7
  unfold judy_alloc
  rw [if_neg hseg]
  have hcls : (if (if type = JUDY_radix then JUDY_radix_equiv else type) = JUDY_span
      then JUDY_span_equiv else (if type = JUDY_radix then JUDY_radix_equiv else type)) =
      classOf type := by
    unfold classOf
    interval_cases type <;> rfl
  have hmin : (if JudySize (classOf type) < JUDY_cache_line then JUDY_cache_line
      else JudySize (classOf type)) = JudySize (classOf type) := by
    rw [if_neg (by simp only [JUDY_cache_line]; omega)]
  simp only [hcls, camt, ne_eq, not_true_eq_false, if_false,
    alloc_fill_done _ _ _ _ camt, hmin]
  rw [if_pos (show classOf type ≥ JUDY_1 from c1), csize]
  by_cases hr : a.reuse.getD (classOf type) 0 = 0
  · simp only [hr, not_true_eq_false, if_false]
    cases hfind : alloc_find a.reuse JUDY_max (classOf type) with
    | some idx => rfl
    | none =>
      by_cases hn : a.next < JudySize type + 16
      · by_cases hf : fresh = 0
        · simp only [hn, hf, if_true, not_true_eq_false, if_false]
        · simp only [hn, hf, if_true, not_false_eq_true]
      · simp only [hn, if_false]
  · simp only [hr, not_false_eq_true, if_true]

theorem memset_zero (mem : Nat → Nat) (a amt x : Nat) (h1 : a ≤ x) (h2 : x < a + amt) :
    memset mem a 0 amt x = 0 := by
  simp [memset, h1, h2]

/-- A call of `judy_alloc` returns a block whose bytes are all zero, also when the block is
taken from a free list. -/
theorem judy_alloc_zero (a : Arena) (fresh type : Nat) (hseg : a.seg ≠ 0) (hfresh : fresh ≠ 0)
    (h7 : type ≤ 7) :
    ∃ a1 nb, judy_alloc a fresh type = some (a1, nb) ∧
      (∀ x, nb ≤ x → x < nb + JudySize type → a1.mem x = 0) ∧
      (a.reuse.getD (classOf type) 0 ≠ 0 → nb = a.reuse.getD (classOf type) 0) := by
  rw [judy_alloc_eq a fresh type hseg h7]
  by_cases hr : a.reuse.getD (classOf type) 0 = 0
  · simp only [hr, not_true_eq_false, if_false]
    cases hfind : alloc_find a.reuse JUDY_max (classOf type) with
    | some idx =>
      exact ⟨_, _, rfl, fun x h1 h2 => memset_zero _ _ _ _ h1 h2, by simp [hr]⟩
    | none =>
      by_cases hn : a.next < JudySize type + 16
      · simp only [hn, hfresh, if_true, ne_eq, not_false_eq_true]
        exact ⟨_, _, rfl, fun x h1 h2 => memset_zero _ _ _ _ h1 h2, by simp [hr]⟩
      · simp only [hn, if_false]
        exact ⟨_, _, rfl, fun x h1 h2 => memset_zero _ _ _ _ h1 h2, by simp [hr]⟩
  · simp only [hr, not_false_eq_true, if_true, ne_eq]
    exact ⟨_, _, rfl, fun x h1 h2 => memset_zero _ _ _ _ h1 h2, fun _ => rfl⟩

/-- C23: a new cell reads zero.  In every array built from the empty array by driver steps,
insertions `*judy_cell(k) = v` with zero-free keys of at most `M` bytes and non-zero words
and removals with `judy_del` of stored keys, for every zero-free key `k` of at most `M` bytes
that is not stored, `judy_cell` of `k` returns a cell and the word of that cell is 0 when it
is returned.  The nodes it builds take their memory from `judy_alloc`, and every block that
`judy_alloc` returns, for any node type and any state of the allocator of an open array, has
all its bytes zero, also when it is the head of a free list, which is then the block
returned.
The array is opened by `judy_open` with a maximum key length `M <= JUDY_open_max`, the
largest that `judy_open` can take. -/
theorem judy_cell_new_zero (M : Nat) (hM : M ≤ JUDY_open_max) (steps : List Step) (k : List Nat)
    (hok : StepsOK M steps []) (hk : ZF k) (hl : k.length ≤ M)
    (hnew : k ∉ (stepsEnt steps []).map Prod.fst) :
    (∃ judy r, judy_steps steps (judy_open M) = some judy ∧
      judy_cell judy k k.length = some r ∧ r.cell = some (.word 0)) ∧
    ∀ (a : Arena) (fresh type : Nat), a.seg ≠ 0 → fresh ≠ 0 → type ≤ 7 →
      ∃ a1 nb, judy_alloc a fresh type = some (a1, nb) ∧
        (∀ x, nb ≤ x → x < nb + JudySize type → a1.mem x = 0) ∧
        (a.reuse.getD (classOf type) 0 ≠ 0 → nb = a.reuse.getD (classOf type) 0) := by
  haveI : Fact (M ≤ JUDY_open_max) := ⟨hM⟩
  refine ⟨?_, fun a fresh type hseg hfresh h7 => judy_alloc_zero a fresh type hseg hfresh h7⟩
  obtain ⟨judy, hsteps, hmax, hroot, _, _⟩ := judy_open_steps M steps hok
  obtain ⟨n1, fs, c, A, B, d, hcell, _, hres⟩ := judy_cell_spec M judy _ k hmax hroot hk hl
  rcases hres with ⟨hc, _⟩ | ⟨_, hm, _⟩
  · subst hc
    exact ⟨judy, _, hsteps, hcell, rfl⟩
  · exfalso
    apply hnew
    rw [hm]
    simp

theorem judy_cell_new_zero_witness :
    8 ≤ JUDY_open_max ∧
    (StepsOK 8 [.put [97] 1, .put [98] 2, .del [97]] [] ∧ ZF [97] ∧ [97].length ≤ 8 ∧
      [97] ∉ (stepsEnt [.put [97] 1, .put [98] 2, .del [97]] []).map Prod.fst) ∧
    ((∃ judy r, judy_steps [.put [97] 1, .put [98] 2, .del [97]] (judy_open 8) = some judy ∧
        judy_cell judy [97] [97].length = some r ∧ r.cell = some (.word 0)) ∧
      ∀ (a : Arena) (fresh type : Nat), a.seg ≠ 0 → fresh ≠ 0 → type ≤ 7 →
        ∃ a1 nb, judy_alloc a fresh type = some (a1, nb) ∧
          (∀ x, nb ≤ x → x < nb + JudySize type → a1.mem x = 0) ∧
          (a.reuse.getD (classOf type) 0 ≠ 0 → nb = a.reuse.getD (classOf type) 0)) ∧
    (∃ a1, judy_alloc (judy_free (Arena.mk [0, 0, 0, 0, 0, 0, 0, 0] 4096 65504 []
          (fun _ => 255)) 69600 2) 200000 2 = some (a1, 69600) ∧
      (List.range 32).map (fun i => a1.mem (69600 + i)) = List.replicate 32 0) :=
  ⟨by decide, ⟨⟨⟨by simp [ZF], by decide, by decide⟩, ⟨by simp [ZF], by decide, by decide⟩, by decide,
        trivial⟩, by simp [ZF], by decide, by decide⟩,
    judy_cell_new_zero 8 (by decide) [.put [97] 1, .put [98] 2, .del [97]] [97]
      ⟨⟨by simp [ZF], by decide, by decide⟩, ⟨by simp [ZF], by decide, by decide⟩, by decide,
        trivial⟩ (by simp [ZF]) (by decide) (by decide),
    ⟨_, rfl, rfl⟩⟩


/-! ## Insertion keeps the other entries -/

/-- The frames of a cursor determine the key of its cell. -/
theorem Path_stack_key {d1 d2 off : Nat} {n1 n2 : JNode} {fs : List JudyStack}
    {A1 B1 A2 B2 : List Ent} {k1 k2 : List Nat} {v1 v2 : Nat}
    (h1 : Path d1 off n1 fs A1 (k1, v1) B1) (h2 : Path d2 off n2 fs A2 (k2, v2) B2) :
    k1 = k2 := by
  obtain ⟨b1, e1, _, t1⟩ := key_loop_path (fun _ => none) (k1.length + k2.length) d1 off n1 fs A1 B1 k1 v1 h1
    (List.replicate (k1.length + k2.length + 1) 0) 0 (by omega) (by simp)
  obtain ⟨b2, e2, _, t2⟩ := key_loop_path (fun _ => none) (k1.length + k2.length) d2 off n2 fs A2 B2 k2 v2 h2
    (List.replicate (k1.length + k2.length + 1) 0) 0 (by omega) (by simp)
  rw [e1] at e2
  injection e2 with e2
  injection e2 with hb hl
  simp only [Nat.zero_add, List.take_zero, List.nil_append] at t1 t2 hl
  rw [← t1, ← t2, hb, hl]

/-- C22: insertion preserves the other entries.  In every array built from the empty array
by driver steps, for every stored key `k1` with its word `v` and every zero-free key `k2` of
at most `M` bytes other than `k1`: `judy_cell` of `k2` returns a cell, whatever it does to
the nodes on its way, and after a non-zero word `w` is stored in that cell, `judy_slot` of
`k1` still returns a cell that holds `v`, and `judy_slot` of `k2` returns a cell that holds
`w`.  The cell of `k1` is not the cell returned for `k2`: the cursor that `judy_slot` of `k1`
sets up, the frames from the root to the cell, is not the cursor of the cell of `k2`.
The array is opened by `judy_open` with a maximum key length `M <= JUDY_open_max`, the
largest that `judy_open` can take. -/
theorem judy_cell_keeps_others (M : Nat) (hM : M ≤ JUDY_open_max) (steps : List Step)
    (k1 k2 : List Nat) (v w : Nat)
    (hok : StepsOK M steps []) (hst : (k1, v) ∈ stepsEnt steps []) (hk2 : ZF k2)
    (hl2 : k2.length ≤ M) (hne : k1 ≠ k2) (hw : 0 < w) :
    ∃ judy r r1 r2, judy_steps steps (judy_open M) = some judy ∧
      judy_cell judy k2 k2.length = some r ∧
      judy_slot (judy_store r.judy w) k1 k1.length = some r1 ∧ r1.cell = some (.word v) ∧
      judy_slot (judy_store r.judy w) k2 k2.length = some r2 ∧ r2.cell = some (.word w) ∧
      r1.judy.stack ≠ (judy_store r.judy w).stack ∧ r1.judy.stack ≠ r2.judy.stack := by
  haveI : Fact (M ≤ JUDY_open_max) := ⟨hM⟩
  obtain ⟨judy, hsteps, hmax, hroot, hshort, _⟩ := judy_open_steps M steps hok
  obtain ⟨n1, fs, c, A, B, d, hcell, hpath, hres⟩ :=
    judy_cell_spec M judy _ k2 hmax hroot hk2 hl2
  obtain ⟨s1, s2⟩ := judy_store_spec { judy with root := n1, stack := fs } d A B k2 c w hpath
  have hrep := Path_Rep d s2 hw
  have hmax2 : (judy_store { judy with root := n1, stack := fs } w).max = M + 1 := by
    rw [s1]; exact hmax
  have hsorted := (Rep_sorted_good d hrep).1
  have hm : ins k2 w (stepsEnt steps []) = A ++ (k2, w) :: B := by
    rcases hres with ⟨_, h⟩ | ⟨_, h, _⟩
    · rw [h]; exact ins_mid k2 w A B hsorted
    · rw [h]; exact ins_replace k2 w c A B hsorted
  have hmem1 : (k1, v) ∈ A ++ (k2, w) :: B := by
    rw [← hm]
    exact ins_mem_other k2 w k1 v hne _ hst
  have hgood := (RootRep_sorted_good hroot).2 _ hst
  obtain ⟨fs1, A1, B1, hslot1, hp1, _⟩ := judy_slot_spec M _ _ k1 v d hmax2 hrep hmem1 hgood.1
    (hshort _ hst)
  obtain ⟨fs2, A2, B2, hslot2, hp2, _⟩ := judy_slot_spec M _ _ k2 w d hmax2 hrep (by simp) hk2
    hl2
  refine ⟨judy, _, _, _, hsteps, hcell, hslot1, rfl, hslot2, rfl, ?_, ?_⟩
  · intro h
    have hp1a : Path d 0 (judy_store { judy with root := n1, stack := fs } w).root
        (judy_store { judy with root := n1, stack := fs } w).stack A1 (k1, v) B1 := by
      rw [← h]; exact hp1
    exact hne (Path_stack_key hp1a s2)
  · intro h
    have h' : fs1 = fs2 := h
    rw [h'] at hp1
    exact hne (Path_stack_key hp1 hp2)

theorem judy_cell_keeps_others_witness :
    8 ≤ JUDY_open_max ∧
    (StepsOK 8 [.put [97] 1] [] ∧ (([97] : List Nat), 1) ∈ stepsEnt [.put [97] 1] [] ∧
      ZF [98] ∧ [98].length ≤ 8 ∧ ([97] : List Nat) ≠ [98] ∧ 0 < 2) ∧
    (∃ judy r r1 r2, judy_steps [.put [97] 1] (judy_open 8) = some judy ∧
      judy_cell judy [98] [98].length = some r ∧
      judy_slot (judy_store r.judy 2) [97] [97].length = some r1 ∧
      r1.cell = some (.word 1) ∧
      judy_slot (judy_store r.judy 2) [98] [98].length = some r2 ∧
      r2.cell = some (.word 2) ∧
      r1.judy.stack ≠ (judy_store r.judy 2).stack ∧ r1.judy.stack ≠ r2.judy.stack) ∧
    (∃ judy r r1, judy_steps [.put [97] 1] (judy_open 8) = some judy ∧
      judy_cell judy [98] [98].length = some r ∧
      (judy_store r.judy 2).root = .lin 2 [97 * 256 ^ 7, 98 * 256 ^ 7] [.word 1, .word 2] ∧
      (judy_store r.judy 2).stack = [⟨(judy_store r.judy 2).root, 0, 1⟩] ∧
      judy_slot (judy_store r.judy 2) [97] [97].length = some r1 ∧
      r1.judy.stack = [⟨(judy_store r.judy 2).root, 0, 0⟩]) :=
  ⟨by decide, ⟨⟨⟨by simp [ZF], by decide, by decide⟩, trivial⟩, by decide, by simp [ZF], by decide,
      by decide, by decide⟩,
    judy_cell_keeps_others 8 (by decide) [.put [97] 1] [97] [98] 1 2
      ⟨⟨by simp [ZF], by decide, by decide⟩, trivial⟩ (by decide) (by simp [ZF]) (by decide)
      (by decide) (by decide),
    ⟨_, _, _, rfl, rfl, rfl, rfl, rfl, rfl⟩⟩


/-! ## `judy_slot` follows the cursor path; `judy_prv` undoes `judy_nxt` -/

/-- The frames that lead to the cell of a key are the ones that `judy_slot` pushes for it. -/
theorem slot_path (k : List Nat) (hk : ZF k) (hk31 : k.length < 2 ^ 31) (jmax : Nat) :
    ∀ (d off : Nat) (n : JNode) (fs : List JudyStack) (A B : List Ent) (s : List Nat) (v : Nat)
      (stack : List JudyStack) (fuel : Nat),
      Path d off n fs A (s, v) B → k.drop off = s → off ≤ k.length →
      s.length + 1 ≤ fuel → stack.length + s.length + 1 ≤ jmax →
      slot_loop k k.length jmax fuel n off stack = some (fs ++ stack, some (.word v)) := by
  intro d
  induction d with
  | zero => intro off n fs A B s v stack fuel h; exact absurd h (by simp [Path])
  | succ d ih =>
    intro off n fs A B s v stack fuel hpath hs hoff hfuel hmax
    obtain ⟨fuel, rfl⟩ : ∃ f, fuel = f + 1 := ⟨fuel - 1, by omega⟩
    cases n with
    | word w => exact absurd hpath (by simp [Path])
    | lin type keys kids =>
      obtain ⟨e, K1, K2, C1, C2, mA, mB, p, c, h1, h2, rfl, rfl, hcnt, h7, hp, hs1, hs2, hcase⟩ :=
        hpath
      have hks := key_size_le off
      have hlen1 := hs1.length_eq
      have hpw := List.pairwise_append.1 h7
      have hB : ∀ b ∈ K2, pack (key_size off) p < b ∧ b < 256 ^ key_size off := fun b hb =>
        ⟨(List.pairwise_cons.1 hpw.2.1).1 b hb, hs2.key_lt b hb⟩
      have hpush := push_ok jmax stack
        ⟨.lin type (List.replicate e 0 ++ (K1 ++ pack (key_size off) p :: K2))
          (List.replicate e (JNode.word 0) ++ (C1 ++ c :: C2)), off, ((e + K1.length : Nat) : Int)⟩
        (by omega)
      have hkid : kidAt (List.replicate e (JNode.word 0) ++ (C1 ++ c :: C2)) (e + K1.length) = c :=
        kidAt_mid e C1 C2 c _ (by rw [hlen1])
      rcases hcase with ⟨hl, hc, hsp, hfs, _, _⟩ | ⟨hl, fs1, A1, s1, B1, hp1, hfs, hsp, _, _⟩
      · simp only at hsp hc
        subst hsp
        subst hc
        subst hfs
        rw [slot_loop]
        simp only [key_value_spec k hk off, hs,
          lin_scan_node (key_size off) _ e hks K1 K2 _ 0 _ hcnt rfl (pack_lt _ _ hp) hB,
          hpush, if_true, and255, (pack_mod _ s hp (key_size_pos off)).2 hl,
          Int.toNat_ofNat, hkid]
        rfl
      · simp only at hsp
        subst hsp
        subst hfs
        have hs1d : k.drop (off + key_size off) = s1 := by
          rw [← List.drop_drop, hs, List.drop_left' hl]
        have hlen : (p ++ s1).length = key_size off + s1.length := by simp [hl]
        have hloop := ih (off + key_size off) c fs1 A1 B1 s1 v
          (⟨.lin type (List.replicate e 0 ++ (K1 ++ pack (key_size off) p :: K2))
          (List.replicate e (JNode.word 0) ++ (C1 ++ c :: C2)), off, ((e + K1.length : Nat) : Int)⟩
            :: stack) fuel hp1 hs1d
          (by have := drop_length_le k off _ hs hoff; simp [hl] at this; omega)
          (by have := key_size_pos off; omega)
          (by have := key_size_pos off; simp only [List.length_cons]; omega)
        have hnz : ¬ pack (key_size off) p % 256 = 0 := by
          rw [pack_mod _ p hp (key_size_pos off)]; omega
        rw [slot_loop]
        simp only [key_value_spec k hk off, hs, pack_append _ p s1 hl,
          lin_scan_node (key_size off) _ e hks K1 K2 _ 0 _ hcnt rfl (pack_lt _ _ hp) hB,
          hpush, if_true, and255, hnz, if_false,
          Int.toNat_ofNat, hkid, hloop]
        simp
    | radix table =>
      obtain ⟨ms, b, hb, hO, ⟨inner, hi1⟩, hR, hcase⟩ := hpath
      have hlen := drop_length_le k off _ hs hoff
      have hi2 : tblAt inner (b &&& 15) = radixAt table b := by
        unfold radixAt
        simp [hi1]
      rcases hcase with ⟨hb0, hx, hsp, hfs, _, _⟩ | ⟨hb0, fs1, A1, s1, B1, hp1, hfs, hsp, _, _⟩
      · simp only at hsp hx
        subst hsp
        subst hb0
        subst hfs
        have hslot : (if off < k.length then k.getD off 0 else 0) = 0 := by
          simp at hlen
          rw [if_neg (by omega)]
        rw [slot_loop]
        simp only [hslot, push_ok jmax stack _ (by omega : stack.length < jmax)]
        simp only [Nat.zero_shiftRight, Nat.zero_and] at hi1 hi2 ⊢
        simp only [hi1, hi2, hx, if_true]
        rfl
      · simp only at hsp
        subst hsp
        subst hfs
        have hoff1 : off < k.length := by simp at hlen; omega
        have hslot : (if off < k.length then k.getD off 0 else 0) = b := by
          rw [if_pos hoff1, ← headD_drop, hs]; rfl
        have hs1d : k.drop (off + 1) = s1 := by
          rw [← tail_drop, hs]; rfl
        have hloop := ih (off + 1) (radixAt table b) fs1 A1 B1 s1 v
          (⟨.radix table, off, (b : Int)⟩ :: stack) fuel hp1 hs1d (by omega)
          (by simp at hfuel; omega) (by simp at hmax ⊢; omega)
        rw [slot_loop]
        simp only [hslot, push_ok jmax stack _ (by omega : stack.length < jmax)]
        simp only [hi1, hi2, hb0, if_false, hloop]
        simp
    | span base kid =>
      obtain ⟨hal, p, hp, rfl, hcase⟩ := hpath
      have hlen := drop_length_le k off _ hs hoff
      have hpush := push_ok jmax stack
        ⟨.span (p ++ List.replicate (JUDY_span_bytes - p.length) 0) kid, off, 0⟩ (by omega)
      rcases hcase with ⟨hl, hkid, hsp, hfs, _, _⟩ | ⟨hl, fs1, A1, s1, B1, hp1, hfs, hsp, _, _⟩
      · simp only at hsp hkid
        subst hsp
        subst hkid
        subst hfs
        rw [slot_loop]
        simp only [hpush, if_neg (by omega : ¬ (k.length < off ∨ 2 ^ 31 ≤ k.length - off)),
            if_neg (by omega : ¬ (k.length < off ∨ 2 ^ 31 ≤ s.length)), hlen, gt_iff_lt, hl, if_true, hs]
        have h1 := strncmp_eq_self s (List.replicate (JUDY_span_bytes - s.length) 0) [] hp
        rw [List.append_nil] at h1
        have h2 : (s ++ List.replicate (JUDY_span_bytes - s.length) 0).getD s.length 0 = 0 := by
          rw [List.getD_append_right _ _ _ _ (le_refl _)]
          simp [List.getD_eq_getElem?_getD]
        simp only [h1, h2, and_self, if_true]
        rfl
      · simp only at hsp
        subst hsp
        subst hfs
        have hs1d : k.drop (off + JUDY_span_bytes) = s1 := by
          rw [← List.drop_drop, hs, ← hl, List.drop_left]
        simp only [List.length_append] at hlen hfuel hmax
        have h24 : JUDY_span_bytes = 24 := rfl
        rw [h24] at hl
        have hloop := ih (off + JUDY_span_bytes) kid fs1 A1 B1 s1 v
          (⟨.span (p ++ List.replicate (JUDY_span_bytes - p.length) 0) kid, off, 0⟩ :: stack)
          fuel hp1 hs1d (by omega) (by omega) (by simp only [List.length_cons]; omega)
        rw [slot_loop]
        have htst : (if JUDY_span_bytes > k.length - off then k.length - off
            else JUDY_span_bytes) = JUDY_span_bytes := by
          rw [if_neg (by rw [h24]; omega)]
        have h1 : strncmp_eq (p ++ List.replicate (JUDY_span_bytes - p.length) 0) (p ++ s1)
            JUDY_span_bytes = true := by
          rw [h24, ← hl]; exact strncmp_eq_self p _ s1 hp
        simp only [hpush, if_neg (by omega : ¬ (k.length < off ∨ 2 ^ 31 ≤ k.length - off)),
          htst, hs, h1, lt_self_iff_false,
          false_and, and_false, if_false, and_self, if_true, hloop]
        simp

/-- `judy_slot` of a key whose cell a path leads to returns that cell with that path as the
cursor. -/
theorem judy_slot_path (M : Nat) [Fact (M ≤ JUDY_open_max)] (judy : Judy) (d : Nat)
    (fs : List JudyStack) (A B : List Ent)
    (k : List Nat) (v : Nat) (hmax : judy.max = M + 1) (hk : ZF k) (hl : k.length ≤ M)
    (hpath : Path d 0 judy.root fs A (k, v) B) :
    judy_slot judy k k.length = some ⟨{ judy with stack := fs }, some (.word v)⟩ := by
  have h := slot_path k hk (len31 hl) judy.max d 0 judy.root fs A B k v [] (judy.max + 1) hpath rfl
    (Nat.zero_le _) (by rw [hmax]; omega) (by rw [hmax]; simp; omega)
  unfold judy_slot
  rw [h]
  simp

/-- C26: previous undoes next.  In every array built from the empty array by driver steps,
for every stored key `k` with its word `v`, `judy_slot` of `k` returns the cell of `k` and
leaves the cursor on it; if `k` is not the greatest stored key, `judy_nxt` then returns a
cell, not `NULL`, and `judy_prv` after it returns the cell of `k` again, with the cursor as
`judy_slot` left it; and if `k` is not the smallest stored key, `judy_prv` returns a cell and
`judy_nxt` after it returns the cell of `k` again, with that cursor.
The array is opened by `judy_open` with a maximum key length `M <= JUDY_open_max`, the
largest that `judy_open` can take. -/
theorem judy_prv_undoes_nxt (M : Nat) (hM : M ≤ JUDY_open_max) (steps : List Step) (k : List Nat) (v : Nat)
    (hok : StepsOK M steps []) (hst : (k, v) ∈ stepsEnt steps []) :
    ∃ judy r0, judy_steps steps (judy_open M) = some judy ∧
      judy_slot judy k k.length = some r0 ∧ r0.cell = some (.word v) ∧
      ((∃ e ∈ stepsEnt steps [], k < e.1) →
        ∃ rn c, judy_nxt r0.judy = some rn ∧ rn.cell = some c ∧ judy_prv rn.judy = some r0) ∧
      ((∃ e ∈ stepsEnt steps [], e.1 < k) →
        ∃ rp c, judy_prv r0.judy = some rp ∧ rp.cell = some c ∧ judy_nxt rp.judy = some r0) := by
  haveI : Fact (M ≤ JUDY_open_max) := ⟨hM⟩
  obtain ⟨judy, hsteps, hmax, hroot, hshort, _⟩ := judy_open_steps M steps hok
  obtain ⟨hsorted, hgood⟩ := RootRep_sorted_good hroot
  obtain ⟨hk, hv⟩ := hgood _ hst
  have hl := hshort _ hst
  have hrep : ∃ d, Rep d 0 judy.root (stepsEnt steps []) := by
    rcases hroot with ⟨_, h0⟩ | h
    · rw [h0] at hst; simp at hst
    · exact h
  obtain ⟨d, hrep⟩ := hrep
  obtain ⟨fs, A, B, hslot, hpath, hm⟩ := judy_slot_spec M judy _ k v d hmax hrep hst hk hl
  rw [hm] at hsorted hshort hgood
  obtain ⟨sA, sB, _, _⟩ := sorted_mid hsorted
  have hshortA : Short M A := fun e he => hshort e (by simp [he])
  have hshortB : Short M B := fun e he => hshort e (by simp [he])
  refine ⟨judy, _, hsteps, hslot, rfl, ?_, ?_⟩
  · rintro ⟨e, he, hlt⟩
    rw [hm] at he
    have hB : B ≠ [] := by
      intro hB
      rw [hB] at he
      rcases List.mem_append.1 he with h | h
      · exact lt_asymm hlt (sA e h)
      · rw [List.mem_singleton.1 h] at hlt
        exact lt_irrefl k hlt
    obtain ⟨e1, B1, rfl⟩ := List.exists_cons_of_ne_nil hB
    obtain ⟨fs1, hn, hp1⟩ := (judy_nxt_spec M { judy with stack := fs } d A (e1 :: B1) k v hmax
      hpath hv hshortB).2 e1 B1 rfl
    obtain ⟨fs2, hp, hp2⟩ := (judy_prv_spec M { judy with stack := fs1 } d (A ++ [(k, v)]) B1
      e1.1 e1.2 hmax hp1 (hgood e1 (by simp)).2
      (fun x hx => hshort x (by
        rcases List.mem_append.1 hx with h | h
        · simp [h]
        · simp [List.mem_singleton.1 h]))).2 A (k, v) rfl
    have hs2 := judy_slot_path M judy d fs2 A (e1 :: B1) k v hmax hk hl hp2
    rw [hslot] at hs2
    refine ⟨_, _, hn, rfl, ?_⟩
    rw [hp, hs2]
  · rintro ⟨e, he, hlt⟩
    rw [hm] at he
    have hA : A ≠ [] := by
      intro hA
      rw [hA] at he
      rcases List.mem_cons.1 he with h | h
      · rw [h] at hlt
        exact lt_irrefl k hlt
      · exact lt_asymm hlt (sB e h)
    obtain ⟨A1, e1, hA1⟩ := List.eq_nil_or_concat A |>.resolve_left hA
    rw [List.concat_eq_append] at hA1
    subst hA1
    obtain ⟨fs1, hp, hp1⟩ := (judy_prv_spec M { judy with stack := fs } d (A1 ++ [e1]) B k v hmax
      hpath hv hshortA).2 A1 e1 rfl
    obtain ⟨fs2, hn, hp2⟩ := (judy_nxt_spec M { judy with stack := fs1 } d A1 ((k, v) :: B)
      e1.1 e1.2 hmax hp1 (hgood e1 (by simp)).2
      (fun x hx => hshort x (by
        rcases List.mem_cons.1 hx with h | h
        · simp [h]
        · simp [h]))).2 (k, v) B rfl
    have hs2 := judy_slot_path M judy d fs2 (A1 ++ [e1]) B k v hmax hk hl hp2
    rw [hslot] at hs2
    refine ⟨_, _, hp, rfl, ?_⟩
    rw [hn, hs2]

theorem judy_prv_undoes_nxt_witness :
    8 ≤ JUDY_open_max ∧
    (StepsOK 8 [.put [98] 2, .put [97] 1, .put [99, 100] 3] [] ∧
      (([98] : List Nat), 2) ∈ stepsEnt [.put [98] 2, .put [97] 1, .put [99, 100] 3] []) ∧
    (∃ judy r0, judy_steps [.put [98] 2, .put [97] 1, .put [99, 100] 3] (judy_open 8) =
        some judy ∧
      judy_slot judy [98] [98].length = some r0 ∧ r0.cell = some (.word 2) ∧
      ((∃ e ∈ stepsEnt [.put [98] 2, .put [97] 1, .put [99, 100] 3] [], [98] < e.1) →
        ∃ rn c, judy_nxt r0.judy = some rn ∧ rn.cell = some c ∧ judy_prv rn.judy = some r0) ∧
      ((∃ e ∈ stepsEnt [.put [98] 2, .put [97] 1, .put [99, 100] 3] [], e.1 < [98]) →
        ∃ rp c, judy_prv r0.judy = some rp ∧ rp.cell = some c ∧
          judy_nxt rp.judy = some r0)) ∧
    (∃ judy r0 rn rp, judy_steps [.put [98] 2, .put [97] 1, .put [99, 100] 3] (judy_open 8) =
        some judy ∧
      judy_slot judy [98] 1 = some r0 ∧
      judy_nxt r0.judy = some rn ∧ rn.cell = some (.word 3) ∧
      (judy_prv rn.judy).map (fun r => (r.cell, r.judy.stack.map (fun f => f.slot))) =
        some (some (.word 2), r0.judy.stack.map (fun f => f.slot)) ∧
      judy_prv r0.judy = some rp ∧ rp.cell = some (.word 1) ∧
      (judy_nxt rp.judy).map (fun r => (r.cell, r.judy.stack.map (fun f => f.slot))) =
        some (some (.word 2), r0.judy.stack.map (fun f => f.slot))) :=
  ⟨by decide, ⟨⟨⟨by simp [ZF], by decide, by decide⟩, ⟨by simp [ZF], by decide, by decide⟩,
        ⟨by simp [ZF], by decide, by decide⟩, trivial⟩, by decide⟩,
    judy_prv_undoes_nxt 8 (by decide) [.put [98] 2, .put [97] 1, .put [99, 100] 3] [98] 2
      ⟨⟨by simp [ZF], by decide, by decide⟩, ⟨by simp [ZF], by decide, by decide⟩,
        ⟨by simp [ZF], by decide, by decide⟩, trivial⟩ (by decide),
    ⟨_, _, _, _, rfl, rfl, rfl, rfl, rfl, rfl, rfl, rfl⟩⟩


/-! ## The depth of the cursor -/

/-- The scan of a linear node ends below the node, after a key above the value, or at a slot
whose key is at most the value. -/
theorem lin_scan_cases (keys : List Nat) (ks value : Nat) :
    ∀ (cnt t : Nat), (cnt = 0 → value < t) →
      ((lin_scan keys ks value cnt t).1 = -1 ∧ value < (lin_scan keys ks value cnt t).2) ∨
      ∃ i, i < cnt ∧
        lin_scan keys ks value cnt t = ((i : Int), keys.getD i 0 &&& JudyMask ks) ∧
        keys.getD i 0 &&& JudyMask ks ≤ value := by
  intro cnt
  induction cnt with
  | zero => intro t h; exact Or.inl ⟨rfl, h rfl⟩
  | succ n ih =>
    intro t _
    rw [lin_scan_succ]
    split
    · next h => exact Or.inr ⟨n, by omega, rfl, h⟩
    · next h =>
      rcases ih (keys.getD n 0 &&& JudyMask ks) (fun _ => by omega) with h1 | ⟨i, hi, h2, h3⟩
      · exact Or.inl h1
      · exact Or.inr ⟨i, by omega, h2, h3⟩

/-- A populated slot of a linear node holds a key that ends inside the stride, or it refers
to a node. -/
theorem Slots.at_key {R : JNode → List Ent → Prop} {ks : Nat} {K : List Nat} {C : List JNode}
    {m : List Ent} (h : Slots R ks K C m) :
    ∀ i, i < K.length → K.getD i 0 % 256 = 0 ∨ ∃ m1, R (C.getD i (JNode.word 0)) m1 := by
  induction h with
  | nil => intro i hi; simp at hi
  | @leaf p v keys kids m hp hl _ _ ih =>
    intro i hi
    cases i with
    | zero => exact Or.inl ((pack_mod ks p hp (by omega)).2 hl)
    | succ i => exact ih i (by simpa using hi)
  | @node p kid m1 keys kids m _ _ hr _ ih =>
    intro i hi
    cases i with
    | zero => exact Or.inr ⟨m1, hr⟩
    | succ i => exact ih i (by simpa using hi)

theorem slot_word0 (k : List Nat) (jmax fuel off : Nat) (stack : List JudyStack) :
    slot_loop k k.length jmax (fuel + 1) (.word 0) off stack = some (stack, none) := rfl

/-- On a well formed node `judy_slot` returns for every zero-free key, stored or not, and it
pushes at most one frame more than the key has bytes left. -/
theorem slot_bound (k : List Nat) (hk : ZF k) (hk31 : k.length < 2 ^ 31) (jmax : Nat) :
    ∀ (d off : Nat) (n : JNode) (m : List Ent) (s : List Nat)
      (stack : List JudyStack) (fuel : Nat),
      Rep d off n m → k.drop off = s → off ≤ k.length →
      s.length + 1 ≤ fuel → stack.length + s.length + 1 ≤ jmax →
      ∃ fs cell, slot_loop k k.length jmax fuel n off stack = some (fs ++ stack, cell) ∧
        fs.length ≤ s.length + 1 := by
  intro d
  induction d with
  | zero => intro off n m s stack fuel h; exact absurd h (by simp [Rep])
  | succ d ih =>
    intro off n m s stack fuel hrep hs hoff hfuel hmax
    obtain ⟨fuel, rfl⟩ : ∃ f, fuel = f + 1 := ⟨fuel - 1, by omega⟩
    have hzs : ZF s := by rw [← hs]; exact ZF_drop off hk
    have hlen := drop_length_le k off _ hs hoff
    cases n with
    | word w => exact absurd hrep (by simp [Rep])
    | lin type keys kids =>
      obtain ⟨e, pk, pc, h1, h2, rfl, rfl, h5, h6, h7, h8⟩ := hrep
      have hks := key_size_le off
      have hks1 := key_size_pos off
      have hcpos := lin_cnt_pos type (key_size off) h1 h2 hks
      rw [slot_loop]
      simp only [key_value_spec k hk off, hs]
      rcases lin_scan_cases (List.replicate e 0 ++ pk) (key_size off) (pack (key_size off) s)
        (lin_cnt type (key_size off)) 0 (fun h => by omega) with ⟨h3, h4⟩ | ⟨i, hi, h3, h4⟩
      · rw [push_ok jmax stack _ (by omega)]
        simp only [if_neg (Nat.ne_of_gt h4)]
        exact ⟨[_], none, rfl, by simp⟩
      · rw [h3]
        simp only
        rw [push_ok jmax stack _ (by omega)]
        simp only
        by_cases ht : (List.replicate e 0 ++ pk).getD i 0 &&& JudyMask (key_size off) =
            pack (key_size off) s
        · rw [if_pos ht]
          by_cases hz : pack (key_size off) s &&& 0xFF = 0
          · rw [if_pos hz]
            exact ⟨[_], _, rfl, by simp⟩
          · rw [if_neg hz]
            rw [show (0xFF : Nat) = 255 from rfl, and255] at hz
            have hsl : key_size off ≤ s.length := by
              by_contra hcon
              exact hz ((pack_mod _ s hzs hks1).2 (by omega))
            rw [JudyMask_eq _ _ hks] at ht
            have hie : e ≤ i := by
              by_contra hcon
              rw [List.getD_append _ _ _ _ (by simp; omega)] at ht
              simp only [List.getD_eq_getElem?_getD, List.getElem?_replicate] at ht
              rw [if_pos (by omega)] at ht
              simp only [Option.getD_some, Nat.zero_mod] at ht
              rw [← ht] at hz
              exact hz rfl
            have hipk : i - e < pk.length := by omega
            have hkey : (List.replicate e 0 ++ pk).getD i 0 = pk.getD (i - e) 0 := by
              rw [List.getD_append_right _ _ _ _ (by simp; omega), List.length_replicate]
            have hkid : kidAt (List.replicate e (JNode.word 0) ++ pc) i =
                pc.getD (i - e) (JNode.word 0) := by
              unfold kidAt
              rw [List.getD_append_right _ _ _ _ (by simp; omega), List.length_replicate]
            have hklt : pk.getD (i - e) 0 < 256 ^ key_size off := by
              rw [List.getD_eq_getElem?_getD, List.getElem?_eq_getElem hipk]
              exact h8.key_lt _ (List.getElem_mem hipk)
            rw [hkey, Nat.mod_eq_of_lt hklt] at ht
            rcases h8.at_key (i - e) hipk with h9 | ⟨m1, hr⟩
            · rw [ht] at h9
              exact absurd h9 hz
            · obtain ⟨fs, cell, hloop, hfl⟩ := ih (off + key_size off)
                (pc.getD (i - e) (JNode.word 0)) m1 (s.drop (key_size off))
                (⟨.lin type (List.replicate e 0 ++ pk) (List.replicate e (JNode.word 0) ++ pc),
                  off, (i : Int)⟩ :: stack) fuel hr
                (by rw [← hs, List.drop_drop])
                (by omega) (by rw [List.length_drop]; omega)
                (by simp only [List.length_cons, List.length_drop]; omega)
              simp only [Int.toNat_ofNat, hkid, hloop]
              refine ⟨fs ++ [⟨.lin type (List.replicate e 0 ++ pk)
                (List.replicate e (JNode.word 0) ++ pc), off, (i : Int)⟩], cell, by simp, ?_⟩
              rw [List.length_drop] at hfl
              simp only [List.length_append, List.length_singleton]
              omega
        · rw [if_neg ht]
          exact ⟨[_], none, rfl, by simp⟩
    | radix table =>
      obtain ⟨hO, ms, hR, _, _⟩ := hrep
      have hb : (if off < k.length then k.getD off 0 else 0) < 256 := by
        split
        · exact getD_lt_256 k hk off
        · omega
      rw [slot_loop]
      simp only [push_ok jmax stack _ (by omega : stack.length < jmax)]
      generalize hbdef : (if off < k.length then k.getD off 0 else 0) = b at hb ⊢
      have hb16 : b >>> 4 < 16 := by rw [shr4]; omega
      rcases hO.2 (b >>> 4) hb16 with h0 | ⟨inner, hi, _, _⟩
      · simp only [h0]
        exact ⟨[_], none, rfl, by simp⟩
      · simp only [hi]
        by_cases hb0 : b = 0
        · rw [if_pos hb0]
          exact ⟨[_], _, rfl, by simp⟩
        · rw [if_neg hb0]
          have hoff1 : off < k.length := by
            by_contra hcon
            rw [if_neg hcon] at hbdef
            exact hb0 hbdef.symm
          have hrad : radixAt table b = tblAt inner (b &&& 15) := by
            unfold radixAt
            simp [hi]
          rcases hR b hb with ⟨hx, _⟩ | ⟨hx, _⟩ | ⟨_, m1, hr, _⟩
          · rw [hrad] at hx
            obtain ⟨f1, hf1⟩ : ∃ f1, fuel = f1 + 1 := ⟨fuel - 1, by omega⟩
            rw [hx, hf1, slot_word0]
            exact ⟨[_], none, rfl, by simp⟩
          · exact absurd hx hb0
          · rw [hrad] at hr
            obtain ⟨fs, cell, hloop, hfl⟩ := ih (off + 1) (tblAt inner (b &&& 15)) m1
              (s.drop 1) (⟨.radix table, off, (b : Int)⟩ :: stack) fuel hr
              (by rw [← hs, List.drop_drop]) (by omega)
              (by rw [List.length_drop]; omega)
              (by simp only [List.length_cons, List.length_drop]; omega)
            rw [hloop]
            refine ⟨fs ++ [⟨.radix table, off, (b : Int)⟩], cell, by simp, ?_⟩
            rw [List.length_drop] at hfl
            simp only [List.length_append, List.length_singleton]
            omega
    | span base kid =>
      obtain ⟨hal, p, hp, rfl, hcase⟩ := hrep
      have h24 : JUDY_span_bytes = 24 := rfl
      rw [slot_loop]
      simp only [push_ok jmax stack _ (by omega : stack.length < jmax),
        if_neg (by omega : ¬ (k.length < off ∨ 2 ^ 31 ≤ k.length - off)),
            if_neg (by omega : ¬ (k.length < off ∨ 2 ^ 31 ≤ s.length)), hs]
      generalize htd : (if JUDY_span_bytes > k.length - off then k.length - off
        else JUDY_span_bytes) = tst
      by_cases hc1 : strncmp_eq (p ++ List.replicate (JUDY_span_bytes - p.length) 0) s tst = true ∧
          tst < JUDY_span_bytes ∧
          (p ++ List.replicate (JUDY_span_bytes - p.length) 0).getD tst 0 = 0
      · rw [if_pos hc1]
        exact ⟨[⟨.span (p ++ List.replicate (JUDY_span_bytes - p.length) 0) kid, off, 0⟩],
          some kid, rfl, by simp⟩
      · rw [if_neg hc1]
        by_cases hc2 : strncmp_eq (p ++ List.replicate (JUDY_span_bytes - p.length) 0) s tst =
            true ∧ tst = JUDY_span_bytes
        · rw [if_pos hc2]
          obtain ⟨heq, htst⟩ := hc2
          have hsl : 24 ≤ s.length := by
            rw [htst, h24, hlen] at htd
            by_cases hc : 24 > s.length
            · rw [if_pos hc] at htd; omega
            · omega
          rw [htst] at heq
          have hpl : p.length ≤ 24 := by
            rcases hcase with ⟨h, _⟩ | ⟨h, _⟩ <;> omega
          have hps := (strncmp_eq_iff (JUDY_span_bytes - p.length) JUDY_span_bytes p s hp
            hzs).1 heq
          rw [List.take_of_length_le (by rw [h24]; exact hpl)] at hps
          have hp24 : p.length = 24 := by rw [hps, List.length_take, h24]; omega
          rcases hcase with ⟨h, _⟩ | ⟨_, m1, hr, _⟩
          · omega
          · obtain ⟨fs, cell, hloop, hfl⟩ := ih (off + JUDY_span_bytes) kid m1
              (s.drop JUDY_span_bytes)
              (⟨.span (p ++ List.replicate (JUDY_span_bytes - p.length) 0) kid, off, 0⟩ :: stack)
              fuel hr (by rw [← hs, List.drop_drop]) (by omega)
              (by rw [List.length_drop]; omega)
              (by simp only [List.length_cons, List.length_drop]; omega)
            rw [hloop]
            refine ⟨fs ++ [⟨.span (p ++ List.replicate (JUDY_span_bytes - p.length) 0) kid, off,
              0⟩], cell, by simp, ?_⟩
            rw [List.length_drop] at hfl
            simp only [List.length_append, List.length_singleton]
            omega
        · rw [if_neg hc2]
          exact ⟨[⟨.span (p ++ List.replicate (JUDY_span_bytes - p.length) 0) kid, off, 0⟩],
            none, rfl, by simp⟩

theorem push_len (jmax : Nat) (stack st : List JudyStack) (f : JudyStack)
    (h : push jmax stack f = some st) : st.length = stack.length + 1 := by
  unfold push at h
  split at h
  · cases h; simp
  · cases h

/-- A run of `judy_slot` that the cursor does not stop pushes one frame for every node that it
visits. -/
theorem slot_nodes_len (k : List Nat) (max jmax : Nat) :
    ∀ (fuel : Nat) (n : JNode) (off : Nat) (stack stack1 : List JudyStack) (cell : Option JNode),
      slot_loop k max jmax fuel n off stack = some (stack1, cell) →
      stack1.length = stack.length + slot_nodes k max fuel n off := by
  intro fuel
  induction fuel with
  | zero => intro n off stack stack1 cell h; simp [slot_loop] at h
  | succ fuel ih =>
    intro n off stack stack1 cell h
    cases n with
    | word w =>
      cases w with
      | zero =>
        rw [slot_loop] at h
        cases h
        rfl
      | succ w => simp [slot_loop] at h
    | lin type keys kids =>
      rw [slot_loop] at h
      rw [slot_nodes]
      generalize key_value k max 8 0 off = kv at h ⊢
      obtain ⟨value, off1⟩ := kv
      simp only at h ⊢
      generalize lin_scan keys (key_size off) value (lin_cnt type (key_size off)) 0 = ls at h ⊢
      obtain ⟨slot, test⟩ := ls
      simp only at h ⊢
      cases hp : push jmax stack ⟨.lin type keys kids, off, slot⟩ with
      | none => rw [hp] at h; cases h
      | some st =>
        rw [hp] at h
        have hst := push_len _ _ _ _ hp
        simp only at h
        by_cases ht : test = value
        · by_cases hv : value &&& 0xFF = 0
          · rw [if_pos ht, if_pos hv] at h
            rw [if_pos ht, if_pos hv]
            cases h
            exact hst
          · rw [if_pos ht, if_neg hv] at h
            rw [if_pos ht, if_neg hv, ih _ _ _ _ _ h, hst]
            omega
        · rw [if_neg ht] at h
          rw [if_neg ht]
          cases h
          exact hst
    | radix table =>
      rw [slot_loop] at h
      rw [slot_nodes]
      generalize (if off < max then k.getD off 0 else 0) = slot at h ⊢
      cases hp : push jmax stack ⟨.radix table, off, (slot : Int)⟩ with
      | none => rw [hp] at h; cases h
      | some st =>
        rw [hp] at h
        have hst := push_len _ _ _ _ hp
        simp only at h
        cases hi : tblAt table (slot >>> 4) with
        | word w =>
          rw [hi] at h
          cases w with
          | zero =>
            simp only at h
            cases h
            exact hst
          | succ w => simp at h
        | lin _ _ _ => rw [hi] at h; simp at h
        | span _ _ => rw [hi] at h; simp at h
        | radix inner =>
          rw [hi] at h
          simp only at h ⊢
          by_cases h0 : slot = 0
          · rw [if_pos h0] at h
            rw [if_pos h0]
            cases h
            exact hst
          · rw [if_neg h0] at h
            rw [if_neg h0, ih _ _ _ _ _ h, hst]
            omega
    | span base kid =>
      rw [slot_loop] at h
      rw [slot_nodes]
      simp only at h ⊢
      cases hp : push jmax stack ⟨.span base kid, off, 0⟩ with
      | none => rw [hp] at h; cases h
      | some st =>
        rw [hp] at h
        have hst := push_len _ _ _ _ hp
        simp only at h
        by_cases hg : max < off ∨ 2 ^ 31 ≤ max - off
        · rw [if_pos hg] at h
          cases h
        · rw [if_neg hg] at h
          rw [if_neg hg]
          generalize (if JUDY_span_bytes > max - off then max - off else JUDY_span_bytes) = tst
            at h ⊢
          by_cases h1 : strncmp_eq base (k.drop off) tst = true ∧ tst < JUDY_span_bytes ∧
              base.getD tst 0 = 0
          · rw [if_pos h1] at h
            rw [if_pos h1]
            cases h
            exact hst
          · rw [if_neg h1] at h
            rw [if_neg h1]
            by_cases h2 : strncmp_eq base (k.drop off) tst = true ∧ tst = JUDY_span_bytes
            · rw [if_pos h2] at h
              rw [if_pos h2, ih _ _ _ _ _ h, hst]
              omega
            · rw [if_neg h2] at h
              rw [if_neg h2]
              cases h
              exact hst

/-- C24: cursor depth bound.  In every array that `judy_open` can open with the maximum key
length `M` (`M <= JUDY_open_max`) and that is built by driver steps, for every zero-free key `k`
of `L <= M` bytes, stored or not: `judy_slot` of `k` returns, its cursor has exactly one frame
for each of the `slot_nodes` nodes that it visits, and these are at most `L + 1`; `judy_cell` of
`k` returns, its cursor is the list of the frames of all the nodes on the path to the cell, one
each, at most `L + 1`; and `L + 1` is at most `judy->max = M + 1`, the number of frames that
`judy_open` allocates.  In the embedding a push under a failing guard `level < max` ends the
run of `judy_slot` without a result, and `judy_cell` returns no result when it has more frames
than `judy->max`, so that a result says that the guard has not failed. -/
theorem judy_cursor_depth (M : Nat) (hM : M ≤ JUDY_open_max) (steps : List Step) (k : List Nat)
    (hok : StepsOK M steps []) (hk : ZF k) (hl : k.length ≤ M) :
    ∃ judy rs rc root1 frames cell, judy_steps steps (judy_open M) = some judy ∧
      judy.max = M + 1 ∧
      judy_slot judy k k.length = some rs ∧
      rs.judy.stack.length = slot_nodes k k.length (judy.max + 1) judy.root 0 ∧
      rs.judy.stack.length ≤ k.length + 1 ∧
      cell_loop k k.length (2 * judy.max + 2) judy.root 0 = some (root1, frames, cell) ∧
      frames.length ≤ k.length + 1 ∧
      judy_cell judy k k.length = some rc ∧ rc.judy.stack = frames ∧ rc.judy.root = root1 ∧
      rc.cell = some cell ∧ k.length + 1 ≤ judy.max := by
  haveI : Fact (M ≤ JUDY_open_max) := ⟨hM⟩
  obtain ⟨judy, hsteps, hmax, hroot, _, _⟩ := judy_open_steps M steps hok
  have hcok : CellOK k (2 * judy.max + 2) 0 judy.root (stepsEnt steps []) k := by
    rcases hroot with ⟨h0, h1⟩ | ⟨d, hr⟩
    · rw [h0, h1]
      exact CellOK_word0 k hk (len31 hl) 0 (2 * judy.max + 1) k rfl (Nat.zero_le _)
    · exact cell_ok k hk (len31 hl) k.length 0 k d judy.root _ _ rfl rfl (Nat.zero_le _) hr
        (by rw [hmax]; omega)
  obtain ⟨n1, fs, c, A, B, d1, hloop, _, hfl, _⟩ := hcok
  have hcell : judy_cell judy k k.length =
      some ⟨{ judy with root := n1, stack := fs }, some (.word c)⟩ := by
    unfold judy_cell
    rw [hloop]
    simp only
    rw [if_pos (by rw [hmax]; omega)]
  have hslot : ∃ fs1 cell, slot_loop k k.length judy.max (judy.max + 1) judy.root 0 [] =
      some (fs1, cell) ∧ fs1.length ≤ k.length + 1 := by
    rcases hroot with ⟨h0, _⟩ | ⟨d, hr⟩
    · rw [h0]
      exact ⟨[], none, rfl, by simp⟩
    · obtain ⟨fs1, cell, h1, h2⟩ := slot_bound k hk (len31 hl) judy.max d 0 judy.root _ k []
        (judy.max + 1) hr rfl (Nat.zero_le _) (by rw [hmax]; omega)
        (by rw [hmax]; simp; omega)
      rw [List.append_nil] at h1
      exact ⟨fs1, cell, h1, h2⟩
  obtain ⟨fs1, cell, hs1, hs2⟩ := hslot
  have hn := slot_nodes_len k k.length judy.max (judy.max + 1) judy.root 0 [] fs1 cell hs1
  refine ⟨judy, ⟨{ judy with stack := fs1 }, cell⟩, _, n1, fs, .word c, hsteps, hmax, ?_,
    by simpa using hn, hs2, hloop, hfl, hcell, rfl, rfl, rfl, by rw [hmax]; omega⟩
  unfold judy_slot
  rw [hs1]

theorem judy_cursor_depth_witness :
    8 ≤ JUDY_open_max ∧
    (StepsOK 8 [.put [97, 98] 1, .put [97, 99] 2, .del [97, 98]] [] ∧ ZF [97, 99, 100] ∧
      [97, 99, 100].length ≤ 8) ∧
    (∃ judy rs rc root1 frames cell,
      judy_steps [.put [97, 98] 1, .put [97, 99] 2, .del [97, 98]] (judy_open 8) =
        some judy ∧ judy.max = 8 + 1 ∧
      judy_slot judy [97, 99, 100] [97, 99, 100].length = some rs ∧
      rs.judy.stack.length =
        slot_nodes [97, 99, 100] [97, 99, 100].length (judy.max + 1) judy.root 0 ∧
      rs.judy.stack.length ≤ [97, 99, 100].length + 1 ∧
      cell_loop [97, 99, 100] [97, 99, 100].length (2 * judy.max + 2) judy.root 0 =
        some (root1, frames, cell) ∧
      frames.length ≤ [97, 99, 100].length + 1 ∧
      judy_cell judy [97, 99, 100] [97, 99, 100].length = some rc ∧ rc.judy.stack = frames ∧
      rc.judy.root = root1 ∧ rc.cell = some cell ∧ [97, 99, 100].length + 1 ≤ judy.max) ∧
    ((judy_steps [.put [97, 98] 1, .put [97, 99] 2, .del [97, 98]] (judy_open 8)).bind
      (fun judy => judy_slot judy [97, 99, 100] 3)).map (fun r => r.judy.stack.length) =
      some 1 ∧
    ((judy_steps [.put [97, 98] 1, .put [97, 99] 2, .del [97, 98]] (judy_open 8)).map
      (fun judy => slot_nodes [97, 99, 100] 3 (judy.max + 1) judy.root 0)) = some 1 :=
  ⟨by decide, ⟨⟨⟨by simp [ZF], by decide, by decide⟩, ⟨by simp [ZF], by decide, by decide⟩, by decide,
      trivial⟩, by simp [ZF], by decide⟩,
    judy_cursor_depth 8 (by decide) [.put [97, 98] 1, .put [97, 99] 2, .del [97, 98]] [97, 99, 100]
      ⟨⟨by simp [ZF], by decide, by decide⟩, ⟨by simp [ZF], by decide, by decide⟩, by decide,
        trivial⟩ (by simp [ZF]) (by decide), rfl, rfl⟩


/-! ## The comparison of strides -/

theorem pack_lt256 (n : Nat) (s : List Nat) (h : ∀ b ∈ s, b < 256) : pack n s < 256 ^ n := by
  induction n generalizing s with
  | zero => simp [pack]
  | succ n ih =>
    cases s with
    | nil => rw [pack_nil]; positivity
    | cons b t =>
      rw [pack_cons]
      have h1 := h b (List.mem_cons_self _ _)
      have h2 := ih t (fun x hx => h x (List.mem_cons_of_mem _ hx))
      have : b * 256 ^ n ≤ 255 * 256 ^ n := Nat.mul_le_mul_right _ (by omega)
      rw [pow_succ]
      omega

/-- The integer of `n` bytes, the most significant first, is smaller exactly when the bytes are
smaller in the lexicographic order. -/
theorem pack_lt_iff (n : Nat) : ∀ (a b : List Nat), a.length = n → b.length = n →
    (∀ x ∈ a, x < 256) → (∀ x ∈ b, x < 256) → (pack n a < pack n b ↔ a < b) := by
  induction n with
  | zero =>
    intro a b ha hb _ _
    rw [List.length_eq_zero.1 ha, List.length_eq_zero.1 hb]
    simp [pack]
  | succ n ih =>
    intro a b ha hb h1 h2
    cases a with
    | nil => simp at ha
    | cons x a =>
      cases b with
      | nil => simp at hb
      | cons y b =>
        have ha1 : ∀ z ∈ a, z < 256 := fun z hz => h1 z (List.mem_cons_of_mem _ hz)
        have hb1 : ∀ z ∈ b, z < 256 := fun z hz => h2 z (List.mem_cons_of_mem _ hz)
        have p1 := pack_lt256 n a ha1
        have p2 := pack_lt256 n b hb1
        have hi := ih a b (by simpa using ha) (by simpa using hb) ha1 hb1
        rw [pack_cons, pack_cons]
        rcases Nat.lt_trichotomy x y with hxy | hxy | hxy
        · have : (x + 1) * 256 ^ n ≤ y * 256 ^ n := Nat.mul_le_mul_right _ hxy
          rw [Nat.add_mul] at this
          exact ⟨fun _ => List.Lex.rel hxy, fun _ => by omega⟩
        · subst hxy
          constructor
          · intro h
            exact List.Lex.cons (hi.1 (by omega))
          · intro h
            cases h with
            | cons h3 => have := hi.2 h3; omega
            | rel h3 => exact absurd h3 (lt_irrefl _)
        · have : (y + 1) * 256 ^ n ≤ x * 256 ^ n := Nat.mul_le_mul_right _ hxy
          rw [Nat.add_mul] at this
          constructor
          · intro h; omega
          · intro h
            cases h with
            | cons h3 => exact absurd hxy (lt_irrefl _)
            | rel h3 => omega

theorem getD_lt_of_bytes (k : List Nat) (hk : ∀ b ∈ k, b < 256) (i : Nat) :
    k.getD i 0 < 256 := by
  rw [List.getD_eq_getElem?_getD]
  rcases Nat.lt_or_ge i k.length with h | h
  · rw [List.getElem?_eq_getElem h]
    exact hk _ (List.getElem_mem h)
  · rw [List.getElem?_eq_none h]
    decide

/-- The value that the loop of `judy_slot` and `judy_cell` assembles from the key bytes at
`off`, for a key of arbitrary bytes. -/
theorem key_value_bytes_aux (k : List Nat) (hk : ∀ b ∈ k, b < 256) (n : Nat) :
    ∀ (v off : Nat), key_size off ≤ n → v < 256 ^ (8 - key_size off) →
      key_value k k.length n v off =
        (v * 256 ^ key_size off + pack (key_size off) (k.drop off), off + key_size off) := by
  induction n with
  | zero => intro v off h; have := key_size_pos off; omega
  | succ n ih =>
    intro v off hn hv
    have hks := key_size_eq off
    have hks1 := key_size_eq (off + 1)
    have hb : k.getD off 0 < 256 := getD_lt_of_bytes k hk off
    have hv1 : v * 256 < 2 ^ 64 := by
      have h7 : (256:Nat) ^ (8 - key_size off) ≤ 256 ^ 7 :=
        Nat.pow_le_pow_right (by norm_num) (by have := key_size_pos off; omega)
      have : v < 256 ^ 7 := by omega
      norm_num at this ⊢
      omega
    have hval : (if off < k.length then (v <<< 8) % 2 ^ 64 ||| k.getD off 0
        else (v <<< 8) % 2 ^ 64) = v * 256 + k.getD off 0 := by
      split
      · exact shl8 v _ hv1 hb
      · rw [getD_zero_of_ge k off (by omega), Nat.shiftLeft_eq, Nat.mod_eq_of_lt (by simpa using hv1)]
        simp
    unfold key_value
    simp only [hval, and7]
    rcases Nat.eq_or_lt_of_le (key_size_pos off) with h1 | h1
    · have h1 : key_size off = 1 := h1.symm
      have : (off + 1) % 8 = 0 := by omega
      simp only [this, ne_eq, not_true_eq_false, ↓reduceIte, h1, pow_one]
      simp [pack, headD_drop]
    · have h2 : (off + 1) % 8 ≠ 0 := by omega
      have h3 : key_size (off + 1) = key_size off - 1 := by omega
      simp only [h2, ne_eq, not_false_eq_true, ↓reduceIte]
      obtain ⟨r, hr⟩ : ∃ r, key_size off = r + 1 := ⟨key_size off - 1, by omega⟩
      rw [ih (v * 256 + k.getD off 0) (off + 1) (by omega)]
      · rw [h3, hr]
        simp only [Nat.add_sub_cancel, pack, headD_drop, tail_drop]
        congr 1
        · rw [pow_succ]; ring
        · omega
      · rw [h3, hr, Nat.add_sub_cancel]
        rw [hr] at hv
        have e : 8 - r = (8 - (r + 1)) + 1 := by have := key_size_le off; omega
        rw [e, pow_succ]
        omega

theorem pack_range (n : Nat) : ∀ s : List Nat,
    pack n s = pack n ((List.range n).map (fun i => s.getD i 0)) := by
  induction n with
  | zero => intro s; rfl
  | succ n ih =>
    intro s
    rw [List.range_succ_eq_map, List.map_cons, List.map_map, pack_cons]
    have hfun : (fun i => s.getD i 0) ∘ Nat.succ = fun i => s.tail.getD i 0 := by
      funext i
      cases s with
      | nil => simp
      | cons b t => simp
    rw [hfun, ← ih s.tail]
    cases s with
    | nil => simp [pack_nil]
    | cons b t => rw [pack_cons]; simp

theorem window_drop (k : List Nat) (off : Nat) :
    window k k.length off = (List.range (key_size off)).map (fun i => (k.drop off).getD i 0) := by
  unfold window
  apply List.map_congr_left
  intro i _
  rw [List.getD_eq_getElem?_getD, List.getD_eq_getElem?_getD, List.getElem?_drop]
  split
  · rfl
  · rw [List.getElem?_eq_none (by omega)]
    rfl

theorem key_value_window (k : List Nat) (hk : ∀ b ∈ k, b < 256) (off : Nat) :
    (key_value k k.length 8 0 off).1 = pack (key_size off) (window k k.length off) := by
  rw [key_value_bytes_aux k hk 8 0 off (key_size_le off) (by positivity), window_drop,
    ← pack_range]
  simp

theorem window_bytes (k : List Nat) (hk : ∀ b ∈ k, b < 256) (off : Nat) :
    (window k k.length off).length = key_size off ∧ ∀ x ∈ window k k.length off, x < 256 := by
  refine ⟨by simp [window], fun x hx => ?_⟩
  obtain ⟨i, _, rfl⟩ := List.mem_map.1 hx
  split
  · exact getD_lt_of_bytes k hk _
  · decide

/-- A key of `ks` bytes written to a slot and read back as a word, masked to `ks` bytes. -/
theorem key_load_store (mem : Nat → Nat) (base slot ks value : Nat) (h1 : 1 ≤ ks) (h8 : ks ≤ 8) :
    key_load (key_store mem base slot ks value) base slot ks = value % 256 ^ ks := by
  unfold key_load rdWord key_store
  rw [JudyMask_eq _ _ h8]
  generalize base + slot * ks = a
  simp only [List.range, List.range.loop, List.foldr]
  interval_cases ks <;> simp <;> omega

/-- C21: stride comparison is lexicographic.  For every key offset `off`, whose stride
`key_size off` takes every width in `1 .. 8`, and every two keys of bytes, the word that the
loop of `judy_slot` and `judy_cell` assembles from the window of the first key at `off`
(bytes past the end of a key read as 0) is at most the word assembled from the window of the
second key if and only if the first window is at most the second in the lexicographic order
of bytes.  And the word assembled, stored into a slot of a node by the `memcpy` of the
insertion and read back by the slot scan, as a word masked with `JudyMask[keysize]`, is the
word that was stored, whatever the memory after the key field holds. -/
theorem stride_compare_lex (off : Nat) (k1 k2 : List Nat) (mem : Nat → Nat) (base slot : Nat)
    (h1 : ∀ b ∈ k1, b < 256) (h2 : ∀ b ∈ k2, b < 256) :
    (∀ s, 1 ≤ s → s ≤ 8 → key_size (8 - s) = s) ∧
    1 ≤ key_size off ∧ key_size off ≤ 8 ∧
    (window k1 k1.length off).length = key_size off ∧
    (window k2 k2.length off).length = key_size off ∧
    ((key_value k1 k1.length 8 0 off).1 ≤ (key_value k2 k2.length 8 0 off).1 ↔
      window k1 k1.length off ≤ window k2 k2.length off) ∧
    (key_value k1 k1.length 8 0 off).1 < 256 ^ key_size off ∧
    key_load (key_store mem base slot (key_size off) (key_value k1 k1.length 8 0 off).1)
      base slot (key_size off) = (key_value k1 k1.length 8 0 off).1 := by
  obtain ⟨w1, b1⟩ := window_bytes k1 h1 off
  obtain ⟨w2, b2⟩ := window_bytes k2 h2 off
  have hlt := pack_lt256 (key_size off) _ b1
  refine ⟨fun s hs1 hs8 => ?_, key_size_pos off, key_size_le off, w1, w2, ?_, ?_, ?_⟩
  · rw [key_size_eq]
    omega
  · rw [key_value_window k1 h1, key_value_window k2 h2, ← not_lt, ← not_lt,
      pack_lt_iff (key_size off) _ _ w2 w1 b2 b1]
  · rw [key_value_window k1 h1]
    exact hlt
  · rw [key_load_store mem base slot _ _ (key_size_pos off) (key_size_le off),
      key_value_window k1 h1, Nat.mod_eq_of_lt hlt]

theorem stride_compare_lex_witness :
    ((∀ b ∈ [97, 98, 0, 99], b < 256) ∧ (∀ b ∈ [97, 98], b < 256)) ∧
    ((∀ s, 1 ≤ s → s ≤ 8 → key_size (8 - s) = s) ∧
      1 ≤ key_size 1 ∧ key_size 1 ≤ 8 ∧
      (window [97, 98, 0, 99] [97, 98, 0, 99].length 1).length = key_size 1 ∧
      (window [97, 98] [97, 98].length 1).length = key_size 1 ∧
      ((key_value [97, 98, 0, 99] [97, 98, 0, 99].length 8 0 1).1 ≤
          (key_value [97, 98] [97, 98].length 8 0 1).1 ↔
        window [97, 98, 0, 99] [97, 98, 0, 99].length 1 ≤ window [97, 98] [97, 98].length 1) ∧
      (key_value [97, 98, 0, 99] [97, 98, 0, 99].length 8 0 1).1 < 256 ^ key_size 1 ∧
      key_load (key_store (fun _ => 255) 4096 3 (key_size 1)
          (key_value [97, 98, 0, 99] [97, 98, 0, 99].length 8 0 1).1) 4096 3 (key_size 1) =
        (key_value [97, 98, 0, 99] [97, 98, 0, 99].length 8 0 1).1) ∧
    (key_size 1 = 7 ∧
      window [97, 98, 0, 99] [97, 98, 0, 99].length 1 = [98, 0, 99, 0, 0, 0, 0] ∧
      window [97, 98] [97, 98].length 1 = [98, 0, 0, 0, 0, 0, 0] ∧
      (key_value [97, 98, 0, 99] [97, 98, 0, 99].length 8 0 1).1 = 98 * 256 ^ 6 + 99 * 256 ^ 4 ∧
      (key_value [97, 98] [97, 98].length 8 0 1).1 = 98 * 256 ^ 6) :=
  ⟨⟨by decide, by decide⟩,
    stride_compare_lex 1 [97, 98, 0, 99] [97, 98] (fun _ => 255) 4096 3 (by decide) (by decide),
    ⟨rfl, rfl, rfl, rfl, rfl⟩⟩


/-! ## The free lists -/

theorem judy_free_eq (a : Arena) (block type : Nat) :
    judy_free a block type =
      Arena.mk (a.reuse.set (classOf type) block) a.seg a.next a.segs
        (wrWord a.mem block (a.reuse.getD (classOf type) 0)) := by
  have hcls : (if (if type = JUDY_radix then JUDY_radix_equiv else type) = JUDY_span
      then JUDY_span_equiv else (if type = JUDY_radix then JUDY_radix_equiv else type)) =
      classOf type := by
    unfold classOf
    by_cases h0 : type = JUDY_radix
    · rw [if_pos h0, if_pos h0]; rfl
    · rw [if_neg h0, if_neg h0]
  unfold judy_free
  simp only [hcls]

theorem wrWord_out (mem : Nat → Nat) (a v x : Nat) (h : x < a ∨ a + 8 ≤ x) :
    wrWord mem a v x = mem x := by
  unfold wrWord
  rw [if_neg (by omega)]

theorem wrWord_zero (mem : Nat → Nat) (a x : Nat) (h1 : a ≤ x) (h2 : x < a + 8) :
    wrWord mem a 0 x = 0 := by
  unfold wrWord
  rw [if_pos ⟨h1, h2⟩]
  simp

theorem memset_out (mem : Nat → Nat) (a c amt x : Nat) (h : x < a ∨ a + amt ≤ x) :
    memset mem a c amt x = mem x := by
  unfold memset
  rw [if_neg (by omega)]

theorem rdWord_zero (mem : Nat → Nat) (a : Nat) (h : ∀ x, a ≤ x → x < a + 8 → mem x = 0) :
    rdWord mem a = 0 := by
  unfold rdWord
  simp only [List.range, List.range.loop, List.foldr]
  rw [h (a + 0) (by omega) (by omega), h (a + 1) (by omega) (by omega),
    h (a + 2) (by omega) (by omega), h (a + 3) (by omega) (by omega),
    h (a + 4) (by omega) (by omega), h (a + 5) (by omega) (by omega),
    h (a + 6) (by omega) (by omega), h (a + 7) (by omega) (by omega)]

theorem set_getD_self (l : List Nat) (i : Nat) (x : Nat) (h : i < l.length) :
    (l.set i x).set i (l.getD i 0) = l := by
  rw [List.set_set]
  apply List.ext_getElem (by simp)
  intro n h1 h2
  by_cases hn : i = n
  · subst hn
    simp [List.getD_eq_getElem?_getD, List.getElem?_eq_getElem h]
  · simp [List.getElem_set_ne hn]

/-- C28: free-list reuse.  In an open array, for every node type `t` (a radix node and a span
node go to the list of their equivalent linear class) and every block `b`, `judy_free (b, t)`
followed at once by `judy_alloc (t)` returns `b`, with all the bytes of a node of type `t`
zero, and leaves the allocator as it was before the `judy_free`: every free list has the head
it had, the segment and its bump offset are the same, and the memory outside the block is
unchanged. -/
theorem judy_free_alloc (a : Arena) (fresh b t : Nat) (hseg : a.seg ≠ 0) (ht : t ≤ 7)
    (hb : b ≠ 0) (hlen : a.reuse.length = 8) (hhead : a.reuse.getD (classOf t) 0 < 2 ^ 64) :
    ∃ a1, judy_alloc (judy_free a b t) fresh t = some (a1, b) ∧
      a1.reuse = a.reuse ∧ a1.seg = a.seg ∧ a1.next = a.next ∧ a1.segs = a.segs ∧
      (∀ x, b ≤ x → x < b + JudySize t → a1.mem x = 0) ∧
      (∀ x, (x < b ∨ b + JudySize t ≤ x) → a1.mem x = a.mem x) := by
  obtain ⟨c1, c6, csize, _, c8⟩ := classOf_spec t ht
  have hc : classOf t < a.reuse.length := by omega
  rw [judy_free_eq, judy_alloc_eq (Arena.mk (a.reuse.set (classOf t) b) a.seg a.next a.segs
    (wrWord a.mem b (a.reuse.getD (classOf t) 0))) fresh t hseg ht]
  simp only
  have hget : (a.reuse.set (classOf t) b).getD (classOf t) 0 = b := getD_set_eq _ _ _ _ hc
  rw [if_pos (by rw [hget]; exact hb), hget, rdWord_wrWord _ _ _ hhead, set_getD_self _ _ _ hc]
  refine ⟨_, rfl, rfl, rfl, rfl, rfl, fun x h1 h2 => memset_zero _ _ _ _ h1 h2,
    fun x hx => ?_⟩
  show memset (wrWord a.mem b (a.reuse.getD (classOf t) 0)) b 0 (JudySize t) x = a.mem x
  rw [memset_out _ _ _ _ _ hx, wrWord_out _ _ _ _ (by omega)]

theorem judy_free_alloc_witness :
    ((Arena.mk [0, 0, 5000, 0, 0, 0, 0, 0] 4096 60000 [] (fun _ => 255)).seg ≠ 0 ∧ 7 ≤ 7 ∧
      7000 ≠ 0 ∧ (Arena.mk [0, 0, 5000, 0, 0, 0, 0, 0] 4096 60000 [] (fun _ => 255)).reuse.length
        = 8 ∧
      (Arena.mk [0, 0, 5000, 0, 0, 0, 0, 0] 4096 60000 [] (fun _ => 255)).reuse.getD
        (classOf 7) 0 < 2 ^ 64) ∧
    (∃ a1, judy_alloc (judy_free (Arena.mk [0, 0, 5000, 0, 0, 0, 0, 0] 4096 60000 []
          (fun _ => 255)) 7000 7) 1 7 = some (a1, 7000) ∧
      a1.reuse = (Arena.mk [0, 0, 5000, 0, 0, 0, 0, 0] 4096 60000 [] (fun _ => 255)).reuse ∧
      a1.seg = (Arena.mk [0, 0, 5000, 0, 0, 0, 0, 0] 4096 60000 [] (fun _ => 255)).seg ∧
      a1.next = (Arena.mk [0, 0, 5000, 0, 0, 0, 0, 0] 4096 60000 [] (fun _ => 255)).next ∧
      a1.segs = (Arena.mk [0, 0, 5000, 0, 0, 0, 0, 0] 4096 60000 [] (fun _ => 255)).segs ∧
      (∀ x, 7000 ≤ x → x < 7000 + JudySize 7 → a1.mem x = 0) ∧
      (∀ x, (x < 7000 ∨ 7000 + JudySize 7 ≤ x) → a1.mem x =
        (Arena.mk [0, 0, 5000, 0, 0, 0, 0, 0] 4096 60000 [] (fun _ => 255)).mem x)) ∧
    ((judy_free (Arena.mk [0, 0, 5000, 0, 0, 0, 0, 0] 4096 60000 [] (fun _ => 255)) 7000
        7).reuse = [0, 0, 7000, 0, 0, 0, 0, 0] ∧
      rdWord (judy_free (Arena.mk [0, 0, 5000, 0, 0, 0, 0, 0] 4096 60000 [] (fun _ => 255))
        7000 7).mem 7000 = 5000) :=
  ⟨⟨by decide, by decide, by decide, rfl, by decide⟩,
    judy_free_alloc (Arena.mk [0, 0, 5000, 0, 0, 0, 0, 0] 4096 60000 [] (fun _ => 255)) 1 7000 7
      (by decide) (by decide) (by decide) rfl (by decide),
    ⟨rfl, rfl⟩⟩

/-- The search of `judy_alloc` finds the smallest class above `idx` whose list is not
empty. -/
theorem alloc_find_spec (reuse : List Nat) (j : Nat) (hj : j ≤ JUDY_max)
    (hne : reuse.getD j 0 ≠ 0) :
    ∀ (n idx : Nat), idx < j → j ≤ idx + n →
      (∀ i, idx < i → i < j → reuse.getD i 0 = 0) → alloc_find reuse n idx = some j := by
  intro n
  induction n with
  | zero => intro idx h1 h2; omega
  | succ n ih =>
    intro idx h1 h2 h0
    rw [alloc_find, if_pos (by omega)]
    by_cases hi : idx + 1 = j
    · rw [hi, if_pos hne]
    · rw [if_neg (by rw [h0 (idx + 1) (by omega) (by omega)]; simp)]
      exact ih (idx + 1) (by omega) (by omega) (fun i h3 h4 => h0 i (by omega) h4)

/-- The carving loop of `judy_alloc`: the classes `c .. idx - 1` get the block at the offset of
their size, with a zero link; nothing else changes. -/
theorem alloc_carve_spec (b c : Nat) :
    ∀ (n idx : Nat) (reuse : List Nat) (mem : Nat → Nat), idx ≤ c + n → idx ≤ reuse.length →
      (alloc_carve b c n idx (reuse, mem)).1.length = reuse.length ∧
      (∀ i, c ≤ i → i < idx →
        (alloc_carve b c n idx (reuse, mem)).1.getD i 0 = b + JudySize i / 8 * 8) ∧
      (∀ i, (i < c ∨ idx ≤ i) →
        (alloc_carve b c n idx (reuse, mem)).1.getD i 0 = reuse.getD i 0) ∧
      (∀ x, (alloc_carve b c n idx (reuse, mem)).2 x = 0 ∨
        (alloc_carve b c n idx (reuse, mem)).2 x = mem x) ∧
      (∀ x, (∀ i, c ≤ i → i < idx →
          (x < b + JudySize i / 8 * 8 ∨ b + JudySize i / 8 * 8 + 8 ≤ x)) →
        (alloc_carve b c n idx (reuse, mem)).2 x = mem x) ∧
      (∀ i, c ≤ i → i < idx → ∀ x, b + JudySize i / 8 * 8 ≤ x →
        x < b + JudySize i / 8 * 8 + 8 → (alloc_carve b c n idx (reuse, mem)).2 x = 0) := by
  intro n
  induction n with
  | zero =>
    intro idx reuse mem h1 _
    refine ⟨rfl, fun i h2 h3 => by omega, fun i _ => rfl, fun x => Or.inr rfl, fun x _ => rfl,
      fun i h2 h3 => by omega⟩
  | succ n ih =>
    intro idx reuse mem h1 h2
    rw [alloc_carve]
    by_cases hgt : idx > c
    · rw [if_pos hgt]
      obtain ⟨r1, r2, r3, r4, r5, r6⟩ := ih (idx - 1)
        (reuse.set (idx - 1) (b + JudySize (idx - 1) / 8 * 8))
        (wrWord mem (b + JudySize (idx - 1) / 8 * 8) 0) (by omega)
        (by rw [List.length_set]; omega)
      refine ⟨by rw [r1, List.length_set], fun i h3 h4 => ?_, fun i h3 => ?_, fun x => ?_,
        fun x hx => ?_, fun i h3 h4 x h5 h6 => ?_⟩
      · by_cases hi : i = idx - 1
        · rw [r3 i (Or.inr (by omega)), hi]
          exact getD_set_eq _ _ _ _ (by omega)
        · exact r2 i h3 (by omega)
      · rw [r3 i (by omega)]
        exact getD_set_ne _ _ _ _ _ (by omega)
      · rcases r4 x with h | h
        · exact Or.inl h
        · rw [h]
          by_cases hx : b + JudySize (idx - 1) / 8 * 8 ≤ x ∧ x < b + JudySize (idx - 1) / 8 * 8 + 8
          · exact Or.inl (wrWord_zero _ _ _ hx.1 hx.2)
          · exact Or.inr (wrWord_out _ _ _ _ (by omega))
      · rw [r5 x (fun i h3 h4 => hx i h3 (by omega))]
        exact wrWord_out _ _ _ _ (hx (idx - 1) (by omega) (by omega))
      · by_cases hi : i = idx - 1
        · subst hi
          rcases r4 x with h | h
          · exact h
          · rw [h]
            exact wrWord_zero _ _ _ h5 h6
        · exact r6 i h3 (by omega) x h5 h6
    · rw [if_neg hgt]
      refine ⟨rfl, fun i h3 h4 => by omega, fun i _ => rfl, fun x => Or.inr rfl,
        fun x _ => rfl, fun i h3 h4 => by omega⟩

theorem JudySize_lin (i : Nat) (h1 : 1 ≤ i) (h6 : i ≤ 6) :
    JudySize i / 8 * 8 = JudySize i ∧ 16 ≤ JudySize i ∧
    (i < 6 → JudySize (i + 1) = JudySize i + JudySize i) := by
  interval_cases i <;> decide

theorem JudySize_mono (i j : Nat) (h1 : 1 ≤ i) (hij : i ≤ j) (h6 : j ≤ 6) :
    JudySize i ≤ JudySize j := by
  interval_cases j <;> interval_cases i <;> decide

theorem JudySize_cover (c : Nat) (hc : 1 ≤ c) : ∀ (j : Nat), c ≤ j → j ≤ 6 →
    ∀ y, JudySize c ≤ y → y < JudySize j →
      ∃ i, c ≤ i ∧ i < j ∧ JudySize i ≤ y ∧ y < JudySize i + JudySize i := by
  intro j hcj
  induction j, hcj using Nat.le_induction with
  | base => intro _ y h1 h2; omega
  | succ j hcj ih =>
    intro h6 y h1 h2
    rw [(JudySize_lin j (by omega) (by omega)).2.2 (by omega)] at h2
    by_cases hy : y < JudySize j
    · obtain ⟨i, i1, i2, i3, i4⟩ := ih (by omega) y h1 hy
      exact ⟨i, i1, by omega, i3, i4⟩
    · exact ⟨j, hcj, by omega, by omega, h2⟩

/-- C29: carving a larger free block.  In an open array, let `judy_alloc` be asked for a
node type `t` of the size class `c` whose free list is empty, and let `j > c` be the
smallest linear class with a free list that is not empty, `b` being its head.  Then
`judy_alloc` returns `b`, zero over the size of the class `c`, and pops it: the head of the
list of class `j` becomes the link of `b`.  The list of each class `i` in `c .. j - 1` becomes
the one block at the byte offset `JudySize[i]` in `b`, with a zero link, and the other lists
keep their heads.  The block returned, of `JudySize[c]` bytes, and the carved blocks, of
`JudySize[i]` bytes each, are pairwise disjoint and cover exactly the `JudySize[j]` bytes of
`b`; the memory outside `b` is unchanged, so no block of a free list is lost. -/
theorem judy_alloc_carves (a : Arena) (fresh t j b : Nat) (hseg : a.seg ≠ 0) (ht : t ≤ 7)
    (hj1 : classOf t < j) (hj6 : j ≤ 6) (hlen : a.reuse.length = 8)
    (hempty : ∀ i, classOf t ≤ i → i < j → a.reuse.getD i 0 = 0)
    (hbj : a.reuse.getD j 0 = b) (hb : b ≠ 0) :
    ∃ a1, judy_alloc a fresh t = some (a1, b) ∧
      a1.reuse.length = 8 ∧ a1.reuse.getD j 0 = rdWord a.mem b ∧
      (∀ i, classOf t ≤ i → i < j →
        a1.reuse.getD i 0 = b + JudySize i ∧ rdWord a1.mem (b + JudySize i) = 0) ∧
      (∀ i, (i < classOf t ∨ j < i) → a1.reuse.getD i 0 = a.reuse.getD i 0) ∧
      (∀ x, b ≤ x → x < b + JudySize t → a1.mem x = 0) ∧
      (∀ x, (x < b ∨ b + JudySize j ≤ x) → a1.mem x = a.mem x) ∧
      JudySize (classOf t) = JudySize t ∧
      (∀ x, b ≤ x → x < b + JudySize j → x < b + JudySize t ∨
        ∃ i, classOf t ≤ i ∧ i < j ∧ b + JudySize i ≤ x ∧ x < b + JudySize i + JudySize i) ∧
      (∀ i, classOf t ≤ i → i < j →
        b + JudySize t ≤ b + JudySize i ∧ b + JudySize i + JudySize i ≤ b + JudySize j ∧
        ∀ i1, i < i1 → i1 < j → b + JudySize i + JudySize i ≤ b + JudySize i1) := by
  obtain ⟨c1, c6, csize, _, c8⟩ := classOf_spec t ht
  have hfind := alloc_find_spec a.reuse j hj6 (by rw [hbj]; exact hb) JUDY_max (classOf t) hj1
    (by simp only [JUDY_max, JUDY_32]; omega) (fun i h1 h2 => hempty i (by omega) h2)
  obtain ⟨r1, r2, r3, r4, r5, r6⟩ := alloc_carve_spec b (classOf t) JUDY_max j
    (a.reuse.set j (rdWord a.mem b)) a.mem (by simp only [JUDY_max, JUDY_32]; omega)
    (by rw [List.length_set]; omega)
  have hJ : ∀ i, classOf t ≤ i → i < j → JudySize i / 8 * 8 = JudySize i := fun i h1 h2 =>
    (JudySize_lin i (by omega) (by omega)).1
  have hdbl : ∀ i, classOf t ≤ i → i < j → JudySize i + JudySize i = JudySize (i + 1) :=
    fun i h1 h2 => ((JudySize_lin i (by omega) (by omega)).2.2 (by omega)).symm
  rw [judy_alloc_eq a fresh t hseg ht, if_neg (by rw [hempty _ (le_refl _) hj1]; simp), hfind]
  simp only [hbj]
  refine ⟨_, rfl, by rw [r1, List.length_set]; exact hlen, ?_, fun i h1 h2 => ⟨?_, ?_⟩,
    fun i hi => ?_, fun x h1 h2 => memset_zero _ _ _ _ h1 h2, fun x hx => ?_, csize,
    fun x h1 h2 => ?_, fun i h1 h2 => ⟨?_, ?_, fun i1 h3 h4 => ?_⟩⟩
  · show (alloc_carve b (classOf t) JUDY_max j (a.reuse.set j (rdWord a.mem b), a.mem)).1.getD
      j 0 = _
    rw [r3 j (Or.inr (le_refl _))]
    exact getD_set_eq _ _ _ _ (by omega)
  · show (alloc_carve b (classOf t) JUDY_max j (a.reuse.set j (rdWord a.mem b), a.mem)).1.getD
      i 0 = _
    rw [r2 i h1 h2, hJ i h1 h2]
  · apply rdWord_zero
    intro x h3 h4
    show memset _ b 0 (JudySize t) x = 0
    have := JudySize_mono (classOf t) i c1 h1 (by omega)
    rw [memset_out _ _ _ _ _ (by omega)]
    exact r6 i h1 h2 x (by rw [hJ i h1 h2]; exact h3) (by rw [hJ i h1 h2]; exact h4)
  · show (alloc_carve b (classOf t) JUDY_max j (a.reuse.set j (rdWord a.mem b), a.mem)).1.getD
      i 0 = _
    rcases hi with hi | hi
    · rw [r3 i (Or.inl hi)]
      exact getD_set_ne _ _ _ _ _ (by omega)
    · rw [r3 i (Or.inr (by omega))]
      exact getD_set_ne _ _ _ _ _ (by omega)
  · show memset _ b 0 (JudySize t) x = a.mem x
    have hm := JudySize_mono (classOf t) j c1 (by omega) hj6
    rw [memset_out _ _ _ _ _ (by omega)]
    apply r5
    intro i h1 h2
    rw [hJ i h1 h2]
    have := JudySize_mono (i + 1) j (by omega) (by omega) hj6
    have := hdbl i h1 h2
    have := (JudySize_lin i (by omega) (by omega)).2.1
    omega
  · by_cases hx : x < b + JudySize t
    · exact Or.inl hx
    · obtain ⟨i, i1, i2, i3, i4⟩ := JudySize_cover (classOf t) c1 j (by omega) hj6 (x - b)
        (by omega) (by omega)
      exact Or.inr ⟨i, i1, i2, by omega, by omega⟩
  · have := JudySize_mono (classOf t) i c1 h1 (by omega)
    omega
  · have := JudySize_mono (i + 1) j (by omega) (by omega) hj6
    have := hdbl i h1 h2
    omega
  · have := JudySize_mono (i + 1) i1 (by omega) (by omega) (by omega)
    have := hdbl i h1 h2
    omega

theorem judy_alloc_carves_witness :
    ((Arena.mk [0, 0, 0, 0, 0, 9512, 0, 0] 4096 60000 [] (fun _ => 255)).seg ≠ 0 ∧ 7 ≤ 7 ∧
      classOf 7 < 5 ∧ 5 ≤ 6 ∧
      (Arena.mk [0, 0, 0, 0, 0, 9512, 0, 0] 4096 60000 [] (fun _ => 255)).reuse.length = 8 ∧
      (Arena.mk [0, 0, 0, 0, 0, 9512, 0, 0] 4096 60000 [] (fun _ => 255)).reuse.getD 5 0 =
        9512 ∧ (9512 : Nat) ≠ 0) ∧
    (∃ a1, judy_alloc (Arena.mk [0, 0, 0, 0, 0, 9512, 0, 0] 4096 60000 []
        (fun _ => 255)) 1 7 = some (a1, 9512) ∧
      a1.reuse.length = 8 ∧
      a1.reuse.getD 5 0 = rdWord (Arena.mk [0, 0, 0, 0, 0, 9512, 0, 0] 4096 60000 []
        (fun _ => 255)).mem 9512 ∧
      (∀ i, classOf 7 ≤ i → i < 5 →
        a1.reuse.getD i 0 = 9512 + JudySize i ∧ rdWord a1.mem (9512 + JudySize i) = 0) ∧
      (∀ i, (i < classOf 7 ∨ 5 < i) → a1.reuse.getD i 0 =
        (Arena.mk [0, 0, 0, 0, 0, 9512, 0, 0] 4096 60000 [] (fun _ => 255)).reuse.getD i 0) ∧
      (∀ x, 9512 ≤ x → x < 9512 + JudySize 7 → a1.mem x = 0) ∧
      (∀ x, (x < 9512 ∨ 9512 + JudySize 5 ≤ x) → a1.mem x =
        (Arena.mk [0, 0, 0, 0, 0, 9512, 0, 0] 4096 60000 [] (fun _ => 255)).mem x) ∧
      JudySize (classOf 7) = JudySize 7 ∧
      (∀ x, 9512 ≤ x → x < 9512 + JudySize 5 → x < 9512 + JudySize 7 ∨
        ∃ i, classOf 7 ≤ i ∧ i < 5 ∧ 9512 + JudySize i ≤ x ∧
          x < 9512 + JudySize i + JudySize i) ∧
      (∀ i, classOf 7 ≤ i → i < 5 →
        9512 + JudySize 7 ≤ 9512 + JudySize i ∧
        9512 + JudySize i + JudySize i ≤ 9512 + JudySize 5 ∧
        ∀ i1, i < i1 → i1 < 5 → 9512 + JudySize i + JudySize i ≤ 9512 + JudySize i1)) ∧
    (∃ a1, judy_alloc (Arena.mk [0, 0, 0, 0, 0, 9512, 0, 0] 4096 60000 []
        (fun _ => 255)) 1 7 = some (a1, 9512) ∧
      a1.reuse = [0, 0, 9512 + 32, 9512 + 64, 9512 + 128, 72340172838076673 * 255, 0, 0]) :=
  ⟨⟨by decide, by decide, by decide, by decide, rfl, rfl, by decide⟩,
    judy_alloc_carves (Arena.mk [0, 0, 0, 0, 0, 9512, 0, 0] 4096 60000 [] (fun _ => 255)) 1 7 5
      9512 (by decide) (by decide) (by decide) (by decide) rfl
      (fun i h1 h2 => by
        have h3 : classOf 7 = 2 := rfl
        rw [h3] at h1
        interval_cases i <;> rfl) rfl (by decide),
    ⟨_, rfl, rfl⟩⟩


/-! ## The alignment of the blocks -/

theorem rdWord_congr (m1 m2 : Nat → Nat) (a : Nat) (h : ∀ x, a ≤ x → x < a + 8 → m1 x = m2 x) :
    rdWord m1 a = rdWord m2 a := by
  unfold rdWord
  simp only [List.range, List.range.loop, List.foldr]
  rw [h (a + 0) (by omega) (by omega), h (a + 1) (by omega) (by omega),
    h (a + 2) (by omega) (by omega), h (a + 3) (by omega) (by omega),
    h (a + 4) (by omega) (by omega), h (a + 5) (by omega) (by omega),
    h (a + 6) (by omega) (by omega), h (a + 7) (by omega) (by omega)]

theorem rdWord_lt (mem : Nat → Nat) (a : Nat) : rdWord mem a < 2 ^ 64 := by
  unfold rdWord
  simp only [List.range, List.range.loop, List.foldr]
  omega

/-- A word at an aligned address after an aligned `memset` to zero: it is zero or it is
unchanged. -/
theorem rdWord_memset (mem : Nat → Nat) (blk amt x : Nat) (hx : x % 8 = 0) (hb : blk % 8 = 0)
    (ha : amt % 8 = 0) :
    rdWord (memset mem blk 0 amt) x = 0 ∨ rdWord (memset mem blk 0 amt) x = rdWord mem x := by
  by_cases h : blk ≤ x ∧ x < blk + amt
  · left
    apply rdWord_zero
    intro y h1 h2
    exact memset_zero _ _ _ _ (by omega) (by omega)
  · right
    apply rdWord_congr
    intro y h1 h2
    exact memset_out _ _ _ _ _ (by omega)

theorem rdWord_wrWord_ne (mem : Nat → Nat) (a v x : Nat) (hx : x % 8 = 0) (ha : a % 8 = 0)
    (hne : x ≠ a) : rdWord (wrWord mem a v) x = rdWord mem x := by
  apply rdWord_congr
  intro y h1 h2
  exact wrWord_out _ _ _ _ (by omega)

theorem rdWord_wrWord_mod (mem : Nat → Nat) (a v : Nat) :
    rdWord (wrWord mem a v) a = v % 2 ^ 64 := by
  simp only [rdWord, wrWord, List.range, List.range.loop, List.foldr]
  simp
  omega

theorem round8 (amt : Nat) :
    (if amt &&& (JUDY_cache_line - 1) ≠ 0 then ((amt ||| (JUDY_cache_line - 1)) + 1) % 2 ^ 32
      else amt) % 8 = 0 := by
  have h7 : JUDY_cache_line - 1 = 7 := rfl
  rw [h7, and7]
  split
  · rw [or7, key_size_eq]
    omega
  · omega

theorem getD_set_cases (l : List Nat) (i j x : Nat) :
    (l.set i x).getD j 0 = x ∧ i = j ∨ (l.set i x).getD j 0 = l.getD j 0 := by
  by_cases hij : i = j
  · subst hij
    by_cases hi : i < l.length
    · left
      simp [List.getD_eq_getElem?_getD, List.getElem?_set, hi]
    · right
      rw [List.set_eq_of_length_le (by omega)]
  · right
    simp [List.getD_eq_getElem?_getD, List.getElem?_set, hij]

theorem JudySize_align (type : Nat) (h7 : type ≤ 7) :
    JudySize type % 8 = 0 ∧ JudySize type ≤ 512 ∧ 8 ≤ JudySize type ∧
    JudySize type / 8 * 8 = JudySize type := by
  interval_cases type <;> decide

theorem alloc_find_some (reuse : List Nat) :
    ∀ (n idx j : Nat), alloc_find reuse n idx = some j →
      idx < j ∧ j ≤ JUDY_max ∧ reuse.getD j 0 ≠ 0 := by
  intro n
  induction n with
  | zero => intro idx j h; simp [alloc_find] at h
  | succ n ih =>
    intro idx j h
    rw [alloc_find] at h
    split at h
    · split at h
      · injection h with h
        subst h
        exact ⟨by omega, by omega, by assumption⟩
      · have := ih _ _ h
        exact ⟨by omega, this.2⟩
    · cases h

theorem AlignOK_mono (B B1 : Nat) (a : Arena) (h : AlignOK B a) (hB : B ≤ B1) :
    AlignOK B1 a := by
  obtain ⟨h1, h2, h3, h4, h5, h6, V, hV, hh, hc⟩ := h
  exact ⟨h1, h2, h3, h4, h5, by omega, V, fun x hx => ⟨(hV x hx).1, by have := (hV x hx).2; omega⟩,
    hh, hc⟩

/-- The function `judy_alloc` keeps the invariant and returns a multiple of 8. -/
theorem alloc_align (B : Nat) (a : Arena) (fresh type : Nat) (hok : AlignOK B a)
    (h7 : type ≤ 7) (hf : fresh ≠ 0) (hfb : fresh < 2 ^ 63) :
    ∃ a1 b, judy_alloc a fresh type = some (a1, b) ∧ AlignOK (B + 256) a1 ∧
      b % 8 = 0 ∧ b ≤ B := by
  obtain ⟨hseg, hlen, htop, hsb, hnb, hB, V, hV, hh, hc⟩ := hok
  obtain ⟨c1, c6, csize, -, -⟩ := classOf_spec type h7
  obtain ⟨j8, j512, j8le, -⟩ := JudySize_align type h7
  rw [judy_alloc_eq a fresh type hseg h7]
  by_cases hr : a.reuse.getD (classOf type) 0 ≠ 0
  · rw [if_pos hr]
    have hb : V (a.reuse.getD (classOf type) 0) := (hh _).resolve_left hr
    refine ⟨_, _, rfl, ⟨hseg, ?_, htop, hsb, hnb, by omega, V,
      fun x hx => ⟨(hV x hx).1, by have := (hV x hx).2; omega⟩, ?_, ?_⟩, (hV _ hb).1, (hV _ hb).2⟩
    · simp [hlen]
    · intro i
      rcases getD_set_cases a.reuse (classOf type)  i
        (rdWord a.mem (a.reuse.getD (classOf type) 0)) with h | h
      · show (a.reuse.set _ _).getD i 0 = 0 ∨ V ((a.reuse.set _ _).getD i 0)
        rw [h.1]
        exact hc _ hb
      · show (a.reuse.set _ _).getD i 0 = 0 ∨ V ((a.reuse.set _ _).getD i 0)
        rw [h]
        exact hh i
    · intro x hx
      show rdWord (memset _ _ _ _) x = 0 ∨ V (rdWord (memset _ _ _ _) x)
      rcases rdWord_memset a.mem (a.reuse.getD (classOf type) 0) (JudySize type) x
        (hV x hx).1 (hV _ hb).1 j8 with h | h
      · exact Or.inl h
      · rw [h]
        exact hc x hx
  · rw [if_neg hr]
    cases hfind : alloc_find a.reuse JUDY_max (classOf type) with
    | some j =>
      obtain ⟨hj1, hj6, hjne⟩ := alloc_find_some _ _ _ _ hfind
      have hj6 : j ≤ 6 := hj6
      have hb : V (a.reuse.getD j 0) := (hh _).resolve_left hjne
      obtain ⟨r1, r2, r3, -, r5, r6⟩ := alloc_carve_spec (a.reuse.getD j 0) (classOf type)
        JUDY_max j (a.reuse.set j (rdWord a.mem (a.reuse.getD j 0))) a.mem
        (show j ≤ classOf type + 6 by omega) (by simp [hlen]; omega)
      refine ⟨_, _, rfl, ⟨hseg, ?_, htop, hsb, hnb, by omega,
        fun x => V x ∨ ∃ i, classOf type ≤ i ∧ i < j ∧ x = a.reuse.getD j 0 + JudySize i / 8 * 8,
        ?_, ?_, ?_⟩, (hV _ hb).1, (hV _ hb).2⟩
      · show (alloc_carve _ _ _ _ _).1.length = 8
        rw [r1]
        simp [hlen]
      · intro x hx
        rcases hx with hx | ⟨i, hi1, hi2, rfl⟩
        · exact ⟨(hV x hx).1, by have := (hV x hx).2; omega⟩
        · obtain ⟨e1, e2, -, e4⟩ := JudySize_align i (by omega)
          have hi5 : JudySize i ≤ 256 := by
            have hi : i ≤ 5 := by omega
            interval_cases i <;> decide
          have := hV _ hb
          exact ⟨by omega, by omega⟩
      · intro i
        show (alloc_carve _ _ _ _ _).1.getD i 0 = 0 ∨
          (V ((alloc_carve _ _ _ _ _).1.getD i 0) ∨ ∃ i1, classOf type ≤ i1 ∧ i1 < j ∧
            (alloc_carve _ _ _ _ _).1.getD i 0 = a.reuse.getD j 0 + JudySize i1 / 8 * 8)
        by_cases hi : classOf type ≤ i ∧ i < j
        · rw [r2 i hi.1 hi.2]
          exact Or.inr (Or.inr ⟨i, hi.1, hi.2, rfl⟩)
        · rw [r3 i (by omega)]
          rcases getD_set_cases a.reuse j i (rdWord a.mem (a.reuse.getD j 0)) with h | h
          · rw [h.1]
            rcases hc _ hb with h0 | h0
            · exact Or.inl h0
            · exact Or.inr (Or.inl h0)
          · rw [h]
            rcases hh i with h0 | h0
            · exact Or.inl h0
            · exact Or.inr (Or.inl h0)
      · intro x hx
        have hx8 : x % 8 = 0 := by
          rcases hx with hx | ⟨i, hi1, hi2, rfl⟩
          · exact (hV x hx).1
          · have := (hV _ hb).1
            omega
        show rdWord (memset _ _ _ _) x = 0 ∨
          (V (rdWord (memset _ _ _ _) x) ∨ ∃ i1, classOf type ≤ i1 ∧ i1 < j ∧
            rdWord (memset _ _ _ _) x = a.reuse.getD j 0 + JudySize i1 / 8 * 8)
        rcases rdWord_memset (alloc_carve (a.reuse.getD j 0) (classOf type) JUDY_max j
            (a.reuse.set j (rdWord a.mem (a.reuse.getD j 0)), a.mem)).2
          (a.reuse.getD j 0) (JudySize type) x hx8 (hV _ hb).1 j8 with h | h
        · exact Or.inl h
        · rw [h]
          by_cases hnew : ∃ i, classOf type ≤ i ∧ i < j ∧
              x = a.reuse.getD j 0 + JudySize i / 8 * 8
          · obtain ⟨i, hi1, hi2, rfl⟩ := hnew
            left
            apply rdWord_zero
            intro y hy1 hy2
            exact r6 i hi1 hi2 y hy1 hy2
          · have hxV : V x := hx.resolve_right hnew
            have hsame : rdWord (alloc_carve (a.reuse.getD j 0) (classOf type) JUDY_max j
                (a.reuse.set j (rdWord a.mem (a.reuse.getD j 0)), a.mem)).2 x =
                rdWord a.mem x := by
              apply rdWord_congr
              intro y hy1 hy2
              apply r5
              intro i hi1 hi2
              have hne : x ≠ a.reuse.getD j 0 + JudySize i / 8 * 8 :=
                fun e => hnew ⟨i, hi1, hi2, e⟩
              have := (hV _ hb).1
              omega
            rw [hsame]
            rcases hc x hxV with h0 | h0
            · exact Or.inl h0
            · exact Or.inr (Or.inl h0)
    | none =>
      simp only []
      have h7c : JUDY_cache_line - 1 = 7 := rfl
      by_cases hn : a.next < JudySize type + 16
      · rw [if_pos hn, if_pos hf]
        have hm : fresh &&& 7 = fresh % 8 := and7 fresh
        refine ⟨_, _, rfl, ⟨hf, hlen, ?_, hfb, ?_, by omega, V,
          fun x hx => ⟨(hV x hx).1, by have := (hV x hx).2; omega⟩, hh, ?_⟩, ?_, ?_⟩
        · show (fresh + (JUDY_seg - (fresh &&& (JUDY_cache_line - 1)) - JudySize type)) % 8 = 0
          rw [h7c, hm]
          simp only [JUDY_seg]
          omega
        · show JUDY_seg - (fresh &&& (JUDY_cache_line - 1)) - JudySize type < 2 ^ 32
          simp only [JUDY_seg]
          omega
        · intro x hx
          show rdWord (memset _ _ _ _) x = 0 ∨ V (rdWord (memset _ _ _ _) x)
          rcases rdWord_memset a.mem
            (fresh + (JUDY_seg - (fresh &&& (JUDY_cache_line - 1))) - JudySize type)
            (JudySize type) x (hV x hx).1
            (by rw [h7c, hm]; simp only [JUDY_seg]; omega) j8 with h | h
          · exact Or.inl h
          · rw [h]
            exact hc x hx
        · rw [h7c, hm]
          simp only [JUDY_seg]
          omega
        · rw [h7c, hm]
          simp only [JUDY_seg]
          omega
      · rw [if_neg hn]
        refine ⟨_, _, rfl, ⟨hseg, hlen, ?_, hsb, ?_, by omega, V,
          fun x hx => ⟨(hV x hx).1, by have := (hV x hx).2; omega⟩, hh, ?_⟩, ?_, ?_⟩
        · show (a.seg + (a.next - JudySize type)) % 8 = 0
          omega
        · show a.next - JudySize type < 2 ^ 32
          omega
        · intro x hx
          show rdWord (memset _ _ _ _) x = 0 ∨ V (rdWord (memset _ _ _ _) x)
          rcases rdWord_memset a.mem (a.seg + a.next - JudySize type)
            (JudySize type) x (hV x hx).1 (by omega) j8 with h | h
          · exact Or.inl h
          · rw [h]
            exact hc x hx
        · omega
        · omega

/-- The function `judy_data` keeps the invariant and returns a multiple of 8. -/
theorem data_align (B : Nat) (a : Arena) (fresh amt : Nat) (hok : AlignOK B a)
    (hf : fresh ≠ 0) (hfb : fresh < 2 ^ 63) :
    ∃ a1 b, judy_data a fresh amt = some (a1, b) ∧ AlignOK B a1 ∧ b % 8 = 0 ∧ b ≤ B := by
  obtain ⟨hseg, hlen, htop, hsb, hnb, hB, V, hV, hh, hc⟩ := hok
  unfold judy_data
  rw [if_neg hseg]
  dsimp only
  have hr8 := round8 (amt % 2 ^ 32)
  have hr32 : (if amt % 2 ^ 32 &&& (JUDY_cache_line - 1) ≠ 0 then
      ((amt % 2 ^ 32 ||| (JUDY_cache_line - 1)) + 1) % 2 ^ 32 else amt % 2 ^ 32) < 2 ^ 32 := by
    split
    · exact Nat.mod_lt _ (by norm_num)
    · exact Nat.mod_lt _ (by norm_num)
  generalize (if amt % 2 ^ 32 &&& (JUDY_cache_line - 1) ≠ 0 then
      ((amt % 2 ^ 32 ||| (JUDY_cache_line - 1)) + 1) % 2 ^ 32 else amt % 2 ^ 32) = amt1
    at hr8 hr32
  have h7c : JUDY_cache_line - 1 = 7 := rfl
  have hm : fresh &&& 7 = fresh % 8 := and7 fresh
  by_cases hn : a.next < amt1 + 16
  · simp only [if_pos hn, if_pos hf]
    refine ⟨_, _, rfl, ⟨hf, hlen, ?_, hfb, ?_, hB, V, hV, hh, ?_⟩, ?_, ?_⟩
    · show (fresh + (JUDY_seg - (fresh &&& (JUDY_cache_line - 1)) + 2 ^ 32 - amt1) % 2 ^ 32) % 8
        = 0
      rw [h7c, hm]
      simp only [JUDY_seg]
      omega
    · exact Nat.mod_lt _ (by norm_num)
    · intro x hx
      show rdWord (memset _ _ _ _) x = 0 ∨ V (rdWord (memset _ _ _ _) x)
      rcases rdWord_memset a.mem
        (fresh + (JUDY_seg - (fresh &&& (JUDY_cache_line - 1)) + 2 ^ 32 - amt1) % 2 ^ 32)
        amt1 x (hV x hx).1
        (by rw [h7c, hm]; simp only [JUDY_seg]; omega) hr8 with h | h
      · exact Or.inl h
      · rw [h]
        exact hc x hx
    · rw [h7c, hm]
      simp only [JUDY_seg]
      omega
    · rw [h7c, hm]
      simp only [JUDY_seg]
      omega
  · simp only [if_neg hn]
    refine ⟨_, _, rfl, ⟨hseg, hlen, ?_, hsb, ?_, hB, V, hV, hh, ?_⟩, ?_, ?_⟩
    · show (a.seg + (a.next + 2 ^ 32 - amt1) % 2 ^ 32) % 8 = 0
      omega
    · exact Nat.mod_lt _ (by norm_num)
    · intro x hx
      show rdWord (memset _ _ _ _) x = 0 ∨ V (rdWord (memset _ _ _ _) x)
      rcases rdWord_memset a.mem (a.seg + (a.next + 2 ^ 32 - amt1) % 2 ^ 32)
        amt1 x (hV x hx).1 (by omega) hr8 with h | h
      · exact Or.inl h
      · rw [h]
        exact hc x hx
    · omega
    · omega

/-- The function `judy_free` of a multiple of 8 keeps the invariant. -/
theorem free_align (B : Nat) (a : Arena) (b type : Nat) (hok : AlignOK B a)
    (hb : b % 8 = 0) (hbB : b ≤ B) (hB64 : B < 2 ^ 64) : AlignOK B (judy_free a b type) := by
  obtain ⟨hseg, hlen, htop, hsb, hnb, hB, V, hV, hh, hc⟩ := hok
  rw [judy_free_eq]
  refine ⟨hseg, by simp [hlen], htop, hsb, hnb, hB, fun x => V x ∨ x = b, ?_, ?_, ?_⟩
  · intro x hx
    rcases hx with hx | rfl
    · exact hV x hx
    · exact ⟨hb, hbB⟩
  · intro i
    show (a.reuse.set _ _).getD i 0 = 0 ∨ (V ((a.reuse.set _ _).getD i 0) ∨
      (a.reuse.set _ _).getD i 0 = b)
    rcases getD_set_cases a.reuse (classOf type) i b with h | h
    · exact Or.inr (Or.inr h.1)
    · rw [h]
      rcases hh i with h0 | h0
      · exact Or.inl h0
      · exact Or.inr (Or.inl h0)
  · intro x hx
    show rdWord (wrWord _ _ _) x = 0 ∨ (V (rdWord (wrWord _ _ _) x) ∨
      rdWord (wrWord _ _ _) x = b)
    by_cases hxb : x = b
    · subst hxb
      rw [rdWord_wrWord_mod]
      rcases hh (classOf type) with h0 | h0
      · left
        rw [h0]
        exact Nat.zero_mod _
      · have := (hV _ h0).2
        rw [Nat.mod_eq_of_lt (by omega)]
        exact Or.inr (Or.inl h0)
    · have hxV : V x := hx.resolve_right hxb
      rw [rdWord_wrWord_ne _ _ _ _ (hV x hxV).1 hb hxb]
      rcases hc x hxV with h0 | h0
      · exact Or.inl h0
      · exact Or.inr (Or.inl h0)

/-- The function `judy_open` sets up the invariant and returns a multiple of 8. -/
theorem open_align (max fresh : Nat) (mem : Nat → Nat) (hf : fresh ≠ 0)
    (hfb : fresh < 2 ^ 63) :
    ∃ a0 judy, judy_open_arena max fresh mem = some (a0, judy) ∧
      AlignOK (2 ^ 63 + 2 ^ 32) a0 ∧ judy % 8 = 0 ∧ judy = a0.seg + a0.next := by
  unfold judy_open_arena
  rw [if_neg hf]
  dsimp only
  have hr8 := round8 ((104 + (max + 1) % 2 ^ 32 * 16) % 2 ^ 32)
  have hr32 : (if (104 + (max + 1) % 2 ^ 32 * 16) % 2 ^ 32 &&& (JUDY_cache_line - 1) ≠ 0 then
      (((104 + (max + 1) % 2 ^ 32 * 16) % 2 ^ 32 ||| (JUDY_cache_line - 1)) + 1) % 2 ^ 32
      else (104 + (max + 1) % 2 ^ 32 * 16) % 2 ^ 32) < 2 ^ 32 := by
    split
    · exact Nat.mod_lt _ (by norm_num)
    · exact Nat.mod_lt _ (by norm_num)
  generalize (if (104 + (max + 1) % 2 ^ 32 * 16) % 2 ^ 32 &&& (JUDY_cache_line - 1) ≠ 0 then
      (((104 + (max + 1) % 2 ^ 32 * 16) % 2 ^ 32 ||| (JUDY_cache_line - 1)) + 1) % 2 ^ 32
      else (104 + (max + 1) % 2 ^ 32 * 16) % 2 ^ 32) = amt1 at hr8 hr32
  have h7c : JUDY_cache_line - 1 = 7 := rfl
  have hm : fresh &&& 7 = fresh % 8 := and7 fresh
  refine ⟨_, _, rfl, ⟨hf, by simp, ?_, hfb, Nat.mod_lt _ (by norm_num), le_refl _,
    fun _ => False, fun x hx => hx.elim, ?_, fun x hx => hx.elim⟩, ?_, rfl⟩
  · show (fresh + (JUDY_seg - (fresh &&& (JUDY_cache_line - 1)) + 2 ^ 32 - amt1) % 2 ^ 32) % 8
      = 0
    rw [h7c, hm]
    simp only [JUDY_seg]
    omega
  · intro i
    left
    show (List.replicate 8 0).getD i 0 = 0
    by_cases hi : i < 8
    · interval_cases i <;> rfl
    · rw [List.getD_eq_default _ _ (by simp; omega)]
  · rw [h7c, hm]
    simp only [JUDY_seg]
    omega

/-- Any sequence of calls keeps the invariant, and every block it returns is a multiple
of 8. -/
theorem calls_align : ∀ (calls : List ArenaCall) (B : Nat) (a : Arena) (blocks : List Nat),
    AlignOK B a → (∀ x ∈ blocks, x % 8 = 0 ∧ x ≤ B) → CallsOK blocks.length calls →
    B + 256 * calls.length < 2 ^ 64 →
    ∃ a1 blocks1, judy_calls calls (a, blocks) = some (a1, blocks1) ∧
      AlignOK (B + 256 * calls.length) a1 ∧
      blocks1.length = blocks.length + (calls.filter (fun c => match c with
        | .free _ _ => false | _ => true)).length ∧
      ∀ x ∈ blocks1, x % 8 = 0 ∧ x < 2 ^ 64 := by
  intro calls
  induction calls with
  | nil =>
    intro B a blocks hok hbl _ hB
    exact ⟨a, blocks, rfl, hok, rfl, fun x hx => ⟨(hbl x hx).1, by
      have := (hbl x hx).2
      simp only [List.length_nil] at hB
      omega⟩⟩
  | cons c rest ih =>
    intro B a blocks hok hbl hcalls hB
    simp only [List.length_cons] at hB
    cases c with
    | alloc type fresh =>
      obtain ⟨⟨h7, hf, hfb⟩, hrest⟩ := hcalls
      obtain ⟨a1, b, hal, hok1, hb8, hbB⟩ := alloc_align B a fresh type hok h7 hf hfb
      obtain ⟨a2, blocks2, hc2, hok2, hlen2, hbl2⟩ := ih (B + 256) a1 (blocks ++ [b]) hok1
        (by
          intro x hx
          rcases List.mem_append.mp hx with hx | hx
          · exact ⟨(hbl x hx).1, by have := (hbl x hx).2; omega⟩
          · rw [List.mem_singleton.mp hx]
            exact ⟨hb8, by omega⟩)
        (by simpa using hrest) (by omega)
      refine ⟨a2, blocks2, ?_, ?_, ?_, hbl2⟩
      · rw [judy_calls, hal]
        exact hc2
      · rw [List.length_cons, show B + 256 * (rest.length + 1) = B + 256 + 256 * rest.length
          by omega]
        exact hok2
      · rw [hlen2]
        simp [List.filter]
        omega
    | data amt fresh =>
      obtain ⟨⟨hf, hfb⟩, hrest⟩ := hcalls
      obtain ⟨a1, b, hal, hok1, hb8, hbB⟩ := data_align B a fresh amt hok hf hfb
      obtain ⟨a2, blocks2, hc2, hok2, hlen2, hbl2⟩ := ih (B + 256) a1 (blocks ++ [b])
        (AlignOK_mono _ _ _ hok1 (by omega))
        (by
          intro x hx
          rcases List.mem_append.mp hx with hx | hx
          · exact ⟨(hbl x hx).1, by have := (hbl x hx).2; omega⟩
          · rw [List.mem_singleton.mp hx]
            exact ⟨hb8, by omega⟩)
        (by simpa using hrest) (by omega)
      refine ⟨a2, blocks2, ?_, ?_, ?_, hbl2⟩
      · rw [judy_calls, hal]
        exact hc2
      · rw [List.length_cons, show B + 256 * (rest.length + 1) = B + 256 + 256 * rest.length
          by omega]
        exact hok2
      · rw [hlen2]
        simp [List.filter]
        omega
    | free i type =>
      obtain ⟨⟨hi, h7⟩, hrest⟩ := hcalls
      have hmem : blocks.getD i 0 ∈ blocks := by
        rw [List.getD_eq_getElem _ _ hi]
        exact List.getElem_mem _
      have hok1 := free_align B a (blocks.getD i 0) type hok (hbl _ hmem).1 (hbl _ hmem).2
        (by omega)
      obtain ⟨a2, blocks2, hc2, hok2, hlen2, hbl2⟩ := ih (B + 256) (judy_free a (blocks.getD i 0)
        type) blocks (AlignOK_mono _ _ _ hok1 (by omega))
        (fun x hx => ⟨(hbl x hx).1, by have := (hbl x hx).2; omega⟩) hrest (by omega)
      refine ⟨a2, blocks2, ?_, ?_, ?_, hbl2⟩
      · rw [judy_calls, if_pos hi]
        exact hc2
      · rw [List.length_cons, show B + 256 * (rest.length + 1) = B + 256 + 256 * rest.length
          by omega]
        exact hok2
      · rw [hlen2]
        simp [List.filter]

/-- A tag in the low three bits of an aligned address: both are read back. -/
theorem tag_bits (x g : Nat) (hx : x % 8 = 0) (hx64 : x < 2 ^ 64) (hg : g < 8) :
    (x ||| g) &&& JUDY_mask = x ∧ (x ||| g) &&& 7 = g := by
  have hxq : x = 2 ^ 3 * (x / 8) := by omega
  have hor : x ||| g = x + g := by
    rw [hxq]
    exact (Nat.mul_add_lt_is_or (show g < 2 ^ 3 by omega) (x / 8)).symm
  refine ⟨?_, ?_⟩
  · apply Nat.eq_of_testBit_eq
    intro i
    rw [Nat.testBit_and, Nat.testBit_or]
    have hmask : JUDY_mask = 2 ^ 3 * (2 ^ 61 - 1) := by norm_num [JUDY_mask]
    rw [hmask, Nat.testBit_mul_pow_two, Nat.testBit_two_pow_sub_one]
    by_cases hi3 : 3 ≤ i
    · have hgi : g.testBit i = false :=
        Nat.testBit_lt_two_pow (lt_of_lt_of_le (show g < 2 ^ 3 by omega)
          (Nat.pow_le_pow_right (by norm_num) hi3))
      rw [hgi]
      by_cases hi64 : i < 64
      · simp [hi3, show i - 3 < 61 by omega]
      · have hxi : x.testBit i = false :=
          Nat.testBit_lt_two_pow (lt_of_lt_of_le hx64
            (Nat.pow_le_pow_right (by norm_num) (by omega)))
        simp [hxi]
    · have hxi : x.testBit i = false := by
        rw [hxq, Nat.testBit_mul_pow_two]
        simp [hi3]
      simp [hi3, hxi]
  · rw [hor, and7]
    omega

/-- C30: the alignment invariant.  For any base address that the host allocator returns for
a segment, aligned or not (below `2 ^ 63`, and not `NULL`), after `judy_open` and any sequence
of calls of `judy_alloc`, `judy_data` and `judy_free` (of a block that an earlier call has
returned; fewer than `2 ^ 54` calls), the address `seg + seg->next` is a multiple of 8, and
so is the address of the `Judy` structure and every address that `judy_alloc` or `judy_data`
has returned; hence for every such address `x` and every tag `g` in `0..7` the reference
`r = x | g` has `r & JUDY_mask = x` and `r & 7 = g`. -/
theorem judy_alloc_aligned (max fresh0 : Nat) (mem : Nat → Nat) (calls : List ArenaCall)
    (hf0 : fresh0 ≠ 0) (hfb : fresh0 < 2 ^ 63) (hcalls : CallsOK 0 calls)
    (hlen : calls.length < 2 ^ 54) :
    ∃ a0 judy a blocks, judy_open_arena max fresh0 mem = some (a0, judy) ∧
      judy = a0.seg + a0.next ∧ judy % 8 = 0 ∧
      judy_calls calls (a0, []) = some (a, blocks) ∧
      (a.seg + a.next) % 8 = 0 ∧
      blocks.length = (calls.filter (fun c => match c with
        | .free _ _ => false | _ => true)).length ∧
      ∀ x ∈ blocks, x % 8 = 0 ∧
        ∀ g, g < 8 → (x ||| g) &&& JUDY_mask = x ∧ (x ||| g) &&& 7 = g := by
  obtain ⟨a0, judy, hopen, hok0, hj8, hj⟩ := open_align max fresh0 mem hf0 hfb
  obtain ⟨a, blocks, hc, hok, hl, hbl⟩ := calls_align calls (2 ^ 63 + 2 ^ 32) a0 [] hok0
    (fun x hx => by cases hx) hcalls (by omega)
  refine ⟨a0, judy, a, blocks, hopen, hj, hj8, hc, hok.2.2.1, by simpa using hl, ?_⟩
  intro x hx
  exact ⟨(hbl x hx).1, fun g hg => tag_bits x g (hbl x hx).1 (hbl x hx).2 hg⟩

theorem judy_alloc_aligned_witness :
    (4099 ≠ 0 ∧ 4099 < 2 ^ 63 ∧
      CallsOK 0 [.alloc 7 70003, .data 5 70003, .free 0 7, .alloc 1 70003, .alloc 6 70003] ∧
      [ArenaCall.alloc 7 70003, .data 5 70003, .free 0 7, .alloc 1 70003,
        .alloc 6 70003].length < 2 ^ 54) ∧
    (∃ a0 judy a blocks, judy_open_arena 8 4099 (fun _ => 255) = some (a0, judy) ∧
      judy = a0.seg + a0.next ∧ judy % 8 = 0 ∧
      judy_calls [.alloc 7 70003, .data 5 70003, .free 0 7, .alloc 1 70003, .alloc 6 70003]
        (a0, []) = some (a, blocks) ∧
      (a.seg + a.next) % 8 = 0 ∧
      blocks.length = ([ArenaCall.alloc 7 70003, .data 5 70003, .free 0 7, .alloc 1 70003,
        .alloc 6 70003].filter (fun c => match c with
        | .free _ _ => false | _ => true)).length ∧
      ∀ x ∈ blocks, x % 8 = 0 ∧
        ∀ g, g < 8 → (x ||| g) &&& JUDY_mask = x ∧ (x ||| g) &&& 7 = g) ∧
    (judy_open_arena 8 4099 (fun _ => 255)).map (fun s => (s.1.seg, s.1.next, s.2)) =
      some (4099, 65285, 69384) ∧
    ((judy_open_arena 8 4099 (fun _ => 255)).bind (fun s =>
      judy_calls [.alloc 7 70003, .data 5 70003, .free 0 7, .alloc 1 70003, .alloc 6 70003]
        (s.1, []))).map (fun s => (s.1.seg, s.1.next, s.1.reuse, s.2)) =
      some (4099, 64733, [0, 69368, 0, 0, 0, 0, 0, 0], [69352, 69344, 69352, 68832]) :=
  ⟨⟨by decide, by decide, by simp [CallsOK], by decide⟩,
    judy_alloc_aligned 8 4099 (fun _ => 255)
      [.alloc 7 70003, .data 5 70003, .free 0 7, .alloc 1 70003, .alloc 6 70003]
      (by decide) (by decide) (by simp [CallsOK]) (by decide),
    rfl, rfl⟩

/-- For `max <= JUDY_open_max` the structure `Judy` with its cursor lies inside the first
segment, above the segment header, whatever the address of the segment; `judy->max` is
`max + 1` then. -/
theorem judy_open_fits (max fresh : Nat) (mem : Nat → Nat) (hmax : max ≤ JUDY_open_max)
    (hf : fresh ≠ 0) :
    ∃ a judy, judy_open_arena max fresh mem = some (a, judy) ∧ judy = fresh + a.next ∧
      16 ≤ a.next ∧ a.next + (104 + (max + 1) * 16) ≤ JUDY_seg ∧ (judy_open max).max = max + 1 := by
  have h1 := JUDY_open_max_eq
  unfold judy_open_arena judy_open
  rw [if_neg hf]
  dsimp only
  have hm : fresh &&& 7 = fresh % 8 := and7 fresh
  have h7c : JUDY_cache_line - 1 = 7 := rfl
  have ha : (104 + (max + 1) % 2 ^ 32 * 16) % 2 ^ 32 = 104 + (max + 1) * 16 := by omega
  have hr : (104 + (max + 1) * 16) &&& 7 = 0 := by rw [and7]; omega
  rw [ha, h7c, hr, if_neg (by simp), hm]
  refine ⟨_, _, rfl, rfl, ?_, ?_, by omega⟩
  · show 16 ≤ (JUDY_seg - fresh % 8 + 2 ^ 32 - (104 + (max + 1) * 16)) % 2 ^ 32
    simp only [JUDY_seg]
    omega
  · show (JUDY_seg - fresh % 8 + 2 ^ 32 - (104 + (max + 1) * 16)) % 2 ^ 32 +
      (104 + (max + 1) * 16) ≤ JUDY_seg
    simp only [JUDY_seg]
    omega

/-- From `max = JUDY_open_max + 1` on the structure does not fit: with a segment at an address
that is a multiple of 8 it lies over the segment header, and for `max = JUDY_open_max + 2`
outside the segment (`seg->next` has wrapped). -/
theorem judy_open_overrun :
    (judy_open_arena (JUDY_open_max + 1) 4096 (fun _ => 0)).map (fun r => r.1.next) = some 8 ∧
    (judy_open_arena (JUDY_open_max + 2) 4096 (fun _ => 0)).map (fun r => r.1.next) =
      some (2 ^ 32 - 8) ∧
    (judy_open (2 ^ 32 - 1)).max = 0 :=
  ⟨rfl, rfl, rfl⟩



/-! ## `judy_cell` through a clone -/

/-- Through a clone `judy_cell` of a key whose cell a path leads to returns that cell, with
that path as the cursor, and leaves the node as it is: no pass reaches `judy_alloc`. -/
theorem clone_path (k : List Nat) (hk : ZF k) (hk31 : k.length < 2 ^ 31) :
    ∀ (d off : Nat) (n : JNode) (fs : List JudyStack) (A B : List Ent) (s : List Nat) (v : Nat)
      (fuel : Nat),
      Path d off n fs A (s, v) B → k.drop off = s → off ≤ k.length → s.length + 1 ≤ fuel →
      cell_loop_clone k k.length fuel n off = some (n, fs, .word v) := by
  intro d
  induction d with
  | zero => intro off n fs A B s v fuel h; exact absurd h (by simp [Path])
  | succ d ih =>
    intro off n fs A B s v fuel hpath hs hoff hfuel
    obtain ⟨fuel, rfl⟩ : ∃ f, fuel = f + 1 := ⟨fuel - 1, by omega⟩
    cases n with
    | word w => exact absurd hpath (by simp [Path])
    | lin type keys kids =>
      obtain ⟨e, K1, K2, C1, C2, mA, mB, p, c, h1, h2, rfl, rfl, hcnt, h7, hp, hs1, hs2, hcase⟩ :=
        hpath
      have hks := key_size_le off
      have hlen1 := hs1.length_eq
      have hpw := List.pairwise_append.1 h7
      have hB : ∀ b ∈ K2, pack (key_size off) p < b ∧ b < 256 ^ key_size off := fun b hb =>
        ⟨(List.pairwise_cons.1 hpw.2.1).1 b hb, hs2.key_lt b hb⟩
      have hkid : kidAt (List.replicate e (JNode.word 0) ++ (C1 ++ c :: C2)) (e + K1.length) = c :=
        kidAt_mid e C1 C2 c _ (by rw [hlen1])
      rcases hcase with ⟨hl, hc, hsp, hfs, _, _⟩ | ⟨hl, fs1, A1, s1, B1, hp1, hfs, hsp, _, _⟩
      · simp only at hsp hc
        subst hsp
        subst hc
        subst hfs
        rw [cell_loop_clone]
        simp only [key_value_spec k hk off, hs,
          lin_scan_node (key_size off) _ e hks K1 K2 _ 0 _ hcnt rfl (pack_lt _ _ hp) hB,
          if_true, and255, (pack_mod _ s hp (key_size_pos off)).2 hl,
          Int.toNat_ofNat, hkid]
      · simp only at hsp
        subst hsp
        subst hfs
        have hs1d : k.drop (off + key_size off) = s1 := by
          rw [← List.drop_drop, hs, List.drop_left' hl]
        have hloop := ih (off + key_size off) c fs1 A1 B1 s1 v fuel hp1 hs1d
          (by have := drop_length_le k off _ hs hoff; simp [hl] at this; omega)
          (by have := key_size_pos off; simp [hl] at hfuel; omega)
        have hnz : ¬ pack (key_size off) p % 256 = 0 := by
          rw [pack_mod _ p hp (key_size_pos off)]; omega
        have hset : (List.replicate e (JNode.word 0) ++ (C1 ++ c :: C2)).set (e + K1.length) c =
            List.replicate e (JNode.word 0) ++ (C1 ++ c :: C2) :=
          set_mid2 e _ C1 C2 c c _ (by rw [hlen1])
        rw [cell_loop_clone]
        simp only [key_value_spec k hk off, hs, pack_append _ p s1 hl,
          lin_scan_node (key_size off) _ e hks K1 K2 _ 0 _ hcnt rfl (pack_lt _ _ hp) hB,
          if_true, and255, hnz, if_false, Int.toNat_ofNat, hkid, hloop, hset]
    | radix table =>
      obtain ⟨ms, b, hb, hO, ⟨inner, hi1⟩, hR, hcase⟩ := hpath
      have hlen := drop_length_le k off _ hs hoff
      have hi2 : tblAt inner (b &&& 15) = radixAt table b := by
        unfold radixAt
        simp [hi1]
      have ho : b >>> 4 < 16 := by rw [shr4]; omega
      have hlo : b &&& 15 < 16 := by rw [and15]; omega
      have hil : inner.length = 16 := by
        rcases hO.2 _ ho with h0 | ⟨inner1, h1, h2, _⟩
        · rw [h0] at hi1; cases hi1
        · rw [h1] at hi1; cases hi1; exact h2
      have hset1 : table.set (b >>> 4) (.radix inner) = table := by
        rw [← hi1]
        exact set_tblAt_self _ _ (by rw [hO.1]; exact ho)
      rcases hcase with ⟨hb0, hx, hsp, hfs, _, _⟩ | ⟨hb0, fs1, A1, s1, B1, hp1, hfs, hsp, _, _⟩
      · simp only at hsp hx
        subst hsp
        subst hb0
        subst hfs
        have hslot : (if off < k.length then k.getD off 0 else 0) = 0 := by
          simp at hlen
          rw [if_neg (by omega)]
        rw [cell_loop_clone]
        simp only [hslot]
        simp only [Nat.zero_shiftRight, Nat.zero_and] at hi1 hi2 hset1 ⊢
        simp only [hi1, hi2, hx, if_true, hset1]
      · simp only at hsp
        subst hsp
        subst hfs
        have hoff1 : off < k.length := by simp at hlen; omega
        have hslot : (if off < k.length then k.getD off 0 else 0) = b := by
          rw [if_pos hoff1, ← headD_drop, hs]; rfl
        have hs1d : k.drop (off + 1) = s1 := by
          rw [← tail_drop, hs]; rfl
        have hloop := ih (off + 1) (radixAt table b) fs1 A1 B1 s1 v fuel hp1 hs1d (by omega)
          (by simp at hfuel; omega)
        have hset2 : inner.set (b &&& 15) (radixAt table b) = inner := by
          rw [← hi2]
          exact set_tblAt_self _ _ (by rw [hil]; exact hlo)
        rw [cell_loop_clone]
        simp only [hslot, if_pos hoff1]
        simp only [hi1, hi2, hb0, if_false, hloop, hset2, hset1]
    | span base kid =>
      obtain ⟨hal, p, hp, rfl, hcase⟩ := hpath
      have hlen := drop_length_le k off _ hs hoff
      rcases hcase with ⟨hl, hkid, hsp, hfs, _, _⟩ | ⟨hl, fs1, A1, s1, B1, hp1, hfs, hsp, _, _⟩
      · simp only at hsp hkid
        subst hsp
        subst hkid
        subst hfs
        rw [cell_loop_clone]
        rw [if_neg (by omega : ¬ (k.length < off ∨ 2 ^ 31 ≤ k.length - off))]
        simp only [hlen, gt_iff_lt, hl, if_true, hs]
        have h1 := strncmp_eq_self s (List.replicate (JUDY_span_bytes - s.length) 0) [] hp
        rw [List.append_nil] at h1
        have h2 : (s ++ List.replicate (JUDY_span_bytes - s.length) 0).getD s.length 0 = 0 := by
          rw [List.getD_append_right _ _ _ _ (le_refl _)]
          simp [List.getD_eq_getElem?_getD]
        simp only [h1, h2, and_self, if_true]
      · simp only at hsp
        subst hsp
        subst hfs
        have hs1d : k.drop (off + JUDY_span_bytes) = s1 := by
          rw [← List.drop_drop, hs, ← hl, List.drop_left]
        simp only [List.length_append] at hlen hfuel
        have h24 : JUDY_span_bytes = 24 := rfl
        rw [h24] at hl
        have hloop := ih (off + JUDY_span_bytes) kid fs1 A1 B1 s1 v fuel hp1 hs1d (by omega)
          (by omega)
        rw [cell_loop_clone]
        have htst : (if JUDY_span_bytes > k.length - off then k.length - off
            else JUDY_span_bytes) = JUDY_span_bytes := by
          rw [if_neg (by rw [h24]; omega)]
        have h1 : strncmp_eq (p ++ List.replicate (JUDY_span_bytes - p.length) 0) (p ++ s1)
            JUDY_span_bytes = true := by
          rw [h24, ← hl]; exact strncmp_eq_self p _ s1 hp
        rw [if_neg (by omega : ¬ (k.length < off ∨ 2 ^ 31 ≤ k.length - off))]
        simp only [htst, hs, h1, lt_self_iff_false,
          false_and, and_false, if_false, and_self, if_true, hloop]

/-- What `judy_cell` returns through a clone it returns on the array itself, with the same
change to the nodes: the clone only stops where `judy_alloc` is called. -/
theorem clone_sub (k : List Nat) (max : Nat) :
    ∀ (fuel : Nat) (n : JNode) (off : Nat) (x : JNode × List JudyStack × JNode),
      cell_loop_clone k max fuel n off = some x → cell_loop k max fuel n off = some x := by
  intro fuel
  induction fuel with
  | zero => intro n off x h; simp [cell_loop_clone] at h
  | succ fuel ih =>
    intro n off x h
    cases n with
    | word w =>
      cases w with
      | zero =>
        rw [cell_loop_clone] at h
        rw [cell_loop]
        by_cases hm : max < off
        · rw [if_pos hm] at h
          rw [← h]
          unfold cell_new
          rw [if_neg (by omega), cell_spans, if_neg (by omega)]
        · rw [if_neg hm] at h
          cases h
      | succ w => simp [cell_loop_clone] at h
    | lin type keys kids =>
      rw [cell_loop_clone] at h
      rw [cell_loop]
      generalize key_value k max 8 0 off = kv at h ⊢
      obtain ⟨value, off1⟩ := kv
      simp only at h ⊢
      generalize lin_scan keys (key_size off) value (lin_cnt type (key_size off)) 0 = ls at h ⊢
      obtain ⟨slot, test⟩ := ls
      simp only at h ⊢
      by_cases ht : test = value
      · rw [if_pos ht] at h
        rw [if_pos ht]
        by_cases hv : value &&& 0xFF = 0
        · rw [if_pos hv] at h
          rw [if_pos hv]
          exact h
        · rw [if_neg hv] at h
          rw [if_neg hv]
          cases hr : cell_loop_clone k max fuel (kidAt kids slot.toNat) off1 with
          | none => rw [hr] at h; cases h
          | some y =>
            rw [hr] at h
            rw [ih _ _ _ hr]
            exact h
      · rw [if_neg ht] at h
        rw [if_neg ht]
        by_cases hf : (!(kidAt kids 0).nonzero) = true
        · rw [if_pos hf] at h
          rw [if_pos hf]
          by_cases hs : slot < 0
          · rw [if_pos hs] at h
            cases h
          · rw [if_neg hs] at h
            rw [if_neg hs]
            by_cases hv : value &&& 0xFF = 0
            · rw [if_pos hv] at h
              rw [if_pos hv]
              exact h
            · rw [if_neg hv] at h
              rw [if_neg hv]
              cases hr : cell_loop_clone k max fuel (.word 0) off1 with
              | none => rw [hr] at h; cases h
              | some y =>
                rw [hr] at h
                rw [ih _ _ _ hr]
                exact h
        · rw [if_neg hf] at h
          cases h
    | radix table =>
      rw [cell_loop_clone] at h
      rw [cell_loop]
      generalize (if off < max then k.getD off 0 else 0) = slot at h ⊢
      generalize (if off < max then off + 1 else off) = off1 at h ⊢
      simp only at h ⊢
      cases hi : tblAt table (slot >>> 4) with
      | word w => rw [hi] at h; cases h
      | lin _ _ _ => rw [hi] at h; cases h
      | span _ _ => rw [hi] at h; cases h
      | radix inner =>
        rw [hi] at h
        simp only at h ⊢
        by_cases h0 : slot = 0
        · rw [if_pos h0] at h
          rw [if_pos h0]
          exact h
        · rw [if_neg h0] at h
          rw [if_neg h0]
          cases hr : cell_loop_clone k max fuel (tblAt inner (slot &&& 0x0F)) off1 with
          | none => rw [hr] at h; cases h
          | some y =>
            rw [hr] at h
            rw [ih _ _ _ hr]
            exact h
    | span base kid =>
      rw [cell_loop_clone] at h
      rw [cell_loop]
      by_cases hg : max < off ∨ 2 ^ 31 ≤ max - off
      · rw [if_pos hg] at h
        cases h
      · rw [if_neg hg] at h
        rw [if_neg hg]
        simp only at h ⊢
        generalize (if JUDY_span_bytes > max - off then max - off else JUDY_span_bytes) = tst
          at h ⊢
        by_cases h1 : strncmp_eq base (k.drop off) tst = true ∧ tst < JUDY_span_bytes ∧
            base.getD tst 0 = 0
        · rw [if_pos h1] at h
          rw [if_pos h1]
          exact h
        · rw [if_neg h1] at h
          rw [if_neg h1]
          by_cases h2 : strncmp_eq base (k.drop off) tst = true ∧ tst = JUDY_span_bytes
          · rw [if_pos h2] at h
            rw [if_pos h2]
            cases hr : cell_loop_clone k max fuel kid (off + JUDY_span_bytes) with
            | none => rw [hr] at h; cases h
            | some y =>
              rw [hr] at h
              rw [ih _ _ _ hr]
              exact h
          · rw [if_neg h2] at h
            cases h

/-! ## A key with a zero byte in any array

`judy_cell` of a key `k = p ++ 0 :: t` whose bytes end in the stride of its first zero byte
stops in the node of that stride, and `judy_key` reads `p` from the cursor. -/

theorem key_lin_upto (key max1 : Nat) :
    ∀ (ks : Nat) (q buff : List Nat) (len : Nat), ZF q → q.length ≤ ks →
      (∀ i, i ≤ q.length → i < ks → key / 256 ^ (ks - 1 - i) % 256 = q.getD i 0) →
      len + q.length ≤ max1 → max1 < buff.length →
      ∃ buff1, key_lin key max1 ks buff len = (buff1, len + q.length) ∧
        buff1.length = buff.length ∧ buff1.take (len + q.length) = buff.take len ++ q := by
  intro ks
  induction ks with
  | zero =>
    intro q buff len _ hq _ _ _
    have : q = [] := List.length_eq_zero.1 (by omega)
    subst this
    exact ⟨buff, rfl, rfl, by simp⟩
  | succ ks ih =>
    intro q buff len hzf hq hbyte hlen hbuf
    rw [key_lin]
    cases q with
    | nil =>
      by_cases h : len < max1
      · have hb : key / 256 ^ ks % 256 = 0 := by
          have := hbyte 0 (Nat.zero_le _) (by omega); simpa using this
        simp only [h, if_true, byte_at, hb, ne_eq, not_true_eq_false, if_false]
        exact ⟨_, rfl, by simp, by simp [take_set_ge]⟩
      · simp only [h, if_false]
        exact ⟨buff, rfl, rfl, by simp⟩
    | cons b q =>
      have hb0 := (ZF_cons.1 hzf).1
      simp only [List.length_cons] at hq hlen hbyte
      have h : len < max1 := by omega
      have hb : key / 256 ^ ks % 256 = b := by
        have := hbyte 0 (Nat.zero_le _) (by omega); simpa using this
      simp only [h, if_true, byte_at, hb, ne_eq]
      rw [if_pos (by omega)]
      obtain ⟨buff1, h1, h2, h3⟩ := ih q (buff.set len b) (len + 1) (ZF_cons.1 hzf).2 (by omega)
        (fun i hi1 hi2 => by
          have := hbyte (i + 1) (by omega) (by omega)
          rw [show ks + 1 - 1 - (i + 1) = ks - 1 - i by omega] at this
          rw [this]
          rfl)
        (by omega) (by simpa using hbuf)
      refine ⟨buff1, ?_, by simpa using h2, ?_⟩
      · rw [h1]; simp only [List.length_cons, Prod.mk.injEq, true_and]; omega
      · simp only [List.length_cons]
        rw [show len + (q.length + 1) = len + 1 + q.length by omega, h3,
          take_set_succ buff len b (by omega)]
        simp

theorem key_span_upto (base : List Nat) (max1 : Nat) :
    ∀ (n : Nat) (q : List Nat) (slot : Nat) (buff : List Nat) (len : Nat), ZF q →
      (∀ i, i ≤ q.length → slot + i < JUDY_span_bytes → base.getD (slot + i) 0 = q.getD i 0) →
      slot + n = JUDY_span_bytes → q.length ≤ n →
      len + q.length ≤ max1 → max1 < buff.length →
      ∃ buff1, key_span base max1 n slot buff len = (buff1, len + q.length) ∧
        buff1.length = buff.length ∧ buff1.take (len + q.length) = buff.take len ++ q := by
  intro n
  induction n with
  | zero =>
    intro q slot buff len _ _ _ hq _ _
    have : q = [] := List.length_eq_zero.1 (by omega)
    subst this
    exact ⟨buff, rfl, rfl, by simp⟩
  | succ n ih =>
    intro q slot buff len hzf hb hs hq hlen hbuf
    have h24 : JUDY_span_bytes = 24 := rfl
    rw [h24] at hs
    rw [key_span]
    cases q with
    | nil =>
      have : base.getD slot 0 = 0 := by
        simpa using hb 0 (Nat.zero_le _) (by rw [h24]; omega)
      rw [if_neg (fun h => h.2 this)]
      exact ⟨buff, rfl, rfl, by simp⟩
    | cons b q =>
      have hb0 := (ZF_cons.1 hzf).1
      simp only [List.length_cons] at hq hlen hb
      have hbs : base.getD slot 0 = b := by
        simpa using hb 0 (Nat.zero_le _) (by rw [h24]; omega)
      have hc : slot < JUDY_span_bytes ∧ base.getD slot 0 ≠ 0 := ⟨by rw [h24]; omega, by omega⟩
      rw [if_pos hc, if_pos (show len < max1 by omega), hbs]
      obtain ⟨buff1, h1, h2, h3⟩ := ih q (slot + 1) (buff.set len b) (len + 1)
        (ZF_cons.1 hzf).2
        (fun i hi1 hi2 => by
          have := hb (i + 1) (by omega) (by omega)
          rw [show slot + 1 + i = slot + (i + 1) by omega, this]; rfl)
        (by rw [h24]; omega) (by omega) (by omega) (by simpa using hbuf)
      refine ⟨buff1, ?_, by simpa using h2, ?_⟩
      · rw [h1]; simp only [List.length_cons, Prod.mk.injEq, true_and]; omega
      · rw [show len + (b :: q).length = len + 1 + q.length by simp; omega, h3,
          take_set_succ buff len b (by omega)]
        simp

theorem KeyReads_nil : KeyReads [] [] := by
  intro front max1 buff len _ _
  exact ⟨buff, rfl, rfl, by simp⟩

theorem KeyReads_lin (type : Nat) (keys : List Nat) (kids : List JNode) (off : Nat) (slot : Nat)
    (q r : List Nat) (fs : List JudyStack) (hq : ZF q) (hql : q.length ≤ key_size off)
    (hbytes : ∀ i, i ≤ q.length → i < key_size off →
      keys.getD slot 0 / 256 ^ (key_size off - 1 - i) % 256 = q.getD i 0)
    (hfs : KeyReads fs r) :
    KeyReads (fs ++ [⟨.lin type keys kids, off, (slot : Int)⟩]) (q ++ r) := by
  intro front max1 buff len h1 h2
  rw [List.length_append] at h1
  rw [List.reverse_append, List.reverse_singleton, List.singleton_append, key_loop]
  by_cases hlt : len < max1
  · rw [if_pos hlt]
    simp only
    rw [if_neg (by omega : ¬ (slot : Int) < 0)]
    simp only [Int.toNat_ofNat]
    obtain ⟨buff1, k1, k2, k3⟩ := key_lin_upto (keys.getD slot 0) max1 (key_size off) q buff len
      hq hql hbytes (by omega) h2
    rw [k1]
    simp only
    obtain ⟨buff2, j1, j2, j3⟩ := hfs front max1 buff1 (len + q.length) (by omega) (by omega)
    refine ⟨buff2, ?_, by omega, ?_⟩
    · rw [j1, List.length_append, Nat.add_assoc]
    · rw [List.length_append, ← Nat.add_assoc, j3, k3, List.append_assoc]
  · rw [if_neg hlt]
    have hq0 : q = [] := List.length_eq_zero.1 (by omega)
    have hr0 : r = [] := List.length_eq_zero.1 (by omega)
    subst hq0 hr0
    exact ⟨buff, rfl, rfl, by simp⟩

theorem KeyReads_radix (table : List JNode) (off b : Nat) (hb : b < 256) (r : List Nat)
    (fs : List JudyStack) (hfs : KeyReads fs r) :
    KeyReads (fs ++ [⟨.radix table, off, (b : Int)⟩]) ((if b = 0 then [] else [b]) ++ r) := by
  intro front max1 buff len h1 h2
  rw [List.length_append] at h1
  rw [List.reverse_append, List.reverse_singleton, List.singleton_append, key_loop]
  by_cases hlt : len < max1
  · rw [if_pos hlt]
    simp only
    by_cases hb0 : b = 0
    · subst hb0
      simp only [if_true, List.length_nil, Nat.zero_add, List.nil_append, Nat.cast_zero] at h1 ⊢
      exact hfs front max1 buff len h1 h2
    · rw [if_neg hb0] at h1 ⊢
      rw [if_neg (by omega : ¬ (b : Int) = 0)]
      simp only [Int.toNat_ofNat, Nat.mod_eq_of_lt hb, List.length_singleton] at h1 ⊢
      obtain ⟨buff2, j1, j2, j3⟩ := hfs front max1 (buff.set len b) (len + 1) (by omega)
        (by simpa using h2)
      refine ⟨buff2, ?_, by simpa using j2, ?_⟩
      · rw [j1, List.length_append, List.length_singleton, Nat.add_assoc]
      · rw [List.length_append, List.length_singleton, ← Nat.add_assoc, j3,
          take_set_succ buff len b (by omega), List.append_assoc]
  · rw [if_neg hlt]
    have hr0 : r = [] := List.length_eq_zero.1 (by omega)
    have hq0 : (if b = 0 then [] else [b]) = ([] : List Nat) := by
      by_cases hb0 : b = 0
      · rw [if_pos hb0]
      · rw [if_neg hb0, List.length_singleton] at h1
        omega
    subst hr0
    rw [hq0]
    exact ⟨buff, rfl, rfl, by simp⟩

theorem KeyReads_span (base : List Nat) (kid : JNode) (off : Nat) (q r : List Nat)
    (fs : List JudyStack) (hq : ZF q) (hql : q.length ≤ JUDY_span_bytes)
    (hbytes : ∀ i, i ≤ q.length → i < JUDY_span_bytes → base.getD i 0 = q.getD i 0)
    (hfs : KeyReads fs r) :
    KeyReads (fs ++ [⟨.span base kid, off, 0⟩]) (q ++ r) := by
  intro front max1 buff len h1 h2
  rw [List.length_append] at h1
  rw [List.reverse_append, List.reverse_singleton, List.singleton_append, key_loop]
  by_cases hlt : len < max1
  · rw [if_pos hlt]
    simp only
    obtain ⟨buff1, k1, k2, k3⟩ := key_span_upto base max1 JUDY_span_bytes q 0 buff len hq
      (fun i hi1 hi2 => by rw [Nat.zero_add] at hi2 ⊢; exact hbytes i hi1 hi2)
      (Nat.zero_add _) hql (by omega) h2
    rw [k1]
    simp only
    obtain ⟨buff2, j1, j2, j3⟩ := hfs front max1 buff1 (len + q.length) (by omega) (by omega)
    refine ⟨buff2, ?_, by omega, ?_⟩
    · rw [j1, List.length_append, Nat.add_assoc]
    · rw [List.length_append, ← Nat.add_assoc, j3, k3, List.append_assoc]
  · rw [if_neg hlt]
    have hq0 : q = [] := List.length_eq_zero.1 (by omega)
    have hr0 : r = [] := List.length_eq_zero.1 (by omega)
    subst hq0 hr0
    exact ⟨buff, rfl, rfl, by simp⟩

theorem pack_div256 (n : Nat) (s : List Nat) (h : ∀ b ∈ s, b < 256) :
    pack (n + 1) s / 256 ^ n = s.headD 0 := by
  cases s with
  | nil => simp [pack_nil]
  | cons b t =>
    rw [pack_cons]
    have h2 := pack_lt256 n t (fun x hx => h x (List.mem_cons_of_mem _ hx))
    rw [Nat.add_comm, Nat.add_mul_div_right _ _ (by positivity), Nat.div_eq_of_lt h2]
    simp

theorem pack_byte256 (n i : Nat) (s : List Nat) (h : ∀ b ∈ s, b < 256) (hi : i < n) :
    pack n s / 256 ^ i % 256 = s.getD (n - 1 - i) 0 := by
  induction n generalizing s with
  | zero => omega
  | succ n ih =>
    rcases Nat.lt_or_ge i n with h1 | h1
    · cases s with
      | nil => simp [pack_nil]
      | cons b t =>
        rw [pack_cons]
        have e1 : b * 256 ^ n = 256 ^ i * (256 * (b * 256 ^ (n - 1 - i))) := by
          have : 256 ^ n = 256 ^ i * (256 * 256 ^ (n - 1 - i)) := by
            rw [← pow_succ', ← pow_add]; congr 1; omega
          rw [this]; ring
        rw [e1, Nat.mul_add_div (by positivity), Nat.mul_add_mod,
          ih t (fun x hx => h x (List.mem_cons_of_mem _ hx)) h1]
        have e2 : n + 1 - 1 - i = (n - 1 - i) + 1 := by omega
        rw [e2]
        rfl
    · have hin : i = n := by omega
      subst hin
      rw [pack_div256 i s h]
      have e2 : i + 1 - 1 - i = 0 := by omega
      rw [e2]
      cases s with
      | nil => rfl
      | cons b t => simp [Nat.mod_eq_of_lt (h b (List.mem_cons_self _ _))]

theorem getD_drop_add (k : List Nat) (off i : Nat) :
    (k.drop off).getD i 0 = k.getD (off + i) 0 := by
  rw [List.getD_eq_getElem?_getD, List.getD_eq_getElem?_getD, List.getElem?_drop]

/-- The bytes of a key with a zero byte: those of `p`, none zero, then the zero byte. -/
theorem ZeroKey.bytes {k p : List Nat} (h : ZeroKey k p) :
    p.length < k.length ∧ k.getD p.length 0 = 0 ∧
      (∀ i, i < p.length → k.getD i 0 = p.getD i 0 ∧ 0 < k.getD i 0) ∧
      ∀ i, i ≤ p.length → k.getD i 0 = p.getD i 0 := by
  obtain ⟨⟨t, rfl⟩, hp, _, _, _⟩ := h
  have h0 : (p ++ 0 :: t).getD p.length 0 = 0 := by
    rw [List.getD_append_right _ _ _ _ (le_refl _)]
    simp
  have h1 : ∀ i, i < p.length → (p ++ 0 :: t).getD i 0 = p.getD i 0 := fun i hi =>
    List.getD_append _ _ _ _ hi
  refine ⟨by simp, h0, fun i hi => ⟨h1 i hi, ?_⟩, fun i hi => ?_⟩
  · rw [h1 i hi]
    exact getD_pos p hp i hi
  · rcases Nat.lt_or_ge i p.length with h | h
    · exact h1 i h
    · have : i = p.length := by omega
      subst this
      rw [h0, getD_zero_of_ge p _ (le_refl _)]

/-- The value that `judy_cell` assembles at `off` from a key with a zero byte, and its
bytes. -/
theorem ZeroKey.value {k p : List Nat} (h : ZeroKey k p) (off : Nat) :
    key_value k k.length 8 0 off = (pack (key_size off) (k.drop off), off + key_size off) ∧
    pack (key_size off) (k.drop off) < 256 ^ key_size off ∧
    (∀ i, i < key_size off →
      pack (key_size off) (k.drop off) / 256 ^ (key_size off - 1 - i) % 256 =
        k.getD (off + i) 0) ∧
    pack (key_size off) (k.drop off) % 256 = k.getD (off + key_size off - 1) 0 := by
  have hb := h.2.2.1
  have hbd : ∀ b ∈ k.drop off, b < 256 := fun b hb1 => hb b (List.mem_of_mem_drop hb1)
  have hks := key_size_pos off
  refine ⟨?_, pack_lt256 _ _ hbd, fun i hi => ?_, ?_⟩
  · rw [key_value_bytes_aux k hb 8 0 off (key_size_le off) (by positivity)]
    simp
  · rw [pack_byte256 _ _ _ hbd (by omega), getD_drop_add]
    congr 1
    omega
  · have := pack_byte256 (key_size off) 0 (k.drop off) hbd hks
    rw [pow_zero, Nat.div_one, getD_drop_add] at this
    rw [this]
    congr 1
    omega

/-- On a key with a zero byte, the low byte of the value assembled at `off` is zero exactly
when the zero byte lies in the stride of `off`. -/
theorem ZeroKey.low {k p : List Nat} (h : ZeroKey k p) (off : Nat) (hoff : off ≤ p.length) :
    (p.length - off < key_size off → pack (key_size off) (k.drop off) % 256 = 0 ∧
      k.length < off + key_size off) ∧
    (key_size off ≤ p.length - off → pack (key_size off) (k.drop off) % 256 ≠ 0) := by
  have hks := key_size_eq off
  obtain ⟨hpl, _, hb1, _⟩ := h.bytes
  have hL := h.2.2.2.1
  constructor
  · intro hlt
    have hkl : k.length < off + key_size off := by omega
    refine ⟨?_, hkl⟩
    rw [(h.value off).2.2.2]
    exact getD_zero_of_ge k _ (by omega)
  · intro hge
    rw [(h.value off).2.2.2]
    have := (hb1 (off + key_size off - 1) (by omega)).2
    omega

theorem getD_take_lt (l : List Nat) (n i : Nat) (h : i < n) :
    (l.take n).getD i 0 = l.getD i 0 := by
  rw [List.getD_eq_getElem?_getD, List.getD_eq_getElem?_getD, List.getElem?_take, if_pos h]

/-- The span nodes that `judy_cell` makes for the rest of a key with a zero byte. -/
theorem zero_spans {k p : List Nat} (h : ZeroKey k p) :
    ∀ (fuel off : Nat), off ≤ p.length → off % 8 = 0 → (p.length - off) / 24 + 1 ≤ fuel →
      ∃ n1 fs c, cell_spans k k.length fuel off = some (n1, fs, c) ∧
        fs.length ≤ (p.length - off) / 24 + 1 ∧ KeyReads fs (p.drop off) := by
  obtain ⟨hpl, _, hb1, hb2⟩ := h.bytes
  have hL := h.2.2.2.1
  have h31 := h.2.2.2.2
  have hp := h.2.1
  have h24 : JUDY_span_bytes = 24 := rfl
  intro fuel
  induction fuel with
  | zero => intro off _ _ hf; omega
  | succ fuel ih =>
    intro off hoff hal hf
    rw [cell_spans, if_pos (by omega : off ≤ k.length),
      if_neg (by omega : ¬ 2 ^ 31 ≤ k.length - off)]
    simp only
    by_cases hA : 24 ≤ p.length - off
    · have htst : (if JUDY_span_bytes > k.length - off then k.length - off
          else JUDY_span_bytes) = 24 := by
        rw [if_neg (by rw [h24]; omega), h24]
      rw [htst]
      have hlast : (span_bytes k off 24).getD (JUDY_span_bytes - 1) 0 ≠ 0 := by
        rw [span_bytes_getD, if_pos (by rw [h24]; omega), h24]
        have := (hb1 (off + (24 - 1)) (by omega)).2
        omega
      rw [if_neg hlast]
      obtain ⟨n1, fs, c, hloop, hfl, hkr⟩ := ih (off + 24) (by omega) (by omega) (by omega)
      rw [hloop]
      simp only
      refine ⟨_, _, _, rfl, ?_, ?_⟩
      · simp only [List.length_append, List.length_singleton]
        omega
      · have hsplit : p.drop off = (p.drop off).take 24 ++ p.drop (off + 24) := by
          rw [← List.drop_drop, List.take_append_drop]
        rw [hsplit]
        refine KeyReads_span _ _ off _ _ fs (ZF_take 24 (ZF_drop off hp))
          (by rw [List.length_take, h24]; omega) ?_ hkr
        intro i _ hi2
        rw [h24] at hi2
        rw [span_bytes_getD, if_pos ⟨by rw [h24]; exact hi2, hi2⟩, getD_take_lt _ _ _ hi2,
          getD_drop_add]
        exact (hb1 (off + i) (by omega)).1
    · have htst : (if JUDY_span_bytes > k.length - off then k.length - off
          else JUDY_span_bytes) = k.length - off := by
        rw [if_pos (by rw [h24]; omega)]
      rw [htst]
      have hlast : (span_bytes k off (k.length - off)).getD (JUDY_span_bytes - 1) 0 = 0 := by
        rw [span_bytes_getD, if_neg (by rw [h24]; omega)]
      rw [if_pos hlast]
      refine ⟨_, _, _, rfl, by simp, ?_⟩
      have := KeyReads_span (span_bytes k off (k.length - off)) (.word 0) off (p.drop off) [] []
        (ZF_drop off hp) (by rw [List.length_drop, h24]; omega) ?_ KeyReads_nil
      · simpa using this
      · intro i hi1 hi2
        rw [List.length_drop] at hi1
        rw [span_bytes_getD, if_pos ⟨hi2, by omega⟩, getD_drop_add]
        exact hb2 (off + i) (by omega)

/-- The nodes that `judy_cell` makes at an empty word for the rest of a key with a zero
byte. -/
theorem zero_word0 {k p : List Nat} (h : ZeroKey k p) (off fuel : Nat) (hoff : off ≤ p.length) :
    ZeroOK k p (fuel + 1) off (.word 0) := by
  obtain ⟨hpl, _, hb1, hb2⟩ := h.bytes
  have hL := h.2.2.2.1
  have hp := h.2.1
  have hks := key_size_eq off
  obtain ⟨hv1, hv2, hv3, hv4⟩ := h.value off
  unfold ZeroOK
  rw [cell_loop]
  unfold cell_new
  by_cases hal : off % 8 = 0
  · rw [if_neg (by rw [show JUDY_key_mask = 7 from rfl, and7]; omega)]
    obtain ⟨n1, fs, c, hloop, hfl, hkr⟩ := zero_spans h (k.length + 1) off hoff hal (by omega)
    exact ⟨n1, fs, c, hloop, by omega, hkr⟩
  · rw [if_pos ⟨by rw [show JUDY_key_mask = 7 from rfl, and7]; exact hal, by omega⟩]
    simp only
    rw [show JUDY_key_mask = 7 from rfl, or7, lin1_key_eq, pow_zero, Nat.mul_one]
    by_cases hA : key_size off ≤ p.length - off
    · obtain ⟨n1, fs, c, hloop, hfl, hkr⟩ := zero_spans h (k.length + 1) (off + key_size off)
        (by omega) (by omega) (by omega)
      rw [hloop]
      simp only
      refine ⟨_, _, _, rfl, ?_, ?_⟩
      · simp only [List.length_append, List.length_singleton]
        omega
      · have hsplit : p.drop off = (p.drop off).take (key_size off) ++
            p.drop (off + key_size off) := by
          rw [← List.drop_drop, List.take_append_drop]
        rw [hsplit]
        have := KeyReads_lin JUDY_1 [pack (key_size off) (k.drop off)] [n1] off 0
          ((p.drop off).take (key_size off)) (p.drop (off + key_size off)) fs
          (ZF_take _ (ZF_drop off hp)) (by rw [List.length_take]; omega) ?_ hkr
        · simpa using this
        · intro i _ hi2
          rw [show ([pack (key_size off) (k.drop off)] : List Nat).getD 0 0 =
            pack (key_size off) (k.drop off) from rfl, hv3 i hi2, getD_take_lt _ _ _ hi2,
            getD_drop_add]
          exact (hb1 (off + i) (by omega)).1
    · have hkl := ((h.low off hoff).1 (by omega)).2
      obtain ⟨f1, hf1⟩ : ∃ f1, k.length + 1 = f1 + 1 := ⟨k.length, rfl⟩
      rw [hf1, cell_spans, if_neg (by omega : ¬ off + key_size off ≤ k.length)]
      simp only
      refine ⟨_, _, _, rfl, by simp, ?_⟩
      have := KeyReads_lin JUDY_1 [pack (key_size off) (k.drop off)] [.word 0] off 0
        (p.drop off) [] [] (ZF_drop off hp) (by rw [List.length_drop]; omega) ?_ KeyReads_nil
      · simpa using this
      · intro i hi1 hi2
        rw [List.length_drop] at hi1
        rw [show ([pack (key_size off) (k.drop off)] : List Nat).getD 0 0 =
          pack (key_size off) (k.drop off) from rfl, hv3 i hi2, getD_drop_add]
        exact hb2 (off + i) (by omega)

theorem drop_cons_getD (p : List Nat) (off : Nat) (h : off < p.length) :
    p.drop off = p.getD off 0 :: p.drop (off + 1) := by
  rw [List.drop_eq_getElem_cons h, List.getD_eq_getElem?_getD, List.getElem?_eq_getElem h]
  rfl

/-- The loop of `judy_cell` at a radix node, for a key with a zero byte. -/
theorem zero_radix {k p : List Nat} (h : ZeroKey k p) (off : Nat) (hoff : off ≤ p.length)
    (d : Nat) (table : List JNode) (m : List Ent) (fuel : Nat)
    (hrep : Rep (d + 1) off (.radix table) m)
    (IH : off < p.length → ∀ n1, (n1 = .word 0 ∨ ∃ m1, Rep d (off + 1) n1 m1) →
      ZeroOK k p fuel (off + 1) n1) :
    ZeroOK k p (fuel + 1) off (.radix table) := by
  obtain ⟨hpl, hz, hb1, hb2⟩ := h.bytes
  obtain ⟨hO, ms, hR, _, _⟩ := hrep
  have hb : k.getD off 0 < 256 := getD_lt_of_bytes k h.2.2.1 off
  have hbp : k.getD off 0 = p.getD off 0 := hb2 off hoff
  have hb0 : k.getD off 0 = 0 ↔ off = p.length := by
    constructor
    · intro h0
      by_contra hne
      have := (hb1 off (by omega)).2
      omega
    · intro h0
      rw [h0]; exact hz
  unfold ZeroOK
  rw [cell_loop]
  simp only [if_pos (by omega : off < k.length)]
  generalize k.getD off 0 = b at hb hbp hb0 ⊢
  have hb16 : b >>> 4 < 16 := by rw [shr4]; omega
  have hfin : ∀ (inner : List JNode),
      (b ≠ 0 → tblAt inner (b &&& 15) = .word 0 ∨
        ∃ m1, Rep d (off + 1) (tblAt inner (b &&& 15)) m1) →
      ∃ n1 fs c,
        (if b = 0 then
          some (JNode.radix (table.set (b >>> 4) (.radix inner)),
            [(⟨JNode.radix (table.set (b >>> 4) (.radix inner)), off, (b : Int)⟩ : JudyStack)],
            tblAt inner (b &&& 0x0F))
        else
          match cell_loop k k.length fuel (tblAt inner (b &&& 0x0F)) (off + 1) with
          | none => none
          | some (kid, frames, cell) =>
            some (JNode.radix (table.set (b >>> 4) (.radix (inner.set (b &&& 0x0F) kid))),
              frames ++ [⟨JNode.radix (table.set (b >>> 4)
                (.radix (inner.set (b &&& 0x0F) kid))), off, (b : Int)⟩], cell)) =
          some (n1, fs, c) ∧
        fs.length ≤ p.length - off + 1 ∧ KeyReads fs (p.drop off) := by
    intro inner hx
    by_cases h0 : b = 0
    · rw [if_pos h0]
      refine ⟨_, _, _, rfl, by simp, ?_⟩
      have hoffp := hb0.1 h0
      have := KeyReads_radix (table.set (b >>> 4) (.radix inner)) off b hb [] [] KeyReads_nil
      rw [if_pos h0] at this
      rw [hoffp, List.drop_length]
      rw [hoffp] at this
      simpa using this
    · rw [if_neg h0]
      have hoffp : off < p.length := by
        rcases Nat.lt_or_ge off p.length with h1 | h1
        · exact h1
        · exact absurd (hb0.2 (by omega)) h0
      obtain ⟨n1, fs, c, hloop, hfl, hkr⟩ := IH hoffp (tblAt inner (b &&& 15)) (hx h0)
      rw [hloop]
      simp only
      refine ⟨_, _, _, rfl, ?_, ?_⟩
      · simp only [List.length_append, List.length_singleton]
        omega
      · have := KeyReads_radix (table.set (b >>> 4) (.radix (inner.set (b &&& 15) n1))) off b hb
          (p.drop (off + 1)) fs hkr
        rw [if_neg h0] at this
        rw [drop_cons_getD p off hoffp, ← hbp]
        exact this
  rcases hO.2 (b >>> 4) hb16 with h0 | ⟨inner, hi, _, _⟩
  · simp only [h0]
    exact hfin radix_zero (fun _ => Or.inl (tblAt_radix_zero _))
  · simp only [hi]
    refine hfin inner (fun hne => ?_)
    have hrad : radixAt table b = tblAt inner (b &&& 15) := by
      unfold radixAt
      simp [hi]
    rcases hR b hb with ⟨hx, _⟩ | ⟨hx, _⟩ | ⟨_, m1, hr, _⟩
    · rw [hrad] at hx
      exact Or.inl hx
    · exact absurd hx hne
    · rw [hrad] at hr
      exact Or.inr ⟨m1, hr⟩

theorem strncmp_agree : ∀ (n : Nat) (a s : List Nat), strncmp_eq a s n = true →
    ∀ j, j < n → (∀ i, i < j → s.getD i 0 ≠ 0) → a.getD j 0 = s.getD j 0 := by
  intro n
  induction n with
  | zero => intro a s _ j hj; omega
  | succ n ih =>
    intro a s h j hj hnz
    have ha := headD_drop a 0
    have hs := headD_drop s 0
    rw [List.drop_zero] at ha hs
    rw [strncmp_eq] at h
    by_cases h1 : a.headD 0 ≠ s.headD 0
    · rw [if_pos h1] at h
      exact absurd h (by simp)
    · rw [if_neg h1] at h
      have h1 : a.headD 0 = s.headD 0 := not_not.1 h1
      cases j with
      | zero => rw [← ha, ← hs, h1]
      | succ j =>
        by_cases h2 : a.headD 0 = 0
        · exact absurd (by rw [← hs, ← h1, h2]) (hnz 0 (by omega))
        · rw [if_neg h2] at h
          have := ih a.tail s.tail h j (by omega) (fun i hi => by
            have := hnz (i + 1) (by omega)
            rw [← List.drop_one, getD_drop_add, Nat.add_comm]
            exact this)
          rw [← List.drop_one, ← List.drop_one, getD_drop_add, getD_drop_add,
            Nat.add_comm] at this
          exact this

/-- The loop of `judy_cell` at a span node, for a key with a zero byte. -/
theorem zero_span {k p : List Nat} (h : ZeroKey k p) (off : Nat) (hoff : off ≤ p.length)
    (d : Nat) (base : List Nat) (kid : JNode) (m : List Ent) (fuel : Nat)
    (hrep : Rep (d + 1) off (.span base kid) m)
    (IH : 24 ≤ p.length - off → ∀ m1, Rep d (off + 24) kid m1 →
      ZeroOK k p fuel (off + 24) kid)
    (IHl : ∀ keys kids d1, Rep d1 off (.lin 1 keys kids) m →
      ZeroOK k p fuel off (.lin 1 keys kids)) :
    ZeroOK k p (fuel + 1) off (.span base kid) := by
  obtain ⟨hpl, hz, hb1, hb2⟩ := h.bytes
  have hL := h.2.2.2.1
  have h31 := h.2.2.2.2
  have hp := h.2.1
  have h24 : JUDY_span_bytes = 24 := rfl
  have hsplit := splitspan_spec d off base kid m hrep
  obtain ⟨hal, q, hq, hbase, hcase⟩ := hrep
  have hnz : ∀ i j, i ≤ p.length - off → j < i → (k.drop off).getD j 0 ≠ 0 := by
    intro i j hi hj
    rw [getD_drop_add]
    have := (hb1 (off + j) (by omega)).2
    omega
  unfold ZeroOK
  rw [cell_loop]
  simp only [if_neg (by omega : ¬ (k.length < off ∨ 2 ^ 31 ≤ k.length - off))]
  generalize htd : (if JUDY_span_bytes > k.length - off then k.length - off
    else JUDY_span_bytes) = tst
  have htA : 24 ≤ p.length - off → tst = 24 := by
    intro hA
    rw [← htd, if_neg (by rw [h24]; omega), h24]
  have htB : p.length - off < 24 → tst = k.length - off ∧ tst < 24 := by
    intro hB
    rw [← htd, if_pos (by rw [h24]; omega)]
    exact ⟨rfl, by omega⟩
  by_cases hc1 : strncmp_eq base (k.drop off) tst = true ∧ tst < JUDY_span_bytes ∧
      base.getD tst 0 = 0
  · rw [if_pos hc1]
    refine ⟨_, _, _, rfl, by simp, ?_⟩
    have hB : p.length - off < 24 := by
      by_contra hcon
      have := htA (by omega)
      rw [h24] at hc1
      omega
    obtain ⟨ht1, ht2⟩ := htB hB
    have := KeyReads_span base kid off (p.drop off) [] [] (ZF_drop off hp)
      (by rw [List.length_drop, h24]; omega) ?_ KeyReads_nil
    · simpa using this
    · intro i hi1 hi2
      rw [List.length_drop] at hi1
      rw [strncmp_agree tst base (k.drop off) hc1.1 i (by omega) (hnz i · hi1),
        getD_drop_add, getD_drop_add]
      exact hb2 (off + i) (by omega)
  · rw [if_neg hc1]
    by_cases hc2 : strncmp_eq base (k.drop off) tst = true ∧ tst = JUDY_span_bytes
    · rw [if_pos hc2]
      have hA : 24 ≤ p.length - off := by
        by_contra hcon
        have := (htB (by omega)).2
        rw [h24] at hc2
        omega
      have hbytes : ∀ i, i < 24 → base.getD i 0 = p.getD (off + i) 0 := by
        intro i hi
        rw [strncmp_agree tst base (k.drop off) hc2.1 i (by rw [htA hA]; exact hi)
          (hnz i · (by omega)), getD_drop_add]
        exact (hb1 (off + i) (by omega)).1
      have hql : q.length = 24 := by
        rcases hcase with ⟨hl, _⟩ | ⟨hl, _⟩
        · exfalso
          have h23 := hbytes 23 (by omega)
          rw [hbase, List.getD_append_right _ _ _ _ (by rw [h24] at hl; omega)] at h23
          simp only [List.getD_eq_getElem?_getD, List.getElem?_replicate] at h23
          have hpos := getD_pos p hp (off + 23) (by omega)
          rw [List.getD_eq_getElem?_getD] at hpos
          split at h23
          · simp only [Option.getD_some] at h23
            omega
          · simp only [Option.getD_none] at h23
            omega
        · rw [hl, h24]
      rcases hcase with ⟨hl, _⟩ | ⟨_, m1, hr, _⟩
      · rw [h24] at hl; omega
      · obtain ⟨n1, fs, c, hloop, hfl, hkr⟩ := IH hA m1 hr
        rw [h24, hloop]
        simp only
        refine ⟨_, _, _, rfl, ?_, ?_⟩
        · simp only [List.length_append, List.length_singleton]
          omega
        · have hsp : p.drop off = (p.drop off).take 24 ++ p.drop (off + 24) := by
            rw [← List.drop_drop, List.take_append_drop]
          rw [hsp]
          refine KeyReads_span _ _ off _ _ fs (ZF_take 24 (ZF_drop off hp))
            (by rw [List.length_take, h24]; omega) ?_ hkr
          intro i _ hi2
          rw [h24] at hi2
          rw [hbytes i hi2, getD_take_lt _ _ _ hi2, getD_drop_add]
    · rw [if_neg hc2]
      obtain ⟨n2, hn2, hr2, keys, kids, rfl⟩ := hsplit
      rw [hn2]
      exact IHl keys kids _ hr2

theorem lin_scan_below (keys : List Nat) (ks value : Nat) :
    ∀ (cnt t : Nat), 0 < cnt → (lin_scan keys ks value cnt t).1 = -1 →
      value < keys.getD 0 0 &&& JudyMask ks := by
  intro cnt
  induction cnt with
  | zero => intro t h; omega
  | succ n ih =>
    intro t _ hs
    rw [lin_scan_succ] at hs
    by_cases hle : keys.getD n 0 &&& JudyMask ks ≤ value
    · rw [if_pos hle] at hs
      simp only at hs
      omega
    · rw [if_neg hle] at hs
      cases n with
      | zero => omega
      | succ n1 => exact ih _ (by omega) hs

theorem lin_insert_getD {α : Type} (l : List α) (i : Nat) (x d : α) (h : i < l.length) :
    (lin_insert l i x).getD i d = x := by
  unfold lin_insert
  exact getD_mid _ _ _ _ _ (by rw [List.length_take, List.length_drop]; omega)

theorem judy_promote_some (type ks value idx : Nat) (keys : List Nat) (kids : List JNode)
    (h1 : 1 ≤ type) (h5 : type ≤ 5) (hk1 : 1 ≤ ks) (hk8 : ks ≤ 8)
    (hkl : keys.length = lin_cnt type ks) (hcl : kids.length = lin_cnt type ks)
    (hidx : idx ≤ lin_cnt type ks) (hv : value < 256 ^ ks) :
    ∃ keys1 kids1 slot1, judy_promote (.lin type keys kids) idx value ks =
        some (.lin (type + 1) keys1 kids1, slot1) ∧ keys1.getD slot1 0 = value := by
  have hg := lin_cnt_grow type ks h1 h5 hk1 hk8
  have hK1 : (keys.take idx).length = idx := by rw [List.length_take]; omega
  have hK2 : (keys.drop idx).length = lin_cnt type ks - idx := by rw [List.length_drop]; omega
  have := judy_promote_eq type ks value (lin_cnt (type + 1) ks - lin_cnt type ks - 1)
    (keys.take idx) (keys.drop idx) (kids.take idx) (kids.drop idx)
    (by rw [hK1, hK2]; omega) (by rw [hK1, hK2]; omega)
    (by rw [hK1, List.length_take]; omega) (by rw [hK2, List.length_drop]; omega) hv
  rw [List.take_append_drop, List.take_append_drop, hK1] at this
  refine ⟨_, _, _, this, ?_⟩
  have hmid := keyAt_mid (lin_cnt (type + 1) ks - lin_cnt type ks - 1) (keys.take idx)
    (keys.drop idx) value
  rw [hK1] at hmid
  exact hmid

/-- What `judy_key` reads from the frame of a linear node whose key for the slot is the value
assembled from a key with a zero byte. -/
theorem zero_lin_reads {k p : List Nat} (h : ZeroKey k p) (off : Nat) (hoff : off ≤ p.length)
    (type : Nat) (keys : List Nat) (kids : List JNode) (slot : Nat)
    (hkey : keys.getD slot 0 = pack (key_size off) (k.drop off)) :
    (key_size off ≤ p.length - off → ∀ fs, KeyReads fs (p.drop (off + key_size off)) →
      KeyReads (fs ++ [⟨.lin type keys kids, off, (slot : Int)⟩]) (p.drop off)) ∧
    (p.length - off < key_size off →
      KeyReads [⟨.lin type keys kids, off, (slot : Int)⟩] (p.drop off)) := by
  obtain ⟨hpl, _, hb1, hb2⟩ := h.bytes
  have hp := h.2.1
  obtain ⟨_, _, hv3, _⟩ := h.value off
  constructor
  · intro hA fs hkr
    have hsplit : p.drop off = (p.drop off).take (key_size off) ++
        p.drop (off + key_size off) := by
      rw [← List.drop_drop, List.take_append_drop]
    rw [hsplit]
    refine KeyReads_lin type keys kids off slot _ _ fs (ZF_take _ (ZF_drop off hp))
      (by rw [List.length_take]; omega) ?_ hkr
    intro i _ hi2
    rw [hkey, hv3 i hi2, getD_take_lt _ _ _ hi2, getD_drop_add]
    exact (hb1 (off + i) (by omega)).1
  · intro hB
    have := KeyReads_lin type keys kids off slot (p.drop off) [] [] (ZF_drop off hp)
      (by rw [List.length_drop]; omega) ?_ KeyReads_nil
    · simpa using this
    · intro i hi1 hi2
      rw [List.length_drop] at hi1
      rw [hkey, hv3 i hi2, getD_drop_add]
      exact hb2 (off + i) (by omega)

/-- The loop of `judy_cell` at a linear node, for a key with a zero byte. -/
theorem zero_lin {k p : List Nat} (h : ZeroKey k p) (off : Nat) (hoff : off ≤ p.length)
    (d type : Nat) (keys : List Nat) (kids : List JNode) (m : List Ent) (fuel : Nat)
    (hrep : Rep (d + 1) off (.lin type keys kids) m)
    (IH : key_size off ≤ p.length - off → ∀ n1,
      (n1 = .word 0 ∨ ∃ m1, Rep d (off + key_size off) n1 m1) →
      ZeroOK k p fuel (off + key_size off) n1)
    (IHr : type = 6 → ∀ T d1, Rep d1 off (.radix T) m → ZeroOK k p fuel off (.radix T)) :
    ZeroOK k p (fuel + 1) off (.lin type keys kids) := by
  obtain ⟨hv1, hv2, hv3, hv4⟩ := h.value off
  obtain ⟨hlowB, hlowA⟩ := h.low off hoff
  have hks := key_size_le off
  have hks1 := key_size_pos off
  obtain ⟨e, pk, pc, h1, h2, hkeys, hkids, hcnt, hne, hpw, hslots⟩ := hrep
  have hcpos := lin_cnt_pos type (key_size off) h1 h2 hks
  have hlen := hslots.length_eq
  have hkl : keys.length = lin_cnt type (key_size off) := by
    rw [hkeys, List.length_append, List.length_replicate]; exact hcnt
  have hcl : kids.length = lin_cnt type (key_size off) := by
    rw [hkids, List.length_append, List.length_replicate, ← hlen]; exact hcnt
  have hlow : pack (key_size off) (k.drop off) &&& 0xFF = 0 ↔
      p.length - off < key_size off := by
    rw [show (0xFF : Nat) = 255 from rfl, and255]
    constructor
    · intro hz
      by_contra hcon
      exact hlowA (by omega) hz
    · intro hB
      exact (hlowB hB).1
  have hfinish : ∀ (type1 : Nat) (keys1 : List Nat) (kids1 : List JNode) (s : Nat),
      keys1.getD s 0 = pack (key_size off) (k.drop off) →
      ∃ n1 fs c,
        (if pack (key_size off) (k.drop off) &&& 0xFF = 0 then
          some (JNode.lin type1 keys1 kids1,
            [(⟨JNode.lin type1 keys1 kids1, off, (s : Int)⟩ : JudyStack)], JNode.word 0)
        else
          match cell_loop k k.length fuel (.word 0) (off + key_size off) with
          | none => none
          | some (kid, frames, cell) =>
            some (JNode.lin type1 keys1 (kids1.set s kid),
              frames ++ [⟨JNode.lin type1 keys1 (kids1.set s kid), off, (s : Int)⟩], cell)) =
          some (n1, fs, c) ∧
        fs.length ≤ p.length - off + 1 ∧ KeyReads fs (p.drop off) := by
    intro type1 keys1 kids1 s hkey
    by_cases hz : pack (key_size off) (k.drop off) &&& 0xFF = 0
    · rw [if_pos hz]
      exact ⟨_, _, _, rfl, by simp,
        (zero_lin_reads h off hoff type1 keys1 kids1 s hkey).2 (hlow.1 hz)⟩
    · rw [if_neg hz]
      have hA : key_size off ≤ p.length - off := by
        by_contra hcon
        exact hz (hlow.2 (by omega))
      obtain ⟨n1, fs, c, hloop, hfl, hkr⟩ := IH hA (.word 0) (Or.inl rfl)
      rw [hloop]
      simp only
      refine ⟨_, _, _, rfl, ?_,
        (zero_lin_reads h off hoff type1 keys1 (kids1.set s n1) s hkey).1 hA fs hkr⟩
      simp only [List.length_append, List.length_singleton]
      omega
  unfold ZeroOK
  rw [cell_loop]
  simp only [hv1]
  have hcases := lin_scan_cases keys (key_size off) (pack (key_size off) (k.drop off))
    (lin_cnt type (key_size off)) 0 (fun h0 => by omega)
  have hbelow := lin_scan_below keys (key_size off) (pack (key_size off) (k.drop off))
    (lin_cnt type (key_size off)) 0 hcpos
  generalize lin_scan keys (key_size off) (pack (key_size off) (k.drop off))
    (lin_cnt type (key_size off)) 0 = sc at hcases hbelow ⊢
  obtain ⟨slot, test⟩ := sc
  simp only at hcases hbelow ⊢
  by_cases ht : test = pack (key_size off) (k.drop off)
  · rw [if_pos ht]
    rcases hcases with ⟨_, hs2⟩ | ⟨i, hi, hpair, hle⟩
    · omega
    · simp only [Prod.mk.injEq] at hpair
      obtain ⟨rfl, rfl⟩ := hpair
      rw [JudyMask_eq _ _ hks] at ht
      have hkeyv : e ≤ i → keys.getD i 0 = pk.getD (i - e) 0 ∧ i - e < pk.length ∧
          pk.getD (i - e) 0 < 256 ^ key_size off := by
        intro hie
        have hipk : i - e < pk.length := by omega
        refine ⟨?_, hipk, ?_⟩
        · rw [hkeys, List.getD_append_right _ _ _ _ (by simp; omega), List.length_replicate]
        · rw [List.getD_eq_getElem?_getD, List.getElem?_eq_getElem hipk]
          exact hslots.key_lt _ (List.getElem_mem hipk)
      have hkey0 : i < e → keys.getD i 0 = 0 := by
        intro hie
        rw [hkeys, List.getD_append _ _ _ _ (by simp; omega)]
        simp only [List.getD_eq_getElem?_getD, List.getElem?_replicate]
        rw [if_pos (by omega)]
        rfl
      have hkeyi : keys.getD i 0 = pack (key_size off) (k.drop off) := by
        rcases Nat.lt_or_ge i e with hie | hie
        · rw [hkey0 hie] at ht ⊢
          rw [← ht]
          rfl
        · have := hkeyv hie
          rw [this.1] at ht ⊢
          rw [← ht, Nat.mod_eq_of_lt this.2.2]
      by_cases hz : pack (key_size off) (k.drop off) &&& 0xFF = 0
      · rw [if_pos hz]
        exact ⟨_, _, _, rfl, by simp,
          (zero_lin_reads h off hoff type keys kids i hkeyi).2 (hlow.1 hz)⟩
      · rw [if_neg hz]
        have hA : key_size off ≤ p.length - off := by
          by_contra hcon
          exact hz (hlow.2 (by omega))
        have hz1 : pack (key_size off) (k.drop off) % 256 ≠ 0 := hlowA hA
        have hie : e ≤ i := by
          by_contra hcon
          rw [hkey0 (by omega)] at hkeyi
          rw [← hkeyi] at hz1
          exact hz1 rfl
        obtain ⟨hk1, hipk, _⟩ := hkeyv hie
        have hkid : kidAt kids i = pc.getD (i - e) (JNode.word 0) := by
          unfold kidAt
          rw [hkids, List.getD_append_right _ _ _ _ (by simp; omega), List.length_replicate]
        have hchild : ∃ m1, Rep d (off + key_size off) (kidAt kids i) m1 := by
          rcases hslots.at_key (i - e) hipk with h9 | ⟨m1, hr⟩
          · rw [← hk1, hkeyi] at h9
            exact absurd h9 hz1
          · exact ⟨m1, by rw [hkid]; exact hr⟩
        obtain ⟨n1, fs, c, hloop, hfl, hkr⟩ := IH hA (kidAt kids i) (Or.inr hchild)
        simp only [Int.toNat_ofNat, hloop]
        refine ⟨_, _, _, rfl, ?_,
          (zero_lin_reads h off hoff type keys (kids.set i n1) i hkeyi).1 hA fs hkr⟩
        simp only [List.length_append, List.length_singleton]
        omega
  · rw [if_neg ht]
    by_cases hnf : (!(kidAt kids 0).nonzero) = true
    · rw [if_pos hnf]
      have he : 0 < e := by
        by_contra hcon
        have he0 : e = 0 := by omega
        have hpc : pc ≠ [] := by
          intro hnil
          apply hne
          apply List.length_eq_zero.1
          rw [hlen, hnil]
          rfl
        obtain ⟨c, pc1, rfl⟩ := List.exists_cons_of_ne_nil hpc
        have hnzc := hslots.kids_nonzero (fun _ _ hr => Rep_nonzero hr) c
          (List.mem_cons_self _ _)
        rw [hkids, he0] at hnf
        simp [kidAt, hnzc] at hnf
      have hk0 : keys.getD 0 0 = 0 := by
        rw [hkeys, List.getD_append _ _ _ _ (by simp; omega)]
        simp only [List.getD_eq_getElem?_getD, List.getElem?_replicate]
        rw [if_pos he]
        rfl
      rcases hcases with ⟨hs1, _⟩ | ⟨i, hi, hpair, hle⟩
      · exfalso
        have := hbelow hs1
        rw [hk0, Nat.zero_and] at this
        omega
      · simp only [Prod.mk.injEq] at hpair
        obtain ⟨rfl, rfl⟩ := hpair
        rw [if_neg (by omega : ¬ ((i : Int) < 0))]
        simp only [Int.toNat_ofNat, Nat.mod_eq_of_lt hv2]
        exact hfinish type _ _ i (lin_insert_getD keys i _ 0 (by omega))
    · rw [if_neg hnf]
      by_cases hsz : JudySize type < JudySize JUDY_max
      · rw [if_pos hsz]
        have h5 : type ≤ 5 := by
          have := (JudySize_lt type h1 h2).1 hsz
          omega
        have hidx : (slot + 1).toNat ≤ lin_cnt type (key_size off) := by
          rcases hcases with ⟨hs1, _⟩ | ⟨i, hi, hpair, _⟩
          · rw [hs1]
            simp
          · simp only [Prod.mk.injEq] at hpair
            rw [hpair.1]
            omega
        obtain ⟨keys1, kids1, slot1, hprom, hkey1⟩ := judy_promote_some type (key_size off)
          (pack (key_size off) (k.drop off)) (slot + 1).toNat keys kids h1 h5 hks1 hks hkl hcl
          hidx hv2
        rw [hprom]
        simp only
        exact hfinish (type + 1) keys1 kids1 slot1 hkey1
      · rw [if_neg hsz]
        have h6 : type = 6 := by
          by_contra hcon
          exact hsz ((JudySize_lt type h1 h2).2 (by omega))
        have he0 : e = 0 := by
          by_contra hcon
          apply hnf
          rw [hkids, kidAt_zero_replicate e pc (by omega)]
          rfl
        subst h6 he0
        simp only [List.replicate_zero, List.nil_append, Nat.zero_add] at hkeys hkids hcnt
        subst hkeys hkids
        obtain ⟨T, hT1, hT2⟩ := splitnode_spec d off keys kids m hpw hcnt hslots
        rw [hT1]
        exact IHr rfl T _ hT2

/-- The loop of `judy_cell` for a key with a zero byte that ends in the stride of that byte,
started on a well formed node or on an empty word with enough fuel: it returns, and
`judy_key` reads from the frames the bytes of the key before the zero byte. -/
theorem zero_ok {k p : List Nat} (h : ZeroKey k p) : ∀ (L off d : Nat) (n : JNode)
    (m : List Ent) (fuel : Nat), p.length - off = L → off ≤ p.length →
    (n = .word 0 ∨ Rep d off n m) → 2 * L + 3 ≤ fuel → ZeroOK k p fuel off n := by
  intro L
  induction L using Nat.strong_induction_on with
  | _ L ih =>
    intro off d n m fuel hL hoff hn hfuel
    obtain ⟨fuel, rfl⟩ : ∃ f, fuel = f + 1 := ⟨fuel - 1, by omega⟩
    have hks1 := key_size_pos off
    rcases hn with rfl | hrep
    · exact zero_word0 h off fuel hoff
    have hchild : ∀ j, 1 ≤ j → j ≤ p.length - off → ∀ f d1 n1, 2 * L + 1 ≤ f →
        (n1 = .word 0 ∨ ∃ m1, Rep d1 (off + j) n1 m1) → ZeroOK k p f (off + j) n1 := by
      intro j hj1 hj f d1 n1 hf hn1
      rcases hn1 with h0 | ⟨m1, hr⟩
      · exact ih (p.length - (off + j)) (by omega) (off + j) d1 n1 [] f rfl (by omega)
          (Or.inl h0) (by omega)
      · exact ih (p.length - (off + j)) (by omega) (off + j) d1 n1 m1 f rfl (by omega)
          (Or.inr hr) (by omega)
    have hradix : ∀ T d1 f, 2 * L + 1 ≤ f → Rep d1 off (.radix T) m →
        ZeroOK k p (f + 1) off (.radix T) := by
      intro T d1 f hf hr
      cases d1 with
      | zero => exact absurd hr (by simp [Rep])
      | succ d2 =>
        exact zero_radix h off hoff d2 T m f hr
          (fun hlt n1 hn1 => hchild 1 (le_refl _) (by omega) f d2 n1 hf hn1)
    have hlin : ∀ type keys kids d1 f, 2 * L + 1 ≤ f →
        (type = 6 → 2 * L + 2 ≤ f) → Rep d1 off (.lin type keys kids) m →
        ZeroOK k p (f + 1) off (.lin type keys kids) := by
      intro type keys kids d1 f hf hf6 hr
      cases d1 with
      | zero => exact absurd hr (by simp [Rep])
      | succ d2 =>
        refine zero_lin h off hoff d2 type keys kids m f hr ?_ ?_
        · intro hA n1 hn1
          exact hchild (key_size off) hks1 hA f d2 n1 hf hn1
        · intro h6 T d3 hr1
          obtain ⟨f2, rfl⟩ : ∃ f2, f = f2 + 1 := ⟨f - 1, by have := hf6 h6; omega⟩
          exact hradix T d3 f2 (by have := hf6 h6; omega) hr1
    cases d with
    | zero => exact absurd hrep (by simp [Rep])
    | succ d =>
      cases n with
      | word v => exact absurd hrep (by simp [Rep])
      | lin type keys kids => exact hlin type keys kids _ fuel (by omega) (fun _ => by omega) hrep
      | radix T => exact hradix T _ fuel (by omega) hrep
      | span base kid =>
        refine zero_span h off hoff d base kid m fuel hrep ?_ ?_
        · intro hA m1 hr1
          exact hchild 24 (by omega) hA fuel d kid (by omega) (Or.inr ⟨m1, hr1⟩)
        · intro keys kids d1 hr1
          obtain ⟨f2, rfl⟩ : ∃ f2, fuel = f2 + 1 := ⟨fuel - 1, by omega⟩
          exact hlin 1 keys kids d1 f2 (by omega) (fun h => absurd h (by decide)) hr1

/-- In an array with a well formed root, `judy_cell` of a key with a zero byte that ends in
the stride of that byte returns a cell and leaves a cursor from which `judy_key` reads the
bytes of the key before the zero byte. -/
theorem judy_cell_zero_any (M : Nat) (judy : Judy) (m : List Ent) (k p : List Nat)
    (h : ZeroKey k p) (hmax : judy.max = M + 1) (hroot : RootRep judy.root m)
    (hlM : k.length ≤ M) :
    ∃ r c, judy_cell judy k k.length = some r ∧ r.cell = some c ∧ r.judy.max = M + 1 ∧
      KeyReads r.judy.stack p := by
  have hpl := h.bytes.1
  have hn : judy.root = .word 0 ∨ ∃ d, Rep d 0 judy.root m := by
    rcases hroot with ⟨h0, _⟩ | hr
    · exact Or.inl h0
    · exact Or.inr hr
  have hz : ZeroOK k p (2 * judy.max + 2) 0 judy.root := by
    rcases hn with h0 | ⟨d, hr⟩
    · exact zero_ok h p.length 0 0 judy.root [] _ rfl (Nat.zero_le _) (Or.inl h0)
        (by rw [hmax]; omega)
    · exact zero_ok h p.length 0 d judy.root m _ rfl (Nat.zero_le _) (Or.inr hr)
        (by rw [hmax]; omega)
  obtain ⟨n1, fs, c, hloop, hfl, hkr⟩ := hz
  unfold judy_cell
  rw [hloop]
  simp only
  rw [if_pos (by rw [hmax]; omega)]
  exact ⟨_, c, rfl, rfl, hmax, hkr⟩

/-! ## Lookups that go wrong -/

/-- C4: in the array that holds "a", "b" and "c", `judy_slot` of the empty key, which is not
stored, does not return `NULL`: it returns the empty first slot of the root node, whose word
is `0`. -/
theorem judy_slot_absent_key_not_null :
    ∃ judy r, judy_puts [([97], 1), ([98], 1), ([99], 1)] (judy_open 8) = some judy ∧
      judy_slot judy [] 0 = some r ∧ r.cell = some (.word 0) :=
  ⟨_, _, rfl, rfl, rfl⟩

/-- C5: in the array that holds only "b", `judy_strt` of "a" returns `NULL`, although "b" is
stored and is greater than "a". -/
theorem judy_strt_below_span_null :
    ∃ judy r, judy_puts [([98], 1)] (judy_open 8) = some judy ∧
      judy_strt judy [97] 1 = some r ∧ r.cell = none :=
  ⟨_, _, rfl, rfl, rfl⟩

/-- C7: in the array that holds the empty key and "a", after `judy_slot` and `judy_del` of the
empty key, `judy_slot` of the empty key does not return `NULL` but the emptied first slot. -/
theorem judy_slot_after_del_not_null :
    ∃ judy r1 r2 r3, judy_puts [([], 5), ([97], 6)] (judy_open 8) = some judy ∧
      judy_slot judy [] 0 = some r1 ∧ r1.cell = some (.word 5) ∧
      judy_del r1.judy = some r2 ∧
      judy_slot r2.judy [] 0 = some r3 ∧ r3.cell = some (.word 0) :=
  ⟨_, _, _, _, rfl, rfl, rfl, rfl, rfl, rfl⟩


/-! ## Insertion and lookup -/

/-- C1: round trip of the payload.  On every array built by driver steps `*judy_cell(k) = v`
with zero-free keys of at most `M` bytes and non-zero words, for every zero-free key `k` of at
most `M` bytes `judy_cell` returns a cell, and after the caller has stored the non-zero word
`v` in it, `judy_slot` of `k` returns a cell, not `NULL`, and that cell holds `v`.
The array is opened by `judy_open` with a maximum key length `M <= JUDY_open_max`, the
largest that `judy_open` can take. -/
theorem judy_cell_store_slot (M : Nat) (hM : M ≤ JUDY_open_max) (ops : List Ent) (k : List Nat) (v : Nat)
    (hops : OpsOK M ops) (hk : ZF k) (hl : k.length ≤ M) (hv : 0 < v) :
    ∃ judy r c r2, judy_puts ops (judy_open M) = some judy ∧
      judy_cell judy k k.length = some r ∧ r.cell = some c ∧
      judy_slot (judy_store r.judy v) k k.length = some r2 ∧ r2.cell = some (.word v) := by
  haveI : Fact (M ≤ JUDY_open_max) := ⟨hM⟩
  obtain ⟨judy, hputs, hmax, hroot⟩ := judy_puts_spec M ops (judy_open M) [] hops
    (judy_open_spec M).1 (judy_open_spec M).2
  obtain ⟨n1, fs, c, A, B, d, hcell, hpath, _⟩ :=
    judy_cell_spec M judy (insAll ops []) k hmax hroot hk hl
  obtain ⟨s1, s2⟩ := judy_store_spec { judy with root := n1, stack := fs } d A B k c v hpath
  have hrep := Path_Rep d s2 hv
  obtain ⟨fs2, A2, B2, hslot, _, _⟩ := judy_slot_spec M
    (judy_store { judy with root := n1, stack := fs } v) _ k v d (by rw [s1]; exact hmax) hrep
    (by simp) hk hl
  exact ⟨judy, _, _, _, hputs, hcell, rfl, hslot, rfl⟩

theorem judy_cell_store_slot_witness :
    8 ≤ JUDY_open_max ∧
    OpsOK 8 [([98], 1)] ∧ ZF [97, 98] ∧ [97, 98].length ≤ 8 ∧ 0 < 7 ∧
    ∃ judy r c r2, judy_puts [([98], 1)] (judy_open 8) = some judy ∧
      judy_cell judy [97, 98] [97, 98].length = some r ∧ r.cell = some c ∧
      judy_slot (judy_store r.judy 7) [97, 98] [97, 98].length = some r2 ∧
      r2.cell = some (.word 7) :=
  ⟨by decide, by simp [OpsOK, ZF], by simp [ZF], by decide, by decide,
    judy_cell_store_slot 8 (by decide) [([98], 1)] [97, 98] 7 (by simp [OpsOK, ZF]) (by simp [ZF])
      (by decide) (by decide)⟩

/-- C3: round trip of the key.  On every array built by driver steps, insertions
`*judy_cell(k) = v` with zero-free keys of at most `M` bytes and non-zero words and removals
of stored keys in any order, for every stored key `k` and every buffer of `max` bytes with
`max` greater than the length of `k`, `judy_slot` of `k` returns its cell and `judy_key` then
returns the length of `k` and leaves in the buffer the bytes of `k` followed by a zero
byte.
The array is opened by `judy_open` with a maximum key length `M <= JUDY_open_max`, the
largest that `judy_open` can take. -/
theorem judy_slot_key (M : Nat) (hM : M ≤ JUDY_open_max) (steps : List Step) (k : List Nat)
    (v : Nat) (buff : List Nat)
    (bmax : Nat) (hok : StepsOK M steps []) (hst : (k, v) ∈ stepsEnt steps [])
    (hb : k.length < bmax) (hb32 : bmax < 2 ^ 32) (hbl : bmax ≤ buff.length) :
    ∃ judy r buff1, judy_steps steps (judy_open M) = some judy ∧
      judy_slot judy k k.length = some r ∧ r.cell = some (.word v) ∧ 0 < v ∧
      judy_key r.judy buff bmax = some (buff1, k.length) ∧
      buff1.take k.length = k ∧ buff1.getD k.length 1 = 0 := by
  haveI : Fact (M ≤ JUDY_open_max) := ⟨hM⟩
  obtain ⟨judy, hputs, hmax, hroot, hshort, _⟩ := judy_open_steps M steps hok
  obtain ⟨_, hgood⟩ := RootRep_sorted_good hroot
  obtain ⟨hk, hv⟩ := hgood _ hst
  have hl := hshort _ hst
  have hrep : ∃ d, Rep d 0 judy.root (stepsEnt steps []) := by
    rcases hroot with ⟨_, h0⟩ | h
    · rw [h0] at hst; simp at hst
    · exact h
  obtain ⟨d, hrep⟩ := hrep
  obtain ⟨fs, A, B, hslot, hpath, _⟩ := judy_slot_spec M judy _ k v d hmax hrep hst hk hl
  have hmax1 : (bmax + 2 ^ 32 - 1) % 2 ^ 32 = bmax - 1 := by omega
  obtain ⟨buff1, hloop, hlen1, htake⟩ := key_loop_path (fun _ => none) (bmax - 1) d 0 judy.root fs A B k v hpath
    buff 0 (by omega) (by omega)
  simp only [Nat.zero_add, List.take_zero, List.nil_append] at hloop htake
  obtain ⟨t1, t2⟩ := set_take_getD buff1 k.length (by omega)
  refine ⟨judy, _, buff1.set k.length 0, hputs, hslot, rfl, hv, ?_, by rw [t1, htake], t2⟩
  unfold judy_key
  simp only [hmax1, hloop]

theorem judy_slot_key_witness :
    8 ≤ JUDY_open_max ∧
    StepsOK 8 [.put [98] 1, .put [97, 98, 99] 2, .del [98], .put [97, 98] 3] [] ∧
    (([97, 98, 99] : List Nat), 2) ∈
      stepsEnt [.put [98] 1, .put [97, 98, 99] 2, .del [98], .put [97, 98] 3] [] ∧
    [97, 98, 99].length < 5 ∧ 5 < 2 ^ 32 ∧ 5 ≤ [9, 9, 9, 9, 9].length ∧
    ∃ judy r buff1,
      judy_steps [.put [98] 1, .put [97, 98, 99] 2, .del [98], .put [97, 98] 3] (judy_open 8) =
        some judy ∧
      judy_slot judy [97, 98, 99] [97, 98, 99].length = some r ∧ r.cell = some (.word 2) ∧
      0 < 2 ∧ judy_key r.judy [9, 9, 9, 9, 9] 5 = some (buff1, [97, 98, 99].length) ∧
      buff1.take [97, 98, 99].length = [97, 98, 99] ∧ buff1.getD [97, 98, 99].length 1 = 0 :=
  ⟨by decide, ⟨⟨by simp [ZF], by decide, by decide⟩, ⟨by simp [ZF], by decide, by decide⟩, by decide,
      ⟨by simp [ZF], by decide, by decide⟩, trivial⟩, by decide, by decide, by decide,
    by decide,
    judy_slot_key 8 (by decide) [.put [98] 1, .put [97, 98, 99] 2, .del [98], .put [97, 98] 3]
      [97, 98, 99] 2 [9, 9, 9, 9, 9] 5
      ⟨⟨by simp [ZF], by decide, by decide⟩, ⟨by simp [ZF], by decide, by decide⟩, by decide,
        ⟨by simp [ZF], by decide, by decide⟩, trivial⟩
      (by decide) (by decide) (by decide) (by decide)⟩

/-- C6: idempotent insert.  On every array built by driver steps, insertions
`*judy_cell(k) = v` with zero-free keys of at most `M` bytes and non-zero words and removals
of stored keys in any order, for every stored key `k`, whose word `c` is not zero,
`judy_cell` of `k` returns a cell that holds `c` and leaves the root, hence every node,
unchanged; calling `judy_cell` of `k` again returns the same cell, at the same place (the
same cursor on the same nodes), with the same word.
The array is opened by `judy_open` with a maximum key length `M <= JUDY_open_max`, the
largest that `judy_open` can take. -/
theorem judy_cell_idempotent (M : Nat) (hM : M ≤ JUDY_open_max) (steps : List Step) (k : List Nat)
    (c : Nat)
    (hok : StepsOK M steps []) (hst : (k, c) ∈ stepsEnt steps []) :
    ∃ judy r, judy_steps steps (judy_open M) = some judy ∧ 0 < c ∧
      judy_cell judy k k.length = some r ∧ r.cell = some (.word c) ∧
      r.judy.root = judy.root ∧ judy_cell r.judy k k.length = some r := by
  haveI : Fact (M ≤ JUDY_open_max) := ⟨hM⟩
  obtain ⟨judy, hputs, hmax, hroot, hshort, _⟩ := judy_open_steps M steps hok
  obtain ⟨hsorted, hgood⟩ := RootRep_sorted_good hroot
  obtain ⟨hk, hc⟩ := hgood _ hst
  have hl := hshort _ hst
  obtain ⟨n1, fs, c1, A, B, d, hcell, hpath, hres⟩ :=
    judy_cell_spec M judy (stepsEnt steps []) k hmax hroot hk hl
  have hhit : stepsEnt steps [] = A ++ (k, c1) :: B ∧ n1 = judy.root := by
    rcases hres with ⟨_, hm⟩ | h
    · exfalso
      obtain ⟨_, s2⟩ := judy_store_spec { judy with root := n1, stack := fs } d A B k c1 1 hpath
      have hs := (Rep_sorted_good d (Path_Rep d s2 (by decide))).1
      rw [hm] at hst
      unfold Sorted at hs
      rw [List.pairwise_append] at hs
      rcases List.mem_append.1 hst with h | h
      · exact lt_irrefl k (hs.2.2 _ h (k, 1) (List.mem_cons_self _ _))
      · exact lt_irrefl k ((List.pairwise_cons.1 hs.2.1).1 _ h)
    · exact h.2
  obtain ⟨hm, hn⟩ := hhit
  subst hn
  have hcc : c1 = c := by
    have h1 := find_mem _ hsorted _ hst
    rw [hm] at h1 hsorted
    rw [find_mid k c1 A B hsorted] at h1
    exact h1
  subst hcc
  exact ⟨judy, _, hputs, hc, hcell, rfl, rfl, (judy_cell_stack judy fs k k.length).trans hcell⟩

theorem judy_cell_idempotent_witness :
    8 ≤ JUDY_open_max ∧
    StepsOK 8 [.put [97] 1, .put [98] 2, .put [99] 3, .del [98], .put [97] 4] [] ∧
    (([97] : List Nat), 4) ∈
      stepsEnt [.put [97] 1, .put [98] 2, .put [99] 3, .del [98], .put [97] 4] [] ∧
    ∃ judy r, judy_steps [.put [97] 1, .put [98] 2, .put [99] 3, .del [98], .put [97] 4]
        (judy_open 8) = some judy ∧ 0 < 4 ∧
      judy_cell judy [97] [97].length = some r ∧ r.cell = some (.word 4) ∧
      r.judy.root = judy.root ∧ judy_cell r.judy [97] [97].length = some r :=
  ⟨by decide, ⟨⟨by simp [ZF], by decide, by decide⟩, ⟨by simp [ZF], by decide, by decide⟩,
      ⟨by simp [ZF], by decide, by decide⟩, by decide, ⟨by simp [ZF], by decide, by decide⟩,
      trivial⟩, by decide,
    judy_cell_idempotent 8 (by decide) [.put [97] 1, .put [98] 2, .put [99] 3, .del [98], .put [97] 4]
      [97] 4
      ⟨⟨by simp [ZF], by decide, by decide⟩, ⟨by simp [ZF], by decide, by decide⟩,
        ⟨by simp [ZF], by decide, by decide⟩, by decide,
        ⟨by simp [ZF], by decide, by decide⟩, trivial⟩
      (by decide)⟩


/-! ## Enumeration in key order -/

/-- C2: sorted enumeration.  After driver steps `*judy_cell(k) = v` in any order, with
zero-free keys of at most `M` bytes and non-zero words, `judy_strt` with an empty key followed
by `judy_nxt` until it returns `NULL` visits as many cells as there are distinct keys, and the
keys that `judy_key` reads at the visits are exactly the keys inserted, in strictly increasing
lexicographic order.
The array is opened by `judy_open` with a maximum key length `M <= JUDY_open_max`, the
largest that `judy_open` can take. -/
theorem judy_enum_sorted (M : Nat) (hM : M ≤ JUDY_open_max) (ops : List Ent) (buff : List Nat)
    (bmax fuel : Nat)
    (hops : OpsOK M ops) (hb : M < bmax) (hb32 : bmax < 2 ^ 32) (hbl : bmax ≤ buff.length)
    (hf : ops.length + 1 < fuel) :
    ∃ judy l, judy_puts ops (judy_open M) = some judy ∧
      judy_enum judy buff bmax fuel = some l ∧
      (l.map Prod.fst).Pairwise (· < ·) ∧
      (∀ k, k ∈ l.map Prod.fst ↔ k ∈ ops.map Prod.fst) ∧
      l.length = (ops.map Prod.fst).dedup.length ∧
      ∀ x ∈ l, ∃ v, 0 < v ∧ x.2 = .word v := by
  haveI : Fact (M ≤ JUDY_open_max) := ⟨hM⟩
  obtain ⟨judy, hputs, hmax, hroot⟩ := judy_puts_spec M ops (judy_open M) [] hops
    (judy_open_spec M).1 (judy_open_spec M).2
  obtain ⟨hsorted, hgood⟩ := RootRep_sorted_good hroot
  have hkeys := insAll_keys M ops hops
  have hlen := sorted_length (insAll ops []) (ops.map Prod.fst) hsorted hkeys
  have hle : (insAll ops []).length ≤ ops.length := by
    rw [hlen]
    have := (List.dedup_sublist (ops.map Prod.fst)).length_le
    simpa using this
  have henum := judy_enum_spec M bmax judy (insAll ops []) hmax hroot (insAll_short M ops hops)
    hb hb32 buff hbl fuel (by omega)
  have hfst : ((insAll ops []).map shown).map Prod.fst = (insAll ops []).map Prod.fst := by
    rw [List.map_map]; rfl
  refine ⟨judy, _, hputs, henum, ?_, ?_, by rw [List.length_map]; exact hlen, ?_⟩
  · rw [hfst]
    unfold Sorted at hsorted
    rw [List.pairwise_map]
    exact hsorted
  · rw [hfst]; exact hkeys
  · intro x hx
    obtain ⟨e, he, rfl⟩ := List.mem_map.1 hx
    exact ⟨e.2, (hgood e he).2, rfl⟩

theorem judy_enum_sorted_witness :
    8 ≤ JUDY_open_max ∧
    OpsOK 8 [([98], 1), ([97, 98], 2), ([97], 3)] ∧ 8 < 16 ∧ 16 < 2 ^ 32 ∧
    16 ≤ (List.replicate 16 0).length ∧
    [(([98] : List Nat), 1), ([97, 98], 2), ([97], 3)].length + 1 < 5 ∧
    ∃ judy l, judy_puts [([98], 1), ([97, 98], 2), ([97], 3)] (judy_open 8) = some judy ∧
      judy_enum judy (List.replicate 16 0) 16 5 = some l ∧
      (l.map Prod.fst).Pairwise (· < ·) ∧
      (∀ k, k ∈ l.map Prod.fst ↔
        k ∈ [(([98] : List Nat), 1), ([97, 98], 2), ([97], 3)].map Prod.fst) ∧
      l.length = ([(([98] : List Nat), 1), ([97, 98], 2), ([97], 3)].map Prod.fst).dedup.length ∧
      ∀ x ∈ l, ∃ v, 0 < v ∧ x.2 = .word v :=
  ⟨by decide, by simp [OpsOK, ZF], by decide, by decide, by simp, by decide,
    judy_enum_sorted 8 (by decide) [([98], 1), ([97, 98], 2), ([97], 3)] (List.replicate 16 0) 16 5
      (by simp [OpsOK, ZF]) (by decide) (by decide) (by simp) (by decide)⟩


/-! ## Counting words -/

/-- C10, as it reads: the steps `*judy_cell(k) += 1` for a list of `2 ^ 64` times the key "a"
leave the word `0` in the cell of "a", which `judy_slot` finds, and not the number `2 ^ 64` of
its occurrences: the count is kept in a 64 bit word. -/
theorem judy_count_wraps :
    ∃ judy r, judy_incrs (List.replicate (2 ^ 64) [97]) (judy_open 8) = some judy ∧
      judy_slot judy [97] 1 = some r ∧ r.cell = some (.word 0) ∧
      (List.replicate (2 ^ 64) [97]).count [97] = 2 ^ 64 := by
  have h1 : judy_incr (judy_open 8) [97] = some (oneKey 1) := rfl
  have h2 : (2 : Nat) ^ 64 = (2 ^ 64 - 1) + 1 := by norm_num
  have h3 : judy_incrs (List.replicate (2 ^ 64) [97]) (judy_open 8) = some (oneKey 0) := by
    rw [h2, List.replicate_succ, judy_incrs, h1]
    simp only
    rw [judy_incrs_oneKey _ 1 (by norm_num)]
    have h4 : (1 + (2 ^ 64 - 1)) % 2 ^ 64 = 0 := by norm_num
    rw [h4]
  exact ⟨oneKey 0, ⟨oneKey 0, some (.word 0)⟩, h3, rfl, rfl, List.count_replicate_self _ _⟩

/-- C10: occurrence counting.  After the steps `*judy_cell(k) += 1` for a list `ks` of fewer
than `2 ^ 64` zero-free keys of at most `M` bytes on an empty array, `judy_slot` of every key
of the list finds the number of its occurrences, and the enumeration `judy_strt`, `judy_nxt`,
... shows every distinct key of the list once, in lexicographic order, with that number.
The array is opened by `judy_open` with a maximum key length `M <= JUDY_open_max`, the
largest that `judy_open` can take. -/
theorem judy_count_words (M : Nat) (hM : M ≤ JUDY_open_max) (ks : List (List Nat))
    (buff : List Nat) (bmax fuel : Nat)
    (hks : ∀ k ∈ ks, ZF k ∧ k.length ≤ M) (hn : ks.length < 2 ^ 64) (hb : M < bmax)
    (hb32 : bmax < 2 ^ 32) (hbl : bmax ≤ buff.length) (hf : ks.length + 1 < fuel) :
    ∃ judy l, judy_incrs ks (judy_open M) = some judy ∧
      (∀ k ∈ ks, ∃ r, judy_slot judy k k.length = some r ∧
        r.cell = some (.word (ks.count k))) ∧
      judy_enum judy buff bmax fuel = some l ∧
      (l.map Prod.fst).Pairwise (· < ·) ∧ (∀ k, k ∈ l.map Prod.fst ↔ k ∈ ks) ∧
      ∀ x ∈ l, x.2 = .word (ks.count x.1) := by
  haveI : Fact (M ≤ JUDY_open_max) := ⟨hM⟩
  obtain ⟨judy, hincrs, hmax, hroot⟩ := judy_incrs_spec M ks (judy_open M) [] hks
    (fun k1 => by simpa [find] using hn) (judy_open_spec M).1 (judy_open_spec M).2
  obtain ⟨hsorted, hgood⟩ := RootRep_sorted_good hroot
  have hkeys : ∀ k, k ∈ (countAll ks []).map Prod.fst ↔ k ∈ ks := by
    intro k
    rw [countAll_keys k ks []]
    simp
  have hfind : ∀ k, find k (countAll ks []) = ks.count k := by
    intro k
    rw [countAll_find k ks [] (fun k1 => by simpa [find] using hn)]
    simp [find]
  have hshort : Short M (countAll ks []) := by
    intro e he
    exact (hks e.1 ((hkeys e.1).1 (List.mem_map.2 ⟨e, he, rfl⟩))).2
  have hlen := sorted_length (countAll ks []) ks hsorted hkeys
  have hle : (countAll ks []).length ≤ ks.length := by
    rw [hlen]; exact (List.dedup_sublist ks).length_le
  have henum := judy_enum_spec M bmax judy (countAll ks []) hmax hroot hshort hb hb32 buff hbl
    fuel (by omega)
  have hfst : ((countAll ks []).map shown).map Prod.fst = (countAll ks []).map Prod.fst := by
    rw [List.map_map]; rfl
  refine ⟨judy, _, hincrs, ?_, henum, ?_, ?_, ?_⟩
  · intro k hk
    obtain ⟨e, he, hek⟩ := List.mem_map.1 ((hkeys k).2 hk)
    subst hek
    have hval : e.2 = ks.count e.1 := by
      rw [← hfind e.1, find_mem _ hsorted e he]
    have hmem : (e.1, ks.count e.1) ∈ countAll ks [] := by
      rw [← hval]; exact he
    have hrep : ∃ d, Rep d 0 judy.root (countAll ks []) := by
      rcases hroot with ⟨_, h0⟩ | h
      · rw [h0] at he; simp at he
      · exact h
    obtain ⟨d, hrep⟩ := hrep
    obtain ⟨fs, A, B, hslot, _, _⟩ := judy_slot_spec M judy _ e.1 (ks.count e.1) d hmax hrep
      hmem (hks e.1 hk).1 (hks e.1 hk).2
    exact ⟨_, hslot, rfl⟩
  · rw [hfst]
    unfold Sorted at hsorted
    rw [List.pairwise_map]
    exact hsorted
  · rw [hfst]; exact hkeys
  · intro x hx
    obtain ⟨e, he, rfl⟩ := List.mem_map.1 hx
    show JNode.word e.2 = JNode.word (ks.count e.1)
    rw [← hfind e.1, find_mem _ hsorted e he]

theorem judy_count_words_witness :
    8 ≤ JUDY_open_max ∧
    (∀ k ∈ [[98], [97], [98], [99], [97], [98]], ZF k ∧ k.length ≤ 8) ∧
    [[98], [97], [98], [99], [97], [98]].length < 2 ^ 64 ∧ 8 < 16 ∧ 16 < 2 ^ 32 ∧
    16 ≤ (List.replicate 16 0).length ∧ [[98], [97], [98], [99], [97], [98]].length + 1 < 8 ∧
    (∃ judy l, judy_incrs [[98], [97], [98], [99], [97], [98]] (judy_open 8) = some judy ∧
      (∀ k ∈ [[98], [97], [98], [99], [97], [98]], ∃ r, judy_slot judy k k.length = some r ∧
        r.cell = some (.word ([[98], [97], [98], [99], [97], [98]].count k))) ∧
      judy_enum judy (List.replicate 16 0) 16 8 = some l ∧
      (l.map Prod.fst).Pairwise (· < ·) ∧
      (∀ k, k ∈ l.map Prod.fst ↔ k ∈ [[98], [97], [98], [99], [97], [98]]) ∧
      ∀ x ∈ l, x.2 = .word ([[98], [97], [98], [99], [97], [98]].count x.1)) ∧
    ∃ judy, judy_incrs [[98], [97], [98], [99], [97], [98]] (judy_open 8) = some judy ∧
      judy_enum judy (List.replicate 16 0) 16 8 =
        some [([97], .word 2), ([98], .word 3), ([99], .word 1)] :=
  ⟨by decide, by simp [ZF], by decide, by decide, by decide, by simp, by decide,
    judy_count_words 8 (by decide) [[98], [97], [98], [99], [97], [98]] (List.replicate 16 0) 16 8
      (by simp [ZF]) (by decide) (by decide) (by decide) (by simp) (by decide),
    ⟨_, rfl, rfl⟩⟩


/-! ## Deletion -/

/-- C8: delete reseats the cursor on the predecessor.  On every array built by driver steps,
insertions `*judy_cell(k) = v` with zero-free keys of at most `M` bytes and non-zero words
and removals of stored keys in any order, for every stored key `k` with its word `v`:
`judy_slot` of `k` returns its cell; `judy_del` then returns the cell of the greatest stored
key smaller than `k`, or `NULL` when no stored key is smaller; every other stored key is
still found by `judy_slot` with its word; the enumeration of the array yields the entries
other than the one of `k`; and a `judy_nxt` right after the `judy_del` returns the cell of
the smallest stored key greater than `k`, or `NULL` when no stored key is greater.
The array is opened by `judy_open` with a maximum key length `M <= JUDY_open_max`, the
largest that `judy_open` can take. -/
theorem judy_del_predecessor (M : Nat) (hM : M ≤ JUDY_open_max) (steps : List Step) (k : List Nat)
    (v : Nat)
    (buff : List Nat) (bmax fuel : Nat) (hok : StepsOK M steps [])
    (hst : (k, v) ∈ stepsEnt steps [])
    (hb : M < bmax) (hb32 : bmax < 2 ^ 32) (hbl : bmax ≤ buff.length)
    (hf : steps.length + 1 < fuel) :
    ∃ judy r rd rn, judy_steps steps (judy_open M) = some judy ∧
      judy_slot judy k k.length = some r ∧ r.cell = some (.word v) ∧
      judy_del r.judy = some rd ∧
      ((∀ e ∈ stepsEnt steps [], ¬ e.1 < k) → rd.cell = none) ∧
      (∀ k1 v1, (k1, v1) ∈ stepsEnt steps [] → k1 < k →
        (∀ e ∈ stepsEnt steps [], e.1 < k → ¬ k1 < e.1) → rd.cell = some (.word v1)) ∧
      (∀ k2 v2, (k2, v2) ∈ stepsEnt steps [] → k2 ≠ k →
        ∃ r2, judy_slot rd.judy k2 k2.length = some r2 ∧ r2.cell = some (.word v2)) ∧
      judy_enum rd.judy buff bmax fuel = some ((without k (stepsEnt steps [])).map shown) ∧
      judy_nxt rd.judy = some rn ∧
      ((∀ e ∈ stepsEnt steps [], ¬ k < e.1) → rn.cell = none) ∧
      (∀ k3 v3, (k3, v3) ∈ stepsEnt steps [] → k < k3 →
        (∀ e ∈ stepsEnt steps [], k < e.1 → ¬ e.1 < k3) → rn.cell = some (.word v3)) := by
  haveI : Fact (M ≤ JUDY_open_max) := ⟨hM⟩
  obtain ⟨judy, hputs, hmax, hroot, hshort, hlen⟩ := judy_open_steps M steps hok
  have hmem := hst
  obtain ⟨hsorted, hgood⟩ := RootRep_sorted_good hroot
  obtain ⟨hk, _⟩ := hgood _ hmem
  have hl := hshort _ hmem
  have hrep : ∃ d, Rep d 0 judy.root (stepsEnt steps []) := by
    rcases hroot with ⟨_, h0⟩ | h
    · rw [h0] at hmem; simp at hmem
    · exact h
  obtain ⟨d, hrep⟩ := hrep
  obtain ⟨fs, A, B, hslot, hpath, hm⟩ := judy_slot_spec M judy _ k v d hmax hrep hmem hk hl
  rw [hm] at hsorted hgood hshort hlen
  rw [hm]
  obtain ⟨sA, sB, sAA, sBB⟩ := sorted_mid hsorted
  have hshA : Short M A := fun e he => hshort e (by simp [he])
  have hshB : Short M B := fun e he => hshort e (by simp [he])
  have hshAB : Short M (A ++ B) := fun e he => by
    rcases List.mem_append.1 he with h | h
    · exact hshA e h
    · exact hshB e h
  have hgA : Good A := fun e he => hgood e (by simp [he])
  obtain ⟨rd, hdel, hmax1, hroot1, hd1, hd2⟩ :=
    judy_del_res M { judy with stack := fs } d A B k v hmax hpath hshA
  obtain ⟨rn, hnxt, hn1, hn2⟩ := judy_nxt_res M rd.judy d A B hmax1 hroot1 hgA hshB
    (fun h => (hd1 h).2) (fun A1 e1 h => (hd2 A1 e1 h).2)
  refine ⟨judy, _, rd, rn, hputs, hslot, rfl, hdel, fun h => ?_, fun k1 v1 h1 h2 h3 => ?_,
    fun k2 v2 h1 h2 => ?_, ?_, hnxt, fun h => ?_, fun k3 v3 h1 h2 h3 => ?_⟩
  · refine (hd1 ?_).1
    apply List.eq_nil_iff_forall_not_mem.2
    intro e he
    exact h e (by simp [he]) (sA e he)
  · rcases List.mem_append.1 h1 with hA | hB
    · rcases List.eq_nil_or_concat A with hA0 | ⟨A1, e1, hA1⟩
      · rw [hA0] at hA; cases hA
      · rw [List.concat_eq_append] at hA1
        rw [(hd2 A1 e1 hA1).1]
        rw [hA1] at hA
        rcases List.mem_append.1 hA with hA2 | hA2
        · exfalso
          rw [hA1] at sAA
          unfold Sorted at sAA
          rw [List.pairwise_append] at sAA
          have hlt := sAA.2.2 _ hA2 e1 (List.mem_singleton_self _)
          exact h3 e1 (by rw [hA1]; simp) (sA e1 (by rw [hA1]; simp)) hlt
        · rw [List.mem_singleton] at hA2
          rw [← hA2]
    · exfalso
      rcases List.mem_cons.1 hB with hB | hB
      · cases hB
        exact lt_irrefl k h2
      · exact lt_asymm h2 (sB _ hB)
  · have hin : (k2, v2) ∈ A ++ B := by
      rcases List.mem_append.1 h1 with hA | hB
      · exact List.mem_append_left _ hA
      · rcases List.mem_cons.1 hB with hB | hB
        · cases hB
          exact absurd rfl h2
        · exact List.mem_append_right _ hB
    have hrep1 : ∃ d1, Rep d1 0 rd.judy.root (A ++ B) := by
      rcases hroot1 with ⟨_, h0⟩ | h
      · rw [h0] at hin; cases hin
      · exact h
    obtain ⟨d1, hrep1⟩ := hrep1
    obtain ⟨fs2, _, _, hs2, _, _⟩ := judy_slot_spec M rd.judy _ k2 v2 d1 hmax1 hrep1 hin
      (hgood _ h1).1 (hshort _ h1)
    exact ⟨_, hs2, rfl⟩
  · rw [without_mid k v A B hsorted]
    exact judy_enum_spec M bmax rd.judy (A ++ B) hmax1 hroot1 hshAB hb hb32 buff hbl fuel (by
      simp only [List.length_append, List.length_cons] at hlen ⊢
      omega)
  · refine hn1 ?_
    apply List.eq_nil_iff_forall_not_mem.2
    intro e he
    exact h e (by simp [he]) (sB e he)
  · rcases List.mem_append.1 h1 with hA | hB
    · exact absurd (sA _ hA) (lt_asymm h2)
    · rcases List.mem_cons.1 hB with hB | hB
      · cases hB
        exact absurd h2 (lt_irrefl k)
      · cases B with
        | nil => cases hB
        | cons e2 B2 =>
          rw [hn2 e2 B2 rfl]
          rcases List.mem_cons.1 hB with hB2 | hB2
          · rw [← hB2]
          · exfalso
            have hlt := (List.pairwise_cons.1 sBB).1 _ hB2
            exact h3 e2 (by simp) (sB e2 (List.mem_cons_self _ _)) hlt

theorem judy_del_predecessor_witness :
    8 ≤ JUDY_open_max ∧
    StepsOK 8 [.put [97] 1, .put [100] 9, .put [98] 2, .del [100], .put [99] 3] [] ∧
    (([98] : List Nat), 2) ∈
      stepsEnt [.put [97] 1, .put [100] 9, .put [98] 2, .del [100], .put [99] 3] [] ∧
    8 < 9 ∧ 9 < 2 ^ 32 ∧ 9 ≤ (List.replicate 9 0).length ∧
    [Step.put [97] 1, .put [100] 9, .put [98] 2, .del [100], .put [99] 3].length + 1 < 7 ∧
    (∃ judy r rd rn,
      judy_steps [.put [97] 1, .put [100] 9, .put [98] 2, .del [100], .put [99] 3]
        (judy_open 8) = some judy ∧
      judy_slot judy [98] [98].length = some r ∧ r.cell = some (.word 2) ∧
      judy_del r.judy = some rd ∧
      ((∀ e ∈ stepsEnt [.put [97] 1, .put [100] 9, .put [98] 2, .del [100], .put [99] 3] [],
        ¬ e.1 < [98]) → rd.cell = none) ∧
      (∀ k1 v1, (k1, v1) ∈
          stepsEnt [.put [97] 1, .put [100] 9, .put [98] 2, .del [100], .put [99] 3] [] →
        k1 < [98] →
        (∀ e ∈ stepsEnt [.put [97] 1, .put [100] 9, .put [98] 2, .del [100], .put [99] 3] [],
          e.1 < [98] → ¬ k1 < e.1) →
        rd.cell = some (.word v1)) ∧
      (∀ k2 v2, (k2, v2) ∈
          stepsEnt [.put [97] 1, .put [100] 9, .put [98] 2, .del [100], .put [99] 3] [] →
        k2 ≠ [98] →
        ∃ r2, judy_slot rd.judy k2 k2.length = some r2 ∧ r2.cell = some (.word v2)) ∧
      judy_enum rd.judy (List.replicate 9 0) 9 7 = some ((without [98]
        (stepsEnt [.put [97] 1, .put [100] 9, .put [98] 2, .del [100], .put [99] 3] [])).map
        shown) ∧
      judy_nxt rd.judy = some rn ∧
      ((∀ e ∈ stepsEnt [.put [97] 1, .put [100] 9, .put [98] 2, .del [100], .put [99] 3] [],
        ¬ [98] < e.1) → rn.cell = none) ∧
      (∀ k3 v3, (k3, v3) ∈
          stepsEnt [.put [97] 1, .put [100] 9, .put [98] 2, .del [100], .put [99] 3] [] →
        [98] < k3 →
        (∀ e ∈ stepsEnt [.put [97] 1, .put [100] 9, .put [98] 2, .del [100], .put [99] 3] [],
          [98] < e.1 → ¬ e.1 < k3) →
        rn.cell = some (.word v3))) ∧
    (∃ judy r rd rn, judy_puts [([97], 1), ([98], 2), ([99], 3)] (judy_open 8) = some judy ∧
      judy_slot judy [98] 1 = some r ∧ judy_del r.judy = some rd ∧
      rd.cell = some (.word 1) ∧ judy_nxt rd.judy = some rn ∧ rn.cell = some (.word 3)) :=
  ⟨by decide, ⟨⟨by simp [ZF], by decide, by decide⟩, ⟨by simp [ZF], by decide, by decide⟩,
      ⟨by simp [ZF], by decide, by decide⟩, by decide, ⟨by simp [ZF], by decide, by decide⟩,
      trivial⟩, by decide,
    by decide, by decide, by decide, by decide,
    judy_del_predecessor 8 (by decide) [.put [97] 1, .put [100] 9, .put [98] 2, .del [100], .put [99] 3]
      [98] 2 (List.replicate 9 0) 9 7
      ⟨⟨by simp [ZF], by decide, by decide⟩, ⟨by simp [ZF], by decide, by decide⟩,
      ⟨by simp [ZF], by decide, by decide⟩, by decide, ⟨by simp [ZF], by decide, by decide⟩,
      trivial⟩
      (by decide) (by decide) (by decide) (by decide) (by decide),
    ⟨_, _, _, _, rfl, rfl, rfl, rfl, rfl, rfl⟩⟩


/-! ## Deletion down to the empty array -/

theorem judy_removes_spec (M : Nat) [Fact (M ≤ JUDY_open_max)] : ∀ (ks : List (List Nat))
    (judy : Judy) (m : List Ent),
    judy.max = M + 1 → RootRep judy.root m → Short M m → ks.Nodup →
    (∀ k, k ∈ ks ↔ k ∈ m.map Prod.fst) →
    ∃ judy1, judy_removes ks judy = some judy1 ∧ judy1.root = .word 0 := by
  intro ks
  induction ks with
  | nil =>
    intro judy m _ hroot _ _ hk
    have hm : m = [] := by
      cases m with
      | nil => rfl
      | cons e m1 => exact absurd ((hk e.1).2 (by simp)) (List.not_mem_nil _)
    subst hm
    exact ⟨judy, rfl, RootRep_nil hroot⟩
  | cons k ks ih =>
    intro judy m hmax hroot hshort hnd hk
    obtain ⟨e, he, hek⟩ := List.mem_map.1 ((hk k).1 (List.mem_cons_self _ _))
    obtain ⟨k0, v⟩ := e
    simp only at hek
    subst hek
    obtain ⟨judy1, hrem, hmax1, hroot1⟩ := judy_remove_spec M judy m k0 v hmax hroot hshort he
    obtain ⟨hnk, hnd1⟩ := List.nodup_cons.1 hnd
    obtain ⟨judy2, hrems, hz⟩ := ih judy1 (without k0 m) hmax1 hroot1
      (fun e he => hshort e (List.mem_filter.1 he).1) hnd1 (fun k1 => by
        constructor
        · intro h1
          obtain ⟨e1, he1, hek1⟩ := List.mem_map.1 ((hk k1).1 (List.mem_cons_of_mem _ h1))
          refine List.mem_map.2 ⟨e1, List.mem_filter.2 ⟨he1, ?_⟩, hek1⟩
          simp only [ne_eq, decide_eq_true_eq]
          intro h0
          rw [hek1] at h0
          rw [h0] at h1
          exact hnk h1
        · intro h1
          obtain ⟨e1, he1, hek1⟩ := List.mem_map.1 h1
          obtain ⟨he2, he3⟩ := List.mem_filter.1 he1
          simp only [ne_eq, decide_eq_true_eq] at he3
          rcases List.mem_cons.1 ((hk k1).2 (List.mem_map.2 ⟨e1, he2, hek1⟩)) with h0 | h0
          · rw [hek1] at he3
            exact absurd h0 he3
          · exact h0)
    refine ⟨judy2, ?_, hz⟩
    rw [judy_removes, hrem]
    exact hrems

theorem del_all_spec (M d : Nat) [Fact (M ≤ JUDY_open_max)] : ∀ (A : List Ent) (e : Ent)
    (judy : Judy) (fuel : Nat),
    judy.max = M + 1 → Path d 0 judy.root judy.stack A e [] → Short M A →
    A.length + 1 < fuel →
    ∃ judy1, del_all_loop fuel judy (some (.word e.2)) =
        some ((e :: A.reverse).map (fun x => JNode.word x.2), judy1) ∧
      judy1.root = .word 0 := by
  intro A
  induction A using List.reverseRecOn with
  | nil =>
    intro e judy fuel hmax hpath hshort hf
    obtain ⟨f, rfl⟩ : ∃ f, fuel = f + 2 := ⟨fuel - 2, by simp at hf; omega⟩
    obtain ⟨rd, hdel, _, hroot1, hd1, _⟩ := judy_del_res M judy d [] [] e.1 e.2 hmax hpath hshort
    refine ⟨rd.judy, ?_, RootRep_nil hroot1⟩
    rw [del_all_loop, hdel]
    simp only
    rw [(hd1 rfl).1, del_all_loop]
    rfl
  | append_singleton A1 e1 ih =>
    intro e judy fuel hmax hpath hshort hf
    obtain ⟨f, rfl⟩ : ∃ f, fuel = f + 1 := ⟨fuel - 1, by omega⟩
    obtain ⟨rd, hdel, hmax1, _, _, hd2⟩ :=
      judy_del_res M judy d (A1 ++ [e1]) [] e.1 e.2 hmax hpath hshort
    obtain ⟨hc, hp⟩ := hd2 A1 e1 rfl
    obtain ⟨judy1, hloop, hz⟩ := ih e1 rd.judy f hmax1 hp
      (fun x hx => hshort x (List.mem_append_left _ hx))
      (by simp only [List.length_append, List.length_singleton] at hf; omega)
    refine ⟨judy1, ?_, hz⟩
    rw [del_all_loop, hdel]
    simp only
    rw [hc, hloop]
    simp

/-- C9: empty invariant.  On every array built by driver steps `*judy_cell(k) = v` with
zero-free keys of at most `M` bytes and non-zero words: after every stored key has been
positioned with `judy_slot` and removed with `judy_del`, once each and in any order, the root
word is `0` and `judy_strt` with an empty key returns `NULL`; and starting at the last entry
and calling `judy_del` until it returns `NULL` visits the cell of every entry exactly once,
from the greatest key down to the smallest, as many cells as there are distinct keys, and
leaves the root word `0` and `judy_strt` with an empty key returning `NULL`.
The array is opened by `judy_open` with a maximum key length `M <= JUDY_open_max`, the
largest that `judy_open` can take. -/
theorem judy_del_all_empty (M : Nat) (hM : M ≤ JUDY_open_max) (ops : List Ent) (hops : OpsOK M ops) :
    ∃ judy, judy_puts ops (judy_open M) = some judy ∧
      (∀ ks : List (List Nat), ks.Nodup → (∀ k, k ∈ ks ↔ k ∈ ops.map Prod.fst) →
        ∃ judy1 r, judy_removes ks judy = some judy1 ∧ judy1.root = .word 0 ∧
          judy_strt judy1 [] 0 = some r ∧ r.cell = none) ∧
      (∀ fuel, ops.length + 2 < fuel →
        ∃ judy1 r, judy_del_all judy fuel =
            some ((insAll ops []).reverse.map (fun e => JNode.word e.2), judy1) ∧
          (insAll ops []).length = (ops.map Prod.fst).dedup.length ∧
          judy1.root = .word 0 ∧ judy_strt judy1 [] 0 = some r ∧ r.cell = none) := by
  haveI : Fact (M ≤ JUDY_open_max) := ⟨hM⟩
  obtain ⟨judy, hputs, hmax, hroot⟩ := judy_puts_spec M ops (judy_open M) [] hops
    (judy_open_spec M).1 (judy_open_spec M).2
  have hshort := insAll_short M ops hops
  have hkeys := insAll_keys M ops hops
  have hlen := insAll_length M ops hops
  refine ⟨judy, hputs, fun ks hnd hk => ?_, fun fuel hf => ?_⟩
  · obtain ⟨judy1, hrem, hz⟩ := judy_removes_spec M ks judy _ hmax hroot hshort hnd
      (fun k => by rw [hk k, hkeys k])
    exact ⟨judy1, _, hrem, hz, judy_strt_empty judy1 hz, rfl⟩
  · have hcount := sorted_length _ (ops.map Prod.fst) (RootRep_sorted_good hroot).1 hkeys
    rcases hroot with ⟨h0, hm⟩ | ⟨d, hrep⟩
    · obtain ⟨f, rfl⟩ : ∃ f, fuel = f + 1 := ⟨fuel - 1, by omega⟩
      refine ⟨{ judy with stack := [] }, _, ?_, hcount, h0, judy_strt_empty _ h0, rfl⟩
      unfold judy_del_all judy_end
      rw [hm, h0, judy_last, ← h0]
      rfl
    · obtain ⟨fs, e, A, hend, hpath, hm⟩ := judy_end_spec M judy _ d hmax hrep hshort
      rw [hm] at hshort hlen
      obtain ⟨judy1, hloop, hz⟩ := del_all_spec M d A e { judy with stack := fs } fuel hmax hpath
        (fun x hx => hshort x (List.mem_append_left _ hx))
        (by simp only [List.length_append, List.length_singleton] at hlen; omega)
      refine ⟨judy1, _, ?_, hcount, hz, judy_strt_empty judy1 hz, rfl⟩
      unfold judy_del_all
      rw [hend]
      simp only
      rw [hloop, hm]
      simp

theorem judy_del_all_empty_witness :
    8 ≤ JUDY_open_max ∧
    OpsOK 8 [([98], 2), ([97, 99], 1), ([99], 3), ([98], 5)] ∧
    (∃ judy, judy_puts [([98], 2), ([97, 99], 1), ([99], 3), ([98], 5)] (judy_open 8) =
        some judy ∧
      (∀ ks : List (List Nat), ks.Nodup →
        (∀ k, k ∈ ks ↔ k ∈ [(([98] : List Nat), 2), ([97, 99], 1), ([99], 3), ([98], 5)].map
          Prod.fst) →
        ∃ judy1 r, judy_removes ks judy = some judy1 ∧ judy1.root = .word 0 ∧
          judy_strt judy1 [] 0 = some r ∧ r.cell = none) ∧
      (∀ fuel, [(([98] : List Nat), 2), ([97, 99], 1), ([99], 3), ([98], 5)].length + 2 < fuel →
        ∃ judy1 r, judy_del_all judy fuel =
            some ((insAll [([98], 2), ([97, 99], 1), ([99], 3), ([98], 5)] []).reverse.map
              (fun e => JNode.word e.2), judy1) ∧
          (insAll [([98], 2), ([97, 99], 1), ([99], 3), ([98], 5)] []).length =
            ([(([98] : List Nat), 2), ([97, 99], 1), ([99], 3), ([98], 5)].map
              Prod.fst).dedup.length ∧
          judy1.root = .word 0 ∧ judy_strt judy1 [] 0 = some r ∧ r.cell = none)) ∧
    (∃ judy judy1 judy2 r, judy_puts [([98], 2), ([97, 99], 1), ([99], 3), ([98], 5)]
        (judy_open 8) = some judy ∧
      judy_removes [[98], [99], [97, 99]] judy = some judy1 ∧ judy1.root = .word 0 ∧
      judy_del_all judy 7 = some ([.word 3, .word 5, .word 1], judy2) ∧
      judy2.root = .word 0 ∧ judy_strt judy2 [] 0 = some r ∧ r.cell = none) :=
  ⟨by decide, by simp [OpsOK, ZF],
    judy_del_all_empty 8 (by decide) [([98], 2), ([97, 99], 1), ([99], 3), ([98], 5)] (by simp [OpsOK, ZF]),
    ⟨_, _, _, _, rfl, rfl, rfl, rfl, rfl, rfl, rfl⟩⟩


/-! ## The last entry and the empty cursor -/

theorem sorted_first {e : Ent} {B : List Ent} (h : Sorted (e :: B)) (x : Ent) (hx : x ∈ e :: B)
    (hmin : ∀ y ∈ e :: B, ¬ y.1 < x.1) : x = e := by
  rcases List.mem_cons.1 hx with h1 | h1
  · exact h1
  · exact absurd ((List.pairwise_cons.1 h).1 x h1) (hmin e (List.mem_cons_self _ _))

theorem sorted_last {e : Ent} {A : List Ent} (h : Sorted (A ++ [e])) (x : Ent)
    (hx : x ∈ A ++ [e]) (hmax : ∀ y ∈ A ++ [e], ¬ x.1 < y.1) : x = e := by
  rcases List.mem_append.1 hx with h1 | h1
  · unfold Sorted at h
    rw [List.pairwise_append] at h
    exact absurd (h.2.2 x h1 e (List.mem_singleton_self _)) (hmax e (by simp))
  · exact List.mem_singleton.1 h1

/-- C11: last entry.  On every array built by driver steps, insertions `*judy_cell(k) = v`
with zero-free keys of at most `M` bytes and non-zero words and removals of stored keys in
any order, `judy_end` returns `NULL` exactly when no key is stored, and otherwise it returns
the cell of the greatest stored key, and `judy_key` then returns the length of that key and
leaves its bytes in the buffer, followed by a zero byte.
The array is opened by `judy_open` with a maximum key length `M <= JUDY_open_max`, the
largest that `judy_open` can take. -/
theorem judy_end_greatest (M : Nat) (hM : M ≤ JUDY_open_max) (steps : List Step) (buff : List Nat)
    (bmax : Nat)
    (hok : StepsOK M steps []) (hb : M < bmax) (hb32 : bmax < 2 ^ 32)
    (hbl : bmax ≤ buff.length) :
    ∃ judy r, judy_steps steps (judy_open M) = some judy ∧ judy_end judy = some r ∧
      (r.cell = none ↔ stepsEnt steps [] = []) ∧
      ∀ k v, (k, v) ∈ stepsEnt steps [] → (∀ e ∈ stepsEnt steps [], ¬ k < e.1) →
        r.cell = some (.word v) ∧
        ∃ buff1, judy_key r.judy buff bmax = some (buff1, k.length) ∧
          buff1.take k.length = k ∧ buff1.getD k.length 1 = 0 := by
  haveI : Fact (M ≤ JUDY_open_max) := ⟨hM⟩
  obtain ⟨judy, hsteps, hmax, hroot, hshort, _⟩ := judy_open_steps M steps hok
  obtain ⟨hsorted, _⟩ := RootRep_sorted_good hroot
  rcases hroot with ⟨h0, hm⟩ | ⟨d, hrep⟩
  · refine ⟨judy, ⟨{ judy with stack := [] }, none⟩, hsteps, ?_, ⟨fun _ => hm, fun _ => rfl⟩,
      fun k v h => ?_⟩
    · unfold judy_end
      rw [h0, judy_last, ← h0]
      rfl
    · rw [hm] at h
      cases h
  · obtain ⟨fs, e, A, hend, hpath, hm⟩ := judy_end_spec M judy _ d hmax hrep hshort
    refine ⟨judy, _, hsteps, hend, ⟨fun h => (by cases h), fun h => ?_⟩, fun k v h1 h2 => ?_⟩
    · rw [h] at hm
      simp at hm
    · rw [hm] at h1 h2 hsorted
      have heq := sorted_last hsorted (k, v) h1 h2
      subst heq
      refine ⟨rfl, judy_key_path { judy with stack := fs } d A [] k v buff bmax hpath ?_ hb32 hbl⟩
      have := hshort (k, v) (by rw [hm]; simp)
      simp only at this
      omega

theorem judy_end_greatest_witness :
    8 ≤ JUDY_open_max ∧
    StepsOK 8 [.put [98] 1, .put [97, 98, 99] 2, .put [99, 100] 5, .del [99, 100]] [] ∧
    8 < 9 ∧ 9 < 2 ^ 32 ∧ 9 ≤ (List.replicate 9 7).length ∧
    (∃ judy r,
      judy_steps [.put [98] 1, .put [97, 98, 99] 2, .put [99, 100] 5, .del [99, 100]]
        (judy_open 8) = some judy ∧
      judy_end judy = some r ∧
      (r.cell = none ↔
        stepsEnt [.put [98] 1, .put [97, 98, 99] 2, .put [99, 100] 5, .del [99, 100]] [] = []) ∧
      ∀ k v, (k, v) ∈
          stepsEnt [.put [98] 1, .put [97, 98, 99] 2, .put [99, 100] 5, .del [99, 100]] [] →
        (∀ e ∈ stepsEnt [.put [98] 1, .put [97, 98, 99] 2, .put [99, 100] 5, .del [99, 100]] [],
          ¬ k < e.1) →
        r.cell = some (.word v) ∧
        ∃ buff1, judy_key r.judy (List.replicate 9 7) 9 = some (buff1, k.length) ∧
          buff1.take k.length = k ∧ buff1.getD k.length 1 = 0) ∧
    (∃ judy r,
      judy_steps [.put [98] 1, .put [97, 98, 99] 2, .put [99, 100] 5, .del [99, 100]]
        (judy_open 8) = some judy ∧
      judy_end judy = some r ∧ r.cell = some (.word 1) ∧
      judy_key r.judy (List.replicate 9 7) 9 = some ([98, 0, 7, 7, 7, 7, 7, 7, 7], 1)) :=
  ⟨by decide, ⟨⟨by simp [ZF], by decide, by decide⟩, ⟨by simp [ZF], by decide, by decide⟩,
      ⟨by simp [ZF], by decide, by decide⟩, by decide, trivial⟩,
    by decide, by decide, by decide,
    judy_end_greatest 8 (by decide) [.put [98] 1, .put [97, 98, 99] 2, .put [99, 100] 5, .del [99, 100]]
      (List.replicate 9 7) 9
      ⟨⟨by simp [ZF], by decide, by decide⟩, ⟨by simp [ZF], by decide, by decide⟩,
        ⟨by simp [ZF], by decide, by decide⟩, by decide, trivial⟩
      (by decide) (by decide) (by decide),
    ⟨_, _, rfl, rfl, rfl, rfl⟩⟩

/-- C12: an empty cursor restarts from the root.  On every array built by driver steps,
insertions with zero-free keys of at most `M` bytes and non-zero words and removals of stored
keys, and after any sequence of moves `judy_nxt` and `judy_prv` from the cursor that the
steps left: `judy_nxt` and `judy_prv` return; when either returns `NULL` the cursor it leaves
is empty (level 0); and when the cursor is empty (a freshly opened array, or right after a
move returned `NULL`), `judy_nxt` returns the cell of the smallest stored key and `judy_prv`
the cell of the greatest stored key, both `NULL` when no key is stored.
The array is opened by `judy_open` with a maximum key length `M <= JUDY_open_max`, the
largest that `judy_open` can take. -/
theorem judy_empty_cursor_restarts (M : Nat) (hM : M ≤ JUDY_open_max) (steps : List Step)
    (moves : List Move)
    (hok : StepsOK M steps []) :
    ∃ judy judy1 rn rp, judy_steps steps (judy_open M) = some judy ∧
      judy_moves moves judy = some judy1 ∧
      judy_nxt judy1 = some rn ∧ judy_prv judy1 = some rp ∧
      (rn.cell = none → rn.judy.stack = []) ∧ (rp.cell = none → rp.judy.stack = []) ∧
      (judy1.stack = [] →
        (stepsEnt steps [] = [] → rn.cell = none ∧ rp.cell = none) ∧
        (∀ k v, (k, v) ∈ stepsEnt steps [] → (∀ e ∈ stepsEnt steps [], ¬ e.1 < k) →
          rn.cell = some (.word v)) ∧
        (∀ k v, (k, v) ∈ stepsEnt steps [] → (∀ e ∈ stepsEnt steps [], ¬ k < e.1) →
          rp.cell = some (.word v))) := by
  haveI : Fact (M ≤ JUDY_open_max) := ⟨hM⟩
  obtain ⟨judy, hsteps, hmax, hroot, hshort, _⟩ := judy_open_steps M steps hok
  obtain ⟨judy0, hsteps0, hcur⟩ := judy_steps_cursor M steps (judy_open M) [] hok
    (judy_open_spec M).1 (judy_open_spec M).2 (fun e he => absurd he (List.not_mem_nil _))
    (Or.inl rfl)
  rw [hsteps] at hsteps0
  cases hsteps0
  obtain ⟨hsorted, _⟩ := RootRep_sorted_good hroot
  obtain ⟨judy1, hmoves, hmax1, hroot1, hcur1⟩ :=
    judy_moves_state M _ hshort moves judy hmax hroot hcur
  rw [← hroot1] at hroot
  obtain ⟨rn, hn, _, _, _, hn1, hn2⟩ := judy_nxt_state M judy1 _ hmax1 hroot hshort hcur1
  obtain ⟨rp, hp, _, _, _, hp1, hp2⟩ := judy_prv_state M judy1 _ hmax1 hroot hshort hcur1
  refine ⟨judy, judy1, rn, rp, hsteps, hmoves, hn, hp, hn1, hp1, fun hst => ⟨fun hm =>
    ⟨(hn2 hst).1 hm, (hp2 hst).1 hm⟩, fun k v h1 h2 => ?_, fun k v h1 h2 => ?_⟩⟩
  · cases hm : stepsEnt steps [] with
    | nil => rw [hm] at h1; cases h1
    | cons e B =>
      rw [hm] at h1 h2 hsorted
      have heq := sorted_first hsorted (k, v) h1 h2
      rw [(hn2 hst).2 e B hm, ← heq]
  · rcases List.eq_nil_or_concat (stepsEnt steps []) with hm | ⟨A, e, hm⟩
    · rw [hm] at h1; cases h1
    · rw [List.concat_eq_append] at hm
      rw [hm] at h1 h2 hsorted
      have heq := sorted_last hsorted (k, v) h1 h2
      rw [(hp2 hst).2 A e hm, ← heq]

theorem judy_empty_cursor_restarts_witness :
    8 ≤ JUDY_open_max ∧
    StepsOK 8 [.put [97] 1, .put [98] 2, .put [99] 3] [] ∧
    (∃ judy judy1 rn rp,
      judy_steps [.put [97] 1, .put [98] 2, .put [99] 3] (judy_open 8) = some judy ∧
      judy_moves [.prv, .nxt, .nxt] judy = some judy1 ∧
      judy_nxt judy1 = some rn ∧ judy_prv judy1 = some rp ∧
      (rn.cell = none → rn.judy.stack = []) ∧ (rp.cell = none → rp.judy.stack = []) ∧
      (judy1.stack = [] →
        (stepsEnt [.put [97] 1, .put [98] 2, .put [99] 3] [] = [] →
          rn.cell = none ∧ rp.cell = none) ∧
        (∀ k v, (k, v) ∈ stepsEnt [.put [97] 1, .put [98] 2, .put [99] 3] [] →
          (∀ e ∈ stepsEnt [.put [97] 1, .put [98] 2, .put [99] 3] [], ¬ e.1 < k) →
          rn.cell = some (.word v)) ∧
        (∀ k v, (k, v) ∈ stepsEnt [.put [97] 1, .put [98] 2, .put [99] 3] [] →
          (∀ e ∈ stepsEnt [.put [97] 1, .put [98] 2, .put [99] 3] [], ¬ k < e.1) →
          rp.cell = some (.word v)))) ∧
    (∃ judy judy1 rn rp,
      judy_steps [.put [97] 1, .put [98] 2, .put [99] 3] (judy_open 8) = some judy ∧
      judy_moves [.prv, .nxt, .nxt] judy = some judy1 ∧ judy1.stack = [] ∧
      judy_nxt judy1 = some rn ∧ rn.cell = some (.word 1) ∧
      judy_prv judy1 = some rp ∧ rp.cell = some (.word 3)) :=
  ⟨by decide, ⟨⟨by simp [ZF], by decide, by decide⟩, ⟨by simp [ZF], by decide, by decide⟩,
      ⟨by simp [ZF], by decide, by decide⟩, trivial⟩,
    judy_empty_cursor_restarts 8 (by decide) [.put [97] 1, .put [98] 2, .put [99] 3] [.prv, .nxt, .nxt]
      ⟨⟨by simp [ZF], by decide, by decide⟩, ⟨by simp [ZF], by decide, by decide⟩,
        ⟨by simp [ZF], by decide, by decide⟩, trivial⟩,
    ⟨_, _, _, _, rfl, rfl, rfl, rfl, rfl, rfl, rfl⟩⟩


/-! ## Mutation through a clone -/

/-- C13, as it reads: in the array that holds "a", "b" and "c", whose root is a `JUDY_4`
node with one empty slot, `judy_cell` of "d" through a clone returns a cell without a call of
`judy_alloc`, hence without an error, and the root node, which the clone shares with the
array, has the key of "d" in it afterwards; likewise `judy_slot` of "b" and `judy_del` through
a clone take the entry of "b" out of the shared root node. -/
theorem judy_clone_mutates_shared_node :
    ∃ judy r rs rd, judy_puts [([97], 1), ([98], 2), ([99], 3)] (judy_open 8) = some judy ∧
      judy.root = .lin 3 [0, 97 * 256 ^ 7, 98 * 256 ^ 7, 99 * 256 ^ 7]
        [.word 0, .word 1, .word 2, .word 3] ∧
      judy_cell_clone (judy_clone judy) [100] 1 = some r ∧ r.cell = some (.word 0) ∧
      r.judy.root = .lin 3 [97 * 256 ^ 7, 98 * 256 ^ 7, 99 * 256 ^ 7, 100 * 256 ^ 7]
        [.word 1, .word 2, .word 3, .word 0] ∧
      judy_slot (judy_clone judy) [98] 1 = some rs ∧ rs.cell = some (.word 2) ∧
      judy_del rs.judy = some rd ∧
      rd.judy.root = .lin 3 [0, 0, 97 * 256 ^ 7, 99 * 256 ^ 7]
        [.word 0, .word 0, .word 1, .word 3] :=
  ⟨_, _, _, _, rfl, rfl, rfl, rfl, rfl, rfl, rfl, rfl, rfl⟩

/-- C13: what a clone guards.  A clone shares the nodes of the array and only `judy_alloc`
is stopped through it.  In every array that `judy_open` can open for keys of at most `M` bytes
and that is built by driver steps: `judy_cell` through a clone of a stored key returns the cell
of the key, with its word, and leaves the root, hence every node, unchanged, as it does on the
array itself; `judy_cell` through a clone of any key either stops at `judy_alloc` (no result)
or returns what `judy_cell` returns on the array itself, with the same new content of the
shared nodes; and `judy_slot` with `judy_del` through a clone of a stored key returns with a
node graph that holds the other entries only. -/
theorem judy_clone_guards_alloc (M : Nat) (hM : M ≤ JUDY_open_max) (steps : List Step)
    (hok : StepsOK M steps []) :
    ∃ judy, judy_steps steps (judy_open M) = some judy ∧
      (∀ k v, (k, v) ∈ stepsEnt steps [] →
        ∃ r, judy_cell_clone (judy_clone judy) k k.length = some r ∧
          r.cell = some (.word v) ∧ r.judy.root = judy.root ∧
          judy_cell judy k k.length = some r) ∧
      (∀ k len, judy_cell_clone (judy_clone judy) k len = none ∨
        judy_cell_clone (judy_clone judy) k len = judy_cell judy k len) ∧
      (∀ k v, (k, v) ∈ stepsEnt steps [] →
        ∃ judy1, judy_remove (judy_clone judy) k = some judy1 ∧
          RootRep judy1.root (without k (stepsEnt steps []))) := by
  haveI : Fact (M ≤ JUDY_open_max) := ⟨hM⟩
  obtain ⟨judy, hsteps, hmax, hroot, hshort, _⟩ := judy_open_steps M steps hok
  obtain ⟨_, hgood⟩ := RootRep_sorted_good hroot
  have hsub : ∀ k len, judy_cell_clone (judy_clone judy) k len = none ∨
      judy_cell_clone (judy_clone judy) k len = judy_cell judy k len := by
    intro k len
    unfold judy_cell_clone judy_cell judy_clone
    cases hc : cell_loop_clone k len (2 * judy.max + 2) judy.root 0 with
    | none => exact Or.inl rfl
    | some x =>
      right
      rw [clone_sub k len _ _ _ x hc]
  refine ⟨judy, hsteps, fun k v hst => ?_, hsub, fun k v hst => ?_⟩
  · obtain ⟨hk, hv⟩ := hgood _ hst
    have hl : k.length ≤ M := hshort _ hst
    have hrep : ∃ d, Rep d 0 judy.root (stepsEnt steps []) := by
      rcases hroot with ⟨_, h0⟩ | h
      · rw [h0] at hst; cases hst
      · exact h
    obtain ⟨d, hrep⟩ := hrep
    obtain ⟨fs, A, B, _, hpath, _⟩ := judy_slot_spec M judy _ k v d hmax hrep hst hk hl
    have hloop := clone_path k hk (len31 hl) d 0 judy.root fs A B k v (2 * judy.max + 2) hpath
      rfl (Nat.zero_le _) (by rw [hmax]; omega)
    have hfl : fs.length ≤ judy.max := by
      obtain ⟨fs2, A2, B2, hl2, hp2, _, hf2⟩ := slot_hit k hk (len31 hl) judy.max d 0 judy.root _
        k v [] (judy.max + 1) hrep hst rfl (Nat.zero_le _) (by rw [hmax]; omega)
        (by rw [hmax]; simp; omega)
      have hl3 := slot_path k hk (len31 hl) judy.max d 0 judy.root fs A B k v [] (judy.max + 1)
        hpath rfl (Nat.zero_le _) (by rw [hmax]; omega) (by rw [hmax]; simp; omega)
      rw [hl2] at hl3
      have : fs2 = fs := by simpa using hl3
      rw [← this, hmax]
      omega
    have hclone : judy_cell_clone (judy_clone judy) k k.length =
        some ⟨{ judy with root := judy.root, stack := fs }, some (.word v)⟩ := by
      unfold judy_cell_clone judy_clone
      rw [hloop]
      simp only
      rw [if_pos hfl]
    refine ⟨_, hclone, rfl, rfl, ?_⟩
    rcases hsub k k.length with h | h
    · rw [hclone] at h; cases h
    · rw [← h]; exact hclone
  · exact (judy_remove_spec M (judy_clone judy) _ k v hmax hroot hshort hst).imp
      (fun judy1 h => ⟨h.1, h.2.2⟩)

theorem judy_clone_guards_alloc_witness :
    8 ≤ JUDY_open_max ∧ StepsOK 8 [.put [97] 1, .put [98] 2, .put [99] 3] [] ∧
    (∃ judy, judy_steps [.put [97] 1, .put [98] 2, .put [99] 3] (judy_open 8) = some judy ∧
      (∀ k v, (k, v) ∈ stepsEnt [.put [97] 1, .put [98] 2, .put [99] 3] [] →
        ∃ r, judy_cell_clone (judy_clone judy) k k.length = some r ∧
          r.cell = some (.word v) ∧ r.judy.root = judy.root ∧
          judy_cell judy k k.length = some r) ∧
      (∀ k len, judy_cell_clone (judy_clone judy) k len = none ∨
        judy_cell_clone (judy_clone judy) k len = judy_cell judy k len) ∧
      (∀ k v, (k, v) ∈ stepsEnt [.put [97] 1, .put [98] 2, .put [99] 3] [] →
        ∃ judy1, judy_remove (judy_clone judy) k = some judy1 ∧
          RootRep judy1.root (without k (stepsEnt [.put [97] 1, .put [98] 2, .put [99] 3]
            [])))) ∧
    ((judy_steps [.put [97] 1, .put [98] 2, .put [99] 3] (judy_open 8)).bind
      (fun judy => judy_cell_clone (judy_clone judy) [98] 1)).map
        (fun r => (r.cell, r.judy.root)) =
      some (some (.word 2), .lin 3 [0, 97 * 256 ^ 7, 98 * 256 ^ 7, 99 * 256 ^ 7]
        [.word 0, .word 1, .word 2, .word 3]) ∧
    ((judy_steps [.put [97] 1, .put [98] 2, .put [99] 3, .put [100] 4] (judy_open 8)).bind
      (fun judy => judy_cell_clone (judy_clone judy) [101] 1)).map (fun r => r.cell) = none :=
  ⟨by decide, ⟨⟨by simp [ZF], by decide, by decide⟩, ⟨by simp [ZF], by decide, by decide⟩,
      ⟨by simp [ZF], by decide, by decide⟩, trivial⟩,
    judy_clone_guards_alloc 8 (by decide) [.put [97] 1, .put [98] 2, .put [99] 3]
      ⟨⟨by simp [ZF], by decide, by decide⟩, ⟨by simp [ZF], by decide, by decide⟩,
        ⟨by simp [ZF], by decide, by decide⟩, trivial⟩, rfl, rfl⟩


/-! ## Key reconstruction -/

/-- C14: bounded key reconstruction.  For every cursor state, every frame of which names a
node and a slot of that node or, for a linear node, the slot `-1` that `judy_slot` leaves
after a miss below every key of the node, for every content `front` of the memory in front of
the nodes, which `judy_key` reads for such a frame, and for every buffer of `max >= 1` bytes,
`judy_key` returns a length `len <= max - 1`, changes no byte of the buffer from index `max`
on, leaves a zero byte at index `len`, and none of the bytes before index `len` is zero.  On
a cursor without a negative slot that is the result of `judy_key` with nothing known of the
memory outside the nodes. -/
theorem judy_key_bounded (front : JudyStack → Nat) (judy : Judy) (buff : List Nat)
    (bmax : Nat) (hfr : ∀ f ∈ judy.stack, KeyFrame f) (h1 : 1 ≤ bmax) (hb32 : bmax < 2 ^ 32)
    (hbl : bmax ≤ buff.length) :
    ∃ buff1 len, judy_key_front front judy buff bmax = some (buff1, len) ∧ len ≤ bmax - 1 ∧
      buff1.length = buff.length ∧ (∀ i, bmax ≤ i → buff1.getD i 0 = buff.getD i 0) ∧
      buff1.getD len 1 = 0 ∧ (∀ i, i < len → buff1.getD i 0 ≠ 0) ∧
      ((∀ f ∈ judy.stack, 0 ≤ f.slot) → judy_key judy buff bmax = some (buff1, len)) := by
  have hmax1 : (bmax + 2 ^ 32 - 1) % 2 ^ 32 = bmax - 1 := by omega
  obtain ⟨buff2, len, hloop, h2, h3, h4, h5⟩ := key_loop_inv front (bmax - 1) buff (by omega)
    judy.stack.reverse buff 0 (fun f hf => hfr f (List.mem_reverse.1 hf))
    ⟨Nat.zero_le _, rfl, fun _ _ => rfl, fun i hi => absurd hi (Nat.not_lt_zero i)⟩
  have hkey : judy_key_front front judy buff bmax = some (buff2.set len 0, len) := by
    unfold judy_key_front
    simp only [hmax1, hloop]
  refine ⟨buff2.set len 0, len, hkey, h2, by rw [List.length_set]; exact h3, fun i hi => ?_,
    getD_set_eq _ _ _ _ (by omega), fun i hi => ?_, fun h0 => ?_⟩
  · rw [getD_set_ne _ _ _ _ _ (by omega)]
    exact h4 i (by omega)
  · rw [getD_set_ne _ _ _ _ _ (by omega)]
    exact h5 i hi
  · rw [judy_key_front_eq front judy buff bmax h0]
    exact hkey

theorem judy_key_bounded_witness :
    ((∀ f ∈ (Judy.mk (.lin 2 [98 * 256 ^ 7, 99 * 256 ^ 7] [.word 1, .word 2]) 9
        [⟨.lin 2 [98 * 256 ^ 7, 99 * 256 ^ 7] [.word 1, .word 2], 0, -1⟩]).stack,
        KeyFrame f) ∧ 1 ≤ 5 ∧ 5 < 2 ^ 32 ∧ 5 ≤ [7, 7, 7, 7, 7, 7].length) ∧
    (∃ buff1 len, judy_key_front (fun _ => 0x4142434445464748)
        (Judy.mk (.lin 2 [98 * 256 ^ 7, 99 * 256 ^ 7] [.word 1, .word 2]) 9
          [⟨.lin 2 [98 * 256 ^ 7, 99 * 256 ^ 7] [.word 1, .word 2], 0, -1⟩])
        [7, 7, 7, 7, 7, 7] 5 = some (buff1, len) ∧ len ≤ 5 - 1 ∧
      buff1.length = [7, 7, 7, 7, 7, 7].length ∧
      (∀ i, 5 ≤ i → buff1.getD i 0 = [7, 7, 7, 7, 7, 7].getD i 0) ∧
      buff1.getD len 1 = 0 ∧ (∀ i, i < len → buff1.getD i 0 ≠ 0) ∧
      ((∀ f ∈ (Judy.mk (.lin 2 [98 * 256 ^ 7, 99 * 256 ^ 7] [.word 1, .word 2]) 9
          [⟨.lin 2 [98 * 256 ^ 7, 99 * 256 ^ 7] [.word 1, .word 2], 0, -1⟩]).stack,
          0 ≤ f.slot) →
        judy_key (Judy.mk (.lin 2 [98 * 256 ^ 7, 99 * 256 ^ 7] [.word 1, .word 2]) 9
          [⟨.lin 2 [98 * 256 ^ 7, 99 * 256 ^ 7] [.word 1, .word 2], 0, -1⟩])
          [7, 7, 7, 7, 7, 7] 5 = some (buff1, len))) ∧
    (judy_puts [([98], 1), ([99], 2)] (judy_open 8)).bind (fun judy => judy_slot judy [97] 1) =
      some ⟨Judy.mk (.lin 2 [98 * 256 ^ 7, 99 * 256 ^ 7] [.word 1, .word 2]) 9
        [⟨.lin 2 [98 * 256 ^ 7, 99 * 256 ^ 7] [.word 1, .word 2], 0, -1⟩], none⟩ ∧
    judy_key_front (fun _ => 0x4142434445464748)
        (Judy.mk (.lin 2 [98 * 256 ^ 7, 99 * 256 ^ 7] [.word 1, .word 2]) 9
          [⟨.lin 2 [98 * 256 ^ 7, 99 * 256 ^ 7] [.word 1, .word 2], 0, -1⟩])
        [7, 7, 7, 7, 7, 7] 5 = some ([65, 66, 67, 68, 0, 7], 4) ∧
    judy_key_front (fun _ => 0x4100434445464748)
        (Judy.mk (.lin 2 [98 * 256 ^ 7, 99 * 256 ^ 7] [.word 1, .word 2]) 9
          [⟨.lin 2 [98 * 256 ^ 7, 99 * 256 ^ 7] [.word 1, .word 2], 0, -1⟩])
        [7, 7, 7, 7, 7, 7] 5 = some ([65, 0, 7, 7, 7, 7], 1) :=
  ⟨⟨by simp [KeyFrame], by decide, by decide, by decide⟩,
    judy_key_bounded (fun _ => 0x4142434445464748)
      (Judy.mk (.lin 2 [98 * 256 ^ 7, 99 * 256 ^ 7] [.word 1, .word 2]) 9
        [⟨.lin 2 [98 * 256 ^ 7, 99 * 256 ^ 7] [.word 1, .word 2], 0, -1⟩])
      [7, 7, 7, 7, 7, 7] 5 (by simp [KeyFrame]) (by decide) (by decide) (by decide), rfl, rfl,
    rfl⟩

/-- C15, as it reads: in the array that holds "b", after `judy_cell` of the 10 byte key
"a\0cdefghij" `judy_key` returns "aij" and the length 3, not the byte "a" that precedes the
zero byte; and in an empty array, after `judy_cell` of the 30 byte key "a\0" followed by 28
bytes "B", `judy_key` returns "aBBBBBB" and the length 7.  A zero byte ends the bytes taken
from its own node only, the bytes of the key in the nodes further down the path follow. -/
theorem judy_key_keeps_bytes_after_zero :
    (∃ judy r buff1, judy_puts [([98], 1)] (judy_open 16) = some judy ∧
      judy_cell judy [97, 0, 99, 100, 101, 102, 103, 104, 105, 106] 10 = some r ∧
      judy_key r.judy (List.replicate 16 7) 16 = some (buff1, 3) ∧
      buff1.take 4 = [97, 105, 106, 0]) ∧
    (∃ r buff1, judy_cell (judy_open 40) ([97, 0] ++ List.replicate 28 66) 30 = some r ∧
      judy_key r.judy (List.replicate 40 7) 40 = some (buff1, 7) ∧
      buff1.take 8 = [97, 66, 66, 66, 66, 66, 66, 0]) :=
  ⟨⟨_, _, _, rfl, rfl, rfl, rfl⟩, ⟨_, _, rfl, rfl, rfl⟩⟩

/-- The stride bound for the keys with a zero byte is sharp.  In the array that holds "b",
after `judy_cell` of the 9 byte key "a\0cdefghi", which ends one byte after the stride of its
zero byte, `judy_key` returns "ai"; and in the array that holds the key of 16 bytes "a",
`judy_cell` of the 24 byte key that continues it with a zero byte and 7 bytes "B", which ends
with the stride of its zero byte, takes the cell of the stored key for a node (the embedding
stops there). -/
theorem judy_key_zero_stride_end :
    (∃ judy r buff1, judy_puts [([98], 1)] (judy_open 16) = some judy ∧
      judy_cell judy [97, 0, 99, 100, 101, 102, 103, 104, 105] 9 = some r ∧
      judy_key r.judy (List.replicate 16 7) 16 = some (buff1, 2) ∧
      buff1.take 3 = [97, 105, 0]) ∧
    (∃ judy, judy_puts [(List.replicate 16 97, 5)] (judy_open 40) = some judy ∧
      judy.root = .span (List.replicate 16 97 ++ List.replicate 8 0) (.word 5) ∧
      judy_cell judy (List.replicate 16 97 ++ 0 :: List.replicate 7 66) 24 = none) :=
  ⟨⟨_, _, _, rfl, rfl, rfl, rfl⟩, ⟨_, rfl, rfl, rfl⟩⟩

/-- C15: embedded zero truncation.  Take an array opened by `judy_open` with a maximum key
length `M <= JUDY_open_max` and built by any steps of insertion and deletion of keys without a
zero byte, and a key of at most `M` bytes that contains a zero byte, `p` being its bytes
before the first zero byte.  If the key ends in the stride of `JUDY_key_size` bytes that holds
that zero byte (its length is below the next multiple of 8 above `p.length`), or if the array
is empty and the key has at most 24 bytes (the capacity of one span node), then `judy_cell`
of the key returns a cell, and `judy_key` with a buffer of more than `p.length` bytes returns
the length of `p` and leaves the bytes of `p` in the buffer, followed by a zero byte. -/
theorem judy_key_zero_truncates (M : Nat) (hM : M ≤ JUDY_open_max) (steps : List Step)
    (hok : StepsOK M steps []) (p t buff : List Nat) (bmax : Nat) (hp : ZF p)
    (ht : ∀ b ∈ t, b < 256) (hlM : (p ++ 0 :: t).length ≤ M)
    (hend : (p ++ 0 :: t).length < 8 * (p.length / 8 + 1) ∨
      (steps = [] ∧ (p ++ 0 :: t).length ≤ 24))
    (hb : p.length < bmax) (hb32 : bmax < 2 ^ 32) (hbl : bmax ≤ buff.length) :
    ∃ judy r c buff1, judy_steps steps (judy_open M) = some judy ∧
      judy_cell judy (p ++ 0 :: t) (p ++ 0 :: t).length = some r ∧ r.cell = some c ∧
      judy_key r.judy buff bmax = some (buff1, p.length) ∧
      buff1.take p.length = p ∧ buff1.getD p.length 1 = 0 := by
  haveI : Fact (M ≤ JUDY_open_max) := ⟨hM⟩
  have hmax1 : (bmax + 2 ^ 32 - 1) % 2 ^ 32 = bmax - 1 := by omega
  have hfin : ∀ (judy : Judy) (r : Res) (c : JNode),
      judy_steps steps (judy_open M) = some judy →
      judy_cell judy (p ++ 0 :: t) (p ++ 0 :: t).length = some r → r.cell = some c →
      (∀ (buff : List Nat) (max1 : Nat), p.length ≤ max1 → max1 < buff.length →
        ∃ buff1, key_loop (fun _ => none) max1 r.judy.stack.reverse buff 0 =
          some (buff1, p.length) ∧ buff1.length = buff.length ∧ buff1.take p.length = p) →
      ∃ judy r c buff1, judy_steps steps (judy_open M) = some judy ∧
        judy_cell judy (p ++ 0 :: t) (p ++ 0 :: t).length = some r ∧ r.cell = some c ∧
        judy_key r.judy buff bmax = some (buff1, p.length) ∧
        buff1.take p.length = p ∧ buff1.getD p.length 1 = 0 := by
    intro judy r c hsteps hcell hc hkey
    obtain ⟨buff1, hloop, hlen1, htake⟩ := hkey buff (bmax - 1) (by omega) (by omega)
    obtain ⟨t1, t2⟩ := set_take_getD buff1 p.length (by omega)
    refine ⟨judy, r, c, buff1.set p.length 0, hsteps, hcell, hc, ?_, by rw [t1, htake], t2⟩
    unfold judy_key
    simp only [hmax1, hloop]
  rcases hend with hstride | ⟨rfl, h24⟩
  · obtain ⟨judy, hsteps, hmax, hroot, _, _⟩ := judy_open_steps M steps hok
    have hz : ZeroKey (p ++ 0 :: t) p := by
      refine ⟨⟨t, rfl⟩, hp, ?_, hstride, ?_⟩
      · intro b hb1
        rcases List.mem_append.1 hb1 with h1 | h1
        · exact (hp b h1).2
        · rcases List.mem_cons.1 h1 with rfl | h1
          · decide
          · exact ht b h1
      · exact len31 hlM
    obtain ⟨r, c, hcell, hc, _, hkr⟩ := judy_cell_zero_any M judy _ _ p hz hmax hroot hlM
    refine hfin judy r c hsteps hcell hc (fun buff max1 h1 h2 => ?_)
    obtain ⟨buff1, k1, k2, k3⟩ := hkr (fun _ => none) max1 buff 0 (by omega) h2
    rw [Nat.zero_add] at k1 k3
    exact ⟨buff1, k1, k2, by simpa using k3⟩
  · obtain ⟨fs, n, hcell, hkey⟩ := judy_cell_zero_key M p t hp hlM h24
    exact hfin (judy_open M) _ (.word 0) rfl hcell rfl hkey

theorem judy_key_zero_truncates_witness :
    8 ≤ JUDY_open_max ∧ StepsOK 8 [.put [98] 1] [] ∧ ZF [97] ∧ (∀ b ∈ [99], b < 256) ∧
    ([97] ++ 0 :: [99]).length ≤ 8 ∧
    (([97] ++ 0 :: [99]).length < 8 * ([97].length / 8 + 1) ∨
      ([Step.put [98] 1] = [] ∧ ([97] ++ 0 :: [99]).length ≤ 24)) ∧
    [97].length < 4 ∧ 4 < 2 ^ 32 ∧ 4 ≤ [7, 7, 7, 7].length ∧
    (∃ judy r c buff1, judy_steps [.put [98] 1] (judy_open 8) = some judy ∧
      judy_cell judy ([97] ++ 0 :: [99]) ([97] ++ 0 :: [99]).length = some r ∧
      r.cell = some c ∧
      judy_key r.judy [7, 7, 7, 7] 4 = some (buff1, [97].length) ∧
      buff1.take [97].length = [97] ∧ buff1.getD [97].length 1 = 0) ∧
    ((judy_steps [.put [98] 1] (judy_open 8)).bind
      (fun judy => judy_cell judy [97, 0, 99] 3)).bind
        (fun r => judy_key r.judy [7, 7, 7, 7] 4) = some ([97, 0, 7, 7], 1) :=
  ⟨by decide, ⟨⟨by simp [ZF], by decide, by decide⟩, trivial⟩, by simp [ZF], by simp,
    by decide, Or.inl (by decide), by decide, by decide, by decide,
    judy_key_zero_truncates 8 (by decide) [.put [98] 1]
      ⟨⟨by simp [ZF], by decide, by decide⟩, trivial⟩ [97] [99] [7, 7, 7, 7] 4 (by simp [ZF])
      (by simp) (by decide) (Or.inl (by decide)) (by decide) (by decide) (by decide), rfl⟩


/-! ## The shape of the nodes -/

/-- C16: linear-node invariant.  In every array built from the empty array by driver steps,
insertions `*judy_cell(k) = v` with zero-free keys of at most `M` bytes and non-zero words
and removals with `judy_del` of stored keys, every linear node in the node graph, with its
`cnt` slots, has its populated slots (non-zero child word) at the slots `n .. cnt - 1` for
some `n < cnt`, a zero key and a zero child word in every slot below `n`, and strictly
ascending keys, integers of the width of the stride of the node, in the populated slots.
The array is opened by `judy_open` with a maximum key length `M <= JUDY_open_max`, the
largest that `judy_open` can take. -/
theorem judy_linear_nodes (M : Nat) (hM : M ≤ JUDY_open_max) (steps : List Step)
    (hok : StepsOK M steps []) :
    ∃ judy, judy_steps steps (judy_open M) = some judy ∧
      ∀ off type keys kids, Reach 0 judy.root off (.lin type keys kids) →
        LinOK off type keys kids := by
  haveI : Fact (M ≤ JUDY_open_max) := ⟨hM⟩
  obtain ⟨judy, hsteps, _, hroot, _, _⟩ := judy_open_steps M steps hok
  refine ⟨judy, hsteps, fun off type keys kids hreach => ?_⟩
  rcases hroot with ⟨h0, _⟩ | ⟨d, hrep⟩
  · rw [h0] at hreach
    have hw : ∀ (off1 : Nat) (x : JNode), Reach 0 (JNode.word 0) off1 x → ∃ v, x = .word v := by
      intro off1 x h
      induction h with
      | root => exact ⟨0, rfl⟩
      | lin _ _ ih => obtain ⟨v, hv⟩ := ih; cases hv
      | radix _ _ _ ih => obtain ⟨v, hv⟩ := ih; cases hv
      | span _ ih => obtain ⟨v, hv⟩ := ih; cases hv
    obtain ⟨v, hv⟩ := hw _ _ hreach
    cases hv
  · rcases Reach_Rep hrep hreach with ⟨v, hv⟩ | ⟨d1, m1, h1⟩
    · cases hv
    · exact Rep_LinOK h1

theorem judy_linear_nodes_witness :
    8 ≤ JUDY_open_max ∧
    StepsOK 8 [.put [97] 1, .put [98] 2, .put [99] 3, .del [98]] [] ∧
    (∃ judy, judy_steps [.put [97] 1, .put [98] 2, .put [99] 3, .del [98]] (judy_open 8) =
        some judy ∧
      ∀ off type keys kids, Reach 0 judy.root off (.lin type keys kids) →
        LinOK off type keys kids) ∧
    (∃ judy, judy_steps [.put [97] 1, .put [98] 2, .put [99] 3, .del [98]] (judy_open 8) =
        some judy ∧
      judy.root = .lin 3 [0, 0, 97 * 256 ^ 7, 99 * 256 ^ 7]
        [.word 0, .word 0, .word 1, .word 3]) :=
  ⟨by decide, ⟨⟨by simp [ZF], by decide, by decide⟩, ⟨by simp [ZF], by decide, by decide⟩,
      ⟨by simp [ZF], by decide, by decide⟩, by decide, trivial⟩,
    judy_linear_nodes 8 (by decide) [.put [97] 1, .put [98] 2, .put [99] 3, .del [98]]
      ⟨⟨by simp [ZF], by decide, by decide⟩, ⟨by simp [ZF], by decide, by decide⟩,
        ⟨by simp [ZF], by decide, by decide⟩, by decide, trivial⟩,
    ⟨_, rfl, rfl⟩⟩

/-- C20: span compression.  `judy_cell` of a zero-free key `k` of `L <= M` bytes on an empty
array returns a cell that holds 0 and leaves as the root a chain of exactly `L / 24 + 1` span
nodes and no other node: the span number `i` holds the key bytes `24 i .. 24 i + 23`, padded
with zeros past the end of the key, and has the next span as its child; the last span has a
zero byte (at index `L % 24`), the cursor has one frame for each span, its top frame names
the last span, whose child word is the returned cell; and `judy_key` then returns `L` and
leaves the bytes of `k` in the buffer, followed by a zero byte.
The array is opened by `judy_open` with a maximum key length `M <= JUDY_open_max`, the
largest that `judy_open` can take. -/
theorem judy_cell_span_chain (M : Nat) (hM : M ≤ JUDY_open_max) (k buff : List Nat) (bmax : Nat)
    (hk : ZF k)
    (hl : k.length ≤ M) (hb : k.length < bmax) (hb32 : bmax < 2 ^ 32)
    (hbl : bmax ≤ buff.length) :
    ∃ r fs buff1, judy_cell (judy_open M) k k.length = some r ∧ r.cell = some (.word 0) ∧
      r.judy.root =
        spans ((List.range (k.length / 24 + 1)).map (fun i => chunk k (24 * i))) (.word 0) ∧
      r.judy.stack = ⟨.span (chunk k (24 * (k.length / 24))) (.word 0),
        24 * (k.length / 24), 0⟩ :: fs ∧ fs.length = k.length / 24 ∧
      (chunk k (24 * (k.length / 24))).getD (k.length % 24) 1 = 0 ∧
      judy_key r.judy buff bmax = some (buff1, k.length) ∧
      buff1.take k.length = k ∧ buff1.getD k.length 1 = 0 := by
  haveI : Fact (M ≤ JUDY_open_max) := ⟨hM⟩
  obtain ⟨fs, f0, hc, hlen, hf0⟩ := cell_spans_root k hk (len31 hl) (k.length / 24) 0 (k.length + 1)
    (Nat.zero_le _) rfl (by have := Nat.div_le_self k.length 24; omega)
  simp only [Nat.zero_add] at hc hf0
  have hcell : judy_cell (judy_open M) k k.length = some ⟨Judy.mk (spans ((List.range
      (k.length / 24 + 1)).map (fun i => chunk k (24 * i))) (.word 0)) (M + 1) (f0 :: fs),
      some (.word 0)⟩ := by
    unfold judy_cell judy_open
    simp only [open_max32 M]
    rw [show 2 * (M + 1) + 2 = (2 * M + 3) + 1 by omega, cell_loop]
    unfold cell_new
    rw [if_neg (by simp), hc]
    simp only [List.length_cons, hlen]
    rw [if_pos (by have := Nat.div_le_self k.length 24; omega)]
  obtain ⟨n1, fs1, c, A, B, d, hcell2, hpath, _⟩ := judy_cell_spec M (judy_open M) [] k
    (judy_open_spec M).1 (judy_open_spec M).2 hk hl
  rw [hcell] at hcell2
  have hinj := Option.some.inj hcell2
  injection hinj with hj _
  injection hj with hroot _ hstack
  subst hroot
  subst hstack
  obtain ⟨buff1, hkey, htake, hz⟩ := judy_key_path
    (Judy.mk (spans ((List.range (k.length / 24 + 1)).map (fun i => chunk k (24 * i)))
      (.word 0)) (M + 1) (f0 :: fs)) d A B k c buff bmax hpath hb hb32 hbl
  refine ⟨_, fs, buff1, hcell, rfl, rfl, by rw [hf0], hlen, ?_, hkey, htake, hz⟩
  unfold chunk
  have h24 : JUDY_span_bytes = 24 := rfl
  have hm := Nat.mod_lt k.length (show 0 < 24 by omega)
  rw [List.getD_eq_getElem?_getD, List.getElem?_map, List.getElem?_range (by rw [h24]; exact hm)]
  simp only [Option.map_some', Option.getD_some]
  exact List.getD_eq_default _ _ (by have := Nat.div_add_mod k.length 24; omega)

theorem judy_cell_span_chain_witness :
    40 ≤ JUDY_open_max ∧
    ZF [97, 108, 112, 104, 97, 47, 98, 101, 116, 97, 47, 103, 97, 109, 109, 97, 47, 108, 111,
      110, 103, 95, 116, 97, 105, 108, 95, 111, 102, 95, 98, 121, 116, 101, 115] ∧
    [97, 108, 112, 104, 97, 47, 98, 101, 116, 97, 47, 103, 97, 109, 109, 97, 47, 108, 111,
      110, 103, 95, 116, 97, 105, 108, 95, 111, 102, 95, 98, 121, 116, 101, 115].length ≤ 40 ∧
    [97, 108, 112, 104, 97, 47, 98, 101, 116, 97, 47, 103, 97, 109, 109, 97, 47, 108, 111,
      110, 103, 95, 116, 97, 105, 108, 95, 111, 102, 95, 98, 121, 116, 101, 115].length < 36 ∧
    36 < 2 ^ 32 ∧ 36 ≤ (List.replicate 36 7).length ∧
    (∃ r fs buff1, judy_cell (judy_open 40)
        [97, 108, 112, 104, 97, 47, 98, 101, 116, 97, 47, 103, 97, 109, 109, 97, 47, 108, 111,
          110, 103, 95, 116, 97, 105, 108, 95, 111, 102, 95, 98, 121, 116, 101, 115]
        [97, 108, 112, 104, 97, 47, 98, 101, 116, 97, 47, 103, 97, 109, 109, 97, 47, 108, 111,
          110, 103, 95, 116, 97, 105, 108, 95, 111, 102, 95, 98, 121, 116, 101, 115].length =
        some r ∧ r.cell = some (.word 0) ∧
      r.judy.root = spans ((List.range
        ([97, 108, 112, 104, 97, 47, 98, 101, 116, 97, 47, 103, 97, 109, 109, 97, 47, 108, 111,
          110, 103, 95, 116, 97, 105, 108, 95, 111, 102, 95, 98, 121, 116, 101, 115].length / 24
          + 1)).map (fun i => chunk
        [97, 108, 112, 104, 97, 47, 98, 101, 116, 97, 47, 103, 97, 109, 109, 97, 47, 108, 111,
          110, 103, 95, 116, 97, 105, 108, 95, 111, 102, 95, 98, 121, 116, 101, 115] (24 * i)))
        (.word 0) ∧
      r.judy.stack = ⟨.span (chunk
        [97, 108, 112, 104, 97, 47, 98, 101, 116, 97, 47, 103, 97, 109, 109, 97, 47, 108, 111,
          110, 103, 95, 116, 97, 105, 108, 95, 111, 102, 95, 98, 121, 116, 101, 115]
        (24 * ([97, 108, 112, 104, 97, 47, 98, 101, 116, 97, 47, 103, 97, 109, 109, 97, 47, 108,
          111, 110, 103, 95, 116, 97, 105, 108, 95, 111, 102, 95, 98, 121, 116, 101, 115].length
          / 24))) (.word 0),
        24 * ([97, 108, 112, 104, 97, 47, 98, 101, 116, 97, 47, 103, 97, 109, 109, 97, 47, 108,
          111, 110, 103, 95, 116, 97, 105, 108, 95, 111, 102, 95, 98, 121, 116, 101, 115].length
          / 24), 0⟩ :: fs ∧
      fs.length = [97, 108, 112, 104, 97, 47, 98, 101, 116, 97, 47, 103, 97, 109, 109, 97, 47,
        108, 111, 110, 103, 95, 116, 97, 105, 108, 95, 111, 102, 95, 98, 121, 116, 101,
        115].length / 24 ∧
      (chunk [97, 108, 112, 104, 97, 47, 98, 101, 116, 97, 47, 103, 97, 109, 109, 97, 47, 108,
          111, 110, 103, 95, 116, 97, 105, 108, 95, 111, 102, 95, 98, 121, 116, 101, 115]
        (24 * ([97, 108, 112, 104, 97, 47, 98, 101, 116, 97, 47, 103, 97, 109, 109, 97, 47, 108,
          111, 110, 103, 95, 116, 97, 105, 108, 95, 111, 102, 95, 98, 121, 116, 101, 115].length
          / 24))).getD
        ([97, 108, 112, 104, 97, 47, 98, 101, 116, 97, 47, 103, 97, 109, 109, 97, 47, 108, 111,
          110, 103, 95, 116, 97, 105, 108, 95, 111, 102, 95, 98, 121, 116, 101, 115].length % 24)
        1 = 0 ∧
      judy_key r.judy (List.replicate 36 7) 36 = some (buff1,
        [97, 108, 112, 104, 97, 47, 98, 101, 116, 97, 47, 103, 97, 109, 109, 97, 47, 108, 111,
          110, 103, 95, 116, 97, 105, 108, 95, 111, 102, 95, 98, 121, 116, 101, 115].length) ∧
      buff1.take [97, 108, 112, 104, 97, 47, 98, 101, 116, 97, 47, 103, 97, 109, 109, 97, 47,
        108, 111, 110, 103, 95, 116, 97, 105, 108, 95, 111, 102, 95, 98, 121, 116, 101, 115].length
        = [97, 108, 112, 104, 97, 47, 98, 101, 116, 97, 47, 103, 97, 109, 109, 97, 47, 108, 111,
          110, 103, 95, 116, 97, 105, 108, 95, 111, 102, 95, 98, 121, 116, 101, 115] ∧
      buff1.getD [97, 108, 112, 104, 97, 47, 98, 101, 116, 97, 47, 103, 97, 109, 109, 97, 47,
        108, 111, 110, 103, 95, 116, 97, 105, 108, 95, 111, 102, 95, 98, 121, 116, 101, 115].length
        1 = 0) ∧
    (∃ r, judy_cell (judy_open 40)
        [97, 108, 112, 104, 97, 47, 98, 101, 116, 97, 47, 103, 97, 109, 109, 97, 47, 108, 111,
          110, 103, 95, 116, 97, 105, 108, 95, 111, 102, 95, 98, 121, 116, 101, 115] 35 =
        some r ∧
      r.judy.root = .span [97, 108, 112, 104, 97, 47, 98, 101, 116, 97, 47, 103, 97, 109, 109,
          97, 47, 108, 111, 110, 103, 95, 116, 97]
        (.span [105, 108, 95, 111, 102, 95, 98, 121, 116, 101, 115, 0, 0, 0, 0, 0, 0, 0, 0, 0,
          0, 0, 0, 0] (.word 0))) :=
  ⟨by decide, by simp [ZF], by decide, by decide, by decide, by decide,
    judy_cell_span_chain 40 (by decide)
      [97, 108, 112, 104, 97, 47, 98, 101, 116, 97, 47, 103, 97, 109, 109, 97, 47, 108, 111,
        110, 103, 95, 116, 97, 105, 108, 95, 111, 102, 95, 98, 121, 116, 101, 115]
      (List.replicate 36 7) 36 (by simp [ZF]) (by decide) (by decide) (by decide) (by decide),
    ⟨_, rfl, rfl⟩⟩

/-- C19: span split.  Let an array be built from the empty array by driver steps and let `k`
be a zero-free key of at most `M` bytes.  Every span node of the array, reached at a key
offset `off` within `k`, holds bytes `p` without a zero, padded with zeros to 24 bytes; and
if the key bytes from `off` on, cut to 24 bytes, are not exactly `p` (the key differs from
the span or ends before it does), `judy_splitspan` replaces the span by the chain of `JUDY_1`
nodes with the keys of the strides of 8 bytes of the span up to and including the stride of
its terminating zero, all 3 strides when the span is full, each node's only child being the
next node and the last one's child being the child word of the span, and `judy_cell`
continues at that chain in place of the span.  After the insertion `*judy_cell(k) = v` every
stored key, the new key and the keys stored before, is found by `judy_slot` with its
word.
The array is opened by `judy_open` with a maximum key length `M <= JUDY_open_max`, the
largest that `judy_open` can take. -/
theorem judy_cell_span_split (M : Nat) (hM : M ≤ JUDY_open_max) (steps : List Step) (k : List Nat)
    (v : Nat)
    (hok : StepsOK M steps []) (hk : ZF k) (hl : k.length ≤ M) (hv : 0 < v) :
    ∃ judy judy2, judy_steps steps (judy_open M) = some judy ∧
      (∀ off base kid, Reach 0 judy.root off (.span base kid) → off ≤ k.length →
        ∃ p, ZF p ∧ p.length ≤ JUDY_span_bytes ∧
          base = p ++ List.replicate (JUDY_span_bytes - p.length) 0 ∧
          ((k.drop off).take JUDY_span_bytes ≠ p →
            judy_splitspan (.span base kid) = some (lin1s (strides p) kid) ∧
            ∀ fuel, cell_loop k k.length (fuel + 1) (.span base kid) off =
              cell_loop k k.length fuel (lin1s (strides p) kid) off)) ∧
      judy_put judy k v = some judy2 ∧
      ∀ k1 v1, (k1, v1) ∈ ins k v (stepsEnt steps []) →
        ∃ r, judy_slot judy2 k1 k1.length = some r ∧ r.cell = some (.word v1) := by
  haveI : Fact (M ≤ JUDY_open_max) := ⟨hM⟩
  obtain ⟨judy, hsteps, hmax, hroot, hshort, _⟩ := judy_open_steps M steps hok
  obtain ⟨judy2, d, A, B, hput, hmax2, _, _, hrep2⟩ :=
    judy_put_spec M judy _ k v hmax hroot hk hl hv
  refine ⟨judy, judy2, hsteps, ?_, hput, ?_⟩
  · intro off base kid hreach hoff
    rcases hroot with ⟨h0, _⟩ | ⟨d0, hrep⟩
    · rw [h0] at hreach
      obtain ⟨w, hw⟩ := Reach_word0 _ _ hreach
      cases hw
    · rcases Reach_Rep hrep hreach with ⟨w, hw⟩ | ⟨d1, m1, h1⟩
      · cases hw
      · obtain ⟨_, p, hp, hb, hcase⟩ := h1
        have hpl : p.length ≤ JUDY_span_bytes := by
          rcases hcase with ⟨h, _⟩ | ⟨h, _⟩ <;> omega
        refine ⟨p, hp, hpl, hb, fun hne => ⟨?_, fun fuel => ?_⟩⟩
        · rw [hb]; exact judy_splitspan_chain p kid hp hpl
        · rw [hb]; exact cell_span_split k hk (len31 hl) p kid hp hpl off fuel hoff hne
  · intro k1 v1 hmem
    have hgood := (Rep_sorted_good d hrep2).2 _ hmem
    have hl1 : k1.length ≤ M := by
      rcases ins_mem_iff k v _ _ hmem with h | h
      · cases h; exact hl
      · exact hshort _ h
    obtain ⟨fs, A1, B1, hslot, _, _⟩ :=
      judy_slot_spec M judy2 _ k1 v1 d hmax2 hrep2 hmem hgood.1 hl1
    exact ⟨_, hslot, rfl⟩

theorem judy_cell_span_split_witness :
    40 ≤ JUDY_open_max ∧
    StepsOK 40 [.put [97, 108, 112, 104, 97, 47, 98, 101, 116, 97, 47, 103, 97, 109, 109, 97,
      47, 108, 111, 110, 103, 95, 116, 97, 105, 108, 95, 111, 102, 95, 98, 121, 116, 101, 115]
      1] [] ∧
    ZF [97, 108, 112, 104, 97, 47, 98, 101, 116, 97, 47, 122, 122, 122] ∧
    [97, 108, 112, 104, 97, 47, 98, 101, 116, 97, 47, 122, 122, 122].length ≤ 40 ∧ 0 < 2 ∧
    (∃ judy judy2, judy_steps [.put [97, 108, 112, 104, 97, 47, 98, 101, 116, 97, 47, 103, 97,
        109, 109, 97, 47, 108, 111, 110, 103, 95, 116, 97, 105, 108, 95, 111, 102, 95, 98, 121,
        116, 101, 115] 1] (judy_open 40) = some judy ∧
      (∀ off base kid, Reach 0 judy.root off (.span base kid) →
        off ≤ [97, 108, 112, 104, 97, 47, 98, 101, 116, 97, 47, 122, 122, 122].length →
        ∃ p, ZF p ∧ p.length ≤ JUDY_span_bytes ∧
          base = p ++ List.replicate (JUDY_span_bytes - p.length) 0 ∧
          ((([97, 108, 112, 104, 97, 47, 98, 101, 116, 97, 47, 122, 122, 122] : List Nat).drop
              off).take JUDY_span_bytes ≠ p →
            judy_splitspan (.span base kid) = some (lin1s (strides p) kid) ∧
            ∀ fuel, cell_loop [97, 108, 112, 104, 97, 47, 98, 101, 116, 97, 47, 122, 122, 122]
                [97, 108, 112, 104, 97, 47, 98, 101, 116, 97, 47, 122, 122, 122].length
                (fuel + 1) (.span base kid) off =
              cell_loop [97, 108, 112, 104, 97, 47, 98, 101, 116, 97, 47, 122, 122, 122]
                [97, 108, 112, 104, 97, 47, 98, 101, 116, 97, 47, 122, 122, 122].length
                fuel (lin1s (strides p) kid) off)) ∧
      judy_put judy [97, 108, 112, 104, 97, 47, 98, 101, 116, 97, 47, 122, 122, 122] 2 =
        some judy2 ∧
      ∀ k1 v1, (k1, v1) ∈ ins [97, 108, 112, 104, 97, 47, 98, 101, 116, 97, 47, 122, 122, 122] 2
          (stepsEnt [.put [97, 108, 112, 104, 97, 47, 98, 101, 116, 97, 47, 103, 97, 109, 109,
            97, 47, 108, 111, 110, 103, 95, 116, 97, 105, 108, 95, 111, 102, 95, 98, 121, 116,
            101, 115] 1] []) →
        ∃ r, judy_slot judy2 k1 k1.length = some r ∧ r.cell = some (.word v1)) ∧
    (∃ judy judy2, judy_steps [.put [97, 108, 112, 104, 97, 47, 98, 101, 116, 97, 47, 103, 97,
        109, 109, 97, 47, 108, 111, 110, 103, 95, 116, 97, 105, 108, 95, 111, 102, 95, 98, 121,
        116, 101, 115] 1] (judy_open 40) = some judy ∧
      judy.root = .span [97, 108, 112, 104, 97, 47, 98, 101, 116, 97, 47, 103, 97, 109, 109, 97,
          47, 108, 111, 110, 103, 95, 116, 97]
        (.span [105, 108, 95, 111, 102, 95, 98, 121, 116, 101, 115, 0, 0, 0, 0, 0, 0, 0, 0, 0,
          0, 0, 0, 0] (.word 1)) ∧
      judy_splitspan judy.root = some (.lin 1 [7020109512773165669]
        [.lin 1 [8386036102203272545] [.lin 1 [3417228737238758497]
          [.span [105, 108, 95, 111, 102, 95, 98, 121, 116, 101, 115, 0, 0, 0, 0, 0, 0, 0, 0, 0,
            0, 0, 0, 0] (.word 1)]]]) ∧
      judy_put judy [97, 108, 112, 104, 97, 47, 98, 101, 116, 97, 47, 122, 122, 122] 2 =
        some judy2 ∧
      judy2.root = .lin 1 [7020109512773165669]
        [.lin 2 [8386036102203272545, 8386036184227905536]
          [.lin 1 [3417228737238758497]
            [.span [105, 108, 95, 111, 102, 95, 98, 121, 116, 101, 115, 0, 0, 0, 0, 0, 0, 0, 0,
              0, 0, 0, 0, 0] (.word 1)], .word 2]]) :=
  ⟨by decide, ⟨⟨by simp [ZF], by decide, by decide⟩, trivial⟩, by simp [ZF], by decide, by decide,
    judy_cell_span_split 40 (by decide) [.put [97, 108, 112, 104, 97, 47, 98, 101, 116, 97, 47, 103, 97,
        109, 109, 97, 47, 108, 111, 110, 103, 95, 116, 97, 105, 108, 95, 111, 102, 95, 98, 121,
        116, 101, 115] 1]
      [97, 108, 112, 104, 97, 47, 98, 101, 116, 97, 47, 122, 122, 122] 2
      ⟨⟨by simp [ZF], by decide, by decide⟩, trivial⟩ (by simp [ZF]) (by decide) (by decide),
    ⟨_, _, rfl, rfl, rfl, rfl, rfl⟩⟩

/-- C17: promotion.  Let `judy_promote` be applied, in an array that can allocate, to a full
linear node of class `type < JUDY_32` at the address `base`, with stride `ks` and ascending
keys in its `oldcnt` slots, to a new key value `value` of that stride that is not in the
node, and to `idx`, the number of stored keys smaller than `value`.  Then it returns, the
reference `*next` is rewritten to a node of class `type + 1` with `newcnt` slots, in which
the slots `0 .. newcnt - oldcnt - 2` are empty (zero key, zero child word) and the slots
`newcnt - oldcnt - 1 .. newcnt - 1` hold the old keys and `value` in ascending order, every
old key with its original child word; `value` has a zero child word, whose address is the
one returned; the top frame of the cursor names the new node and the slot of `value`; and
the old node is pushed on the free list of class `type`: it is the new head, and its link
word is the old head. -/
theorem judy_promote_full_node (a : Arena) (fresh : Nat) (top : JudyStack)
    (base type ks value : Nat) (keys : List Nat) (kids : List JNode)
    (h1 : 1 ≤ type) (h6 : type < 6) (hks1 : 1 ≤ ks) (hks : ks ≤ 8)
    (hkeys : keys.length = lin_cnt type ks) (hkids : kids.length = lin_cnt type ks)
    (hpw : keys.Pairwise (· < ·)) (hnew : value ∉ keys) (hv : value < 256 ^ ks)
    (hseg : a.seg ≠ 0) (hfresh : fresh ≠ 0) (hreuse : a.reuse.length = 8)
    (hhead : a.reuse.getD type 0 < 2 ^ 64) :
    ∃ r, judy_promote_blocks a fresh top base (.lin type keys kids)
        (keys.countP (fun x => decide (x < value))) value ks = some r ∧
      PromoteOK a top base type ks value keys kids r :=
  judy_promote_blocks_spec a fresh top base type ks value keys kids h1 h6 hks1 hks hkeys hkids
    hpw hnew hv hseg hfresh hreuse hhead

theorem judy_promote_full_node_witness :
    (1 ≤ 2 ∧ 2 < 6 ∧ 1 ≤ 8 ∧ 8 ≤ 8 ∧
      [97 * 256 ^ 7, 99 * 256 ^ 7].length = lin_cnt 2 8 ∧
      [JNode.word 1, JNode.word 3].length = lin_cnt 2 8 ∧
      [97 * 256 ^ 7, 99 * 256 ^ 7].Pairwise (· < ·) ∧
      98 * 256 ^ 7 ∉ [97 * 256 ^ 7, 99 * 256 ^ 7] ∧ 98 * 256 ^ 7 < 256 ^ 8 ∧
      (Arena.mk [0, 0, 0, 0, 0, 0, 0, 0] 4096 65504 [] (fun _ => 0)).seg ≠ 0 ∧ 200000 ≠ 0 ∧
      (Arena.mk [0, 0, 0, 0, 0, 0, 0, 0] 4096 65504 [] (fun _ => 0)).reuse.length = 8 ∧
      (Arena.mk [0, 0, 0, 0, 0, 0, 0, 0] 4096 65504 [] (fun _ => 0)).reuse.getD 2 0 < 2 ^ 64) ∧
    (∃ r, judy_promote_blocks (Arena.mk [0, 0, 0, 0, 0, 0, 0, 0] 4096 65504 [] (fun _ => 0))
        200000 ⟨.lin 2 [97 * 256 ^ 7, 99 * 256 ^ 7] [.word 1, .word 3], 0, 0⟩ 69600
        (.lin 2 [97 * 256 ^ 7, 99 * 256 ^ 7] [.word 1, .word 3])
        ([97 * 256 ^ 7, 99 * 256 ^ 7].countP (fun x => decide (x < 98 * 256 ^ 7)))
        (98 * 256 ^ 7) 8 = some r ∧
      PromoteOK (Arena.mk [0, 0, 0, 0, 0, 0, 0, 0] 4096 65504 [] (fun _ => 0))
        ⟨.lin 2 [97 * 256 ^ 7, 99 * 256 ^ 7] [.word 1, .word 3], 0, 0⟩ 69600 2 8
        (98 * 256 ^ 7) [97 * 256 ^ 7, 99 * 256 ^ 7] [.word 1, .word 3] r) ∧
    (∃ r, judy_promote_blocks (Arena.mk [0, 0, 0, 0, 0, 0, 0, 0] 4096 65504 [] (fun _ => 0))
        200000 ⟨.lin 2 [97 * 256 ^ 7, 99 * 256 ^ 7] [.word 1, .word 3], 0, 0⟩ 69600
        (.lin 2 [97 * 256 ^ 7, 99 * 256 ^ 7] [.word 1, .word 3]) 1 (98 * 256 ^ 7) 8 = some r ∧
      r.next = .lin 3 [0, 97 * 256 ^ 7, 98 * 256 ^ 7, 99 * 256 ^ 7]
        [.word 0, .word 1, .word 0, .word 3] ∧
      r.slot = 2 ∧ r.newbase = 69536 ∧ r.result = 69576 ∧
      r.arena.reuse = [0, 0, 69600, 0, 0, 0, 0, 0] ∧ rdWord r.arena.mem 69600 = 0 ∧
      r.top = ⟨r.next, 0, 2⟩) :=
  ⟨⟨by decide, by decide, by decide, by decide, rfl, rfl, by decide, by decide, by decide,
      by decide, by decide, rfl, by decide⟩,
    judy_promote_full_node (Arena.mk [0, 0, 0, 0, 0, 0, 0, 0] 4096 65504 [] (fun _ => 0)) 200000
      ⟨.lin 2 [97 * 256 ^ 7, 99 * 256 ^ 7] [.word 1, .word 3], 0, 0⟩ 69600 2 8 (98 * 256 ^ 7)
      [97 * 256 ^ 7, 99 * 256 ^ 7] [.word 1, .word 3] (by decide) (by decide) (by decide)
      (by decide) rfl rfl (by decide) (by decide) (by decide) (by decide) (by decide) rfl
      (by decide),
    ⟨_, rfl, rfl, rfl, rfl, rfl, rfl, rfl, rfl⟩⟩

/-- C18: split of a full `JUDY_32` node into a radix node.  Let an array be built from the
empty array by driver steps and let `k` be a zero-free key of at most `M` bytes.  For every
full `JUDY_32` node of the array, reached at a key offset `off`, that does not hold the key
value of `k` at `off`, `judy_splitnode` replaces the reference to the node by a reference to
a radix node and `judy_cell` processes the insertion again at that radix node.  After the
insertion `*judy_cell(k) = v`, every key stored before is found by `judy_slot` with the word
it had and `k` is found with `v`, and the enumeration `judy_strt`, `judy_nxt` shows exactly
these keys with their words, in strictly increasing lexicographic order.
The array is opened by `judy_open` with a maximum key length `M <= JUDY_open_max`, the
largest that `judy_open` can take. -/
theorem judy_cell_splitnode (M : Nat) (hM : M ≤ JUDY_open_max) (steps : List Step) (k : List Nat) (v : Nat)
    (buff : List Nat) (bmax fuel : Nat)
    (hok : StepsOK M steps []) (hk : ZF k) (hl : k.length ≤ M) (hv : 0 < v)
    (hb : M < bmax) (hb32 : bmax < 2 ^ 32) (hbl : bmax ≤ buff.length)
    (hf : steps.length + 2 < fuel) :
    ∃ judy judy2, judy_steps steps (judy_open M) = some judy ∧
      (∀ off keys kids, Reach 0 judy.root off (.lin JUDY_32 keys kids) →
        (kidAt kids 0).nonzero = true → (key_value k k.length 8 0 off).1 ∉ keys →
        ∃ T, judy_splitnode (.lin JUDY_32 keys kids) (JudySize JUDY_32) (key_size off) =
            some (.radix T) ∧
          ∀ fuel1, cell_loop k k.length (fuel1 + 1) (.lin JUDY_32 keys kids) off =
            cell_loop k k.length fuel1 (.radix T) off) ∧
      judy_put judy k v = some judy2 ∧
      (∀ k1 v1, (k1, v1) ∈ stepsEnt steps [] → k1 ≠ k →
        ∃ r, judy_slot judy2 k1 k1.length = some r ∧ r.cell = some (.word v1)) ∧
      (∃ r, judy_slot judy2 k k.length = some r ∧ r.cell = some (.word v)) ∧
      judy_enum judy2 buff bmax fuel = some ((ins k v (stepsEnt steps [])).map shown) ∧
      ((ins k v (stepsEnt steps [])).map Prod.fst).Pairwise (· < ·) ∧
      ∀ k1, k1 ∈ (ins k v (stepsEnt steps [])).map Prod.fst ↔
        k1 = k ∨ k1 ∈ (stepsEnt steps []).map Prod.fst := by
  haveI : Fact (M ≤ JUDY_open_max) := ⟨hM⟩
  obtain ⟨judy, hsteps, hmax, hroot, hshort, hlen⟩ := judy_open_steps M steps hok
  obtain ⟨judy2, d, A, B, hput, hmax2, _, _, hrep2⟩ :=
    judy_put_spec M judy _ k v hmax hroot hk hl hv
  have hshort2 : Short M (ins k v (stepsEnt steps [])) := by
    intro e he
    rcases ins_mem_iff k v e _ he with h | h
    · rw [h]; exact hl
    · exact hshort _ h
  have hfind : ∀ k1 v1, (k1, v1) ∈ ins k v (stepsEnt steps []) →
      ∃ r, judy_slot judy2 k1 k1.length = some r ∧ r.cell = some (.word v1) := by
    intro k1 v1 hmem
    obtain ⟨fs, A1, B1, hslot, _, _⟩ := judy_slot_spec M judy2 _ k1 v1 d hmax2 hrep2 hmem
      ((Rep_sorted_good d hrep2).2 _ hmem).1 (hshort2 _ hmem)
    exact ⟨_, hslot, rfl⟩
  refine ⟨judy, judy2, hsteps, ?_, hput, ?_, hfind k v (ins_mem_self k v _), ?_, ?_, ?_⟩
  · intro off keys kids hreach hfull hnew
    rcases hroot with ⟨h0, _⟩ | ⟨d0, hrep⟩
    · rw [h0] at hreach
      obtain ⟨w, hw⟩ := Reach_word0 _ _ hreach
      cases hw
    · rcases Reach_Rep hrep hreach with ⟨w, hw⟩ | ⟨d1, m1, h1⟩
      · cases hw
      · obtain ⟨T, h2, _, h3⟩ := cell_lin_split_eq k hk off d1 keys kids m1 h1 hfull hnew
        exact ⟨T, h2, h3⟩
  · intro k1 v1 hmem hne
    exact hfind k1 v1 (ins_mem_other k v k1 v1 hne _ hmem)
  · exact judy_enum_spec M bmax judy2 _ hmax2 (Or.inr ⟨d, hrep2⟩) hshort2 hb hb32 buff hbl fuel
      (by have := ins_length k v (stepsEnt steps []); omega)
  · have hsorted := (Rep_sorted_good d hrep2).1
    unfold Sorted at hsorted
    rw [List.pairwise_map]
    exact hsorted
  · intro k1
    constructor
    · intro h
      obtain ⟨e, he, rfl⟩ := List.mem_map.1 h
      rcases ins_mem_iff k v e _ he with h | h
      · exact Or.inl (by rw [h])
      · exact Or.inr (List.mem_map.2 ⟨e, h, rfl⟩)
    · rintro (h | h)
      · rw [h]; exact List.mem_map.2 ⟨(k, v), ins_mem_self k v _, rfl⟩
      · obtain ⟨e, he, rfl⟩ := List.mem_map.1 h
        obtain ⟨v2, h2⟩ := ins_mem_keep k v e.1 _ ⟨e.2, he⟩
        exact List.mem_map.2 ⟨(e.1, v2), h2, rfl⟩

set_option maxRecDepth 4096 in
theorem judy_cell_splitnode_witness :
    8 ≤ JUDY_open_max ∧
    (StepsOK 8 (((List.range 32).map
        (fun i => (([107, 48 + i / 10, 48 + i % 10] : List Nat), i + 1))).map
        (fun e => Step.put e.1 e.2)) [] ∧
      ZF [107, 51, 50] ∧ [107, 51, 50].length ≤ 8 ∧ 0 < 33 ∧ 8 < 16 ∧ 16 < 2 ^ 32 ∧
      16 ≤ (List.replicate 16 0).length ∧
      (((List.range 32).map
        (fun i => (([107, 48 + i / 10, 48 + i % 10] : List Nat), i + 1))).map
        (fun e => Step.put e.1 e.2)).length + 2 < 40) ∧
    (∃ judy judy2, judy_steps (((List.range 32).map
          (fun i => (([107, 48 + i / 10, 48 + i % 10] : List Nat), i + 1))).map
          (fun e => Step.put e.1 e.2)) (judy_open 8) = some judy ∧
      (∀ off keys kids, Reach 0 judy.root off (.lin JUDY_32 keys kids) →
        (kidAt kids 0).nonzero = true →
        (key_value [107, 51, 50] [107, 51, 50].length 8 0 off).1 ∉ keys →
        ∃ T, judy_splitnode (.lin JUDY_32 keys kids) (JudySize JUDY_32) (key_size off) =
            some (.radix T) ∧
          ∀ fuel1, cell_loop [107, 51, 50] [107, 51, 50].length (fuel1 + 1)
              (.lin JUDY_32 keys kids) off =
            cell_loop [107, 51, 50] [107, 51, 50].length fuel1 (.radix T) off) ∧
      judy_put judy [107, 51, 50] 33 = some judy2 ∧
      (∀ k1 v1, (k1, v1) ∈ stepsEnt (((List.range 32).map
          (fun i => (([107, 48 + i / 10, 48 + i % 10] : List Nat), i + 1))).map
          (fun e => Step.put e.1 e.2)) [] → k1 ≠ [107, 51, 50] →
        ∃ r, judy_slot judy2 k1 k1.length = some r ∧ r.cell = some (.word v1)) ∧
      (∃ r, judy_slot judy2 [107, 51, 50] [107, 51, 50].length = some r ∧
        r.cell = some (.word 33)) ∧
      judy_enum judy2 (List.replicate 16 0) 16 40 =
        some ((ins [107, 51, 50] 33 (stepsEnt (((List.range 32).map
          (fun i => (([107, 48 + i / 10, 48 + i % 10] : List Nat), i + 1))).map
          (fun e => Step.put e.1 e.2)) [])).map shown) ∧
      ((ins [107, 51, 50] 33 (stepsEnt (((List.range 32).map
          (fun i => (([107, 48 + i / 10, 48 + i % 10] : List Nat), i + 1))).map
          (fun e => Step.put e.1 e.2)) [])).map Prod.fst).Pairwise (· < ·) ∧
      ∀ k1, k1 ∈ (ins [107, 51, 50] 33 (stepsEnt (((List.range 32).map
          (fun i => (([107, 48 + i / 10, 48 + i % 10] : List Nat), i + 1))).map
          (fun e => Step.put e.1 e.2)) [])).map Prod.fst ↔
        k1 = [107, 51, 50] ∨ k1 ∈ (stepsEnt (((List.range 32).map
          (fun i => (([107, 48 + i / 10, 48 + i % 10] : List Nat), i + 1))).map
          (fun e => Step.put e.1 e.2)) []).map Prod.fst) ∧
    (∃ judy judy2 keys kids T, judy_steps (((List.range 32).map
          (fun i => (([107, 48 + i / 10, 48 + i % 10] : List Nat), i + 1))).map
          (fun e => Step.put e.1 e.2)) (judy_open 8) = some judy ∧
      judy.root = .lin JUDY_32 keys kids ∧ keys.length = 32 ∧
      (kidAt kids 0).nonzero = true ∧
      judy_put judy [107, 51, 50] 33 = some judy2 ∧ judy2.root = .radix T ∧
      judy_enum judy2 (List.replicate 16 0) 16 40 = some ((List.range 33).map
        (fun i => (([107, 48 + i / 10, 48 + i % 10] : List Nat), JNode.word (i + 1)))) ∧
      (List.range 33).map (fun i =>
          (judy_slot judy2 [107, 48 + i / 10, 48 + i % 10] 3).bind (fun r => r.cell)) =
        (List.range 33).map (fun i => some (JNode.word (i + 1)))) :=
  ⟨by decide, ⟨StepsOK_puts 8 _ [] (fun e he => by
        obtain ⟨i, hi, rfl⟩ := List.mem_map.1 he
        have hi32 := List.mem_range.1 hi
        refine ⟨fun b hb => ?_, by simp, by simp⟩
        simp at hb
        rcases hb with rfl | rfl | rfl <;> omega),
      by simp [ZF], by decide, by decide, by decide, by decide, by simp, by simp⟩,
    judy_cell_splitnode 8 (by decide) (((List.range 32).map
        (fun i => (([107, 48 + i / 10, 48 + i % 10] : List Nat), i + 1))).map
        (fun e => Step.put e.1 e.2)) [107, 51, 50] 33 (List.replicate 16 0) 16 40
      (StepsOK_puts 8 _ [] (fun e he => by
        obtain ⟨i, hi, rfl⟩ := List.mem_map.1 he
        have hi32 := List.mem_range.1 hi
        refine ⟨fun b hb => ?_, by simp, by simp⟩
        simp at hb
        rcases hb with rfl | rfl | rfl <;> omega))
      (by simp [ZF]) (by decide) (by decide) (by decide) (by decide) (by simp) (by simp),
    ⟨_, _, _, _, _, rfl, rfl, rfl, rfl, rfl, rfl, rfl, rfl⟩⟩

end JudyArray
